import Mathlib

/-!
# Drydock actor runtime

Shallow embedding of the turn scheduler of `prolang/drydock`:
`runtime/turns/turns/{turn,turn_resolver,manager,turn_runner,turn_source,unique_id}.go`,
`runtime/turns/async/{async_r,async_string_r}.go` and `runtime/base/base/{event,event_set}.go`.

* A `*Turn` is `Option Nat`: `none` is the Go `nil` pointer and `some a` points at the `Turn`
  struct at address `a`.  The sentinel `Empty` is the struct at address `0`.  The only mutable
  field of a `Turn` is `next`; a `TurnHeap` gives the `next` field of every address.
* Resolvers, managers, events and sources live in heaps indexed by address (`World`).
* `assert.True` failures (`log.Fatalf`) and Go run-time panics are `Fault`s; a fault keeps the
  world in which it happened (`Res.fault`).
* Loops whose termination depends on the heap take a `fuel` bound.
* Closures are data: `Thunk` and `Fn` have one constructor per function literal of the runtime
  and one for client code.  Client code is a `Prog`: a tree of runtime calls whose continuation
  may depend on what the call returned.
* `World.calls`, `World.ran` and `World.enq` are ghost logs (calls of client functions, turns
  run, turns appended to a manager queue); no modelled function reads them.
-/

set_option autoImplicit false

namespace Drydock

/-- Ways in which the program stops abnormally. -/
inductive Fault where
  /-- `assert.True(cond, msg)` with a false condition. -/
  | precondition (msg : String)
  /-- Go run-time panic: nil pointer dereference. -/
  | nilDeref
  /-- Go run-time panic: send on closed channel. -/
  | sendOnClosed
  /-- Go run-time panic: close of closed channel. -/
  | closeOfClosed
  /-- Go run-time panic: index out of range. -/
  | indexOutOfRange
  /-- Go run-time panic: failed type assertion. -/
  | typeAssertion
  /-- Panic of `reflect.Value.Call`: wrong number of arguments, or an argument whose type is
  not assignable to the type of the parameter ("reflect: Call using int as type string"). -/
  | reflectCall
  /-- The single modelled thread blocks and nothing can wake it. -/
  | blocked
  /-- The bound on loop iterations given to the model was reached. -/
  | outOfFuel
  /-- Client code names an address at which nothing has been allocated (no Go program can). -/
  | wildPointer
  deriving DecidableEq, Repr

/-- The `next` field of every `Turn` struct, by address. -/
abbrev TurnHeap := Nat → Option Nat

/-- Address of the struct behind `var Empty = &Turn{}`. -/
def Empty : Nat := 0

/-- `Turn.IsEmpty`: `list == Empty` (a pointer comparison, no dereference). -/
def IsEmpty (list : Option Nat) : Bool := list == some Empty

/-- `Turn.IsList`: `list.next != nil`. -/
def IsList (h : TurnHeap) (list : Option Nat) : Except Fault Bool :=
  match list with
  | none => .error .nilDeref
  | some l => .ok (h l).isSome

/-- `Turn.Peek`: `list.next`. -/
def Peek (h : TurnHeap) (list : Option Nat) : Except Fault (Option Nat) :=
  match list with
  | none => .error .nilDeref
  | some l => .ok (h l)

/-- `Turn.Append`: returns the updated heap and the new list handle. -/
def Append (h : TurnHeap) (list add : Option Nat) : Except Fault (TurnHeap × Option Nat) :=
  match add with
  | none => .error (.precondition "Can't append null to a turn queue.")
  | some a =>
    if IsEmpty (some a) then .error (.precondition "Can't append Empty to a turn queue.")
    else if (h a).isSome then
      .error (.precondition "Can't append a turn that is already in a list.")
    else if IsEmpty list then
      -- add.next = add
      .ok (Function.update h a (some a), some a)
    else
      match list with
      | none => .error .nilDeref
      | some l =>
        -- head := list.next; add.next = head; list.next = add
        let head := h l
        let h1 := Function.update h a head
        let h2 := Function.update h1 l (some a)
        .ok (h2, some a)

/-- `Turn.RemoveHead`: returns the updated heap, the removed head and the new list handle. -/
def RemoveHead (h : TurnHeap) (list : Option Nat) :
    Except Fault (TurnHeap × Option Nat × Option Nat) :=
  if IsEmpty list then .error (.precondition "Cannot remove from empty list.")
  else
    match list with
    | none => .error .nilDeref
    | some l =>
      match h l with
      | none =>
        -- head == nil and list.next != list: `head.next` dereferences nil
        .error .nilDeref
      | some hd =>
        if hd = l then
          -- list = Empty; head.next = nil
          .ok (Function.update h hd none, some hd, some Empty)
        else
          -- list.next = head.next; head.next = nil
          let h1 := Function.update h l (h hd)
          let h2 := Function.update h1 hd none
          .ok (h2, some hd, some l)

/-- The search loop of `Turn.Unlink`:
`for before.next != t { before = before.next; assert before != list }`. -/
def unlinkFind (h : TurnHeap) (list t : Nat) : Nat → Option Nat → Except Fault Nat
  | 0, _ => .error .outOfFuel
  | _ + 1, none => .error .nilDeref
  | fuel + 1, some b =>
    if h b = some t then .ok b
    else if h b = some list then
      .error (.precondition "Expected item %v to be in list %v.")
    else unlinkFind h list t fuel (h b)

/-- `Turn.Unlink`: returns the updated heap and the new list handle.  `fuel` bounds the
iterations of the search loop. -/
def Unlink (fuel : Nat) (h : TurnHeap) (list t : Option Nat) :
    Except Fault (TurnHeap × Option Nat) :=
  match t with
  | none => .error .nilDeref
  | some tt =>
    if (h tt).isNone then .ok (h, list)
    else if IsEmpty list then .error (.precondition "Cannot unlink from an empty list.")
    else
      match list with
      | none => .error .nilDeref
      | some l =>
        if (h l).isNone then .error (.precondition "Cannot unlink from single item.")
        else if h l = some l then
          if l = tt then .ok (Function.update h tt none, some Empty)
          else .error (.precondition "Expected item %v to be in list %v.")
        else if h l = some tt then
          -- list.next = t.next; t.next = nil
          .ok (Function.update (Function.update h l (h tt)) tt none, some l)
        else
          match unlinkFind h l tt fuel (h l) with
          | .error f => .error f
          | .ok before =>
            -- before.next = t.next; t.next = nil
            let h2 := Function.update (Function.update h before (h tt)) tt none
            .ok (h2, if tt = l then some before else some l)

/-- Appends the turns `ts` one after the other: `list = list.Append(t)` for each `t`. -/
def appendAll (h : TurnHeap) (list : Option Nat) : List Nat → Except Fault (TurnHeap × Option Nat)
  | [] => .ok (h, list)
  | t :: ts =>
    match Append h list (some t) with
    | .error f => .error f
    | .ok (h1, l1) => appendAll h1 l1 ts

/-- Calls `head, list = list.RemoveHead()` `n` times and collects the heads in call order. -/
def removeHeads : Nat → TurnHeap → Option Nat → Except Fault (TurnHeap × List (Option Nat) × Option Nat)
  | 0, h, list => .ok (h, [], list)
  | n + 1, h, list =>
    match RemoveHead h list with
    | .error f => .error f
    | .ok (h1, head, l1) =>
      match removeHeads n h1 l1 with
      | .error f => .error f
      | .ok (h2, heads, l2) => .ok (h2, head :: heads, l2)

/-- Every turn of `xs` has the following turn of `xs` as its `next`, and the last one has
`c` as its `next`. -/
def Links (h : TurnHeap) : List Nat → Nat → Prop
  | [], _ => True
  | x :: xs, c => h x = some (xs.headD c) ∧ Links h xs c

/-- The handle `l` is a well-formed turn list with elements `xs` (head first): `Empty` when
`xs` is empty, otherwise the tail of a circular ring of distinct turns, none of them `Empty`,
whose `next` is the head. -/
def Ring (h : TurnHeap) (l : Option Nat) (xs : List Nat) : Prop :=
  l = some (xs.getLastD Empty) ∧ Links h xs (xs.headD Empty) ∧ xs.Nodup ∧ Empty ∉ xs

/-! ## Values, types and client code -/

/-- A non-nil `error` value that client code can hold; errors are compared by identity.  The
unexported sentinel `errSuccess` of `manager.go` is not one of them (see `ExitErr`). -/
structure Err where
  id : Nat
  deriving DecidableEq, Repr

/-- The `reflect.Type`s that `WhenT` inspects. -/
inductive Ty where
  | iface
  | error
  | string
  | int
  | R
  | StringR
  | ResultT
  deriving DecidableEq, Repr

/-- The method `reflect.Type.AssignableTo` on the modelled types: identical types, or the
target is `interface{}`. -/
def Ty.AssignableTo (t u : Ty) : Bool := t == u || u == .iface

/-- The call `t.Implements(reflectTypeAwaitableT)`: only `R` and `StringR` have `Base`, `Type`
and `WhenT`. -/
def Ty.ImplementsAwaitableT : Ty → Bool
  | .R => true
  | .StringR => true
  | _ => false

/-- A Go value held in an `interface{}`; `result ty s` is an `R`, `StringR` or `ResultT`
struct whose resolver field is `s`. -/
inductive Iface where
  | nil
  | str (s : String)
  | int (n : Int)
  | err (e : Err)
  | result (ty : Ty) (s : Option Nat)
  deriving DecidableEq, Repr

/-- The value `reflect.New(t).Elem()`: the zero value of `t`. -/
def zeroValue : Ty → Iface
  | .iface => .nil
  | .error => .nil
  | .string => .str ""
  | .int => .int 0
  | .R => .result .R none
  | .StringR => .result .StringR none
  | .ResultT => .result .ResultT none

/-- The type assertion `v.(error)` in its two-result form. -/
def Iface.asError : Iface → Option Err
  | .err e => some e
  | _ => none

/-- An `error` value as an `interface{}`. -/
def ofError : Option Err → Iface
  | none => .nil
  | some e => .err e

/-- The check of `reflect.Value.Call` on one argument: the type of the `reflect.Value` built
from `v` is assignable to the parameter type `t`.  The value `reflect.ValueOf(v)` has the
dynamic type of `v`; the zero value of an interface type (`nil`) is only made with
`reflect.New(t).Elem()` for `interface{}` and `error`. -/
def Iface.AssignableTo (v : Iface) (t : Ty) : Bool :=
  match v with
  | .nil => t == .iface || t == .error
  | .str _ => Ty.string.AssignableTo t
  | .int _ => Ty.int.AssignableTo t
  | .err _ => t == .error || t == .iface
  | .result ty _ => ty.AssignableTo t

/-- The checks of `reflect.Value.Call` on the arguments against the parameter types `ins` of
the function: as many arguments as parameters, each assignable to its parameter. -/
def argsAssignable : List Iface → List Ty → Bool
  | [], [] => true
  | v :: vs, t :: ts => v.AssignableTo t && argsAssignable vs ts
  | _, _ => false

/-- Parameter and result types of a function value (`fType.In(i)`, `fType.Out(i)`). -/
structure FnSig where
  ins : List Ty
  outs : List Ty
  deriving DecidableEq, Repr

/-- The struct `turnRunner`; `done` is the resolver of its `done` result. -/
structure Runner where
  manager : Nat
  done : Nat

/-- Client code: a sequence of calls into the runtime ending in the returned values.  The
continuation of a call that returns something takes the returned address. -/
inductive Prog where
  /-- `return vals`. -/
  | ret (vals : List Iface)
  /-- `r, s := runner.NewResultT()` on the runner of manager `m`. -/
  | newResult (m : Nat) (k : Nat → Prog)
  /-- `s.Complete(v)`. -/
  | complete (s : Nat) (v : Iface) (k : Prog)
  /-- `s.Fail(e)`. -/
  | fail (s : Nat) (e : Option Err) (k : Prog)
  /-- `s.Resolve(v, e)`. -/
  | resolve (s : Nat) (v : Iface) (e : Option Err) (k : Prog)
  /-- `s.Forward(n)` where `n` is the resolver field of the result passed. -/
  | forward (s : Nat) (n : Option Nat) (k : Prog)
  /-- `r.WhenT(in, out, outR, f)` with the function literal `f` of signature `sig`; `fid`
  names `f` in the call log. -/
  | when (r : Nat) (inTy out outR : Ty) (fid : Nat) (sig : FnSig) (f : List Iface → Prog)
      (k : Nat → Prog)
  /-- `m.NewTurn(name, body)`. -/
  | newTurn (m : Nat) (name : String) (body : Prog) (k : Prog)
  /-- `t := NewTurn(name, body)`. -/
  | allocTurn (name : String) (body : Prog) (k : Nat → Prog)
  /-- `m.Queue(t)`. -/
  | queue (m : Nat) (t : Option Nat) (k : Prog)
  /-- `r := runner.New(f)` on the runner `runner`; `fid` names `f` in the call log. -/
  | spawn (runner : Runner) (fid : Nat) (f : Prog) (k : Nat → Prog)

/-- A function value passed to `WhenT`. -/
inductive Fn where
  /-- A function literal of client code. -/
  | user (fid : Nat) (sig : FnSig) (body : List Iface → Prog)
  /-- The literal `func(err error) error` of `Manager.RunUntil`, which records into the
  captured variable `mainExited` at `cell`. -/
  | runUntilRecord (cell : Nat)
  /-- The literal `func(interface{}, error) R { f(); return r }` of `Finally`
  (`outR = R`) and `FinallyString` (`outR = StringR`); `fid` names `f` in the call log. -/
  | finallyFn (outR : Ty) (fid : Nat) (f : Prog) (r : Option Nat)
  /-- The literal `func(err error) { s.Resolve(err) }` of `RunActor`. -/
  | actorResolve (s : Nat)

/-- The signature of a function value. -/
def Fn.sig : Fn → FnSig
  | .user _ sig _ => sig
  | .runUntilRecord _ => ⟨[.error], [.error]⟩
  | .finallyFn outR _ _ _ => ⟨[.iface, .error], [outR]⟩
  | .actorResolve _ => ⟨[.error], []⟩

/-- The function `f` of a `Turn`. -/
inductive Thunk where
  /-- A function literal of client code. -/
  | user (body : Prog)
  /-- The literal that `WhenT` passes to `NewTurn`, with its captured variables. -/
  | whenTurn (s outer : Nat) (inTy : Ty) (takeValue takeError returnsResult : Bool) (f : Fn)
  /-- The literal that `RunUntil` passes to `NewTurn`: `async.When(main, record)`. -/
  | runUntil (main : Nat) (cell : Nat)
  /-- The literal that `turnRunner.New` passes to `NewTurn`: `next := f(); s.Forward(next)`;
  `fid` names `f` in the call log. -/
  | runnerNew (s : Nat) (fid : Nat) (f : Prog)
  /-- The literal that `RunActor` passes to `NewTurn`:
  `async.When(root(runner), func(err error) { s.Resolve(err) })`; `root` is the body of the
  root function on the runner of the actor and `fid` names it in the call log. -/
  | actorMain (s : Nat) (fid : Nat) (root : Prog)
  /-- The literal `func() { s.Resolve(nil, err) }` of `turnSource.New`; the captured variable
  `err` is at `cell`. -/
  | ioResult (s : Nat) (cell : Nat)

/-! ## The heap -/

/-- The struct `turnResolver`; `turns = none` is the Go `nil` that marks a resolved or
forwarded resolver. -/
structure Resolver where
  manager : Nat
  turns : Option Nat
  outcome : Iface
  next : Option Nat

/-- The struct `Event`: a channel of capacity one (`signaled` = it holds a value) that may
have been closed, and the datum. -/
structure Event where
  signaled : Bool
  closed : Bool
  data : Nat

/-- Direction of a `reflect.SelectCase`. -/
inductive Dir where
  | selectDefault
  | selectRecv
  deriving DecidableEq, Repr

/-- A `reflect.SelectCase`; `chan = none` is the zero `Value`. -/
structure SelectCase where
  dir : Dir
  chan : Option Nat
  deriving DecidableEq, Repr

/-- The struct `EventSet`. -/
structure EventSet where
  cases : List SelectCase
  events : List (Option Nat)

/-- The struct `Manager`. -/
structure Manager where
  sources : EventSet
  turns : Option Nat
  idgen : Nat

/-- The struct `turnSource` (the mutex is not modelled: one thread). -/
structure Source where
  manager : Nat
  name : String
  event : Option Nat
  list : Option Nat

/-- Content of the variable `mainExited` of `RunUntil` when it is not `nil`. -/
inductive ExitErr where
  | errSuccess
  | err (e : Err)
  deriving DecidableEq, Repr

/-- The whole state of the program. -/
structure World where
  /-- `Turn.next` by address. -/
  tnext : TurnHeap
  /-- `Turn.f` by address. -/
  tf : Nat → Thunk
  /-- `Turn.name` by address. -/
  tname : Nat → String
  /-- First address at which no `Turn` has been allocated. -/
  talloc : Nat
  /-- Resolvers by address. -/
  res : Nat → Resolver
  /-- First address at which no resolver has been allocated. -/
  ralloc : Nat
  /-- Managers by address. -/
  mgr : Nat → Manager
  /-- First address at which no manager has been allocated. -/
  malloc : Nat
  /-- `UniqueIDGenerator.next` by address. -/
  gen : Nat → Int
  /-- First address at which no generator has been allocated. -/
  galloc : Nat
  /-- Events by address. -/
  ev : Nat → Event
  /-- First address at which no event has been allocated. -/
  ealloc : Nat
  /-- Sources by address. -/
  src : Nat → Source
  /-- First address at which no source has been allocated. -/
  salloc : Nat
  /-- Captured `mainExited` variables by address. -/
  cells : Nat → Option ExitErr
  /-- First address at which no variable has been allocated. -/
  calloc : Nat
  /-- Captured `err` variables of `turnSource.New` by address. -/
  errs : Nat → Option Err
  /-- First address at which no such variable has been allocated. -/
  erralloc : Nat
  /-- The pseudo-random choice of `reflect.Select` among the ready cases, by call number. -/
  chooser : Nat → List Nat → Nat
  /-- Number of `reflect.Select` calls made. -/
  nsel : Nat
  /-- Ghost: calls of client functions, with their arguments, in call order. -/
  calls : List (Nat × List Iface)
  /-- Ghost: turns whose function was run, in order. -/
  ran : List Nat
  /-- Ghost: turns appended to each manager queue, in order. -/
  enq : Nat → List Nat

/-- The world before anything is allocated; only `Empty` exists. -/
def World.init : World where
  tnext := fun _ => none
  tf := fun _ => .user (.ret [])
  tname := fun _ => ""
  talloc := 1
  res := fun _ => ⟨0, none, .nil, none⟩
  ralloc := 0
  mgr := fun _ => ⟨⟨[], []⟩, some Empty, 0⟩
  malloc := 0
  gen := fun _ => 1
  galloc := 0
  ev := fun _ => ⟨false, false, 0⟩
  ealloc := 0
  src := fun _ => ⟨0, "", none, some Empty⟩
  salloc := 0
  cells := fun _ => none
  calloc := 0
  errs := fun _ => none
  erralloc := 0
  chooser := fun _ _ => 0
  nsel := 0
  calls := []
  ran := []
  enq := fun _ => []

/-- Result of running a piece of the program: normal return with a value, or a fault; both
with the world reached. -/
inductive Res (α : Type) where
  | ok (a : α) (w : World)
  | fault (f : Fault) (w : World)

/-- A piece of the program: a function of the world. -/
def M (α : Type) : Type := World → Res α

instance : Monad M where
  pure a := fun w => .ok a w
  bind x f := fun w =>
    match x w with
    | .ok a w1 => f a w1
    | .fault e w1 => .fault e w1

/-- Stops with a fault. -/
def abort {α : Type} (f : Fault) : M α := fun w => .fault f w

/-- The call `assert.True(c, msg)`. -/
def assertTrue (c : Bool) (msg : String) : M Unit := fun w =>
  if c then .ok () w else .fault (.precondition msg) w

/-! ## Identifiers and turns -/

/-- Wrap-around of `int64` arithmetic. -/
def wrap64 (x : Int) : Int := (x + 2 ^ 63) % 2 ^ 64 - 2 ^ 63

/-- `NewUniqueIDGenerator`. -/
def NewUniqueIDGenerator : M Nat := fun w =>
  .ok w.galloc { w with gen := Function.update w.gen w.galloc 1, galloc := w.galloc + 1 }

/-- `UniqueIDGenerator.NewID`: `id := gen.next; gen.next++`. -/
def UniqueIDGenerator.NewID (g : Nat) : M Int := fun w =>
  .ok (w.gen g) { w with gen := Function.update w.gen g (wrap64 (w.gen g + 1)) }

/-- `UniqueID.String`: `fmt.Sprintf("%d", id)`. -/
def UniqueID.String (id : Int) : String := toString id

/-- `Manager.NewID`. -/
def Manager.NewID (m : Nat) : M Int := fun w => UniqueIDGenerator.NewID (w.mgr m).idgen w

/-- `NewTurn(name, f)`: allocates a `Turn` with `next: nil`. -/
def NewTurn (name : String) (f : Thunk) : M Nat := fun w =>
  .ok w.talloc { w with
    tnext := Function.update w.tnext w.talloc none
    tf := Function.update w.tf w.talloc f
    tname := Function.update w.tname w.talloc name
    talloc := w.talloc + 1 }

/-- `NewEventSet`. -/
def NewEventSet : EventSet := ⟨[⟨.selectDefault, none⟩], [none]⟩

/-- `NewManager(idgen)`. -/
def NewManager (idgen : Nat) : M Nat := fun w =>
  .ok w.malloc { w with
    mgr := Function.update w.mgr w.malloc ⟨NewEventSet, some Empty, idgen⟩
    malloc := w.malloc + 1 }

/-- `Manager.Queue(t)`: `m.turns = m.turns.Append(t)`. -/
def Manager.Queue (m : Nat) (t : Option Nat) : M Unit := fun w =>
  match Append w.tnext (w.mgr m).turns t with
  | .error f => .fault f w
  | .ok (h, l) =>
    .ok () { w with
      tnext := h
      mgr := Function.update w.mgr m { w.mgr m with turns := l }
      enq := Function.update w.enq m (w.enq m ++ t.toList) }

/-- `Manager.NewTurn(name, f)`. -/
def Manager.NewTurn (m : Nat) (name : String) (f : Thunk) : M Unit := do
  let t ← Drydock.NewTurn name f
  Manager.Queue m (some t)

/-- `Manager.isIdle`. -/
def Manager.isIdle (w : World) (m : Nat) : Bool := IsEmpty (w.mgr m).turns

/-! ## Resolvers (`turn_resolver.go`) -/

/-- `newTurnResolver(manager)`. -/
def newTurnResolver (manager : Nat) : M Nat := fun w =>
  .ok w.ralloc { w with
    res := Function.update w.res w.ralloc ⟨manager, some Empty, .nil, none⟩
    ralloc := w.ralloc + 1 }

/-- `turnResolver.isResolved`: `s.turns == nil`. -/
def isResolved (w : World) (s : Nat) : Bool := (w.res s).turns.isNone

/-- `turnResolver.getShortest`: `for s.next != nil { s = s.next }`. -/
def getShortest : Nat → Nat → M Nat
  | 0, s => fun w =>
    match (w.res s).next with
    | none => .ok s w
    | some _ => .fault .outOfFuel w
  | fuel + 1, s => fun w =>
    match (w.res s).next with
    | none => .ok s w
    | some n => getShortest fuel n w

/-- `turnResolver.queue(turn)`. -/
def queue (s : Nat) (turn : Option Nat) : M Unit := fun w =>
  if isResolved w s then Manager.Queue (w.res s).manager turn w
  else
    match Append w.tnext (w.res s).turns turn with
    | .error f => .fault f w
    | .ok (h, l) =>
      .ok () { w with tnext := h, res := Function.update w.res s { w.res s with turns := l } }

/-- `turnResolver.queueList(list)`:
`for !list.IsEmpty() { head, list = list.RemoveHead(); s.queue(head) }`. -/
def queueList (s : Nat) : Nat → Option Nat → M Unit
  | 0, list => fun w => if IsEmpty list then .ok () w else .fault .outOfFuel w
  | fuel + 1, list => fun w =>
    if IsEmpty list then .ok () w
    else
      match RemoveHead w.tnext list with
      | .error f => .fault f w
      | .ok (h, head, rest) =>
        match queue s head { w with tnext := h } with
        | .fault f w1 => .fault f w1
        | .ok _ w1 => queueList s fuel rest w1

/-- `turnResolver.resolve(outcome)`. -/
def resolve (fuel : Nat) (s : Nat) (outcome : Iface) : M Unit := fun w =>
  if isResolved w s then .fault (.precondition "Can't resolve an already resolved result.") w
  else
    queueList s fuel (w.res s).turns
      { w with res := Function.update w.res s { w.res s with turns := none, outcome := outcome } }

/-- `turnResolver.Complete(value)`. -/
def Complete (fuel : Nat) (s : Nat) (value : Iface) : M Unit := do
  assertTrue (!value.asError.isSome) "Cannot succeed with an error."
  resolve fuel s value

/-- `turnResolver.Fail(err)`. -/
def Fail (fuel : Nat) (s : Nat) (err : Option Err) : M Unit := do
  assertTrue err.isSome "Cannot fail with nil error."
  resolve fuel s (ofError err)

/-- `turnResolver.Resolve(value, err)`. -/
def Resolve (fuel : Nat) (s : Nat) (value : Iface) (err : Option Err) : M Unit := do
  assertTrue (!value.asError.isSome) "Cannot succeed with an error."
  if err.isSome then do
    assertTrue (value == .nil) "Provide either value or err but not both."
    resolve fuel s (ofError err)
  else
    resolve fuel s value

/-- `turnResolver.Forward(n)`; `n` is the resolver field of the `ResultT` passed. -/
def Forward (fuel : Nat) (s : Nat) (n : Option Nat) : M Unit := fun w =>
  if isResolved w s then
    .fault (.precondition "Cannot forward an already completed result.") w
  else
    match n with
    | none => .fault .typeAssertion w
    | some nx =>
      if (w.res nx).manager ≠ (w.res s).manager then
        .fault (.precondition "Cannot forward across managers.") w
      else
        match getShortest fuel nx w with
        | .fault f w1 => .fault f w1
        | .ok next w1 =>
          queueList next fuel (w1.res s).turns
            { w1 with res := (Function.update w1.res s
                { w1.res s with turns := none, outcome := .nil, next := some next }) }

/-- The validation of the inputs of `f` at the head of `WhenT`; returns
`(takeValue, takeError)`. -/
def validateIns (inTy : Ty) (ins : List Ty) : Except Fault (Bool × Bool) :=
  match ins with
  | [] => .ok (false, false)
  | [a] =>
    if a = .error then .ok (false, true)
    else if inTy.AssignableTo a then .ok (true, false)
    else .error (.precondition "in MUST be assignable to value")
  | [a, b] =>
    if !inTy.AssignableTo a then .error (.precondition "in MUST be assignable to value")
    else if b ≠ .error then .error (.precondition "f MUST take err")
    else .ok (true, true)
  | _ => .error (.precondition "f MUST take val, err, both or neither")

/-- The validation of the outputs of `f` at the head of `WhenT`; returns `returnsResult`. -/
def validateOuts (out outR : Ty) (outs : List Ty) : Except Fault Bool :=
  match outs with
  | [] =>
    if out ≠ .iface then .error (.precondition "func() ONLY allowed on void results")
    else .ok false
  | [a] =>
    if a.ImplementsAwaitableT then
      if a ≠ outR then .error (.precondition "result MUST be ResultT") else .ok true
    else if a = .error then
      if out ≠ .iface then
        .error (.precondition "func() error ONLY allowed on void results")
      else .ok false
    else if !a.AssignableTo out then
      .error (.precondition "value MUST be assignable to out")
    else .ok false
  | [a, b] =>
    if !a.AssignableTo out then .error (.precondition "value MUST be assignable to out")
    else if b ≠ .error then .error (.precondition "err MUST be error")
    else .ok false
  | _ => .error (.precondition "f MUST return val, (val, err), or async")

/-- The structural validation at the head of `WhenT`; returns
`(takeValue, takeError, returnsResult)`. -/
def whenValidate (inTy out outR : Ty) (sig : FnSig) : Except Fault (Bool × Bool × Bool) :=
  match validateIns inTy sig.ins with
  | .error e => .error e
  | .ok (takeValue, takeError) =>
    match validateOuts out outR sig.outs with
    | .error e => .error e
    | .ok returnsResult => .ok (takeValue, takeError, returnsResult)

/-- `turnResolver.WhenT(in, out, outR, f)`; returns the resolver of the result.  The recursive
call on `s.getShortest()` is unfolded: it validates the same types again and finds
`next == nil`. -/
def WhenT (fuel : Nat) (s : Nat) (inTy out outR : Ty) (f : Fn) : M Nat := fun w =>
  match whenValidate inTy out outR f.sig with
  | .error e => .fault e w
  | .ok (takeValue, takeError, returnsResult) =>
    match (if (w.res s).next.isSome then getShortest fuel s w else .ok s w) with
    | .fault e w1 => .fault e w1
    | .ok s1 w1 =>
      (do
        let outer ← newTurnResolver (w1.res s1).manager
        let id ← Manager.NewID (w1.res s1).manager
        let turn ← NewTurn ("When" ++ UniqueID.String id)
          (.whenTurn s1 outer inTy takeValue takeError returnsResult f)
        queue s1 (some turn)
        pure outer) w1

/-- Registers the continuations `cs` (each `(in, out, outR, f)`) on `s`, one `WhenT` call after
the other; returns the resolvers of the results. -/
def whenAll (fuel : Nat) (s : Nat) : List (Ty × Ty × Ty × Fn) → M (List Nat)
  | [] => pure []
  | c :: cs => do
    let o ← WhenT fuel s c.1 c.2.1 c.2.2.1 c.2.2.2
    let os ← whenAll fuel s cs
    pure (o :: os)

/-- `turnRunner.NewResultT`; result and resolver are the same address. -/
def turnRunner.NewResultT (t : Runner) : M Nat := newTurnResolver t.manager

/-- `turnRunner.Done`. -/
def turnRunner.Done (t : Runner) : Nat := t.done

/-- `turnRunner.New(f)`; `fid` names `f` in the call log.  Returns the resolver of the
result. -/
def turnRunner.New (t : Runner) (fid : Nat) (f : Prog) : M Nat := do
  let s ← turnRunner.NewResultT t
  let id ← Manager.NewID t.manager
  Manager.NewTurn t.manager ("New" ++ UniqueID.String id) (.runnerNew s fid f)
  pure s

/-- Client code can only hold addresses of allocated structs. -/
def guardAlloc (c : World → Bool) : M Unit := fun w =>
  if c w then .ok () w else .fault .wildPointer w

/-- A result value names an allocated resolver. -/
def resultAlloc (w : World) : Iface → Bool
  | .result _ (some n) => decide (n < w.ralloc)
  | _ => true

/-- Runs client code. -/
def exec (fuel : Nat) : Prog → M (List Iface)
  | .ret vals => do
    guardAlloc (fun w => vals.all (resultAlloc w))
    pure vals
  | .newResult m k => fun w =>
    match (guardAlloc (fun w => m < w.malloc) >>= fun _ => newTurnResolver m) w with
    | .fault e w1 => .fault e w1
    | .ok s w1 => exec fuel (k s) w1
  | .complete s v k => do
    guardAlloc (fun w => s < w.ralloc)
    Complete fuel s v
    exec fuel k
  | .fail s e k => do
    guardAlloc (fun w => s < w.ralloc)
    Fail fuel s e
    exec fuel k
  | .resolve s v e k => do
    guardAlloc (fun w => s < w.ralloc)
    Resolve fuel s v e
    exec fuel k
  | .forward s n k => do
    guardAlloc (fun w => s < w.ralloc && n.all (· < w.ralloc))
    Forward fuel s n
    exec fuel k
  | .when r inTy out outR fid sig f k => fun w =>
    match (guardAlloc (fun w => r < w.ralloc) >>= fun _ =>
        WhenT fuel r inTy out outR (.user fid sig f)) w with
    | .fault e w1 => .fault e w1
    | .ok o w1 => exec fuel (k o) w1
  | .newTurn m name body k => do
    guardAlloc (fun w => m < w.malloc)
    Manager.NewTurn m name (.user body)
    exec fuel k
  | .allocTurn name body k => fun w =>
    match NewTurn name (.user body) w with
    | .fault e w1 => .fault e w1
    | .ok t w1 => exec fuel (k t) w1
  | .queue m t k => do
    guardAlloc (fun w => m < w.malloc && t.all (· < w.talloc))
    Manager.Queue m t
    exec fuel k
  | .spawn runner fid f k => fun w =>
    match (guardAlloc (fun w => runner.manager < w.malloc) >>= fun _ =>
        turnRunner.New runner fid f) w with
    | .fault e w1 => .fault e w1
    | .ok s w1 => exec fuel (k s) w1

/-- Ghost: records a call of the client function `fid`. -/
def logCall (fid : Nat) (args : List Iface) : M Unit := fun w =>
  .ok () { w with calls := w.calls ++ [(fid, args)] }

/-- The call `reflect.ValueOf(f).Call(args)`; returns `retvals`.  `Call` panics before it
calls `f` when the arguments do not fit the parameters of `f`; the literals of the runtime
itself are only ever called on an `error` and on `interface{}` values, which fit theirs. -/
def callFn (fuel : Nat) : Fn → List Iface → M (List Iface)
  | .user fid sig body, args => fun w =>
    if argsAssignable args sig.ins then
      (logCall fid args >>= fun _ => exec fuel (body args)) w
    else .fault .reflectCall w
  | .runUntilRecord cell, args => fun w =>
    match args with
    | [a] =>
      -- if err != nil { mainExited = err } else { mainExited = errSuccess }; return err
      let v := match a.asError with
        | some e => ExitErr.err e
        | none => ExitErr.errSuccess
      .ok [a] { w with cells := Function.update w.cells cell (some v) }
    | _ => .fault .indexOutOfRange w
  | .finallyFn outR fid f r, _ => do
    -- f(); return r
    logCall fid []
    let _ ← exec fuel f
    pure [.result outR r]
  | .actorResolve s, args => fun w =>
    match args with
    | [a] =>
      -- s.Resolve(err), which is r.s.Resolve(nil, err)
      match Resolve fuel s .nil a.asError w with
      | .fault f w1 => .fault f w1
      | .ok _ w1 => .ok [] w1
    | _ => .fault .indexOutOfRange w

/-- Ghost: what a call of `f` on `args` adds to the call log. -/
def Fn.callLog (f : Fn) (args : List Iface) : List (Nat × List Iface) :=
  match f with
  | .user fid _ _ => [(fid, args)]
  | .runUntilRecord _ => []
  | .finallyFn _ fid _ _ => [(fid, [])]
  | .actorResolve _ => []

/-- The function literal of `WhenT`, run when the continuation turn runs. -/
def runWhen (fuel : Nat) (s outer : Nat) (inTy : Ty) (takeValue takeError returnsResult : Bool)
    (f : Fn) : M Unit := fun w =>
  match getShortest fuel s w with
  | .fault e w1 => .fault e w1
  | .ok final w1 =>
    if !isResolved w1 final then
      .fault (.precondition "When's shouldn't run if the target is not resolved.") w1
    else
      let err := (w1.res final).outcome.asError
      let value := if err.isSome then Iface.nil else (w1.res final).outcome
      if !takeError && err.isSome then Fail fuel outer err w1
      else
        let args :=
          (if takeValue then [if value = .nil then zeroValue inTy else value] else []) ++
          (if takeError then [ofError err] else [])
        match callFn fuel f args w1 with
        | .fault e w2 => .fault e w2
        | .ok retvals w2 =>
          if returnsResult then
            match retvals with
            | [] => .fault .indexOutOfRange w2
            | .result _ n :: _ => Forward fuel outer n w2
            | _ :: _ => .fault .typeAssertion w2
          else
            match retvals with
            | [v, e] =>
              match e.asError with
              | some e1 => resolve fuel outer (.err e1) w2
              | none => resolve fuel outer v w2
            | [v] => resolve fuel outer v w2
            | _ => resolve fuel outer .nil w2

/-- Calls the function of a turn. -/
def runThunk (fuel : Nat) : Thunk → M Unit
  | .user body => do
    let _ ← exec fuel body
    pure ()
  | .whenTurn s outer inTy takeValue takeError returnsResult f =>
    runWhen fuel s outer inTy takeValue takeError returnsResult f
  | .runUntil main cell => do
    -- async.When(main, record): main is an R
    let _ ← WhenT fuel main .iface .iface .R (.runUntilRecord cell)
    pure ()
  | .runnerNew s fid f => fun w =>
    -- next := f(); s.Forward(next)
    match (logCall fid [] >>= fun _ => exec fuel f) w with
    | .fault e w1 => .fault e w1
    | .ok retvals w1 =>
      match retvals with
      | .result _ n :: _ => Forward fuel s n w1
      | _ => .fault .typeAssertion w1
  | .actorMain s fid root => fun w =>
    -- async.When(root(runner), func(err error) { s.Resolve(err) })
    match (logCall fid [] >>= fun _ => exec fuel root) w with
    | .fault e w1 => .fault e w1
    | .ok retvals w1 =>
      match retvals with
      | .result _ (some x) :: _ =>
        match WhenT fuel x .iface .iface .R (.actorResolve s) w1 with
        | .fault e w2 => .fault e w2
        | .ok _ w2 => .ok () w2
      | .result _ none :: _ => .fault .nilDeref w1
      | _ => .fault .typeAssertion w1
  | .ioResult s cell => fun w => Resolve fuel s .nil (w.errs cell) w

/-- `Turn.Run`. -/
def Run (fuel : Nat) (list : Option Nat) : M Unit := fun w =>
  if IsEmpty list then .fault (.precondition "Cannot execute the empty list: %v") w
  else
    match list with
    | none => .fault .nilDeref w
    | some t =>
      if (w.tnext t).isSome then
        .fault (.precondition "Cannot execute lists, only single turns: %v.") w
      else runThunk fuel (w.tf t) { w with ran := w.ran ++ [t] }

/-! ## Events and event sets (`event.go`, `event_set.go`) -/

/-- `NewEvent(data)`. -/
def NewEvent (data : Nat) : M Nat := fun w =>
  .ok w.ealloc { w with
    ev := Function.update w.ev w.ealloc ⟨false, false, data⟩
    ealloc := w.ealloc + 1 }

/-- `Event.Signal`: a non-blocking send on the channel of capacity one. -/
def Event.Signal (e : Option Nat) : M Unit := fun w =>
  match e with
  | none => .fault .nilDeref w
  | some a =>
    if (w.ev a).closed then .fault .sendOnClosed w
    else .ok () { w with ev := Function.update w.ev a { w.ev a with signaled := true } }

/-- `Event.Close`: `close(e.signal)`. -/
def Event.Close (e : Option Nat) : M Unit := fun w =>
  match e with
  | none => .fault .nilDeref w
  | some a =>
    if (w.ev a).closed then .fault .closeOfClosed w
    else .ok () { w with ev := Function.update w.ev a { w.ev a with closed := true } }

/-- `EventSet.Add(e)`. -/
def EventSet.Add (m : Nat) (e : Nat) : M Unit := fun w =>
  let es := (w.mgr m).sources
  .ok () { w with mgr := Function.update w.mgr m { w.mgr m with
    sources := ⟨es.cases ++ [⟨.selectRecv, some e⟩], es.events ++ [some e]⟩ } }

/-- A receive case is ready when its channel holds a value or is closed; a case whose channel
is the zero `Value` is ignored and the default case is never ready. -/
def caseReady (w : World) (c : SelectCase) : Bool :=
  match c.dir, c.chan with
  | .selectRecv, some e => (w.ev e).signaled || (w.ev e).closed
  | _, _ => false

/-- Indices of the ready cases. -/
def readyCases (w : World) (cases : List SelectCase) : List Nat :=
  (List.range cases.length).filter fun i =>
    match cases.get? i with
    | some c => caseReady w c
    | none => false

/-- The call `reflect.Select(w.cases)` on the event set of manager `m`; returns
`(chosen, recvOK)`.  One of the ready cases is chosen by `World.chooser`; without a ready
case the default case is chosen if there is one, and otherwise the call blocks. -/
def reflectSelect (m : Nat) : M (Nat × Bool) := fun w =>
  let cases := (w.mgr m).sources.cases
  let ready := readyCases w cases
  match ready.get? (w.chooser w.nsel ready % ready.length) with
  | some i =>
    match cases.get? i with
    | some ⟨_, some e⟩ =>
      if (w.ev e).signaled then
        .ok (i, true) { w with
          ev := Function.update w.ev e { w.ev e with signaled := false }
          nsel := w.nsel + 1 }
      else .ok (i, false) { w with nsel := w.nsel + 1 }
    | _ => .fault .indexOutOfRange w
  | none =>
    match cases.findIdx? (fun c => c.dir == .selectDefault) with
    | some d => .ok (d, false) { w with nsel := w.nsel + 1 }
    | none => .fault .blocked w

/-- `EventSet.remove(chosen)`. -/
def EventSet.remove (m : Nat) (chosen : Nat) : M Unit := fun w =>
  if chosen = 0 then .fault (.precondition "Never remove the default case") w
  else
    let es := (w.mgr m).sources
    let lastIndex := es.events.length - 1
    match es.events.get? lastIndex, es.cases.get? lastIndex with
    | some e, some c =>
      if chosen < es.events.length ∧ chosen < es.cases.length then
        .ok () { w with mgr := Function.update w.mgr m { w.mgr m with
          sources := ⟨(es.cases.set chosen c).take lastIndex,
            (es.events.set chosen e).take lastIndex⟩ } }
      else .fault .indexOutOfRange w
    | _, _ => .fault .indexOutOfRange w

/-- The loop of `EventSet.choose`. -/
def chooseLoop (m : Nat) : Nat → M (Option Nat)
  | 0 => fun w =>
    if (w.mgr m).sources.cases.length > 1 then .fault .outOfFuel w else .ok none w
  | fuel + 1 => fun w =>
    if (w.mgr m).sources.cases.length > 1 then
      match reflectSelect m w with
      | .fault f w1 => .fault f w1
      | .ok (chosen, recvOK) w1 =>
        if chosen = 0 then .ok none w1
        else if recvOK then
          match (w1.mgr m).sources.events.get? chosen with
          | some e => .ok e w1
          | none => .fault .indexOutOfRange w1
        else
          match EventSet.remove m chosen w1 with
          | .fault f w2 => .fault f w2
          | .ok _ w2 => chooseLoop m fuel w2
    else .ok none w

/-- `EventSet.choose(wait)` on the event set of manager `m`. -/
def EventSet.choose (fuel : Nat) (m : Nat) (wait : Bool) : M (Option Nat) := fun w =>
  let es := (w.mgr m).sources
  match es.cases with
  | [] => .fault .indexOutOfRange w
  | c :: cs =>
    chooseLoop m fuel { w with mgr := Function.update w.mgr m { w.mgr m with
      sources := ⟨{ c with dir := if wait then .selectRecv else .selectDefault } :: cs,
        es.events⟩ } }

/-- `EventSet.Select`. -/
def EventSet.Select (fuel : Nat) (m : Nat) : M (Option Nat) := EventSet.choose fuel m false

/-- `EventSet.Wait`. -/
def EventSet.Wait (fuel : Nat) (m : Nat) : M (Option Nat) := EventSet.choose fuel m true

/-! ## Sources (`turn_source.go`) and the manager loop (`manager.go`) -/

/-- `Manager.registerSource(source)`. -/
def Manager.registerSource (m : Nat) (source : Nat) : M Nat := do
  let event ← NewEvent source
  EventSet.Add m event
  pure event

/-- `NewTurnSource(runner)`. -/
def NewTurnSource (runner : Runner) : M Nat := fun w =>
  match Manager.NewID runner.manager w with
  | .fault f w1 => .fault f w1
  | .ok id w1 =>
    let t := w1.salloc
    let w2 := { w1 with
      src := Function.update w1.src t
        ⟨runner.manager, "turnSource" ++ UniqueID.String id, none, some Empty⟩
      salloc := t + 1 }
    match Manager.registerSource runner.manager t w2 with
    | .fault f w3 => .fault f w3
    | .ok event w3 =>
      .ok t { w3 with src := Function.update w3.src t { w3.src t with event := some event } }

/-- `turnSource.Close`. -/
def turnSource.Close (t : Nat) : M Unit := fun w => Event.Close (w.src t).event w

/-- `turnSource.getAllTurns`. -/
def turnSource.getAllTurns (t : Nat) : M (Option Nat) := fun w =>
  .ok (w.src t).list { w with src := Function.update w.src t { w.src t with list := some Empty } }

/-- The inner loop of the first part of `runOneLoop`:
`for !list.IsEmpty() { head, list = list.RemoveHead(); m.turns = m.turns.Append(head) }`. -/
def ingestList (m : Nat) : Nat → Option Nat → M Unit
  | 0, list => fun w => if IsEmpty list then .ok () w else .fault .outOfFuel w
  | fuel + 1, list => fun w =>
    if IsEmpty list then .ok () w
    else
      match RemoveHead w.tnext list with
      | .error f => .fault f w
      | .ok (h, head, rest) =>
        match Manager.Queue m head { w with tnext := h } with
        | .fault f w1 => .fault f w1
        | .ok _ w1 => ingestList m fuel rest w1

/-- The first loop of `runOneLoop`:
`for e := m.sources.Select(); e != nil; e = m.sources.Select() { ... }`. -/
def ingestSources (inner : Nat) (m : Nat) : Nat → M Unit
  | 0 => abort .outOfFuel
  | fuel + 1 => fun w =>
    match EventSet.Select inner m w with
    | .fault f w1 => .fault f w1
    | .ok none w1 => .ok () w1
    | .ok (some e) w1 =>
      match turnSource.getAllTurns (w1.ev e).data w1 with
      | .fault f w2 => .fault f w2
      | .ok list w2 =>
        match ingestList m inner list w2 with
        | .fault f w3 => .fault f w3
        | .ok _ w3 => ingestSources inner m fuel w3

/-- The last loop of `runOneLoop`:
`for !list.IsEmpty() { t, list = list.RemoveHead(); t.Run() }`. -/
def runSnapshot (inner : Nat) : Nat → Option Nat → M Unit
  | 0, list => fun w => if IsEmpty list then .ok () w else .fault .outOfFuel w
  | fuel + 1, list => fun w =>
    if IsEmpty list then .ok () w
    else
      match RemoveHead w.tnext list with
      | .error f => .fault f w
      | .ok (h, t, rest) =>
        match Run inner t { w with tnext := h } with
        | .fault f w1 => .fault f w1
        | .ok _ w1 => runSnapshot inner fuel rest w1

/-- `Manager.runOneLoop`. -/
def Manager.runOneLoop (fuel : Nat) (m : Nat) : M Unit := fun w =>
  match ingestSources fuel m fuel w with
  | .fault f w1 => .fault f w1
  | .ok _ w1 =>
    -- list := m.turns; m.turns = Empty
    runSnapshot fuel fuel (w1.mgr m).turns
      { w1 with mgr := Function.update w1.mgr m { w1.mgr m with turns := some Empty } }

/-- `Manager.RunOneTurn`. -/
def Manager.RunOneTurn (fuel : Nat) (m : Nat) : M Bool := fun w =>
  if !IsEmpty (w.mgr m).turns then
    match RemoveHead w.tnext (w.mgr m).turns with
    | .error f => .fault f w
    | .ok (h, t, rest) =>
      match Run fuel t { w with
          tnext := h, mgr := Function.update w.mgr m { w.mgr m with turns := rest } } with
      | .fault f w1 => .fault f w1
      | .ok _ w1 => .ok true w1
  else .ok false w

/-- The message of the third assertion in the loop of `RunUntil`. -/
def liveLockMsg : String :=
  "LIVE LOCK: no progress can be made because there are no I/O " ++
    "sources,\tno local turns, and the program has not yet exited."

/-- The `if` statement in the loop of `RunUntil`: block on I/O when there is no work. -/
def waitForSources (fuel : Nat) (m : Nat) (cell : Nat) : M Unit := fun w =>
  if IsEmpty (w.mgr m).turns && (w.cells cell).isNone then
    match EventSet.Wait fuel m w with
    | .fault f w1 => .fault f w1
    | .ok e w1 =>
      if !IsEmpty (w1.mgr m).turns then
        .fault (.precondition "Only blocked on I/O if there was no work to do.") w1
      else if (w1.cells cell).isSome then
        .fault (.precondition "Only blocked on I/O if the program not exited.") w1
      else if e.isNone then
        .fault (.precondition liveLockMsg) w1
      else Event.Signal e w1
  else .ok () w

/-- The loop of `RunUntil`: `for mainExited == nil { m.runOneLoop(); if ... }`. -/
def runUntilLoop (inner : Nat) (m : Nat) (cell : Nat) : Nat → M Unit
  | 0 => fun w => if (w.cells cell).isNone then .fault .outOfFuel w else .ok () w
  | fuel + 1 => fun w =>
    if (w.cells cell).isNone then
      match Manager.runOneLoop inner m w with
      | .fault f w1 => .fault f w1
      | .ok _ w1 =>
        match waitForSources inner m cell w1 with
        | .fault f w2 => .fault f w2
        | .ok _ w2 => runUntilLoop inner m cell fuel w2
    else .ok () w

/-- `Manager.RunUntil(main)`; `main` is the resolver field of the `R` passed.  Returns the
`error` result. -/
def Manager.RunUntil (fuel : Nat) (m : Nat) (main : Nat) : M (Option Err) := fun w =>
  -- var mainExited error
  let cell := w.calloc
  let w0 := { w with cells := Function.update w.cells cell none, calloc := cell + 1 }
  match Manager.NewTurn m "RunUntil" (.runUntil main cell) w0 with
  | .fault f w1 => .fault f w1
  | .ok _ w1 =>
    match runUntilLoop fuel m cell fuel w1 with
    | .fault f w2 => .fault f w2
    | .ok _ w2 =>
      match w2.cells cell with
      | some (.err e) => .ok (some e) w2
      | _ => .ok none w2

/-! ## The typed layer (`async_r.go`, `async_string_r.go`, `turn_runner.go`) -/

/-- `NewTurnRunner(manager)`: the `done` result is `&turnResolver{manager: manager}`. -/
def NewTurnRunner (manager : Nat) : M Runner := fun w =>
  .ok ⟨manager, w.ralloc⟩ { w with
    res := Function.update w.res w.ralloc ⟨manager, none, .nil, none⟩
    ralloc := w.ralloc + 1 }

/-- `async.NewError(runner, err)`. -/
def NewError (fuel : Nat) (runner : Runner) (err : Option Err) : M Nat := do
  let s ← turnRunner.NewResultT runner
  Fail fuel s err
  pure s

/-- `async.When(r, f)`; `rTy` is `r.Type()`. -/
def When (fuel : Nat) (r : Nat) (rTy : Ty) (f : Fn) : M Nat := WhenT fuel r rTy .iface .R f

/-- `async.WhenString(r, f)`; `rTy` is `r.Type()`. -/
def WhenString (fuel : Nat) (r : Nat) (rTy : Ty) (f : Fn) : M Nat :=
  WhenT fuel r rTy .string .StringR f

/-- `async.Finally(r, f)`; `fid` names `f` in the call log. -/
def Finally (fuel : Nat) (r : Nat) (fid : Nat) (f : Prog) : M Nat :=
  When fuel r .iface (.finallyFn .R fid f (some r))

/-- `async.FinallyString(r, f)`; `fid` names `f` in the call log. -/
def FinallyString (fuel : Nat) (r : Nat) (fid : Nat) (f : Prog) : M Nat :=
  WhenString fuel r .string (.finallyFn .StringR fid f (some r))

/-! ## Well-formedness of the turn lists in a world -/

/-- The places of a world that hold a turn list. -/
inductive Slot where
  /-- `Manager.turns` of the manager at `m`. -/
  | queue (m : Nat)
  /-- `turnResolver.turns` of the resolver at `s`. -/
  | pending (s : Nat)
  /-- `turnSource.list` of the source at `k`. -/
  | source (k : Nat)
  deriving DecidableEq, Repr

/-- The list handle stored in a slot; `none` for a resolver whose `turns` is `nil`. -/
def handle (w : World) : Slot → Option (Option Nat)
  | .queue m => some (w.mgr m).turns
  | .pending s =>
    match (w.res s).turns with
    | some l => some (some l)
    | none => none
  | .source k => some (w.src k).list

/-- Every handle `hd i` is a well-formed turn list with elements `el i`, and no turn is in two
of the lists. -/
structure HWF (h : TurnHeap) (hd : Slot → Option (Option Nat)) (el : Slot → List Nat) :
    Prop where
  rings : ∀ i l, hd i = some l → Ring h l (el i)
  inactive : ∀ i, hd i = none → el i = []
  disj : ∀ i j, i ≠ j → ∀ t ∈ el i, t ∉ el j

/-- The turn lists of the world are well formed with elements `el`: every stored handle is a
ring, the rings are pairwise disjoint, `Empty` is detached and so is every address at which
no turn has been allocated. -/
structure TWF (w : World) (el : Slot → List Nat) : Prop where
  lists : HWF w.tnext (handle w) el
  empty : w.tnext Empty = none
  fresh : ∀ t, w.talloc ≤ t → w.tnext t = none
  pos : 0 < w.talloc

/-- The slot onto which `turnResolver.queue` appends. -/
def queueSlot (w : World) (s : Nat) : Slot :=
  if isResolved w s then .queue (w.res s).manager else .pending s

/-- The ghost log of appends after the turns `xs` went onto the list of slot `sl`. -/
def enqAdd (sl : Slot) (xs : List Nat) (enq : Nat → List Nat) : Nat → List Nat :=
  match sl with
  | .queue m => Function.update enq m (enq m ++ xs)
  | _ => enq

/-- The part of the world that no operation on turns and resolvers touches. -/
def World.quiet (w : World) :=
  (w.ev, w.ealloc, w.src, w.salloc, w.cells, w.calloc, w.chooser, w.nsel, w.calls, w.ran,
    w.malloc, w.galloc, fun m => ((w.mgr m).sources, (w.mgr m).idgen))

/-- The part of the world that running a turn does not touch, except through the event
loop itself. -/
def World.still (w : World) :=
  (w.ev, w.ealloc, w.src, w.salloc, w.calloc, w.chooser, w.nsel, w.malloc, w.galloc,
    fun m => ((w.mgr m).sources, (w.mgr m).idgen))

/-- Everything but the event sets, the events and the counter of `reflect.Select` calls. -/
def World.core (w : World) :=
  (w.tnext, w.tf, w.tname, w.talloc, w.res, w.ralloc, w.src, w.cells, w.calloc, w.calls, w.ran,
    w.enq, fun m => (w.mgr m).turns)

/-- No event registered with manager `m` holds a signal. -/
def NoSignal (w : World) (m : Nat) : Prop :=
  ∀ c ∈ (w.mgr m).sources.cases, ∀ e, c.chan = some e → (w.ev e).signaled = false

/-- The part of the world that only allocations touch. -/
def World.allocs (w : World) := (w.tf, w.tname, w.talloc, w.ralloc, w.gen)

/-- Only list links changed from `w` to `w2`: `Turn.next` fields, the list handles of
managers and of resolvers that are not resolved, and the ghost log of appends. -/
structure QueueOnly (w w2 : World) : Prop where
  quiet : w2.quiet = w.quiet
  allocs : w2.allocs = w.allocs
  res : ∀ s, (w2.res s).manager = (w.res s).manager ∧ (w2.res s).outcome = (w.res s).outcome ∧
    (w2.res s).next = (w.res s).next ∧ ((w2.res s).turns = none ↔ (w.res s).turns = none)

/-- What running client code and continuations does to the turn lists: turns that are linked
but in no list of the world (a list held in a local variable) are untouched, lists only take
up turns that were detached or in another list, and every manager queue only grows at its
end, by the turns logged as appended. -/
structure Grow (w w2 : World) (el el2 : Slot → List Nat) : Prop where
  frame : ∀ t, w.tnext t ≠ none → (∀ i, t ∉ el i) → w2.tnext t = w.tnext t
  origin : ∀ i t, t ∈ el2 i → (∃ j, t ∈ el j) ∨ w.tnext t = none
  queue : ∀ m, ∃ add, el2 (.queue m) = el (.queue m) ++ add ∧ w2.enq m = w.enq m ++ add
  talloc : w.talloc ≤ w2.talloc
  tf : ∀ t, t < w.talloc → w2.tf t = w.tf t

/-- A resolver that is resolved or forwarded never changes again, and allocation only moves
forward. -/
structure Stable (w w2 : World) : Prop where
  res : ∀ s, s < w.ralloc → (w.res s).turns = none → w2.res s = w.res s
  ralloc : w.ralloc ≤ w2.ralloc

/-- Summary of a step from `w` with lists `el` to `w2` with lists `el2`. -/
structure Effect (w w2 : World) (el el2 : Slot → List Nat) : Prop where
  twf : TWF w2 el2
  grow : Grow w w2 el el2
  stable : Stable w w2

/-- The addresses captured by a function value are allocated. -/
def FnClosed (w : World) : Fn → Prop
  | .user _ _ _ => True
  | .runUntilRecord cell => cell < w.calloc
  | .finallyFn _ _ _ r => ∀ a, r = some a → a < w.ralloc
  | .actorResolve s => s < w.ralloc

/-- The addresses captured by the function of a turn are allocated, and the flags captured
by a continuation are those of its function. -/
def ThunkClosed (w : World) : Thunk → Prop
  | .user _ => True
  | .whenTurn s outer inTy tv te rr f =>
    s < w.ralloc ∧ outer < w.ralloc ∧ FnClosed w f ∧
      ∃ out outR, whenValidate inTy out outR f.sig = .ok (tv, te, rr)
  | .runUntil main cell => main < w.ralloc ∧ cell < w.calloc
  | .runnerNew s _ _ => s < w.ralloc
  | .actorMain s _ _ => s < w.ralloc
  | .ioResult s _ => s < w.ralloc

/-- The heap holds no dangling address: a forwarded resolver is allocated, has `turns == nil`
and points at an allocated resolver, and the closures of allocated turns capture allocated
addresses. -/
structure Closed (w : World) : Prop where
  next : ∀ a n, (w.res a).next = some n →
    n < w.ralloc ∧ a < w.ralloc ∧ (w.res a).turns = none
  thunks : ∀ t, t < w.talloc → ThunkClosed w (w.tf t)

/-- Following `next` from `a` leads to `b`. -/
inductive Chain (w : World) : Nat → Nat → Prop where
  | refl (a : Nat) : Chain w a a
  | step {a n b : Nat} : (w.res a).next = some n → Chain w n b → Chain w a b

/-- What the function literal of `RunUntil` stores in `mainExited` for the error `err`. -/
def exitOf : Option Err → ExitErr
  | some e => .err e
  | none => .errSuccess

/-- The function of the turn belongs to a call of `RunUntil` whose variable `mainExited` is
at `cell`: it is the literal passed to `NewTurn`, or the continuation that records. -/
def Thunk.records (cell : Nat) : Thunk → Prop
  | .runUntil _ c => c = cell
  | .whenTurn _ _ _ _ _ _ (.runUntilRecord c) => c = cell
  | _ => False

/-- Summary of a step of client code or of a continuation of client code: nothing dangles
afterwards, the variables captured by `RunUntil` are untouched, the functions of the turns
allocated before are unchanged and no turn allocated by the step belongs to `RunUntil`. -/
structure Client (w w2 : World) : Prop where
  closed : Closed w → Closed w2
  ralloc : w.ralloc ≤ w2.ralloc
  cells : w2.cells = w.cells
  calloc : w2.calloc = w.calloc
  talloc : w.talloc ≤ w2.talloc
  tf : ∀ t, t < w2.talloc → (t < w.talloc ∧ w2.tf t = w.tf t) ∨ ∀ c, ¬ (w2.tf t).records c

/-- The invariant of the loop of `RunUntil(main)` whose variable `mainExited` is at
`cell`: once the variable is set, the forwarding chain of `main` ends in a resolved
resolver and the variable holds its error; the turn of `RunUntil` awaits `main`; and the
source of every recording continuation is on the forwarding chain of `main`. -/
structure RunInv (cell main : Nat) (w : World) : Prop where
  exited : ∀ v, w.cells cell = some v → ∃ final, Chain w main final ∧ final < w.ralloc ∧
    (w.res final).turns = none ∧ (w.res final).next = none ∧
    v = exitOf (w.res final).outcome.asError
  starts : ∀ t main2, t < w.talloc → w.tf t = .runUntil main2 cell → main2 = main
  records : ∀ t src outer inTy tv te rr, t < w.talloc →
    w.tf t = .whenTurn src outer inTy tv te rr (.runUntilRecord cell) → Chain w main src
  main : main < w.ralloc

/-- A small world for examples: one manager with an empty queue and an event set without
members; the resolver 0 has failed with the error 7, every other resolver is unresolved,
and the resolvers 0, 1 and 2 are allocated. -/
def World.sample : World :=
  { World.init with
    mgr := fun _ => ⟨NewEventSet, some Empty, 0⟩
    malloc := 1
    galloc := 1
    res := fun a => if a = 0 then ⟨0, none, .err ⟨7⟩, none⟩ else ⟨0, some Empty, .nil, none⟩
    ralloc := 3 }

/-- The shape of the event sets that `NewEventSet` and `Add` build: as many events as cases,
a first case without a channel, and after it receive cases with a channel. -/
def EventSet.Shaped (es : EventSet) : Prop :=
  es.events.length = es.cases.length ∧
    ∃ c0 ms, es.cases = c0 :: ms ∧ c0.chan = none ∧
      ∀ c ∈ ms, c.dir = .selectRecv ∧ c.chan.isSome = true

/-- No member of the event set of manager `m` is open: every channel in it is closed. -/
def NoOpen (w : World) (m : Nat) : Prop :=
  ∀ c ∈ (w.mgr m).sources.cases, ∀ e, c.chan = some e → (w.ev e).closed = true

/-- The sample world with one event in the event set of the manager; the channel of the
event was sent to and then closed, and nothing has received from it. -/
def World.closedSignaled : World :=
  { World.sample with
    ev := fun _ => ⟨true, true, 0⟩
    ealloc := 1
    mgr := fun _ => ⟨⟨[⟨.selectDefault, none⟩, ⟨.selectRecv, some 0⟩], [none, some 0]⟩,
      some Empty, 0⟩ }

/-- The sample world with one event in the event set of the manager; the channel of the
event is closed and empty. -/
def World.closedOnly : World :=
  { World.sample with
    ev := fun _ => ⟨false, true, 0⟩
    ealloc := 1
    mgr := fun _ => ⟨⟨[⟨.selectDefault, none⟩, ⟨.selectRecv, some 0⟩], [none, some 0]⟩,
      some Empty, 0⟩ }

/-- Two continuations `func()` for examples, named 1 and 2 in the call log. -/
def sampleConts : List (Ty × Ty × Ty × Fn) :=
  [(.iface, .iface, .R, .user 1 ⟨[], []⟩ (fun _ => .ret [])),
   (.iface, .iface, .R, .user 2 ⟨[], []⟩ (fun _ => .ret []))]

/-- The value returned, if the run returned. -/
def Res.val? {α : Type} : Res α → Option α
  | .ok a _ => some a
  | .fault _ _ => none

/-- The world reached by a result. -/
def Res.world {α : Type} : Res α → World
  | .ok _ w => w
  | .fault _ w => w

/-- The sample world after `m.NewTurn("t", func() {})` on its manager. -/
def World.queued : World := (Manager.NewTurn 0 "t" (.user (.ret [])) World.sample).world

/-- The sample world after `Finally(r, f)` on its failed result, with `f` named 5. -/
def World.awaited : World := (Finally 2 0 5 (.ret []) World.sample).world

/-- The sample world with one more turn, at address 1, detached; its function appends the
turn itself to the queue of the manager: `t = NewTurn("again", func() { m.Queue(t) })`. -/
def World.requeue : World :=
  { World.sample with
    tf := fun _ => .user (.queue 0 (some 1) (.ret []))
    talloc := 2 }

/-- The slice `events` mirrors the slice `cases`: `events[i]` is the event whose channel is
`cases[i].Chan`, and `nil` for a case without a channel. -/
def EventSet.Aligned (es : EventSet) : Prop := es.events = es.cases.map (·.chan)

/-- The events registered in an event set, in the order of its cases. -/
def EventSet.members (es : EventSet) : List Nat := es.cases.tail.filterMap (·.chan)

/-- Calls `Select` `n` times and collects what the calls return, in call order. -/
def selectN (fuel m : Nat) : Nat → M (List (Option Nat))
  | 0 => pure []
  | n + 1 => do
    let e ← EventSet.Select fuel m
    let es ← selectN fuel m n
    pure (e :: es)

/-- Calls `e.Signal()` `k` times. -/
def signalN (e : Option Nat) : Nat → M Unit
  | 0 => pure ()
  | k + 1 => do
    Event.Signal e
    signalN e k

/-- The event set of manager `m` has the cases `c0 :: ms`: `c0` is the first case, without a
channel, `ms` are receive cases with a channel, and `events` mirrors the cases. -/
def SetIs (w : World) (m : Nat) (c0 : SelectCase) (ms : List SelectCase) : Prop :=
  (w.mgr m).sources.cases = c0 :: ms ∧ c0.chan = none ∧
    (∀ c ∈ ms, c.dir = .selectRecv ∧ c.chan.isSome = true) ∧
    (w.mgr m).sources.events = (c0 :: ms).map (·.chan)

/-- The registered events that hold a signal, each once. -/
def signaledMembers (w : World) (m : Nat) : List Nat :=
  ((w.mgr m).sources.members.filter (fun e => (w.ev e).signaled)).dedup

/-- The sample world with the open events 0, 1 and 2 in the event set of the manager; the
events 0 and 2 hold a signal. -/
def World.signaled : World :=
  { World.sample with
    ev := fun e => ⟨e ≠ 1, false, 0⟩
    ealloc := 3
    mgr := fun _ => ⟨⟨[⟨.selectDefault, none⟩, ⟨.selectRecv, some 0⟩, ⟨.selectRecv, some 1⟩,
      ⟨.selectRecv, some 2⟩], [none, some 0, some 1, some 2]⟩, some Empty, 0⟩ }

/-- The sample world with one open event, without a signal, in the event set of the
manager. -/
def World.listening : World :=
  { World.sample with
    ev := fun _ => ⟨false, false, 0⟩
    ealloc := 1
    mgr := fun _ => ⟨⟨[⟨.selectDefault, none⟩, ⟨.selectRecv, some 0⟩], [none, some 0]⟩,
      some Empty, 0⟩ }

end Drydock

namespace Drydock

/-! ## Further definitions -/

/-- `StringS.Resolve(val, err)`: `r.s.Resolve(val, err)`; the string is boxed into the
`interface{}` parameter of `ResolverT.Resolve`. -/
def StringS.Resolve (fuel : Nat) (s : Nat) (val : String) (err : Option Err) : M Unit :=
  Drydock.Resolve fuel s (.str val) err

/-- The arguments that the function literal of `WhenT` builds for `f` from the outcome of
the resolved source: the value (the zero value of `in` when it is `nil`) if `f` takes one,
then the error if `f` takes one. -/
def whenArgs (inTy : Ty) (takeValue takeError : Bool) (outcome : Iface) : List Iface :=
  let err := outcome.asError
  let value := if err.isSome then Iface.nil else outcome
  (if takeValue then [if value = .nil then zeroValue inTy else value] else []) ++
    (if takeError then [ofError err] else [])

/-- The end of the function literal of `WhenT` for an `f` that does not return a result:
`outer` is resolved with what the return values `retvals` give. -/
def resolveOuter (fuel : Nat) (outer : Nat) (retvals : List Iface) : M Unit :=
  match retvals with
  | [v, e] =>
    match e.asError with
    | some e1 => resolve fuel outer (.err e1)
    | none => resolve fuel outer v
  | [v] => resolve fuel outer v
  | _ => resolve fuel outer .nil

/-- The end of the function literal of `WhenT`, after `f` returned `retvals`: `outer` is
forwarded to the result that `f` returned, or resolved with what it returned. -/
def whenFinish (fuel : Nat) (outer : Nat) (returnsResult : Bool) (retvals : List Iface) :
    M Unit :=
  if returnsResult then
    match retvals with
    | [] => abort .indexOutOfRange
    | .result _ n :: _ => Forward fuel outer n
    | _ :: _ => abort .typeAssertion
  else resolveOuter fuel outer retvals

/-- The sample world after `Complete("v")` on the resolver 1 and `Complete(5)` on the
resolver 2; the unresolved resolver 3 is allocated as well. -/
def World.valued : World :=
  { World.sample with
    res := fun a => if a = 0 then ⟨0, none, .err ⟨7⟩, none⟩
      else if a = 1 then ⟨0, none, .str "v", none⟩
      else if a = 2 then ⟨0, none, .int 5, none⟩ else ⟨0, some Empty, .nil, none⟩
    ralloc := 4 }

/-- The sample world after `r3 := NewResultT()`, `When(r3, c0)`, `s2.Forward(r3)`,
`When(r1, c1)` and `When(r1, c2)`, with continuations `func() {}` named 1, 2 and 3: the
resolver 2 is forwarded to the resolver 3, whose pending list holds the turn 1, and the
pending list of the resolver 1 holds the turns 2 and 3; the resolvers 4, 5 and 6 are those
of the results of the three `When` calls. -/
def World.chained : World :=
  { World.sample with
    tnext := fun t => if t = 1 then some 1 else if t = 2 then some 3
      else if t = 3 then some 2 else none
    tf := fun t =>
      if t = 1 then .whenTurn 3 4 .iface false false false (.user 1 ⟨[], []⟩ (fun _ => .ret []))
      else if t = 2 then
        .whenTurn 1 5 .iface false false false (.user 2 ⟨[], []⟩ (fun _ => .ret []))
      else if t = 3 then
        .whenTurn 1 6 .iface false false false (.user 3 ⟨[], []⟩ (fun _ => .ret []))
      else .user (.ret [])
    talloc := 4
    res := fun a => if a = 0 then ⟨0, none, .err ⟨7⟩, none⟩
      else if a = 1 then ⟨0, some 3, .nil, none⟩
      else if a = 2 then ⟨0, none, .nil, some 3⟩
      else if a = 3 then ⟨0, some 1, .nil, none⟩ else ⟨0, some Empty, .nil, none⟩
    ralloc := 7 }

/-- The turn lists of `World.chained`. -/
def chainedLists : Slot → List Nat
  | .pending 1 => [2, 3]
  | .pending 3 => [1]
  | _ => []

/-- The world `World.valued` after `FinallyString(r, f)` on its result 1, completed with
"v", with `f` named 5. -/
def World.awaitedString : World := (FinallyString 2 1 5 (.ret []) World.valued).world

/-- A call of client code on the results and resolvers of a runner. -/
inductive Call where
  /-- `runner.NewResultT()` on the runner of manager `m`. -/
  | newResultT (m : Nat)
  /-- `s.Complete(v)`. -/
  | complete (s : Nat) (v : Iface)
  /-- `s.Fail(e)`. -/
  | fail (s : Nat) (e : Option Err)
  /-- `s.Resolve(v, e)`. -/
  | resolve (s : Nat) (v : Iface) (e : Option Err)
  /-- `s.Forward(n)`. -/
  | forward (s : Nat) (n : Option Nat)
  /-- `r.WhenT(in, out, outR, f)`. -/
  | when (r : Nat) (inTy out outR : Ty) (f : Fn)
  /-- `NewTurnRunner(m)`, which allocates the result that `Done()` returns. -/
  | newRunner (m : Nat)

/-- Makes the call. -/
def Call.run (fuel : Nat) : Call → M Unit
  | .newResultT m => do
    let _ ← newTurnResolver m
    pure ()
  | .complete s v => Complete fuel s v
  | .fail s e => Fail fuel s e
  | .resolve s v e => Resolve fuel s v e
  | .forward s n => Forward fuel s n
  | .when r inTy out outR f => do
    let _ ← WhenT fuel r inTy out outR f
    pure ()
  | .newRunner m => do
    let _ ← NewTurnRunner m
    pure ()

/-- Makes the calls one after the other. -/
def runCalls (fuel : Nat) : List Call → M Unit
  | [] => pure ()
  | c :: cs => do
    c.run fuel
    runCalls fuel cs

/-- The resolver is pending: it has a list of continuations, no forwarding target and no
outcome. -/
def Resolver.Pending (r : Resolver) : Prop :=
  r.turns ≠ none ∧ r.next = none ∧ r.outcome = .nil

/-- The resolver is forwarded: it has no list of continuations, a forwarding target and no
outcome. -/
def Resolver.Forwarded (r : Resolver) : Prop :=
  r.turns = none ∧ r.next ≠ none ∧ r.outcome = .nil

/-- The resolver is resolved: it has no list of continuations and no forwarding target. -/
def Resolver.Resolved (r : Resolver) : Prop :=
  r.turns = none ∧ r.next = none

/-- The resolver is in one of its three states. -/
def Resolver.Tri (r : Resolver) : Prop := r.Pending ∨ r.Forwarded ∨ r.Resolved

/-- The call forwards a resolver to a result whose forwarding chain ends in that resolver
itself; forwarding a resolver to its own result is the shortest case. -/
def Call.loops (fuel : Nat) (w : World) : Call → Prop
  | .forward s (some nx) => getShortest fuel nx w = .ok s w
  | _ => False

/-- The worlds reached from `w0` by calls that return, none of which forwards a resolver to
a result whose chain ends in the resolver itself. -/
inductive Reach (fuel : Nat) (w0 : World) : World → Prop where
  | start : Reach fuel w0 w0
  | call {w w2 : World} (c : Call) : Reach fuel w0 w → ¬ c.loops fuel w →
      c.run fuel w = .ok () w2 → Reach fuel w0 w2

/-- Following the forwarding links from any resolver ends: no chain has a cycle. -/
def Acyclic (w : World) : Prop := ∀ a, ∃ b, Chain w a b ∧ (w.res b).next = none

/-- The invariant of the forwarding links: a resolver with a target has no pending list, and
every chain ends. -/
structure Fwd (w : World) : Prop where
  idle : ∀ a n, (w.res a).next = some n → (w.res a).turns = none
  ends : Acyclic w

/-- A call of one of the list operations that write `next` fields. -/
inductive ListOp where
  /-- `list.Append(add)`. -/
  | append (list add : Option Nat)
  /-- `list.RemoveHead()`. -/
  | removeHead (list : Option Nat)
  /-- `list.Unlink(t)`. -/
  | unlink (list t : Option Nat)

/-- Makes the call; returns the heap it leaves. -/
def ListOp.run (fuel : Nat) (h : TurnHeap) : ListOp → Except Fault TurnHeap
  | .append list add => (Append h list add).map (·.1)
  | .removeHead list => (RemoveHead h list).map (·.1)
  | .unlink list t => (Unlink fuel h list t).map (·.1)

/-- Makes the calls one after the other, as long as none aborts. -/
def runOps (fuel : Nat) : List ListOp → TurnHeap → Except Fault TurnHeap
  | [], h => .ok h
  | op :: ops, h =>
    match op.run fuel h with
    | .error f => .error f
    | .ok h1 => runOps fuel ops h1

/-- Calls `NewID` on the generator `g` the given number of times; returns the ids in call
order. -/
def newIDs (g : Nat) : Nat → M (List Int)
  | 0 => pure []
  | n + 1 => do
    let id ← UniqueIDGenerator.NewID g
    let ids ← newIDs g n
    pure (id :: ids)

end Drydock

namespace Drydock

/-! ## Further definitions: summaries and examples -/

/-- What the calls on resolvers keep: every resolver is in one of the three states, and a
resolver without a list of continuations is never written again. -/
structure Settled (w w2 : World) : Prop where
  tri : (∀ a, (w.res a).Tri) → ∀ a, (w2.res a).Tri
  keep : ∀ a, a < w.ralloc → (w.res a).turns = none → w2.res a = w.res a
  ralloc : w.ralloc ≤ w2.ralloc

/-- The world `World.requeue` with the turn at 1, which appends itself to the queue of the
manager when it runs, in the queue of the manager. -/
def World.spinning : World := (Manager.Queue 0 (some 1) World.requeue).world

/-- The first `k` iterations of the last loop of `runOneLoop`,
`for !list.IsEmpty() { t, list = list.RemoveHead(); t.Run() }`; returns the list that is
left. -/
def runTurns (inner : Nat) : Nat → Option Nat → M (Option Nat)
  | 0, list => fun w => .ok list w
  | k + 1, list => fun w =>
    if IsEmpty list then .ok list w
    else
      match RemoveHead w.tnext list with
      | .error f => .fault f w
      | .ok (h, t, rest) =>
        match Run inner t { w with tnext := h } with
        | .fault f w1 => .fault f w1
        | .ok _ w1 => runTurns inner k rest w1

/-- The world in which the last loop of `runOneLoop` starts: the world that the first loop
leaves, with `m.turns = Empty`. -/
def World.atSnapshot (fuel m : Nat) (w : World) : World :=
  let w1 := (ingestSources fuel m fuel w).world
  { w1 with mgr := Function.update w1.mgr m { w1.mgr m with turns := some Empty } }

/-- `Turn.Run` when the functions of some turns are not among the literals of `Thunk`:
`ext t`, when given, is the function of the turn at `t` (in place of `tf t`), an arbitrary
piece of the program, which may call the exported methods of the manager. -/
def RunWith (ext : Nat → Option (M Unit)) (fuel : Nat) (list : Option Nat) : M Unit := fun w =>
  if IsEmpty list then .fault (.precondition "Cannot execute the empty list: %v") w
  else
    match list with
    | none => .fault .nilDeref w
    | some t =>
      if (w.tnext t).isSome then
        .fault (.precondition "Cannot execute lists, only single turns: %v.") w
      else
        match ext t with
        | some f => f { w with ran := w.ran ++ [t] }
        | none => runThunk fuel (w.tf t) { w with ran := w.ran ++ [t] }

/-- The last loop of `runOneLoop`, with the functions `ext`. -/
def runSnapshotWith (ext : Nat → Option (M Unit)) (inner : Nat) : Nat → Option Nat → M Unit
  | 0, list => fun w => if IsEmpty list then .ok () w else .fault .outOfFuel w
  | fuel + 1, list => fun w =>
    if IsEmpty list then .ok () w
    else
      match RemoveHead w.tnext list with
      | .error f => .fault f w
      | .ok (h, t, rest) =>
        match RunWith ext inner t { w with tnext := h } with
        | .fault f w1 => .fault f w1
        | .ok _ w1 => runSnapshotWith ext inner fuel rest w1

/-- `Manager.runOneLoop`, with the functions `ext`. -/
def Manager.runOneLoopWith (ext : Nat → Option (M Unit)) (fuel : Nat) (m : Nat) : M Unit :=
  fun w =>
    match ingestSources fuel m fuel w with
    | .fault f w1 => .fault f w1
    | .ok _ w1 =>
      runSnapshotWith ext fuel fuel (w1.mgr m).turns
        { w1 with mgr := Function.update w1.mgr m { w1.mgr m with turns := some Empty } }

/-- The function `func() { m.NewTurn("b", func() {}); m.RunOneTurn() }` of a turn of the
manager `m`. -/
def reenter (fuel m : Nat) : M Unit := do
  Manager.NewTurn m "b" (.user (.ret []))
  let _ ← Manager.RunOneTurn fuel m
  pure ()

/-- A call on the event set of a manager or on an event. -/
inductive SetOp where
  /-- `set.Add(e)`. -/
  | add (e : Nat)
  /-- `set.Select()`. -/
  | select
  /-- `set.Wait()`. -/
  | wait
  /-- `e.Signal()`. -/
  | signal (e : Nat)
  /-- `e.Close()`. -/
  | close (e : Nat)

/-- Makes the call on the event set of manager `m`. -/
def SetOp.run (fuel m : Nat) : SetOp → M Unit
  | .add e => EventSet.Add m e
  | .select => do
    let _ ← EventSet.Select fuel m
    pure ()
  | .wait => do
    let _ ← EventSet.Wait fuel m
    pure ()
  | .signal e => Event.Signal (some e)
  | .close e => Event.Close (some e)

/-- The worlds reached from `w0` by calls on the event set of manager `m` that return. -/
inductive SetReach (fuel m : Nat) (w0 : World) : World → Prop where
  | start : SetReach fuel m w0 w0
  | call {w w2 : World} (op : SetOp) : SetReach fuel m w0 w →
      op.run fuel m w = .ok () w2 → SetReach fuel m w0 w2

/-- The worlds reached from `w0` by calls on the event set of manager `m` that return, where
no event is added that is registered already. -/
inductive SetReachOnce (fuel m : Nat) (w0 : World) : World → Prop where
  | start : SetReachOnce fuel m w0 w0
  | call {w w2 : World} (op : SetOp) : SetReachOnce fuel m w0 w →
      (∀ e, op = .add e → (⟨.selectRecv, some e⟩ : SelectCase) ∉ (w.mgr m).sources.cases) →
      op.run fuel m w = .ok () w2 → SetReachOnce fuel m w0 w2

/-- The sample world after `Add` of the event at 0 and then of the event at 1 on the event
set of the manager. -/
def World.addedTwo : World :=
  (SetOp.run 2 0 (.add 1) (SetOp.run 2 0 (.add 0) World.sample).world).world

/-- The sample world after `Add(e)` was called twice on the event set of the manager with the
same event, at 0. -/
def World.addedTwice : World :=
  (SetOp.run 2 0 (.add 0) (SetOp.run 2 0 (.add 0) World.sample).world).world

/-- The sample world with a source at 0 whose event, at 0, is open, registered with the
manager and signaled, and whose list holds the completion turn at 1. -/
def World.delivering : World :=
  { World.sample with
    tnext := fun a => if a = 1 then some 1 else none
    talloc := 2
    ev := fun _ => ⟨true, false, 0⟩
    ealloc := 1
    src := fun k => if k = 0 then ⟨0, "turnSource1", some 0, some 1⟩
      else ⟨0, "", none, some Empty⟩
    salloc := 1
    mgr := fun _ => ⟨⟨[⟨.selectDefault, none⟩, ⟨.selectRecv, some 0⟩], [none, some 0]⟩,
      some Empty, 0⟩ }

/-- The turn lists of `World.delivering`: the list of the source holds the turn at 1. -/
def deliveringLists : Slot → List Nat := Function.update (fun _ => []) (.source 0) [1]

/-- The sample world in a call of `RunUntil` on its failed result, with the variable
`mainExited` at 0, after the first cycle of the loop: the continuation that records the
outcome is in the queue. -/
def World.exiting : World :=
  (Manager.runOneLoop 3 0
    (Manager.NewTurn 0 "RunUntil" (.runUntil 0 0) { World.sample with calloc := 1 }).world).world

end Drydock


namespace Drydock

/-- The sample world in which the turn of `runner.New(func() R { return r0 })`, at address
1, is detached (it has been taken off the queue to be run); `r0` is the failed result 0, the
result of `New` is the unresolved resolver 3 and the function is named 5. -/
def World.spawned : World :=
  { World.sample with
    tf := fun _ => .runnerNew 3 5 (.ret [.result .R (some 0)])
    talloc := 2
    ralloc := 4 }

/-- The fault of the assertion in the function literal of `WhenT`. -/
def whenFault : Fault := .precondition "When's shouldn't run if the target is not resolved."

/-- The run does not stop at the assertion of the continuation dispatcher, and if it returns,
what it returns and the world reached satisfy `post`. -/
def Res.Good {α : Type} (post : α → World → Prop) : Res α → Prop
  | .ok a w => post a w
  | .fault f _ => f ≠ whenFault

/-- Every continuation turn whose source has a forwarding chain that ends in an unresolved
resolver waits in the pending list of that resolver. -/
def Awaiting (w : World) (el : Slot → List Nat) : Prop :=
  ∀ t s outer inTy tv te rr f, t < w.talloc → w.tf t = .whenTurn s outer inTy tv te rr f →
    ∀ tail, Chain w s tail → (w.res tail).next = none → (w.res tail).turns ≠ none →
      t ∈ el (.pending tail)

/-- Nothing dangles and every continuation turn of an unresolved source is pending on it. -/
def Safe (w : World) : Prop := Closed w ∧ ∀ el, TWF w el → Awaiting w el

/-- The worlds reached from `w0` by client code and by cycles of a manager that return. -/
inductive Runs (fuel : Nat) (w0 : World) : World → Prop where
  | start : Runs fuel w0 w0
  | client {w w2 : World} {vals : List Iface} (p : Prog) : Runs fuel w0 w →
      exec fuel p w = .ok vals w2 → Runs fuel w0 w2
  | cycle {w w2 : World} (m : Nat) : Runs fuel w0 w →
      Manager.runOneLoop fuel m w = .ok () w2 → Runs fuel w0 w2

/-- Client code for examples: it attaches the continuation `func() {}`, named 9, to the
unresolved result 1 and then completes that result. -/
def sampleAwait : Prog :=
  .when 1 .iface .iface .R 9 ⟨[], []⟩ (fun _ => .ret []) (fun _ => .complete 1 .nil (.ret []))

/-- The sample world after `sampleAwait`. -/
def World.completed : World := (exec 3 sampleAwait World.sample).world

end Drydock


namespace Drydock

/-! ## The actor (`actor.go`) -/

/-- The statements of `RunActor` before `manager.RunUntil(r)`: a manager with its generator
of identifiers, a runner, the result `r` with its resolver `s`, and the turn "Main" on the
queue; `root` is the root function and `fid` names it in the call log.  Returns the manager
and `s`. -/
def actorInit (fid : Nat) (root : Runner → Prog) : M (Nat × Nat) := do
  let idgen ← NewUniqueIDGenerator
  let manager ← NewManager idgen
  let runner ← NewTurnRunner manager
  let s ← turnRunner.NewResultT runner
  Manager.NewTurn manager "Main" (.actorMain s fid (root runner))
  pure (manager, s)

/-- `RunActor(root)`: the body of its goroutine, whose result the caller receives from the
channel `done`. -/
def RunActor (fuel : Nat) (fid : Nat) (root : Runner → Prog) : M (Option Err) := do
  let ms ← actorInit fid root
  Manager.RunUntil fuel ms.1 ms.2

/-- The world in which `RunActor` queues the turn "Main", when nothing was allocated before:
the generator 0, the manager 0 and the resolvers 0, of the result `done` of the runner, and
1, of the result of the actor. -/
def World.actorBase : World :=
  { World.init with
    gen := Function.update World.init.gen 0 1
    galloc := 1
    mgr := Function.update World.init.mgr 0 ⟨NewEventSet, some Empty, 0⟩
    malloc := 1
    res := Function.update (Function.update World.init.res 0 ⟨0, none, .nil, none⟩) 1
      ⟨0, some Empty, .nil, none⟩
    ralloc := 2 }

/-- The world after the declaration `var mainExited error` of `RunUntil`. -/
def World.withCell (w : World) : World :=
  { w with
    cells := Function.update w.cells w.calloc none
    calloc := w.calloc + 1 }

/-- The root function `func(r async.Runner) async.R { return r.Done() }`. -/
def rootDone : Runner → Prog := fun r => .ret [.result .R (some r.done)]

/-- The root function `func(r async.Runner) async.R { return async.NewError(r, e) }`. -/
def rootError (e : Err) : Runner → Prog := fun r =>
  .newResult r.manager (fun s => .fail s (some e) (.ret [.result .R (some s)]))

/-- The value is not a result of the resolver `s`. -/
def Iface.Avoids (s : Nat) : Iface → Prop
  | .result _ (some a) => a ≠ s
  | _ => True

/-- The client code holds no reference to the resolver `s` nor to the turn `tm`: it never
completes, fails, resolves or forwards `s`, never passes `s` on as a value, and never queues
`tm`.  (A Go function that was never handed these pointers cannot name them.) -/
def Prog.Avoids (s tm : Nat) : Prog → Prop
  | .ret vals => ∀ v ∈ vals, Iface.Avoids s v
  | .newResult _ k => ∀ a, a ≠ s → (k a).Avoids s tm
  | .complete a v k => a ≠ s ∧ Iface.Avoids s v ∧ k.Avoids s tm
  | .fail a _ k => a ≠ s ∧ k.Avoids s tm
  | .resolve a v _ k => a ≠ s ∧ Iface.Avoids s v ∧ k.Avoids s tm
  | .forward a _ k => a ≠ s ∧ k.Avoids s tm
  | .when _ _ _ _ _ _ f k =>
    (∀ args, (∀ v ∈ args, Iface.Avoids s v) → (f args).Avoids s tm) ∧
      ∀ o, o ≠ s → (k o).Avoids s tm
  | .newTurn _ _ body k => body.Avoids s tm ∧ k.Avoids s tm
  | .allocTurn _ body k => body.Avoids s tm ∧ ∀ t, t ≠ tm → (k t).Avoids s tm
  | .queue _ t k => t ≠ some tm ∧ k.Avoids s tm
  | .spawn _ _ f k => f.Avoids s tm ∧ ∀ a, a ≠ s → (k a).Avoids s tm

/-- The function value holds no reference to the resolver `s` nor to the turn `tm`. -/
def Fn.Avoids (s tm : Nat) : Fn → Prop
  | .user _ _ body => ∀ args, (∀ v ∈ args, Iface.Avoids s v) → (body args).Avoids s tm
  | .runUntilRecord _ => True
  | .finallyFn _ _ f r => f.Avoids s tm ∧ r ≠ some s
  | .actorResolve _ => False

/-- The function of the turn holds no reference to the resolver `s` nor to the turn `tm`. -/
def Thunk.Avoids (s tm : Nat) : Thunk → Prop
  | .user body => body.Avoids s tm
  | .whenTurn _ outer _ _ _ _ f => outer ≠ s ∧ f.Avoids s tm
  | .runUntil _ _ => True
  | .runnerNew s2 _ f => s2 ≠ s ∧ f.Avoids s tm
  | .actorMain _ _ _ => False
  | .ioResult s2 _ => s2 ≠ s

/-- The invariant of an actor once its turn "Main", at `tm`, has been taken off the queue:
`s` is the resolver of the actor and `x` the result that the root function returns.  Only
the continuation that `RunActor` attaches to `x` holds `s`, the turn "Main" is in no list
any more, and if `s` is resolved then so is `x`, with the same error. -/
structure ActorInv (s tm x : Nat) (w : World) : Prop where
  alloc : s < w.ralloc
  turn : tm < w.talloc
  subject : (w.res s).next = none
  thunks : ∀ t, t < w.talloc → t ≠ tm → (w.tf t).Avoids s tm ∨
    ∃ src outer inTy tv te rr, w.tf t = .whenTurn src outer inTy tv te rr (.actorResolve s) ∧
      outer ≠ s ∧ Chain w x src
  outcomes : ∀ a, Iface.Avoids s (w.res a).outcome
  resolved : (w.res s).turns = none → ∃ final, Chain w x final ∧ final < w.ralloc ∧
    (w.res final).next = none ∧ (w.res final).turns = none ∧
    (w.res s).outcome.asError = (w.res final).outcome.asError
  main : ∀ el, TWF w el → ∀ i, tm ∉ el i

end Drydock


namespace Drydock

/-! ## Further definitions: what becomes of the turns -/

/-- From `w` to `w2`, every turn below address `n` that was detached is still detached or is
in the queue of a manager. -/
def Kept (n : Nat) (w w2 : World) : Prop :=
  ∀ el2, TWF w2 el2 → ∀ t, t < n → w.tnext t = none →
    w2.tnext t = none ∨ ∃ m, t ∈ el2 (.queue m)

/-- The sample world with one more turn, at address 1, detached; its function creates and
queues another turn: `NewTurn("outer", func() { m.NewTurn("inner", func() {}) })`. -/
def World.nesting : World :=
  { World.sample with
    tf := fun _ => .user (.newTurn 0 "inner" (.ret []) (.ret []))
    talloc := 2 }

/-- Every continuation turn allocated at or after `t0` whose source has a forwarding chain
that ends in a resolved resolver has been appended to the queue of the manager of that
resolver since the start, `E0` being the logs of appends at the start. -/
def Deliv (E0 : Nat → List Nat) (t0 : Nat) (w : World) : Prop :=
  (∀ m, ∃ add, w.enq m = E0 m ++ add) ∧
    ∀ t s outer inTy tv te rr f, t0 ≤ t → t < w.talloc →
      w.tf t = .whenTurn s outer inTy tv te rr f →
      ∀ tail, Chain w s tail → (w.res tail).next = none → (w.res tail).turns = none →
        ∃ add, w.enq (w.res tail).manager = E0 (w.res tail).manager ++ add ∧ t ∈ add

/-- What is known of the turns run since the start of `RunUntil`, `R0` being the log of runs at
the start, `t0` the turn of `RunUntil` and `cell` its variable `mainExited`: every turn run
since is allocated; once the turn of `RunUntil` has run, a recording continuation exists; and
once a recording continuation has run, the variable is set. -/
structure Track (R0 : List Nat) (t0 cell : Nat) (w : World) : Prop where
  start : t0 < w.talloc ∧ ∃ main, w.tf t0 = .runUntil main cell
  ran : ∃ r, w.ran = R0 ++ r ∧ (∀ t ∈ r, t < w.talloc) ∧
    (t0 ∈ r → ∃ t1 s outer inTy tv te rr, t0 ≤ t1 ∧ t1 < w.talloc ∧
      w.tf t1 = .whenTurn s outer inTy tv te rr (.runUntilRecord cell)) ∧
    ∀ t s outer inTy tv te rr, t ∈ r →
      w.tf t = .whenTurn s outer inTy tv te rr (.runUntilRecord cell) →
      (w.cells cell).isSome = true

/-- The invariant of the cycles of `RunUntil(main)` that holds between any two turns. -/
structure Going (E0 : Nat → List Nat) (R0 : List Nat) (t0 cell main : Nat) (w : World) :
    Prop where
  safe : Safe w
  deliv : Deliv E0 t0 w
  inv : RunInv cell main w
  track : Track R0 t0 cell w

/-- Between two cycles of manager `m`, every turn appended to its queue since the start has
run or is in the queue. -/
def Queued (E0 : Nat → List Nat) (R0 : List Nat) (m : Nat) (w : World)
    (el : Slot → List Nat) : Prop :=
  ∃ r a, w.ran = R0 ++ r ∧ w.enq m = E0 m ++ a ∧ ∀ t ∈ a, t ∈ r ∨ t ∈ el (.queue m)

/-- The body of the loop of `RunUntil`, `n` times: `m.runOneLoop(); if ... { ... }`. -/
def cycles (inner m cell : Nat) : Nat → M Unit
  | 0 => fun w => .ok () w
  | n + 1 => fun w =>
    match cycles inner m cell n w with
    | .fault f w1 => .fault f w1
    | .ok _ w1 =>
      match Manager.runOneLoop inner m w1 with
      | .fault f w2 => .fault f w2
      | .ok _ w2 => waitForSources inner m cell w2

/-- The world in which the loop of `RunUntil(main)` starts: the variable `mainExited` is
declared and the turn of `RunUntil` is in the queue of the manager. -/
def World.atRunUntil (m main : Nat) (w : World) : World :=
  (Manager.NewTurn m "RunUntil" (.runUntil main w.calloc) w.withCell).world

/-- The fault with which the run stopped, if it did. -/
def Res.fault? {α : Type} : Res α → Option Fault
  | .ok _ _ => none
  | .fault f _ => some f

/-- The sample world after `m.NewTurn("work", func() { s.Fail(e) })`, where `s` is the
resolver of the unresolved result 1 and `e` the error 9. -/
def World.working : World :=
  (Manager.NewTurn 0 "work" (.user (.fail 1 (some ⟨9⟩) (.ret []))) World.sample).world

/-- The sample world with a second manager, for which the failed result 0 was created. -/
def World.twoManagers : World :=
  { World.sample with
    malloc := 2
    galloc := 2
    res := fun a => if a = 0 then ⟨1, none, .err ⟨7⟩, none⟩ else ⟨0, some Empty, .nil, none⟩ }

/-- Every allocated resolver belongs to an allocated manager. -/
def Managed (w : World) : Prop := ∀ a, a < w.ralloc → (w.res a).manager < w.malloc

/-- What is known of the turns run since the start of the actor whose resolver is `s`, `R0`
being the log of runs at the start: every turn run since is allocated, and once the
continuation that `RunActor` attached to the result of the root function has run, `s` is
resolved. -/
structure Acts (R0 : List Nat) (s : Nat) (w : World) : Prop where
  alloc : s < w.ralloc
  ran : ∃ r, w.ran = R0 ++ r ∧ (∀ t ∈ r, t < w.talloc) ∧
    ∀ t src outer inTy tv te rr, t ∈ r →
      w.tf t = .whenTurn src outer inTy tv te rr (.actorResolve s) → (w.res s).turns = none

/-- The invariant of the cycles of an actor that holds between any two turns. -/
structure ActorRun (R0 : List Nat) (s : Nat) (w : World) : Prop where
  one : w.malloc = 1
  managed : Managed w
  acts : Acts R0 s w

/-- The world in which `RunActor` calls `manager.RunUntil(r)`. -/
def World.atActor (fid : Nat) (root : Runner → Prog) : World :=
  (actorInit fid root World.init).world

/-- A root function whose result is resolved by a later turn:
`func(r async.Runner) async.R { x, s := async.NewR(r); r.Manager().NewTurn("later", func() {
s.Fail(e) }); return x }`, with the error 7 for `e`. -/
def rootLater : Runner → Prog := fun r =>
  .newResult r.manager (fun s =>
    .newTurn r.manager "later" (.fail s (some ⟨7⟩) (.ret [])) (.ret [.result .R (some s)]))

/-- Whether the turn is a continuation with these fields whose function is the literal of
`RunActor` that resolves `s`; for examples. -/
def Thunk.isActorCont (src outer : Nat) (inTy : Ty) (tv te rr : Bool) (s : Nat) :
    Thunk → Bool
  | .whenTurn a b c d e f (.actorResolve g) =>
    a == src && b == outer && c == inTy && d == tv && e == te && f == rr && g == s
  | _ => false

end Drydock


namespace Drydock

/-! ## The I/O bridge with its goroutines (`turn_source.go`, `manager.go`)

The goroutine that `turnSource.New` starts and the thread of the manager run interleaved.
A step of a thread is one of its operations on what the threads share: the list of the
source, which the mutex protects, the channel of the event, and the captured variable
`err`.  What a thread does to its own data between two such operations belongs to the
step. -/

/-- Where the goroutine started by `turnSource.New` stands. -/
inductive WorkerPc where
  /-- Before `err = f()`. -/
  | calling
  /-- Before `t.lock.Lock(); t.list = t.list.Append(turn); t.lock.Unlock()`. -/
  | locking
  /-- Before `t.event.Signal()`. -/
  | signalling
  /-- After its last statement. -/
  | finished
  deriving DecidableEq, Repr

/-- The goroutine of one call `t.New(f)`: the source `src`, the resolver `s`, the completion
turn `turn` and the address `cell` of the variable `err` that its closure captures, the
error `ret` that the call `f()` returns, and where it stands. -/
structure Worker where
  src : Nat
  s : Nat
  turn : Nat
  cell : Nat
  ret : Option Err
  pc : WorkerPc

/-- `turnSource.New(f)` up to the `go` statement, on the thread of the manager; `ret` is what
`f()` is going to return.  Returns the goroutine; the result returned to the caller is the
one of the resolver `s` of the goroutine. -/
def turnSource.New (t : Nat) (ret : Option Err) : M Worker := fun w =>
  if w.salloc ≤ t then .fault .wildPointer w
  else
    -- s := newTurnResolver(t.manager)
    match newTurnResolver (w.src t).manager w with
    | .fault f w1 => .fault f w1
    | .ok s w1 =>
      -- var err error
      let cell := w1.erralloc
      let w2 := { w1 with
        errs := Function.update w1.errs cell none
        erralloc := cell + 1 }
      -- turn := NewTurn("IOResult"+t.manager.NewID().String(), func() { s.Resolve(nil, err) })
      match Manager.NewID (w2.src t).manager w2 with
      | .fault f w3 => .fault f w3
      | .ok id w3 =>
        match NewTurn ("IOResult" ++ UniqueID.String id) (.ioResult s cell) w3 with
        | .fault f w4 => .fault f w4
        | .ok turn w4 => .ok ⟨t, s, turn, cell, ret, .calling⟩ w4

/-- One step of the goroutine of `turnSource.New`; returns the goroutine at its next
statement. -/
def Worker.step (k : Worker) : M Worker := fun w =>
  match k.pc with
  | .calling =>
    -- err = f()
    .ok { k with pc := .locking } { w with errs := Function.update w.errs k.cell k.ret }
  | .locking =>
    -- t.lock.Lock(); t.list = t.list.Append(turn); t.lock.Unlock()
    match Append w.tnext (w.src k.src).list (some k.turn) with
    | .error f => .fault f w
    | .ok (h, l) =>
      .ok { k with pc := .signalling } { w with
        tnext := h
        src := Function.update w.src k.src { w.src k.src with list := l } }
  | .signalling =>
    -- t.event.Signal()
    match Event.Signal (w.src k.src).event w with
    | .fault f w1 => .fault f w1
    | .ok _ w1 => .ok { k with pc := .finished } w1
  | .finished => .fault .blocked w

/-- Where the thread of the manager stands in the loop of `RunUntil`. -/
inductive ManagerPc where
  /-- At `m.sources.Select()` in the first loop of `runOneLoop`. -/
  | select
  /-- In the body of that loop, before `getAllTurns` on the source of the event `e`. -/
  | take (e : Nat)
  /-- At `list := m.turns` in `runOneLoop`. -/
  | snapshot
  /-- At `m.sources.Wait()`. -/
  | wait
  /-- At `e.Signal()` after `Wait` has returned `e`. -/
  | resignal (e : Option Nat)
  /-- After the loop. -/
  | exited
  deriving DecidableEq, Repr

/-- The head of the loop of `RunUntil`: `for mainExited == nil`. -/
def loopHead (cell : Nat) (w : World) : ManagerPc :=
  if (w.cells cell).isNone then .select else .exited

/-- One step of the thread of the manager `m` in the loop of `RunUntil`, whose variable
`mainExited` is at `cell`; returns where the thread stands afterwards.  `Wait` with no event
ready does not return: the step is the fault `blocked`. -/
def Manager.threadStep (fuel m cell : Nat) : ManagerPc → M ManagerPc
  | .select => fun w =>
    -- e := m.sources.Select(); e != nil
    match EventSet.Select fuel m w with
    | .fault f w1 => .fault f w1
    | .ok (some e) w1 => .ok (.take e) w1
    | .ok none w1 => .ok .snapshot w1
  | .take e => fun w =>
    -- list := e.Data().(*turnSource).getAllTurns(); for !list.IsEmpty() { ... }
    match turnSource.getAllTurns (w.ev e).data w with
    | .fault f w1 => .fault f w1
    | .ok list w1 =>
      match ingestList m fuel list w1 with
      | .fault f w2 => .fault f w2
      | .ok _ w2 => .ok .select w2
  | .snapshot => fun w =>
    -- list := m.turns; m.turns = Empty; for !list.IsEmpty() { ... t.Run() }
    match runSnapshot fuel fuel (w.mgr m).turns
        { w with mgr := Function.update w.mgr m { w.mgr m with turns := some Empty } } with
    | .fault f w1 => .fault f w1
    | .ok _ w1 =>
      -- if m.turns.IsEmpty() && (mainExited == nil)
      if IsEmpty (w1.mgr m).turns && (w1.cells cell).isNone then .ok .wait w1
      else .ok (loopHead cell w1) w1
  | .wait => fun w =>
    -- e := m.sources.Wait() and the three assertions
    match EventSet.Wait fuel m w with
    | .fault f w1 => .fault f w1
    | .ok e w1 =>
      if !IsEmpty (w1.mgr m).turns then
        .fault (.precondition "Only blocked on I/O if there was no work to do.") w1
      else if (w1.cells cell).isSome then
        .fault (.precondition "Only blocked on I/O if the program not exited.") w1
      else if e.isNone then
        .fault (.precondition liveLockMsg) w1
      else .ok (.resignal e) w1
  | .resignal e => fun w =>
    -- e.Signal()
    match Event.Signal e w with
    | .fault f w1 => .fault f w1
    | .ok _ w1 => .ok (loopHead cell w1) w1
  | .exited => fun w => .fault .blocked w

/-- The program: the shared world, the goroutines started by `turnSource.New` and the place
of the thread of the manager. -/
structure Sys where
  w : World
  /-- The goroutines by number; `count` of them have been started. -/
  workers : Nat → Worker
  count : Nat
  mpc : ManagerPc

/-- What the scheduler picks next. -/
inductive Pick where
  /-- The thread of the manager takes a step of the loop of `RunUntil`. -/
  | manager
  /-- The goroutine number `i` takes a step. -/
  | worker (i : Nat)
  /-- The thread of the manager calls `t.New(f)` on the source `t`, where `f()` is going to
  return `ret`. -/
  | start (t : Nat) (ret : Option Err)

/-- One step of the program; `none` if the thread picked has no step: it has returned, it is
blocked, or it stops with a fault. -/
def Sys.step (fuel m cell : Nat) (sys : Sys) : Pick → Option Sys
  | .manager =>
    match Manager.threadStep fuel m cell sys.mpc sys.w with
    | .ok pc w1 => some { sys with w := w1, mpc := pc }
    | .fault _ _ => none
  | .worker i =>
    if i < sys.count then
      match (sys.workers i).step sys.w with
      | .ok k2 w1 => some { sys with w := w1, workers := Function.update sys.workers i k2 }
      | .fault _ _ => none
    else none
  | .start t ret =>
    match turnSource.New t ret sys.w with
    | .ok k w1 =>
      some { sys with
        w := w1
        workers := Function.update sys.workers sys.count k
        count := sys.count + 1 }
    | .fault _ _ => none

/-- Runs the program along a schedule; `none` if a thread picked has no step. -/
def Sys.run (fuel m cell : Nat) : List Pick → Sys → Option Sys
  | [], sys => some sys
  | p :: rest, sys =>
    match sys.step fuel m cell p with
    | some sys1 => Sys.run fuel m cell rest sys1
    | none => none

/-- The part of the world that belongs to the sources: the captured variables `err` and the
allocation of sources. -/
def World.io (w : World) := (w.errs, w.erralloc, w.salloc)

/-- Everything but the links of the turns, the resolvers and the log of the turns run. -/
def World.outside (w : World) :=
  (w.tf, w.tname, w.talloc, w.ralloc, w.mgr, w.malloc, w.gen, w.galloc, w.ev, w.ealloc, w.src,
    w.salloc, w.cells, w.calloc, w.errs, w.erralloc, w.chooser, w.nsel, w.calls, w.enq)

/-- A wake-up is under way for the source `j`: its event holds a signal, or a goroutine of
the source stands before its `Signal`, or the thread of the manager holds the event, taken
by `Select` or by `Wait`, and is about to empty the list of the source or to signal the event
again. -/
def Wake (sys : Sys) (j : Nat) : Prop :=
  ∃ e, (sys.w.src j).event = some e ∧
    ((sys.w.ev e).signaled = true ∨
      (∃ i, i < sys.count ∧ (sys.workers i).src = j ∧ (sys.workers i).pc = .signalling) ∨
      sys.mpc = .take e ∨ sys.mpc = .resignal (some e))

/-- The completion turn of the goroutine has not run, and its result is unresolved and has
no continuation. -/
def Worker.Fresh (k : Worker) (w : World) : Prop :=
  k.turn ∉ w.ran ∧ (w.res k.s).turns = some Empty

/-- The completion turn of the goroutine has run, once, and is in no list; its result is
resolved with the error that `f()` returned, or successfully if that is `nil`. -/
def Worker.Delivered (k : Worker) (w : World) : Prop :=
  w.tnext k.turn = none ∧ w.ran.count k.turn = 1 ∧ (w.res k.s).turns = none ∧
    (w.res k.s).outcome = ofError k.ret

/-- Where the completion turn of a goroutine is, by the place of the goroutine: in no list
until it is appended; from then on in the list of its source, in the queue of the manager
`m`, or run. -/
def Worker.Placed (k : Worker) (m : Nat) (w : World) (el : Slot → List Nat) : Prop :=
  match k.pc with
  | .calling => w.tnext k.turn = none ∧ k.Fresh w
  | .locking => w.tnext k.turn = none ∧ k.Fresh w ∧ w.errs k.cell = k.ret
  | _ => w.errs k.cell = k.ret ∧
    ((k.turn ∈ el (.source k.src) ∧ k.Fresh w) ∨ (k.turn ∈ el (.queue m) ∧ k.Fresh w) ∨
      k.Delivered w)

/-- The invariant of the bridge between the goroutines of `turnSource.New` and the manager
`m` in the loop of a call of `RunUntil` whose variable `mainExited`, at `cell`, is never set:
the turn lists are well formed with elements `el`; the sources are those of `m`, with their
events open and registered; only completion turns are in the lists; every goroutine has its
own turn, resolver and variable; a source whose list is not empty has a wake-up under
way; and an event that holds a signal, or that the manager is about to signal again, is the
event of a source. -/
structure Bridge (fuel m cell : Nat) (sys : Sys) (el : Slot → List Nat) : Prop where
  twf : TWF sys.w el
  set : ∃ c0 ms, SetIs sys.w m c0 ms ∧ ms.length ≤ fuel ∧
    (∀ c ∈ ms, ∀ e, c.chan = some e → (sys.w.ev e).closed = false) ∧
    ∀ j, j < sys.w.salloc → ∃ e, (sys.w.src j).event = some e ∧
      (⟨.selectRecv, some e⟩ : SelectCase) ∈ ms
  paired : ∀ j e, (sys.w.src j).event = some e → (sys.w.ev e).data = j
  cell : sys.w.cells cell = none
  place : sys.mpc ≠ .exited ∧ (sys.mpc = .wait → el (.queue m) = []) ∧
    ∀ e, sys.mpc = .resignal e → ∃ e1, e = some e1 ∧ (sys.w.ev e1).closed = false
  ran : ∀ t ∈ sys.w.ran, t < sys.w.talloc
  turns : ∀ i j, i < sys.count → j < sys.count →
    (sys.workers i).turn = (sys.workers j).turn → i = j
  resolvers : ∀ i j, i < sys.count → j < sys.count →
    (sys.workers i).s = (sys.workers j).s → i = j
  cells : ∀ i j, i < sys.count → j < sys.count →
    (sys.workers i).cell = (sys.workers j).cell → i = j
  worker : ∀ i, i < sys.count → (sys.workers i).src < sys.w.salloc ∧
    (sys.workers i).turn ≠ Empty ∧
    sys.w.tf (sys.workers i).turn = .ioResult (sys.workers i).s (sys.workers i).cell ∧
    (sys.workers i).turn < sys.w.talloc ∧ (sys.workers i).s < sys.w.ralloc ∧
    (sys.workers i).cell < sys.w.erralloc ∧ (sys.workers i).Placed m sys.w el
  queued : ∀ t ∈ el (.queue m), ∃ i, i < sys.count ∧ (sys.workers i).turn = t
  listed : ∀ j, ∀ t ∈ el (.source j), ∃ i, i < sys.count ∧ (sys.workers i).turn = t ∧
    (sys.workers i).src = j
  wake : ∀ j, el (.source j) ≠ [] → Wake sys j
  origin : ∀ e, (sys.w.ev e).signaled = true →
    ∃ j, j < sys.w.salloc ∧ (sys.w.src j).event = some e
  held : ∀ e, sys.mpc = .resignal (some e) →
    ∃ j, j < sys.w.salloc ∧ (sys.w.src j).event = some e

/-- The steps that the goroutine has left. -/
def Worker.rest (k : Worker) : Nat :=
  match k.pc with
  | .calling => 3
  | .locking => 2
  | .signalling => 1
  | .finished => 0

/-- The steps that the first `n` goroutines have left. -/
def work (ws : Nat → Worker) : Nat → Nat
  | 0 => 0
  | n + 1 => work ws n + (ws n).rest

/-- The number of sources among the first `n` whose event holds a signal. -/
def signals (src : Nat → Source) (ev : Nat → Event) : Nat → Nat
  | 0 => 0
  | n + 1 => signals src ev n +
    match (src n).event with
    | some e => if (ev e).signaled then 1 else 0
    | none => 0

/-- The signal that the thread of the manager holds between `Wait` and `e.Signal()`. -/
def ManagerPc.held : ManagerPc → Nat
  | .resignal _ => 1
  | _ => 0

/-- The steps that the thread of the manager takes from `pc`, with `s` signals in the events
and in its hand, until it blocks in `Wait`, if no goroutine takes a step. -/
def ManagerPc.rest (pc : ManagerPc) (s : Nat) : Nat :=
  match pc with
  | .select => 2 * s + 2
  | .take _ => 2 * s + 3
  | .snapshot => if s = 0 then 1 else 2 * s + 5
  | .wait => if s = 0 then 0 else 2 * s + 4
  | .resignal _ => 2 * s + 3
  | .exited => 0

/-- A bound on the number of steps that the program takes without a new call of `New`: a
step of a goroutine may add a signal, which costs the manager at most six more steps. -/
def Sys.rest (sys : Sys) : Nat :=
  7 * work sys.workers sys.count +
    sys.mpc.rest (signals sys.w.src sys.w.ev sys.w.salloc + sys.mpc.held)

/-- A call of `New`, as opposed to a step of a thread. -/
def Pick.isStart : Pick → Bool
  | .start _ _ => true
  | _ => false

/-- The sample world after `NewTurnSource(runner)` on the runner of its manager: the source
0, with the event 0 registered. -/
def World.bridge : World := (NewTurnSource ⟨0, 0⟩ World.sample).world

/-- The program in the world `World.bridge` before any call of `New`, with the thread of the
manager at the head of the loop of `RunUntil`. -/
def Sys.sample : Sys :=
  ⟨{ World.bridge with calloc := 1 }, fun _ => ⟨0, 0, 0, 0, none, .finished⟩, 0, .select⟩

end Drydock


/-! ## Turn lists: rings and the list operations -/

namespace Drydock

theorem Links_append (h : TurnHeap) (xs ys : List Nat) (c : Nat) :
    Links h (xs ++ ys) c ↔ Links h xs (ys.headD c) ∧ Links h ys c := by
  induction xs with
  | nil => simp [Links]
  | cons x xs ih =>
    have hc : x :: xs ++ ys = x :: (xs ++ ys) := rfl
    rw [hc]
    simp only [Links, ih, and_assoc]
    cases xs <;> simp

theorem Links_congr {h h2 : TurnHeap} {xs : List Nat} {c : Nat}
    (hag : ∀ y ∈ xs, h2 y = h y) (hp : Links h xs c) : Links h2 xs c := by
  induction xs with
  | nil => trivial
  | cons x xs ih =>
    exact ⟨by rw [hag x (by simp)]; exact hp.1, ih (fun y hy => hag y (by simp [hy])) hp.2⟩

theorem Links_linked {h : TurnHeap} {xs : List Nat} {c : Nat} (hp : Links h xs c) :
    ∀ y ∈ xs, ∃ z, h y = some z := by
  induction xs with
  | nil => simp
  | cons x xs ih =>
    intro y hy
    rcases List.mem_cons.1 hy with rfl | hy
    · exact ⟨_, hp.1⟩
    · exact ih hp.2 y hy

theorem Ring_nil_iff (h : TurnHeap) (l : Option Nat) : Ring h l [] ↔ l = some Empty := by
  simp [Ring, Links]

theorem Ring_linked {h : TurnHeap} {l : Option Nat} {xs : List Nat} (hr : Ring h l xs) :
    ∀ y ∈ xs, ∃ z, h y = some z := Links_linked hr.2.1

/-- A ring only depends on the `next` fields of its own members. -/
theorem Ring_congr {h h2 : TurnHeap} {l : Option Nat} {xs : List Nat}
    (hag : ∀ y ∈ xs, h2 y = h y) (hr : Ring h l xs) : Ring h2 l xs :=
  ⟨hr.1, Links_congr hag hr.2.1, hr.2.2⟩

theorem Append_ring {h : TurnHeap} {l : Option Nat} {xs : List Nat} {a : Nat}
    (hr : Ring h l xs) (ha0 : a ≠ Empty) (ha : h a = none) :
    ∃ h2, Append h l (some a) = .ok (h2, some a) ∧ Ring h2 (some a) (xs ++ [a]) ∧
      (∀ y, y ≠ a → y ∉ xs → h2 y = h y) := by
  have hax : a ∉ xs := fun hm => by
    obtain ⟨z, hz⟩ := Ring_linked hr a hm
    rw [ha] at hz; cases hz
  obtain ⟨hl, hp, hnd, h0⟩ := hr
  have hE : IsEmpty (some a) = false := by simp [IsEmpty, ha0]
  rcases List.eq_nil_or_concat xs with rfl | ⟨ys, t, rfl⟩
  · subst hl
    refine ⟨Function.update h a (some a), ?_, ?_, ?_⟩
    · simp [Append, ha, IsEmpty, ha0]
    · exact ⟨by simp, by simp [Links], by simp, by simpa using Ne.symm ha0⟩
    · intro y hy _
      simp [Function.update_noteq hy]
  · rw [List.concat_eq_append] at hl hp hnd h0 hax ⊢
    simp only [List.getLastD_concat] at hl
    subst hl
    have hta : t ≠ a := fun e => hax (by simp [e])
    have htE : IsEmpty (some t) = false := by
      have : t ≠ Empty := fun e => h0 (by simp [e])
      simp [IsEmpty, this]
    rw [Links_append] at hp
    obtain ⟨hp1, hp2, -⟩ := hp
    simp only [List.headD_cons] at hp1
    have hty : t ∉ ys := fun hm => by
      have := List.nodup_append.1 hnd
      exact this.2.2 hm (by simp)
    refine ⟨Function.update (Function.update h a (h t)) t (some a), ?_, ?_, ?_⟩
    · simp [Append, hE, ha, htE]
    · refine ⟨by simp, ?_, ?_, ?_⟩
      · rw [List.append_assoc, Links_append]
        refine ⟨Links_congr ?_ hp1, ?_, ?_, trivial⟩
        · intro y hy
          have h1 : y ≠ t := fun e => hty (e ▸ hy)
          have h2 : y ≠ a := fun e => hax (by simp [← e, hy])
          simp [Function.update_noteq h1, Function.update_noteq h2]
        · simp
        · simp only [List.headD_nil]
          rw [Function.update_noteq hta.symm, Function.update_same, hp2]
          cases ys <;> simp
      · rw [List.nodup_append]
        refine ⟨hnd, by simp, ?_⟩
        intro y hy hy2
        simp only [List.mem_singleton] at hy2
        exact hax (hy2 ▸ hy)
      · intro hm
        rcases List.mem_append.1 hm with hm | hm
        · exact h0 hm
        · simp only [List.mem_singleton] at hm; exact ha0 hm.symm
    · intro y hy hyx
      have : y ≠ t := fun e => hyx (by simp [e])
      simp [Function.update_noteq this, Function.update_noteq hy]


theorem RemoveHead_ring {h : TurnHeap} {l : Option Nat} {x : Nat} {xs : List Nat}
    (hr : Ring h l (x :: xs)) :
    ∃ h2 l2, RemoveHead h l = .ok (h2, some x, l2) ∧ Ring h2 l2 xs ∧ h2 x = none ∧
      (∀ y, y ∉ x :: xs → h2 y = h y) := by
  obtain ⟨hl, hp, hnd, h0⟩ := hr
  rcases List.eq_nil_or_concat xs with rfl | ⟨ys, t, rfl⟩
  · simp only [List.getLastD_cons, List.getLastD_nil] at hl
    subst hl
    have hx0 : x ≠ Empty := fun e => h0 (by simp [e])
    have hx : h x = some x := by simpa [Links] using hp.1
    refine ⟨Function.update h x none, some Empty, ?_, (Ring_nil_iff _ _).2 rfl, by simp, ?_⟩
    · simp [RemoveHead, IsEmpty, hx0, hx]
    · intro y hy
      have : y ≠ x := fun e => hy (by simp [e])
      simp [Function.update_noteq this]
  · rw [List.concat_eq_append] at hl hp hnd h0 ⊢
    simp only [List.getLastD_cons, List.getLastD_concat] at hl
    subst hl
    have ht0 : t ≠ Empty := fun e => h0 (by simp [e])
    have hxt : x ≠ t := fun e => by
      have := (List.nodup_cons.1 hnd).1
      exact this (by simp [e])
    have hnd2 : (ys ++ [t]).Nodup := (List.nodup_cons.1 hnd).2
    have hty : t ∉ ys := fun hm => (List.nodup_append.1 hnd2).2.2 hm (by simp)
    have hxy : x ∉ ys := fun hm => (List.nodup_cons.1 hnd).1 (by simp [hm])
    obtain ⟨hx, hp2⟩ := hp
    simp only [List.headD_cons] at hx hp2
    rw [Links_append] at hp2
    obtain ⟨hp3, ht, -⟩ := hp2
    simp only [List.headD_nil, List.headD_cons] at ht hp3
    refine ⟨Function.update (Function.update h t (h x)) x none, some t, ?_, ?_, by simp, ?_⟩
    · simp [RemoveHead, IsEmpty, ht0, ht, hxt]
    · refine ⟨by simp, ?_, hnd2, fun hm => h0 (by simp [hm])⟩
      rw [Links_append]
      refine ⟨Links_congr ?_ hp3, ?_, trivial⟩
      · intro y hy
        have h1 : y ≠ t := fun e => hty (e ▸ hy)
        have h2 : y ≠ x := fun e => hxy (e ▸ hy)
        simp [Function.update_noteq h1, Function.update_noteq h2]
      · simp only [List.headD_nil]
        rw [Function.update_noteq hxt.symm, Function.update_same, hx]
        cases ys <;> simp
    · intro y hy
      have h1 : y ≠ x := fun e => hy (by simp [e])
      have h2 : y ≠ t := fun e => hy (by simp [e])
      simp [Function.update_noteq h1, Function.update_noteq h2]

theorem appendAll_ring {h : TurnHeap} {l : Option Nat} {xs ts : List Nat}
    (hr : Ring h l xs) (hnd : ts.Nodup) (h0 : Empty ∉ ts) (hd : ∀ t ∈ ts, h t = none) :
    ∃ h2 l2, appendAll h l ts = .ok (h2, l2) ∧ Ring h2 l2 (xs ++ ts) := by
  induction ts generalizing h l xs with
  | nil => exact ⟨h, l, rfl, by simpa using hr⟩
  | cons t ts ih =>
    have ht0 : t ≠ Empty := fun e => h0 (by simp [e])
    obtain ⟨h1, he, hr1, hfr⟩ := Append_ring hr ht0 (hd t (by simp))
    have htx : ∀ y ∈ ts, y ∉ xs := fun y hy hm => by
      obtain ⟨z, hz⟩ := Ring_linked hr y hm
      rw [hd y (by simp [hy])] at hz; cases hz
    obtain ⟨h2, l2, he2, hr2⟩ := ih hr1 (List.nodup_cons.1 hnd).2 (fun hm => h0 (by simp [hm]))
      (fun y hy => by
        rw [hfr y (fun e => (List.nodup_cons.1 hnd).1 (e ▸ hy)) (htx y hy)]
        exact hd y (by simp [hy]))
    refine ⟨h2, l2, ?_, by simpa using hr2⟩
    simp [appendAll, he, he2]

theorem removeHeads_ring {h : TurnHeap} {l : Option Nat} {xs : List Nat} (hr : Ring h l xs) :
    ∃ h2, removeHeads xs.length h l = .ok (h2, xs.map some, some Empty) := by
  induction xs generalizing h l with
  | nil =>
    refine ⟨h, ?_⟩
    simp [removeHeads, (Ring_nil_iff h l).1 hr]
  | cons x xs ih =>
    obtain ⟨h1, l1, he, hr1, -, -⟩ := RemoveHead_ring hr
    obtain ⟨h2, he2⟩ := ih hr1
    exact ⟨h2, by simp [removeHeads, he, he2]⟩

theorem unlinkFind_ok {h : TurnHeap} {l t : Nat} {pre : List Nat} {b fuel : Nat}
    (hp : Links h (b :: pre) t) (ht : t ∉ pre) (hl : l ∉ pre) (hf : pre.length < fuel) :
    ∃ b2, unlinkFind h l t fuel (some b) = .ok b2 := by
  induction pre generalizing b fuel with
  | nil =>
    obtain ⟨n, rfl⟩ : ∃ n, fuel = n + 1 := ⟨fuel - 1, by omega⟩
    have : h b = some t := by simpa using hp.1
    exact ⟨b, by simp [unlinkFind, this]⟩
  | cons p ps ih =>
    obtain ⟨n, rfl⟩ : ∃ n, fuel = n + 1 := ⟨fuel - 1, by omega⟩
    have hb : h b = some p := by simpa using hp.1
    have hpt : p ≠ t := fun e => ht (by simp [e])
    have hpl : p ≠ l := fun e => hl (by simp [e])
    obtain ⟨b2, hb2⟩ := ih hp.2 (fun hm => ht (by simp [hm])) (fun hm => hl (by simp [hm]))
      (by simpa using hf)
    exact ⟨b2, by simp [unlinkFind, hb, hpt, hpl, hb2]⟩

theorem Unlink_member_ok {h : TurnHeap} {l : Option Nat} {xs : List Nat} {t fuel : Nat}
    (hr : Ring h l xs) (ht : t ∈ xs) (hf : xs.length ≤ fuel) :
    ∃ h1 l1, Unlink fuel h l (some t) = .ok (h1, l1) ∧ h1 t = none := by
  obtain ⟨z, hz⟩ := Ring_linked hr t ht
  obtain ⟨hl, hp, hnd, h0⟩ := hr
  cases xs with
  | nil => simp at ht
  | cons x rest =>
    rcases List.eq_nil_or_concat rest with rfl | ⟨ys, tl, rfl⟩
    · -- one element
      simp only [List.mem_singleton] at ht
      subst ht
      simp only [List.getLastD_cons, List.getLastD_nil] at hl
      subst hl
      have hx0 : t ≠ Empty := fun e => h0 (by simp [e])
      have hx : h t = some t := by simpa [Links] using hp.1
      exact ⟨Function.update h t none, some Empty, by simp [Unlink, IsEmpty, hx0, hx], by simp⟩
    · rw [List.concat_eq_append] at hl hp hnd h0 ht hf
      simp only [List.getLastD_cons, List.getLastD_concat] at hl
      subst hl
      have ht0 : tl ≠ Empty := fun e => h0 (by simp [e])
      have hxt : x ≠ tl := fun e => (List.nodup_cons.1 hnd).1 (by simp [e])
      obtain ⟨hx, hp2⟩ := hp
      simp only [List.headD_cons] at hx hp2
      have hp2b := hp2
      rw [Links_append] at hp2
      obtain ⟨hp3, htl, -⟩ := hp2
      simp only [List.headD_nil, List.headD_cons] at htl hp3
      by_cases hxe : x = t
      · -- t is the head
        subst hxe
        exact ⟨Function.update (Function.update h tl (h x)) x none, some tl,
          by simp [Unlink, IsEmpty, ht0, htl, hz, hxt, hxt.symm], by simp⟩
      · have htr : t ∈ ys ++ [tl] := by
          rcases List.mem_cons.1 ht with e | hm
          · exact absurd e.symm hxe
          · exact hm
        obtain ⟨pre, post, hsplit⟩ := List.append_of_mem htr
        have hnd2 : (pre ++ t :: post).Nodup := hsplit ▸ (List.nodup_cons.1 hnd).2
        have htpre : t ∉ pre := fun hm => (List.nodup_append.1 hnd2).2.2 hm (by simp)
        have htlmem : tl ∈ t :: post := by
          have : (pre ++ t :: post).getLast? = some tl := by rw [← hsplit]; simp
          rw [List.getLast?_append] at this
          cases hq : (t :: post).getLast? with
          | none => simp at hq
          | some q =>
            rw [hq] at this
            simp at this
            subst this
            exact List.mem_of_getLast?_eq_some hq
        have htlpre : tl ∉ pre := fun hm => (List.nodup_append.1 hnd2).2.2 hm htlmem
        have hlk : Links h (x :: pre) t := by
          have : Links h (x :: (pre ++ t :: post)) x := by
            rw [← hsplit]; exact ⟨by simpa using hx, hp2b⟩
          have h2 : x :: (pre ++ t :: post) = (x :: pre) ++ (t :: post) := rfl
          rw [h2, Links_append] at this
          simpa using this.1
        have hlen : pre.length < fuel := by
          have : (ys ++ [tl]).length = (pre ++ t :: post).length := by rw [hsplit]
          simp at this hf
          omega
        obtain ⟨b2, hb2⟩ := unlinkFind_ok (l := tl) hlk htpre htlpre hlen
        refine ⟨Function.update (Function.update h b2 (h t)) t none,
          if t = tl then some b2 else some tl, ?_, by simp⟩
        simp only [Unlink, IsEmpty, hz, htl]
        simp [ht0, hxt, hxe, hb2]

/-- C1 (turn list FIFO): distinct detached turns `t1..tn` (`n >= 1`) appended in that order to
`Empty` come back from `n` successive `RemoveHead` calls in exactly that order, and the list
returned by the last `RemoveHead` is `Empty`. -/
theorem turn_list_fifo (h : TurnHeap) (ts : List Nat) (hne : ts ≠ []) (hnd : ts.Nodup)
    (h0 : Empty ∉ ts) (hd : ∀ t ∈ ts, h t = none) :
    ∃ h1 l1, appendAll h (some Empty) ts = .ok (h1, l1) ∧
      ∃ h2, removeHeads ts.length h1 l1 = .ok (h2, ts.map some, some Empty) := by
  have _ := hne
  obtain ⟨h1, l1, he, hr⟩ := appendAll_ring ((Ring_nil_iff h _).2 rfl) hnd h0 hd
  obtain ⟨h2, he2⟩ := removeHeads_ring hr
  exact ⟨h1, l1, he, h2, by simpa using he2⟩

theorem turn_list_fifo_witness :
    ∃ h1 l1, appendAll (fun _ => none) (some Empty) [1, 2, 3] = .ok (h1, l1) ∧
      ∃ h2, removeHeads 3 h1 l1 = .ok (h2, [some 1, some 2, some 3], some Empty) :=
  turn_list_fifo (fun _ => none) [1, 2, 3] (by decide) (by decide) (by decide) (by simp)

/-- C10 (Unlink idempotence): for a well-formed list `L` and a turn `t` that is a member of `L`
or detached, `L.Unlink(t)` does not abort, a second `Unlink(t)` on the resulting list returns
that same list with the heap unchanged, and `t` is detached (`next == nil`). -/
theorem unlink_idempotent (h : TurnHeap) (l : Option Nat) (xs : List Nat) (t fuel : Nat)
    (hr : Ring h l xs) (ht : t ∈ xs ∨ h t = none) (hf : xs.length ≤ fuel) :
    ∃ h1 l1, Unlink fuel h l (some t) = .ok (h1, l1) ∧
      Unlink fuel h1 l1 (some t) = .ok (h1, l1) ∧ h1 t = none := by
  have key : ∃ h1 l1, Unlink fuel h l (some t) = .ok (h1, l1) ∧ h1 t = none := by
    rcases ht with ht | ht
    · exact Unlink_member_ok hr ht hf
    · exact ⟨h, l, by simp [Unlink, ht], ht⟩
  obtain ⟨h1, l1, he, hd⟩ := key
  exact ⟨h1, l1, he, by simp [Unlink, hd], hd⟩

theorem unlink_idempotent_witness :
    ∃ h1 l1, Unlink 3 (fun a => if a = 1 then some 2 else if a = 2 then some 3
        else if a = 3 then some 1 else none) (some 3) (some 2) = .ok (h1, l1) ∧
      Unlink 3 h1 l1 (some 2) = .ok (h1, l1) ∧ h1 2 = none :=
  unlink_idempotent _ (some 3) [1, 2, 3] 2 3
    ⟨rfl, by simp [Links], by decide, by decide⟩ (Or.inl (by decide)) (by decide)

end Drydock


/-! ## Resolvers -/

namespace Drydock

theorem bind_apply {α β : Type} (x : M α) (f : α → M β) (w : World) :
    (x >>= f) w = match x w with
      | .ok a w1 => f a w1
      | .fault e w1 => .fault e w1 := rfl

theorem pure_apply {α : Type} (a : α) (w : World) : (pure a : M α) w = .ok a w := rfl

theorem assertTrue_true (msg : String) (w : World) : assertTrue true msg w = .ok () w := rfl

theorem assertTrue_false (msg : String) (w : World) :
    assertTrue false msg w = .fault (.precondition msg) w := rfl

theorem resolve_resolved {fuel : Nat} {w : World} {s : Nat} (o : Iface)
    (h : (w.res s).turns = none) :
    resolve fuel s o w = .fault (.precondition "Can't resolve an already resolved result.") w := by
  simp [resolve, isResolved, h]

/-- C4 (at-most-one resolution): on a resolver that has been resolved or forwarded
(`turns == nil`), each of `Complete`, `Fail`, `Resolve` and `Forward` stops with a failed
precondition, in the unchanged world: outcome and forwarding target stay as they were. -/
theorem resolve_at_most_once (fuel : Nat) (w : World) (s : Nat)
    (h : (w.res s).turns = none) :
    (∀ v, ∃ msg, Complete fuel s v w = .fault (.precondition msg) w) ∧
    (∀ e, ∃ msg, Fail fuel s e w = .fault (.precondition msg) w) ∧
    (∀ v e, ∃ msg, Resolve fuel s v e w = .fault (.precondition msg) w) ∧
    (∀ n, ∃ msg, Forward fuel s n w = .fault (.precondition msg) w) := by
  refine ⟨fun v => ?_, fun e => ?_, fun v e => ?_, fun n => ?_⟩
  · cases hv : v.asError.isSome
    · exact ⟨"Can't resolve an already resolved result.",
        by simp [Complete, bind_apply, hv, assertTrue_true, resolve_resolved v h]⟩
    · exact ⟨"Cannot succeed with an error.",
        by simp [Complete, bind_apply, hv, assertTrue_false]⟩
  · cases he : e.isSome
    · exact ⟨"Cannot fail with nil error.", by simp [Fail, bind_apply, he, assertTrue_false]⟩
    · exact ⟨"Can't resolve an already resolved result.",
        by simp [Fail, bind_apply, he, assertTrue_true, resolve_resolved _ h]⟩
  · cases hv : v.asError.isSome
    · cases he : e.isSome
      · exact ⟨"Can't resolve an already resolved result.",
          by simp [Resolve, bind_apply, hv, he, assertTrue_true, resolve_resolved v h]⟩
      · cases hn : (v == Iface.nil)
        · exact ⟨"Provide either value or err but not both.",
            by simp [Resolve, bind_apply, hv, he, hn, assertTrue_true, assertTrue_false]⟩
        · exact ⟨"Can't resolve an already resolved result.",
            by simp [Resolve, bind_apply, hv, he, hn, assertTrue_true, resolve_resolved _ h]⟩
    · exact ⟨"Cannot succeed with an error.",
        by simp [Resolve, bind_apply, hv, assertTrue_false]⟩
  · exact ⟨"Cannot forward an already completed result.", by simp [Forward, isResolved, h]⟩

/-! ### Well-formed list families -/

theorem HWF.linked {h : TurnHeap} {hd : Slot → Option (Option Nat)} {el : Slot → List Nat}
    (hw : HWF h hd el) {i : Slot} {t : Nat} (ht : t ∈ el i) : ∃ z, h t = some z := by
  cases hi : hd i with
  | none => rw [hw.inactive i hi] at ht; simp at ht
  | some l => exact Ring_linked (hw.rings i l hi) t ht

theorem HWF.not_mem_of_detached {h : TurnHeap} {hd : Slot → Option (Option Nat)}
    {el : Slot → List Nat} (hw : HWF h hd el) {t : Nat} (ht : h t = none) (i : Slot) :
    t ∉ el i := fun hm => by
  obtain ⟨z, hz⟩ := hw.linked hm
  rw [ht] at hz; cases hz

theorem HWF.empty_not_mem {h : TurnHeap} {hd : Slot → Option (Option Nat)}
    {el : Slot → List Nat} (hw : HWF h hd el) (i : Slot) : Empty ∉ el i := by
  cases hi : hd i with
  | none => rw [hw.inactive i hi]; simp
  | some l => exact (hw.rings i l hi).2.2.2

/-- Changing `next` fields outside all the lists keeps the lists well formed. -/
theorem HWF.congr_links {h h2 : TurnHeap} {hd : Slot → Option (Option Nat)} {el : Slot → List Nat}
    (hw : HWF h hd el) (hag : ∀ i, ∀ t ∈ el i, h2 t = h t) : HWF h2 hd el :=
  ⟨fun i l hi => Ring_congr (hag i) (hw.rings i l hi), hw.inactive, hw.disj⟩

/-- Appending a detached turn to the list of slot `i`. -/
theorem HWF.append {h : TurnHeap} {hd : Slot → Option (Option Nat)} {el : Slot → List Nat}
    (hw : HWF h hd el) {i : Slot} {l : Option Nat} (hi : hd i = some l) {a : Nat}
    (ha0 : a ≠ Empty) (ha : h a = none) :
    ∃ h2, Append h l (some a) = .ok (h2, some a) ∧
      HWF h2 (Function.update hd i (some (some a))) (Function.update el i (el i ++ [a])) ∧
      (∀ y, y ≠ a → y ∉ el i → h2 y = h y) := by
  obtain ⟨h2, he, hr, hfr⟩ := Append_ring (hw.rings i l hi) ha0 ha
  refine ⟨h2, he, ⟨?_, ?_, ?_⟩, hfr⟩
  · intro j l2 hj
    by_cases hji : j = i
    · subst hji
      simp only [Function.update_same, Option.some.injEq] at hj ⊢
      subst hj; exact hr
    · rw [Function.update_noteq hji] at hj ⊢
      refine Ring_congr (fun t ht => hfr t ?_ ?_) (hw.rings j l2 hj)
      · rintro rfl; exact hw.not_mem_of_detached ha j ht
      · exact hw.disj j i hji t ht
  · intro j hj
    by_cases hji : j = i
    · subst hji; simp at hj
    · rw [Function.update_noteq hji] at hj ⊢
      exact hw.inactive j hj
  · intro j k hjk t ht
    by_cases hji : j = i
    · subst hji
      have hk : k ≠ j := fun e => hjk e.symm
      rw [Function.update_same] at ht
      rw [Function.update_noteq hk]
      rcases List.mem_append.1 ht with ht | ht
      · exact hw.disj j k hjk t ht
      · simp only [List.mem_singleton] at ht
        subst ht; exact hw.not_mem_of_detached ha k
    · rw [Function.update_noteq hji] at ht
      by_cases hki : k = i
      · subst hki
        rw [Function.update_same]
        intro hm
        rcases List.mem_append.1 hm with hm | hm
        · exact hw.disj j k hjk t ht hm
        · simp only [List.mem_singleton] at hm
          subst hm; exact hw.not_mem_of_detached ha j ht
      · rw [Function.update_noteq hki]
        exact hw.disj j k hjk t ht

/-- Removing the head of a ring that belongs to no slot. -/
theorem HWF.removeHead_local {h : TurnHeap} {hd : Slot → Option (Option Nat)}
    {el : Slot → List Nat} (hw : HWF h hd el) {l : Option Nat} {x : Nat} {xs : List Nat}
    (hr : Ring h l (x :: xs)) (hun : ∀ i, ∀ t ∈ x :: xs, t ∉ el i) :
    ∃ h2 l2, RemoveHead h l = .ok (h2, some x, l2) ∧ Ring h2 l2 xs ∧ h2 x = none ∧
      HWF h2 hd el ∧ (∀ y, y ∉ x :: xs → h2 y = h y) := by
  obtain ⟨h2, l2, he, hr2, hx, hfr⟩ := RemoveHead_ring hr
  exact ⟨h2, l2, he, hr2, hx, hw.congr_links (fun i t ht => hfr t (fun hm => hun i t hm ht)), hfr⟩

/-- Emptying slot `i`: its ring now belongs to no slot. -/
theorem HWF.release {h : TurnHeap} {hd : Slot → Option (Option Nat)} {el : Slot → List Nat}
    (hw : HWF h hd el) (i : Slot) (v : Option (Option Nat))
    (hv : v = none ∨ v = some (some Empty)) :
    HWF h (Function.update hd i v) (Function.update el i []) := by
  refine ⟨?_, ?_, ?_⟩
  · intro j l2 hj
    by_cases hji : j = i
    · subst hji
      simp only [Function.update_same] at hj ⊢
      rcases hv with rfl | rfl
      · cases hj
      · cases hj; exact (Ring_nil_iff h _).2 rfl
    · rw [Function.update_noteq hji] at hj ⊢
      exact hw.rings j l2 hj
  · intro j hj
    by_cases hji : j = i
    · subst hji; simp
    · rw [Function.update_noteq hji] at hj ⊢
      exact hw.inactive j hj
  · intro j k hjk t ht
    by_cases hji : j = i
    · subst hji; simp at ht
    · rw [Function.update_noteq hji] at ht
      by_cases hki : k = i
      · subst hki; simp
      · rw [Function.update_noteq hki]
        exact hw.disj j k hjk t ht

/-! ### Queueing turns in a well-formed world -/

theorem Append_ok_inv {h h2 : TurnHeap} {l t l2 : Option Nat}
    (he : Append h l t = .ok (h2, l2)) : ∃ a, t = some a ∧ a ≠ Empty ∧ h a = none := by
  cases t with
  | none => simp [Append] at he
  | some a =>
    refine ⟨a, rfl, ?_, ?_⟩
    · rintro rfl; simp [Append, IsEmpty] at he
    · cases ha : h a with
      | none => rfl
      | some z =>
        simp only [Append, ha, Option.isSome_some] at he
        split at he <;> simp at he

theorem QueueOnly.refl_queueOnly (w : World) : QueueOnly w w := ⟨rfl, rfl, fun _ => ⟨rfl, rfl, rfl, Iff.rfl⟩⟩

theorem QueueOnly.trans_queueOnly {w w2 w3 : World} (h1 : QueueOnly w w2) (h2 : QueueOnly w2 w3) :
    QueueOnly w w3 :=
  ⟨h2.quiet.trans h1.quiet, h2.allocs.trans h1.allocs, fun s =>
    ⟨(h2.res s).1.trans (h1.res s).1, (h2.res s).2.1.trans (h1.res s).2.1,
      (h2.res s).2.2.1.trans (h1.res s).2.2.1, (h2.res s).2.2.2.trans (h1.res s).2.2.2⟩⟩

theorem handle_setQueue (w : World) (m : Nat) (l : Option Nat) (h : TurnHeap)
    (e : Nat → List Nat) :
    handle { w with tnext := h, mgr := Function.update w.mgr m { w.mgr m with turns := l },
                    enq := e } = Function.update (handle w) (.queue m) (some l) := by
  funext i
  cases i with
  | queue k =>
    by_cases hk : k = m
    · subst hk; simp [handle]
    · have : Slot.queue k ≠ Slot.queue m := fun e => hk (by injection e)
      simp [handle, Function.update_noteq hk, Function.update_noteq this]
  | pending k => simp [handle]
  | source k => simp [handle]

theorem handle_setPending (w : World) (s : Nat) (l : Option Nat) (h : TurnHeap) :
    handle { w with tnext := h, res := Function.update w.res s { w.res s with turns := l } } =
      Function.update (handle w) (.pending s) (l.map some) := by
  funext i
  cases i with
  | queue k => simp [handle]
  | pending k =>
    by_cases hk : k = s
    · subst hk; cases l <;> simp [handle]
    · have : Slot.pending k ≠ Slot.pending s := fun e => hk (by injection e)
      simp [handle, Function.update_noteq hk, Function.update_noteq this]
  | source k => simp [handle]

theorem TWF.lt_talloc {w : World} {el : Slot → List Nat} (hw : TWF w el) {t : Nat} {z : Nat}
    (ht : w.tnext t = some z) : t < w.talloc := by
  by_contra hn
  rw [hw.fresh t (by omega)] at ht; cases ht

theorem Manager.Queue_spec {w : World} {el : Slot → List Nat} (hw : TWF w el) (m : Nat)
    {a : Nat} (ha0 : a ≠ Empty) (ha : w.tnext a = none) (hal : a < w.talloc) :
    ∃ w2, Manager.Queue m (some a) w = .ok () w2 ∧
      TWF w2 (Function.update el (.queue m) (el (.queue m) ++ [a])) ∧ QueueOnly w w2 ∧
      (∀ y, y ≠ a → y ∉ el (.queue m) → w2.tnext y = w.tnext y) ∧
      w2.enq = enqAdd (.queue m) [a] w.enq ∧ w2.res = w.res := by
  obtain ⟨h2, he, hwf, hfr⟩ :=
    hw.lists.append (i := .queue m) (l := (w.mgr m).turns) rfl ha0 ha
  refine ⟨{ w with
      tnext := h2
      mgr := Function.update w.mgr m { w.mgr m with turns := some a }
      enq := Function.update w.enq m (w.enq m ++ [a]) },
    by simp [Manager.Queue, he], ⟨?_, ?_, ?_, hw.pos⟩,
    ⟨?_, rfl, fun _ => ⟨rfl, rfl, rfl, Iff.rfl⟩⟩, hfr, rfl, rfl⟩
  · rw [handle_setQueue]; exact hwf
  · show h2 Empty = none
    rw [hfr Empty (Ne.symm ha0) (hw.lists.empty_not_mem _)]; exact hw.empty
  · intro t ht
    have ht2 : w.talloc ≤ t := ht
    have hta : t ≠ a := by omega
    show h2 t = none
    rw [hfr t hta (fun hm => ?_)]
    · exact hw.fresh t ht2
    · obtain ⟨z, hz⟩ := hw.lists.linked hm
      have := hw.lt_talloc hz
      omega
  · simp only [World.quiet]
    congr 1; congr 1; congr 1; congr 1; congr 1; congr 1; congr 1; congr 1; congr 1; congr 1; congr 1; congr 1
    funext k
    by_cases hk : k = m
    · subst hk; simp
    · simp [Function.update_noteq hk]


theorem queue_spec {w : World} {el : Slot → List Nat} (hw : TWF w el) (s : Nat)
    {a : Nat} (ha0 : a ≠ Empty) (ha : w.tnext a = none) (hal : a < w.talloc) :
    ∃ w2, queue s (some a) w = .ok () w2 ∧
      TWF w2 (Function.update el (queueSlot w s) (el (queueSlot w s) ++ [a])) ∧
      QueueOnly w w2 ∧
      (∀ y, y ≠ a → y ∉ el (queueSlot w s) → w2.tnext y = w.tnext y) ∧
      w2.enq = enqAdd (queueSlot w s) [a] w.enq ∧
      (∀ k, (w.res s).turns = none ∨ k ≠ s → w2.res k = w.res k) := by
  cases hres : (w.res s).turns with
  | none =>
    have hq : queueSlot w s = .queue (w.res s).manager := by simp [queueSlot, isResolved, hres]
    obtain ⟨w2, he, hwf, hqo, hfr, henq, hrs⟩ := Manager.Queue_spec hw (w.res s).manager ha0 ha hal
    rw [hq]
    exact ⟨w2, by simp [queue, isResolved, hres, he], hwf, hqo, hfr, henq,
      fun k _ => by rw [hrs]⟩
  | some l =>
    have hq : queueSlot w s = .pending s := by simp [queueSlot, isResolved, hres]
    have hh : handle w (.pending s) = some (some l) := by simp [handle, hres]
    obtain ⟨h2, he, hwf, hfr⟩ := hw.lists.append hh ha0 ha
    rw [hq]
    refine ⟨{ w with
        tnext := h2, res := Function.update w.res s { w.res s with turns := some a } },
      by simp [queue, isResolved, hres, he], ⟨?_, ?_, ?_, hw.pos⟩, ⟨rfl, rfl, ?_⟩, hfr, rfl,
      ?_⟩
    rotate_right
    · intro k hk
      rcases hk with hk | hk
      · cases hk
      · simp [Function.update_noteq hk]
    · rw [handle_setPending]; exact hwf
    · show h2 Empty = none
      rw [hfr Empty (Ne.symm ha0) (hw.lists.empty_not_mem _)]; exact hw.empty
    · intro t ht
      have ht2 : w.talloc ≤ t := ht
      have hta : t ≠ a := by omega
      show h2 t = none
      rw [hfr t hta (fun hm => ?_)]
      · exact hw.fresh t ht2
      · obtain ⟨z, hz⟩ := hw.lists.linked hm
        have := hw.lt_talloc hz
        omega
    · intro k
      by_cases hk : k = s
      · subst hk; simp [hres]
      · simp [Function.update_noteq hk]


theorem enqAdd_nil (sl : Slot) (enq : Nat → List Nat) : enqAdd sl [] enq = enq := by
  cases sl <;> simp [enqAdd]

theorem enqAdd_append (sl : Slot) (xs ys : List Nat) (enq : Nat → List Nat) :
    enqAdd sl ys (enqAdd sl xs enq) = enqAdd sl (xs ++ ys) enq := by
  cases sl <;> simp [enqAdd]

theorem queueSlot_congr {w w2 : World} (hq : QueueOnly w w2) (s : Nat) :
    queueSlot w2 s = queueSlot w s := by
  obtain ⟨hm, -, -, ht⟩ := hq.res s
  unfold queueSlot isResolved
  rw [hm]
  cases h1 : (w.res s).turns <;> cases h2 : (w2.res s).turns <;> simp_all

theorem Ring_ne_empty {h : TurnHeap} {l : Option Nat} {x : Nat} {xs : List Nat}
    (hr : Ring h l (x :: xs)) : IsEmpty l = false := by
  obtain ⟨hl, -, -, h0⟩ := hr
  subst hl
  have : (x :: xs).getLastD Empty ∈ x :: xs := by
    rw [List.getLastD_cons]
    cases xs with
    | nil => simp
    | cons y ys =>
      rw [List.getLastD_cons]
      exact List.mem_cons_of_mem _ (by
        have := List.getLast_mem (l := y :: ys) (by simp)
        rwa [List.getLast_eq_getLastD] at this)
  have hne : (x :: xs).getLastD Empty ≠ Empty := fun e => h0 (e ▸ this)
  show (some ((x :: xs).getLastD Empty) == some Empty) = false
  rw [beq_eq_false_iff_ne]
  exact fun e => hne (Option.some.inj e)

theorem TWF.setTnext {w : World} {el : Slot → List Nat} (hw : TWF w el) {h2 : TurnHeap}
    (hl : HWF h2 (handle w) el) (hfr : ∀ y, w.tnext y = none → h2 y = none) :
    TWF { w with tnext := h2 } el :=
  ⟨hl, hfr _ hw.empty, fun t ht => hfr _ (hw.fresh t ht), hw.pos⟩

theorem queueList_spec (s : Nat) (fuel : Nat) :
    ∀ {w : World} {el : Slot → List Nat} {list : Option Nat} {xs : List Nat}, TWF w el →
      Ring w.tnext list xs → (∀ i, ∀ t ∈ xs, t ∉ el i) →
      (∃ w2, queueList s fuel list w = .ok () w2 ∧
        TWF w2 (Function.update el (queueSlot w s) (el (queueSlot w s) ++ xs)) ∧
        QueueOnly w w2 ∧
        (∀ y, y ∉ xs → y ∉ el (queueSlot w s) → w2.tnext y = w.tnext y) ∧
        w2.enq = enqAdd (queueSlot w s) xs w.enq ∧
        (∀ k, (w.res s).turns = none ∨ k ≠ s → w2.res k = w.res k)) ∨
      (fuel < xs.length ∧ ∃ w2, queueList s fuel list w = .fault .outOfFuel w2) := by
  induction fuel with
  | zero =>
    intro w el list xs hw hr hun
    cases xs with
    | nil =>
      left
      have hl := (Ring_nil_iff _ _).1 hr
      refine ⟨w, by simp [queueList, hl, IsEmpty], ?_, QueueOnly.refl_queueOnly w, fun _ _ _ => rfl, ?_,
        fun _ _ => rfl⟩
      · simpa using hw
      · rw [enqAdd_nil]
    | cons x rest =>
      right
      exact ⟨by simp, w, by simp [queueList, Ring_ne_empty hr]⟩
  | succ fuel ih =>
    intro w el list xs hw hr hun
    cases xs with
    | nil =>
      left
      have hl := (Ring_nil_iff _ _).1 hr
      refine ⟨w, by simp [queueList, hl, IsEmpty], ?_, QueueOnly.refl_queueOnly w, fun _ _ _ => rfl, ?_,
        fun _ _ => rfl⟩
      · simpa using hw
      · rw [enqAdd_nil]
    | cons x rest =>
      obtain ⟨z, hz⟩ := Ring_linked hr x (by simp)
      have hx0 : x ≠ Empty := fun e => hr.2.2.2 (by simp [e])
      have hxr : x ∉ rest := (List.nodup_cons.1 hr.2.2.1).1
      obtain ⟨h2, l2, he, hr2, hx, hwf, hfr⟩ := hw.lists.removeHead_local hr hun
      have hwa : TWF { w with tnext := h2 } el := hw.setTnext hwf (fun y hy => by
        rw [hfr y (fun hm => ?_)]
        · exact hy
        · obtain ⟨z, hz⟩ := Ring_linked hr y hm
          rw [hy] at hz; cases hz)
      obtain ⟨wb, hqe, hwb, hqo, hfrb, henq, hresb⟩ :=
        queue_spec hwa s (a := x) hx0 hx (hw.lt_talloc hz)
      have hqs : queueSlot { w with tnext := h2 } s = queueSlot w s := rfl
      rw [hqs] at hwb hfrb
      have henq : wb.enq = enqAdd (queueSlot w s) [x] w.enq := henq
      have hresb : ∀ k, (w.res s).turns = none ∨ k ≠ s → wb.res k = w.res k := hresb
      have hr3 : Ring wb.tnext l2 rest :=
        Ring_congr (fun y hy => hfrb y (fun e => hxr (e ▸ hy))
          (hun _ y (List.mem_cons_of_mem _ hy))) hr2
      have hun3 : ∀ i, ∀ t ∈ rest,
          t ∉ Function.update el (queueSlot w s) (el (queueSlot w s) ++ [x]) i := by
        intro i t ht
        by_cases hi : i = queueSlot w s
        · subst hi
          rw [Function.update_same]
          intro hm
          rcases List.mem_append.1 hm with hm | hm
          · exact hun _ t (List.mem_cons_of_mem _ ht) hm
          · simp only [List.mem_singleton] at hm
            exact hxr (hm ▸ ht)
        · rw [Function.update_noteq hi]
          exact hun i t (List.mem_cons_of_mem _ ht)
      have hstep : queueList s (fuel + 1) list w = queueList s fuel l2 wb := by
        simp [queueList, Ring_ne_empty hr, he, hqe]
      have hqs2 : queueSlot wb s = queueSlot w s := queueSlot_congr hqo s
      rcases ih hwb hr3 hun3 with ⟨w2, he2, hw2, hqo2, hfr2, henq2, hres2⟩ | ⟨hlt, w2, he2⟩
      · left
        rw [hqs2] at hw2 hfr2 henq2
        have hq0 : QueueOnly w { w with tnext := h2 } :=
          ⟨rfl, rfl, fun _ => ⟨rfl, rfl, rfl, Iff.rfl⟩⟩
        refine ⟨w2, by rw [hstep, he2], ?_, (hq0.trans_queueOnly hqo).trans_queueOnly hqo2, ?_, ?_, ?_⟩
        rotate_right
        · intro k hk
          rw [hres2 k ?_, hresb k hk]
          rcases hk with hk | hk
          · left
            exact ((hqo.res s).2.2.2).2 hk
          · exact Or.inr hk
        · simpa [Function.update_same, List.append_assoc] using hw2
        · intro y hy1 hy2
          have hyx : y ≠ x := fun e => hy1 (by simp [e])
          have hyr : y ∉ rest := fun hm => hy1 (List.mem_cons_of_mem _ hm)
          rw [hfr2 y hyr (by simp [Function.update_same, hy2, hyx]), hfrb y hyx hy2]
          exact hfr y hy1
        · rw [henq2, henq, enqAdd_append]; rfl
      · right
        exact ⟨by simpa using hlt, w2, by rw [hstep, he2]⟩


theorem handle_setRes (w : World) (s : Nat) (r : Resolver) :
    handle { w with res := Function.update w.res s r } =
      Function.update (handle w) (.pending s) (r.turns.map some) := by
  funext i
  cases i with
  | queue k => simp [handle]
  | pending k =>
    by_cases hk : k = s
    · subst hk; cases hr : r.turns <;> simp [handle, hr]
    · have : Slot.pending k ≠ Slot.pending s := fun e => hk (by injection e)
      simp [handle, Function.update_noteq hk, Function.update_noteq this]
  | source k => simp [handle]

/-- Setting `turns = nil` on a resolver releases its list of pending turns. -/
theorem TWF.releasePending {w : World} {el : Slot → List Nat} (hw : TWF w el) (s : Nat)
    (r : Resolver) (hr : r.turns = none) :
    TWF { w with res := Function.update w.res s r } (Function.update el (.pending s) []) := by
  refine ⟨?_, hw.empty, hw.fresh, hw.pos⟩
  show HWF w.tnext (handle { w with res := Function.update w.res s r }) _
  rw [handle_setRes, hr]
  exact hw.lists.release _ _ (Or.inl rfl)

theorem resolve_spec {w : World} {el : Slot → List Nat} (hw : TWF w el) (fuel s : Nat)
    (o : Iface) {l : Nat} (hs : (w.res s).turns = some l) :
    (∃ w2, resolve fuel s o w = .ok () w2 ∧
      TWF w2 (Function.update (Function.update el (.pending s) []) (.queue (w.res s).manager)
        (el (.queue (w.res s).manager) ++ el (.pending s))) ∧
      w2.res = Function.update w.res s { w.res s with turns := none, outcome := o } ∧
      w2.quiet = w.quiet ∧ w2.allocs = w.allocs ∧
      w2.enq = enqAdd (.queue (w.res s).manager) (el (.pending s)) w.enq ∧
      (∀ y, y ∉ el (.pending s) → y ∉ el (.queue (w.res s).manager) →
        w2.tnext y = w.tnext y)) ∨
    (fuel < (el (.pending s)).length ∧ ∃ w2, resolve fuel s o w = .fault .outOfFuel w2) := by
  have hwm := hw.releasePending s { w.res s with turns := none, outcome := o } rfl
  have hring : Ring w.tnext (some l) (el (.pending s)) :=
    hw.lists.rings (.pending s) (some l) (by simp [handle, hs])
  have hun : ∀ i, ∀ t ∈ el (.pending s), t ∉ Function.update el (.pending s) [] i := by
    intro i t ht
    by_cases hi : i = .pending s
    · subst hi; simp
    · rw [Function.update_noteq hi]
      exact hw.lists.disj _ _ (Ne.symm hi) t ht
  have hqs : queueSlot { w with res := (Function.update w.res s
      { w.res s with turns := none, outcome := o }) } s = .queue (w.res s).manager := by
    simp [queueSlot, isResolved]
  have hne : Slot.queue (w.res s).manager ≠ Slot.pending s := by simp
  have hstep : resolve fuel s o w = queueList s fuel (some l) { w with res :=
      (Function.update w.res s { w.res s with turns := none, outcome := o }) } := by
    simp [resolve, isResolved, hs]
  rcases queueList_spec s fuel hwm hring hun with
    ⟨w2, he, hw2, hqo, hfr, henq, hres⟩ | ⟨hlt, w2, he⟩
  · left
    rw [hqs] at hw2 hfr henq
    rw [Function.update_noteq hne] at hw2 hfr
    refine ⟨w2, by rw [hstep, he], hw2, ?_, hqo.quiet, hqo.allocs, henq, hfr⟩
    funext k
    exact hres k (Or.inl (by simp))
  · right
    exact ⟨hlt, w2, by rw [hstep, he]⟩

/-! ### Resolving -/

theorem quiet_calls {w w2 : World} (h : w2.quiet = w.quiet) : w2.calls = w.calls :=
  congrArg (fun q => q.2.2.2.2.2.2.2.2.1) h

theorem quiet_cells {w w2 : World} (h : w2.quiet = w.quiet) : w2.cells = w.cells :=
  congrArg (fun q => q.2.2.2.2.1) h

theorem quiet_ran {w w2 : World} (h : w2.quiet = w.quiet) : w2.ran = w.ran :=
  congrArg (fun q => q.2.2.2.2.2.2.2.2.2.1) h

theorem quiet_ev {w w2 : World} (h : w2.quiet = w.quiet) : w2.ev = w.ev :=
  congrArg (fun q => q.1) h

theorem quiet_src {w w2 : World} (h : w2.quiet = w.quiet) : w2.src = w.src :=
  congrArg (fun q => q.2.2.1) h

theorem quiet_sources {w w2 : World} (h : w2.quiet = w.quiet) (m : Nat) :
    (w2.mgr m).sources = (w.mgr m).sources :=
  congrArg (fun q => (q.2.2.2.2.2.2.2.2.2.2.2.2 m).1) h

theorem allocs_tf {w w2 : World} (h : w2.allocs = w.allocs) : w2.tf = w.tf :=
  congrArg (fun q => q.1) h

theorem allocs_talloc {w w2 : World} (h : w2.allocs = w.allocs) : w2.talloc = w.talloc :=
  congrArg (fun q => q.2.2.1) h

theorem allocs_ralloc {w w2 : World} (h : w2.allocs = w.allocs) : w2.ralloc = w.ralloc :=
  congrArg (fun q => q.2.2.2.1) h

theorem getShortest_world {fuel s : Nat} {w : World} {r : Res Nat}
    (h : getShortest fuel s w = r) : r.world = w := by
  induction fuel generalizing s with
  | zero =>
    subst h
    simp only [getShortest]
    split <;> rfl
  | succ n ih =>
    simp only [getShortest] at h
    split at h
    · subst h; rfl
    · exact ih h

theorem getShortest_next {fuel s s2 : Nat} {w w2 : World}
    (h : getShortest fuel s w = .ok s2 w2) : (w.res s2).next = none := by
  induction fuel generalizing s with
  | zero =>
    simp only [getShortest] at h
    split at h
    · cases h; assumption
    · cases h
  | succ n ih =>
    simp only [getShortest] at h
    split at h
    · cases h; assumption
    · exact ih h

theorem validateIns_takeError {inTy : Ty} {ins : List Ty} {tv te : Bool}
    (h : validateIns inTy ins = .ok (tv, te)) (hs : Ty.error ∉ ins) : te = false := by
  match ins, h, hs with
  | [], h, _ =>
    simp only [validateIns] at h
    cases h; rfl
  | [a], h, hs =>
    have ha : a ≠ .error := fun e => hs (by simp [e])
    simp only [validateIns, ha, if_false] at h
    split at h <;> cases h
    rfl
  | [a, b], h, hs =>
    have hb : b ≠ .error := fun e => hs (by simp [e])
    simp only [validateIns, hb, ne_eq, not_false_eq_true, if_true] at h
    split at h <;> cases h
  | _ :: _ :: _ :: _, h, _ =>
    simp [validateIns] at h

theorem whenValidate_takeError {inTy out outR : Ty} {sig : FnSig} {tv te rr : Bool}
    (hv : whenValidate inTy out outR sig = .ok (tv, te, rr)) (hsig : Ty.error ∉ sig.ins) :
    te = false := by
  unfold whenValidate at hv
  cases hi : validateIns inTy sig.ins with
  | error e => rw [hi] at hv; cases hv
  | ok p =>
    obtain ⟨tv2, te2⟩ := p
    rw [hi] at hv
    have hte : te2 = te := by
      cases ho : validateOuts out outR sig.outs with
      | error e => rw [ho] at hv; cases hv
      | ok r => rw [ho] at hv; cases hv; rfl
    subst hte
    exact validateIns_takeError hi hsig

/-- C2 (error short-circuit): when the source of a `When` is resolved with the error `e` and
the function `f` declares no error parameter, running the continuation turn does not call
`f` and fails the result of the `When` with the same error `e`. -/
theorem when_error_short_circuit (fuel : Nat) (w : World) (el : Slot → List Nat)
    (s outer : Nat) (inTy out outR : Ty) (f : Fn) (tv te rr : Bool) (final : Nat) (e : Err)
    (hv : whenValidate inTy out outR f.sig = .ok (tv, te, rr))
    (hsig : Ty.error ∉ f.sig.ins)
    (hwf : TWF w el) (hfuel : (el (.pending outer)).length ≤ fuel)
    (hfin : getShortest fuel s w = .ok final w)
    (hturns : (w.res final).turns = none) (hout : (w.res final).outcome = .err e)
    (houter : (w.res outer).turns ≠ none) :
    ∃ w2, runWhen fuel s outer inTy tv te rr f w = .ok () w2 ∧ w2.calls = w.calls ∧
      w2.res outer = { w.res outer with turns := none, outcome := .err e } := by
  have hte := whenValidate_takeError hv hsig
  subst hte
  obtain ⟨l, hl⟩ := Option.ne_none_iff_exists'.1 houter
  have hstep : runWhen fuel s outer inTy tv false rr f w = resolve fuel outer (.err e) w := by
    simp [runWhen, hfin, isResolved, hturns, hout, Iface.asError, Fail, bind_apply,
      assertTrue_true, ofError]
  rcases resolve_spec hwf fuel outer (.err e) hl with
    ⟨w2, he, -, hres, hq, -, -, -⟩ | ⟨hlt, -⟩
  · exact ⟨w2, by rw [hstep, he], quiet_calls hq, by rw [hres]; simp⟩
  · omega

/-! ### Summaries of steps -/

theorem Grow.refl_grow (w : World) (el : Slot → List Nat) : Grow w w el el :=
  ⟨fun _ _ _ => rfl, fun i t ht => Or.inl ⟨i, ht⟩, fun _ => ⟨[], by simp, by simp⟩,
    le_refl _, fun _ _ => rfl⟩

theorem Grow.trans_grow {w w2 w3 : World} {el el2 el3 : Slot → List Nat}
    (h1 : Grow w w2 el el2) (h2 : Grow w2 w3 el2 el3) : Grow w w3 el el3 := by
  refine ⟨?_, ?_, ?_, le_trans h1.talloc h2.talloc, ?_⟩
  · intro t ht hun
    have e1 := h1.frame t ht hun
    rw [← e1]
    refine h2.frame t (by rw [e1]; exact ht) (fun i hm => ?_)
    rcases h1.origin i t hm with ⟨j, hj⟩ | hd
    · exact hun j hj
    · exact ht hd
  · intro i t ht
    rcases h2.origin i t ht with ⟨j, hj⟩ | hd
    · exact h1.origin j t hj
    · by_cases hown : ∃ j, t ∈ el j
      · exact Or.inl hown
      · by_cases hl : w.tnext t = none
        · exact Or.inr hl
        · exfalso
          have := h1.frame t hl (fun j hj => hown ⟨j, hj⟩)
          rw [hd] at this
          exact hl this.symm
  · intro m
    obtain ⟨a1, e1, q1⟩ := h1.queue m
    obtain ⟨a2, e2, q2⟩ := h2.queue m
    exact ⟨a1 ++ a2, by rw [e2, e1, List.append_assoc], by rw [q2, q1, List.append_assoc]⟩
  · intro t ht
    rw [h2.tf t (lt_of_lt_of_le ht h1.talloc), h1.tf t ht]

/-- The turns `xs`, each of them detached or in a list before, went onto the list of
slot `tgt`, after the lists shrank from `el` to `el1`. -/
theorem Grow.of_add {w w2 : World} {el el1 : Slot → List Nat} {tgt : Slot} {xs : List Nat}
    (hsub : ∀ i t, t ∈ el1 i → t ∈ el i) (hq : ∀ m, el1 (.queue m) = el (.queue m))
    (hfr : ∀ y, y ∉ xs → y ∉ el1 tgt → w2.tnext y = w.tnext y)
    (hxs : ∀ t ∈ xs, (∃ j, t ∈ el j) ∨ w.tnext t = none)
    (henq : w2.enq = enqAdd tgt xs w.enq) (hta : w.talloc ≤ w2.talloc)
    (htf : ∀ t, t < w.talloc → w2.tf t = w.tf t) :
    Grow w w2 el (Function.update el1 tgt (el1 tgt ++ xs)) := by
  refine ⟨?_, ?_, ?_, hta, htf⟩
  · intro t ht hun
    refine hfr t (fun hm => ?_) (fun hm => hun tgt (hsub tgt t hm))
    rcases hxs t hm with ⟨j, hj⟩ | hd
    · exact hun j hj
    · exact ht hd
  · intro i t ht
    by_cases hi : i = tgt
    · subst hi
      rw [Function.update_same] at ht
      rcases List.mem_append.1 ht with ht | ht
      · exact Or.inl ⟨i, hsub i t ht⟩
      · exact hxs t ht
    · rw [Function.update_noteq hi] at ht
      exact Or.inl ⟨i, hsub i t ht⟩
  · intro m
    by_cases hi : Slot.queue m = tgt
    · subst hi
      exact ⟨xs, by rw [Function.update_same, hq], by rw [henq]; simp [enqAdd]⟩
    · refine ⟨[], by rw [Function.update_noteq hi, hq]; simp, ?_⟩
      rw [henq]
      cases tgt with
      | queue k =>
        have : m ≠ k := fun e => hi (by rw [e])
        simp [enqAdd, Function.update_noteq this]
      | pending k => simp [enqAdd]
      | source k => simp [enqAdd]

theorem Stable.refl_stable (w : World) : Stable w w := ⟨fun _ _ _ => rfl, le_refl _⟩

theorem Stable.trans_stable {w w2 w3 : World} (h1 : Stable w w2) (h2 : Stable w2 w3) :
    Stable w w3 := by
  refine ⟨fun s hs ht => ?_, le_trans h1.ralloc h2.ralloc⟩
  have e1 := h1.res s hs ht
  rw [h2.res s (lt_of_lt_of_le hs h1.ralloc) (by rw [e1]; exact ht), e1]

theorem Effect.trans_effect {w w2 w3 : World} {el el2 el3 : Slot → List Nat}
    (h1 : Effect w w2 el el2) (h2 : Effect w2 w3 el2 el3) : Effect w w3 el el3 :=
  ⟨h2.twf, h1.grow.trans_grow h2.grow, h1.stable.trans_stable h2.stable⟩

theorem Effect.refl_effect {w : World} {el : Slot → List Nat} (hw : TWF w el) : Effect w w el el :=
  ⟨hw, Grow.refl_grow w el, Stable.refl_stable w⟩

/-- A resolver `s` with pending turns gets `turns = nil` (it becomes `r`) and its pending
turns are queued onto the resolver `q`. -/
theorem drain_effect {w w2 : World} {el : Slot → List Nat} (hw : TWF w el) {s l : Nat}
    (hs : (w.res s).turns = some l) (r : Resolver) (hr : r.turns = none) (q fuel : Nat)
    (h : queueList q fuel (some l) { w with res := Function.update w.res s r } = .ok () w2) :
    Effect w w2 el (Function.update (Function.update el (.pending s) [])
        (queueSlot { w with res := Function.update w.res s r } q)
        ((Function.update el (.pending s) [])
          (queueSlot { w with res := Function.update w.res s r } q) ++ el (.pending s))) ∧
      w2.quiet = w.quiet ∧ w2.allocs = w.allocs ∧ w2.res s = r ∧
      (∀ k, k ≠ s → k ≠ q → w2.res k = w.res k) := by
  have hwm := hw.releasePending s r hr
  have hring : Ring w.tnext (some l) (el (.pending s)) :=
    hw.lists.rings (.pending s) (some l) (by simp [handle, hs])
  have hun : ∀ i, ∀ t ∈ el (.pending s), t ∉ Function.update el (.pending s) [] i := by
    intro i t ht
    by_cases hi : i = .pending s
    · subst hi; simp
    · rw [Function.update_noteq hi]
      exact hw.lists.disj _ _ (Ne.symm hi) t ht
  rcases queueList_spec q fuel hwm hring hun with
    ⟨w3, he, hw3, hqo, hfr, henq, hres⟩ | ⟨-, w3, he⟩
  · rw [h] at he
    cases he
    have hsub : ∀ i t, t ∈ Function.update el (.pending s) [] i → t ∈ el i := by
      intro i t ht
      by_cases hi : i = .pending s
      · subst hi; simp at ht
      · rwa [Function.update_noteq hi] at ht
    refine ⟨⟨hw3, Grow.of_add hsub (fun m => by simp) hfr
      (fun t ht => Or.inl ⟨_, ht⟩) henq (le_of_eq (allocs_talloc hqo.allocs).symm)
      (fun t _ => by rw [allocs_tf hqo.allocs]), ⟨?_, le_of_eq (allocs_ralloc hqo.allocs).symm⟩⟩,
      hqo.quiet, hqo.allocs, ?_, ?_⟩
    · intro k _ hk
      have hks : k ≠ s := fun e => by rw [e, hs] at hk; cases hk
      rw [hres k ?_]
      · simp [Function.update_noteq hks]
      · by_cases hkq : k = q
        · left; subst hkq; simpa [Function.update_noteq hks] using hk
        · exact Or.inr hkq
    · rw [hres s ?_]
      · simp
      · by_cases hsq : s = q
        · left; subst hsq; simpa using hr
        · exact Or.inr hsq
    · intro k hks hkq
      rw [hres k (Or.inr hkq)]
      simp [Function.update_noteq hks]
  · rw [h] at he; cases he

theorem resolve_ok {w w2 : World} {el : Slot → List Nat} (hw : TWF w el) {fuel s : Nat}
    {o : Iface} (h : resolve fuel s o w = .ok () w2) :
    ∃ el2, Effect w w2 el el2 ∧ w2.quiet = w.quiet ∧
      w2.res s = { w.res s with turns := none, outcome := o } := by
  cases hs : (w.res s).turns with
  | none => simp [resolve, isResolved, hs] at h
  | some l =>
    have h2 : queueList s fuel (some l) { w with res := (Function.update w.res s
        { w.res s with turns := none, outcome := o }) } = .ok () w2 := by
      simpa [resolve, isResolved, hs] using h
    obtain ⟨heff, hq, -, hres, -⟩ := drain_effect hw hs _ rfl s fuel h2
    exact ⟨_, heff, hq, hres⟩

theorem Forward_ok {w w2 : World} {el : Slot → List Nat} (hw : TWF w el) {fuel s : Nat}
    {n : Option Nat} (h : Forward fuel s n w = .ok () w2) :
    ∃ el2, Effect w w2 el el2 ∧ w2.quiet = w.quiet ∧
      ∃ nx next, n = some nx ∧ getShortest fuel nx w = .ok next w ∧
        w2.res s = { w.res s with turns := none, outcome := .nil, next := some next } := by
  cases hs : (w.res s).turns with
  | none => simp [Forward, isResolved, hs] at h
  | some l =>
    cases n with
    | none => simp [Forward, isResolved, hs] at h
    | some nx =>
      simp only [Forward, isResolved, hs, Option.isNone_some, Bool.false_eq_true, if_false] at h
      split at h
      · cases h
      · cases hg : getShortest fuel nx w with
        | fault f w1 => rw [hg] at h; cases h
        | ok next w1 =>
          have hw1 : w1 = w := getShortest_world hg
          subst hw1
          rw [hg] at h
          simp only [hs] at h
          obtain ⟨heff, hq, -, hres, -⟩ := drain_effect hw hs _ rfl next fuel h
          exact ⟨_, heff, hq, nx, next, rfl, hg, hres⟩

theorem bind_ok {α β : Type} {x : M α} {f : α → M β} {w w2 : World} {b : β}
    (h : (x >>= f) w = .ok b w2) : ∃ a w1, x w = .ok a w1 ∧ f a w1 = .ok b w2 := by
  rw [bind_apply] at h
  cases hx : x w with
  | ok a w1 => rw [hx] at h; exact ⟨a, w1, rfl, h⟩
  | fault e w1 => rw [hx] at h; cases h

theorem assertTrue_ok {c : Bool} {msg : String} {w w2 : World}
    (h : assertTrue c msg w = .ok () w2) : c = true ∧ w = w2 := by
  cases c
  · cases h
  · cases h; exact ⟨rfl, rfl⟩

theorem guardAlloc_ok {c : World → Bool} {w w2 : World}
    (h : guardAlloc c w = .ok () w2) : c w = true ∧ w = w2 := by
  unfold guardAlloc at h
  split at h
  · cases h; exact ⟨by assumption, rfl⟩
  · cases h

theorem still_of_quiet {w w2 : World} (h : w2.quiet = w.quiet) : w2.still = w.still := by
  simp only [World.quiet, Prod.mk.injEq] at h
  obtain ⟨h1, h2, h3, h4, h5, h6, h7, h8, h9, h10, h11, h12, h13⟩ := h
  simp only [World.still, h1, h2, h3, h4, h6, h7, h8, h11, h12, h13]

theorem Grow.of_shrink {w w2 : World} {el el1 : Slot → List Nat}
    (htn : ∀ t, w.tnext t ≠ none → w2.tnext t = w.tnext t) (henq : w2.enq = w.enq)
    (hsub : ∀ i t, t ∈ el1 i → t ∈ el i) (hq : ∀ m, el1 (.queue m) = el (.queue m))
    (hta : w.talloc ≤ w2.talloc) (htf : ∀ t, t < w.talloc → w2.tf t = w.tf t) :
    Grow w w2 el el1 :=
  ⟨fun t ht _ => htn t ht, fun i t ht => Or.inl ⟨i, hsub i t ht⟩,
    fun m => ⟨[], by simp [hq], by simp [henq]⟩, hta, htf⟩

theorem Stable.of_eq {w w2 : World} (hr : w2.res = w.res) (ha : w2.ralloc = w.ralloc) :
    Stable w w2 :=
  ⟨fun _ _ _ => by rw [hr], le_of_eq ha.symm⟩

theorem newTurnResolver_ok {w w2 : World} {el : Slot → List Nat} (hw : TWF w el) {m s : Nat}
    (h : newTurnResolver m w = .ok s w2) :
    s = w.ralloc ∧ Effect w w2 el (Function.update el (.pending w.ralloc) []) ∧
      w2.quiet = w.quiet ∧ w2.res = Function.update w.res w.ralloc ⟨m, some Empty, .nil, none⟩ ∧
      w2.ralloc = w.ralloc + 1 := by
  simp only [newTurnResolver] at h
  cases h
  refine ⟨rfl, ⟨⟨?_, hw.empty, hw.fresh, hw.pos⟩, ?_, ⟨?_, by simp⟩⟩, rfl, rfl, rfl⟩
  · show HWF w.tnext (handle { w with res := Function.update w.res w.ralloc _ }) _
    rw [handle_setRes]
    exact hw.lists.release _ _ (Or.inr rfl)
  · refine Grow.of_shrink (fun _ _ => rfl) rfl ?_ (fun m => by simp) (le_refl _)
      (fun _ _ => rfl)
    intro i t ht
    by_cases hi : i = .pending w.ralloc
    · subst hi; simp at ht
    · rwa [Function.update_noteq hi] at ht
  · intro k hk _
    have : k ≠ w.ralloc := by omega
    simp [Function.update_noteq this]

theorem NewTurn_ok {w w2 : World} {el : Slot → List Nat} (hw : TWF w el) {name : String}
    {th : Thunk} {t : Nat} (h : NewTurn name th w = .ok t w2) :
    t = w.talloc ∧ Effect w w2 el el ∧ w2.quiet = w.quiet ∧ w2.tnext t = none ∧
      w2.tf t = th ∧ t ≠ Empty ∧ t < w2.talloc ∧ w2.res = w.res := by
  simp only [NewTurn] at h
  cases h
  have hpos := hw.pos
  have hne : ∀ i, ∀ y ∈ el i, y ≠ w.talloc := by
    intro i y hy e
    obtain ⟨z, hz⟩ := hw.lists.linked hy
    rw [e, hw.fresh _ (le_refl _)] at hz; cases hz
  refine ⟨rfl, ⟨⟨?_, ?_, ?_, by simp⟩, ?_, Stable.of_eq rfl rfl⟩, rfl, by simp, by simp, ?_,
    by simp, rfl⟩
  · exact hw.lists.congr_links (fun i y hy => by simp [Function.update_noteq (hne i y hy)])
  · have : Empty ≠ w.talloc := by unfold Empty; omega
    simp [Function.update_noteq this, hw.empty]
  · intro y hy
    have hy2 : w.talloc + 1 ≤ y := hy
    have : y ≠ w.talloc := by omega
    simp [Function.update_noteq this, hw.fresh y (by omega)]
  · refine Grow.of_shrink ?_ rfl (fun _ _ h => h) (fun _ => rfl) (by simp) ?_
    · intro y hy
      have : y ≠ w.talloc := fun e => hy (e ▸ hw.fresh _ (le_refl _))
      simp [Function.update_noteq this]
    · intro y hy
      have : y ≠ w.talloc := by omega
      simp [Function.update_noteq this]
  · unfold Empty; omega

theorem Manager.NewID_ok {w w2 : World} {el : Slot → List Nat} (hw : TWF w el) {m : Nat}
    {id : Int} (h : Manager.NewID m w = .ok id w2) :
    Effect w w2 el el ∧ w2.quiet = w.quiet ∧ w2.res = w.res ∧ w2.talloc = w.talloc := by
  simp only [Manager.NewID, UniqueIDGenerator.NewID] at h
  cases h
  exact ⟨⟨⟨hw.lists, hw.empty, hw.fresh, hw.pos⟩,
    Grow.of_shrink (fun _ _ => rfl) rfl (fun _ _ h => h) (fun _ => rfl) (le_refl _)
      (fun _ _ => rfl), Stable.of_eq rfl rfl⟩, rfl, rfl, rfl⟩

theorem queue_ok {w w2 : World} {el : Slot → List Nat} (hw : TWF w el) {s : Nat}
    {t : Option Nat} (h : queue s t w = .ok () w2) (hal : ∀ a, t = some a → a < w.talloc) :
    ∃ a, t = some a ∧
      Effect w w2 el (Function.update el (queueSlot w s) (el (queueSlot w s) ++ [a])) ∧
      w2.quiet = w.quiet ∧ w2.allocs = w.allocs ∧
      (∀ k, (w.res s).turns = none ∨ k ≠ s → w2.res k = w.res k) ∧
      QueueOnly w w2 := by
  have hinv : ∃ a, t = some a ∧ a ≠ Empty ∧ w.tnext a = none := by
    unfold queue at h
    split at h
    · unfold Manager.Queue at h
      split at h
      · cases h
      · next he => exact Append_ok_inv he
    · split at h
      · cases h
      · next he => exact Append_ok_inv he
  obtain ⟨a, rfl, ha0, ha⟩ := hinv
  obtain ⟨w3, he, hw3, hqo, hfr, henq, hres⟩ := queue_spec hw s ha0 ha (hal a rfl)
  rw [h] at he
  cases he
  refine ⟨a, rfl, ⟨hw3, Grow.of_add (fun _ _ h => h) (fun _ => rfl) (by simpa using hfr) ?_ henq
    (le_of_eq (allocs_talloc hqo.allocs).symm) (fun t _ => by rw [allocs_tf hqo.allocs]),
    ⟨?_, le_of_eq (allocs_ralloc hqo.allocs).symm⟩⟩, hqo.quiet, hqo.allocs, hres, hqo⟩
  · intro t ht
    simp only [List.mem_singleton] at ht
    subst ht; exact Or.inr ha
  · intro k _ hk
    by_cases hks : k = s
    · subst hks; exact hres k (Or.inl hk)
    · exact hres k (Or.inr hks)

theorem Manager.Queue_ok {w w2 : World} {el : Slot → List Nat} (hw : TWF w el) {m : Nat}
    {t : Option Nat} (h : Manager.Queue m t w = .ok () w2)
    (hal : ∀ a, t = some a → a < w.talloc) :
    ∃ a, t = some a ∧
      Effect w w2 el (Function.update el (.queue m) (el (.queue m) ++ [a])) ∧
      w2.quiet = w.quiet ∧ w2.allocs = w.allocs ∧ w2.res = w.res := by
  have hinv : ∃ a, t = some a ∧ a ≠ Empty ∧ w.tnext a = none := by
    unfold Manager.Queue at h
    split at h
    · cases h
    · next he => exact Append_ok_inv he
  obtain ⟨a, rfl, ha0, ha⟩ := hinv
  obtain ⟨w3, he, hw3, hqo, hfr, henq, hres⟩ := Manager.Queue_spec hw m ha0 ha (hal a rfl)
  rw [h] at he
  cases he
  refine ⟨a, rfl, ⟨hw3, Grow.of_add (fun _ _ h => h) (fun _ => rfl) (by simpa using hfr) ?_ henq
    (le_of_eq (allocs_talloc hqo.allocs).symm) (fun t _ => by rw [allocs_tf hqo.allocs]),
    ⟨fun k _ _ => by rw [hres], le_of_eq (allocs_ralloc hqo.allocs).symm⟩⟩,
    hqo.quiet, hqo.allocs, hres⟩
  intro t ht
  simp only [List.mem_singleton] at ht
  subst ht; exact Or.inr ha

theorem WhenT_ok {w w2 : World} {el : Slot → List Nat} (hw : TWF w el) {fuel s o : Nat}
    {inTy out outR : Ty} {f : Fn} (h : WhenT fuel s inTy out outR f w = .ok o w2) :
    ∃ tv te rr s1 tgt, whenValidate inTy out outR f.sig = .ok (tv, te, rr) ∧
      (if (w.res s).next.isSome then getShortest fuel s w else .ok s w) = .ok s1 w ∧
      o = w.ralloc ∧
      Effect w w2 el (Function.update (Function.update el (.pending w.ralloc) []) tgt
        ((Function.update el (.pending w.ralloc) []) tgt ++ [w.talloc])) ∧
      (s1 ≠ w.ralloc → tgt = queueSlot w s1) ∧
      w2.quiet = w.quiet ∧ w2.tf w.talloc = .whenTurn s1 w.ralloc inTy tv te rr f ∧
      w2.talloc = w.talloc + 1 ∧ w2.ralloc = w.ralloc + 1 ∧
      (s1 ≠ w.ralloc → w2.res w.ralloc = ⟨(w.res s1).manager, some Empty, .nil, none⟩) ∧
      (∀ k, k ≠ w.ralloc → (k ≠ s1 ∨ (w.res s1).turns = none) → w2.res k = w.res k) ∧
      (∀ k, k ≠ w.ralloc → (w2.res k).manager = (w.res k).manager ∧
        (w2.res k).outcome = (w.res k).outcome ∧ (w2.res k).next = (w.res k).next ∧
        ((w2.res k).turns = none ↔ (w.res k).turns = none)) := by
  unfold WhenT at h
  cases hv : whenValidate inTy out outR f.sig with
  | error e => rw [hv] at h; cases h
  | ok p =>
    obtain ⟨tv, te, rr⟩ := p
    rw [hv] at h
    simp only at h
    cases hg : (if (w.res s).next.isSome then getShortest fuel s w else Res.ok s w) with
    | fault e w1 => rw [hg] at h; cases h
    | ok s1 w1 =>
      have hw1 : w = w1 := by
        split at hg
        · exact (getShortest_world hg).symm
        · cases hg; rfl
      subst hw1
      rw [hg] at h
      simp only at h
      obtain ⟨outer, wa, ha, h⟩ := bind_ok h
      obtain ⟨id, wb, hb, h⟩ := bind_ok h
      obtain ⟨t, wc, hc, h⟩ := bind_ok h
      obtain ⟨u, wd, hd, h⟩ := bind_ok h
      cases h
      obtain ⟨rfl, hea, hqa, hra, hrla⟩ := newTurnResolver_ok hw ha
      obtain ⟨heb, hqb, hrb, htb⟩ := Manager.NewID_ok hea.twf hb
      obtain ⟨rfl, hec, hqc, htn, htf, ht0, htl, hrc⟩ := NewTurn_ok heb.twf hc
      obtain ⟨a, hae, hed, hqd, had, hrd, hqo⟩ :=
        queue_ok hec.twf hd (fun a ha => by cases ha; exact htl)
      cases hae
      have htal : wb.talloc = w.talloc := by
        rw [htb]; simp only [newTurnResolver] at ha; cases ha; rfl
      have hres_c : wc.res = Function.update w.res w.ralloc
          ⟨(w.res s1).manager, some Empty, .nil, none⟩ := by rw [hrc, hrb, hra]
      refine ⟨tv, te, rr, s1, queueSlot wc s1, rfl, rfl, rfl, ?_, ?_, ?_, ?_, ?_, ?_, ?_, ?_, ?_⟩
      rotate_right
      · intro k hk
        have hkc : wc.res k = w.res k := by rw [hres_c, Function.update_noteq hk]
        rw [← hkc]
        exact hqo.res k
      · rw [htal] at hed
        exact ((hea.trans_effect heb).trans_effect hec).trans_effect hed
      · intro hne
        unfold queueSlot isResolved
        rw [hres_c, Function.update_noteq hne]
      · rw [hqd, hqc, hqb, hqa]
      · rw [allocs_tf had, ← htal]; exact htf
      · rw [allocs_talloc had]
        simp only [NewTurn] at hc; cases hc
        show wb.talloc + 1 = _
        rw [htal]
      · rw [allocs_ralloc had]
        simp only [NewTurn] at hc; cases hc
        simp only [Manager.NewID, UniqueIDGenerator.NewID] at hb; cases hb
        exact hrla
      · intro hne
        rw [hrd _ (Or.inr (Ne.symm hne)), hres_c]; simp
      · intro k hk1 hk2
        have hkc : wc.res k = w.res k := by rw [hres_c, Function.update_noteq hk1]
        rw [← hkc]
        apply hrd
        rcases hk2 with hk2 | hk2
        · exact Or.inr hk2
        · by_cases hks : k = s1
          · left; rw [← hks, hkc, hks]; exact hk2
          · exact Or.inr hks


theorem Complete_ok {w w2 : World} {el : Slot → List Nat} (hw : TWF w el) {fuel s : Nat}
    {v : Iface} (h : Complete fuel s v w = .ok () w2) :
    ∃ el2, Effect w w2 el el2 ∧ w2.quiet = w.quiet ∧
      w2.res s = { w.res s with turns := none, outcome := v } := by
  obtain ⟨_, w1, h1, h2⟩ := bind_ok h
  obtain ⟨-, rfl⟩ := assertTrue_ok h1
  exact resolve_ok hw h2

theorem Fail_ok {w w2 : World} {el : Slot → List Nat} (hw : TWF w el) {fuel s : Nat}
    {e : Option Err} (h : Fail fuel s e w = .ok () w2) :
    ∃ el2, Effect w w2 el el2 ∧ w2.quiet = w.quiet ∧
      w2.res s = { w.res s with turns := none, outcome := ofError e } := by
  obtain ⟨_, w1, h1, h2⟩ := bind_ok h
  obtain ⟨-, rfl⟩ := assertTrue_ok h1
  exact resolve_ok hw h2

theorem Resolve_ok {w w2 : World} {el : Slot → List Nat} (hw : TWF w el) {fuel s : Nat}
    {v : Iface} {e : Option Err} (h : Resolve fuel s v e w = .ok () w2) :
    ∃ el2, Effect w w2 el el2 ∧ w2.quiet = w.quiet ∧ (w2.res s).turns = none := by
  obtain ⟨_, w1, h1, h2⟩ := bind_ok h
  obtain ⟨-, rfl⟩ := assertTrue_ok h1
  split at h2
  · obtain ⟨_, w3, h3, h4⟩ := bind_ok h2
    obtain ⟨-, rfl⟩ := assertTrue_ok h3
    obtain ⟨el2, he, hq, hr⟩ := resolve_ok hw h4
    exact ⟨el2, he, hq, by rw [hr]⟩
  · obtain ⟨el2, he, hq, hr⟩ := resolve_ok hw h2
    exact ⟨el2, he, hq, by rw [hr]⟩

theorem Manager.NewTurn_effect {w w2 : World} {el : Slot → List Nat} (hw : TWF w el) {m : Nat}
    {name : String} {th : Thunk} (h : Manager.NewTurn m name th w = .ok () w2) :
    Effect w w2 el (Function.update el (.queue m) (el (.queue m) ++ [w.talloc])) ∧
      w2.quiet = w.quiet ∧ w2.tf w.talloc = th ∧ w2.res = w.res ∧
      w2.talloc = w.talloc + 1 := by
  obtain ⟨t, w1, h1, h2⟩ := bind_ok h
  obtain ⟨rfl, he1, hq1, -, htf, -, htl, hr1⟩ := Drydock.NewTurn_ok hw h1
  obtain ⟨a, hae, he2, hq2, ha2, hr2⟩ :=
    Manager.Queue_ok he1.twf h2 (fun a ha => by cases ha; exact htl)
  cases hae
  refine ⟨he1.trans_effect he2, by rw [hq2, hq1], by rw [allocs_tf ha2]; exact htf, by rw [hr2, hr1], ?_⟩
  rw [allocs_talloc ha2]
  simp only [Drydock.NewTurn] at h1; cases h1; rfl

/-- What a call of `turnRunner.New` that returns was made of. -/
theorem turnRunner.New_parts {t : Runner} {fid : Nat} {f : Prog} {w w2 : World} {s : Nat}
    (h : turnRunner.New t fid f w = .ok s w2) :
    ∃ w1 id wi, newTurnResolver t.manager w = .ok s w1 ∧ Manager.NewID t.manager w1 = .ok id wi ∧
      Manager.NewTurn t.manager ("New" ++ UniqueID.String id) (.runnerNew s fid f) wi =
        .ok () w2 := by
  obtain ⟨s1, w1, h1, h⟩ := bind_ok h
  obtain ⟨id, wi, h2, h⟩ := bind_ok h
  obtain ⟨u, w3, h3, h⟩ := bind_ok h
  cases h
  exact ⟨w1, id, wi, h1, h2, h3⟩

theorem turnRunner.New_ok {w w2 : World} {el : Slot → List Nat} (hw : TWF w el) {t : Runner}
    {fid : Nat} {f : Prog} {s : Nat} (h : turnRunner.New t fid f w = .ok s w2) :
    ∃ el2, Effect w w2 el el2 ∧ w2.quiet = w.quiet := by
  obtain ⟨w1, id, wi, h1, h2, h3⟩ := turnRunner.New_parts h
  obtain ⟨-, he1, hq1, -, -⟩ := newTurnResolver_ok hw h1
  obtain ⟨he2, hq2, -, -⟩ := Manager.NewID_ok he1.twf h2
  obtain ⟨he3, hq3, -⟩ := Manager.NewTurn_effect he2.twf h3
  exact ⟨_, (he1.trans_effect he2).trans_effect he3, by rw [hq3, hq2, hq1]⟩

theorem exec_ok {fuel : Nat} (p : Prog) :
    ∀ {w w2 : World} {el : Slot → List Nat} {vals : List Iface}, TWF w el →
      exec fuel p w = .ok vals w2 → ∃ el2, Effect w w2 el el2 ∧ w2.quiet = w.quiet := by
  induction p with
  | ret vals =>
    intro w w2 el v hw h
    simp only [exec] at h
    obtain ⟨_, w0, h0, h1⟩ := bind_ok h
    obtain ⟨-, rfl⟩ := guardAlloc_ok h0
    cases h1
    exact ⟨el, Effect.refl_effect hw, rfl⟩
  | newResult m k ih =>
    intro w w2 el v hw h
    simp only [exec] at h
    split at h
    · cases h
    · next s w1 hs =>
      obtain ⟨_, w0, h0, h1⟩ := bind_ok hs
      obtain ⟨-, rfl⟩ := guardAlloc_ok h0
      obtain ⟨-, he, hq, -, -⟩ := newTurnResolver_ok hw h1
      obtain ⟨el2, he2, hq2⟩ := ih s he.twf h
      exact ⟨el2, he.trans_effect he2, by rw [hq2, hq]⟩
  | complete s v k ih =>
    intro w w2 el vals hw h
    simp only [exec] at h
    obtain ⟨_, w0, h0, h⟩ := bind_ok h
    obtain ⟨-, rfl⟩ := guardAlloc_ok h0
    obtain ⟨_, w1, h1, h⟩ := bind_ok h
    obtain ⟨el1, he, hq, -⟩ := Complete_ok hw h1
    obtain ⟨el2, he2, hq2⟩ := ih he.twf h
    exact ⟨el2, he.trans_effect he2, by rw [hq2, hq]⟩
  | fail s e k ih =>
    intro w w2 el vals hw h
    simp only [exec] at h
    obtain ⟨_, w0, h0, h⟩ := bind_ok h
    obtain ⟨-, rfl⟩ := guardAlloc_ok h0
    obtain ⟨_, w1, h1, h⟩ := bind_ok h
    obtain ⟨el1, he, hq, -⟩ := Fail_ok hw h1
    obtain ⟨el2, he2, hq2⟩ := ih he.twf h
    exact ⟨el2, he.trans_effect he2, by rw [hq2, hq]⟩
  | resolve s v e k ih =>
    intro w w2 el vals hw h
    simp only [exec] at h
    obtain ⟨_, w0, h0, h⟩ := bind_ok h
    obtain ⟨-, rfl⟩ := guardAlloc_ok h0
    obtain ⟨_, w1, h1, h⟩ := bind_ok h
    obtain ⟨el1, he, hq, -⟩ := Resolve_ok hw h1
    obtain ⟨el2, he2, hq2⟩ := ih he.twf h
    exact ⟨el2, he.trans_effect he2, by rw [hq2, hq]⟩
  | forward s n k ih =>
    intro w w2 el vals hw h
    simp only [exec] at h
    obtain ⟨_, w0, h0, h⟩ := bind_ok h
    obtain ⟨-, rfl⟩ := guardAlloc_ok h0
    obtain ⟨_, w1, h1, h⟩ := bind_ok h
    obtain ⟨el1, he, hq, -⟩ := Forward_ok hw h1
    obtain ⟨el2, he2, hq2⟩ := ih he.twf h
    exact ⟨el2, he.trans_effect he2, by rw [hq2, hq]⟩
  | «when» r inTy out outR fid sig f k _ ih =>
    intro w w2 el vals hw h
    simp only [exec] at h
    split at h
    · cases h
    · next o w1 hs =>
      obtain ⟨_, w0, h0, h1⟩ := bind_ok hs
      obtain ⟨-, rfl⟩ := guardAlloc_ok h0
      obtain ⟨_, _, _, _, _, -, -, -, he, -, hq, -⟩ := WhenT_ok hw h1
      obtain ⟨el2, he2, hq2⟩ := ih o he.twf h
      exact ⟨el2, he.trans_effect he2, by rw [hq2, hq]⟩
  | newTurn m name body k _ ih =>
    intro w w2 el vals hw h
    simp only [exec] at h
    obtain ⟨_, w0, h0, h⟩ := bind_ok h
    obtain ⟨-, rfl⟩ := guardAlloc_ok h0
    obtain ⟨_, w1, h1, h⟩ := bind_ok h
    obtain ⟨he, hq, -⟩ := Manager.NewTurn_effect hw h1
    obtain ⟨el2, he2, hq2⟩ := ih he.twf h
    exact ⟨el2, he.trans_effect he2, by rw [hq2, hq]⟩
  | allocTurn name body k _ ih =>
    intro w w2 el vals hw h
    simp only [exec] at h
    obtain ⟨-, he, hq, -⟩ :=
      NewTurn_ok hw (rfl : NewTurn name (.user body) w = .ok w.talloc _)
    obtain ⟨el2, he2, hq2⟩ := ih _ he.twf h
    exact ⟨el2, he.trans_effect he2, by rw [hq2, hq]⟩
  | queue m t k ih =>
    intro w w2 el vals hw h
    simp only [exec] at h
    obtain ⟨_, w0, h0, h⟩ := bind_ok h
    obtain ⟨hg, rfl⟩ := guardAlloc_ok h0
    obtain ⟨_, w1, h1, h⟩ := bind_ok h
    obtain ⟨a, -, he, hq, -⟩ := Manager.Queue_ok hw h1 (fun a ha => by
      subst ha
      have : m < w.malloc ∧ a < w.talloc := by simpa using hg
      exact this.2)
    obtain ⟨el2, he2, hq2⟩ := ih he.twf h
    exact ⟨el2, he.trans_effect he2, by rw [hq2, hq]⟩
  | spawn runner fid f k _ ih =>
    intro w w2 el vals hw h
    simp only [exec] at h
    split at h
    · cases h
    · next s w1 hs =>
      obtain ⟨_, w0, h0, h1⟩ := bind_ok hs
      obtain ⟨-, rfl⟩ := guardAlloc_ok h0
      obtain ⟨el1, he, hq⟩ := turnRunner.New_ok hw h1
      obtain ⟨el2, he2, hq2⟩ := ih s he.twf h
      exact ⟨el2, he.trans_effect he2, by rw [hq2, hq]⟩

/-! ### Running turns -/

/-- A call of a function of client code that returns passed the checks of
`reflect.Value.Call` and then ran the function. -/
theorem callFn_user_ok {fuel fid : Nat} {sig : FnSig} {body : List Iface → Prog}
    {args rv : List Iface} {w w2 : World}
    (h : callFn fuel (.user fid sig body) args w = .ok rv w2) :
    argsAssignable args sig.ins = true ∧
      (logCall fid args >>= fun _ => exec fuel (body args)) w = .ok rv w2 := by
  simp only [callFn] at h
  split at h
  · next hc => exact ⟨hc, h⟩
  · cases h

/-- A change of the ghost call log and of the captured variables only. -/
theorem Effect.of_ghost {w w2 : World} {el : Slot → List Nat} (hw : TWF w el)
    (h1 : w2.tnext = w.tnext) (h2 : w2.res = w.res) (h3 : w2.mgr = w.mgr) (h4 : w2.src = w.src)
    (h5 : w2.talloc = w.talloc) (h6 : w2.ralloc = w.ralloc) (h7 : w2.tf = w.tf)
    (h8 : w2.enq = w.enq) : Effect w w2 el el := by
  refine ⟨⟨?_, by rw [h1]; exact hw.empty, fun t ht => by
      rw [h1]; exact hw.fresh t (by rw [← h5]; exact ht), by rw [h5]; exact hw.pos⟩,
    Grow.of_shrink (fun _ _ => by rw [h1]) h8 (fun _ _ h => h) (fun _ => rfl)
      (le_of_eq h5.symm) (fun _ _ => by rw [h7]), Stable.of_eq h2 h6⟩
  have : handle w2 = handle w := by
    funext i
    cases i <;> simp [handle, h2, h3, h4]
  rw [h1, this]
  exact hw.lists

theorem callFn_ok {w w2 : World} {el : Slot → List Nat} (hw : TWF w el) {fuel : Nat} {f : Fn}
    {args rv : List Iface} (h : callFn fuel f args w = .ok rv w2) :
    ∃ el2, Effect w w2 el el2 ∧ w2.still = w.still ∧ w2.ran = w.ran ∧
      w2.calls = w.calls ++ f.callLog args := by
  cases f with
  | user fid sig body =>
    replace h := (callFn_user_ok h).2
    obtain ⟨_, w1, h1, h2⟩ := bind_ok h
    simp only [logCall] at h1
    cases h1
    have hg : Effect w { w with calls := w.calls ++ [(fid, args)] } el el :=
      Effect.of_ghost hw rfl rfl rfl rfl rfl rfl rfl rfl
    obtain ⟨el2, he, hq⟩ := exec_ok _ hg.twf h2
    refine ⟨el2, hg.trans_effect he, ?_, ?_, ?_⟩
    · rw [still_of_quiet hq]; rfl
    · rw [quiet_ran hq]
    · rw [quiet_calls hq]; rfl
  | runUntilRecord cell =>
    simp only [callFn] at h
    split at h
    · cases h
      exact ⟨el, Effect.of_ghost hw rfl rfl rfl rfl rfl rfl rfl rfl, rfl, rfl, by simp [Fn.callLog]⟩
    · cases h
  | finallyFn outR fid f r =>
    simp only [callFn] at h
    obtain ⟨_, w1, h1, h2⟩ := bind_ok h
    simp only [logCall] at h1
    cases h1
    obtain ⟨_, w3, h3, h4⟩ := bind_ok h2
    cases h4
    have hg : Effect w { w with calls := w.calls ++ [(fid, [])] } el el :=
      Effect.of_ghost hw rfl rfl rfl rfl rfl rfl rfl rfl
    obtain ⟨el2, he, hq⟩ := exec_ok _ hg.twf h3
    refine ⟨el2, hg.trans_effect he, ?_, ?_, ?_⟩
    · rw [still_of_quiet hq]; rfl
    · rw [quiet_ran hq]
    · rw [quiet_calls hq]; rfl
  | actorResolve s =>
    simp only [callFn] at h
    split at h
    · next a =>
      cases hr : Resolve fuel s .nil a.asError w with
      | fault f w1 => rw [hr] at h; cases h
      | ok u w1 =>
        rw [hr] at h
        cases h
        obtain ⟨el2, he, hq, -⟩ := Resolve_ok hw hr
        exact ⟨el2, he, still_of_quiet hq, quiet_ran hq, by rw [quiet_calls hq]; simp [Fn.callLog]⟩
    · cases h

theorem runClient_ok {w w2 : World} {el : Slot → List Nat} (hw : TWF w el) {fuel fid : Nat}
    {f : Prog} {rv : List Iface}
    (h : (logCall fid [] >>= fun _ => exec fuel f) w = .ok rv w2) :
    ∃ el2, Effect w w2 el el2 ∧ w2.still = w.still ∧ w2.ran = w.ran ∧
      w2.calls = w.calls ++ [(fid, [])] := by
  obtain ⟨_, w1, h1, h2⟩ := bind_ok h
  simp only [logCall] at h1
  cases h1
  have hg : Effect w { w with calls := w.calls ++ [(fid, [])] } el el :=
    Effect.of_ghost hw rfl rfl rfl rfl rfl rfl rfl rfl
  obtain ⟨el2, he, hq⟩ := exec_ok _ hg.twf h2
  refine ⟨el2, hg.trans_effect he, ?_, ?_, ?_⟩
  · rw [still_of_quiet hq]; rfl
  · rw [quiet_ran hq]
  · rw [quiet_calls hq]

theorem runWhen_ok {w w2 : World} {el : Slot → List Nat} (hw : TWF w el) {fuel s outer : Nat}
    {inTy : Ty} {tv te rr : Bool} {f : Fn}
    (h : runWhen fuel s outer inTy tv te rr f w = .ok () w2) :
    ∃ el2, Effect w w2 el el2 ∧ w2.still = w.still ∧ w2.ran = w.ran := by
  unfold runWhen at h
  cases hg : getShortest fuel s w with
  | fault e w1 => rw [hg] at h; cases h
  | ok final w1 =>
    have hw1 : w = w1 := (getShortest_world hg).symm
    subst hw1
    rw [hg] at h
    simp only at h
    split at h
    · cases h
    · split at h
      · obtain ⟨el2, he, hq, -⟩ := Fail_ok hw h
        exact ⟨el2, he, still_of_quiet hq, quiet_ran hq⟩
      · split at h
        · cases h
        · next rv wc hc =>
          obtain ⟨el1, he1, hs1, hr1, -⟩ := callFn_ok hw hc
          split at h
          · split at h
            · cases h
            · obtain ⟨el2, he2, hq2, -⟩ := Forward_ok he1.twf h
              exact ⟨el2, he1.trans_effect he2, by rw [still_of_quiet hq2, hs1],
                by rw [quiet_ran hq2, hr1]⟩
            · cases h
          · split at h
            · split at h
              · obtain ⟨el2, he2, hq2, -⟩ := resolve_ok he1.twf h
                exact ⟨el2, he1.trans_effect he2, by rw [still_of_quiet hq2, hs1],
                  by rw [quiet_ran hq2, hr1]⟩
              · obtain ⟨el2, he2, hq2, -⟩ := resolve_ok he1.twf h
                exact ⟨el2, he1.trans_effect he2, by rw [still_of_quiet hq2, hs1],
                  by rw [quiet_ran hq2, hr1]⟩
            · obtain ⟨el2, he2, hq2, -⟩ := resolve_ok he1.twf h
              exact ⟨el2, he1.trans_effect he2, by rw [still_of_quiet hq2, hs1],
                by rw [quiet_ran hq2, hr1]⟩
            · obtain ⟨el2, he2, hq2, -⟩ := resolve_ok he1.twf h
              exact ⟨el2, he1.trans_effect he2, by rw [still_of_quiet hq2, hs1],
                by rw [quiet_ran hq2, hr1]⟩

theorem runThunk_ok {w w2 : World} {el : Slot → List Nat} (hw : TWF w el) {fuel : Nat}
    {th : Thunk} (h : runThunk fuel th w = .ok () w2) :
    ∃ el2, Effect w w2 el el2 ∧ w2.still = w.still ∧ w2.ran = w.ran := by
  cases th with
  | user body =>
    simp only [runThunk] at h
    obtain ⟨_, w1, h1, h2⟩ := bind_ok h
    cases h2
    obtain ⟨el2, he, hq⟩ := exec_ok _ hw h1
    exact ⟨el2, he, still_of_quiet hq, quiet_ran hq⟩
  | whenTurn s outer inTy tv te rr f => exact runWhen_ok hw h
  | runUntil main cell =>
    simp only [runThunk] at h
    obtain ⟨_, w1, h1, h2⟩ := bind_ok h
    cases h2
    obtain ⟨_, _, _, _, _, -, -, -, he, -, hq, -⟩ := WhenT_ok hw h1
    exact ⟨_, he, still_of_quiet hq, quiet_ran hq⟩
  | runnerNew s fid f =>
    simp only [runThunk] at h
    cases hx : (logCall fid [] >>= fun _ => exec fuel f) w with
    | fault e w1 => rw [hx] at h; cases h
    | ok rv w1 =>
      rw [hx] at h
      obtain ⟨el1, he1, hs1, hr1, -⟩ := runClient_ok hw hx
      simp only at h
      split at h
      · obtain ⟨el2, he2, hq2, -⟩ := Forward_ok he1.twf h
        exact ⟨el2, he1.trans_effect he2, by rw [still_of_quiet hq2, hs1],
          by rw [quiet_ran hq2, hr1]⟩
      · cases h
  | actorMain s fid root =>
    simp only [runThunk] at h
    cases hx : (logCall fid [] >>= fun _ => exec fuel root) w with
    | fault e w1 => rw [hx] at h; cases h
    | ok rv w1 =>
      rw [hx] at h
      obtain ⟨el1, he1, hs1, hr1, -⟩ := runClient_ok hw hx
      simp only at h
      split at h
      · next x _ =>
        cases hy : WhenT fuel x .iface .iface .R (.actorResolve s) w1 with
        | fault e w3 => rw [hy] at h; cases h
        | ok o w3 =>
          rw [hy] at h
          cases h
          obtain ⟨_, _, _, _, _, -, -, -, he, -, hq, -⟩ := WhenT_ok he1.twf hy
          exact ⟨_, he1.trans_effect he, by rw [still_of_quiet hq, hs1],
            by rw [quiet_ran hq, hr1]⟩
      · cases h
      · cases h
  | ioResult s cell =>
    simp only [runThunk] at h
    obtain ⟨el2, he, hq, -⟩ := Resolve_ok hw h
    exact ⟨el2, he, still_of_quiet hq, quiet_ran hq⟩

theorem Run_ok {w w2 : World} {el : Slot → List Nat} (hw : TWF w el) {fuel : Nat}
    {list : Option Nat} (h : Run fuel list w = .ok () w2) :
    ∃ t el2, list = some t ∧ Effect w w2 el el2 ∧ w2.still = w.still ∧
      w2.ran = w.ran ++ [t] := by
  unfold Run at h
  split at h
  · cases h
  · cases list with
    | none => cases h
    | some t =>
      simp only at h
      split at h
      · cases h
      · have hg : Effect w { w with ran := w.ran ++ [t] } el el :=
          Effect.of_ghost hw rfl rfl rfl rfl rfl rfl rfl rfl
        obtain ⟨el2, he, hs, hr⟩ := runThunk_ok hg.twf h
        exact ⟨t, el2, rfl, hg.trans_effect he, by rw [hs]; rfl, by rw [hr]⟩

end Drydock


/-! ## The manager loop -/

namespace Drydock

theorem TWF.of_core {w w1 : World} {el : Slot → List Nat} (hc : w1.core = w.core)
    (hw : TWF w el) : TWF w1 el := by
  simp only [World.core, Prod.mk.injEq] at hc
  obtain ⟨h1, h2, h3, h4, h5, h6, h7, h8, h9, h10, h11, h12, h13⟩ := hc
  have hh : handle w1 = handle w := by
    funext i
    cases i with
    | queue k => simp only [handle]; exact congrArg some (congrFun h13 k)
    | pending k => simp only [handle, h5]
    | source k => simp only [handle, h7]
  exact ⟨by rw [h1, hh]; exact hw.lists, by rw [h1]; exact hw.empty,
    fun t ht => by rw [h1]; exact hw.fresh t (by rw [← h4]; exact ht), by rw [h4]; exact hw.pos⟩

theorem reflectSelect_nosignal {m : Nat} {w w1 : World} {i : Nat} {b : Bool}
    (hns : NoSignal w m) (h : reflectSelect m w = .ok (i, b) w1) :
    b = false ∧ w1 = { w with nsel := w.nsel + 1 } := by
  unfold reflectSelect at h
  simp only at h
  split at h
  · next j hj =>
    split at h
    · next d e hc =>
      have hmem : (⟨d, some e⟩ : SelectCase) ∈ (w.mgr m).sources.cases :=
        List.get?_mem hc
      have := hns _ hmem e rfl
      simp only [this, Bool.false_eq_true, if_false] at h
      cases h; exact ⟨rfl, rfl⟩
    · cases h
  · split at h
    · cases h; exact ⟨rfl, rfl⟩
    · cases h

theorem chooseLoop_nosignal {m : Nat} (n : Nat) :
    ∀ {w w1 : World} {e : Option Nat}, NoSignal w m → chooseLoop m n w = .ok e w1 →
      e = none ∧ w1.core = w.core ∧ w1.ev = w.ev := by
  induction n with
  | zero =>
    intro w w1 e _ h
    simp only [chooseLoop] at h
    split at h <;> cases h
    exact ⟨rfl, rfl, rfl⟩
  | succ n ih =>
    intro w w1 e hns h
    simp only [chooseLoop] at h
    split at h
    · split at h
      · cases h
      · next chosen recvOK wa ha =>
        obtain ⟨rfl, rfl⟩ := reflectSelect_nosignal hns ha
        split at h
        · cases h; exact ⟨rfl, rfl, rfl⟩
        · simp only [Bool.false_eq_true, if_false] at h
          split at h
          · cases h
          · next u wb hb =>
            unfold EventSet.remove at hb
            split at hb
            · cases hb
            · simp only at hb
              split at hb
              · next ev c hev hc =>
                split at hb
                · cases hb
                  have hns2 : NoSignal { w with
                      nsel := w.nsel + 1
                      mgr := Function.update w.mgr m { w.mgr m with sources :=
                        ⟨((w.mgr m).sources.cases.set chosen c).take
                            ((w.mgr m).sources.events.length - 1),
                          ((w.mgr m).sources.events.set chosen ev).take
                            ((w.mgr m).sources.events.length - 1)⟩ } } m := by
                    intro c2 hc2 e2 he2
                    simp only [Function.update_same] at hc2
                    have h1 := List.mem_of_mem_take hc2
                    rcases List.mem_or_eq_of_mem_set h1 with h2 | h2
                    · exact hns c2 h2 e2 he2
                    · subst h2
                      exact hns c2 (List.get?_mem hc) e2 he2
                  obtain ⟨he, hcore, hev2⟩ := ih hns2 h
                  refine ⟨he, ?_, hev2⟩
                  rw [hcore]
                  simp only [World.core, Prod.mk.injEq, true_and]
                  funext k
                  by_cases hk : k = m
                  · subst hk; simp
                  · simp [Function.update_noteq hk]
                · cases hb
              · cases hb
    · cases h; exact ⟨rfl, rfl, rfl⟩

theorem Select_nosignal {m fuel : Nat} {w w1 : World} {e : Option Nat} (hns : NoSignal w m)
    (h : EventSet.Select fuel m w = .ok e w1) : e = none ∧ w1.core = w.core ∧ w1.ev = w.ev := by
  unfold EventSet.Select EventSet.choose at h
  simp only at h
  split at h
  · cases h
  · next c cs hcs =>
    have hns2 : NoSignal { w with mgr := Function.update w.mgr m { w.mgr m with
        sources := ⟨{ c with dir := if false = true then Dir.selectRecv else Dir.selectDefault }
          :: cs, (w.mgr m).sources.events⟩ } } m := by
      intro c2 hc2 e2 he2
      simp only [Function.update_same] at hc2
      rcases List.mem_cons.1 hc2 with h2 | h2
      · subst h2
        exact hns c (by rw [hcs]; simp) e2 he2
      · exact hns c2 (by rw [hcs]; simp [h2]) e2 he2
    obtain ⟨he, hcore, hev⟩ := chooseLoop_nosignal fuel hns2 h
    refine ⟨he, ?_, hev⟩
    rw [hcore]
    simp only [World.core, Prod.mk.injEq, true_and]
    funext k
    by_cases hk : k = m
    · subst hk; simp
    · simp [Function.update_noteq hk]

theorem ingestSources_nosignal {m inner n : Nat} {w w1 : World} (hns : NoSignal w m)
    (h : ingestSources inner m n w = .ok () w1) : w1.core = w.core := by
  cases n with
  | zero => cases h
  | succ n =>
    simp only [ingestSources] at h
    split at h
    · cases h
    · next wa ha =>
      cases h
      exact (Select_nosignal hns ha).2.1
    · next e wa ha =>
      have := (Select_nosignal hns ha).1
      cases this


theorem Ring_isEmpty {h : TurnHeap} {l : Option Nat} {xs : List Nat} (hr : Ring h l xs)
    (he : IsEmpty l = true) : xs = [] := by
  cases xs with
  | nil => rfl
  | cons x rest => rw [Ring_ne_empty hr] at he; cases he

theorem runSnapshot_ok (inner : Nat) (n : Nat) :
    ∀ {w w2 : World} {el : Slot → List Nat} {list : Option Nat} {xs : List Nat}, TWF w el →
      Ring w.tnext list xs → (∀ i, ∀ t ∈ xs, t ∉ el i) →
      runSnapshot inner n list w = .ok () w2 →
      ∃ el2, TWF w2 el2 ∧ w2.ran = w.ran ++ xs ∧
        (∀ m, ∃ add, el2 (.queue m) = el (.queue m) ++ add ∧ w2.enq m = w.enq m ++ add) ∧
        Stable w w2 ∧ w2.still = w.still := by
  induction n with
  | zero =>
    intro w w2 el list xs hw hr _ h
    simp only [runSnapshot] at h
    split at h
    · next he =>
      cases h
      have := Ring_isEmpty hr he
      subst this
      exact ⟨el, hw, by simp, fun m => ⟨[], by simp, by simp⟩, Stable.refl_stable _, rfl⟩
    · cases h
  | succ n ih =>
    intro w w2 el list xs hw hr hun h
    simp only [runSnapshot] at h
    split at h
    · next he =>
      cases h
      have := Ring_isEmpty hr he
      subst this
      exact ⟨el, hw, by simp, fun m => ⟨[], by simp, by simp⟩, Stable.refl_stable _, rfl⟩
    · next hne =>
      cases xs with
      | nil =>
        exfalso; apply hne
        rw [(Ring_nil_iff _ _).1 hr]; rfl
      | cons x rest =>
        obtain ⟨h2, l2, he, hr2, hx, hwf, hfr⟩ := hw.lists.removeHead_local hr hun
        have hxr : x ∉ rest := (List.nodup_cons.1 hr.2.2.1).1
        rw [he] at h
        simp only at h
        have hwa : TWF { w with tnext := h2 } el := hw.setTnext hwf (fun y hy => by
          rw [hfr y (fun hm => ?_)]
          · exact hy
          · obtain ⟨z, hz⟩ := Ring_linked hr y hm
            rw [hy] at hz; cases hz)
        split at h
        · cases h
        · next u wb hb =>
          obtain ⟨t, elb, hte, heb, hsb, hrb⟩ := Run_ok hwa hb
          cases hte
          have hlinked : ∀ y ∈ rest, h2 y ≠ none := fun y hy e => by
            obtain ⟨z, hz⟩ := Ring_linked hr2 y hy
            rw [e] at hz; cases hz
          have hr3 : Ring wb.tnext l2 rest :=
            Ring_congr (fun y hy => heb.grow.frame y (hlinked y hy)
              (fun i hm => hun i y (List.mem_cons_of_mem _ hy) hm)) hr2
          have hun3 : ∀ i, ∀ y ∈ rest, y ∉ elb i := by
            intro i y hy hm
            rcases heb.grow.origin i y hm with ⟨j, hj⟩ | hd
            · exact hun j y (List.mem_cons_of_mem _ hy) hj
            · exact hlinked y hy hd
          obtain ⟨el2, hw2, hran, hq, hst, hsl⟩ := ih heb.twf hr3 hun3 h
          have hst0 : Stable w { w with tnext := h2 } := Stable.of_eq rfl rfl
          refine ⟨el2, hw2, ?_, ?_, (hst0.trans_stable heb.stable).trans_stable hst, ?_⟩
          · rw [hran, hrb]; simp
          · intro m
            obtain ⟨a1, e1, q1⟩ := heb.grow.queue m
            obtain ⟨a2, e2, q2⟩ := hq m
            exact ⟨a1 ++ a2, by rw [e2, e1, List.append_assoc],
              by rw [q2, q1, List.append_assoc]⟩
          · rw [hsl, hsb]; rfl

theorem runOneLoop_spec {fuel m : Nat} {w w2 : World} {el : Slot → List Nat}
    (hwf : TWF w el) (hns : NoSignal w m)
    (hrun : Manager.runOneLoop fuel m w = .ok () w2) :
    w2.ran = w.ran ++ el (.queue m) ∧
      ∃ add, w2.enq m = w.enq m ++ add ∧ Ring w2.tnext (w2.mgr m).turns add := by
  unfold Manager.runOneLoop at hrun
  split at hrun
  · cases hrun
  · next u w1 h1 =>
    have hcore := ingestSources_nosignal hns h1
    have hw1 : TWF w1 el := TWF.of_core hcore hwf
    have hran : w1.ran = w.ran := by
      have := congrArg (fun q => q.2.2.2.2.2.2.2.2.2.2.1) hcore
      exact this
    have henq : w1.enq = w.enq := by
      have := congrArg (fun q => q.2.2.2.2.2.2.2.2.2.2.2.1) hcore
      exact this
    have hring : Ring w1.tnext (w1.mgr m).turns (el (.queue m)) :=
      hw1.lists.rings (.queue m) _ rfl
    have hws : TWF { w1 with mgr := (Function.update w1.mgr m
        { w1.mgr m with turns := some Empty }) } (Function.update el (.queue m) []) := by
      refine ⟨?_, hw1.empty, hw1.fresh, hw1.pos⟩
      have := handle_setQueue w1 m (some Empty) w1.tnext w1.enq
      rw [show handle { w1 with mgr := (Function.update w1.mgr m
        { w1.mgr m with turns := some Empty }) } = _ from this]
      exact hw1.lists.release _ _ (Or.inr rfl)
    have hun : ∀ i, ∀ t ∈ el (.queue m), t ∉ Function.update el (.queue m) [] i := by
      intro i t ht
      by_cases hi : i = .queue m
      · subst hi; simp
      · rw [Function.update_noteq hi]
        exact hw1.lists.disj _ _ (Ne.symm hi) t ht
    obtain ⟨el2, hw2, hr2, hq, -, -⟩ := runSnapshot_ok fuel fuel hws hring hun hrun
    obtain ⟨add, ha1, ha2⟩ := hq m
    refine ⟨by rw [hr2]; show w1.ran ++ _ = _; rw [hran], add, ?_, ?_⟩
    · rw [ha2]; show w1.enq m ++ _ = _; rw [henq]
    · have := hw2.lists.rings (.queue m) _ rfl
      rw [ha1] at this
      simpa using this

end Drydock


/-! ## Continuations in registration order -/
namespace Drydock

theorem whenAll_spec {fuel s : Nat} (cs : List (Ty × Ty × Ty × Fn)) :
    ∀ {w w1 : World} {el : Slot → List Nat} {l : Nat} {outers : List Nat}, TWF w el →
      s < w.ralloc → (w.res s).turns = some l → (w.res s).next = none →
      whenAll fuel s cs w = .ok outers w1 →
      ∃ el1, TWF w1 el1 ∧
        el1 (.pending s) = el (.pending s) ++ (List.range cs.length).map (w.talloc + ·) ∧
        (∀ m, el1 (.queue m) = el (.queue m)) ∧ (∃ l1, (w1.res s).turns = some l1) ∧
        (w1.res s).manager = (w.res s).manager ∧ w1.quiet = w.quiet ∧
        (∀ t, t < w.talloc → w1.tf t = w.tf t) ∧
        (∀ i (hi : i < cs.length), ∃ tv te rr, w1.tf (w.talloc + i) =
          .whenTurn s (w.ralloc + i) (cs.get ⟨i, hi⟩).1 tv te rr (cs.get ⟨i, hi⟩).2.2.2) := by
  induction cs with
  | nil =>
    intro w w1 el l outers hw _ hl _ h
    cases h
    exact ⟨el, hw, by simp, fun _ => rfl, ⟨l, hl⟩, rfl, rfl, fun _ _ => rfl,
      fun i hi => absurd hi (by simp)⟩
  | cons c cs ih =>
    intro w w1 el l outers hw hs hl hn h
    simp only [whenAll] at h
    obtain ⟨o, wa, ha, h⟩ := bind_ok h
    obtain ⟨os, wb, hb, h⟩ := bind_ok h
    cases h
    obtain ⟨tv, te, rr, s1, tgt, -, hs1, -, hea, htgt, hqa, htfa, htaa, hraa, -, -, hresa⟩ :=
      WhenT_ok hw ha
    have hs1e : s1 = s := by
      rw [hn] at hs1
      simp only [Option.isSome_none, Bool.false_eq_true, if_false] at hs1
      cases hs1; rfl
    subst hs1e
    have hsr : s1 ≠ w.ralloc := by omega
    have htg : tgt = .pending s1 := by
      rw [htgt hsr]; simp [queueSlot, isResolved, hl]
    subst htg
    have hne : Slot.pending s1 ≠ Slot.pending w.ralloc := fun e => hsr (by injection e)
    obtain ⟨hma, -, hna, hta⟩ := hresa s1 hsr
    have hla : ∃ la, (wa.res s1).turns = some la := by
      cases hx : (wa.res s1).turns with
      | none => rw [hta.1 hx] at hl; cases hl
      | some la => exact ⟨la, rfl⟩
    obtain ⟨la, hla⟩ := hla
    obtain ⟨el1, hw1, hp1, hq1, hl1, hm1, hqq1, htf1, hth1⟩ :=
      ih hea.twf (by omega) hla (by rw [hna]; exact hn) hb
    refine ⟨el1, hw1, ?_, ?_, hl1, by rw [hm1, hma], by rw [hqq1, hqa], ?_, ?_⟩
    · rw [hp1, Function.update_same, Function.update_noteq hne, htaa, List.append_assoc]
      congr 1
      rw [List.length_cons, List.range_succ_eq_map]
      simp only [List.map_cons, List.map_map, Nat.add_zero, List.cons_append, List.nil_append,
        List.cons.injEq, true_and]
      apply List.map_congr_left
      intro i _
      simp only [Function.comp]
      omega
    · intro m
      have : Slot.queue m ≠ Slot.pending s1 := by simp
      have h2 : Slot.queue m ≠ Slot.pending w.ralloc := by simp
      rw [hq1, Function.update_noteq this, Function.update_noteq h2]
    · intro t ht
      rw [htf1 t (by omega), hea.grow.tf t ht]
    · intro i hi
      cases i with
      | zero =>
        refine ⟨tv, te, rr, ?_⟩
        rw [htf1 _ (by omega)]
        exact htfa
      | succ j =>
        obtain ⟨tv2, te2, rr2, h2⟩ := hth1 j (by simpa using hi)
        refine ⟨tv2, te2, rr2, ?_⟩
        rw [htaa, hraa] at h2
        have e1 : w.talloc + (j + 1) = w.talloc + 1 + j := by omega
        have e2 : w.ralloc + (j + 1) = w.ralloc + 1 + j := by omega
        rw [e1, e2]
        exact h2

/-- C3 (continuation ordering): continuations `c1..cn` registered in that order with `WhenT` on
an unresolved, unforwarded resolver `s` are, once `s` is resolved, on the manager queue after
the turns already queued (and after the turns already pending on `s`), in registration order,
and the manager runs its queue in exactly that order. -/
theorem continuation_order (fuel : Nat) (w w1 : World) (el : Slot → List Nat) (s l : Nat)
    (cs : List (Ty × Ty × Ty × Fn)) (outers : List Nat) (o : Iface)
    (hwf : TWF w el) (hs : s < w.ralloc) (hun : (w.res s).turns = some l)
    (hnf : (w.res s).next = none) (hreg : whenAll fuel s cs w = .ok outers w1)
    (hfuel : (el (.pending s)).length + cs.length ≤ fuel) :
    ∃ w2, resolve fuel s o w1 = .ok () w2 ∧
      Ring w2.tnext (w2.mgr (w.res s).manager).turns
        (el (.queue (w.res s).manager) ++ el (.pending s) ++
          (List.range cs.length).map (w.talloc + ·)) ∧
      (∀ i (hi : i < cs.length), ∃ tv te rr, w2.tf (w.talloc + i) =
        .whenTurn s (w.ralloc + i) (cs.get ⟨i, hi⟩).1 tv te rr (cs.get ⟨i, hi⟩).2.2.2) ∧
      (∀ f2 w3, NoSignal w2 (w.res s).manager →
        Manager.runOneLoop f2 (w.res s).manager w2 = .ok () w3 →
        w3.ran = w2.ran ++ (el (.queue (w.res s).manager) ++ el (.pending s) ++
          (List.range cs.length).map (w.talloc + ·))) := by
  obtain ⟨el1, hw1, hp1, hq1, ⟨l1, hl1⟩, hm1, -, -, hth1⟩ :=
    whenAll_spec cs hwf hs hun hnf hreg
  rcases resolve_spec hw1 fuel s o hl1 with
    ⟨w2, he, hw2, -, -, hal, -, -⟩ | ⟨hlt, -⟩
  · rw [hm1] at hw2
    have hel : (Function.update (Function.update el1 (.pending s) [])
        (.queue (w.res s).manager) (el1 (.queue (w.res s).manager) ++ el1 (.pending s)))
        (.queue (w.res s).manager) = el (.queue (w.res s).manager) ++ el (.pending s) ++
          (List.range cs.length).map (w.talloc + ·) := by
      rw [Function.update_same, hq1, hp1, List.append_assoc]
    refine ⟨w2, he, ?_, ?_, ?_⟩
    · have := hw2.lists.rings (.queue (w.res s).manager) _ rfl
      rwa [hel] at this
    · intro i hi
      obtain ⟨tv, te, rr, h⟩ := hth1 i hi
      exact ⟨tv, te, rr, by rw [allocs_tf hal]; exact h⟩
    · intro f2 w3 hns hrun
      rw [(runOneLoop_spec hw2 hns hrun).1, hel]
  · rw [hp1] at hlt
    simp at hlt
    omega

end Drydock

namespace Drydock

theorem Manager.Queue_queueOnly {m : Nat} {t : Option Nat} {w w2 : World}
    (h : Manager.Queue m t w = .ok () w2) : QueueOnly w w2 := by
  unfold Manager.Queue at h
  split at h
  · cases h
  · cases h
    refine ⟨?_, rfl, fun _ => ⟨rfl, rfl, rfl, Iff.rfl⟩⟩
    simp only [World.quiet, Prod.mk.injEq, true_and]
    funext k
    by_cases hk : k = m
    · subst hk; simp
    · simp [Function.update_noteq hk]

theorem queue_queueOnly {s : Nat} {t : Option Nat} {w w2 : World}
    (h : queue s t w = .ok () w2) : QueueOnly w w2 := by
  unfold queue at h
  split at h
  · exact Manager.Queue_queueOnly h
  · next hr =>
    split at h
    · cases h
    · next h2 l he =>
      cases h
      refine ⟨rfl, rfl, fun k => ?_⟩
      by_cases hk : k = s
      · subst hk
        have : (w.res k).turns ≠ none := by
          intro e; apply hr; simp [isResolved, e]
        obtain ⟨a, rfl, -, -⟩ := Append_ok_inv he
        have hl : l = some a := by
          unfold Append at he
          simp only at he
          split at he
          · cases he
          · split at he
            · cases he
            · split at he
              · cases he; rfl
              · split at he
                · cases he
                · cases he; rfl
        simp [hl, this]
      · simp [Function.update_noteq hk]

theorem queueList_queueOnly {s : Nat} (fuel : Nat) :
    ∀ {list : Option Nat} {w w2 : World}, queueList s fuel list w = .ok () w2 →
      QueueOnly w w2 := by
  induction fuel with
  | zero =>
    intro list w w2 h
    simp only [queueList] at h
    split at h <;> cases h
    exact QueueOnly.refl_queueOnly _
  | succ n ih =>
    intro list w w2 h
    simp only [queueList] at h
    split at h
    · cases h; exact QueueOnly.refl_queueOnly _
    · split at h
      · cases h
      · next h2 head rest he =>
        split at h
        · cases h
        · next u w1 hq =>
          have h0 : QueueOnly w { w with tnext := h2 } :=
            ⟨rfl, rfl, fun _ => ⟨rfl, rfl, rfl, Iff.rfl⟩⟩
          exact (h0.trans_queueOnly (queue_queueOnly hq)).trans_queueOnly (ih h)

theorem quiet_calloc {w w2 : World} (h : w2.quiet = w.quiet) : w2.calloc = w.calloc :=
  congrArg (fun q => q.2.2.2.2.2.1) h

theorem FnClosed.mono_fn {w w2 : World} {f : Fn} (h : FnClosed w f) (hr : w.ralloc ≤ w2.ralloc)
    (hc : w.calloc ≤ w2.calloc) : FnClosed w2 f := by
  cases f with
  | user _ _ _ => trivial
  | runUntilRecord c => exact lt_of_lt_of_le h hc
  | finallyFn _ _ _ r => exact fun a ha => lt_of_lt_of_le (h a ha) hr
  | actorResolve s => exact lt_of_lt_of_le h hr

theorem ThunkClosed.mono_thunk {w w2 : World} {th : Thunk} (h : ThunkClosed w th)
    (hr : w.ralloc ≤ w2.ralloc) (hc : w.calloc ≤ w2.calloc) : ThunkClosed w2 th := by
  cases th with
  | user _ => trivial
  | whenTurn s outer inTy tv te rr f =>
    exact ⟨lt_of_lt_of_le h.1 hr, lt_of_lt_of_le h.2.1 hr, h.2.2.1.mono_fn hr hc, h.2.2.2⟩
  | runUntil main c => exact ⟨lt_of_lt_of_le h.1 hr, lt_of_lt_of_le h.2 hc⟩
  | runnerNew s _ _ => exact lt_of_lt_of_le h hr
  | actorMain s _ _ => exact lt_of_lt_of_le h hr
  | ioResult s _ => exact lt_of_lt_of_le h hr

/-- How a step keeps the heap free of dangling addresses: every link of the new world is an
old link or a new link between allocated resolvers, and every closure is an old one or
captures allocated addresses. -/
theorem Closed.of_step {w w2 : World} (hc : Closed w) (hr : w.ralloc ≤ w2.ralloc)
    (hca : w.calloc ≤ w2.calloc)
    (hnext : ∀ a n, (w2.res a).next = some n →
      ((w.res a).next = some n ∧ ((w.res a).turns = none → (w2.res a).turns = none)) ∨
      (n < w2.ralloc ∧ a < w2.ralloc ∧ (w2.res a).turns = none))
    (htf : ∀ t, t < w2.talloc → (t < w.talloc ∧ w2.tf t = w.tf t) ∨ ThunkClosed w2 (w2.tf t)) :
    Closed w2 := by
  refine ⟨fun a n h => ?_, fun t ht => ?_⟩
  · rcases hnext a n h with ⟨h1, h2⟩ | h1
    · obtain ⟨c1, c2, c3⟩ := hc.next a n h1
      exact ⟨lt_of_lt_of_le c1 hr, lt_of_lt_of_le c2 hr, h2 c3⟩
    · exact h1
  · rcases htf t ht with ⟨h1, h2⟩ | h1
    · rw [h2]; exact (hc.thunks t h1).mono_thunk hr hca
    · exact h1

theorem Closed.of_queueOnly {w w2 : World} (hq : QueueOnly w w2) (hc : Closed w) :
    Closed w2 := by
  refine hc.of_step (le_of_eq (allocs_ralloc hq.allocs).symm)
    (le_of_eq (quiet_calloc hq.quiet).symm) (fun a n h => Or.inl ?_) (fun t ht => Or.inl ?_)
  · obtain ⟨-, -, h3, h4⟩ := hq.res a
    exact ⟨by rw [← h3]; exact h, h4.2⟩
  · rw [allocs_talloc hq.allocs] at ht
    exact ⟨ht, by rw [allocs_tf hq.allocs]⟩

theorem getShortest_lt {w w2 : World} (hc : Closed w) {k a b : Nat} (ha : a < w.ralloc)
    (h : getShortest k a w = .ok b w2) : b < w.ralloc := by
  induction k generalizing a with
  | zero =>
    simp only [getShortest] at h
    split at h <;> cases h
    exact ha
  | succ k ih =>
    simp only [getShortest] at h
    split at h
    · cases h; exact ha
    · next n hn => exact ih (hc.next a n hn).1 h

theorem resolve_closed {w w2 : World} (hc : Closed w) {fuel s : Nat} {o : Iface}
    (h : resolve fuel s o w = .ok () w2) : Closed w2 := by
  unfold resolve at h
  split at h
  · cases h
  · refine Closed.of_queueOnly (queueList_queueOnly fuel h) ?_
    refine hc.of_step (le_refl _) (le_refl _) (fun a n hn => Or.inl ?_)
      (fun t ht => Or.inl ⟨ht, rfl⟩)
    by_cases ha : a = s
    · subst ha
      simp only [Function.update_same] at hn ⊢
      exact ⟨hn, fun _ => trivial⟩
    · simp only [Function.update_noteq ha] at hn ⊢
      exact ⟨hn, fun h => h⟩

theorem Forward_closed {w w2 : World} (hc : Closed w) {fuel s : Nat} {n : Option Nat}
    (hs : s < w.ralloc) (hn : ∀ a, n = some a → a < w.ralloc)
    (h : Forward fuel s n w = .ok () w2) : Closed w2 := by
  unfold Forward at h
  split at h
  · cases h
  · split at h
    · cases h
    · next nx =>
      split at h
      · cases h
      · split at h
        · cases h
        · next next w1 hg =>
          have hw1 : w = w1 := (getShortest_world hg).symm
          subst hw1
          have hlt := getShortest_lt hc (hn nx rfl) hg
          refine Closed.of_queueOnly (queueList_queueOnly fuel h) ?_
          refine hc.of_step (le_refl _) (le_refl _) (fun a m hm => ?_)
            (fun t ht => Or.inl ⟨ht, rfl⟩)
          by_cases ha : a = s
          · subst ha
            simp only [Function.update_same, Option.some.injEq] at hm ⊢
            subst hm
            exact Or.inr ⟨hlt, hs, trivial⟩
          · simp only [Function.update_noteq ha] at hm ⊢
            exact Or.inl ⟨hm, fun h => h⟩

/-! ### Forwarding chains -/

theorem getShortest_mono {w w2 : World} {k k2 a b : Nat}
    (h : getShortest k a w = .ok b w2) (hk : k ≤ k2) : getShortest k2 a w = .ok b w2 := by
  induction k generalizing a k2 with
  | zero =>
    simp only [getShortest] at h
    split at h
    · next hn =>
      cases h
      cases k2 <;> simp [getShortest, hn]
    · cases h
  | succ k ih =>
    obtain ⟨j, rfl⟩ : ∃ j, k2 = j + 1 := ⟨k2 - 1, by omega⟩
    simp only [getShortest] at h ⊢
    split at h
    · next hn => cases h; simp [hn]
    · next n hn =>
      exact ih h (by omega)

theorem getShortest_chain {w w2 : World} {k a b : Nat}
    (h : getShortest k a w = .ok b w2) : Chain w a b := by
  induction k generalizing a with
  | zero =>
    simp only [getShortest] at h
    split at h <;> cases h
    exact Chain.refl _
  | succ k ih =>
    simp only [getShortest] at h
    split at h
    · cases h; exact Chain.refl _
    · next n hn => exact Chain.step hn (ih h)

theorem getShortest_step {w w2 : World} {k s t b : Nat} (hn : (w.res s).next = some t)
    (h : getShortest k t w = .ok b w2) : getShortest (k + 1) s w = .ok b w2 := by
  simp only [getShortest, hn]; exact h

/-- The tail of a chain is the tail of each of its members. -/
theorem getShortest_of_chain {w w2 : World} {a c : Nat} (hc : Chain w a c) :
    ∀ {k b : Nat}, getShortest k a w = .ok b w2 → getShortest k c w = .ok b w2 := by
  induction hc with
  | refl a => exact fun h => h
  | step hn _ ih =>
    intro k b h
    cases k with
    | zero => simp [getShortest, hn] at h
    | succ k =>
      simp only [getShortest, hn] at h
      exact getShortest_mono (ih h) (Nat.le_succ k)

theorem Chain.congr_next {w w2 : World} {a b : Nat}
    (hl : ∀ x n, (w.res x).next = some n → (w2.res x).next = some n) (h : Chain w a b) :
    Chain w2 a b := by
  induction h with
  | refl a => exact Chain.refl a
  | step hn _ ih => exact Chain.step (hl _ _ hn) ih

theorem Chain.keep {w w2 : World} {a b : Nat} (hc : Closed w) (hs : Stable w w2)
    (h : Chain w a b) : Chain w2 a b := by
  refine h.congr_next fun x n hn => ?_
  obtain ⟨-, hx, ht⟩ := hc.next x n hn
  rw [hs.res x hx ht]; exact hn

theorem Chain.trans_chain {w : World} {a b c : Nat} (h1 : Chain w a b) (h2 : Chain w b c) :
    Chain w a c := by
  induction h1 with
  | refl a => exact h2
  | step hn _ ih => exact Chain.step hn (ih h2)

theorem QueueOnly.to_stable {w w2 : World} (h : QueueOnly w w2) : Stable w w2 := by
  refine ⟨fun s _ ht => ?_, le_of_eq (allocs_ralloc h.allocs).symm⟩
  obtain ⟨h1, h2, h3, h4⟩ := h.res s
  have h5 := h4.2 ht
  cases hr : w2.res s
  cases hr0 : w.res s
  rw [hr, hr0] at h1 h2 h3
  rw [hr] at h5
  rw [hr0] at ht
  simp only at h1 h2 h3 h5 ht
  subst h1 h2 h3 h5 ht
  rfl

/-- What `WhenT` does, without reference to the turn lists. -/
theorem WhenT_inv {w w2 : World} {fuel s o : Nat} {inTy out outR : Ty} {f : Fn}
    (h : WhenT fuel s inTy out outR f w = .ok o w2) :
    ∃ tv te rr s1, whenValidate inTy out outR f.sig = .ok (tv, te, rr) ∧
      (if (w.res s).next.isSome then getShortest fuel s w else .ok s w) = .ok s1 w ∧
      o = w.ralloc ∧ w2.tf w.talloc = .whenTurn s1 w.ralloc inTy tv te rr f ∧
      Stable w w2 ∧ w2.talloc = w.talloc + 1 ∧ w2.ralloc = w.ralloc + 1 ∧
      w2.quiet = w.quiet ∧ (∀ t, t < w.talloc → w2.tf t = w.tf t) ∧
      (Closed w → s < w.ralloc → FnClosed w f → Closed w2) := by
  unfold WhenT at h
  cases hv : whenValidate inTy out outR f.sig with
  | error e => rw [hv] at h; cases h
  | ok p =>
    obtain ⟨tv, te, rr⟩ := p
    rw [hv] at h
    simp only at h
    cases hg : (if (w.res s).next.isSome then getShortest fuel s w else Res.ok s w) with
    | fault e w1 => rw [hg] at h; cases h
    | ok s1 w1 =>
      have hw1 : w = w1 := by
        split at hg
        · exact (getShortest_world hg).symm
        · cases hg; rfl
      subst hw1
      rw [hg] at h
      simp only at h
      obtain ⟨outer, wa, ha, h⟩ := bind_ok h
      obtain ⟨id, wb, hb, h⟩ := bind_ok h
      obtain ⟨t, wc, hc, h⟩ := bind_ok h
      obtain ⟨u, wd, hd, h⟩ := bind_ok h
      cases h
      simp only [newTurnResolver] at ha
      cases ha
      simp only [Manager.NewID, UniqueIDGenerator.NewID] at hb
      cases hb
      simp only [NewTurn] at hc
      cases hc
      have hq := queue_queueOnly hd
      have hst : Stable w w2 := by
        refine Stable.trans_stable ⟨fun k hk _ => ?_, Nat.le_succ _⟩ hq.to_stable
        show Function.update w.res w.ralloc _ k = w.res k
        rw [Function.update_noteq (Nat.ne_of_lt hk)]
      refine ⟨tv, te, rr, s1, rfl, rfl, rfl, ?_, hst, ?_, ?_, ?_, ?_, ?_⟩
      · rw [allocs_tf hq.allocs]; simp
      · rw [allocs_talloc hq.allocs]
      · rw [allocs_ralloc hq.allocs]
      · rw [hq.quiet]; rfl
      · intro k hk
        rw [allocs_tf hq.allocs]
        show Function.update w.tf w.talloc _ k = w.tf k
        rw [Function.update_noteq (Nat.ne_of_lt hk)]
      · intro hcl hs hf
        refine Closed.of_queueOnly hq ?_
        refine hcl.of_step (Nat.le_succ _) (le_refl _) (fun a n hn => Or.inl ?_)
          (fun k hk => ?_)
        · have hne : a ≠ w.ralloc := by
            intro e
            subst e
            simp at hn
          simp only [Function.update_noteq hne] at hn ⊢
          exact ⟨hn, fun h => h⟩
        · by_cases hk2 : k = w.talloc
          · subst hk2
            right
            have hs1 : s1 < w.ralloc := by
              split at hg
              · exact getShortest_lt hcl hs hg
              · cases hg; exact hs
            simp only [Function.update_same]
            exact ⟨Nat.lt_succ_of_lt hs1, Nat.lt_succ_self _,
              hf.mono_fn (Nat.le_succ _) (le_refl _), out, outR, hv⟩
          · left
            have hk3 : k < w.talloc + 1 := hk
            exact ⟨by omega, by simp [Function.update_noteq hk2]⟩

end Drydock

namespace Drydock

/-- What `Forward` does: the forwarded resolver points at the tail of the target, and its
pending turns go onto the list of that tail. -/
theorem Forward_spec {w w2 : World} {el : Slot → List Nat} (hw : TWF w el) {fuel s nx : Nat}
    (h : Forward fuel s (some nx) w = .ok () w2) :
    ∃ tail el2, getShortest fuel nx w = .ok tail w ∧ Effect w w2 el el2 ∧
      w2.res s = { w.res s with turns := none, outcome := .nil, next := some tail } ∧
      (w.res s).turns ≠ none ∧
      (∀ k, k ≠ s → (w2.res k).next = (w.res k).next) ∧
      (tail ≠ s → el2 (queueSlot w tail) = el (queueSlot w tail) ++ el (.pending s)) := by
  cases hs : (w.res s).turns with
  | none => simp [Forward, isResolved, hs] at h
  | some l =>
    simp only [Forward, isResolved, hs, Option.isNone_some, Bool.false_eq_true, if_false] at h
    split at h
    · cases h
    · cases hg : getShortest fuel nx w with
      | fault f w1 => rw [hg] at h; cases h
      | ok next w1 =>
        have hw1 : w = w1 := (getShortest_world hg).symm
        subst hw1
        rw [hg] at h
        simp only [hs] at h
        have hq := queueList_queueOnly fuel h
        obtain ⟨heff, -, -, hres, -⟩ := drain_effect hw hs _ rfl next fuel h
        refine ⟨next, _, rfl, heff, hres, by simp, ?_, ?_⟩
        · intro k hk
          rw [(hq.res k).2.2.1]
          show (Function.update w.res s _ k).next = _
          rw [Function.update_noteq hk]
        · intro hne
          have hslot : queueSlot { w with res := (Function.update w.res s
              { w.res s with turns := none, outcome := .nil, next := some next }) } next =
              queueSlot w next := by
            unfold queueSlot isResolved
            simp only [Function.update_noteq hne]
          rw [hslot]
          have hne2 : queueSlot w next ≠ .pending s := by
            unfold queueSlot
            split
            · simp
            · simp [hne]
          simp [Function.update_noteq hne2]

theorem runWhen_congr {w w1 : World} {k a b final : Nat} (ha : getShortest k a w = .ok final w1)
    (hb : getShortest k b w = .ok final w1) (outer : Nat) (inTy : Ty) (tv te rr : Bool)
    (f : Fn) : runWhen k a outer inTy tv te rr f w = runWhen k b outer inTy tv te rr f w := by
  unfold runWhen
  rw [ha, hb]

/-- C5 (forward transparency).  Let the unresolved resolver `s` be forwarded to `target`, that
is, `s.Forward(target)` returns.  The turns that were pending on `s` are handed to the tail of
the forwarding chain of `target`: they go onto its pending list when it is not resolved yet
and onto the queue of its manager when it is.  In every later world in which `target` has an
outcome holder `final`, a continuation turn attached to `s` before the call (its source is
`s`) and one attached after it (the turn that `WhenT` allocates then) both read that same
`final`: each runs exactly like the dispatcher of a continuation attached to `target`
itself, so it is handed exactly the value and the error of `target`. -/
theorem forward_transparency (fuel : Nat) (w w1 : World) (el : Slot → List Nat)
    (s target : Nat) (hwf : TWF w el) (hc : Closed w) (hs : s < w.ralloc)
    (ht : target < w.ralloc) (hf : Forward fuel s (some target) w = .ok () w1) :
    ∃ tail el1, getShortest fuel target w = .ok tail w ∧ TWF w1 el1 ∧
      (tail ≠ s → el1 (queueSlot w tail) = el (queueSlot w tail) ++ el (.pending s)) ∧
      ∀ w2 k final, Stable w1 w2 → getShortest k target w2 = .ok final w2 →
        getShortest (k + 1) s w2 = .ok final w2 ∧
        (∀ outer inTy tv te rr f,
          runThunk (k + 1) (.whenTurn s outer inTy tv te rr f) w2 =
            runWhen (k + 1) target outer inTy tv te rr f w2) ∧
        (∀ w3 w4 j inTy out outR f outer, Stable w1 w3 → Closed w3 →
          WhenT j s inTy out outR f w3 = .ok outer w4 → Stable w4 w2 →
          ∃ src tv te rr, w4.tf w3.talloc = .whenTurn src outer inTy tv te rr f ∧
            getShortest (k + 1) src w2 = .ok final w2 ∧
            runThunk (k + 1) (w4.tf w3.talloc) w2 =
              runWhen (k + 1) target outer inTy tv te rr f w2) := by
  obtain ⟨tail, el1, hg, heff, hres, hun, hnext, hsched⟩ := Forward_spec hwf hf
  have hc1 : Closed w1 := Forward_closed hc hs (fun a ha => by cases ha; exact ht) hf
  have hsn : (w.res s).next = none := by
    cases hn : (w.res s).next with
    | none => rfl
    | some n => exact absurd (hc.next s n hn).2.2 hun
  have hch1 : Chain w1 target tail := by
    refine (getShortest_chain hg).congr_next fun x n hn => ?_
    have hx : x ≠ s := by
      intro e
      rw [e, hsn] at hn
      cases hn
    rw [hnext x hx]; exact hn
  have hs1 : s < w1.ralloc := lt_of_lt_of_le hs heff.stable.ralloc
  have hst1 : (w1.res s).turns = none := by rw [hres]
  have hsn1 : (w1.res s).next = some tail := by rw [hres]
  refine ⟨tail, el1, hg, heff.twf, hsched, ?_⟩
  intro w2 k final hst hfin
  have hsn2 : (w2.res s).next = some tail := by rw [hst.res s hs1 hst1]; exact hsn1
  have hsfin : getShortest (k + 1) s w2 = .ok final w2 :=
    getShortest_step hsn2 (getShortest_of_chain (hch1.keep hc1 hst) hfin)
  have htfin : getShortest (k + 1) target w2 = .ok final w2 :=
    getShortest_mono hfin (Nat.le_succ k)
  refine ⟨hsfin, fun outer inTy tv te rr f => ?_, ?_⟩
  · exact runWhen_congr hsfin htfin outer inTy tv te rr f
  · intro w3 w4 j inTy out outR f outer hst3 hc3 hwhen hst4
    obtain ⟨tv, te, rr, src, -, hsrc, ho, htf, hst34, -⟩ := WhenT_inv hwhen
    have hsn3 : (w3.res s).next = some tail := by rw [hst3.res s hs1 hst1]; exact hsn1
    rw [hsn3] at hsrc
    simp only [Option.isSome_some, if_true] at hsrc
    have hch : Chain w2 s src :=
      (getShortest_chain hsrc).keep hc3 (hst34.trans_stable hst4)
    have hsrcfin := getShortest_of_chain hch hsfin
    subst ho
    refine ⟨src, tv, te, rr, htf, hsrcfin, ?_⟩
    rw [htf]
    exact runWhen_congr hsrcfin htfin _ inTy tv te rr f

end Drydock

namespace Drydock

theorem TWF.sample : TWF World.sample (fun _ => []) := by
  refine ⟨⟨fun i l h => ?_, fun _ _ => rfl, fun _ _ _ t ht => by cases ht⟩, rfl, fun _ _ => rfl,
    by decide⟩
  rw [Ring_nil_iff]
  cases i with
  | queue m => simpa [handle, World.sample] using h.symm
  | pending s =>
    by_cases hs : s = 0
    · subst hs; simp [handle, World.sample] at h
    · simpa [handle, World.sample, hs] using h.symm
  | source k => simpa [handle, World.sample, World.init] using h.symm

theorem Closed.of_sample : Closed World.sample := by
  refine ⟨fun a n h => ?_, fun t _ => trivial⟩
  by_cases ha : a = 0
  · subst ha; simp [World.sample] at h
  · simp [World.sample, ha] at h

theorem getShortest_self {w : World} {a : Nat} (h : (w.res a).next = none) (k : Nat) :
    getShortest k a w = .ok a w := by
  cases k <;> simp [getShortest, h]

/-- A chain that ends in a resolved resolver is the same chain in every later world. -/
theorem getShortest_stable {w w2 : World} (hc : Closed w) (hs : Stable w w2) {k a b : Nat}
    (hb : b < w.ralloc) (hr : (w.res b).turns = none) (h : getShortest k a w = .ok b w) :
    getShortest k a w2 = .ok b w2 := by
  have hbn : (w2.res b).next = none := by rw [hs.res b hb hr]; exact getShortest_next h
  induction k generalizing a with
  | zero =>
    simp only [getShortest] at h
    split at h
    · cases h; simp [getShortest, hbn]
    · cases h
  | succ k ih =>
    simp only [getShortest] at h
    split at h
    · cases h; simp [getShortest, hbn]
    · next n hn =>
      obtain ⟨-, ha, hat⟩ := hc.next a n hn
      have : (w2.res a).next = some n := by rw [hs.res a ha hat]; exact hn
      simp only [getShortest, this]
      exact ih h

/-- The run of the continuation turn of `Finally` and `FinallyString`. -/
theorem finally_run {fuel : Nat} {w w1 : World} {el el1 : Slot → List Nat}
    {src outer r final fid : Nat} {inTy outR : Ty} {f : Prog} {vals : List Iface}
    (hwf : TWF w el) (hc : Closed w) (hr : r < w.ralloc)
    (hsrc : getShortest fuel src w = .ok final w) (hfin : getShortest fuel r w = .ok final w)
    (hres : (w.res final).turns = none)
    (hbody : exec fuel f { w with calls := w.calls ++ [(fid, [])] } = .ok vals w1)
    (hwf1 : TWF w1 el1) (hfuel : (el1 (.pending outer)).length ≤ fuel)
    (hout : (w1.res outer).turns ≠ none)
    (hm : (w1.res r).manager = (w1.res outer).manager) :
    ∃ w2, runThunk fuel (.whenTurn src outer inTy true true true
        (.finallyFn outR fid f (some r))) w = .ok () w2 ∧
      w2.calls = w.calls ++ [(fid, [])] ∧ w2.res final = w.res final ∧
      getShortest (fuel + 1) outer w2 = .ok final w2 ∧
      getShortest (fuel + 1) r w2 = .ok final w2 := by
  have hg : Effect w { w with calls := w.calls ++ [(fid, [])] } el el :=
    Effect.of_ghost hwf rfl rfl rfl rfl rfl rfl rfl rfl
  obtain ⟨el2, he, hq⟩ := exec_ok _ hg.twf hbody
  have hst : Stable w w1 := hg.stable.trans_stable he.stable
  have hfl : final < w.ralloc := getShortest_lt hc hr hfin
  have hfin1 : getShortest fuel r w1 = .ok final w1 := getShortest_stable hc hst hfl hres hfin
  have hres1 : w1.res final = w.res final := hst.res final hfl hres
  obtain ⟨l, hl⟩ : ∃ l, (w1.res outer).turns = some l := by
    cases h : (w1.res outer).turns with
    | none => exact absurd h hout
    | some l => exact ⟨l, rfl⟩
  have hne : final ≠ outer := by
    intro e
    rw [← e, hres1, hres] at hl
    cases hl
  -- the call of `Forward`
  have hring : Ring w1.tnext (some l) (el1 (.pending outer)) :=
    hwf1.lists.rings (.pending outer) (some l) (by simp [handle, hl])
  have hwm := hwf1.releasePending outer
    { w1.res outer with turns := none, outcome := .nil, next := some final } rfl
  have hun : ∀ i, ∀ t ∈ el1 (.pending outer),
      t ∉ Function.update el1 (.pending outer) [] i := by
    intro i t ht
    by_cases hi : i = .pending outer
    · subst hi; simp
    · rw [Function.update_noteq hi]
      exact hwf1.lists.disj _ _ (Ne.symm hi) t ht
  have hfw : ∃ w2, Forward fuel outer (some r) w1 = .ok () w2 := by
    rcases queueList_spec final fuel hwm hring hun with ⟨w2, h2, -⟩ | ⟨hlt, -⟩
    · refine ⟨w2, ?_⟩
      simp only [Forward, isResolved, hl, Option.isNone_some, Bool.false_eq_true, if_false, hm,
        ne_eq, not_true_eq_false, hfin1]
      exact h2
    · omega
  obtain ⟨w2, h2⟩ := hfw
  obtain ⟨tail, el3, hg3, he3, hres3, -, hnext3, -⟩ := Forward_spec hwf1 h2
  rw [hfin1] at hg3
  cases hg3
  obtain ⟨_, _, hq3, -⟩ := Forward_ok hwf1 h2
  have hfl1 : final < w1.ralloc := lt_of_lt_of_le hfl hst.ralloc
  have hres2 : w2.res final = w1.res final :=
    he3.stable.res final hfl1 (by rw [hres1]; exact hres)
  have hn2 : (w2.res final).next = none := by
    rw [hres2, hres1]; exact getShortest_next hfin
  refine ⟨w2, ?_, ?_, by rw [hres2, hres1], ?_, ?_⟩
  · simp only [runThunk, runWhen, hsrc, isResolved, hres, Option.isNone_none, Bool.not_true,
      Bool.false_eq_true, if_false, Bool.false_and, callFn, bind_apply, logCall, hbody,
      pure_apply, if_true]
    exact h2
  · rw [quiet_calls hq3, quiet_calls hq]
  · exact getShortest_step (by rw [hres3]) (getShortest_self hn2 fuel)
  · have := getShortest_stable hc (hst.trans_stable he3.stable) hfl hres hfin
    exact getShortest_mono this (Nat.le_succ _)

end Drydock

namespace Drydock

/-! ### Waiting on an event set without open members -/

theorem mem_readyCases {w : World} {cases : List SelectCase} {i : Nat} :
    i ∈ readyCases w cases ↔ ∃ c, cases.get? i = some c ∧ caseReady w c = true := by
  unfold readyCases
  rw [List.mem_filter, List.mem_range]
  constructor
  · rintro ⟨-, h⟩
    cases hc : cases.get? i with
    | none => rw [hc] at h; cases h
    | some c => rw [hc] at h; exact ⟨c, rfl, h⟩
  · rintro ⟨c, hc, h⟩
    refine ⟨?_, by rw [hc]; exact h⟩
    by_contra hlt
    rw [List.get?_eq_none.2 (Nat.le_of_not_lt hlt)] at hc
    cases hc

/-- With a blocking first case and only closed members without a signal, the loop of
`choose` removes the members one by one and returns `nil`. -/
theorem chooseLoop_drain {m : Nat} (n : Nat) :
    ∀ (w : World) (c0 : SelectCase) (ms : List SelectCase),
      (w.mgr m).sources.cases = c0 :: ms → c0.dir = .selectRecv → c0.chan = none →
      (∀ c ∈ ms, ∃ e, c = ⟨.selectRecv, some e⟩ ∧ (w.ev e).closed = true ∧
        (w.ev e).signaled = false) →
      (w.mgr m).sources.events.length = ms.length + 1 → ms.length ≤ n →
      ∃ w1, chooseLoop m n w = .ok none w1 ∧ w1.core = w.core := by
  induction n with
  | zero =>
    intro w c0 ms hcs _ _ _ _ hlen
    have : ms = [] := List.length_eq_zero.1 (Nat.le_zero.1 hlen)
    subst this
    exact ⟨w, by simp [chooseLoop, hcs], rfl⟩
  | succ n ih =>
    intro w c0 ms hcs hd0 hc0 hms hev hlen
    cases ms with
    | nil => exact ⟨w, by simp [chooseLoop, hcs], rfl⟩
    | cons c1 rest =>
      -- the call of `reflect.Select`
      have hready : ∀ i ∈ readyCases w (c0 :: c1 :: rest), ∃ j c e, i = j + 1 ∧
          (c1 :: rest).get? j = some c ∧ c = ⟨.selectRecv, some e⟩ ∧
          (w.ev e).signaled = false := by
        intro i hi
        obtain ⟨c, hc, hr⟩ := mem_readyCases.1 hi
        cases i with
        | zero =>
          simp only [List.get?_cons_zero, Option.some.injEq] at hc
          subst hc
          simp [caseReady, hd0, hc0] at hr
        | succ j =>
          simp only [List.get?_cons_succ] at hc
          obtain ⟨e, he, -, hs⟩ := hms c (List.get?_mem hc)
          exact ⟨j, c, e, rfl, hc, he, hs⟩
      have hne : readyCases w (c0 :: c1 :: rest) ≠ [] := by
        intro h
        have h1 : 1 ∈ readyCases w (c0 :: c1 :: rest) := by
          obtain ⟨e, he, hcl, -⟩ := hms c1 (List.mem_cons_self _ _)
          refine mem_readyCases.2 ⟨c1, rfl, ?_⟩
          subst he
          simp [caseReady, hcl]
        rw [h] at h1
        cases h1
      have hpos : 0 < (readyCases w (c0 :: c1 :: rest)).length := List.length_pos.2 hne
      obtain ⟨i, hi⟩ : ∃ i, (readyCases w (c0 :: c1 :: rest)).get?
          (w.chooser w.nsel (readyCases w (c0 :: c1 :: rest)) %
            (readyCases w (c0 :: c1 :: rest)).length) = some i := by
        have := Nat.mod_lt (w.chooser w.nsel (readyCases w (c0 :: c1 :: rest))) hpos
        exact ⟨_, List.get?_eq_get this⟩
      obtain ⟨j, c, e, rfl, hcj, hce, hsig⟩ := hready i (List.get?_mem hi)
      have hsel : reflectSelect m w = .ok (j + 1, false) { w with nsel := w.nsel + 1 } := by
        unfold reflectSelect
        simp only [hcs, hi, List.get?_cons_succ, hcj, hce, hsig, Bool.false_eq_true, if_false]
      -- the call of `remove`
      have hjlt : j < (c1 :: rest).length := by
        by_contra hlt
        rw [List.get?_eq_none.2 (Nat.le_of_not_lt hlt)] at hcj
        cases hcj
      obtain ⟨evl, hevl⟩ : ∃ evl, (w.mgr m).sources.events.get? (rest.length + 1) = some evl :=
        ⟨_, List.get?_eq_get (by rw [hev]; simp)⟩
      obtain ⟨cl, hcl⟩ : ∃ cl, (c1 :: rest).get? rest.length = some cl :=
        ⟨_, List.get?_eq_get (by simp)⟩
      have hrem : EventSet.remove m (j + 1) { w with nsel := w.nsel + 1 } =
          .ok () { w with
            nsel := w.nsel + 1
            mgr := Function.update w.mgr m { w.mgr m with sources :=
              ⟨c0 :: ((c1 :: rest).set j cl).take rest.length,
                (((w.mgr m).sources.events.set (j + 1) evl).take (rest.length + 1))⟩ } } := by
        unfold EventSet.remove
        have h1 : (w.mgr m).sources.events.length - 1 = rest.length + 1 := by
          rw [hev]; simp
        have h2 : j + 1 < (w.mgr m).sources.events.length ∧
            j + 1 < (c0 :: c1 :: rest).length := by
          rw [hev]
          simp only [List.length_cons] at hjlt ⊢
          omega
        simp only [Nat.succ_ne_zero, if_false, h1, hevl, hcs, List.get?_cons_succ, hcl, h2,
          and_self, if_true, List.set_cons_succ, List.take_succ_cons]
      obtain ⟨w1, hw1, hcore⟩ := ih { w with
          nsel := w.nsel + 1
          mgr := Function.update w.mgr m { w.mgr m with sources :=
            ⟨c0 :: ((c1 :: rest).set j cl).take rest.length,
              (((w.mgr m).sources.events.set (j + 1) evl).take (rest.length + 1))⟩ } }
        c0 (((c1 :: rest).set j cl).take rest.length) (by simp) hd0 hc0
        (by
          intro c2 hc2
          rcases List.mem_or_eq_of_mem_set (List.mem_of_mem_take hc2) with h | h
          · exact hms c2 h
          · subst h; exact hms c2 (List.get?_mem hcl))
        (by
          simp only [Function.update_same, List.length_take, List.length_set, hev,
            List.length_cons]
          omega)
        (by
          simp only [List.length_take, List.length_set, List.length_cons] at hlen ⊢
          omega)
      refine ⟨w1, ?_, ?_⟩
      · simp only [chooseLoop, hcs, List.length_cons, hsel, hrem]
        simpa using hw1
      · rw [hcore]
        simp only [World.core, Prod.mk.injEq, true_and]
        funext k
        by_cases hk : k = m
        · subst hk; simp
        · simp [Function.update_noteq hk]

theorem Wait_drain {fuel m : Nat} {w : World} (hshape : EventSet.Shaped (w.mgr m).sources)
    (hopen : NoOpen w m) (hns : NoSignal w m)
    (hfuel : (w.mgr m).sources.cases.length ≤ fuel + 1) :
    ∃ w1, EventSet.Wait fuel m w = .ok none w1 ∧ w1.core = w.core := by
  obtain ⟨hlen, c0, ms, hcs, hc0, hms⟩ := hshape
  have hmem : ∀ c ∈ ms, ∃ e, c = ⟨.selectRecv, some e⟩ ∧ (w.ev e).closed = true ∧
      (w.ev e).signaled = false := by
    intro c hc
    obtain ⟨hd, hch⟩ := hms c hc
    obtain ⟨e, he⟩ := Option.isSome_iff_exists.1 hch
    have hin : c ∈ (w.mgr m).sources.cases := by rw [hcs]; exact List.mem_cons_of_mem _ hc
    refine ⟨e, ?_, hopen c hin e he, hns c hin e he⟩
    cases c
    simp only at hd he
    subst hd he
    rfl
  obtain ⟨w1, h1, hcore⟩ := @chooseLoop_drain m fuel
    { w with mgr := Function.update w.mgr m { w.mgr m with
      sources := ⟨{ c0 with dir := .selectRecv } :: ms, (w.mgr m).sources.events⟩ } }
    { c0 with dir := .selectRecv } ms (by simp) rfl hc0 hmem
    (by simp only [Function.update_same, hlen, hcs, List.length_cons])
    (by rw [hcs] at hfuel; simpa using hfuel)
  refine ⟨w1, ?_, ?_⟩
  · unfold EventSet.Wait EventSet.choose
    simp only [hcs, if_true]
    exact h1
  · rw [hcore]
    simp only [World.core, Prod.mk.injEq, true_and]
    funext k
    by_cases hk : k = m
    · subst hk; simp
    · simp [Function.update_noteq hk]

theorem core_cells {w w2 : World} (h : w2.core = w.core) : w2.cells = w.cells :=
  congrArg (fun q => q.2.2.2.2.2.2.2.1) h

theorem core_turns {w w2 : World} (h : w2.core = w.core) (m : Nat) :
    (w2.mgr m).turns = (w.mgr m).turns :=
  congrFun (congrArg (fun q => q.2.2.2.2.2.2.2.2.2.2.2.2) h) m

/-- C9 (live-lock abort), with the condition that no member of the event set holds a signal
that has not been received.  At the `if` statement in the loop of `RunUntil`, when the
queue of the manager is empty, `mainExited` is still `nil` (the root has not been seen
resolved), and every member of the event set is closed and holds no signal (or there is
no member), the statement aborts with the live-lock precondition failure, whatever
`reflect.Select` chooses; so does the iteration of the loop that reaches this state: it
neither returns nor goes on to another iteration. -/
theorem live_lock_abort (fuel m cell : Nat) (w : World)
    (hshape : EventSet.Shaped (w.mgr m).sources) (hopen : NoOpen w m) (hns : NoSignal w m)
    (hidle : IsEmpty (w.mgr m).turns = true) (hcell : w.cells cell = none)
    (hfuel : (w.mgr m).sources.cases.length ≤ fuel + 1) :
    (∃ w2, waitForSources fuel m cell w = .fault (.precondition liveLockMsg) w2) ∧
      ∀ n w0, w0.cells cell = none → Manager.runOneLoop fuel m w0 = .ok () w →
        ∃ w2, runUntilLoop fuel m cell (n + 1) w0 = .fault (.precondition liveLockMsg) w2 := by
  obtain ⟨w1, h1, hcore⟩ := Wait_drain hshape hopen hns hfuel
  have hw : waitForSources fuel m cell w = .fault (.precondition liveLockMsg) w1 := by
    unfold waitForSources
    simp only [hidle, hcell, Option.isNone_none, Bool.and_self, if_true, h1,
      core_turns hcore, core_cells hcore, Bool.not_true, Bool.false_eq_true, if_false,
      Option.isSome_none]
  refine ⟨⟨w1, hw⟩, fun n w0 h0 hrun => ⟨w1, ?_⟩⟩
  simp only [runUntilLoop, h0, Option.isNone_none, if_true, hrun, hw]

theorem live_lock_abort_witness :
    (∃ w2, waitForSources 1 0 0 World.closedOnly = .fault (.precondition liveLockMsg) w2) ∧
      ∀ n w0, w0.cells 0 = none → Manager.runOneLoop 1 0 w0 = .ok () World.closedOnly →
        ∃ w2, runUntilLoop 1 0 0 (n + 1) w0 = .fault (.precondition liveLockMsg) w2 :=
  live_lock_abort 1 0 0 World.closedOnly
    ⟨rfl, ⟨.selectDefault, none⟩, [⟨.selectRecv, some 0⟩], rfl, rfl, by simp⟩
    (fun _ _ _ _ => rfl) (fun _ _ _ _ => rfl) rfl rfl (by decide)

/-- C9 as stated fails: in the world `World.closedSignaled` the queue is empty, `mainExited`
is `nil` and the only member of the event set is closed, but its channel still holds a
signal; `Wait` returns that event, the three assertions pass, and `e.Signal()` sends on the
closed channel.  The abort is not the live-lock precondition failure. -/
theorem live_lock_closed_signaled :
    EventSet.Shaped (World.closedSignaled.mgr 0).sources ∧ NoOpen World.closedSignaled 0 ∧
      IsEmpty (World.closedSignaled.mgr 0).turns = true ∧ World.closedSignaled.cells 0 = none ∧
      ∀ fuel, (∃ w2, waitForSources (fuel + 1) 0 0 World.closedSignaled =
          .fault .sendOnClosed w2) ∧
        ∀ w2, waitForSources (fuel + 1) 0 0 World.closedSignaled ≠
          .fault (.precondition liveLockMsg) w2 := by
  refine ⟨⟨rfl, ⟨.selectDefault, none⟩, [⟨.selectRecv, some 0⟩], rfl, rfl, by simp⟩,
    fun _ _ _ _ => rfl, rfl, rfl, fun fuel => ?_⟩
  have h : ∃ w2, waitForSources (fuel + 1) 0 0 World.closedSignaled =
      .fault .sendOnClosed w2 := ⟨_, rfl⟩
  refine ⟨h, fun w2 h2 => ?_⟩
  obtain ⟨w3, h3⟩ := h
  rw [h3] at h2
  cases h2

end Drydock

namespace Drydock

/-! ### Steps of client code -/

theorem Client.refl_client (w : World) : Client w w :=
  ⟨fun h => h, le_refl _, rfl, rfl, le_refl _, fun _ ht => Or.inl ⟨ht, rfl⟩⟩

theorem Client.trans_client {w w2 w3 : World} (h1 : Client w w2) (h2 : Client w2 w3) :
    Client w w3 := by
  refine ⟨fun h => h2.closed (h1.closed h), le_trans h1.ralloc h2.ralloc,
    h2.cells.trans h1.cells, h2.calloc.trans h1.calloc, le_trans h1.talloc h2.talloc,
    fun t ht => ?_⟩
  rcases h2.tf t ht with ⟨ht2, e2⟩ | hn
  · rcases h1.tf t ht2 with ⟨ht1, e1⟩ | hn
    · exact Or.inl ⟨ht1, e2.trans e1⟩
    · exact Or.inr (by rw [e2]; exact hn)
  · exact Or.inr hn

/-- A step that allocates no turn. -/
theorem Client.of_same {w w2 : World} (hc : Closed w → Closed w2) (hr : w.ralloc ≤ w2.ralloc)
    (hq : w2.quiet = w.quiet) (hta : w2.talloc = w.talloc) (htf : w2.tf = w.tf) :
    Client w w2 :=
  ⟨hc, hr, quiet_cells hq, quiet_calloc hq, le_of_eq hta.symm,
    fun t ht => Or.inl ⟨by rw [← hta]; exact ht, by rw [htf]⟩⟩

theorem Client.from_queueOnly {w w2 : World} (h : QueueOnly w w2) : Client w w2 :=
  Client.of_same (Closed.of_queueOnly h) (le_of_eq (allocs_ralloc h.allocs).symm) h.quiet
    (allocs_talloc h.allocs) (allocs_tf h.allocs)

theorem resolve_client {w w2 : World} {fuel s : Nat} {o : Iface}
    (h : resolve fuel s o w = .ok () w2) : Client w w2 := by
  have hc := fun hcl : Closed w => resolve_closed hcl h
  unfold resolve at h
  split at h
  · cases h
  · have hq := queueList_queueOnly fuel h
    exact Client.of_same hc (le_of_eq (allocs_ralloc hq.allocs).symm) hq.quiet
      (allocs_talloc hq.allocs) (allocs_tf hq.allocs)

theorem Forward_client {w w2 : World} {fuel s : Nat} {n : Option Nat} (hs : s < w.ralloc)
    (hn : ∀ a, n = some a → a < w.ralloc) (h : Forward fuel s n w = .ok () w2) :
    Client w w2 := by
  have hc := fun hcl : Closed w => Forward_closed hcl hs hn h
  unfold Forward at h
  split at h
  · cases h
  · split at h
    · cases h
    · split at h
      · cases h
      · split at h
        · cases h
        · next next w1 hg =>
          have hw1 : w = w1 := (getShortest_world hg).symm
          subst hw1
          have hq := queueList_queueOnly fuel h
          exact Client.of_same hc (le_of_eq (allocs_ralloc hq.allocs).symm) hq.quiet
            (allocs_talloc hq.allocs) (allocs_tf hq.allocs)

theorem Complete_client {w w2 : World} {fuel s : Nat} {v : Iface}
    (h : Complete fuel s v w = .ok () w2) : Client w w2 := by
  obtain ⟨_, w1, h1, h2⟩ := bind_ok h
  obtain ⟨-, rfl⟩ := assertTrue_ok h1
  exact resolve_client h2

theorem Fail_client {w w2 : World} {fuel s : Nat} {e : Option Err}
    (h : Fail fuel s e w = .ok () w2) : Client w w2 := by
  obtain ⟨_, w1, h1, h2⟩ := bind_ok h
  obtain ⟨-, rfl⟩ := assertTrue_ok h1
  exact resolve_client h2

theorem Resolve_client {w w2 : World} {fuel s : Nat} {v : Iface} {e : Option Err}
    (h : Resolve fuel s v e w = .ok () w2) : Client w w2 := by
  obtain ⟨_, w1, h1, h2⟩ := bind_ok h
  obtain ⟨-, rfl⟩ := assertTrue_ok h1
  split at h2
  · obtain ⟨_, w3, h3, h4⟩ := bind_ok h2
    obtain ⟨-, rfl⟩ := assertTrue_ok h3
    exact resolve_client h4
  · exact resolve_client h2

theorem newTurnResolver_client {w w2 : World} {m s : Nat}
    (h : newTurnResolver m w = .ok s w2) : Client w w2 := by
  simp only [newTurnResolver] at h
  cases h
  refine Client.of_same (fun hcl => ?_) (Nat.le_succ _) rfl rfl rfl
  refine hcl.of_step (Nat.le_succ _) (le_refl _) (fun a n hn => Or.inl ?_)
    (fun t ht => Or.inl ⟨ht, rfl⟩)
  have hne : a ≠ w.ralloc := by
    intro e
    subst e
    simp at hn
  simp only [Function.update_noteq hne] at hn ⊢
  exact ⟨hn, fun h => h⟩

theorem NewTurn_client {w w2 : World} {name : String} {th : Thunk} {t : Nat}
    (hth : ∀ c, ¬ th.records c) (hcl : ThunkClosed w th)
    (h : NewTurn name th w = .ok t w2) : Client w w2 := by
  simp only [NewTurn] at h
  cases h
  refine ⟨fun hc => ?_, le_refl _, rfl, rfl, Nat.le_succ _, fun k hk => ?_⟩
  · refine hc.of_step (le_refl _) (le_refl _) (fun a n hn => Or.inl ⟨hn, fun h => h⟩)
      (fun k hk => ?_)
    by_cases hk2 : k = w.talloc
    · subst hk2
      right
      simp only [Function.update_same]
      exact hcl
    · left
      have hk3 : k < w.talloc + 1 := hk
      exact ⟨by omega, by simp [Function.update_noteq hk2]⟩
  · by_cases hk2 : k = w.talloc
    · subst hk2
      right
      simp only [Function.update_same]
      exact hth
    · left
      have hk3 : k < w.talloc + 1 := hk
      exact ⟨by omega, by simp [Function.update_noteq hk2]⟩

theorem Manager.Queue_client {w w2 : World} {m : Nat} {t : Option Nat}
    (h : Manager.Queue m t w = .ok () w2) : Client w w2 :=
  Client.from_queueOnly (Manager.Queue_queueOnly h)

theorem Manager.NewTurn_step {w w2 : World} {m : Nat} {name : String} {th : Thunk}
    (hth : ∀ c, ¬ th.records c) (hcl : ThunkClosed w th)
    (h : Manager.NewTurn m name th w = .ok () w2) : Client w w2 := by
  obtain ⟨t, w1, h1, h2⟩ := bind_ok h
  exact (Drydock.NewTurn_client hth hcl h1).trans_client (Manager.Queue_client h2)

theorem WhenT_client {w w2 : World} {fuel s o : Nat} {inTy out outR : Ty} {f : Fn}
    (hs : s < w.ralloc) (hf : FnClosed w f) (hnr : ∀ c, f ≠ .runUntilRecord c)
    (h : WhenT fuel s inTy out outR f w = .ok o w2) : Client w w2 := by
  obtain ⟨tv, te, rr, s1, -, -, -, htf, hst, hta, hra, hq, htfs, hcl⟩ := WhenT_inv h
  refine ⟨fun hc => hcl hc hs hf, hst.ralloc, quiet_cells hq, quiet_calloc hq,
    by omega, fun k hk => ?_⟩
  by_cases hk2 : k = w.talloc
  · subst hk2
    right
    rw [htf]
    intro c
    cases f with
    | user _ _ _ => exact fun h => h
    | runUntilRecord c2 => exact absurd rfl (hnr c2)
    | finallyFn _ _ _ _ => exact fun h => h
    | actorResolve _ => exact fun h => h
  · left
    have hk3 : k < w.talloc := by omega
    exact ⟨hk3, htfs k hk3⟩

/-- A change of ghost fields only. -/
theorem Client.of_heap {w w2 : World} (h1 : w2.res = w.res) (h2 : w2.ralloc = w.ralloc)
    (h3 : w2.tf = w.tf) (h4 : w2.talloc = w.talloc) (h5 : w2.cells = w.cells)
    (h6 : w2.calloc = w.calloc) : Client w w2 := by
  refine ⟨fun hc => ?_, le_of_eq h2.symm, h5, h6, le_of_eq h4.symm,
    fun t ht => Or.inl ⟨by rw [← h4]; exact ht, by rw [h3]⟩⟩
  refine hc.of_step (le_of_eq h2.symm) (le_of_eq h6.symm)
    (fun a n hn => Or.inl ?_) (fun t ht => Or.inl ⟨by rw [← h4]; exact ht, by rw [h3]⟩)
  rw [h1] at hn ⊢
  exact ⟨hn, fun h => h⟩

theorem resultAlloc_mono {w w2 : World} (h : w.ralloc ≤ w2.ralloc) {v : Iface}
    (hv : resultAlloc w v = true) : resultAlloc w2 v = true := by
  cases v with
  | result ty s =>
    cases s with
    | none => rfl
    | some n =>
      simp only [resultAlloc, decide_eq_true_eq] at hv ⊢
      omega
  | _ => rfl

theorem turnRunner.New_client {w w2 : World} {t : Runner} {fid : Nat} {f : Prog} {s : Nat}
    (h : turnRunner.New t fid f w = .ok s w2) : Client w w2 := by
  obtain ⟨w1, id, wi, h1, h2, h3⟩ := turnRunner.New_parts h
  have hc1 := newTurnResolver_client h1
  have hs : s = w.ralloc ∧ w1.ralloc = w.ralloc + 1 := by
    simp only [newTurnResolver] at h1
    cases h1
    exact ⟨rfl, rfl⟩
  have hc2 : Client w1 wi := by
    simp only [Manager.NewID, UniqueIDGenerator.NewID] at h2
    cases h2
    exact Client.of_heap rfl rfl rfl rfl rfl rfl
  have hr : wi.ralloc = w1.ralloc := by
    simp only [Manager.NewID, UniqueIDGenerator.NewID] at h2
    cases h2
    rfl
  have hth : ∀ c, ¬ (Thunk.runnerNew s fid f).records c := fun _ h => h
  have htc : ThunkClosed wi (.runnerNew s fid f) := by
    show s < wi.ralloc
    rw [hr, hs.2, hs.1]
    exact Nat.lt_succ_self _
  exact (hc1.trans_client hc2).trans_client (Manager.NewTurn_step hth htc h3)

theorem exec_client {fuel : Nat} (p : Prog) :
    ∀ {w w2 : World} {vals : List Iface}, exec fuel p w = .ok vals w2 →
      Client w w2 ∧ vals.all (resultAlloc w2) = true := by
  induction p with
  | ret vals =>
    intro w w2 v h
    simp only [exec] at h
    obtain ⟨_, w0, h0, h1⟩ := bind_ok h
    obtain ⟨hg, rfl⟩ := guardAlloc_ok h0
    cases h1
    exact ⟨Client.refl_client _, hg⟩
  | newResult m k ih =>
    intro w w2 v h
    simp only [exec] at h
    split at h
    · cases h
    · next s w1 hs =>
      obtain ⟨_, w0, h0, h1⟩ := bind_ok hs
      obtain ⟨-, rfl⟩ := guardAlloc_ok h0
      obtain ⟨hc, hv⟩ := ih s h
      exact ⟨(newTurnResolver_client h1).trans_client hc, hv⟩
  | complete s v k ih =>
    intro w w2 vals h
    simp only [exec] at h
    obtain ⟨_, w0, h0, h⟩ := bind_ok h
    obtain ⟨-, rfl⟩ := guardAlloc_ok h0
    obtain ⟨_, w1, h1, h⟩ := bind_ok h
    obtain ⟨hc, hv⟩ := ih h
    exact ⟨(Complete_client h1).trans_client hc, hv⟩
  | fail s e k ih =>
    intro w w2 vals h
    simp only [exec] at h
    obtain ⟨_, w0, h0, h⟩ := bind_ok h
    obtain ⟨-, rfl⟩ := guardAlloc_ok h0
    obtain ⟨_, w1, h1, h⟩ := bind_ok h
    obtain ⟨hc, hv⟩ := ih h
    exact ⟨(Fail_client h1).trans_client hc, hv⟩
  | resolve s v e k ih =>
    intro w w2 vals h
    simp only [exec] at h
    obtain ⟨_, w0, h0, h⟩ := bind_ok h
    obtain ⟨-, rfl⟩ := guardAlloc_ok h0
    obtain ⟨_, w1, h1, h⟩ := bind_ok h
    obtain ⟨hc, hv⟩ := ih h
    exact ⟨(Resolve_client h1).trans_client hc, hv⟩
  | forward s n k ih =>
    intro w w2 vals h
    simp only [exec] at h
    obtain ⟨_, w0, h0, h⟩ := bind_ok h
    obtain ⟨hg, rfl⟩ := guardAlloc_ok h0
    obtain ⟨_, w1, h1, h⟩ := bind_ok h
    obtain ⟨hc, hv⟩ := ih h
    have hg2 : s < w.ralloc ∧ ∀ a, n = some a → a < w.ralloc := by
      cases n with
      | none => simpa using hg
      | some a => simpa using hg
    exact ⟨(Forward_client hg2.1 hg2.2 h1).trans_client hc, hv⟩
  | «when» r inTy out outR fid sig f k _ ih =>
    intro w w2 vals h
    simp only [exec] at h
    split at h
    · cases h
    · next o w1 hs =>
      obtain ⟨_, w0, h0, h1⟩ := bind_ok hs
      obtain ⟨hg, rfl⟩ := guardAlloc_ok h0
      obtain ⟨hc, hv⟩ := ih o h
      have hr : r < w.ralloc := by simpa using hg
      have hfc : FnClosed w (.user fid sig f) := trivial
      exact ⟨(WhenT_client hr hfc (fun c hc => by cases hc) h1).trans_client hc, hv⟩
  | newTurn m name body k _ ih =>
    intro w w2 vals h
    simp only [exec] at h
    obtain ⟨_, w0, h0, h⟩ := bind_ok h
    obtain ⟨-, rfl⟩ := guardAlloc_ok h0
    obtain ⟨_, w1, h1, h⟩ := bind_ok h
    obtain ⟨hc, hv⟩ := ih h
    have hth : ∀ c, ¬ (Thunk.user body).records c := fun _ h => h
    have htc : ThunkClosed w (.user body) := trivial
    exact ⟨(Manager.NewTurn_step hth htc h1).trans_client hc, hv⟩
  | allocTurn name body k _ ih =>
    intro w w2 vals h
    simp only [exec] at h
    obtain ⟨hc, hv⟩ := ih _ h
    have hth : ∀ c, ¬ (Thunk.user body).records c := fun _ h => h
    have htc : ThunkClosed w (.user body) := trivial
    exact ⟨(NewTurn_client hth htc
      (rfl : NewTurn name (.user body) w = .ok w.talloc _)).trans_client hc, hv⟩
  | queue m t k ih =>
    intro w w2 vals h
    simp only [exec] at h
    obtain ⟨_, w0, h0, h⟩ := bind_ok h
    obtain ⟨-, rfl⟩ := guardAlloc_ok h0
    obtain ⟨_, w1, h1, h⟩ := bind_ok h
    obtain ⟨hc, hv⟩ := ih h
    exact ⟨(Manager.Queue_client h1).trans_client hc, hv⟩
  | spawn runner fid f k _ ih =>
    intro w w2 vals h
    simp only [exec] at h
    split at h
    · cases h
    · next s w1 hs =>
      obtain ⟨_, w0, h0, h1⟩ := bind_ok hs
      obtain ⟨-, rfl⟩ := guardAlloc_ok h0
      obtain ⟨hc, hv⟩ := ih s h
      exact ⟨(turnRunner.New_client h1).trans_client hc, hv⟩

theorem callFn_client {w w2 : World} {fuel : Nat} {f : Fn} {args rv : List Iface}
    (hf : FnClosed w f) (hnr : ∀ c, f ≠ .runUntilRecord c)
    (h : callFn fuel f args w = .ok rv w2) :
    Client w w2 ∧ rv.all (resultAlloc w2) = true := by
  cases f with
  | user fid sig body =>
    replace h := (callFn_user_ok h).2
    obtain ⟨_, w1, h1, h2⟩ := bind_ok h
    simp only [logCall] at h1
    cases h1
    obtain ⟨hc, hv⟩ := exec_client _ h2
    have hg : Client w { w with calls := w.calls ++ [(fid, args)] } :=
      Client.of_heap rfl rfl rfl rfl rfl rfl
    exact ⟨hg.trans_client hc, hv⟩
  | runUntilRecord cell => exact absurd rfl (hnr cell)
  | finallyFn outR fid f r =>
    simp only [callFn] at h
    obtain ⟨_, w1, h1, h2⟩ := bind_ok h
    simp only [logCall] at h1
    cases h1
    obtain ⟨_, w3, h3, h4⟩ := bind_ok h2
    cases h4
    obtain ⟨hc, -⟩ := exec_client _ h3
    have hg : Client w { w with calls := w.calls ++ [(fid, [])] } :=
      Client.of_heap rfl rfl rfl rfl rfl rfl
    have hc := hg.trans_client hc
    refine ⟨hc, ?_⟩
    cases r with
    | none => rfl
    | some a =>
      have ha : a < w.ralloc := hf a rfl
      have := hc.ralloc
      have hr2 : w.ralloc ≤ w2.ralloc := this
      simp only [List.all_cons, resultAlloc, List.all_nil, Bool.and_true, decide_eq_true_eq]
      omega
  | actorResolve s =>
    simp only [callFn] at h
    split at h
    · next a =>
      cases hr : Resolve fuel s .nil a.asError w with
      | fault f w1 => rw [hr] at h; cases h
      | ok u w1 =>
        rw [hr] at h
        cases h
        exact ⟨Resolve_client hr, rfl⟩
    · cases h

theorem runWhen_client {w w2 : World} {fuel s outer : Nat} {inTy : Ty} {tv te rr : Bool}
    {f : Fn} (ho : outer < w.ralloc) (hf : FnClosed w f) (hnr : ∀ c, f ≠ .runUntilRecord c)
    (h : runWhen fuel s outer inTy tv te rr f w = .ok () w2) : Client w w2 := by
  unfold runWhen at h
  cases hg : getShortest fuel s w with
  | fault e w1 => rw [hg] at h; cases h
  | ok final w1 =>
    have hw1 : w = w1 := (getShortest_world hg).symm
    subst hw1
    rw [hg] at h
    simp only at h
    split at h
    · cases h
    · split at h
      · exact Fail_client h
      · split at h
        · cases h
        · next rv wc hc =>
          obtain ⟨hc1, hv⟩ := callFn_client hf hnr hc
          split at h
          · split at h
            · cases h
            · next ty n rest =>
              refine hc1.trans_client (Forward_client (lt_of_lt_of_le ho hc1.ralloc) ?_ h)
              intro a ha
              subst ha
              simp only [List.all_cons, resultAlloc, Bool.and_eq_true, decide_eq_true_eq] at hv
              exact hv.1
            · cases h
          · split at h
            · split at h
              · exact hc1.trans_client (resolve_client h)
              · exact hc1.trans_client (resolve_client h)
            · exact hc1.trans_client (resolve_client h)
            · exact hc1.trans_client (resolve_client h)

end Drydock

namespace Drydock

/-! ### The invariant of `RunUntil` -/

theorem asError_ofError (e : Option Err) : (ofError e).asError = e := by
  cases e <;> rfl

theorem exitOf_eq (e : Option Err) :
    (match (ofError e).asError with
      | some e1 => ExitErr.err e1
      | none => ExitErr.errSuccess) = exitOf e := by
  cases e <;> rfl

theorem validate_record {inTy out outR : Ty} {tv te rr : Bool} {c : Nat}
    (h : whenValidate inTy out outR (Fn.sig (.runUntilRecord c)) = .ok (tv, te, rr)) :
    tv = false ∧ te = true ∧ rr = false := by
  simp only [whenValidate, Fn.sig, validateIns, validateOuts, if_true] at h
  cases out <;> simp [Ty.ImplementsAwaitableT] at h
  all_goals simp [h]

/-- The invariant of `RunUntil` survives a step that keeps resolved resolvers and the
variable `mainExited`, and allocates no turn of `RunUntil`. -/
theorem RunInv.of_client {cell main : Nat} {w w2 : World} (hi : RunInv cell main w)
    (hc : Closed w) (hs : Stable w w2) (hcl : Client w w2) : RunInv cell main w2 := by
  refine ⟨fun v hv => ?_, fun t main2 ht htf => ?_,
    fun t src outer inTy tv te rr ht htf => ?_, lt_of_lt_of_le hi.main hs.ralloc⟩
  · rw [hcl.cells] at hv
    obtain ⟨final, h1, h2, h3, h4, h5⟩ := hi.exited v hv
    have he := hs.res final h2 h3
    exact ⟨final, h1.keep hc hs, lt_of_lt_of_le h2 hs.ralloc, by rw [he]; exact h3,
      by rw [he]; exact h4, by rw [he]; exact h5⟩
  · rcases hcl.tf t ht with ⟨ht1, e1⟩ | hn
    · exact hi.starts t main2 ht1 (by rw [← e1]; exact htf)
    · exact absurd (by rw [htf]; rfl) (hn cell)
  · rcases hcl.tf t ht with ⟨ht1, e1⟩ | hn
    · exact (hi.records t src outer inTy tv te rr ht1 (by rw [← e1]; exact htf)).keep hc hs
    · exact absurd (by rw [htf]; rfl) (hn cell)

theorem runClient_client {w w2 : World} {fuel fid : Nat} {f : Prog} {rv : List Iface}
    (h : (logCall fid [] >>= fun _ => exec fuel f) w = .ok rv w2) :
    Client w w2 ∧ rv.all (resultAlloc w2) = true := by
  obtain ⟨_, w1, h1, h2⟩ := bind_ok h
  simp only [logCall] at h1
  cases h1
  obtain ⟨hc, hv⟩ := exec_client _ h2
  have hg : Client w { w with calls := w.calls ++ [(fid, [])] } :=
    Client.of_heap rfl rfl rfl rfl rfl rfl
  exact ⟨hg.trans_client hc, hv⟩

theorem runThunk_inv {cell main fuel : Nat} {w w2 : World} {el : Slot → List Nat}
    {th : Thunk} (hw : TWF w el) (hc : Closed w) (hi : RunInv cell main w)
    (hth : ThunkClosed w th) (hst : ∀ main2, th = .runUntil main2 cell → main2 = main)
    (hrec : ∀ src outer inTy tv te rr,
      th = .whenTurn src outer inTy tv te rr (.runUntilRecord cell) → Chain w main src)
    (h : runThunk fuel th w = .ok () w2) : Closed w2 ∧ RunInv cell main w2 := by
  obtain ⟨el2, heff, -, -⟩ := runThunk_ok hw h
  have hs := heff.stable
  cases th with
  | user body =>
    simp only [runThunk] at h
    obtain ⟨_, w1, h1, h2⟩ := bind_ok h
    cases h2
    obtain ⟨hcl, -⟩ := exec_client _ h1
    exact ⟨hcl.closed hc, hi.of_client hc hs hcl⟩
  | whenTurn s outer inTy tv te rr f =>
    obtain ⟨hs1, ho, hf, out, outR, hv⟩ := hth
    by_cases hnr : ∀ c, f ≠ .runUntilRecord c
    · have hcl := runWhen_client ho hf hnr h
      exact ⟨hcl.closed hc, hi.of_client hc hs hcl⟩
    · push_neg at hnr
      obtain ⟨c, rfl⟩ := hnr
      obtain ⟨rfl, rfl, rfl⟩ := validate_record hv
      simp only [runThunk] at h
      unfold runWhen at h
      cases hg : getShortest fuel s w with
      | fault e w1 => rw [hg] at h; cases h
      | ok final w1 =>
        have hw1 : w = w1 := (getShortest_world hg).symm
        subst hw1
        rw [hg] at h
        simp only at h
        split at h
        · cases h
        · next hres =>
          simp only [Bool.not_true, Bool.false_and, Bool.false_eq_true, if_false, if_true,
            List.nil_append, callFn, asError_ofError] at h
          obtain ⟨X, hX⟩ : ∃ X, X = exitOf (w.res final).outcome.asError := ⟨_, rfl⟩
          have h : resolve fuel outer (ofError (w.res final).outcome.asError)
              { w with cells := Function.update w.cells c (some X) } = .ok () w2 := by
            rw [hX]; exact h
          have hturns : (w.res final).turns = none := by
            simpa [isResolved] using hres
          have hfl : final < w.ralloc := getShortest_lt hc hs1 hg
          have hgh : Effect w { w with cells := Function.update w.cells c (some X) } el el :=
            Effect.of_ghost hw rfl rfl rfl rfl rfl rfl rfl rfl
          have hcc : Closed { w with cells := Function.update w.cells c (some X) } :=
            hc.of_step (le_refl _) (le_refl _) (fun a n hn => Or.inl ⟨hn, fun h => h⟩)
              (fun t ht => Or.inl ⟨ht, rfl⟩)
          have hic : RunInv cell main { w with cells := Function.update w.cells c (some X) } := by
            refine ⟨fun v hv => ?_, hi.starts, fun t src outer inTy tv te rr ht htf =>
              @Chain.congr_next w _ _ _ (fun _ _ h => h) (hi.records t src outer inTy tv te rr ht htf),
              hi.main⟩
            by_cases hce : cell = c
            · subst hce
              simp only [Function.update_same, Option.some.injEq] at hv
              have hch : Chain w main final :=
                (hrec s outer inTy false true false rfl).trans_chain (getShortest_chain hg)
              refine ⟨final, @Chain.congr_next w _ _ _ (fun _ _ h => h) hch, hfl, hturns,
                (getShortest_next hg : (w.res final).next = none), ?_⟩
              rw [← hv, hX]
            · simp only [Function.update_noteq hce] at hv
              obtain ⟨f2, h1, h2, h3, h4, h5⟩ := hi.exited v hv
              exact ⟨f2, @Chain.congr_next w _ _ _ (fun _ _ h => h) h1, h2, h3, h4, h5⟩
          obtain ⟨el3, he3, -, -⟩ := resolve_ok hgh.twf h
          have hcl := resolve_client h
          exact ⟨hcl.closed hcc, hic.of_client hcc he3.stable hcl⟩
  | runUntil main2 c =>
    simp only [runThunk] at h
    obtain ⟨o, w1, h1, h2⟩ := bind_ok h
    cases h2
    obtain ⟨hm2, hcal⟩ := hth
    obtain ⟨tv, te, rr, s1, -, hsrc, -, htf, hst2, hta, -, hq, htfs, hcl⟩ := WhenT_inv h1
    have hfc : FnClosed w (.runUntilRecord c) := hcal
    refine ⟨hcl hc hm2 hfc, fun v hv => ?_, fun t m3 ht htf3 => ?_,
      fun t src outer inTy tv2 te2 rr2 ht htf3 => ?_, lt_of_lt_of_le hi.main hs.ralloc⟩
    · rw [quiet_cells hq] at hv
      obtain ⟨final, h1, h2, h3, h4, h5⟩ := hi.exited v hv
      have he := hs.res final h2 h3
      exact ⟨final, h1.keep hc hs, lt_of_lt_of_le h2 hs.ralloc, by rw [he]; exact h3,
        by rw [he]; exact h4, by rw [he]; exact h5⟩
    · by_cases ht2 : t = w.talloc
      · subst ht2
        rw [htf] at htf3
        cases htf3
      · have ht3 : t < w.talloc := by omega
        exact hi.starts t m3 ht3 (by rw [← htfs t ht3]; exact htf3)
    · by_cases ht2 : t = w.talloc
      · subst ht2
        rw [htf] at htf3
        cases htf3
        have hmm := hst main2 rfl
        subst hmm
        have hch : Chain w main2 s1 := by
          split at hsrc
          · exact getShortest_chain hsrc
          · cases hsrc; exact Chain.refl _
        exact hch.keep hc hs
      · have ht3 : t < w.talloc := by omega
        exact (hi.records t src outer inTy tv2 te2 rr2 ht3
          (by rw [← htfs t ht3]; exact htf3)).keep hc hs
  | runnerNew s fid f =>
    simp only [runThunk] at h
    cases hx : (logCall fid [] >>= fun _ => exec fuel f) w with
    | fault e w1 => rw [hx] at h; cases h
    | ok rv w1 =>
      rw [hx] at h
      obtain ⟨hc1, hv⟩ := runClient_client hx
      simp only at h
      split at h
      · next ty n rest =>
        have hth2 : s < w.ralloc := hth
        have hcl := hc1.trans_client (Forward_client (lt_of_lt_of_le hth2 hc1.ralloc)
          (fun a ha => by
            subst ha
            simp only [List.all_cons, resultAlloc, Bool.and_eq_true, decide_eq_true_eq] at hv
            exact hv.1) h)
        exact ⟨hcl.closed hc, hi.of_client hc hs hcl⟩
      · cases h
  | actorMain s fid root =>
    simp only [runThunk] at h
    cases hx : (logCall fid [] >>= fun _ => exec fuel root) w with
    | fault e w1 => rw [hx] at h; cases h
    | ok rv w1 =>
      rw [hx] at h
      obtain ⟨hc1, hv⟩ := runClient_client hx
      simp only at h
      split at h
      · next ty x rest =>
        cases hy : WhenT fuel x .iface .iface .R (.actorResolve s) w1 with
        | fault e w3 => rw [hy] at h; cases h
        | ok o w3 =>
          rw [hy] at h
          cases h
          have hth2 : s < w.ralloc := hth
          have hxr : x < w1.ralloc := by
            simp only [List.all_cons, resultAlloc, Bool.and_eq_true, decide_eq_true_eq] at hv
            exact hv.1
          have hfc : FnClosed w1 (.actorResolve s) := lt_of_lt_of_le hth2 hc1.ralloc
          have hcl := hc1.trans_client (WhenT_client hxr hfc (fun c hcc => by cases hcc) hy)
          exact ⟨hcl.closed hc, hi.of_client hc hs hcl⟩
      · cases h
      · cases h
  | ioResult s c =>
    simp only [runThunk] at h
    have hcl := Resolve_client h
    exact ⟨hcl.closed hc, hi.of_client hc hs hcl⟩

theorem Run_inv {cell main fuel t : Nat} {w w2 : World} {el : Slot → List Nat}
    (hw : TWF w el) (hc : Closed w) (hi : RunInv cell main w) (ht : t < w.talloc)
    (h : Run fuel (some t) w = .ok () w2) : Closed w2 ∧ RunInv cell main w2 := by
  unfold Run at h
  split at h
  · cases h
  · simp only at h
    split at h
    · cases h
    · have hg : Effect w { w with ran := w.ran ++ [t] } el el :=
        Effect.of_ghost hw rfl rfl rfl rfl rfl rfl rfl rfl
      have hcl : Client w { w with ran := w.ran ++ [t] } :=
        Client.of_heap rfl rfl rfl rfl rfl rfl
      exact runThunk_inv hg.twf (hcl.closed hc) (hi.of_client hc hg.stable hcl)
        (hc.thunks t ht) (fun m2 e => hi.starts t m2 ht e)
        (fun src outer inTy tv te rr e =>
          @Chain.congr_next w _ _ _ (fun _ _ h => h) (hi.records t src outer inTy tv te rr ht e)) h

end Drydock

namespace Drydock

/-! ### The loop of the manager, with signaled sources -/

theorem reflectSelect_core {m : Nat} {w w1 : World} {r : Nat × Bool}
    (h : reflectSelect m w = .ok r w1) : w1.core = w.core ∧ w1.mgr = w.mgr := by
  unfold reflectSelect at h
  simp only at h
  split at h
  · split at h
    · split at h <;> cases h <;> exact ⟨rfl, rfl⟩
    · cases h
  · split at h
    · cases h; exact ⟨rfl, rfl⟩
    · cases h

theorem core_setSources {w : World} {m : Nat} {es : EventSet} :
    World.core { w with mgr := Function.update w.mgr m { w.mgr m with sources := es } } =
      w.core := by
  simp only [World.core, Prod.mk.injEq, true_and]
  funext k
  by_cases hk : k = m
  · subst hk; simp
  · simp [Function.update_noteq hk]

theorem EventSet.remove_core {m i : Nat} {w w1 : World}
    (h : EventSet.remove m i w = .ok () w1) : w1.core = w.core := by
  unfold EventSet.remove at h
  split at h
  · cases h
  · simp only at h
    split at h
    · split at h
      · cases h; exact core_setSources
      · cases h
    · cases h

theorem chooseLoop_core {m : Nat} (n : Nat) :
    ∀ {w w1 : World} {e : Option Nat}, chooseLoop m n w = .ok e w1 → w1.core = w.core := by
  induction n with
  | zero =>
    intro w w1 e h
    simp only [chooseLoop] at h
    split at h <;> cases h
    rfl
  | succ n ih =>
    intro w w1 e h
    simp only [chooseLoop] at h
    split at h
    · split at h
      · cases h
      · next chosen recvOK wa ha =>
        have hca := (reflectSelect_core ha).1
        split at h
        · cases h; exact hca
        · split at h
          · split at h
            · cases h; exact hca
            · cases h
          · split at h
            · cases h
            · next u wb hb => rw [ih h, EventSet.remove_core hb, hca]
    · cases h; rfl

theorem choose_core {m fuel : Nat} {b : Bool} {w w1 : World} {e : Option Nat}
    (h : EventSet.choose fuel m b w = .ok e w1) : w1.core = w.core := by
  unfold EventSet.choose at h
  simp only at h
  split at h
  · cases h
  · rw [chooseLoop_core fuel h]; exact core_setSources

theorem waitForSources_core {fuel m cell : Nat} {w w2 : World}
    (h : waitForSources fuel m cell w = .ok () w2) : w2.core = w.core := by
  unfold waitForSources at h
  split at h
  · split at h
    · cases h
    · next e w1 hwait =>
      have hc := choose_core hwait
      split at h
      · cases h
      · split at h
        · cases h
        · split at h
          · cases h
          · unfold Event.Signal at h
            split at h
            · cases h
            · split at h
              · cases h
              · cases h; rw [← hc]; rfl
  · cases h; rfl

theorem handle_setSource (w : World) (k : Nat) (l : Option Nat) :
    handle { w with src := Function.update w.src k { w.src k with list := l } } =
      Function.update (handle w) (.source k) (some l) := by
  funext i
  cases i with
  | queue j => simp [handle]
  | pending j => simp [handle]
  | source j =>
    by_cases hj : j = k
    · subst hj; simp [handle]
    · have : Slot.source j ≠ Slot.source k := fun e => hj (by injection e)
      simp [handle, Function.update_noteq hj, Function.update_noteq this]

theorem ingestList_ok (m : Nat) (n : Nat) :
    ∀ {w w2 : World} {el : Slot → List Nat} {list : Option Nat} {xs : List Nat}, TWF w el →
      Ring w.tnext list xs → (∀ i, ∀ t ∈ xs, t ∉ el i) →
      ingestList m n list w = .ok () w2 →
      TWF w2 (Function.update el (.queue m) (el (.queue m) ++ xs)) ∧ QueueOnly w w2 := by
  induction n with
  | zero =>
    intro w w2 el list xs hw hr _ h
    simp only [ingestList] at h
    split at h
    · next he =>
      cases h
      have := Ring_isEmpty hr he
      subst this
      exact ⟨by simpa using hw, QueueOnly.refl_queueOnly _⟩
    · cases h
  | succ n ih =>
    intro w w2 el list xs hw hr hun h
    simp only [ingestList] at h
    split at h
    · next he =>
      cases h
      have := Ring_isEmpty hr he
      subst this
      exact ⟨by simpa using hw, QueueOnly.refl_queueOnly _⟩
    · next hne =>
      cases xs with
      | nil =>
        exfalso; apply hne
        rw [(Ring_nil_iff _ _).1 hr]; rfl
      | cons x rest =>
        obtain ⟨z, hz⟩ := Ring_linked hr x (by simp)
        have hx0 : x ≠ Empty := fun e => hr.2.2.2 (by simp [e])
        have hxr : x ∉ rest := (List.nodup_cons.1 hr.2.2.1).1
        obtain ⟨h2, l2, he, hr2, hx, hwf, hfr⟩ := hw.lists.removeHead_local hr hun
        have hwa : TWF { w with tnext := h2 } el := hw.setTnext hwf (fun y hy => by
          rw [hfr y (fun hm => ?_)]
          · exact hy
          · obtain ⟨z, hz⟩ := Ring_linked hr y hm
            rw [hy] at hz; cases hz)
        obtain ⟨wb, hqe, hwb, hqo, hfrb, -, -⟩ :=
          Manager.Queue_spec hwa m (a := x) hx0 hx (hw.lt_talloc hz)
        rw [he] at h
        simp only [hqe] at h
        have hr3 : Ring wb.tnext l2 rest :=
          Ring_congr (fun y hy => hfrb y (fun e => hxr (e ▸ hy))
            (hun _ y (List.mem_cons_of_mem _ hy))) hr2
        have hun3 : ∀ i, ∀ t ∈ rest,
            t ∉ Function.update el (.queue m) (el (.queue m) ++ [x]) i := by
          intro i t ht
          by_cases hi : i = .queue m
          · subst hi
            rw [Function.update_same]
            intro hm
            rcases List.mem_append.1 hm with hm | hm
            · exact hun _ t (List.mem_cons_of_mem _ ht) hm
            · simp only [List.mem_singleton] at hm
              exact hxr (hm ▸ ht)
          · rw [Function.update_noteq hi]
            exact hun i t (List.mem_cons_of_mem _ ht)
        obtain ⟨hw2, hqo2⟩ := ih hwb hr3 hun3 h
        have hq0 : QueueOnly w { w with tnext := h2 } :=
          ⟨rfl, rfl, fun _ => ⟨rfl, rfl, rfl, Iff.rfl⟩⟩
        refine ⟨?_, (hq0.trans_queueOnly hqo).trans_queueOnly hqo2⟩
        simpa [Function.update_same, List.append_assoc] using hw2

/-- What the invariants of the loop read from a world. -/
theorem ingestSources_ok {m inner : Nat} (n : Nat) :
    ∀ {w w2 : World} {el : Slot → List Nat}, TWF w el →
      ingestSources inner m n w = .ok () w2 →
      ∃ el2, TWF w2 el2 ∧ Client w w2 ∧ Stable w w2 := by
  induction n with
  | zero => intro w w2 el _ h; cases h
  | succ n ih =>
    intro w w2 el hw h
    simp only [ingestSources] at h
    split at h
    · cases h
    · next wa ha =>
      cases h
      have hc := choose_core ha
      simp only [World.core, Prod.mk.injEq] at hc
      obtain ⟨h1, h2, h3, h4, h5, h6, h7, h8, h9, h10, h11, h12, h13⟩ := hc
      exact ⟨el, TWF.of_core (choose_core ha) hw, Client.of_heap h5 h6 h2 h4 h8 h9,
        Stable.of_eq h5 h6⟩
    · next e wa ha =>
      have hc := choose_core ha
      have hwa : TWF wa el := TWF.of_core hc hw
      simp only [World.core, Prod.mk.injEq] at hc
      obtain ⟨h1, h2, h3, h4, h5, h6, h7, h8, h9, h10, h11, h12, h13⟩ := hc
      have hca : Client w wa := Client.of_heap h5 h6 h2 h4 h8 h9
      have hsa : Stable w wa := Stable.of_eq h5 h6
      simp only [turnSource.getAllTurns] at h
      split at h
      · cases h
      · next u wc hi =>
        obtain ⟨wsrc, hwsrc⟩ : ∃ x : World, x = { wa with src := (Function.update wa.src
            (wa.ev e).data { wa.src (wa.ev e).data with list := some Empty }) } := ⟨_, rfl⟩
        rw [← hwsrc] at hi
        have hring : Ring wa.tnext (wa.src (wa.ev e).data).list
            (el (.source (wa.ev e).data)) := hwa.lists.rings (.source _) _ rfl
        have hwb : TWF wsrc
            (Function.update el (.source (wa.ev e).data) []) := by
          subst hwsrc
          refine ⟨?_, hwa.empty, hwa.fresh, hwa.pos⟩
          rw [show handle _ = _ from handle_setSource wa (wa.ev e).data (some Empty)]
          exact hwa.lists.release _ _ (Or.inr rfl)
        have hun : ∀ i, ∀ t ∈ el (.source (wa.ev e).data),
            t ∉ Function.update el (.source (wa.ev e).data) [] i := by
          intro i t ht
          by_cases hi2 : i = .source (wa.ev e).data
          · subst hi2; simp
          · rw [Function.update_noteq hi2]
            exact hwa.lists.disj _ _ (Ne.symm hi2) t ht
        have hring2 : Ring wsrc.tnext (wa.src (wa.ev e).data).list
            (el (.source (wa.ev e).data)) := by
          subst hwsrc; exact hring
        obtain ⟨hwc, hqo⟩ := ingestList_ok m inner hwb hring2 hun hi
        obtain ⟨el2, hw2, hc2, hs2⟩ := ih hwc h
        have hcb : Client wa wsrc := by
          subst hwsrc; exact Client.of_heap rfl rfl rfl rfl rfl rfl
        have hsb : Stable wa wsrc := by
          subst hwsrc; exact Stable.of_eq rfl rfl
        exact ⟨el2, hw2,
          ((hca.trans_client hcb).trans_client (Client.from_queueOnly hqo)).trans_client hc2,
          ((hsa.trans_stable hsb).trans_stable hqo.to_stable).trans_stable hs2⟩

theorem runSnapshot_inv {cell main : Nat} (inner : Nat) (n : Nat) :
    ∀ {w w2 : World} {el : Slot → List Nat} {list : Option Nat} {xs : List Nat}, TWF w el →
      Closed w → RunInv cell main w →
      Ring w.tnext list xs → (∀ i, ∀ t ∈ xs, t ∉ el i) →
      runSnapshot inner n list w = .ok () w2 →
      ∃ el2, TWF w2 el2 ∧ Closed w2 ∧ RunInv cell main w2 := by
  induction n with
  | zero =>
    intro w w2 el list xs hw hc hi _ _ h
    simp only [runSnapshot] at h
    split at h
    · cases h; exact ⟨el, hw, hc, hi⟩
    · cases h
  | succ n ih =>
    intro w w2 el list xs hw hc hi hr hun h
    simp only [runSnapshot] at h
    split at h
    · cases h; exact ⟨el, hw, hc, hi⟩
    · next hne =>
      cases xs with
      | nil =>
        exfalso; apply hne
        rw [(Ring_nil_iff _ _).1 hr]; rfl
      | cons x rest =>
        obtain ⟨z, hz⟩ := Ring_linked hr x (by simp)
        obtain ⟨h2, l2, he, hr2, hx, hwf, hfr⟩ := hw.lists.removeHead_local hr hun
        rw [he] at h
        simp only at h
        have hwa : TWF { w with tnext := h2 } el := hw.setTnext hwf (fun y hy => by
          rw [hfr y (fun hm => ?_)]
          · exact hy
          · obtain ⟨z, hz⟩ := Ring_linked hr y hm
            rw [hy] at hz; cases hz)
        have hcl : Client w { w with tnext := h2 } := Client.of_heap rfl rfl rfl rfl rfl rfl
        have hst : Stable w { w with tnext := h2 } := Stable.of_eq rfl rfl
        split at h
        · cases h
        · next u wb hb =>
          obtain ⟨t, elb, hte, heb, -, -⟩ := Run_ok hwa hb
          cases hte
          obtain ⟨hcb, hib⟩ := Run_inv hwa (hcl.closed hc) (hi.of_client hc hst hcl)
            (hw.lt_talloc hz) hb
          have hlinked : ∀ y ∈ rest, h2 y ≠ none := fun y hy e => by
            obtain ⟨z, hz⟩ := Ring_linked hr2 y hy
            rw [e] at hz; cases hz
          have hr3 : Ring wb.tnext l2 rest :=
            Ring_congr (fun y hy => heb.grow.frame y (hlinked y hy)
              (fun i hm => hun i y (List.mem_cons_of_mem _ hy) hm)) hr2
          have hun3 : ∀ i, ∀ y ∈ rest, y ∉ elb i := by
            intro i y hy hm
            rcases heb.grow.origin i y hm with ⟨j, hj⟩ | hd
            · exact hun j y (List.mem_cons_of_mem _ hy) hj
            · exact hlinked y hy hd
          exact ih heb.twf hcb hib hr3 hun3 h

theorem runOneLoop_inv {cell main fuel m : Nat} {w w2 : World} {el : Slot → List Nat}
    (hw : TWF w el) (hc : Closed w) (hi : RunInv cell main w)
    (h : Manager.runOneLoop fuel m w = .ok () w2) :
    ∃ el2, TWF w2 el2 ∧ Closed w2 ∧ RunInv cell main w2 := by
  unfold Manager.runOneLoop at h
  split at h
  · cases h
  · next u w1 h1 =>
    obtain ⟨el1, hw1, hc1, hs1⟩ := ingestSources_ok fuel hw h1
    obtain ⟨ws, hws⟩ : ∃ x : World, x = { w1 with mgr := (Function.update w1.mgr m
        { w1.mgr m with turns := some Empty }) } := ⟨_, rfl⟩
    rw [← hws] at h
    have hring : Ring ws.tnext (w1.mgr m).turns (el1 (.queue m)) := by
      subst hws; exact hw1.lists.rings (.queue m) _ rfl
    have hwts : TWF ws (Function.update el1 (.queue m) []) := by
      subst hws
      refine ⟨?_, hw1.empty, hw1.fresh, hw1.pos⟩
      have := handle_setQueue w1 m (some Empty) w1.tnext w1.enq
      rw [show handle { w1 with mgr := (Function.update w1.mgr m
        { w1.mgr m with turns := some Empty }) } = _ from this]
      exact hw1.lists.release _ _ (Or.inr rfl)
    have hun : ∀ i, ∀ t ∈ el1 (.queue m), t ∉ Function.update el1 (.queue m) [] i := by
      intro i t ht
      by_cases hi2 : i = .queue m
      · subst hi2; simp
      · rw [Function.update_noteq hi2]
        exact hw1.lists.disj _ _ (Ne.symm hi2) t ht
    have hcs : Client w1 ws := by subst hws; exact Client.of_heap rfl rfl rfl rfl rfl rfl
    have hss : Stable w1 ws := by subst hws; exact Stable.of_eq rfl rfl
    have hc1c := hc1.closed hc
    have hi1 := hi.of_client hc hs1 hc1
    exact runSnapshot_inv fuel fuel hwts (hcs.closed hc1c) (hi1.of_client hc1c hss hcs)
      hring hun h

theorem runUntilLoop_inv {cell main inner m : Nat} (n : Nat) :
    ∀ {w w2 : World} {el : Slot → List Nat}, TWF w el → Closed w → RunInv cell main w →
      runUntilLoop inner m cell n w = .ok () w2 →
      Closed w2 ∧ RunInv cell main w2 ∧ (w2.cells cell).isSome = true := by
  induction n with
  | zero =>
    intro w w2 el hw hc hi h
    simp only [runUntilLoop] at h
    split at h
    · cases h
    · next hn =>
      cases h
      exact ⟨hc, hi, by
        cases hcv : w.cells cell with
        | none => simp [hcv] at hn
        | some v => rfl⟩
  | succ n ih =>
    intro w w2 el hw hc hi h
    simp only [runUntilLoop] at h
    split at h
    · split at h
      · cases h
      · next u w1 h1 =>
        obtain ⟨el1, hw1, hc1, hi1⟩ := runOneLoop_inv hw hc hi h1
        split at h
        · cases h
        · next u2 wb hb =>
          have hcore := waitForSources_core hb
          have hwb : TWF wb el1 := TWF.of_core hcore hw1
          simp only [World.core, Prod.mk.injEq] at hcore
          obtain ⟨h1, h2, h3, h4, h5, h6, h7, h8, h9, h10, h11, h12, h13⟩ := hcore
          have hcl : Client w1 wb := Client.of_heap h5 h6 h2 h4 h8 h9
          have hst : Stable w1 wb := Stable.of_eq h5 h6
          exact ih hwb (hcl.closed hc1) (hi1.of_client hc1 hst hcl) h
    · next hn =>
      cases h
      exact ⟨hc, hi, by
        cases hcv : w.cells cell with
        | none => simp [hcv] at hn
        | some v => rfl⟩

end Drydock

namespace Drydock

theorem Chain.getShortest {w : World} {a b : Nat} (h : Chain w a b)
    (hb : (w.res b).next = none) : ∃ k, getShortest k a w = .ok b w := by
  induction h with
  | refl a => exact ⟨0, getShortest_self hb 0⟩
  | step hn _ ih =>
    obtain ⟨k, hk⟩ := ih hb
    exact ⟨k + 1, getShortest_step hn hk⟩

end Drydock

namespace Drydock

/-! ### Instances on the sample world -/

theorem Res.ok_of_val {α : Type} {x : Res α} {a : α} (h : x.val? = some a) :
    x = .ok a x.world := by
  cases x with
  | ok b w => cases h; rfl
  | fault f w => cases h

theorem resolve_at_most_once_witness :
    (∀ v, ∃ msg, Complete 1 0 v World.sample = .fault (.precondition msg) World.sample) ∧
    (∀ e, ∃ msg, Fail 1 0 e World.sample = .fault (.precondition msg) World.sample) ∧
    (∀ v e, ∃ msg, Resolve 1 0 v e World.sample = .fault (.precondition msg) World.sample) ∧
    (∀ n, ∃ msg, Forward 1 0 n World.sample = .fault (.precondition msg) World.sample) :=
  resolve_at_most_once 1 World.sample 0 rfl

theorem when_error_short_circuit_witness :
    ∃ w2, runWhen 1 0 1 .string true false false
        (.user 5 ⟨[.string], [.string]⟩ (fun _ => .ret [.str "x"])) World.sample = .ok () w2 ∧
      w2.calls = World.sample.calls ∧
      w2.res 1 = { World.sample.res 1 with turns := none, outcome := .err ⟨7⟩ } :=
  when_error_short_circuit 1 World.sample (fun _ => []) 0 1 .string .string .StringR
    (.user 5 ⟨[.string], [.string]⟩ (fun _ => .ret [.str "x"])) true false false 0 ⟨7⟩
    rfl (by decide) TWF.sample (Nat.zero_le _) rfl rfl rfl (by decide)

theorem forward_transparency_witness :
    ∃ tail el1, getShortest 2 0 World.sample = .ok tail World.sample ∧
      TWF (Forward 2 1 (some 0) World.sample).world el1 ∧
      (tail ≠ 1 → el1 (queueSlot World.sample tail) = []) ∧
      ∀ w2 k final, Stable (Forward 2 1 (some 0) World.sample).world w2 →
        getShortest k 0 w2 = .ok final w2 →
        getShortest (k + 1) 1 w2 = .ok final w2 ∧
        (∀ outer inTy tv te rr f,
          runThunk (k + 1) (.whenTurn 1 outer inTy tv te rr f) w2 =
            runWhen (k + 1) 0 outer inTy tv te rr f w2) ∧
        (∀ w3 w4 j inTy out outR f outer,
          Stable (Forward 2 1 (some 0) World.sample).world w3 → Closed w3 →
          WhenT j 1 inTy out outR f w3 = .ok outer w4 → Stable w4 w2 →
          ∃ src tv te rr, w4.tf w3.talloc = .whenTurn src outer inTy tv te rr f ∧
            getShortest (k + 1) src w2 = .ok final w2 ∧
            runThunk (k + 1) (w4.tf w3.talloc) w2 =
              runWhen (k + 1) 0 outer inTy tv te rr f w2) :=
  forward_transparency 2 World.sample _ (fun _ => []) 1 0 TWF.sample Closed.of_sample
    (by decide) (by decide) rfl

theorem continuation_order_witness :
    ∃ w2, resolve 2 1 (.str "v") (whenAll 2 1 sampleConts World.sample).world = .ok () w2 ∧
      Ring w2.tnext (w2.mgr (World.sample.res 1).manager).turns
        ((fun _ => []) (Slot.queue (World.sample.res 1).manager) ++
          (fun _ => []) (Slot.pending 1) ++
          (List.range sampleConts.length).map (World.sample.talloc + ·)) ∧
      (∀ i (hi : i < sampleConts.length), ∃ tv te rr, w2.tf (World.sample.talloc + i) =
        .whenTurn 1 (World.sample.ralloc + i) (sampleConts.get ⟨i, hi⟩).1 tv te rr
          (sampleConts.get ⟨i, hi⟩).2.2.2) ∧
      (∀ f2 w3, NoSignal w2 (World.sample.res 1).manager →
        Manager.runOneLoop f2 (World.sample.res 1).manager w2 = .ok () w3 →
        w3.ran = w2.ran ++ ((fun _ => []) (Slot.queue (World.sample.res 1).manager) ++
          (fun _ => []) (Slot.pending 1) ++
          (List.range sampleConts.length).map (World.sample.talloc + ·))) :=
  continuation_order 2 World.sample _ (fun _ => []) 1 Empty sampleConts [3, 4] (.str "v")
    TWF.sample (by decide) rfl rfl (Res.ok_of_val (by decide!)) (by decide)

theorem getShortest_of_val {k a b : Nat} {w : World}
    (h : (getShortest k a w).val? = some b) : getShortest k a w = .ok b w := by
  have h1 := Res.ok_of_val h
  have h2 : (getShortest k a w).world = w := getShortest_world rfl
  rw [h2] at h1
  exact h1

theorem TWF.queued : TWF World.queued (Function.update (fun _ : Slot => ([] : List Nat))
    (.queue 0) ((fun _ : Slot => ([] : List Nat)) (.queue 0) ++ [World.sample.talloc])) :=
  (Manager.NewTurn_effect TWF.sample (Res.ok_of_val (by decide!) :
    Manager.NewTurn 0 "t" (.user (.ret [])) World.sample = .ok () World.queued)).1.twf

end Drydock

namespace Drydock

/-! ## Further properties of turn lists -/

theorem Run_linked {fuel t : Nat} {w : World} (h : w.tnext t ≠ none) :
    ∃ msg, Run fuel (some t) w = .fault (.precondition msg) w := by
  unfold Run
  by_cases he : IsEmpty (some t) = true
  · exact ⟨"Cannot execute the empty list: %v", by simp [he]⟩
  · have hs : (w.tnext t).isSome = true := by
      cases hn : w.tnext t with
      | none => exact absurd hn h
      | some z => rfl
    exact ⟨"Cannot execute lists, only single turns: %v.", by simp [he, hs]⟩

theorem Run_detached {fuel t : Nat} {w : World} (h : w.tnext t = none) (h0 : t ≠ Empty) :
    Run fuel (some t) w = runThunk fuel (w.tf t) { w with ran := w.ran ++ [t] } := by
  unfold Run
  have he : IsEmpty (some t) = false := by simp [IsEmpty, h0]
  simp [he, h]

/-- C11 as stated fails for `Run`: the function of the turn at 1 in `World.requeue` appends
the turn to the queue of the manager; the turn is detached when `Run` is called, `Run`
returns, and the turn is in the queue afterwards, with `next` pointing at itself. -/
theorem run_requeue_linked :
    World.requeue.tnext 1 = none ∧ Run 2 (some 1) World.requeue =
        .ok () (Run 2 (some 1) World.requeue).world ∧
      (Run 2 (some 1) World.requeue).world.tnext 1 = some 1 :=
  ⟨rfl, Res.ok_of_val (by decide!), by decide!⟩

end Drydock

namespace Drydock

/-! ## Event sets -/

/-- The slice operations of `remove` take out one element: every other element stays. -/
theorem mem_set_take {α : Type} (pre : List α) (a : α) (j : Nat) (hj : j ≤ pre.length)
    (x : α) (hx : x ∈ pre ++ [a]) :
    x ∈ ((pre ++ [a]).set j a).take pre.length ∨ (pre ++ [a]).get? j = some x := by
  rcases Nat.lt_or_ge j pre.length with hlt | hge
  · have e1 : (pre ++ [a]).set j a = pre.set j a ++ [a] := List.set_append_left _ _ hlt
    rw [e1, List.take_left' (by simp)]
    rcases List.mem_append.1 hx with hp | hp
    · obtain ⟨i, hi, rfl⟩ := List.getElem_of_mem hp
      by_cases hij : i = j
      · subst hij
        right
        rw [List.get?_eq_getElem?, List.getElem?_append_left hi]
        exact List.getElem?_eq_getElem hi
      · left
        rw [List.mem_iff_getElem]
        refine ⟨i, by simpa using hi, ?_⟩
        rw [List.getElem_set_ne (Ne.symm hij)]
    · simp only [List.mem_singleton] at hp
      subst hp
      left
      rw [List.mem_iff_getElem]
      exact ⟨j, by simpa using hlt, by simp⟩
  · have hj2 : j = pre.length := le_antisymm hj hge
    subst hj2
    rcases List.mem_append.1 hx with hp | hp
    · left
      have e1 : (pre ++ [a]).set pre.length a = pre ++ [a] := by
        rw [List.set_append_right _ _ (le_refl _)]
        simp
      rw [e1, List.take_left' rfl]
      exact hp
    · simp only [List.mem_singleton] at hp
      subst hp
      right
      simp

theorem SetIs.member {w : World} {m : Nat} {c0 : SelectCase} {ms : List SelectCase}
    (h : SetIs w m c0 ms) {c : SelectCase} (hc : c ∈ ms) : ∃ e, c = ⟨.selectRecv, some e⟩ := by
  obtain ⟨hd, hch⟩ := h.2.2.1 c hc
  obtain ⟨e, he⟩ := Option.isSome_iff_exists.1 hch
  refine ⟨e, ?_⟩
  cases c
  simp only at hd he
  subst hd he
  rfl

/-- A `reflect.Select` with a ready member: the member chosen is signaled or closed. -/
theorem reflectSelect_ready {w : World} {m : Nat} {c0 : SelectCase} {ms : List SelectCase}
    (h : SetIs w m c0 ms)
    (hr : ∃ c ∈ ms, ∃ e, c.chan = some e ∧ ((w.ev e).signaled = true ∨ (w.ev e).closed = true)) :
    ∃ j e, ms.get? j = some ⟨.selectRecv, some e⟩ ∧
      (((w.ev e).signaled = true ∧ reflectSelect m w = .ok (j + 1, true) { w with
          ev := Function.update w.ev e { w.ev e with signaled := false }
          nsel := w.nsel + 1 }) ∨
       ((w.ev e).signaled = false ∧ (w.ev e).closed = true ∧
          reflectSelect m w = .ok (j + 1, false) { w with nsel := w.nsel + 1 })) := by
  have hh := h
  obtain ⟨hcs, hc0, hms, -⟩ := h
  have hready : ∀ i ∈ readyCases w (c0 :: ms), ∃ j e, i = j + 1 ∧
      ms.get? j = some ⟨.selectRecv, some e⟩ ∧
      ((w.ev e).signaled = true ∨ (w.ev e).closed = true) := by
    intro i hi
    obtain ⟨c, hc, hrd⟩ := mem_readyCases.1 hi
    cases i with
    | zero =>
      simp only [List.get?_cons_zero, Option.some.injEq] at hc
      subst hc
      cases hd : c0.dir <;> simp [caseReady, hd, hc0] at hrd
    | succ j =>
      simp only [List.get?_cons_succ] at hc
      obtain ⟨e, he⟩ := SetIs.member hh (List.get?_mem hc)
      subst he
      refine ⟨j, e, rfl, hc, ?_⟩
      simpa [caseReady] using hrd
  have hne : readyCases w (c0 :: ms) ≠ [] := by
    obtain ⟨c, hc, e, he, hse⟩ := hr
    obtain ⟨j, hj, hcj⟩ := List.getElem_of_mem hc
    intro hnil
    have h1 : j + 1 ∈ readyCases w (c0 :: ms) := by
      refine mem_readyCases.2 ⟨c, ?_, ?_⟩
      · simp only [List.get?_cons_succ, List.get?_eq_getElem?]
        rw [← hcj, List.getElem?_cons_succ]
        exact List.getElem?_eq_getElem hj
      · obtain ⟨e2, he2⟩ := SetIs.member hh hc
        subst he2
        simp only [Option.some.injEq] at he
        subst he
        simpa [caseReady] using hse
    rw [hnil] at h1
    cases h1
  have hpos : 0 < (readyCases w (c0 :: ms)).length := List.length_pos.2 hne
  obtain ⟨i, hi⟩ : ∃ i, (readyCases w (c0 :: ms)).get?
      (w.chooser w.nsel (readyCases w (c0 :: ms)) % (readyCases w (c0 :: ms)).length) =
        some i :=
    ⟨_, List.get?_eq_get (Nat.mod_lt _ hpos)⟩
  obtain ⟨j, e, rfl, hcj, hse⟩ := hready i (List.get?_mem hi)
  refine ⟨j, e, hcj, ?_⟩
  cases hsig : (w.ev e).signaled
  · right
    refine ⟨rfl, by simpa [hsig] using hse, ?_⟩
    unfold reflectSelect
    simp only [hcs, hi, List.get?_cons_succ, hcj, hsig, Bool.false_eq_true, if_false]
  · left
    refine ⟨rfl, ?_⟩
    unfold reflectSelect
    simp only [hcs, hi, List.get?_cons_succ, hcj, hsig, if_true]

/-- A `reflect.Select` without a ready member takes the default case, and blocks when
there is none. -/
theorem reflectSelect_idle {w : World} {m : Nat} {c0 : SelectCase} {ms : List SelectCase}
    (h : SetIs w m c0 ms)
    (hr : ∀ c ∈ ms, ∀ e, c.chan = some e → (w.ev e).signaled = false ∧ (w.ev e).closed = false) :
    (c0.dir = .selectDefault →
      reflectSelect m w = .ok (0, false) { w with nsel := w.nsel + 1 }) ∧
    (c0.dir = .selectRecv → reflectSelect m w = .fault .blocked w) := by
  have hh := h
  obtain ⟨hcs, hc0, hms, -⟩ := h
  have hnil : readyCases w (c0 :: ms) = [] := by
    rw [List.eq_nil_iff_forall_not_mem]
    intro i hi
    obtain ⟨c, hc, hrd⟩ := mem_readyCases.1 hi
    cases i with
    | zero =>
      simp only [List.get?_cons_zero, Option.some.injEq] at hc
      subst hc
      cases hd : c0.dir <;> simp [caseReady, hd, hc0] at hrd
    | succ j =>
      simp only [List.get?_cons_succ] at hc
      obtain ⟨e, he⟩ := SetIs.member hh (List.get?_mem hc)
      subst he
      obtain ⟨h1, h2⟩ := hr _ (List.get?_mem hc) e rfl
      simp [caseReady, h1, h2] at hrd
  constructor
  · intro hd
    unfold reflectSelect
    simp only [hcs, hnil, List.get?_nil, List.length_nil]
    have : List.findIdx? (fun c => c.dir == Dir.selectDefault) (c0 :: ms) = some 0 := by
      simp [List.findIdx?_cons, hd]
    simp only [this]
  · intro hd
    unfold reflectSelect
    simp only [hcs, hnil, List.get?_nil, List.length_nil]
    have : List.findIdx? (fun c => c.dir == Dir.selectDefault) (c0 :: ms) = none := by
      rw [List.findIdx?_eq_none_iff]
      intro c hc
      rcases List.mem_cons.1 hc with rfl | hc
      · simp [hd]
      · simp [(hms c hc).1]
    simp only [this]

/-- `remove` of a member keeps the shape of the set and takes out that member only. -/
theorem remove_member {w : World} {m j : Nat} {c0 c : SelectCase} {ms : List SelectCase}
    (h : SetIs w m c0 ms) (hj : ms.get? j = some c) :
    ∃ w2 ms2, EventSet.remove m (j + 1) w = .ok () w2 ∧ SetIs w2 m c0 ms2 ∧
      ms2.length + 1 = ms.length ∧ (∀ x ∈ ms2, x ∈ ms) ∧ (∀ x ∈ ms, x ∈ ms2 ∨ x = c) ∧
      w2.core = w.core ∧ w2.ev = w.ev := by
  obtain ⟨hcs, hc0, hms, hal⟩ := h
  have hjlt : j < ms.length := by
    by_contra hlt
    rw [List.get?_eq_none.2 (Nat.le_of_not_lt hlt)] at hj
    cases hj
  obtain ⟨pre, a, hpa⟩ : ∃ pre a, ms = pre ++ [a] := by
    rcases List.eq_nil_or_concat ms with rfl | ⟨pre, a, hpa⟩
    · simp at hjlt
    · exact ⟨pre, a, by simpa using hpa⟩
  subst hpa
  · have hlen : (w.mgr m).sources.events.length = pre.length + 2 := by
      rw [hal]; simp
    have hlast : (w.mgr m).sources.events.get? (pre.length + 1) = some a.chan := by
      rw [hal]
      simp [List.getElem?_append_right]
    have hclast : (c0 :: (pre ++ [a])).get? (pre.length + 1) = some a := by
      simp [List.getElem?_append_right]
    have hjle : j ≤ pre.length := by
      simp only [List.length_append, List.length_singleton] at hjlt
      omega
    refine ⟨{ w with mgr := Function.update w.mgr m { w.mgr m with sources :=
        ⟨c0 :: ((pre ++ [a]).set j a).take pre.length,
          (c0 :: ((pre ++ [a]).set j a).take pre.length).map (·.chan)⟩ } },
      ((pre ++ [a]).set j a).take pre.length, ?_, ⟨by simp, hc0, ?_, by simp⟩, ?_, ?_, ?_,
      core_setSources, rfl⟩
    · unfold EventSet.remove
      have h1 : (w.mgr m).sources.events.length - 1 = pre.length + 1 := by rw [hlen]; rfl
      have h2 : j + 1 < (w.mgr m).sources.events.length ∧
          j + 1 < (c0 :: (pre ++ [a])).length := by
        rw [hlen]
        simp only [List.length_cons, List.length_append, List.length_singleton]
        omega
      simp only [Nat.succ_ne_zero, if_false, h1, hlast, hcs, hclast, h2, and_self, if_true,
        List.set_cons_succ, List.take_succ_cons]
      congr 3
      rw [hal]
      simp only [List.map_cons, List.set_cons_succ, List.take_succ_cons, List.map_take,
        List.map_set]
    · intro x hx
      rcases List.mem_or_eq_of_mem_set (List.mem_of_mem_take hx) with hx2 | hx2
      · exact hms x hx2
      · subst hx2; exact hms x (by simp)
    · simp only [List.length_take, List.length_set, List.length_append, List.length_singleton]
      omega
    · intro x hx
      rcases List.mem_or_eq_of_mem_set (List.mem_of_mem_take hx) with hx2 | hx2
      · exact hx2
      · subst hx2; simp
    · intro x hx
      rcases mem_set_take pre a j hjle x hx with h1 | h1
      · exact Or.inl h1
      · rw [hj] at h1
        exact Or.inr (Option.some.inj h1).symm

theorem SetIs.of_mgr {w w2 : World} {m : Nat} {c0 : SelectCase} {ms : List SelectCase}
    (h : SetIs w m c0 ms) (hm : w2.mgr = w.mgr) : SetIs w2 m c0 ms := by
  unfold SetIs at h ⊢
  rw [hm]; exact h

theorem SetIs.event {w : World} {m : Nat} {c0 : SelectCase} {ms : List SelectCase}
    (h : SetIs w m c0 ms) {j e : Nat} (hj : ms.get? j = some ⟨.selectRecv, some e⟩) :
    (w.mgr m).sources.events.get? (j + 1) = some (some e) := by
  rw [h.2.2.2]
  rw [List.get?_eq_getElem?] at hj ⊢
  simp only [List.map_cons, List.getElem?_cons_succ, List.getElem?_map, hj, Option.map_some']

/-- The loop of `choose` with a signaled member: closed members without a signal may be
removed on the way, and a signaled member is returned, its signal consumed. -/
theorem chooseLoop_pick {m : Nat} {c0 : SelectCase} (n : Nat) :
    ∀ (w : World) (ms : List SelectCase), SetIs w m c0 ms →
      (∃ c ∈ ms, ∃ e, c.chan = some e ∧ (w.ev e).signaled = true) → ms.length ≤ n →
      ∃ e w1 ms1, chooseLoop m n w = .ok (some e) w1 ∧ (w.ev e).signaled = true ∧
        (⟨.selectRecv, some e⟩ : SelectCase) ∈ ms ∧
        w1.ev = Function.update w.ev e { w.ev e with signaled := false } ∧
        SetIs w1 m c0 ms1 ∧ (∀ x ∈ ms1, x ∈ ms) ∧
        (∀ x ∈ ms, x ∈ ms1 ∨ ∃ e2, x.chan = some e2 ∧ (w.ev e2).signaled = false ∧
          (w.ev e2).closed = true) ∧ w1.core = w.core ∧ ms1.length ≤ ms.length := by
  induction n with
  | zero =>
    intro w ms _ hsig hlen
    obtain ⟨c, hc, -⟩ := hsig
    have : ms = [] := List.length_eq_zero.1 (Nat.le_zero.1 hlen)
    subst this
    cases hc
  | succ n ih =>
    intro w ms h hsig hlen
    have hcs := h.1
    have hgt : (w.mgr m).sources.cases.length > 1 := by
      obtain ⟨c, hc, -⟩ := hsig
      rw [hcs]
      have := List.length_pos_of_mem hc
      simp only [List.length_cons]
      omega
    obtain ⟨j, e, hj, hsel⟩ := reflectSelect_ready h (by
      obtain ⟨c, hc, e, he, hs⟩ := hsig
      exact ⟨c, hc, e, he, Or.inl hs⟩)
    rcases hsel with ⟨hs, hsel⟩ | ⟨hs, hcl, hsel⟩
    · obtain ⟨wx, hwx⟩ : ∃ x : World, x = { w with
          ev := Function.update w.ev e { w.ev e with signaled := false }
          nsel := w.nsel + 1 } := ⟨_, rfl⟩
      rw [← hwx] at hsel
      have hmx : wx.mgr = w.mgr := by subst hwx; rfl
      refine ⟨e, wx, ms, ?_, hs, List.get?_mem hj, by subst hwx; rfl, h.of_mgr hmx,
        fun _ hx => hx, fun _ hx => Or.inl hx, by subst hwx; rfl, le_refl _⟩
      simp only [chooseLoop, hgt, if_true, hsel, Nat.succ_ne_zero, if_false]
      have := h.event hj
      rw [← hmx] at this
      simp only [this]
    · have h1 : SetIs { w with nsel := w.nsel + 1 } m c0 ms := h.of_mgr rfl
      obtain ⟨w2, ms2, hrem, h2, hl2, hsub, hkeep, hcore, hev⟩ := remove_member h1 hj
      have hsig2 : ∃ c ∈ ms2, ∃ e, c.chan = some e ∧ (w2.ev e).signaled = true := by
        obtain ⟨c, hc, ec, hec, hsc⟩ := hsig
        rcases hkeep c hc with hin | heq
        · exact ⟨c, hin, ec, hec, by rw [hev]; exact hsc⟩
        · subst heq
          simp only [Option.some.injEq] at hec
          subst hec
          rw [hs] at hsc
          cases hsc
      obtain ⟨e1, w1, ms1, hch, hs1, hm1, hev1, hset1, hsub1, hkeep1, hcore1, hle1⟩ :=
        ih w2 ms2 h2 hsig2 (by omega)
      refine ⟨e1, w1, ms1, ?_, by rw [hev] at hs1; exact hs1, hsub _ hm1,
        by rw [hev1, hev], hset1, fun x hx => hsub x (hsub1 x hx), fun x hx => ?_,
        by rw [hcore1, hcore]; rfl, by omega⟩
      · simp only [chooseLoop, hgt, if_true, hsel, Nat.succ_ne_zero, if_false,
          Bool.false_eq_true, hrem]
        exact hch
      · rcases hkeep x hx with hin | heq
        · rcases hkeep1 x hin with h3 | ⟨e2, h3, h4, h5⟩
          · exact Or.inl h3
          · exact Or.inr ⟨e2, h3, by rw [hev] at h4; exact h4, by rw [hev] at h5; exact h5⟩
        · subst heq
          exact Or.inr ⟨e, rfl, hs, hcl⟩

/-- The loop of `choose` in a poll without a signaled member: closed members are removed and
the default case is taken. -/
theorem chooseLoop_poll {m : Nat} {c0 : SelectCase} (hd : c0.dir = .selectDefault) (n : Nat) :
    ∀ (w : World) (ms : List SelectCase), SetIs w m c0 ms →
      (∀ c ∈ ms, ∀ e, c.chan = some e → (w.ev e).signaled = false) → ms.length ≤ n →
      ∃ w1 ms1, chooseLoop m n w = .ok none w1 ∧ w1.ev = w.ev ∧ SetIs w1 m c0 ms1 ∧
        (∀ x ∈ ms1, x ∈ ms) ∧
        (∀ x ∈ ms, x ∈ ms1 ∨ ∃ e2, x.chan = some e2 ∧ (w.ev e2).closed = true) ∧
        w1.core = w.core ∧ ms1.length ≤ ms.length := by
  induction n with
  | zero =>
    intro w ms h _ hlen
    have : ms = [] := List.length_eq_zero.1 (Nat.le_zero.1 hlen)
    subst this
    exact ⟨w, [], by simp [chooseLoop, h.1], rfl, h, fun _ hx => hx, fun _ hx => Or.inl hx,
      rfl, le_refl _⟩
  | succ n ih =>
    intro w ms h hns hlen
    have hcs := h.1
    cases ms with
    | nil =>
      exact ⟨w, [], by simp [chooseLoop, hcs], rfl, h, fun _ hx => hx,
        fun _ hx => Or.inl hx, rfl, le_refl _⟩
    | cons c1 rest =>
      have hgt : (w.mgr m).sources.cases.length > 1 := by rw [hcs]; simp
      by_cases hcl : ∃ c ∈ c1 :: rest, ∃ e, c.chan = some e ∧ (w.ev e).closed = true
      · obtain ⟨j, e, hj, hsel⟩ := reflectSelect_ready h (by
          obtain ⟨c, hc, e, he, hs⟩ := hcl
          exact ⟨c, hc, e, he, Or.inr hs⟩)
        rcases hsel with ⟨hs, -⟩ | ⟨hs, hce, hsel⟩
        · rw [hns _ (List.get?_mem hj) e rfl] at hs
          cases hs
        · have h1 : SetIs { w with nsel := w.nsel + 1 } m c0 (c1 :: rest) := h.of_mgr rfl
          obtain ⟨w2, ms2, hrem, h2, hl2, hsub, hkeep, hcore, hev⟩ := remove_member h1 hj
          obtain ⟨w1, ms1, hch, hev1, hset1, hsub1, hkeep1, hcore1, hle1⟩ :=
            ih w2 ms2 h2 (fun c hc e2 he2 => by rw [hev]; exact hns c (hsub c hc) e2 he2)
              (by simp only [List.length_cons] at hlen hl2; omega)
          refine ⟨w1, ms1, ?_, by rw [hev1, hev], hset1, fun x hx => hsub x (hsub1 x hx),
            fun x hx => ?_, by rw [hcore1, hcore]; rfl, by omega⟩
          · simp only [chooseLoop, hgt, if_true, hsel, Nat.succ_ne_zero, if_false,
              Bool.false_eq_true, hrem]
            exact hch
          · rcases hkeep x hx with hin | heq
            · rcases hkeep1 x hin with h3 | ⟨e2, h3, h4⟩
              · exact Or.inl h3
              · exact Or.inr ⟨e2, h3, by rw [hev] at h4; exact h4⟩
            · subst heq
              exact Or.inr ⟨e, rfl, hce⟩
      · push_neg at hcl
        have hidle := (reflectSelect_idle h (fun c hc e he =>
          ⟨hns c hc e he, by
            cases hx : (w.ev e).closed with
            | false => rfl
            | true => exact absurd hx (hcl c hc e he)⟩)).1 hd
        refine ⟨{ w with nsel := w.nsel + 1 }, c1 :: rest, ?_, rfl, h.of_mgr rfl,
          fun _ hx => hx, fun _ hx => Or.inl hx, rfl, le_refl _⟩
        simp only [chooseLoop, hgt, if_true, hidle]

/-- The loop of `choose` in a wait on closed members without a signal: all of them are
removed. -/
theorem chooseLoop_close {m : Nat} {c0 : SelectCase} (n : Nat) :
    ∀ (w : World) (ms : List SelectCase), SetIs w m c0 ms →
      (∀ c ∈ ms, ∀ e, c.chan = some e → (w.ev e).signaled = false ∧ (w.ev e).closed = true) →
      ms.length ≤ n →
      ∃ w1, chooseLoop m n w = .ok none w1 ∧ w1.ev = w.ev ∧ SetIs w1 m c0 [] ∧
        w1.core = w.core := by
  induction n with
  | zero =>
    intro w ms h _ hlen
    have : ms = [] := List.length_eq_zero.1 (Nat.le_zero.1 hlen)
    subst this
    exact ⟨w, by simp [chooseLoop, h.1], rfl, h, rfl⟩
  | succ n ih =>
    intro w ms h hall hlen
    have hcs := h.1
    cases ms with
    | nil => exact ⟨w, by simp [chooseLoop, hcs], rfl, h, rfl⟩
    | cons c1 rest =>
      have hgt : (w.mgr m).sources.cases.length > 1 := by rw [hcs]; simp
      obtain ⟨e1, he1⟩ := h.member (List.mem_cons_self c1 rest)
      obtain ⟨j, e, hj, hsel⟩ := reflectSelect_ready h
        ⟨c1, List.mem_cons_self _ _, e1, by rw [he1], Or.inr (hall c1 (by simp) e1
          (by rw [he1])).2⟩
      rcases hsel with ⟨hs, -⟩ | ⟨hs, hce, hsel⟩
      · rw [(hall _ (List.get?_mem hj) e rfl).1] at hs
        cases hs
      · have h1 : SetIs { w with nsel := w.nsel + 1 } m c0 (c1 :: rest) := h.of_mgr rfl
        obtain ⟨w2, ms2, hrem, h2, hl2, hsub, hkeep, hcore, hev⟩ := remove_member h1 hj
        obtain ⟨w1, hch, hev1, hset1, hcore1⟩ :=
          ih w2 ms2 h2 (fun c hc e2 he2 => by rw [hev]; exact hall c (hsub c hc) e2 he2)
            (by simp only [List.length_cons] at hlen hl2; omega)
        refine ⟨w1, ?_, by rw [hev1, hev], hset1, by rw [hcore1, hcore]; rfl⟩
        simp only [chooseLoop, hgt, if_true, hsel, Nat.succ_ne_zero, if_false,
          Bool.false_eq_true, hrem]
        exact hch

/-- The first statement of `choose`: only the direction of the first case changes. -/
theorem choose_eq {w : World} {m fuel : Nat} {c0 : SelectCase} {ms : List SelectCase}
    (h : SetIs w m c0 ms) (wait : Bool) :
    ∃ w0, EventSet.choose fuel m wait w = chooseLoop m fuel w0 ∧
      SetIs w0 m ⟨if wait then .selectRecv else .selectDefault, none⟩ ms ∧ w0.ev = w.ev ∧
      w0.core = w.core := by
  obtain ⟨hcs, hc0, hms, hal⟩ := h
  refine ⟨{ w with mgr := Function.update w.mgr m { w.mgr m with
      sources := ⟨{ c0 with dir := if wait then .selectRecv else .selectDefault } :: ms,
        (w.mgr m).sources.events⟩ } }, ?_, ⟨?_, rfl, hms, ?_⟩, rfl, core_setSources⟩
  · unfold EventSet.choose
    simp only [hcs]
  · simp only [Function.update_same, hc0]
  · simp only [Function.update_same, hal, List.map_cons, hc0]

theorem Select_pick {w : World} {m fuel : Nat} {c0 : SelectCase} {ms : List SelectCase}
    (h : SetIs w m c0 ms)
    (hsig : ∃ c ∈ ms, ∃ e, c.chan = some e ∧ (w.ev e).signaled = true)
    (hlen : ms.length ≤ fuel) :
    ∃ e w1 ms1, EventSet.Select fuel m w = .ok (some e) w1 ∧ (w.ev e).signaled = true ∧
      (⟨.selectRecv, some e⟩ : SelectCase) ∈ ms ∧
      w1.ev = Function.update w.ev e { w.ev e with signaled := false } ∧
      SetIs w1 m ⟨.selectDefault, none⟩ ms1 ∧ (∀ x ∈ ms1, x ∈ ms) ∧
      (∀ x ∈ ms, x ∈ ms1 ∨ ∃ e2, x.chan = some e2 ∧ (w.ev e2).signaled = false ∧
        (w.ev e2).closed = true) ∧ w1.core = w.core ∧ ms1.length ≤ ms.length := by
  obtain ⟨w0, he, h0, hev, hcore⟩ := @choose_eq w m fuel c0 ms h false
  simp only [Bool.false_eq_true, if_false] at h0
  obtain ⟨e, w1, ms1, hch, h1, h2, h3, h4, h5, h6, h7, h8⟩ :=
    chooseLoop_pick fuel w0 ms h0 (by rw [hev]; exact hsig) hlen
  rw [hev] at h1 h3 h6
  exact ⟨e, w1, ms1, by unfold EventSet.Select; rw [he]; exact hch, h1, h2, h3, h4, h5, h6,
    by rw [h7, hcore], h8⟩

theorem Select_poll {w : World} {m fuel : Nat} {c0 : SelectCase} {ms : List SelectCase}
    (h : SetIs w m c0 ms)
    (hns : ∀ c ∈ ms, ∀ e, c.chan = some e → (w.ev e).signaled = false)
    (hlen : ms.length ≤ fuel) :
    ∃ w1 ms1, EventSet.Select fuel m w = .ok none w1 ∧ w1.ev = w.ev ∧
      SetIs w1 m ⟨.selectDefault, none⟩ ms1 ∧ (∀ x ∈ ms1, x ∈ ms) ∧
      (∀ x ∈ ms, x ∈ ms1 ∨ ∃ e2, x.chan = some e2 ∧ (w.ev e2).closed = true) ∧
      w1.core = w.core ∧ ms1.length ≤ ms.length := by
  obtain ⟨w0, he, h0, hev, hcore⟩ := @choose_eq w m fuel c0 ms h false
  simp only [Bool.false_eq_true, if_false] at h0
  obtain ⟨w1, ms1, hch, h1, h2, h3, h4, h5, h6⟩ :=
    chooseLoop_poll rfl fuel w0 ms h0 (by rw [hev]; exact hns) hlen
  rw [hev] at h1 h4
  exact ⟨w1, ms1, by unfold EventSet.Select; rw [he]; exact hch, h1, h2, h3, h4,
    by rw [h5, hcore], h6⟩

theorem Wait_close {w : World} {m fuel : Nat} {c0 : SelectCase} {ms : List SelectCase}
    (h : SetIs w m c0 ms)
    (hall : ∀ c ∈ ms, ∀ e, c.chan = some e →
      (w.ev e).signaled = false ∧ (w.ev e).closed = true)
    (hlen : ms.length ≤ fuel) :
    ∃ w1, EventSet.Wait fuel m w = .ok none w1 ∧ w1.ev = w.ev ∧
      SetIs w1 m ⟨.selectRecv, none⟩ [] ∧ w1.core = w.core := by
  obtain ⟨w0, he, h0, hev, hcore⟩ := @choose_eq w m fuel c0 ms h true
  simp only [if_true] at h0
  obtain ⟨w1, hch, h1, h2, h3⟩ :=
    chooseLoop_close fuel w0 ms h0 (by rw [hev]; exact hall) hlen
  rw [hev] at h1
  exact ⟨w1, by unfold EventSet.Wait; rw [he]; exact hch, h1, h2, by rw [h3, hcore]⟩

end Drydock

namespace Drydock

theorem Signal_open {w : World} {e : Nat} (h : (w.ev e).closed = false) :
    Event.Signal (some e) w =
      .ok () { w with ev := Function.update w.ev e { w.ev e with signaled := true } } := by
  simp [Event.Signal, h]

theorem signalN_open {e : Nat} (k : Nat) : ∀ (w : World), (w.ev e).closed = false →
    signalN (some e) (k + 1) w =
      .ok () { w with ev := Function.update w.ev e { w.ev e with signaled := true } } := by
  induction k with
  | zero =>
    intro w h
    simp only [signalN, bind_apply, Signal_open h, pure_apply]
  | succ k ih =>
    intro w h
    have h2 : (({ w with ev := Function.update w.ev e { w.ev e with signaled := true } } :
        World).ev e).closed = false := by
      simp [h]
    rw [signalN, bind_apply, Signal_open h]
    simp only
    rw [ih _ h2]
    simp

/-- C12 (event auto-reset): for an open event `e` registered in the event set, with no other
member holding a signal, after `k >= 1` calls of `e.Signal()` the next `Select` returns `e`
and the `Select` after that returns `nil`, whatever `reflect.Select` chooses. -/
theorem event_auto_reset (fuel m e k : Nat) (w : World) (c0 : SelectCase)
    (ms : List SelectCase) (hset : SetIs w m c0 ms)
    (hmem : (⟨.selectRecv, some e⟩ : SelectCase) ∈ ms) (hopen : (w.ev e).closed = false)
    (hothers : ∀ c ∈ ms, ∀ e2, c.chan = some e2 → e2 ≠ e → (w.ev e2).signaled = false)
    (hk : 1 ≤ k) (hfuel : ms.length ≤ fuel) :
    ∃ w1 w2 w3, signalN (some e) k w = .ok () w1 ∧
      EventSet.Select fuel m w1 = .ok (some e) w2 ∧
      EventSet.Select fuel m w2 = .ok none w3 := by
  obtain ⟨j, rfl⟩ : ∃ j, k = j + 1 := ⟨k - 1, by omega⟩
  obtain ⟨w1, hw1⟩ : ∃ x : World, x = { w with
      ev := Function.update w.ev e { w.ev e with signaled := true } } := ⟨_, rfl⟩
  have hs1 : signalN (some e) (j + 1) w = .ok () w1 := by rw [hw1]; exact signalN_open j w hopen
  have hset1 : SetIs w1 m c0 ms := hset.of_mgr (by subst hw1; rfl)
  have hev1 : ∀ e2, e2 ≠ e → w1.ev e2 = w.ev e2 := by
    intro e2 h2; subst hw1; simp [Function.update_noteq h2]
  have hsig1 : (w1.ev e).signaled = true := by subst hw1; simp
  obtain ⟨e1, w2, ms1, hsel, he1, hm1, hev2, hset2, hsub, -, -, hle⟩ :=
    Select_pick hset1 ⟨_, hmem, e, rfl, hsig1⟩ hfuel
  have hee : e1 = e := by
    by_contra hne
    rw [hev1 e1 hne, hothers _ hm1 e1 rfl hne] at he1
    cases he1
  subst hee
  have hns2 : ∀ c ∈ ms1, ∀ e2, c.chan = some e2 → (w2.ev e2).signaled = false := by
    intro c hc e2 he2
    rw [hev2]
    by_cases h2 : e2 = e1
    · subst h2; simp
    · rw [Function.update_noteq h2, hev1 e2 h2]
      exact hothers c (hsub c hc) e2 he2 h2
  obtain ⟨w3, ms3, hsel2, -⟩ := Select_poll hset2 hns2 (le_trans hle hfuel)
  exact ⟨w1, w2, w3, hs1, hsel, hsel2⟩

theorem event_auto_reset_witness :
    ∃ w1 w2 w3, signalN (some 0) 2 World.listening = .ok () w1 ∧
      EventSet.Select 1 0 w1 = .ok (some 0) w2 ∧ EventSet.Select 1 0 w2 = .ok none w3 :=
  event_auto_reset 1 0 0 2 World.listening ⟨.selectDefault, none⟩ [⟨.selectRecv, some 0⟩]
    ⟨rfl, rfl, by simp, rfl⟩ (by simp) rfl (fun _ _ _ _ _ => rfl) (by decide) (by decide)

theorem members_of_setIs {w : World} {m : Nat} {c0 : SelectCase} {ms : List SelectCase}
    (h : SetIs w m c0 ms) : (w.mgr m).sources.members = ms.filterMap (·.chan) := by
  simp [EventSet.members, h.1]

/-- C13 (EventSet termination): when every registered member is closed and holds no signal,
`Wait` returns `nil` instead of blocking and leaves the set without members; on a set
without members both `Select` and `Wait` return `nil` at once. -/
theorem eventset_termination (fuel m : Nat) (w : World) (c0 : SelectCase)
    (ms : List SelectCase) (hset : SetIs w m c0 ms)
    (hall : ∀ c ∈ ms, ∀ e, c.chan = some e →
      (w.ev e).signaled = false ∧ (w.ev e).closed = true)
    (hfuel : ms.length ≤ fuel) :
    ∃ w1, EventSet.Wait fuel m w = .ok none w1 ∧ (w1.mgr m).sources.members = [] ∧
      (∀ k, ∃ w2, EventSet.Select k m w1 = .ok none w2) ∧
      (∀ k, ∃ w2, EventSet.Wait k m w1 = .ok none w2) := by
  obtain ⟨w1, hwait, -, hset1, -⟩ := Wait_close hset hall hfuel
  refine ⟨w1, hwait, by rw [members_of_setIs hset1]; rfl, fun k => ?_, fun k => ?_⟩
  · obtain ⟨w2, ms2, h2, -⟩ := Select_poll hset1 (fun c hc => by cases hc) (Nat.zero_le k)
    exact ⟨w2, h2⟩
  · obtain ⟨w2, h2, -⟩ := Wait_close hset1 (fun c hc => by cases hc) (Nat.zero_le k)
    exact ⟨w2, h2⟩

theorem eventset_termination_witness :
    ∃ w1, EventSet.Wait 1 0 World.closedOnly = .ok none w1 ∧
      (w1.mgr 0).sources.members = [] ∧
      (∀ k, ∃ w2, EventSet.Select k 0 w1 = .ok none w2) ∧
      (∀ k, ∃ w2, EventSet.Wait k 0 w1 = .ok none w2) :=
  eventset_termination 1 0 World.closedOnly ⟨.selectDefault, none⟩ [⟨.selectRecv, some 0⟩]
    ⟨rfl, rfl, by simp, rfl⟩ (fun _ _ _ _ => ⟨rfl, rfl⟩) (by decide)

/-- C19 (Signal and Close on an event in the same state), as the code has it: `Signal` on an
open event that already holds a signal returns and leaves the world as it is, and `Close`
on an event that is already closed aborts with the failure of closing a closed channel, in
the unchanged world. -/
theorem event_signal_close_again (w : World) (e : Nat) :
    ((w.ev e).signaled = true → (w.ev e).closed = false →
      Event.Signal (some e) w = .ok () w) ∧
    ((w.ev e).closed = true → Event.Close (some e) w = .fault .closeOfClosed w) := by
  constructor
  · intro hs hc
    rw [Signal_open hc]
    have : ({ w.ev e with signaled := true } : Event) = w.ev e := by
      cases hx : w.ev e
      rw [hx] at hs
      simp only at hs
      subst hs
      rfl
    rw [this, Function.update_eq_self]
  · intro hc
    simp [Event.Close, hc]

theorem event_signal_close_again_witness :
    Event.Signal (some 0) World.signaled = .ok () World.signaled ∧
      Event.Close (some 0) World.closedOnly = .fault .closeOfClosed World.closedOnly :=
  ⟨(event_signal_close_again World.signaled 0).1 (by decide) rfl,
    (event_signal_close_again World.closedOnly 0).2 rfl⟩

/-- C19 as stated fails: `Close` on a closed event does not return, and neither does `Signal`
on a signaled event that is closed. -/
theorem close_closed_aborts :
    (World.closedOnly.ev 0).closed = true ∧
      Event.Close (some 0) World.closedOnly = .fault .closeOfClosed World.closedOnly ∧
      (World.closedSignaled.ev 0).signaled = true ∧
      Event.Signal (some 0) World.closedSignaled = .fault .sendOnClosed World.closedSignaled :=
  ⟨rfl, rfl, rfl, rfl⟩

theorem mem_signaledMembers {w : World} {m : Nat} {c0 : SelectCase} {ms : List SelectCase}
    (h : SetIs w m c0 ms) {e : Nat} :
    e ∈ signaledMembers w m ↔
      (⟨.selectRecv, some e⟩ : SelectCase) ∈ ms ∧ (w.ev e).signaled = true := by
  unfold signaledMembers
  rw [List.mem_dedup, List.mem_filter, members_of_setIs h, List.mem_filterMap]
  constructor
  · rintro ⟨⟨c, hc, hce⟩, hs⟩
    obtain ⟨e2, he2⟩ := h.member hc
    subst he2
    simp only [Option.some.injEq] at hce
    subst hce
    exact ⟨hc, hs⟩
  · rintro ⟨hc, hs⟩
    exact ⟨⟨_, hc, rfl⟩, hs⟩

theorem selectN_signaled {fuel m : Nat} (n : Nat) :
    ∀ (w : World) (c0 : SelectCase) (ms : List SelectCase), SetIs w m c0 ms →
      (∀ c ∈ ms, ∀ e, c.chan = some e → (w.ev e).closed = false) → ms.length ≤ fuel →
      (signaledMembers w m).length = n →
      ∃ (es : List Nat) (w2 : World), selectN fuel m (n + 1) w = .ok (es.map some ++ [none]) w2 ∧
        es.Perm (signaledMembers w m) := by
  induction n with
  | zero =>
    intro w c0 ms hset hopen hfuel hlen
    have hnil : signaledMembers w m = [] := List.length_eq_zero.1 hlen
    have hns : ∀ c ∈ ms, ∀ e, c.chan = some e → (w.ev e).signaled = false := by
      intro c hc e he
      cases hs : (w.ev e).signaled with
      | false => rfl
      | true =>
        obtain ⟨e2, he2⟩ := hset.member hc
        subst he2
        simp only [Option.some.injEq] at he
        subst he
        have : e2 ∈ signaledMembers w m := (mem_signaledMembers hset).2 ⟨hc, hs⟩
        rw [hnil] at this
        cases this
    obtain ⟨w1, ms1, hsel, -⟩ := Select_poll hset hns hfuel
    refine ⟨[], w1, ?_, by rw [hnil]⟩
    simp only [selectN, bind_apply, hsel, pure_apply, List.map_nil, List.nil_append]
  | succ n ih =>
    intro w c0 ms hset hopen hfuel hlen
    obtain ⟨e0, he0⟩ : ∃ e, e ∈ signaledMembers w m := by
      cases hsm : signaledMembers w m with
      | nil => rw [hsm] at hlen; cases hlen
      | cons a _ => exact ⟨a, by simp⟩
    obtain ⟨hm0, hs0⟩ := (mem_signaledMembers hset).1 he0
    obtain ⟨e, w1, ms1, hsel, hse, hme, hev, hset1, hsub, hkeep, -, hle⟩ :=
      Select_pick hset ⟨_, hm0, e0, rfl, hs0⟩ hfuel
    have hsup : ∀ x ∈ ms, x ∈ ms1 := by
      intro x hx
      rcases hkeep x hx with h1 | ⟨e2, h1, -, h3⟩
      · exact h1
      · rw [hopen x hx e2 h1] at h3
        cases h3
    have hopen1 : ∀ c ∈ ms1, ∀ e2, c.chan = some e2 → (w1.ev e2).closed = false := by
      intro c hc e2 he2
      rw [hev]
      by_cases h2 : e2 = e
      · subst h2
        simp only [Function.update_same]
        exact hopen c (hsub c hc) e2 he2
      · rw [Function.update_noteq h2]
        exact hopen c (hsub c hc) e2 he2
    have hmem1 : ∀ x, x ∈ signaledMembers w1 m ↔ x ∈ (signaledMembers w m).erase e := by
      intro x
      have hnd : (signaledMembers w m).Nodup := List.nodup_dedup _
      rw [mem_signaledMembers hset1, hnd.mem_erase_iff, mem_signaledMembers hset, hev]
      by_cases hx : x = e
      · subst hx
        simp
      · rw [Function.update_noteq hx]
        constructor
        · rintro ⟨h1, h2⟩
          exact ⟨hx, hsub _ h1, h2⟩
        · rintro ⟨-, h1, h2⟩
          exact ⟨hsup _ h1, h2⟩
    have hperm : (signaledMembers w1 m).Perm ((signaledMembers w m).erase e) :=
      (List.perm_ext_iff_of_nodup (List.nodup_dedup _)
        ((List.nodup_dedup _).erase e)).2 hmem1
    have hein : e ∈ signaledMembers w m := (mem_signaledMembers hset).2 ⟨hme, hse⟩
    have hlen1 : (signaledMembers w1 m).length = n := by
      rw [hperm.length_eq, List.length_erase_of_mem hein, hlen]
      rfl
    obtain ⟨es, w2, hrest, hp⟩ := ih w1 _ ms1 hset1 hopen1 (le_trans hle hfuel) hlen1
    refine ⟨e :: es, w2, ?_, ?_⟩
    · rw [selectN, bind_apply, hsel]
      simp only [bind_apply, hrest, pure_apply, List.map_cons, List.cons_append]
    · exact ((List.Perm.cons e (hp.trans hperm)).trans (List.perm_cons_erase hein).symm)

/-- C14 (Select chooses only signaled events, each once): on an event set of open events,
`Select` returns `nil` exactly when no member holds a signal and otherwise a member that
holds one; and when `k` distinct members hold a signal, `k + 1` successive calls return
those `k` events, each once, and then `nil`, whatever `reflect.Select` chooses. -/
theorem select_only_signaled (fuel m : Nat) (w : World) (c0 : SelectCase)
    (ms : List SelectCase) (hset : SetIs w m c0 ms)
    (hopen : ∀ c ∈ ms, ∀ e, c.chan = some e → (w.ev e).closed = false)
    (hfuel : ms.length ≤ fuel) :
    (∃ r w1, EventSet.Select fuel m w = .ok r w1 ∧
      (r = none ↔ signaledMembers w m = []) ∧ ∀ e, r = some e → e ∈ signaledMembers w m) ∧
    ∃ (es : List Nat) (w2 : World), selectN fuel m ((signaledMembers w m).length + 1) w =
        .ok (es.map some ++ [none]) w2 ∧
      es.Perm (signaledMembers w m) ∧ es.Nodup := by
  constructor
  · by_cases hnil : signaledMembers w m = []
    · have hns : ∀ c ∈ ms, ∀ e, c.chan = some e → (w.ev e).signaled = false := by
        intro c hc e he
        cases hs : (w.ev e).signaled with
        | false => rfl
        | true =>
          obtain ⟨e2, he2⟩ := hset.member hc
          subst he2
          simp only [Option.some.injEq] at he
          subst he
          have : e2 ∈ signaledMembers w m := (mem_signaledMembers hset).2 ⟨hc, hs⟩
          rw [hnil] at this
          cases this
      obtain ⟨w1, ms1, hsel, -⟩ := Select_poll hset hns hfuel
      exact ⟨none, w1, hsel, by simp [hnil], fun e he => by cases he⟩
    · obtain ⟨e0, he0⟩ := List.exists_mem_of_ne_nil _ hnil
      obtain ⟨hm0, hs0⟩ := (mem_signaledMembers hset).1 he0
      obtain ⟨e, w1, ms1, hsel, hse, hme, -⟩ :=
        Select_pick hset ⟨_, hm0, e0, rfl, hs0⟩ hfuel
      refine ⟨some e, w1, hsel, by simp [hnil], fun e2 he2 => ?_⟩
      cases he2
      exact (mem_signaledMembers hset).2 ⟨hme, hse⟩
  · obtain ⟨es, w2, h1, h2⟩ := selectN_signaled _ w c0 ms hset hopen hfuel rfl
    exact ⟨es, w2, h1, h2, h2.nodup_iff.2 (List.nodup_dedup _)⟩

theorem select_only_signaled_witness :
    (∃ r w1, EventSet.Select 3 0 World.signaled = .ok r w1 ∧
      (r = none ↔ signaledMembers World.signaled 0 = []) ∧
      ∀ e, r = some e → e ∈ signaledMembers World.signaled 0) ∧
    ∃ (es : List Nat) (w2 : World), selectN 3 0 ((signaledMembers World.signaled 0).length + 1) World.signaled =
        .ok (es.map some ++ [none]) w2 ∧
      es.Perm (signaledMembers World.signaled 0) ∧ es.Nodup :=
  select_only_signaled 3 0 World.signaled ⟨.selectDefault, none⟩
    [⟨.selectRecv, some 0⟩, ⟨.selectRecv, some 1⟩, ⟨.selectRecv, some 2⟩]
    ⟨rfl, rfl, by simp, rfl⟩ (fun _ _ _ _ => rfl) (by decide)

end Drydock

namespace Drydock

/-! ### What the continuation turn of `WhenT` binds -/

/-- When the function of the continuation is called, it is called on `whenArgs`, and if it
does not return a result, `outer` is resolved with what the return values give. -/
theorem runWhen_call {w w1 : World} {fuel s outer final : Nat} {inTy : Ty} {tv te : Bool}
    {f : Fn} {rv : List Iface}
    (hfin : getShortest fuel s w = .ok final w) (hturns : (w.res final).turns = none)
    (hcalled : te = true ∨ (w.res final).outcome.asError = none)
    (hcall : callFn fuel f (whenArgs inTy tv te (w.res final).outcome) w = .ok rv w1) :
    runWhen fuel s outer inTy tv te false f w = resolveOuter fuel outer rv w1 := by
  have hc : (!te && ((w.res final).outcome.asError).isSome) = false := by
    rcases hcalled with h | h
    · simp [h]
    · simp [h]
  unfold whenArgs at hcall
  simp only [runWhen, hfin, isResolved, hturns, Option.isNone_none, Bool.not_true,
    Bool.false_eq_true, if_false, hc]
  simp only at hcall
  rw [hcall]
  rcases rv with _ | ⟨v, _ | ⟨e, _ | ⟨x, t⟩⟩⟩
  · rfl
  · rfl
  · simp only [resolveOuter]
    cases e.asError <;> rfl
  · rfl

theorem validateOuts_two {out outR a b : Ty} {rr : Bool}
    (h : validateOuts out outR [a, b] = .ok rr) : rr = false := by
  simp only [validateOuts] at h
  split at h
  · cases h
  · split at h
    · cases h
    · cases h; rfl

theorem whenValidate_outs {inTy out outR : Ty} {sig : FnSig} {tv te rr : Bool}
    (h : whenValidate inTy out outR sig = .ok (tv, te, rr)) :
    validateOuts out outR sig.outs = .ok rr := by
  simp only [whenValidate] at h
  cases hi : validateIns inTy sig.ins with
  | error e => rw [hi] at h; cases h
  | ok p =>
    rw [hi] at h
    simp only at h
    cases ho : validateOuts out outR sig.outs with
    | error e => rw [ho] at h; cases h
    | ok r => rw [ho] at h; cases h; rfl

theorem resolve_sets {w : World} {el : Slot → List Nat} (hw : TWF w el) {fuel s : Nat}
    (o : Iface) (hs : (w.res s).turns ≠ none) (hfuel : (el (.pending s)).length ≤ fuel) :
    ∃ w2, resolve fuel s o w = .ok () w2 ∧
      w2.res s = { w.res s with turns := none, outcome := o } ∧ w2.calls = w.calls := by
  obtain ⟨l, hl⟩ := Option.ne_none_iff_exists'.1 hs
  rcases resolve_spec hw fuel s o hl with ⟨w2, he, -, hres, hq, -, -, -⟩ | ⟨hlt, -⟩
  · exact ⟨w2, he, by rw [hres]; simp, quiet_calls hq⟩
  · omega

/-- C15 (When binding of a two-value return): when the continuation turn runs and `f`
returns `(v, e)`, the result of the `When` fails with `e` if `e != nil`, and otherwise
completes successfully with `v`, provided `v` is not itself an error value. -/
theorem when_two_value_return (fuel : Nat) (w w1 : World) (el1 : Slot → List Nat)
    (s outer final : Nat) (inTy out outR a b : Ty) (f : Fn) (tv te rr : Bool) (v : Iface)
    (e : Option Err)
    (hv : whenValidate inTy out outR f.sig = .ok (tv, te, rr)) (hsig : f.sig.outs = [a, b])
    (hfin : getShortest fuel s w = .ok final w) (hturns : (w.res final).turns = none)
    (hcalled : te = true ∨ (w.res final).outcome.asError = none)
    (hcall : callFn fuel f (whenArgs inTy tv te (w.res final).outcome) w =
      .ok [v, ofError e] w1)
    (hwf : TWF w1 el1) (houter : (w1.res outer).turns ≠ none)
    (hfuel : (el1 (.pending outer)).length ≤ fuel)
    (hval : e = none → v.asError = none) :
    ∃ w2, runWhen fuel s outer inTy tv te rr f w = .ok () w2 ∧
      (w2.res outer).turns = none ∧ (w2.res outer).outcome.asError = e ∧
      (e = none → (w2.res outer).outcome = v) := by
  have hrr : rr = false := by
    have := whenValidate_outs hv
    rw [hsig] at this
    exact validateOuts_two this
  subst hrr
  rw [runWhen_call hfin hturns hcalled hcall]
  cases e with
  | none =>
    obtain ⟨w2, h1, h2, -⟩ := resolve_sets hwf v houter hfuel
    refine ⟨w2, by simpa [resolveOuter, ofError, Iface.asError] using h1, by rw [h2], ?_, fun _ => by rw [h2]⟩
    rw [h2]
    exact hval rfl
  | some e1 =>
    obtain ⟨w2, h1, h2, -⟩ := resolve_sets hwf (.err e1) houter hfuel
    exact ⟨w2, by simpa [resolveOuter, ofError, Iface.asError] using h1, by rw [h2], by rw [h2]; rfl,
      fun h => by cases h⟩

/-- C16 (When binding of a single plain-value return): when the continuation turn runs and
`f`, whose single return type is neither a result nor `error`, returns `v`, the result of
the `When` is completed successfully with `v`, provided `v` is not itself an error value. -/
theorem when_plain_value_return (fuel : Nat) (w w1 : World) (el1 : Slot → List Nat)
    (s outer final : Nat) (inTy out outR a : Ty) (f : Fn) (tv te rr : Bool) (v : Iface)
    (hv : whenValidate inTy out outR f.sig = .ok (tv, te, rr)) (hsig : f.sig.outs = [a])
    (hplain : a.ImplementsAwaitableT = false) (herr : a ≠ .error)
    (hfin : getShortest fuel s w = .ok final w) (hturns : (w.res final).turns = none)
    (hcalled : te = true ∨ (w.res final).outcome.asError = none)
    (hcall : callFn fuel f (whenArgs inTy tv te (w.res final).outcome) w = .ok [v] w1)
    (hwf : TWF w1 el1) (houter : (w1.res outer).turns ≠ none)
    (hfuel : (el1 (.pending outer)).length ≤ fuel)
    (hval : v.asError = none) :
    ∃ w2, runWhen fuel s outer inTy tv te rr f w = .ok () w2 ∧
      (w2.res outer).turns = none ∧ (w2.res outer).outcome = v ∧
      (w2.res outer).outcome.asError = none := by
  have hrr : rr = false := by
    have := whenValidate_outs hv
    rw [hsig] at this
    simp only [validateOuts, hplain, Bool.false_eq_true, if_false, herr] at this
    split at this
    · cases this
    · cases this; rfl
  subst hrr
  rw [runWhen_call hfin hturns hcalled hcall]
  obtain ⟨w2, h1, h2, -⟩ := resolve_sets hwf v houter hfuel
  exact ⟨w2, h1, by rw [h2], by rw [h2], by rw [h2]; exact hval⟩

theorem TWF.called (fid : Nat) (args : List Iface) :
    TWF { World.sample with calls := World.sample.calls ++ [(fid, args)] } (fun _ => []) :=
  (Effect.of_ghost TWF.sample rfl rfl rfl rfl rfl rfl rfl rfl :
    Effect World.sample { World.sample with calls := World.sample.calls ++ [(fid, args)] }
      (fun _ => []) (fun _ => [])).twf

theorem when_two_value_return_witness :
    ∃ w2, runWhen 1 0 1 .iface false true false
        (.user 5 ⟨[.error], [.iface, .error]⟩ (fun _ => .ret [.str "x", .nil]))
        World.sample = .ok () w2 ∧
      (w2.res 1).turns = none ∧ (w2.res 1).outcome.asError = none ∧
      ((none : Option Err) = none → (w2.res 1).outcome = .str "x") :=
  when_two_value_return 1 World.sample
    { World.sample with calls := World.sample.calls ++ [(5, [.err ⟨7⟩])] } (fun _ => [])
    0 1 0 .iface .iface .R .iface .error
    (.user 5 ⟨[.error], [.iface, .error]⟩ (fun _ => .ret [.str "x", .nil])) false true false
    (.str "x") none rfl rfl rfl rfl (Or.inl rfl) rfl (TWF.called 5 [.err ⟨7⟩]) (by decide)
    (Nat.zero_le _) (fun _ => rfl)

/-- A continuation `func(error) (interface{}, error)` that returns `(v, nil)` with `v` an
error value: the result of the `When` is failed with `v`. -/
theorem when_two_value_error_value :
    whenValidate .iface .iface .R
        (Fn.user 5 ⟨[.error], [.iface, .error]⟩ (fun _ => .ret [.err ⟨9⟩, .nil])).sig =
      .ok (false, true, false) ∧
    (callFn 1 (.user 5 ⟨[.error], [.iface, .error]⟩ (fun _ => .ret [.err ⟨9⟩, .nil]))
      (whenArgs .iface false true (World.sample.res 0).outcome) World.sample).val? =
      some [.err ⟨9⟩, ofError none] ∧
    (runWhen 1 0 1 .iface false true false
      (.user 5 ⟨[.error], [.iface, .error]⟩ (fun _ => .ret [.err ⟨9⟩, .nil]))
      World.sample).val? = some () ∧
    ((runWhen 1 0 1 .iface false true false
      (.user 5 ⟨[.error], [.iface, .error]⟩ (fun _ => .ret [.err ⟨9⟩, .nil]))
      World.sample).world.res 1).outcome.asError = some ⟨9⟩ :=
  ⟨rfl, by decide!, by decide!, by decide!⟩

theorem when_plain_value_return_witness :
    ∃ w2, runWhen 1 0 1 .iface false true false
        (.user 5 ⟨[.error], [.iface]⟩ (fun _ => .ret [.str "x"])) World.sample = .ok () w2 ∧
      (w2.res 1).turns = none ∧ (w2.res 1).outcome = .str "x" ∧
      (w2.res 1).outcome.asError = none :=
  when_plain_value_return 1 World.sample
    { World.sample with calls := World.sample.calls ++ [(5, [.err ⟨7⟩])] } (fun _ => [])
    0 1 0 .iface .iface .R .iface
    (.user 5 ⟨[.error], [.iface]⟩ (fun _ => .ret [.str "x"])) false true false
    (.str "x") rfl rfl rfl (by decide) rfl rfl (Or.inl rfl) rfl (TWF.called 5 [.err ⟨7⟩])
    (by decide) (Nat.zero_le _) rfl

/-- A continuation `func(error) interface{}` that returns an error value `v`: the result of
the `When` is failed with `v`. -/
theorem when_plain_error_value :
    whenValidate .iface .iface .R
        (Fn.user 5 ⟨[.error], [.iface]⟩ (fun _ => .ret [.err ⟨9⟩])).sig =
      .ok (false, true, false) ∧
    (callFn 1 (.user 5 ⟨[.error], [.iface]⟩ (fun _ => .ret [.err ⟨9⟩]))
      (whenArgs .iface false true (World.sample.res 0).outcome) World.sample).val? =
      some [.err ⟨9⟩] ∧
    (runWhen 1 0 1 .iface false true false
      (.user 5 ⟨[.error], [.iface]⟩ (fun _ => .ret [.err ⟨9⟩])) World.sample).val? =
      some () ∧
    ((runWhen 1 0 1 .iface false true false
      (.user 5 ⟨[.error], [.iface]⟩ (fun _ => .ret [.err ⟨9⟩]))
      World.sample).world.res 1).outcome.asError = some ⟨9⟩ :=
  ⟨rfl, by decide!, by decide!, by decide!⟩

/-- C17 (typed Resolve with an error): on an unresolved string resolver,
`StringS.Resolve(val, err)` with `err != nil` stops at the assertion "Provide either value
or err but not both." for every `val`, the zero value included, and leaves the resolver as
it was; with `err == nil` it completes the result successfully with `val`. -/
theorem stringS_resolve (fuel s : Nat) (val : String) (w : World) (el : Slot → List Nat)
    (hwf : TWF w el) (hs : (w.res s).turns ≠ none)
    (hfuel : (el (.pending s)).length ≤ fuel) :
    (∀ e, StringS.Resolve fuel s val (some e) w =
      .fault (.precondition "Provide either value or err but not both.") w) ∧
    ∃ w2, StringS.Resolve fuel s val none w = .ok () w2 ∧
      w2.res s = { w.res s with turns := none, outcome := .str val } := by
  constructor
  · intro e
    simp [StringS.Resolve, Resolve, bind_apply, Iface.asError, assertTrue_true, assertTrue]
  · obtain ⟨w2, h1, h2, -⟩ := resolve_sets hwf (.str val) hs hfuel
    exact ⟨w2, by simpa [StringS.Resolve, Resolve, bind_apply, Iface.asError, assertTrue_true]
      using h1, h2⟩

theorem stringS_resolve_witness :
    (∀ e, StringS.Resolve 1 1 "" (some e) World.sample =
      .fault (.precondition "Provide either value or err but not both.") World.sample) ∧
    ∃ w2, StringS.Resolve 1 1 "" none World.sample = .ok () w2 ∧
      w2.res 1 = { World.sample.res 1 with turns := none, outcome := .str "" } :=
  stringS_resolve 1 1 "" World.sample (fun _ => []) TWF.sample (by decide) (Nat.zero_le _)

end Drydock

namespace Drydock

/-! ### Forwarding chains have no cycle -/

theorem Fwd.at_init : Fwd World.init :=
  ⟨fun _ _ h => (by cases h), fun a => ⟨a, Chain.refl a, rfl⟩⟩

theorem sample_next (a : Nat) : (World.sample.res a).next = none := by
  unfold World.sample
  simp only
  split <;> rfl

theorem Fwd.at_sample : Fwd World.sample :=
  ⟨fun a n h => (by rw [sample_next a] at h; cases h),
    fun a => ⟨a, Chain.refl a, sample_next a⟩⟩

/-- Links that are kept or cut leave every chain finite. -/
theorem Acyclic.of_cut {w w2 : World} (h : Acyclic w)
    (hn : ∀ a, (w2.res a).next = (w.res a).next ∨ (w2.res a).next = none) : Acyclic w2 := by
  intro a
  obtain ⟨b, hc, hb⟩ := h a
  induction hc with
  | refl a =>
    refine ⟨a, Chain.refl a, ?_⟩
    rcases hn a with h1 | h1
    · rw [h1]; exact hb
    · exact h1
  | @step a n b hx _ ih =>
    obtain ⟨b2, hc2, hb2⟩ := ih hb
    rcases hn a with h1 | h1
    · exact ⟨b2, Chain.step (by rw [h1]; exact hx) hc2, hb2⟩
    · exact ⟨a, Chain.refl a, h1⟩

/-- Linking an end `s` to another end `t` leaves every chain finite. -/
theorem Acyclic.of_link {w w2 : World} (h : Acyclic w) {s t : Nat} (hst : t ≠ s)
    (hs : (w.res s).next = none) (ht : (w.res t).next = none)
    (hs2 : (w2.res s).next = some t)
    (hn : ∀ a, a ≠ s → (w2.res a).next = (w.res a).next) : Acyclic w2 := by
  intro a
  obtain ⟨b, hc, hb⟩ := h a
  have ht2 : (w2.res t).next = none := by rw [hn t hst]; exact ht
  induction hc with
  | refl a =>
    by_cases ha : a = s
    · subst ha
      exact ⟨t, Chain.step hs2 (Chain.refl t), ht2⟩
    · exact ⟨a, Chain.refl a, by rw [hn a ha]; exact hb⟩
  | @step a n b hx _ ih =>
    have ha : a ≠ s := by
      intro ha
      subst ha
      rw [hs] at hx
      cases hx
    obtain ⟨b2, hc2, hb2⟩ := ih hb
    exact ⟨b2, Chain.step (by rw [hn a ha]; exact hx) hc2, hb2⟩

theorem resolve_links {w w2 : World} {fuel s : Nat} {o : Iface}
    (h : resolve fuel s o w = .ok () w2) :
    ∀ a, (w2.res a).next = (w.res a).next ∧
      ((w.res a).turns = none → (w2.res a).turns = none) := by
  unfold resolve at h
  split at h
  · cases h
  · intro a
    have hq := (queueList_queueOnly fuel h).res a
    by_cases ha : a = s
    · subst ha
      simp only [Function.update_same] at hq
      exact ⟨hq.2.2.1, fun _ => hq.2.2.2.2 trivial⟩
    · simp only [Function.update_noteq ha] at hq
      exact ⟨hq.2.2.1, fun h0 => hq.2.2.2.2 h0⟩

theorem Fwd.of_links {w w2 : World} (hf : Fwd w)
    (h : ∀ a, (w2.res a).next = (w.res a).next ∧
      ((w.res a).turns = none → (w2.res a).turns = none)) : Fwd w2 :=
  ⟨fun a n hn => (h a).2 (hf.idle a n (by rw [← (h a).1]; exact hn)),
    hf.ends.of_cut (fun a => Or.inl (h a).1)⟩

theorem Fwd.after_resolve {w w2 : World} {fuel s : Nat} {o : Iface} (hf : Fwd w)
    (h : resolve fuel s o w = .ok () w2) : Fwd w2 :=
  hf.of_links (resolve_links h)

theorem Fwd.after_newTurnResolver {w w2 : World} {m s : Nat} (hf : Fwd w)
    (h : newTurnResolver m w = .ok s w2) : Fwd w2 := by
  simp only [Drydock.newTurnResolver] at h
  cases h
  refine ⟨fun a n hn => ?_, hf.ends.of_cut (fun a => ?_)⟩
  · by_cases ha : a = w.ralloc
    · subst ha
      simp at hn
    · simp only [Function.update_noteq ha] at hn ⊢
      exact hf.idle a n hn
  · by_cases ha : a = w.ralloc
    · subst ha
      exact Or.inr (by simp)
    · exact Or.inl (by simp [Function.update_noteq ha])

theorem Fwd.after_newTurnRunner {w w2 : World} {m : Nat} {r : Runner} (hf : Fwd w)
    (h : NewTurnRunner m w = .ok r w2) : Fwd w2 := by
  simp only [NewTurnRunner] at h
  cases h
  refine ⟨fun a n hn => ?_, hf.ends.of_cut (fun a => ?_)⟩
  · by_cases ha : a = w.ralloc
    · subst ha
      simp at hn
    · simp only [Function.update_noteq ha] at hn ⊢
      exact hf.idle a n hn
  · by_cases ha : a = w.ralloc
    · subst ha
      exact Or.inr (by simp)
    · exact Or.inl (by simp [Function.update_noteq ha])

theorem Fwd.after_whenT {w w2 : World} {fuel s o : Nat} {inTy out outR : Ty} {f : Fn} (hf : Fwd w)
    (h : WhenT fuel s inTy out outR f w = .ok o w2) : Fwd w2 := by
  unfold WhenT at h
  cases hv : whenValidate inTy out outR f.sig with
  | error e => rw [hv] at h; cases h
  | ok p =>
    obtain ⟨tv, te, rr⟩ := p
    rw [hv] at h
    simp only at h
    cases hg : (if (w.res s).next.isSome then getShortest fuel s w else Res.ok s w) with
    | fault e w1 => rw [hg] at h; cases h
    | ok s1 w1 =>
      have hw1 : w = w1 := by
        split at hg
        · exact (getShortest_world hg).symm
        · cases hg; rfl
      subst hw1
      rw [hg] at h
      simp only at h
      obtain ⟨outer, wa, ha, h⟩ := bind_ok h
      obtain ⟨id, wb, hb, h⟩ := bind_ok h
      obtain ⟨t, wc, hc, h⟩ := bind_ok h
      obtain ⟨u, wd, hd, h⟩ := bind_ok h
      cases h
      have hfa := hf.after_newTurnResolver ha
      simp only [Manager.NewID, UniqueIDGenerator.NewID] at hb
      cases hb
      simp only [NewTurn] at hc
      cases hc
      have hq := queue_queueOnly hd
      exact Fwd.of_links (w := wa) ⟨hfa.idle, hfa.ends⟩
        (fun a => ⟨(hq.res a).2.2.1, fun h0 => (hq.res a).2.2.2.2 h0⟩)

theorem Fwd.after_forward {w w2 : World} {fuel s nx : Nat} (hf : Fwd w)
    (hl : getShortest fuel nx w ≠ .ok s w)
    (h : Forward fuel s (some nx) w = .ok () w2) : Fwd w2 := by
  unfold Forward at h
  split at h
  · cases h
  · next hres =>
    simp only at h
    split at h
    · cases h
    · cases hg : getShortest fuel nx w with
      | fault f w1 => rw [hg] at h; cases h
      | ok next w1 =>
        have hw1 : w = w1 := (getShortest_world hg).symm
        subst hw1
        rw [hg] at h
        simp only at h
        have hne : next ≠ s := by
          intro he
          subst he
          exact hl hg
        have hq := queueList_queueOnly fuel h
        have hsn : (w.res s).next = none := by
          cases hx : (w.res s).next with
          | none => rfl
          | some n =>
            have := hf.idle s n hx
            simp [isResolved, this] at hres
        have htn : (w.res next).next = none := getShortest_next hg
        refine ⟨fun a n hn => ?_, hf.ends.of_link hne hsn htn ?_ (fun a ha => ?_)⟩
        · have h1 := hq.res a
          rw [h1.2.2.1] at hn
          refine h1.2.2.2.2 ?_
          by_cases ha : a = s
          · subst ha
            simp
          · simp only [Function.update_noteq ha] at hn ⊢
            exact hf.idle a n hn
        · rw [(hq.res s).2.2.1]
          simp
        · rw [(hq.res a).2.2.1]
          simp [Function.update_noteq ha]

theorem Fwd.after_call {w w2 : World} {fuel : Nat} (c : Call) (hf : Fwd w) (hl : ¬ c.loops fuel w)
    (h : c.run fuel w = .ok () w2) : Fwd w2 := by
  cases c with
  | newResultT m =>
    simp only [Call.run] at h
    obtain ⟨s, w1, h1, h2⟩ := bind_ok h
    cases h2
    exact hf.after_newTurnResolver h1
  | complete s v =>
    simp only [Call.run, Complete] at h
    obtain ⟨_, w1, h1, h2⟩ := bind_ok h
    obtain ⟨-, rfl⟩ := assertTrue_ok h1
    exact hf.after_resolve h2
  | fail s e =>
    simp only [Call.run, Fail] at h
    obtain ⟨_, w1, h1, h2⟩ := bind_ok h
    obtain ⟨-, rfl⟩ := assertTrue_ok h1
    exact hf.after_resolve h2
  | resolve s v e =>
    simp only [Call.run, Resolve] at h
    obtain ⟨_, w1, h1, h2⟩ := bind_ok h
    obtain ⟨-, rfl⟩ := assertTrue_ok h1
    split at h2
    · obtain ⟨_, w3, h3, h4⟩ := bind_ok h2
      obtain ⟨-, rfl⟩ := assertTrue_ok h3
      exact hf.after_resolve h4
    · exact hf.after_resolve h2
  | forward s n =>
    simp only [Call.run] at h
    cases n with
    | none => simp [Forward] at h; split at h <;> cases h
    | some nx => exact hf.after_forward hl h
  | when r inTy out outR f =>
    simp only [Call.run] at h
    obtain ⟨o, w1, h1, h2⟩ := bind_ok h
    cases h2
    exact hf.after_whenT h1
  | newRunner m =>
    simp only [Call.run] at h
    obtain ⟨o, w1, h1, h2⟩ := bind_ok h
    cases h2
    exact hf.after_newTurnRunner h1

theorem getShortest_ends {w : World} {a b : Nat} (hc : Chain w a b)
    (hb : (w.res b).next = none) : ∃ k, getShortest k a w = .ok b w := by
  induction hc with
  | refl a => exact ⟨0, by simp [getShortest, hb]⟩
  | step hx _ ih =>
    obtain ⟨k, hk⟩ := ih hb
    exact ⟨k + 1, getShortest_step hx hk⟩

/-- C18 (forwarding chains are acyclic): in every state reached from one without a
forwarding cycle by `NewResultT`, `Complete`, `Fail`, `Resolve`, `Forward` and `When` calls,
none of which forwards a resolver to a result whose chain ends in that resolver itself,
`getShortest` terminates on every resolver, at a resolver without a forwarding target. -/
theorem forwarding_acyclic (fuel : Nat) (w0 w : World) (h0 : Fwd w0)
    (hr : Reach fuel w0 w) :
    ∀ a, ∃ k b, getShortest k a w = .ok b w ∧ (w.res b).next = none := by
  have hf : Fwd w := by
    induction hr with
    | start => exact h0
    | call c _ hl hrun ih => exact ih.after_call c hl hrun
  intro a
  obtain ⟨b, hc, hb⟩ := hf.ends a
  obtain ⟨k, hk⟩ := getShortest_ends hc hb
  exact ⟨k, b, hk, hb⟩

theorem forwarding_acyclic_witness :
    ∃ k b, getShortest k 1 (Call.run 2 (.forward 1 (some 2)) World.sample).world =
        .ok b (Call.run 2 (.forward 1 (some 2)) World.sample).world ∧
      (((Call.run 2 (.forward 1 (some 2)) World.sample).world).res b).next = none :=
  forwarding_acyclic 2 World.sample _ Fwd.at_sample
    (Reach.call (.forward 1 (some 2)) Reach.start
      (fun h => by
        have h2 : (getShortest 2 2 World.sample).val? = some 1 := by
          have h3 : getShortest 2 2 World.sample = .ok 1 World.sample := h
          rw [h3]
          rfl
        exact absurd h2 (by decide!))
      (Res.ok_of_val (by decide!))) 1

/-- Forwarding a resolver to its own result closes a cycle: `getShortest` on it never
returns. -/
theorem forward_self_cycle :
    (Call.run 2 (.forward 1 (some 1)) World.sample).val? = some () ∧
    ((Call.run 2 (.forward 1 (some 1)) World.sample).world.res 1).next = some 1 ∧
    ∀ k, (getShortest k 1 (Call.run 2 (.forward 1 (some 1)) World.sample).world).val? =
      none := by
  refine ⟨by decide!, by decide!, fun k => ?_⟩
  have hn : ((Call.run 2 (.forward 1 (some 1)) World.sample).world.res 1).next = some 1 := by
    decide!
  induction k with
  | zero => simp [getShortest, hn, Res.val?]
  | succ k ih => simpa [getShortest, hn] using ih

end Drydock

namespace Drydock

/-! ### Identifiers -/

theorem wrap64_succ (x : Int) : wrap64 (wrap64 x + 1) = wrap64 (x + 1) := by
  unfold wrap64
  omega

theorem wrap64_small (x : Int) (h1 : -2 ^ 63 ≤ x) (h2 : x < 2 ^ 63) : wrap64 x = x := by
  unfold wrap64
  omega

theorem string_ofNat (k : Nat) : UniqueID.String ((k : Nat) : Int) = toString k := by
  show toString (Int.ofNat k) = toString k
  rfl

/-- The ids of a generator whose counter holds `x`, with the wrap-around of `int64`. -/
theorem newIDs_eq (g : Nat) (n : Nat) :
    ∀ (w : World) (x : Int), w.gen g = wrap64 x →
      ∃ w2, newIDs g n w = .ok ((List.range n).map (fun i => wrap64 (x + (i : Nat)))) w2 ∧
        w2.gen g = wrap64 (x + (n : Nat)) := by
  induction n with
  | zero =>
    intro w x hx
    exact ⟨w, rfl, by simpa using hx⟩
  | succ n ih =>
    intro w x hx
    obtain ⟨w2, h1, h2⟩ := ih
      { w with gen := Function.update w.gen g (wrap64 (w.gen g + 1)) } (x + 1)
      (by simp [hx, wrap64_succ])
    refine ⟨w2, ?_, ?_⟩
    · simp only [newIDs, bind_apply, UniqueIDGenerator.NewID, h1, pure_apply]
      rw [List.range_succ_eq_map]
      simp only [List.map_cons, List.map_map, Nat.cast_zero, add_zero, hx]
      congr 2
      apply List.map_congr_left
      intro i _
      simp only [Function.comp, Nat.cast_succ]
      congr 1
      ring
    · rw [h2]
      congr 1
      push_cast
      ring

/-- C20 (ID generation): on a fresh generator, for every `k` with `1 <= k < 2^63` the
`k`-th `NewID` call returns the id `k`, which `String` renders as the decimal numeral of
`k`; these ids are strictly increasing, so none is returned twice. -/
theorem newID_sequence (w : World) (n : Nat) (hn : n < 2 ^ 63) :
    ∃ g w1 w2, NewUniqueIDGenerator w = .ok g w1 ∧
      newIDs g n w1 = .ok ((List.range n).map (fun i => ((i + 1 : Nat) : Int))) w2 ∧
      (∀ k : Nat, UniqueID.String ((k : Nat) : Int) = toString k) ∧
      ((List.range n).map (fun i => ((i + 1 : Nat) : Int))).Pairwise (· < ·) ∧
      ((List.range n).map (fun i => ((i + 1 : Nat) : Int))).Nodup := by
  obtain ⟨w2, h1, -⟩ := newIDs_eq w.galloc n
    { w with gen := Function.update w.gen w.galloc 1, galloc := w.galloc + 1 } 1
    (by simp [wrap64])
  have hpw : ((List.range n).map (fun i => ((i + 1 : Nat) : Int))).Pairwise (· < ·) := by
    rw [List.pairwise_map]
    refine (List.pairwise_lt_range n).imp ?_
    intro a b hab
    exact_mod_cast Nat.succ_lt_succ hab
  refine ⟨w.galloc, _, w2, rfl, ?_, string_ofNat, hpw, ?_⟩
  · rw [h1]
    refine congrArg (fun l => Res.ok l w2) ?_
    apply List.map_congr_left
    intro i hi
    have hi2 : i < n := List.mem_range.1 hi
    rw [wrap64_small]
    · push_cast; ring
    · have : (0 : Int) ≤ (i : Int) := Int.ofNat_nonneg i
      omega
    · have : (i : Int) < (n : Int) := by exact_mod_cast hi2
      have : (n : Int) < 2 ^ 63 := by exact_mod_cast hn
      omega
  · exact hpw.imp (fun h => ne_of_lt h)

theorem newID_sequence_witness :
    ∃ g w1 w2, NewUniqueIDGenerator World.init = .ok g w1 ∧
      newIDs g 3 w1 = .ok ((List.range 3).map (fun i => ((i + 1 : Nat) : Int))) w2 ∧
      (∀ k : Nat, UniqueID.String ((k : Nat) : Int) = toString k) ∧
      ((List.range 3).map (fun i => ((i + 1 : Nat) : Int))).Pairwise (· < ·) ∧
      ((List.range 3).map (fun i => ((i + 1 : Nat) : Int))).Nodup :=
  newID_sequence World.init 3 (by norm_num)

/-- The `2^63`-th id of a fresh generator is `-2^63`: the counter has wrapped around. -/
theorem newID_wraps :
    ∃ g w1 w2 ids, NewUniqueIDGenerator World.init = .ok g w1 ∧
      newIDs g (9223372036854775807 + 1) w1 = .ok ids w2 ∧
      ids.length = 9223372036854775807 + 1 ∧
      ids.getLast? = some (-9223372036854775808) := by
  obtain ⟨w2, h1, -⟩ := newIDs_eq World.init.galloc (9223372036854775807 + 1)
    { World.init with gen := Function.update World.init.gen World.init.galloc 1,
                      galloc := World.init.galloc + 1 } 1
    (by simp [wrap64])
  refine ⟨World.init.galloc, _, w2, _, rfl, h1, by simp, ?_⟩
  rw [List.range_succ, List.map_append, List.map_singleton, List.getLast?_concat]
  congr 1

end Drydock

namespace Drydock

/-! ### What a continuation receives -/

/-- The function literal of `WhenT`, once the source is known to be resolved and `f` is to
be called. -/
theorem runWhen_unfold {w : World} {fuel s outer final : Nat} {inTy : Ty} {tv te rr : Bool}
    {f : Fn}
    (hfin : getShortest fuel s w = .ok final w) (hturns : (w.res final).turns = none)
    (hcalled : te = true ∨ (w.res final).outcome.asError = none) :
    runWhen fuel s outer inTy tv te rr f w =
      match callFn fuel f (whenArgs inTy tv te (w.res final).outcome) w with
      | .fault e w2 => .fault e w2
      | .ok retvals w2 =>
        if rr then
          match retvals with
          | [] => .fault .indexOutOfRange w2
          | .result _ n :: _ => Forward fuel outer n w2
          | _ :: _ => .fault .typeAssertion w2
        else resolveOuter fuel outer retvals w2 := by
  have hc : (!te && ((w.res final).outcome.asError).isSome) = false := by
    rcases hcalled with h | h
    · simp [h]
    · simp [h]
  simp only [runWhen, hfin, isResolved, hturns, Option.isNone_none, Bool.not_true,
    Bool.false_eq_true, if_false, hc, whenArgs]
  cases callFn fuel f _ w with
  | fault e w2 => rfl
  | ok rv w2 =>
    cases rr with
    | true => rfl
    | false =>
      simp only [Bool.false_eq_true, if_false]
      rcases rv with _ | ⟨v, _ | ⟨e, _ | ⟨x, t⟩⟩⟩
      · rfl
      · rfl
      · simp only [resolveOuter]
        cases e.asError <;> rfl
      · rfl

theorem resolveOuter_ok {w w2 : World} {fuel outer : Nat} {rv : List Iface}
    (h : resolveOuter fuel outer rv w = .ok () w2) :
    ∃ o, resolve fuel outer o w = .ok () w2 := by
  rcases rv with _ | ⟨v, _ | ⟨e, _ | ⟨x, t⟩⟩⟩
  · exact ⟨_, h⟩
  · exact ⟨_, h⟩
  · simp only [resolveOuter] at h
    cases he : e.asError with
    | none => rw [he] at h; exact ⟨_, h⟩
    | some e1 => rw [he] at h; exact ⟨_, h⟩
  · exact ⟨_, h⟩

/-- A continuation turn that returns has called `f` once, on `whenArgs`. -/
theorem runWhen_calls {w w2 : World} {el : Slot → List Nat} (hw : TWF w el)
    {fuel s outer final : Nat} {inTy : Ty} {tv te rr : Bool} {f : Fn}
    (hfin : getShortest fuel s w = .ok final w) (hturns : (w.res final).turns = none)
    (hcalled : te = true ∨ (w.res final).outcome.asError = none)
    (h : runWhen fuel s outer inTy tv te rr f w = .ok () w2) :
    w2.calls = w.calls ++ f.callLog (whenArgs inTy tv te (w.res final).outcome) := by
  rw [runWhen_unfold hfin hturns hcalled] at h
  cases hcall : callFn fuel f (whenArgs inTy tv te (w.res final).outcome) w with
  | fault e w1 => rw [hcall] at h; cases h
  | ok rv w1 =>
    rw [hcall] at h
    simp only at h
    obtain ⟨el1, heff, -, -, hcalls⟩ := callFn_ok hw hcall
    rw [← hcalls]
    cases rr with
    | true =>
      simp only [if_true] at h
      rcases rv with _ | ⟨v, t⟩
      · cases h
      · cases v with
        | result ty n =>
          obtain ⟨_, -, hq, -⟩ := Forward_ok heff.twf h
          exact quiet_calls hq
        | nil => cases h
        | str _ => cases h
        | int _ => cases h
        | err _ => cases h
    | false =>
      simp only [Bool.false_eq_true, if_false] at h
      obtain ⟨o, ho⟩ := resolveOuter_ok h
      obtain ⟨_, -, hq, -⟩ := resolve_ok heff.twf ho
      exact quiet_calls hq

theorem validateIns_shape {inTy : Ty} {ins : List Ty} {tv te : Bool}
    (h : validateIns inTy ins = .ok (tv, te)) :
    (ins = [] ∧ tv = false ∧ te = false) ∨ (ins = [.error] ∧ tv = false ∧ te = true) ∨
    (∃ a, ins = [a] ∧ a ≠ .error ∧ tv = true ∧ te = false) ∨
    (∃ a, ins = [a, .error] ∧ tv = true ∧ te = true) := by
  unfold validateIns at h
  split at h
  · cases h; exact Or.inl ⟨rfl, rfl, rfl⟩
  · next a =>
    split at h
    · next ha => cases h; subst ha; exact Or.inr (Or.inl ⟨rfl, rfl, rfl⟩)
    · next ha =>
      split at h
      · cases h; exact Or.inr (Or.inr (Or.inl ⟨a, rfl, ha, rfl, rfl⟩))
      · cases h
  · next a b =>
    split at h
    · cases h
    · split at h
      · cases h
      · next hb =>
        cases h
        have hb2 : b = .error := by simpa using hb
        subst hb2
        exact Or.inr (Or.inr (Or.inr ⟨a, rfl, rfl, rfl⟩))
  · cases h

theorem whenValidate_ins {inTy out outR : Ty} {sig : FnSig} {tv te rr : Bool}
    (h : whenValidate inTy out outR sig = .ok (tv, te, rr)) :
    validateIns inTy sig.ins = .ok (tv, te) := by
  simp only [whenValidate] at h
  cases hi : validateIns inTy sig.ins with
  | error e => rw [hi] at h; cases h
  | ok p =>
    obtain ⟨a, b⟩ := p
    rw [hi] at h
    simp only at h
    cases ho : validateOuts out outR sig.outs with
    | error e => rw [ho] at h; cases h
    | ok r => rw [ho] at h; cases h; rfl

/-- The function literal of `WhenT` on a function of client code, once the source is known
to be resolved and `f` is to be called: `reflect.Value.Call` checks the arguments, `f` runs
on them, and `outer` is resolved from what `f` returned. -/
theorem runWhen_user {w : World} {fuel s outer final fid : Nat} {inTy : Ty} {tv te rr : Bool}
    {sig : FnSig} {body : List Iface → Prog}
    (hfin : getShortest fuel s w = .ok final w) (hturns : (w.res final).turns = none)
    (hcalled : te = true ∨ (w.res final).outcome.asError = none) :
    runWhen fuel s outer inTy tv te rr (.user fid sig body) w =
      if argsAssignable (whenArgs inTy tv te (w.res final).outcome) sig.ins then
        (logCall fid (whenArgs inTy tv te (w.res final).outcome) >>= fun _ =>
          exec fuel (body (whenArgs inTy tv te (w.res final).outcome)) >>=
            whenFinish fuel outer rr) w
      else .fault .reflectCall w := by
  rw [runWhen_unfold hfin hturns hcalled]
  by_cases hc : argsAssignable (whenArgs inTy tv te (w.res final).outcome) sig.ins = true
  · simp only [callFn, hc, if_true, bind_apply, logCall]
    cases exec fuel (body _) _ with
    | fault e w2 => rfl
    | ok rv w2 =>
      simp only [whenFinish]
      cases rr with
      | true =>
        simp only [if_true]
        rcases rv with _ | ⟨v, t⟩
        · rfl
        · cases v <;> rfl
      | false => rfl
  · simp only [callFn, hc, Bool.false_eq_true, if_false]

/-- C28 (When argument passing): when the continuation turn of a `When` on a source of base
type `in`, resolved with the value `v` or the error `e`, comes to call `f`, the arguments
are exactly the declared subset of `(value, err)`: `f(value, err)` gets both, `f(err)` the
error, `f(value)` the value, `f()` nothing; the error is `nil` on success and the value is
the zero value of `in` on failure.  If the dynamic type of the value is not assignable to
the parameter of `f`, `reflect.Value.Call` panics and `f` is not called; otherwise `f` is
called once on these arguments, its body runs on them and `outer` is resolved from what it
returns, so a turn that returns has logged exactly this one call. -/
theorem when_argument_passing (fuel : Nat) (w : World) (el : Slot → List Nat)
    (s outer final fid : Nat) (inTy out outR : Ty) (sig : FnSig) (body : List Iface → Prog)
    (tv te rr : Bool)
    (hv : whenValidate inTy out outR sig = .ok (tv, te, rr)) (hwf : TWF w el)
    (hfin : getShortest fuel s w = .ok final w) (hturns : (w.res final).turns = none)
    (hcalled : te = true ∨ (w.res final).outcome.asError = none)
    (hty : (w.res final).outcome = .nil → zeroValue inTy = .nil) :
    ∃ args,
      (∀ a, sig.ins = [a, .error] → ∃ value, args = [value, ofError (w.res final).outcome.asError] ∧
        ((w.res final).outcome.asError = none → value = (w.res final).outcome) ∧
        ((w.res final).outcome.asError ≠ none → value = zeroValue inTy)) ∧
      (sig.ins = [.error] → args = [ofError (w.res final).outcome.asError]) ∧
      (∀ a, sig.ins = [a] → a ≠ .error → args = [(w.res final).outcome]) ∧
      (sig.ins = [] → args = []) ∧
      (argsAssignable args sig.ins = false →
        runWhen fuel s outer inTy tv te rr (.user fid sig body) w = .fault .reflectCall w) ∧
      (argsAssignable args sig.ins = true →
        runWhen fuel s outer inTy tv te rr (.user fid sig body) w =
          (logCall fid args >>= fun _ => exec fuel (body args) >>= whenFinish fuel outer rr) w) ∧
      (∀ w2, runWhen fuel s outer inTy tv te rr (.user fid sig body) w = .ok () w2 →
        w2.calls = w.calls ++ [(fid, args)]) := by
  refine ⟨whenArgs inTy tv te (w.res final).outcome, ?_⟩
  have hrun := @runWhen_user w fuel s outer final fid inTy tv te rr sig body hfin hturns hcalled
  have hval : ∀ o : Iface, o.asError = none → (o = .nil → zeroValue inTy = .nil) →
      (if (if o.asError.isSome then Iface.nil else o) = .nil then zeroValue inTy
        else (if o.asError.isSome then Iface.nil else o)) = o := by
    intro o ho hz
    simp only [ho, Option.isSome_none, Bool.false_eq_true, if_false]
    split
    · next h0 => rw [h0]; exact hz h0
    · rfl
  have hzero : ∀ o : Iface, o.asError ≠ none →
      (if (if o.asError.isSome then Iface.nil else o) = .nil then zeroValue inTy
        else (if o.asError.isSome then Iface.nil else o)) = zeroValue inTy := by
    intro o ho
    have : o.asError.isSome = true := Option.isSome_iff_ne_none.2 ho
    simp [this]
  have hlast : (argsAssignable (whenArgs inTy tv te (w.res final).outcome) sig.ins = false →
        runWhen fuel s outer inTy tv te rr (.user fid sig body) w = .fault .reflectCall w) ∧
      (argsAssignable (whenArgs inTy tv te (w.res final).outcome) sig.ins = true →
        runWhen fuel s outer inTy tv te rr (.user fid sig body) w =
          (logCall fid (whenArgs inTy tv te (w.res final).outcome) >>= fun _ =>
            exec fuel (body (whenArgs inTy tv te (w.res final).outcome)) >>=
              whenFinish fuel outer rr) w) ∧
      (∀ w2, runWhen fuel s outer inTy tv te rr (.user fid sig body) w = .ok () w2 →
        w2.calls = w.calls ++ [(fid, whenArgs inTy tv te (w.res final).outcome)]) := by
    refine ⟨fun h => ?_, fun h => ?_, fun w2 h => runWhen_calls hwf hfin hturns hcalled h⟩
    · rw [hrun, h]
      rfl
    · rw [hrun, h]
      rfl
  rcases validateIns_shape (whenValidate_ins hv) with ⟨hi, rfl, rfl⟩ | ⟨hi, rfl, rfl⟩ |
    ⟨a, hi, ha, rfl, rfl⟩ | ⟨a, hi, rfl, rfl⟩
  · refine ⟨fun a h2 => ?_, fun h2 => ?_, fun a h2 _ => ?_, fun _ => ?_, hlast⟩
    · rw [hi] at h2; cases h2
    · rw [hi] at h2; cases h2
    · rw [hi] at h2; cases h2
    · simp [whenArgs]
  · refine ⟨fun a h2 => ?_, fun h2 => ?_, fun a h2 ha => ?_, fun h2 => ?_, hlast⟩
    · rw [hi] at h2; cases h2
    · simp [whenArgs]
    · rw [hi] at h2; cases h2; exact absurd rfl ha
    · rw [hi] at h2; cases h2
  · have hne : (w.res final).outcome.asError = none := by
      rcases hcalled with h1 | h1
      · cases h1
      · exact h1
    refine ⟨fun b h2 => ?_, fun h2 => ?_, fun b h2 _ => ?_, fun h2 => ?_, hlast⟩
    · rw [hi] at h2; cases h2
    · rw [hi] at h2; cases h2; exact absurd rfl ha
    · simp only [whenArgs, if_true, Bool.false_eq_true, if_false, List.append_nil]
      rw [hval _ hne hty]
    · rw [hi] at h2; cases h2
  · refine ⟨fun b h2 => ?_, fun h2 => ?_, fun b h2 hb => ?_, fun h2 => ?_, hlast⟩
    · refine ⟨_, (by simp only [whenArgs, if_true, List.singleton_append]; rfl),
        fun hn => ?_, fun hn => ?_⟩
      · exact hval _ hn hty
      · exact hzero _ hn
    · rw [hi] at h2; cases h2
    · rw [hi] at h2; cases h2
    · rw [hi] at h2; cases h2

theorem TWF.valued : TWF World.valued (fun _ => []) := by
  refine ⟨⟨fun i l h => ?_, fun i h => rfl, fun _ _ _ t ht => by cases ht⟩, rfl, fun _ _ => rfl,
    by decide⟩
  rw [Ring_nil_iff]
  cases i with
  | queue m => simpa [handle, World.valued, World.sample] using h.symm
  | pending s =>
    by_cases h0 : s = 0
    · subst h0; simp [handle, World.valued] at h
    · by_cases h1 : s = 1
      · subst h1; simp [handle, World.valued] at h
      · by_cases h2 : s = 2
        · subst h2; simp [handle, World.valued] at h
        · simpa [handle, World.valued, h0, h1, h2] using h.symm
  | source k => simpa [handle, World.valued, World.sample, World.init] using h.symm

theorem when_argument_passing_witness :
    (∃ args,
      (∀ a, (⟨[.string, .error], []⟩ : FnSig).ins = [a, .error] →
        ∃ value, args = [value, ofError (World.valued.res 1).outcome.asError] ∧
        ((World.valued.res 1).outcome.asError = none → value = (World.valued.res 1).outcome) ∧
        ((World.valued.res 1).outcome.asError ≠ none → value = zeroValue .string)) ∧
      ((⟨[.string, .error], []⟩ : FnSig).ins = [.error] →
        args = [ofError (World.valued.res 1).outcome.asError]) ∧
      (∀ a, (⟨[.string, .error], []⟩ : FnSig).ins = [a] → a ≠ .error →
        args = [(World.valued.res 1).outcome]) ∧
      ((⟨[.string, .error], []⟩ : FnSig).ins = [] → args = []) ∧
      (argsAssignable args (⟨[.string, .error], []⟩ : FnSig).ins = false →
        runWhen 1 1 3 .string true true false
          (.user 5 ⟨[.string, .error], []⟩ (fun _ => .ret [])) World.valued =
          .fault .reflectCall World.valued) ∧
      (argsAssignable args (⟨[.string, .error], []⟩ : FnSig).ins = true →
        runWhen 1 1 3 .string true true false
          (.user 5 ⟨[.string, .error], []⟩ (fun _ => .ret [])) World.valued =
          (logCall 5 args >>= fun _ => exec 1 ((fun _ => Prog.ret []) args) >>=
            whenFinish 1 3 false) World.valued) ∧
      (∀ w2, runWhen 1 1 3 .string true true false
          (.user 5 ⟨[.string, .error], []⟩ (fun _ => .ret [])) World.valued = .ok () w2 →
        w2.calls = World.valued.calls ++ [(5, args)])) ∧
    (runWhen 1 1 3 .string true true false
      (.user 5 ⟨[.string, .error], []⟩ (fun _ => .ret [])) World.valued).world.calls =
      [(5, [.str "v", .nil])] ∧
    (runWhen 1 0 3 .string true true false
      (.user 5 ⟨[.string, .error], []⟩ (fun _ => .ret [])) World.valued).world.calls =
      [(5, [.str "", .err ⟨7⟩])] ∧
    runWhen 1 2 3 .string true false false
      (.user 5 ⟨[.string], []⟩ (fun _ => .ret [])) World.valued =
      .fault .reflectCall World.valued :=
  ⟨when_argument_passing 1 World.valued (fun _ => []) 1 3 1 5 .string .iface .R
    ⟨[.string, .error], []⟩ (fun _ => .ret []) true true false rfl TWF.valued rfl rfl
    (Or.inl rfl) (fun h => by simp [World.valued] at h), by decide!, by decide!, rfl⟩

/-! ### `When` defers -/

/-- `WhenT` returns whenever the signature of `f` is accepted and the chain of the source
ends within the fuel. -/
theorem WhenT_total {w : World} {el : Slot → List Nat} (hw : TWF w el) {fuel s tail : Nat}
    {inTy out outR : Ty} {f : Fn} {tv te rr : Bool}
    (hv : whenValidate inTy out outR f.sig = .ok (tv, te, rr))
    (htail : getShortest fuel s w = .ok tail w) :
    ∃ o w2, WhenT fuel s inTy out outR f w = .ok o w2 ∧
      (if (w.res s).next.isSome then getShortest fuel s w else .ok s w) = .ok tail w := by
  have hif : (if (w.res s).next.isSome then getShortest fuel s w else .ok s w) =
      .ok tail w := by
    cases hn : (w.res s).next with
    | some n => simpa using htail
    | none =>
      have := getShortest_self hn fuel
      rw [this] at htail
      cases htail
      simp
  obtain ⟨hs0, hea, -, -, -⟩ := newTurnResolver_ok (m := (w.res tail).manager) hw rfl
  obtain ⟨heb, -, -, -⟩ := Manager.NewID_ok (m := (w.res tail).manager) hea.twf rfl
  obtain ⟨-, hec, -, htn, -, ht0, htl, -⟩ := @NewTurn_ok _ _ _ heb.twf
    ("When" ++ UniqueID.String ((Manager.NewID (w.res tail).manager
      (newTurnResolver (w.res tail).manager w).world).val?.getD 0))
    (.whenTurn tail w.ralloc inTy tv te rr f) _ rfl
  obtain ⟨w2, hq, -⟩ := queue_spec hec.twf tail ht0 htn htl
  refine ⟨w.ralloc, w2, ?_, hif⟩
  unfold WhenT
  rw [hv]
  simp only [hif, bind_apply, newTurnResolver, Manager.NewID, UniqueIDGenerator.NewID, NewTurn,
    pure_apply]
  simp only [newTurnResolver, Manager.NewID, UniqueIDGenerator.NewID, NewTurn, Res.world,
    Res.val?, Option.getD] at hq
  rw [hq]

/-- C29 (When never runs f synchronously): `WhenT` on a source whose forwarding chain ends
in `tail` returns an unresolved result without calling `f` or running a turn, and allocates
one continuation turn; that turn is appended to the queue of the manager if `tail` is
resolved, and otherwise to the pending list of `tail`, the manager queue being unchanged. -/
theorem when_defers (fuel : Nat) (w : World) (el : Slot → List Nat) (s tail : Nat)
    (inTy out outR : Ty) (f : Fn) (tv te rr : Bool)
    (hv : whenValidate inTy out outR f.sig = .ok (tv, te, rr)) (hwf : TWF w el)
    (htail : getShortest fuel s w = .ok tail w) (hal : tail < w.ralloc) :
    ∃ outer w2 el2, WhenT fuel s inTy out outR f w = .ok outer w2 ∧
      w2.calls = w.calls ∧ w2.ran = w.ran ∧
      (w2.res outer).turns = some Empty ∧ (w2.res outer).next = none ∧ TWF w2 el2 ∧
      w2.talloc = w.talloc + 1 ∧ w2.tf w.talloc = .whenTurn tail outer inTy tv te rr f ∧
      ((w.res tail).turns = none →
        el2 (.queue (w.res tail).manager) = el (.queue (w.res tail).manager) ++ [w.talloc] ∧
        w2.enq (w.res tail).manager = w.enq (w.res tail).manager ++ [w.talloc] ∧
        ∀ m, m ≠ (w.res tail).manager → el2 (.queue m) = el (.queue m) ∧ w2.enq m = w.enq m) ∧
      ((w.res tail).turns ≠ none →
        el2 (.pending tail) = el (.pending tail) ++ [w.talloc] ∧
        ∀ m, el2 (.queue m) = el (.queue m) ∧ w2.enq m = w.enq m) := by
  obtain ⟨o, w2, hrun, hif⟩ := WhenT_total hwf hv htail
  obtain ⟨tv2, te2, rr2, s1, tgt, hv2, hs1, ho, heff, htgt, hq, htf, hta, -, hres, -, -⟩ :=
    WhenT_ok hwf hrun
  rw [hv] at hv2
  cases hv2
  rw [hif] at hs1
  cases hs1
  subst ho
  have hne : tail ≠ w.ralloc := by omega
  have htg := htgt hne
  subst htg
  have hr := hres hne
  have henq : ∀ m add, Function.update (Function.update el (.pending w.ralloc) [])
      (queueSlot w tail) ((Function.update el (.pending w.ralloc) []) (queueSlot w tail) ++
        [w.talloc]) (.queue m) = el (.queue m) ++ add → w2.enq m = w.enq m ++ add := by
    intro m add h
    obtain ⟨add2, h1, h2⟩ := heff.grow.queue m
    rw [h1] at h
    rw [h2, List.append_cancel_left h]
  refine ⟨w.ralloc, w2, _, hrun, quiet_calls hq, quiet_ran hq, by rw [hr], by rw [hr],
    heff.twf, hta, htf, fun hn => ?_, fun hn => ?_⟩
  · have hslot : queueSlot w tail = .queue (w.res tail).manager := by
      simp [queueSlot, isResolved, hn]
    have hp : Slot.queue (w.res tail).manager ≠ Slot.pending w.ralloc := by simp
    have h1 : Function.update (Function.update el (.pending w.ralloc) [])
        (queueSlot w tail) ((Function.update el (.pending w.ralloc) []) (queueSlot w tail) ++
          [w.talloc]) (.queue (w.res tail).manager) =
        el (.queue (w.res tail).manager) ++ [w.talloc] := by
      rw [hslot, Function.update_same, Function.update_noteq hp]
    refine ⟨h1, henq _ _ h1, fun m hm => ?_⟩
    have hm2 : Slot.queue m ≠ Slot.queue (w.res tail).manager := fun e => hm (by injection e)
    have hm3 : Slot.queue m ≠ Slot.pending w.ralloc := by simp
    have h2 : Function.update (Function.update el (.pending w.ralloc) [])
        (queueSlot w tail) ((Function.update el (.pending w.ralloc) []) (queueSlot w tail) ++
          [w.talloc]) (.queue m) = el (.queue m) := by
      rw [hslot, Function.update_noteq hm2, Function.update_noteq hm3]
    exact ⟨h2, by simpa using henq m [] (by rw [h2]; simp)⟩
  · have hslot : queueSlot w tail = .pending tail := by
      simp [queueSlot, isResolved, hn]
    have hp : Slot.pending tail ≠ Slot.pending w.ralloc := fun e => hne (by injection e)
    refine ⟨by rw [hslot, Function.update_same, Function.update_noteq hp], fun m => ?_⟩
    have hm2 : Slot.queue m ≠ Slot.pending tail := by simp
    have hm3 : Slot.queue m ≠ Slot.pending w.ralloc := by simp
    have h2 : Function.update (Function.update el (.pending w.ralloc) [])
        (queueSlot w tail) ((Function.update el (.pending w.ralloc) []) (queueSlot w tail) ++
          [w.talloc]) (.queue m) = el (.queue m) := by
      rw [hslot, Function.update_noteq hm2, Function.update_noteq hm3]
    exact ⟨h2, by simpa using henq m [] (by rw [h2]; simp)⟩

theorem when_defers_witness :
    ∃ outer w2 el2, WhenT 1 0 .iface .iface .R (.user 5 ⟨[], []⟩ (fun _ => .ret []))
        World.sample = .ok outer w2 ∧
      w2.calls = World.sample.calls ∧ w2.ran = World.sample.ran ∧
      (w2.res outer).turns = some Empty ∧ (w2.res outer).next = none ∧ TWF w2 el2 ∧
      w2.talloc = World.sample.talloc + 1 ∧
      w2.tf World.sample.talloc = .whenTurn 0 outer .iface false false false
        (.user 5 ⟨[], []⟩ (fun _ => .ret [])) ∧
      ((World.sample.res 0).turns = none →
        el2 (.queue (World.sample.res 0).manager) =
          (fun _ => []) (Slot.queue (World.sample.res 0).manager) ++ [World.sample.talloc] ∧
        w2.enq (World.sample.res 0).manager =
          World.sample.enq (World.sample.res 0).manager ++ [World.sample.talloc] ∧
        ∀ m, m ≠ (World.sample.res 0).manager →
          el2 (.queue m) = (fun _ => []) (Slot.queue m) ∧ w2.enq m = World.sample.enq m) ∧
      ((World.sample.res 0).turns ≠ none →
        el2 (.pending 0) = (fun _ => []) (Slot.pending 0) ++ [World.sample.talloc] ∧
        ∀ m, el2 (.queue m) = (fun _ => []) (Slot.queue m) ∧
          w2.enq m = World.sample.enq m) :=
  when_defers 1 World.sample (fun _ => []) 0 0 .iface .iface .R
    (.user 5 ⟨[], []⟩ (fun _ => .ret [])) false false false rfl TWF.sample rfl (by decide)

/-! ### `Finally` -/

/-- `Finally(r, f)` and `FinallyString(r, f)` are `WhenT` calls on `r` with a function
literal that takes the value and the error and returns a result. -/
theorem finally_unfold (fuel r fid : Nat) (f : Prog) (flag : Bool) :
    (if flag then FinallyString fuel r fid f else Finally fuel r fid f) =
      WhenT fuel r (if flag then .string else .iface) (if flag then .string else .iface)
        (if flag then .StringR else .R)
        (.finallyFn (if flag then .StringR else .R) fid f (some r)) ∧
    whenValidate (if flag then .string else .iface) (if flag then .string else .iface)
      (if flag then .StringR else .R)
      (Fn.sig (.finallyFn (if flag then .StringR else .R) fid f (some r))) =
      .ok (true, true, true) := by
  cases flag
  · exact ⟨rfl, rfl⟩
  · exact ⟨rfl, rfl⟩

/-- C6 (Finally preserves outcome).  `Finally(r, f)` (`flag = false`) and
`FinallyString(r, f)` (`flag = true`) return a new unresolved result `outer` without calling
`f`, and register one continuation turn on `r`: on the queue of the manager if the chain of
`r` ends in a resolved resolver, and on the pending list of that resolver otherwise.  When
that turn runs in a later world in which `r` has resolved (the holder `final` of its outcome
has `turns == nil`, whatever the outcome is, a value or an error) and the body of `f`
returns, the turn returns, the call log has grown by exactly one call of `f`, and `outer`
has been forwarded to `final`, which still stores the outcome it had: `outer` and `r` lead
to the same outcome holder. -/
theorem finally_preserves_outcome (fuel : Nat) (flag : Bool) (w0 : World)
    (el0 : Slot → List Nat) (r tail fid : Nat) (f : Prog)
    (hwf0 : TWF w0 el0) (hc0 : Closed w0) (hr : r < w0.ralloc)
    (htail : getShortest fuel r w0 = .ok tail w0) :
    ∃ outer w1 el1,
      (if flag then FinallyString fuel r fid f else Finally fuel r fid f) w0 = .ok outer w1 ∧
      TWF w1 el1 ∧ w1.calls = w0.calls ∧ w1.ran = w0.ran ∧ w1.talloc = w0.talloc + 1 ∧
      (w1.res outer).turns = some Empty ∧ (w1.res outer).next = none ∧
      w1.tf w0.talloc = .whenTurn tail outer (if flag then .string else .iface) true true true
        (.finallyFn (if flag then .StringR else .R) fid f (some r)) ∧
      ((w0.res tail).turns = none →
        el1 (.queue (w0.res tail).manager) = el0 (.queue (w0.res tail).manager) ++ [w0.talloc]) ∧
      ((w0.res tail).turns ≠ none →
        el1 (.pending tail) = el0 (.pending tail) ++ [w0.talloc]) ∧
      ∀ (w w' : World) (el el' : Slot → List Nat) (final : Nat) (vals : List Iface),
        Stable w1 w → TWF w el → Closed w →
        getShortest fuel r w = .ok final w → (w.res final).turns = none →
        exec fuel f { w with calls := w.calls ++ [(fid, [])] } = .ok vals w' →
        TWF w' el' → (el' (.pending outer)).length ≤ fuel → (w'.res outer).turns ≠ none →
        (w'.res r).manager = (w'.res outer).manager →
        ∃ w2, runThunk fuel (w1.tf w0.talloc) w = .ok () w2 ∧
          w2.calls = w.calls ++ [(fid, [])] ∧ w2.res final = w.res final ∧
          getShortest (fuel + 1) outer w2 = .ok final w2 ∧
          getShortest (fuel + 1) r w2 = .ok final w2 := by
  obtain ⟨hun, hval⟩ := finally_unfold fuel r fid f flag
  have hal : tail < w0.ralloc := getShortest_lt hc0 hr htail
  obtain ⟨outer, w1, el1, hrun, hcalls, hran, hturns, hnext, hwf1, hta, htf, hq, hp⟩ :=
    when_defers fuel w0 el0 r tail _ _ _ _ true true true hval hwf0 htail hal
  obtain ⟨-, -, -, -, -, -, -, -, hst01, -⟩ := WhenT_inv hrun
  refine ⟨outer, w1, el1, by rw [hun]; exact hrun, hwf1, hcalls, hran, hta, hturns, hnext, htf,
    fun h => (hq h).1, fun h => (hp h).1, ?_⟩
  intro w w' el el' final vals hlater hwf hc hfin hres hbody hwf' hfuel hout hm
  have hch0 : Chain w0 r tail := getShortest_chain htail
  have hch : Chain w r tail := hch0.keep hc0 (hst01.trans_stable hlater)
  have hrw : r < w.ralloc := lt_of_lt_of_le hr (hst01.trans_stable hlater).ralloc
  rw [htf]
  exact finally_run hwf hc hrw (getShortest_of_chain hch hfin) hfin hres hbody hwf' hfuel
    hout hm

theorem Closed.of_valued : Closed World.valued := by
  refine ⟨fun a n h => ?_, fun t _ => trivial⟩
  by_cases h0 : a = 0
  · subst h0; simp [World.valued] at h
  · by_cases h1 : a = 1
    · subst h1; simp [World.valued] at h
    · by_cases h2 : a = 2
      · subst h2; simp [World.valued] at h
      · simp [World.valued, h0, h1, h2] at h

theorem finally_preserves_outcome_witness :
    (∃ w2, Finally 2 0 5 (.ret []) World.sample = .ok 3 World.awaited ∧
      World.awaited.calls = [] ∧
      runThunk 2 (World.awaited.tf World.sample.talloc) World.awaited = .ok () w2 ∧
      w2.calls = World.awaited.calls ++ [(5, [])] ∧ w2.res 0 = World.awaited.res 0 ∧
      (World.awaited.res 0).outcome = .err ⟨7⟩ ∧
      getShortest (2 + 1) 3 w2 = .ok 0 w2 ∧ getShortest (2 + 1) 0 w2 = .ok 0 w2) ∧
    (∃ w2, FinallyString 2 1 5 (.ret []) World.valued = .ok 4 World.awaitedString ∧
      World.awaitedString.calls = [] ∧
      runThunk 2 (World.awaitedString.tf World.valued.talloc) World.awaitedString =
        .ok () w2 ∧
      w2.calls = World.awaitedString.calls ++ [(5, [])] ∧
      w2.res 1 = World.awaitedString.res 1 ∧
      (World.awaitedString.res 1).outcome = .str "v" ∧
      getShortest (2 + 1) 4 w2 = .ok 1 w2 ∧ getShortest (2 + 1) 1 w2 = .ok 1 w2) := by
  constructor
  · obtain ⟨outer, w1, el1, hreg, hwf1, hcalls, -, -, hturns, -, -, -, -, hlater⟩ :=
      finally_preserves_outcome 2 false World.sample (fun _ => []) 0 0 5 (.ret [])
        TWF.sample Closed.of_sample (by decide) rfl
    have hreg2 : Finally 2 0 5 (.ret []) World.sample = .ok 3 World.awaited :=
      Res.ok_of_val (by decide!)
    simp only [Bool.false_eq_true, if_false] at hreg
    rw [hreg2] at hreg
    cases hreg
    have hw : WhenT 2 0 .iface .iface .R (.finallyFn .R 5 (.ret []) (some 0)) World.sample =
        .ok 3 World.awaited := hreg2
    obtain ⟨_, _, _, _, -, -, -, -, -, -, -, -, -, hcl⟩ := WhenT_inv hw
    have hg : Effect World.awaited
        { World.awaited with calls := World.awaited.calls ++ [(5, [])] } el1 el1 :=
      Effect.of_ghost hwf1 rfl rfl rfl rfl rfl rfl rfl rfl
    have hnil : el1 (.pending 3) = [] :=
      Ring_isEmpty (hwf1.lists.rings (.pending 3) (some Empty) (by simp [handle, hturns])) rfl
    obtain ⟨w2, h1, h2, h3, h4, h5⟩ := hlater World.awaited
      { World.awaited with calls := World.awaited.calls ++ [(5, [])] } el1 el1 0 []
      (Stable.refl_stable _) hwf1
      (hcl Closed.of_sample (by decide) (fun a ha => by cases ha; decide))
      (getShortest_of_val (by decide!)) (by decide!) rfl hg.twf
      (by rw [hnil]; simp) (by decide!) (by decide!)
    exact ⟨w2, hreg2, hcalls, h1, h2, h3, by decide!, h4, h5⟩
  · obtain ⟨outer, w1, el1, hreg, hwf1, hcalls, -, -, hturns, -, -, -, -, hlater⟩ :=
      finally_preserves_outcome 2 true World.valued (fun _ => []) 1 1 5 (.ret [])
        TWF.valued Closed.of_valued (by decide) rfl
    have hreg2 : FinallyString 2 1 5 (.ret []) World.valued = .ok 4 World.awaitedString :=
      Res.ok_of_val (by decide!)
    simp only [if_true] at hreg
    rw [hreg2] at hreg
    cases hreg
    have hw : WhenT 2 1 .string .string .StringR (.finallyFn .StringR 5 (.ret []) (some 1))
        World.valued = .ok 4 World.awaitedString := hreg2
    obtain ⟨_, _, _, _, -, -, -, -, -, -, -, -, -, hcl⟩ := WhenT_inv hw
    have hg : Effect World.awaitedString
        { World.awaitedString with calls := World.awaitedString.calls ++ [(5, [])] } el1 el1 :=
      Effect.of_ghost hwf1 rfl rfl rfl rfl rfl rfl rfl rfl
    have hnil : el1 (.pending 4) = [] :=
      Ring_isEmpty (hwf1.lists.rings (.pending 4) (some Empty) (by simp [handle, hturns])) rfl
    obtain ⟨w2, h1, h2, h3, h4, h5⟩ := hlater World.awaitedString
      { World.awaitedString with calls := World.awaitedString.calls ++ [(5, [])] } el1 el1 1 []
      (Stable.refl_stable _) hwf1
      (hcl Closed.of_valued (by decide) (fun a ha => by cases ha; decide))
      (getShortest_of_val (by decide!)) (by decide!) rfl hg.twf
      (by rw [hnil]; simp) (by decide!) (by decide!)
    exact ⟨w2, hreg2, hcalls, h1, h2, h3, by decide!, h4, h5⟩

/-! ### The runner -/

/-- C21 (Runner.Done is pre-resolved success): the `done` result of a new runner is
resolved with a `nil` outcome and not forwarded, `Done()` returns that same resolver at
every call, and a continuation with an error parameter attached to it is called with a
`nil` error (after the zero value, if it also takes the value). -/
theorem done_pre_resolved (m : Nat) (w : World) :
    ∃ r w1, NewTurnRunner m w = .ok r w1 ∧ turnRunner.Done r = r.done ∧
      isResolved w1 (turnRunner.Done r) = true ∧
      (w1.res (turnRunner.Done r)).outcome = .nil ∧
      (w1.res (turnRunner.Done r)).outcome.asError = none ∧
      (w1.res (turnRunner.Done r)).next = none ∧
      ∀ (w2 w3 : World) (el : Slot → List Nat) (fuel outer fid : Nat) (inTy : Ty)
        (tv rr : Bool) (sig : FnSig) (body : List Iface → Prog),
        w2.res (turnRunner.Done r) = w1.res (turnRunner.Done r) → TWF w2 el →
        runWhen fuel (turnRunner.Done r) outer inTy tv true rr (.user fid sig body) w2 =
          .ok () w3 →
        w3.calls = w2.calls ++
          [(fid, (if tv then [zeroValue inTy] else []) ++ [Iface.nil])] := by
  refine ⟨⟨m, w.ralloc⟩, _, rfl, rfl, by simp [isResolved, turnRunner.Done],
    by simp [turnRunner.Done], by simp [turnRunner.Done, Iface.asError],
    by simp [turnRunner.Done], ?_⟩
  intro w2 w3 el fuel outer fid inTy tv rr sig body hres hwf h
  have hr : w2.res w.ralloc = ⟨m, none, .nil, none⟩ := by
    simpa [turnRunner.Done] using hres
  have hfin : getShortest fuel w.ralloc w2 = .ok w.ralloc w2 :=
    getShortest_self (by rw [hr]) fuel
  have := runWhen_calls hwf hfin (by rw [hr]) (Or.inl rfl) h
  rw [this, hr]
  simp [Fn.callLog, whenArgs, Iface.asError, ofError]

theorem done_pre_resolved_witness :
    ∃ r w1, NewTurnRunner 0 World.init = .ok r w1 ∧ turnRunner.Done r = r.done ∧
      isResolved w1 (turnRunner.Done r) = true ∧
      (w1.res (turnRunner.Done r)).outcome = .nil ∧
      (w1.res (turnRunner.Done r)).outcome.asError = none ∧
      (w1.res (turnRunner.Done r)).next = none ∧
      ∀ (w2 w3 : World) (el : Slot → List Nat) (fuel outer fid : Nat) (inTy : Ty)
        (tv rr : Bool) (sig : FnSig) (body : List Iface → Prog),
        w2.res (turnRunner.Done r) = w1.res (turnRunner.Done r) → TWF w2 el →
        runWhen fuel (turnRunner.Done r) outer inTy tv true rr (.user fid sig body) w2 =
          .ok () w3 →
        w3.calls = w2.calls ++
          [(fid, (if tv then [zeroValue inTy] else []) ++ [Iface.nil])] :=
  done_pre_resolved 0 World.init

end Drydock

namespace Drydock

/-! ### `Unlink` on a ring -/

theorem unlinkFind_last {h : TurnHeap} {l t : Nat} {pre : List Nat} {b0 fuel : Nat} :
    ∀ {init : List Nat} {b : Nat}, b0 :: pre = init ++ [b] → Links h (b0 :: pre) t →
      t ∉ pre → l ∉ pre → pre.length < fuel → unlinkFind h l t fuel (some b0) = .ok b := by
  induction pre generalizing b0 fuel with
  | nil =>
    intro init b hib hp _ _ hf
    obtain ⟨n, rfl⟩ : ∃ n, fuel = n + 1 := ⟨fuel - 1, by omega⟩
    have hb : b0 = b := by
      cases init with
      | nil => simpa using hib
      | cons i is =>
        have := congrArg List.length hib
        simp at this
    subst hb
    have : h b0 = some t := by simpa using hp.1
    simp [unlinkFind, this]
  | cons p ps ih =>
    intro init b hib hp ht hl hf
    obtain ⟨n, rfl⟩ : ∃ n, fuel = n + 1 := ⟨fuel - 1, by omega⟩
    have hb : h b0 = some p := by simpa using hp.1
    have hpt : p ≠ t := fun e => ht (by simp [e])
    have hpl : p ≠ l := fun e => hl (by simp [e])
    cases init with
    | nil =>
      have := congrArg List.length hib
      simp at this
    | cons i is =>
      have hib2 : p :: ps = is ++ [b] := by
        simp only [List.cons_append, List.cons.injEq] at hib
        exact hib.2
      have := ih hib2 hp.2 (fun hm => ht (by simp [hm])) (fun hm => hl (by simp [hm]))
        (by simpa using hf)
      simp [unlinkFind, hb, hpt, hpl, this]

theorem Unlink_head_eq {h : TurnHeap} {l t z fuel : Nat} (hl0 : l ≠ Empty) (hlt : l ≠ t)
    (hl : h l = some t) (ht : h t = some z) :
    Unlink fuel h (some l) (some t) =
      .ok (Function.update (Function.update h l (h t)) t none, some l) ∧
    RemoveHead h (some l) =
      .ok (Function.update (Function.update h l (h t)) t none, some t, some l) := by
  constructor
  · simp [Unlink, IsEmpty, hl0, hl, ht, hlt.symm]
  · simp [RemoveHead, IsEmpty, hl0, hl, hlt.symm]

theorem Links_retarget {h h2 : TurnHeap} {ys : List Nat} {b c c2 : Nat}
    (hp : Links h (ys ++ [b]) c) (hs : ∀ y ∈ ys, h2 y = h y)
    (hb2 : h2 b = some c2) : Links h2 (ys ++ [b]) c2 := by
  rw [Links_append] at hp ⊢
  exact ⟨Links_congr hs hp.1, by simpa [Links] using hb2⟩

/-- `Unlink` of a member removes that member and keeps the order of the others. -/
theorem Unlink_ring {h : TurnHeap} {l : Option Nat} {xs : List Nat} {t fuel : Nat}
    (hr : Ring h l xs) (ht : t ∈ xs) (hf : xs.length ≤ fuel) :
    ∃ h1 l1, Unlink fuel h l (some t) = .ok (h1, l1) ∧ Ring h1 l1 (xs.erase t) ∧
      h1 t = none ∧ (∀ y, y ∉ xs → h1 y = h y) := by
  obtain ⟨z, hz⟩ := Ring_linked hr t ht
  have hr0 := hr
  obtain ⟨hl, hp, hnd, h0⟩ := hr
  obtain ⟨A, post, hsplit⟩ := List.append_of_mem ht
  subst hsplit
  have htA : t ∉ A := fun hm => (List.nodup_append.1 hnd).2.2 hm (by simp)
  have htpost : t ∉ post := (List.nodup_cons.1 (List.nodup_append.1 hnd).2.1).1
  have hdis : ∀ y ∈ A, y ∉ post := fun y hy hm =>
    (List.nodup_append.1 hnd).2.2 hy (List.mem_cons_of_mem _ hm)
  have herase : (A ++ t :: post).erase t = A ++ post := by
    rw [List.erase_append_right _ htA, List.erase_cons_head]
  have hnd2 : (A ++ post).Nodup := herase ▸ hnd.erase t
  have h02 : Empty ∉ A ++ post := fun hm => h0 (by
    rcases List.mem_append.1 hm with h1 | h1
    · exact List.mem_append_left _ h1
    · exact List.mem_append_right _ (List.mem_cons_of_mem _ h1))
  have ht0 : t ≠ Empty := fun e => h0 (by simp [e])
  rw [herase]
  rcases List.eq_nil_or_concat A with rfl | ⟨init, b, rfl⟩
  · -- t is the head
    simp only [List.nil_append] at hl hp hnd h0 hr0 hf hnd2 h02 ⊢
    rcases List.eq_nil_or_concat post with rfl | ⟨ps, q, rfl⟩
    · simp only [List.getLastD_cons, List.getLastD_nil] at hl
      subst hl
      have hx : h t = some t := by simpa [Links] using hp.1
      refine ⟨Function.update h t none, some Empty, by simp [Unlink, IsEmpty, ht0, hx],
        (Ring_nil_iff _ _).2 rfl, by simp, fun y hy => ?_⟩
      have : y ≠ t := fun e => hy (by simp [e])
      simp [Function.update_noteq this]
    · rw [List.concat_eq_append] at hl hp hnd h0 hr0 hf hnd2 h02 htpost ⊢
      simp only [List.getLastD_cons, List.getLastD_concat] at hl
      subst hl
      obtain ⟨h2, l2, he, hr2, hx2, hfr⟩ := RemoveHead_ring hr0
      have hq0 : q ≠ Empty := fun e => h0 (by simp [e])
      have hqt : q ≠ t := fun e => htpost (by simp [e])
      have hqh : h q = some t := by
        have := hp.2
        rw [Links_append] at this
        simpa [Links] using this.2
      obtain ⟨e1, e2⟩ := @Unlink_head_eq _ _ _ _ fuel hq0 hqt hqh hz
      rw [e2] at he
      cases he
      exact ⟨_, _, e1, hr2, hx2, hfr⟩
  · rw [List.concat_eq_append] at hl hp hnd h0 hr0 hf hnd2 h02 htA hdis ⊢
    obtain ⟨x, pre, hib⟩ : ∃ x pre, x :: pre = init ++ [b] := by
      cases init with
      | nil => exact ⟨b, [], rfl⟩
      | cons i is => exact ⟨i, is ++ [b], rfl⟩
    have hndA : (init ++ [b]).Nodup := (List.nodup_append.1 hnd).1
    have hbi : b ∉ init := fun hm => (List.nodup_append.1 hndA).2.2 hm (by simp)
    have hbt : b ≠ t := fun e => htA (by simp [e])
    have hxt : x ≠ t := fun e => htA (by rw [← hib]; simp [e])
    have htpre : t ∉ pre := fun hm => htA (by rw [← hib]; simp [hm])
    have hhead : ∀ (r : List Nat) (c : Nat), (init ++ [b] ++ r).headD c = x := by
      intro r c
      rw [← hib]; rfl
    rw [hhead] at hp
    rw [Links_append] at hp
    obtain ⟨hpA, hpt⟩ := hp
    simp only [List.headD_cons] at hpA
    have hzt : h t = some (post.headD x) := hpt.1
    have hpost : Links h post x := hpt.2
    have hlk : Links h (x :: pre) t := by rw [hib]; exact hpA
    have hlen : pre.length < fuel := by
      have := congrArg List.length hib
      simp at this hf
      omega
    have hring : ∀ l1, l1 = some ((init ++ [b] ++ post).getLastD Empty) →
        Ring (Function.update (Function.update h b (h t)) t none) l1 (init ++ [b] ++ post) := by
      intro l1 hl1
      refine ⟨hl1, ?_, hnd2, h02⟩
      rw [hhead, Links_append]
      constructor
      · refine Links_retarget hpA (fun y hy => ?_) ?_
        · have h1 : y ≠ t := fun e => htA (by simp [← e, hy])
          have h2 : y ≠ b := fun e => hbi (e ▸ hy)
          simp [Function.update_noteq h1, Function.update_noteq h2]
        · rw [Function.update_noteq hbt, Function.update_same, hzt]
      · refine Links_congr (fun y hy => ?_) hpost
        have h1 : y ≠ t := fun e => htpost (e ▸ hy)
        have h2 : y ≠ b := fun e => hdis b (by simp) (e ▸ hy)
        simp [Function.update_noteq h1, Function.update_noteq h2]
    have hframe : ∀ y, y ∉ init ++ [b] ++ t :: post →
        (Function.update (Function.update h b (h t)) t none) y = h y := by
      intro y hy
      have h1 : y ≠ t := fun e => hy (by simp [e])
      have h2 : y ≠ b := fun e => hy (by simp [e])
      simp [Function.update_noteq h1, Function.update_noteq h2]
    rcases List.eq_nil_or_concat post with rfl | ⟨ps, q, rfl⟩
    · -- t is the tail
      simp only [List.getLastD_concat] at hl
      subst hl
      have hlt : h t = some x := by simpa using hzt
      obtain rfl : z = x := by rw [hz] at hlt; exact Option.some.inj hlt
      have hfind := unlinkFind_last (l := t) hib hlk htpre htpre hlen
      refine ⟨_, some b, ?_, hring _ (by simp), by simp, hframe⟩
      simp only [Unlink, IsEmpty, hz]
      simp [ht0, hlt, hxt, hfind]
    · simp only [List.concat_eq_append] at hl hzt hpost htpost hdis hnd h0 hf hring hframe ⊢
      have hlq : (init ++ [b] ++ t :: (ps ++ [q])).getLastD Empty = q := by
        rw [show init ++ [b] ++ t :: (ps ++ [q]) = (init ++ [b] ++ t :: ps) ++ [q] by simp]
        exact List.getLastD_concat _ _ _
      rw [hlq] at hl
      subst hl
      have hq0 : q ≠ Empty := fun e => h0 (by simp [e])
      have hqt : q ≠ t := fun e => htpost (by simp [e])
      have hxq : x ≠ q := fun e => hdis x (by rw [← hib]; simp) (by simp [e])
      have hqpre : q ∉ pre := fun hm => hdis q (by rw [← hib]; simp [hm]) (by simp)
      have hqh : h q = some x := by
        rw [Links_append] at hpost
        simpa [Links] using hpost.2
      have hfind := unlinkFind_last (l := q) hib hlk htpre hqpre hlen
      have hlq2 : (init ++ [b] ++ (ps ++ [q])).getLastD Empty = q := by
        rw [show init ++ [b] ++ (ps ++ [q]) = (init ++ [b] ++ ps) ++ [q] by simp]
        exact List.getLastD_concat _ _ _
      refine ⟨_, some q, ?_, hring _ (by rw [hlq2]), by simp, hframe⟩
      simp only [Unlink, IsEmpty, hz, hqh]
      simp [hq0, hxq, hxt, hfind, hqt.symm]

theorem unlinkFind_abort {h : TurnHeap} {l t : Nat} {pre : List Nat} {b0 fuel : Nat}
    (hp : Links h (b0 :: pre) l) (ht : t ∉ pre) (htl : t ≠ l) (hl : l ∉ pre)
    (hf : pre.length < fuel) :
    unlinkFind h l t fuel (some b0) =
      .error (.precondition "Expected item %v to be in list %v.") := by
  induction pre generalizing b0 fuel with
  | nil =>
    obtain ⟨n, rfl⟩ : ∃ n, fuel = n + 1 := ⟨fuel - 1, by omega⟩
    have : h b0 = some l := by simpa using hp.1
    simp [unlinkFind, this, htl.symm]
  | cons p ps ih =>
    obtain ⟨n, rfl⟩ : ∃ n, fuel = n + 1 := ⟨fuel - 1, by omega⟩
    have hb : h b0 = some p := by simpa using hp.1
    have hpt : p ≠ t := fun e => ht (by simp [e])
    have hpl : p ≠ l := fun e => hl (by simp [e])
    have := ih hp.2 (fun hm => ht (by simp [hm])) (fun hm => hl (by simp [hm]))
      (by simpa using hf)
    simp [unlinkFind, hb, hpt, hpl, this]

theorem Ring_peek {h : TurnHeap} {l : Option Nat} {x : Nat} {xs : List Nat}
    (hr : Ring h l (x :: xs)) : Peek h l = .ok (some x) := by
  obtain ⟨hl, hp, -, -⟩ := hr
  rcases List.eq_nil_or_concat xs with rfl | ⟨ys, tl, rfl⟩
  · simp only [List.getLastD_cons, List.getLastD_nil] at hl
    subst hl
    have hx : h x = some x := by simpa [Links] using hp.1
    simp [Peek, hx]
  · rw [List.concat_eq_append] at hl hp
    simp only [List.getLastD_cons, List.getLastD_concat] at hl
    subst hl
    have := hp.2
    rw [Links_append] at this
    have htl : h tl = some x := by simpa [Links] using this.2
    simp [Peek, htl]

/-- A turn that is linked but not a member makes `Unlink` stop at an assertion. -/
theorem Unlink_stranger {h : TurnHeap} {l : Option Nat} {xs : List Nat} {t z fuel : Nat}
    (hr : Ring h l xs) (hz : h t = some z) (ht : t ∉ xs) (hf : xs.length ≤ fuel) :
    ∃ msg, Unlink fuel h l (some t) = .error (.precondition msg) := by
  obtain ⟨hl, hp, hnd, h0⟩ := hr
  cases xs with
  | nil =>
    simp only [List.getLastD_nil] at hl
    subst hl
    exact ⟨_, by simp [Unlink, hz, IsEmpty]; rfl⟩
  | cons x rest =>
    rcases List.eq_nil_or_concat rest with rfl | ⟨ys, tl, rfl⟩
    · simp only [List.getLastD_cons, List.getLastD_nil] at hl
      subst hl
      have hx0 : x ≠ Empty := fun e => h0 (by simp [e])
      have hx : h x = some x := by simpa [Links] using hp.1
      have hxt : x ≠ t := fun e => ht (by simp [e])
      exact ⟨_, by simp [Unlink, hz, IsEmpty, hx0, hx, hxt]; rfl⟩
    · rw [List.concat_eq_append] at hl hp hnd h0 ht hf
      simp only [List.getLastD_cons, List.getLastD_concat] at hl
      subst hl
      have ht0 : tl ≠ Empty := fun e => h0 (by simp [e])
      have hxtl : x ≠ tl := fun e => (List.nodup_cons.1 hnd).1 (by simp [e])
      have hxt : x ≠ t := fun e => ht (by simp [e])
      have htt : t ≠ tl := fun e => ht (by simp [e])
      have htys : t ∉ ys := fun hm => ht (by simp [hm])
      have htlys : tl ∉ ys := fun hm =>
        (List.nodup_append.1 (List.nodup_cons.1 hnd).2).2.2 hm (by simp)
      have hp2 : Links h ((x :: ys) ++ [tl]) x := hp
      rw [Links_append] at hp2
      obtain ⟨hlk, htl, -⟩ := hp2
      simp only [List.headD_cons] at hlk htl
      have hlen : ys.length < fuel := by
        simp at hf
        omega
      have hfind := unlinkFind_abort hlk htys htt htlys hlen
      refine ⟨"Expected item %v to be in list %v.", ?_⟩
      simp only [Unlink, IsEmpty, hz, htl]
      simp [ht0, hxtl, hxt, hfind]

/-- C24 (Append precondition): on a well-formed list `L`, `L.Append(add)` aborts, at an
assertion, exactly when `add` is nil, `add` is `Empty`, or `add.next != nil`; otherwise it
returns `add` as the handle of the list with the elements of `L` followed by `add`.  So
`Manager.Queue` of a turn that is in a list aborts. -/
theorem append_precondition (h : TurnHeap) (l add : Option Nat) (xs : List Nat)
    (hr : Ring h l xs) :
    ((∃ f, Append h l add = .error f) ↔
      (add = none ∨ add = some Empty ∨ ∃ a z, add = some a ∧ h a = some z)) ∧
    ((add = none ∨ add = some Empty ∨ ∃ a z, add = some a ∧ h a = some z) →
      ∃ msg, Append h l add = .error (.precondition msg)) ∧
    (∀ a, add = some a → a ≠ Empty → h a = none →
      ∃ h2, Append h l add = .ok (h2, some a) ∧ Ring h2 (some a) (xs ++ [a])) ∧
    (∀ (w : World) (el : Slot → List Nat) (m : Nat) (i : Slot) (t : Nat), TWF w el →
      t ∈ el i → ∃ msg, Manager.Queue m (some t) w = .fault (.precondition msg) w) := by
  have hbad : (add = none ∨ add = some Empty ∨ ∃ a z, add = some a ∧ h a = some z) →
      ∃ msg, Append h l add = .error (.precondition msg) := by
    rintro (rfl | rfl | ⟨a, z, rfl, hz⟩)
    · exact ⟨_, rfl⟩
    · exact ⟨_, by simp [Append, IsEmpty]; rfl⟩
    · by_cases ha : a = Empty
      · subst ha
        exact ⟨_, by simp [Append, IsEmpty]; rfl⟩
      · exact ⟨_, by simp [Append, IsEmpty, ha, hz]; rfl⟩
  have hgood : ∀ a, add = some a → a ≠ Empty → h a = none →
      ∃ h2, Append h l add = .ok (h2, some a) ∧ Ring h2 (some a) (xs ++ [a]) := by
    intro a ha ha0 hn
    subst ha
    obtain ⟨h2, he, hr2, -⟩ := Append_ring hr ha0 hn
    exact ⟨h2, he, hr2⟩
  refine ⟨⟨?_, fun hc => ?_⟩, hbad, hgood, ?_⟩
  · rintro ⟨f, hf⟩
    cases add with
    | none => exact Or.inl rfl
    | some a =>
      by_cases ha : a = Empty
      · exact Or.inr (Or.inl (by rw [ha]))
      · cases hn : h a with
        | none =>
          obtain ⟨h2, he, -⟩ := hgood a rfl ha hn
          rw [he] at hf
          cases hf
        | some z => exact Or.inr (Or.inr ⟨a, z, rfl, hn⟩)
  · obtain ⟨msg, hm⟩ := hbad hc
    exact ⟨_, hm⟩
  · intro w el m i t hw ht
    obtain ⟨z, hz⟩ := hw.lists.linked ht
    have ht0 : t ≠ Empty := fun e => hw.lists.empty_not_mem i (e ▸ ht)
    exact ⟨_, by simp [Manager.Queue, Append, IsEmpty, ht0, hz]; rfl⟩

theorem append_precondition_witness :
    ((∃ f, Append (fun a => if a = 1 then some 1 else none) (some 1) (some 1) = .error f) ↔
      ((some 1 : Option Nat) = none ∨ (some 1 : Option Nat) = some Empty ∨
        ∃ a z, (some 1 : Option Nat) = some a ∧
          (fun a => if a = 1 then some 1 else none) a = some z)) ∧
    (((some 1 : Option Nat) = none ∨ (some 1 : Option Nat) = some Empty ∨
        ∃ a z, (some 1 : Option Nat) = some a ∧
          (fun a => if a = 1 then some 1 else none) a = some z) →
      ∃ msg, Append (fun a => if a = 1 then some 1 else none) (some 1) (some 1) =
        .error (.precondition msg)) ∧
    (∀ a, (some 1 : Option Nat) = some a → a ≠ Empty →
      (fun a => if a = 1 then some 1 else none) a = none →
      ∃ h2, Append (fun a => if a = 1 then some 1 else none) (some 1) (some 1) =
        .ok (h2, some a) ∧ Ring h2 (some a) ([1] ++ [a])) ∧
    (∀ (w : World) (el : Slot → List Nat) (m : Nat) (i : Slot) (t : Nat), TWF w el →
      t ∈ el i → ∃ msg, Manager.Queue m (some t) w = .fault (.precondition msg) w) :=
  append_precondition _ (some 1) (some 1) [1] ⟨rfl, by simp [Links], by decide, by decide⟩

/-- C25 (removal preconditions): `RemoveHead` on `Empty` stops at an assertion, and so
does `L.Unlink(t)` on a well-formed list `L`, `Empty` included, for a turn `t` that is
linked (`t.next != nil`) but not a member of `L`.  An aborted call yields no heap: the code
writes `next` fields only after its last assertion. -/
theorem removal_preconditions (fuel : Nat) (h : TurnHeap) (l : Option Nat) (xs : List Nat)
    (t z : Nat) (hr : Ring h l xs) (hz : h t = some z) (ht : t ∉ xs)
    (hf : xs.length ≤ fuel) :
    RemoveHead h (some Empty) = .error (.precondition "Cannot remove from empty list.") ∧
    ∃ msg, Unlink fuel h l (some t) = .error (.precondition msg) :=
  ⟨by simp [RemoveHead, IsEmpty], Unlink_stranger hr hz ht hf⟩

theorem removal_preconditions_witness :
    RemoveHead (fun a => if a = 1 then some 2 else if a = 2 then some 1
        else if a = 3 then some 3 else none) (some Empty) =
      .error (.precondition "Cannot remove from empty list.") ∧
    ∃ msg, Unlink 2 (fun a => if a = 1 then some 2 else if a = 2 then some 1
        else if a = 3 then some 3 else none) (some 2) (some 3) =
      .error (.precondition msg) :=
  removal_preconditions 2 _ (some 2) [1, 2] 3 3 ⟨rfl, by simp [Links], by decide, by decide⟩
    rfl (by decide) (by decide)

/-- C31 (Unlink removes exactly one element and keeps order): on a well-formed list with
elements `pre ++ t :: post`, head first, `Unlink(t)` returns a well-formed list with
elements `pre ++ post`, whether `t` is the head, in the middle or the tail, and `Empty`
when `t` was the only element; `t` is detached and no turn outside the list is written.
`Peek` on a non-empty list returns the head; it writes nothing. -/
theorem unlink_keeps_order (fuel : Nat) (h : TurnHeap) (l : Option Nat)
    (pre post : List Nat) (t : Nat) (hr : Ring h l (pre ++ t :: post))
    (hf : (pre ++ t :: post).length ≤ fuel) :
    (∃ h1 l1, Unlink fuel h l (some t) = .ok (h1, l1) ∧ Ring h1 l1 (pre ++ post) ∧
      (pre ++ post = [] → l1 = some Empty) ∧ h1 t = none ∧
      ∀ y, y ∉ pre ++ t :: post → h1 y = h y) ∧
    Peek h l = .ok (some ((pre ++ t :: post).headD Empty)) := by
  have hnd := hr.2.2.1
  have htpre : t ∉ pre := fun hm => (List.nodup_append.1 hnd).2.2 hm (by simp)
  have herase : (pre ++ t :: post).erase t = pre ++ post := by
    rw [List.erase_append_right _ htpre, List.erase_cons_head]
  obtain ⟨h1, l1, he, hr1, ht1, hfr⟩ := Unlink_ring (t := t) hr (by simp) hf
  rw [herase] at hr1
  refine ⟨⟨h1, l1, he, hr1, fun hnil => ?_, ht1, hfr⟩, ?_⟩
  · rw [hnil] at hr1
    exact (Ring_nil_iff _ _).1 hr1
  · cases pre with
    | nil => exact Ring_peek hr
    | cons p ps => exact Ring_peek hr

theorem unlink_keeps_order_witness :
    (∃ h1 l1, Unlink 3 (fun a => if a = 1 then some 2 else if a = 2 then some 3
        else if a = 3 then some 1 else none) (some 3) (some 2) = .ok (h1, l1) ∧
      Ring h1 l1 ([1] ++ [3]) ∧ ([1] ++ [3] = [] → l1 = some Empty) ∧ h1 2 = none ∧
      ∀ y, y ∉ [1] ++ 2 :: [3] → h1 y = (fun a => if a = 1 then some 2
        else if a = 2 then some 3 else if a = 3 then some 1 else none) y) ∧
    Peek (fun a => if a = 1 then some 2 else if a = 2 then some 3
        else if a = 3 then some 1 else none) (some 3) =
      .ok (some (([1] ++ 2 :: [3]).headD Empty)) :=
  unlink_keeps_order 3 _ (some 3) [1] [3] 2
    ⟨rfl, by simp [Links], by decide, by decide⟩ (by decide)

/-- C30 (ring well-formedness is preserved): on a handle that is `Empty` or the tail of a
ring of distinct turns, `Append` of a detached turn, `RemoveHead` on a non-empty list and
`Unlink` of a member or of a detached turn return such a handle again; the turn taken out
has `next == nil`, no turn outside the list is written, and if `next == nil` marked the
turns outside the list before the call, it does so after it. -/
theorem ring_preserved (fuel : Nat) (h : TurnHeap) (l : Option Nat) (xs : List Nat)
    (hr : Ring h l xs) (hf : xs.length ≤ fuel) :
    (∀ a, a ≠ Empty → h a = none →
      ∃ h2 l2, Append h l (some a) = .ok (h2, l2) ∧ Ring h2 l2 (xs ++ [a]) ∧
        (∀ y, y ∉ xs ++ [a] → h2 y = h y) ∧
        ((∀ y, h y = none ↔ y ∉ xs) → ∀ y, h2 y = none ↔ y ∉ xs ++ [a])) ∧
    (xs ≠ [] →
      ∃ h2 x l2, RemoveHead h l = .ok (h2, some x, l2) ∧ xs.head? = some x ∧
        Ring h2 l2 xs.tail ∧ h2 x = none ∧ (∀ y, y ∉ xs → h2 y = h y) ∧
        ((∀ y, h y = none ↔ y ∉ xs) → ∀ y, h2 y = none ↔ y ∉ xs.tail)) ∧
    (∀ t, t ∈ xs ∨ h t = none →
      ∃ h2 l2, Unlink fuel h l (some t) = .ok (h2, l2) ∧ Ring h2 l2 (xs.erase t) ∧
        h2 t = none ∧ (∀ y, y ∉ xs → h2 y = h y) ∧
        ((∀ y, h y = none ↔ y ∉ xs) → ∀ y, h2 y = none ↔ y ∉ xs.erase t)) := by
  have hnd := hr.2.2.1
  have key : ∀ {h2 : TurnHeap} {l2 : Option Nat} {xs2 : List Nat}, Ring h2 l2 xs2 →
      (∀ y, y ∉ xs2 → h2 y = none) → ∀ y, h2 y = none ↔ y ∉ xs2 := by
    intro h2 l2 xs2 hr2 hout y
    constructor
    · intro hy hm
      obtain ⟨z, hz⟩ := Ring_linked hr2 y hm
      rw [hy] at hz
      cases hz
    · exact hout y
  refine ⟨fun a ha0 ha => ?_, fun hne => ?_, fun t ht => ?_⟩
  · obtain ⟨h2, he, hr2, hfr⟩ := Append_ring hr ha0 ha
    refine ⟨h2, some a, he, hr2, fun y hy => ?_, fun hiff => key hr2 (fun y hy => ?_)⟩
    · exact hfr y (fun e => hy (by simp [e])) (fun hm => hy (by simp [hm]))
    · rw [hfr y (fun e => hy (by simp [e])) (fun hm => hy (by simp [hm]))]
      exact (hiff y).2 (fun hm => hy (by simp [hm]))
  · cases xs with
    | nil => exact absurd rfl hne
    | cons x rest =>
      obtain ⟨h2, l2, he, hr2, hx, hfr⟩ := RemoveHead_ring hr
      refine ⟨h2, x, l2, he, rfl, hr2, hx, hfr, fun hiff => key hr2 (fun y hy => ?_)⟩
      by_cases hyx : y = x
      · rw [hyx]; exact hx
      · have hy2 : y ∉ x :: rest := by
          simp only [List.mem_cons, not_or]
          exact ⟨hyx, hy⟩
        rw [hfr y hy2]
        exact (hiff y).2 hy2
  · by_cases hm : t ∈ xs
    · obtain ⟨h2, l2, he, hr2, ht2, hfr⟩ := Unlink_ring hr hm hf
      refine ⟨h2, l2, he, hr2, ht2, hfr, fun hiff => key hr2 (fun y hy => ?_)⟩
      by_cases hyt : y = t
      · rw [hyt]; exact ht2
      · have hy2 : y ∉ xs := fun hm2 => hy ((List.mem_erase_of_ne hyt).2 hm2)
        rw [hfr y hy2]
        exact (hiff y).2 hy2
    · have htn : h t = none := by
        rcases ht with ht | ht
        · exact absurd ht hm
        · exact ht
      rw [List.erase_of_not_mem hm]
      exact ⟨h, l, by simp [Unlink, htn], hr, htn, fun _ _ => rfl, fun hiff => hiff⟩

theorem ring_preserved_witness :
    (∀ a, a ≠ Empty → (fun a => if a = 1 then some 2 else if a = 2 then some 1
        else none : TurnHeap) a = none →
      ∃ h2 l2, Append (fun a => if a = 1 then some 2 else if a = 2 then some 1 else none)
          (some 2) (some a) = .ok (h2, l2) ∧ Ring h2 l2 ([1, 2] ++ [a]) ∧
        (∀ y, y ∉ [1, 2] ++ [a] → h2 y = (fun a => if a = 1 then some 2
          else if a = 2 then some 1 else none : TurnHeap) y) ∧
        ((∀ y, (fun a => if a = 1 then some 2 else if a = 2 then some 1
            else none : TurnHeap) y = none ↔ y ∉ [1, 2]) →
          ∀ y, h2 y = none ↔ y ∉ [1, 2] ++ [a])) ∧
    ([1, 2] ≠ [] →
      ∃ h2 x l2, RemoveHead (fun a => if a = 1 then some 2 else if a = 2 then some 1
          else none) (some 2) = .ok (h2, some x, l2) ∧ [1, 2].head? = some x ∧
        Ring h2 l2 [1, 2].tail ∧ h2 x = none ∧
        (∀ y, y ∉ [1, 2] → h2 y = (fun a => if a = 1 then some 2
          else if a = 2 then some 1 else none : TurnHeap) y) ∧
        ((∀ y, (fun a => if a = 1 then some 2 else if a = 2 then some 1
            else none : TurnHeap) y = none ↔ y ∉ [1, 2]) →
          ∀ y, h2 y = none ↔ y ∉ [1, 2].tail)) ∧
    (∀ t, t ∈ [1, 2] ∨ (fun a => if a = 1 then some 2 else if a = 2 then some 1
        else none : TurnHeap) t = none →
      ∃ h2 l2, Unlink 2 (fun a => if a = 1 then some 2 else if a = 2 then some 1 else none)
          (some 2) (some t) = .ok (h2, l2) ∧ Ring h2 l2 ([1, 2].erase t) ∧
        h2 t = none ∧
        (∀ y, y ∉ [1, 2] → h2 y = (fun a => if a = 1 then some 2
          else if a = 2 then some 1 else none : TurnHeap) y) ∧
        ((∀ y, (fun a => if a = 1 then some 2 else if a = 2 then some 1
            else none : TurnHeap) y = none ↔ y ∉ [1, 2]) →
          ∀ y, h2 y = none ↔ y ∉ [1, 2].erase t)) :=
  ring_preserved 2 _ (some 2) [1, 2] ⟨rfl, by simp [Links], by decide, by decide⟩
    (by decide)

/-! ### The sentinel `Empty` -/

theorem unlinkFind_next {h : TurnHeap} {l t : Nat} {fuel : Nat} :
    ∀ {b0 : Option Nat} {b : Nat}, unlinkFind h l t fuel b0 = .ok b → h b = some t := by
  induction fuel with
  | zero => intro b0 b hb; simp [unlinkFind] at hb
  | succ n ih =>
    intro b0 b hb
    cases b0 with
    | none => simp [unlinkFind] at hb
    | some c =>
      simp only [unlinkFind] at hb
      split at hb
      · next hc => cases hb; exact hc
      · split at hb
        · cases hb
        · exact ih hb

theorem Append_empty {h h2 : TurnHeap} {l add l2 : Option Nat} (h0 : h Empty = none)
    (he : Append h l add = .ok (h2, l2)) : h2 Empty = none := by
  unfold Append at he
  cases add with
  | none => cases he
  | some a =>
    simp only at he
    split at he
    · cases he
    · next ha =>
      have ha0 : Empty ≠ a := fun e => ha (by simp [IsEmpty, e])
      split at he
      · cases he
      · split at he
        · cases he
          simp [Function.update_noteq ha0, h0]
        · next hl =>
          cases l with
          | none => cases he
          | some lv =>
            have hl0 : Empty ≠ lv := fun e => hl (by simp [IsEmpty, e])
            cases he
            simp [Function.update_noteq ha0, Function.update_noteq hl0, h0]

theorem RemoveHead_empty {h h2 : TurnHeap} {l x l2 : Option Nat} (h0 : h Empty = none)
    (he : RemoveHead h l = .ok (h2, x, l2)) : h2 Empty = none := by
  unfold RemoveHead at he
  split at he
  · cases he
  · next hl =>
    cases l with
    | none => cases he
    | some lv =>
      have hl0 : Empty ≠ lv := fun e => hl (by simp [IsEmpty, e])
      simp only at he
      split at he
      · cases he
      · next hd hhd =>
        split at he
        · cases he
          simp only [Function.update_apply]
          split
          · rfl
          · exact h0
        · cases he
          simp only [Function.update_apply]
          split
          · rfl
          · exact h0

theorem Unlink_empty {h h2 : TurnHeap} {l t l2 : Option Nat} {fuel : Nat}
    (h0 : h Empty = none) (he : Unlink fuel h l t = .ok (h2, l2)) : h2 Empty = none := by
  unfold Unlink at he
  cases t with
  | none => cases he
  | some tt =>
    simp only at he
    split at he
    · cases he; exact h0
    · split at he
      · cases he
      · next hl =>
        cases l with
        | none => cases he
        | some lv =>
          have hl0 : Empty ≠ lv := fun e => hl (by simp [IsEmpty, e])
          simp only at he
          split at he
          · cases he
          · split at he
            · split at he
              · cases he
                simp only [Function.update_apply]
                split
                · rfl
                · exact h0
              · cases he
            · split at he
              · cases he
                simp only [Function.update_apply]
                split
                · rfl
                · exact h0
              · cases hfind : unlinkFind h lv tt fuel (h lv) with
                | error f => rw [hfind] at he; cases he
                | ok before =>
                  rw [hfind] at he
                  cases he
                  have hb := unlinkFind_next hfind
                  have hb0 : Empty ≠ before := fun e => by
                    rw [← e, h0] at hb
                    cases hb
                  simp only [Function.update_apply]
                  split
                  · rfl
                  · exact h0

theorem runOps_empty {fuel : Nat} (ops : List ListOp) :
    ∀ {h h2 : TurnHeap}, h Empty = none → runOps fuel ops h = .ok h2 → h2 Empty = none := by
  induction ops with
  | nil => intro h h2 h0 he; cases he; exact h0
  | cons op ops ih =>
    intro h h2 h0 he
    simp only [runOps] at he
    cases hop : op.run fuel h with
    | error f => rw [hop] at he; cases he
    | ok h1 =>
      rw [hop] at he
      refine ih ?_ he
      cases op with
      | append l add =>
        simp only [ListOp.run] at hop
        cases ha : Append h l add with
        | error f => rw [ha] at hop; cases hop
        | ok p => rw [ha] at hop; cases hop; exact @Append_empty _ _ _ _ p.2 h0 ha
      | removeHead l =>
        simp only [ListOp.run] at hop
        cases ha : RemoveHead h l with
        | error f => rw [ha] at hop; cases hop
        | ok p =>
          rw [ha] at hop; cases hop
          exact @RemoveHead_empty _ _ _ p.2.1 p.2.2 h0 ha
      | unlink l t =>
        simp only [ListOp.run] at hop
        cases ha : Unlink fuel h l t with
        | error f => rw [ha] at hop; cases hop
        | ok p => rw [ha] at hop; cases hop; exact @Unlink_empty _ _ _ _ p.2 _ h0 ha

/-- C32 (Empty is never mutated): with `Empty.next == nil`, every `Append`, `RemoveHead`
and `Unlink` call that returns, and every sequence of such calls, leaves `Empty.next` nil,
whatever the receiver and the argument are, so `Empty` is never linked into a ring.  With
`Empty` as argument `Append` aborts and `Unlink` returns the list as it is; with `Empty` as
receiver `RemoveHead` aborts, `Unlink` aborts or returns `Empty`, and `Peek` returns nil;
`Peek` writes nothing; and `Run` on `Empty` aborts, so `Empty` is never executed. -/
theorem empty_never_mutated (fuel : Nat) (h : TurnHeap) (h0 : h Empty = none) :
    (∀ l add h2 l2, Append h l add = .ok (h2, l2) → h2 Empty = none) ∧
    (∀ l h2 x l2, RemoveHead h l = .ok (h2, x, l2) → h2 Empty = none) ∧
    (∀ l t h2 l2, Unlink fuel h l t = .ok (h2, l2) → h2 Empty = none) ∧
    (∀ ops h2, runOps fuel ops h = .ok h2 → h2 Empty = none) ∧
    (∀ l, ∃ msg, Append h l (some Empty) = .error (.precondition msg)) ∧
    (∃ msg, RemoveHead h (some Empty) = .error (.precondition msg)) ∧
    (∀ l, Unlink fuel h l (some Empty) = .ok (h, l)) ∧
    (∀ t, (∃ f, Unlink fuel h (some Empty) t = .error f) ∨
      Unlink fuel h (some Empty) t = .ok (h, some Empty)) ∧
    Peek h (some Empty) = .ok none ∧
    (∀ (w : World) (k : Nat), ∃ msg, Run k (some Empty) w = .fault (.precondition msg) w) := by
  refine ⟨fun l add h2 l2 he => Append_empty h0 he,
    fun l h2 x l2 he => RemoveHead_empty h0 he, fun l t h2 l2 he => Unlink_empty h0 he,
    fun ops h2 he => runOps_empty ops h0 he, fun l => ⟨_, by simp [Append, IsEmpty]; rfl⟩,
    ⟨_, by simp [RemoveHead, IsEmpty]; rfl⟩, fun l => by simp [Unlink, h0], fun t => ?_,
    by simp [Peek, h0], fun w k => ⟨_, by simp [Run, IsEmpty]; rfl⟩⟩
  cases t with
  | none => exact Or.inl ⟨_, rfl⟩
  | some tt =>
    cases htt : h tt with
    | none => exact Or.inr (by simp [Unlink, htt])
    | some z => exact Or.inl ⟨_, by simp [Unlink, htt, IsEmpty]; rfl⟩

theorem empty_never_mutated_witness :
    (∀ l add h2 l2, Append (fun _ => none) l add = .ok (h2, l2) → h2 Empty = none) ∧
    (∀ l h2 x l2, RemoveHead (fun _ => none) l = .ok (h2, x, l2) → h2 Empty = none) ∧
    (∀ l t h2 l2, Unlink 1 (fun _ => none) l t = .ok (h2, l2) → h2 Empty = none) ∧
    (∀ ops h2, runOps 1 ops (fun _ => none) = .ok h2 → h2 Empty = none) ∧
    (∀ l, ∃ msg, Append (fun _ => none) l (some Empty) = .error (.precondition msg)) ∧
    (∃ msg, RemoveHead (fun _ => none) (some Empty) = .error (.precondition msg)) ∧
    (∀ l, Unlink 1 (fun _ => none) l (some Empty) = .ok (fun _ => none, l)) ∧
    (∀ t, (∃ f, Unlink 1 (fun _ => none) (some Empty) t = .error f) ∨
      Unlink 1 (fun _ => none) (some Empty) t = .ok (fun _ => none, some Empty)) ∧
    Peek (fun _ => none) (some Empty) = .ok none ∧
    (∀ (w : World) (k : Nat), ∃ msg, Run k (some Empty) w = .fault (.precondition msg) w) :=
  empty_never_mutated 1 (fun _ => none) rfl

end Drydock

namespace Drydock

/-! ### Assertions of the resolver -/

/-- C26 (outcome is value xor error): on an unresolved resolver, `Complete` of an error
value, `Resolve` of an error value, `Resolve` of a non-nil value together with a non-nil
error, and `Fail(nil)` each stop at an assertion and leave the resolver unresolved;
`Complete(v)` with `v` not an error stores `v`, `Fail(e)` with `e != nil` stores `e`, and
`Resolve(v, nil)` and `Resolve(nil, e)` are `Complete(v)` and `Fail(e)`. -/
theorem outcome_value_xor_error (fuel s : Nat) (w : World) (el : Slot → List Nat)
    (hwf : TWF w el) (hs : (w.res s).turns ≠ none)
    (hfuel : (el (.pending s)).length ≤ fuel) :
    (∀ e1, Complete fuel s (.err e1) w =
      .fault (.precondition "Cannot succeed with an error.") w) ∧
    (∀ e1 e, Resolve fuel s (.err e1) e w =
      .fault (.precondition "Cannot succeed with an error.") w) ∧
    (∀ v e1, v ≠ .nil → v.asError = none → Resolve fuel s v (some e1) w =
      .fault (.precondition "Provide either value or err but not both.") w) ∧
    Fail fuel s none w = .fault (.precondition "Cannot fail with nil error.") w ∧
    (∀ v, v.asError = none → ∃ w2, Complete fuel s v w = .ok () w2 ∧
      w2.res s = { w.res s with turns := none, outcome := v }) ∧
    (∀ e1, ∃ w2, Fail fuel s (some e1) w = .ok () w2 ∧
      w2.res s = { w.res s with turns := none, outcome := .err e1 }) ∧
    (∀ v, v.asError = none → Resolve fuel s v none w = Complete fuel s v w) ∧
    (∀ e1, Resolve fuel s .nil (some e1) w = Fail fuel s (some e1) w) := by
  refine ⟨fun e1 => ?_, fun e1 e => ?_, fun v e1 hv hve => ?_, ?_, fun v hv => ?_,
    fun e1 => ?_, fun v hv => ?_, fun e1 => ?_⟩
  · simp [Complete, bind_apply, Iface.asError, assertTrue]
  · simp [Resolve, bind_apply, Iface.asError, assertTrue]
  · simp [Resolve, bind_apply, hve, assertTrue, hv]
  · simp [Fail, bind_apply, assertTrue]
  · obtain ⟨w2, h1, h2, -⟩ := resolve_sets hwf v hs hfuel
    exact ⟨w2, by simpa [Complete, bind_apply, hv, assertTrue] using h1, h2⟩
  · obtain ⟨w2, h1, h2, -⟩ := resolve_sets hwf (.err e1) hs hfuel
    exact ⟨w2, by simpa [Fail, bind_apply, assertTrue, ofError] using h1, h2⟩
  · simp [Resolve, Complete, bind_apply, hv, assertTrue]
  · simp [Resolve, Fail, bind_apply, Iface.asError, assertTrue, ofError]

theorem outcome_value_xor_error_witness :
    (∀ e1, Complete 1 1 (.err e1) World.sample =
      .fault (.precondition "Cannot succeed with an error.") World.sample) ∧
    (∀ e1 e, Resolve 1 1 (.err e1) e World.sample =
      .fault (.precondition "Cannot succeed with an error.") World.sample) ∧
    (∀ v e1, v ≠ .nil → v.asError = none → Resolve 1 1 v (some e1) World.sample =
      .fault (.precondition "Provide either value or err but not both.") World.sample) ∧
    Fail 1 1 none World.sample =
      .fault (.precondition "Cannot fail with nil error.") World.sample ∧
    (∀ v, v.asError = none → ∃ w2, Complete 1 1 v World.sample = .ok () w2 ∧
      w2.res 1 = { World.sample.res 1 with turns := none, outcome := v }) ∧
    (∀ e1, ∃ w2, Fail 1 1 (some e1) World.sample = .ok () w2 ∧
      w2.res 1 = { World.sample.res 1 with turns := none, outcome := .err e1 }) ∧
    (∀ v, v.asError = none → Resolve 1 1 v none World.sample = Complete 1 1 v World.sample) ∧
    (∀ e1, Resolve 1 1 .nil (some e1) World.sample = Fail 1 1 (some e1) World.sample) :=
  outcome_value_xor_error 1 1 World.sample (fun _ => []) TWF.sample (by decide)
    (Nat.zero_le _)

/-- C27 (no cross-manager forwarding): `s.Forward(n)` on an unresolved resolver `s` with
the resolver of `n` on another manager stops at the assertion "Cannot forward across
managers." with nothing written: `s` stays unresolved and unforwarded, with its pending
continuations. -/
theorem forward_across_managers (fuel s nx : Nat) (w : World)
    (hs : (w.res s).turns ≠ none) (hm : (w.res nx).manager ≠ (w.res s).manager) :
    Forward fuel s (some nx) w =
      .fault (.precondition "Cannot forward across managers.") w := by
  obtain ⟨l, hl⟩ := Option.ne_none_iff_exists'.1 hs
  simp [Forward, isResolved, hl, hm]

theorem forward_across_managers_witness :
    Forward 1 1 (some 2)
        { World.sample with res := fun a => if a = 2 then ⟨1, some Empty, .nil, none⟩
            else World.sample.res a } =
      .fault (.precondition "Cannot forward across managers.")
        { World.sample with res := fun a => if a = 2 then ⟨1, some Empty, .nil, none⟩
            else World.sample.res a } :=
  forward_across_managers 1 1 2 _ (by decide) (by decide)

/-! ### What `Forward` does to the continuations -/

/-- C34 (Forward records the tail and re-queues in order): on an unresolved resolver `s`
with pending continuations `c1..cn`, `Forward` to a result whose chain ends in `T != s`
makes `T` the forwarding target of `s`, empties the pending list of `s`, and appends
`c1..cn`, in that order, after the pending continuations of `T` if `T` is unresolved and to
the queue of the manager if `T` is resolved. -/
theorem forward_requeues (fuel s nx tail : Nat) (w : World) (el : Slot → List Nat)
    (hwf : TWF w el) (hs : (w.res s).turns ≠ none)
    (hm : (w.res nx).manager = (w.res s).manager)
    (htail : getShortest fuel nx w = .ok tail w) (hne : tail ≠ s)
    (hfuel : (el (.pending s)).length ≤ fuel) :
    ∃ w2 el2, Forward fuel s (some nx) w = .ok () w2 ∧ TWF w2 el2 ∧
      (w2.res s).next = some tail ∧ (w2.res tail).next = none ∧
      (w2.res s).turns = none ∧ el2 (.pending s) = [] ∧
      ((w.res tail).turns ≠ none →
        el2 (.pending tail) = el (.pending tail) ++ el (.pending s) ∧
        ∀ m, el2 (.queue m) = el (.queue m)) ∧
      ((w.res tail).turns = none →
        el2 (.queue (w.res tail).manager) =
          el (.queue (w.res tail).manager) ++ el (.pending s) ∧
        w2.enq (w.res tail).manager = w.enq (w.res tail).manager ++ el (.pending s)) := by
  obtain ⟨l, hl⟩ := Option.ne_none_iff_exists'.1 hs
  have hwm := hwf.releasePending s
    { w.res s with turns := none, outcome := .nil, next := some tail } rfl
  have hring : Ring w.tnext (some l) (el (.pending s)) :=
    hwf.lists.rings (.pending s) (some l) (by simp [handle, hl])
  have hun : ∀ i, ∀ t ∈ el (.pending s), t ∉ Function.update el (.pending s) [] i := by
    intro i t ht
    by_cases hi : i = .pending s
    · subst hi; simp
    · rw [Function.update_noteq hi]
      exact hwf.lists.disj _ _ (Ne.symm hi) t ht
  have hqs : queueSlot { w with res := (Function.update w.res s
      { w.res s with turns := none, outcome := .nil, next := some tail }) } tail =
      queueSlot w tail := by
    unfold queueSlot isResolved
    simp only [Function.update_noteq hne]
  have hnp : queueSlot w tail ≠ .pending s := by
    unfold queueSlot
    split
    · simp
    · simp [hne]
  have hstep : Forward fuel s (some nx) w = queueList tail fuel (some l) { w with res :=
      (Function.update w.res s
        { w.res s with turns := none, outcome := .nil, next := some tail }) } := by
    simp [Forward, isResolved, hl, hm, htail]
  have htn : (w.res tail).next = none := getShortest_next htail
  rcases queueList_spec tail fuel hwm hring hun with
    ⟨w2, he, hw2, hqo, -, henq, hres⟩ | ⟨hlt, -⟩
  · rw [hqs] at hw2 henq
    rw [Function.update_noteq hnp] at hw2
    have hrs : w2.res s = { w.res s with turns := none, outcome := .nil, next := some tail } := by
      rw [hres s (Or.inr hne.symm)]
      simp
    refine ⟨w2, _, by rw [hstep, he], hw2, by rw [hrs], ?_, by rw [hrs], ?_, fun ht => ?_,
      fun ht => ?_⟩
    · rw [(hqo.res tail).2.2.1]
      simp only [Function.update_noteq hne]
      exact htn
    · rw [Function.update_noteq hnp.symm, Function.update_same]
    · have hslot : queueSlot w tail = .pending tail := by simp [queueSlot, isResolved, ht]
      rw [hslot]
      refine ⟨by rw [Function.update_same], fun m => ?_⟩
      have h1 : Slot.queue m ≠ Slot.pending tail := by simp
      have h2 : Slot.queue m ≠ Slot.pending s := by simp
      rw [Function.update_noteq h1, Function.update_noteq h2]
    · have hslot : queueSlot w tail = .queue (w.res tail).manager := by
        simp [queueSlot, isResolved, ht]
      rw [hslot] at henq ⊢
      refine ⟨by rw [Function.update_same], ?_⟩
      rw [henq]
      simp [enqAdd]
  · omega

theorem chainedLists_other {i : Slot} (h1 : i ≠ .pending 1) (h3 : i ≠ .pending 3) :
    chainedLists i = [] := by
  cases i with
  | queue m => rfl
  | source k => rfl
  | pending s =>
    have a1 : s ≠ 1 := fun e => h1 (by rw [e])
    have a3 : s ≠ 3 := fun e => h3 (by rw [e])
    unfold chainedLists
    split
    · next h => cases h; exact absurd rfl a1
    · next h => cases h; exact absurd rfl a3
    · rfl

theorem TWF.at_chained : TWF World.chained chainedLists := by
  refine ⟨⟨fun i l h => ?_, fun i h => ?_, fun i j hij t ht => ?_⟩, rfl, fun t ht => ?_,
    by decide⟩
  · by_cases h1 : i = .pending 1
    · subst h1
      have : l = some 3 := by simpa [handle, World.chained] using h.symm
      subst this
      exact ⟨rfl, by simp [Links, chainedLists, World.chained],
        by simp [chainedLists], by simp [chainedLists, Empty]⟩
    · by_cases h3 : i = .pending 3
      · subst h3
        have : l = some 1 := by simpa [handle, World.chained] using h.symm
        subst this
        exact ⟨rfl, by simp [Links, chainedLists, World.chained],
          by simp [chainedLists], by simp [chainedLists, Empty]⟩
      · rw [chainedLists_other h1 h3, Ring_nil_iff]
        cases i with
        | queue m => simpa [handle, World.chained, World.sample] using h.symm
        | source k => simpa [handle, World.chained, World.sample, World.init] using h.symm
        | pending s =>
          have a1 : s ≠ 1 := fun e => h1 (by rw [e])
          have a3 : s ≠ 3 := fun e => h3 (by rw [e])
          by_cases a0 : s = 0
          · subst a0; simp [handle, World.chained] at h
          · by_cases a2 : s = 2
            · subst a2; simp [handle, World.chained] at h
            · simpa [handle, World.chained, a0, a1, a2, a3] using h.symm
  · cases i with
    | queue m => simp [handle] at h
    | source k => simp [handle] at h
    | pending s =>
      by_cases a1 : s = 1
      · subst a1; simp [handle, World.chained] at h
      · by_cases a3 : s = 3
        · subst a3; simp [handle, World.chained] at h
        · exact chainedLists_other (fun e => a1 (by injection e)) (fun e => a3 (by injection e))
  · intro hm
    by_cases h1 : i = .pending 1
    · subst h1
      by_cases g3 : j = .pending 3
      · subst g3
        simp [chainedLists] at ht hm
        omega
      · have g1 : j ≠ .pending 1 := fun e => hij e.symm
        rw [chainedLists_other g1 g3] at hm
        cases hm
    · by_cases h3 : i = .pending 3
      · subst h3
        by_cases g1 : j = .pending 1
        · subst g1
          simp [chainedLists] at ht hm
          omega
        · have g3 : j ≠ .pending 3 := fun e => hij e.symm
          rw [chainedLists_other g1 g3] at hm
          cases hm
      · rw [chainedLists_other h1 h3] at ht
        cases ht
  · have h4 : World.chained.talloc = 4 := rfl
    have a1 : t ≠ 1 := by omega
    have a2 : t ≠ 2 := by omega
    have a3 : t ≠ 3 := by omega
    simp [World.chained, a1, a2, a3]

theorem forward_requeues_witness :
    (∃ w2 el2, Forward 2 1 (some 2) World.chained = .ok () w2 ∧ TWF w2 el2 ∧
      (w2.res 1).next = some 3 ∧ (w2.res 3).next = none ∧
      (w2.res 1).turns = none ∧ el2 (.pending 1) = [] ∧
      ((World.chained.res 3).turns ≠ none →
        el2 (.pending 3) = chainedLists (.pending 3) ++ chainedLists (.pending 1) ∧
        ∀ m, el2 (.queue m) = chainedLists (.queue m)) ∧
      ((World.chained.res 3).turns = none →
        el2 (.queue (World.chained.res 3).manager) =
          chainedLists (.queue (World.chained.res 3).manager) ++ chainedLists (.pending 1) ∧
        w2.enq (World.chained.res 3).manager =
          World.chained.enq (World.chained.res 3).manager ++ chainedLists (.pending 1))) ∧
    chainedLists (.pending 3) ++ chainedLists (.pending 1) = [1, 2, 3] ∧
    (World.chained.res 2).next = some 3 ∧ (World.chained.res 3).turns ≠ none ∧
    (∃ w2 el2, Forward 2 1 (some 0) World.chained = .ok () w2 ∧ TWF w2 el2 ∧
      (w2.res 1).next = some 0 ∧ (w2.res 0).next = none ∧
      (w2.res 1).turns = none ∧ el2 (.pending 1) = [] ∧
      ((World.chained.res 0).turns ≠ none →
        el2 (.pending 0) = chainedLists (.pending 0) ++ chainedLists (.pending 1) ∧
        ∀ m, el2 (.queue m) = chainedLists (.queue m)) ∧
      ((World.chained.res 0).turns = none →
        el2 (.queue (World.chained.res 0).manager) =
          chainedLists (.queue (World.chained.res 0).manager) ++ chainedLists (.pending 1) ∧
        w2.enq (World.chained.res 0).manager =
          World.chained.enq (World.chained.res 0).manager ++ chainedLists (.pending 1))) ∧
    (World.chained.res 0).turns = none ∧
    chainedLists (.queue (World.chained.res 0).manager) ++ chainedLists (.pending 1) = [2, 3] :=
  ⟨forward_requeues 2 1 2 3 World.chained chainedLists TWF.at_chained (by decide) rfl rfl
      (by decide) (by decide),
    rfl, rfl, by decide,
    forward_requeues 2 1 0 0 World.chained chainedLists TWF.at_chained (by decide) rfl rfl
      (by decide) (by decide),
    rfl, rfl⟩

end Drydock

namespace Drydock

/-! ### The three states of a resolver -/

theorem Resolver.Tri.of_fields {r r2 : Resolver} (h : r.Tri) (ho : r2.outcome = r.outcome)
    (hn : r2.next = r.next) (ht : r2.turns = none ↔ r.turns = none) : r2.Tri := by
  rcases h with ⟨h1, h2, h3⟩ | ⟨h1, h2, h3⟩ | ⟨h1, h2⟩
  · exact Or.inl ⟨fun e => h1 (ht.1 e), by rw [hn]; exact h2, by rw [ho]; exact h3⟩
  · exact Or.inr (Or.inl ⟨ht.2 h1, by rw [hn]; exact h2, by rw [ho]; exact h3⟩)
  · exact Or.inr (Or.inr ⟨ht.2 h1, by rw [hn]; exact h2⟩)

theorem Resolver.eq_of_same {r r2 : Resolver} (hm : r2.manager = r.manager)
    (ho : r2.outcome = r.outcome) (hn : r2.next = r.next)
    (ht : r2.turns = none ↔ r.turns = none) (h : r.turns = none) : r2 = r := by
  cases r
  cases r2
  simp only at hm ho hn ht h
  subst hm ho hn h
  simp only [Resolver.mk.injEq, true_and, and_true]
  exact ht.2 rfl

theorem Settled.refl_settled (w : World) : Settled w w :=
  ⟨fun h => h, fun _ _ _ => rfl, le_refl _⟩

theorem Settled.trans_settled {w w2 w3 : World} (h1 : Settled w w2) (h2 : Settled w2 w3) :
    Settled w w3 :=
  ⟨fun h => h2.tri (h1.tri h), fun a ha ht => by
    rw [h2.keep a (lt_of_lt_of_le ha h1.ralloc) (by rw [h1.keep a ha ht]; exact ht),
      h1.keep a ha ht], le_trans h1.ralloc h2.ralloc⟩

theorem Settled.by_queueOnly {w w2 : World} (h : QueueOnly w w2) : Settled w w2 :=
  ⟨fun ht a => (ht a).of_fields (h.res a).2.1 (h.res a).2.2.1 (h.res a).2.2.2,
    fun a _ ht => Resolver.eq_of_same (h.res a).1 (h.res a).2.1 (h.res a).2.2.1
      (h.res a).2.2.2 ht, le_of_eq (allocs_ralloc h.allocs).symm⟩

/-- Writing one resolver that has a list of continuations. -/
theorem Settled.of_write {w : World} {s : Nat} {r : Resolver} (hr : r.Tri)
    (hs : (w.res s).turns ≠ none) :
    Settled w { w with res := Function.update w.res s r } := by
  refine ⟨fun ht a => ?_, fun a ha hta => ?_, le_refl _⟩
  · by_cases has : a = s
    · subst has; simpa using hr
    · simpa [Function.update_noteq has] using ht a
  · have has : a ≠ s := by
      rintro rfl
      exact hs hta
    simp [Function.update_noteq has]

/-- Allocating a resolver. -/
theorem Settled.of_alloc {w : World} {r : Resolver} (hr : r.Tri) :
    Settled w { w with res := Function.update w.res w.ralloc r, ralloc := w.ralloc + 1 } := by
  refine ⟨fun ht a => ?_, fun a ha hta => ?_, Nat.le_succ _⟩
  · by_cases has : a = w.ralloc
    · subst has; simpa using hr
    · simpa [Function.update_noteq has] using ht a
  · have has : a ≠ w.ralloc := by omega
    simp [Function.update_noteq has]

theorem Settled.by_resolve {w w2 : World} {fuel s : Nat} {o : Iface}
    (hp : (w.res s).Tri) (h : resolve fuel s o w = .ok () w2) : Settled w w2 := by
  unfold resolve at h
  split at h
  · cases h
  · next hres =>
    have hs : (w.res s).turns ≠ none := by simpa [isResolved] using hres
    have hn : (w.res s).next = none := by
      rcases hp with ⟨-, h2, -⟩ | ⟨h1, -, -⟩ | ⟨h1, -⟩
      · exact h2
      · exact absurd h1 hs
      · exact absurd h1 hs
    have h1 := Settled.of_write (w := w) (s := s)
      (r := { w.res s with turns := none, outcome := o }) (Or.inr (Or.inr ⟨rfl, hn⟩)) hs
    exact h1.trans_settled (Settled.by_queueOnly (queueList_queueOnly fuel h))

theorem Settled.by_forward {w w2 : World} {fuel s : Nat} {n : Option Nat}
    (h : Forward fuel s n w = .ok () w2) : Settled w w2 := by
  unfold Forward at h
  split at h
  · cases h
  · next hres =>
    have hs : (w.res s).turns ≠ none := by simpa [isResolved] using hres
    cases n with
    | none => cases h
    | some nx =>
      simp only at h
      split at h
      · cases h
      · cases hg : getShortest fuel nx w with
        | fault f w1 => rw [hg] at h; cases h
        | ok next w1 =>
          have hw1 : w = w1 := (getShortest_world hg).symm
          subst hw1
          rw [hg] at h
          simp only at h
          have h1 := Settled.of_write (w := w) (s := s)
            (r := { w.res s with turns := none, outcome := .nil, next := some next })
            (Or.inr (Or.inl ⟨rfl, by simp, rfl⟩)) hs
          exact h1.trans_settled (Settled.by_queueOnly (queueList_queueOnly fuel h))

theorem Settled.by_newTurnResolver {w w2 : World} {m s : Nat}
    (h : newTurnResolver m w = .ok s w2) : Settled w w2 := by
  simp only [Drydock.newTurnResolver] at h
  cases h
  exact Settled.of_alloc (Or.inl ⟨by simp, rfl, rfl⟩)

theorem Settled.by_newTurnRunner {w w2 : World} {m : Nat} {r : Runner}
    (h : NewTurnRunner m w = .ok r w2) : Settled w w2 := by
  simp only [NewTurnRunner] at h
  cases h
  exact Settled.of_alloc (Or.inr (Or.inr ⟨rfl, rfl⟩))

theorem Settled.by_whenT {w w2 : World} {fuel s o : Nat} {inTy out outR : Ty} {f : Fn}
    (h : WhenT fuel s inTy out outR f w = .ok o w2) : Settled w w2 := by
  unfold WhenT at h
  cases hv : whenValidate inTy out outR f.sig with
  | error e => rw [hv] at h; cases h
  | ok p =>
    obtain ⟨tv, te, rr⟩ := p
    rw [hv] at h
    simp only at h
    cases hg : (if (w.res s).next.isSome then getShortest fuel s w else Res.ok s w) with
    | fault e w1 => rw [hg] at h; cases h
    | ok s1 w1 =>
      have hw1 : w = w1 := by
        split at hg
        · exact (getShortest_world hg).symm
        · cases hg; rfl
      subst hw1
      rw [hg] at h
      simp only at h
      obtain ⟨outer, wa, ha, h⟩ := bind_ok h
      obtain ⟨id, wb, hb, h⟩ := bind_ok h
      obtain ⟨t, wc, hc, h⟩ := bind_ok h
      obtain ⟨u, wd, hd, h⟩ := bind_ok h
      cases h
      have hsa := Settled.by_newTurnResolver ha
      simp only [Manager.NewID, UniqueIDGenerator.NewID] at hb
      cases hb
      simp only [NewTurn] at hc
      cases hc
      have hq := Settled.by_queueOnly (queue_queueOnly hd)
      exact @Settled.trans_settled _ wa _ ⟨hsa.tri, hsa.keep, hsa.ralloc⟩
        ⟨hq.tri, hq.keep, hq.ralloc⟩

theorem Settled.by_call {w w2 : World} {fuel : Nat} (c : Call) (ht : ∀ a, (w.res a).Tri)
    (h : c.run fuel w = .ok () w2) : Settled w w2 := by
  cases c with
  | newResultT m =>
    simp only [Call.run] at h
    obtain ⟨s, w1, h1, h2⟩ := bind_ok h
    cases h2
    exact Settled.by_newTurnResolver h1
  | complete s v =>
    simp only [Call.run, Complete] at h
    obtain ⟨_, w1, h1, h2⟩ := bind_ok h
    obtain ⟨-, rfl⟩ := assertTrue_ok h1
    exact Settled.by_resolve (ht s) h2
  | fail s e =>
    simp only [Call.run, Fail] at h
    obtain ⟨_, w1, h1, h2⟩ := bind_ok h
    obtain ⟨-, rfl⟩ := assertTrue_ok h1
    exact Settled.by_resolve (ht s) h2
  | resolve s v e =>
    simp only [Call.run, Resolve] at h
    obtain ⟨_, w1, h1, h2⟩ := bind_ok h
    obtain ⟨-, rfl⟩ := assertTrue_ok h1
    split at h2
    · obtain ⟨_, w3, h3, h4⟩ := bind_ok h2
      obtain ⟨-, rfl⟩ := assertTrue_ok h3
      exact Settled.by_resolve (ht s) h4
    · exact Settled.by_resolve (ht s) h2
  | forward s n => exact Settled.by_forward h
  | when r inTy out outR f =>
    simp only [Call.run] at h
    obtain ⟨o, w1, h1, h2⟩ := bind_ok h
    cases h2
    exact Settled.by_whenT h1
  | newRunner m =>
    simp only [Call.run] at h
    obtain ⟨o, w1, h1, h2⟩ := bind_ok h
    cases h2
    exact Settled.by_newTurnRunner h1

theorem Settled.by_calls {fuel : Nat} (cs : List Call) :
    ∀ {w w2 : World}, (∀ a, (w.res a).Tri) → runCalls fuel cs w = .ok () w2 →
      Settled w w2 := by
  induction cs with
  | nil =>
    intro w w2 _ h
    cases h
    exact Settled.refl_settled w
  | cons c cs ih =>
    intro w w2 ht h
    simp only [runCalls] at h
    obtain ⟨_, w1, h1, h2⟩ := bind_ok h
    have hs := Settled.by_call c ht h1
    exact hs.trans_settled (ih (hs.tri ht) h2)

/-- C33 (resolver three-state invariant): along every sequence of `NewResultT`, `Done`
(`NewTurnRunner`), `Complete`, `Fail`, `Resolve`, `Forward` and `When` calls, every resolver
is in exactly one of the states pending (a list of continuations, no forwarding target, no
outcome), forwarded (no list, a target, no outcome) and resolved (no list, no target); a
resolver that is resolved or forwarded is never written again, so it never becomes pending,
and a forwarded resolver holds no continuations. -/
theorem resolver_three_states (fuel : Nat) (cs : List Call) (w w2 : World)
    (h0 : ∀ a, (w.res a).Tri) (hrun : runCalls fuel cs w = .ok () w2) :
    (∀ a, ((w2.res a).Pending ∨ (w2.res a).Forwarded ∨ (w2.res a).Resolved) ∧
      ¬ ((w2.res a).Pending ∧ (w2.res a).Forwarded) ∧
      ¬ ((w2.res a).Pending ∧ (w2.res a).Resolved) ∧
      ¬ ((w2.res a).Forwarded ∧ (w2.res a).Resolved)) ∧
    (∀ a, a < w.ralloc → (w.res a).Resolved ∨ (w.res a).Forwarded → w2.res a = w.res a) ∧
    (∀ a, (w2.res a).Forwarded → (w2.res a).turns = none) := by
  have hs := Settled.by_calls cs h0 hrun
  refine ⟨fun a => ⟨hs.tri h0 a, fun h => h.1.1 h.2.1, fun h => h.1.1 h.2.1,
    fun h => h.1.2.1 h.2.2⟩, fun a ha hst => hs.keep a ha ?_, fun a h => h.1⟩
  rcases hst with h | h
  · exact h.1
  · exact h.1

theorem Tri.sample_tri (a : Nat) : (World.sample.res a).Tri := by
  unfold World.sample
  simp only
  split
  · exact Or.inr (Or.inr ⟨rfl, rfl⟩)
  · exact Or.inl ⟨by simp, rfl, rfl⟩

theorem resolver_three_states_witness :
    (∀ a, (((runCalls 2 [.forward 1 (some 2), .complete 2 (.str "v"), .newResultT 0]
          World.sample).world.res a).Pending ∨
        ((runCalls 2 [.forward 1 (some 2), .complete 2 (.str "v"), .newResultT 0]
          World.sample).world.res a).Forwarded ∨
        ((runCalls 2 [.forward 1 (some 2), .complete 2 (.str "v"), .newResultT 0]
          World.sample).world.res a).Resolved) ∧
      ¬ (((runCalls 2 [.forward 1 (some 2), .complete 2 (.str "v"), .newResultT 0]
          World.sample).world.res a).Pending ∧
        ((runCalls 2 [.forward 1 (some 2), .complete 2 (.str "v"), .newResultT 0]
          World.sample).world.res a).Forwarded) ∧
      ¬ (((runCalls 2 [.forward 1 (some 2), .complete 2 (.str "v"), .newResultT 0]
          World.sample).world.res a).Pending ∧
        ((runCalls 2 [.forward 1 (some 2), .complete 2 (.str "v"), .newResultT 0]
          World.sample).world.res a).Resolved) ∧
      ¬ (((runCalls 2 [.forward 1 (some 2), .complete 2 (.str "v"), .newResultT 0]
          World.sample).world.res a).Forwarded ∧
        ((runCalls 2 [.forward 1 (some 2), .complete 2 (.str "v"), .newResultT 0]
          World.sample).world.res a).Resolved)) ∧
    (∀ a, a < World.sample.ralloc →
      (World.sample.res a).Resolved ∨ (World.sample.res a).Forwarded →
      (runCalls 2 [.forward 1 (some 2), .complete 2 (.str "v"), .newResultT 0]
        World.sample).world.res a = World.sample.res a) ∧
    (∀ a, ((runCalls 2 [.forward 1 (some 2), .complete 2 (.str "v"), .newResultT 0]
        World.sample).world.res a).Forwarded →
      ((runCalls 2 [.forward 1 (some 2), .complete 2 (.str "v"), .newResultT 0]
        World.sample).world.res a).turns = none) :=
  resolver_three_states 2 [.forward 1 (some 2), .complete 2 (.str "v"), .newResultT 0]
    World.sample _ Tri.sample_tri (Res.ok_of_val (by decide!))

end Drydock

namespace Drydock

/-! ### One cycle of the manager -/

theorem reflectSelect_malloc {m : Nat} {w w1 : World} {r : Nat × Bool}
    (h : reflectSelect m w = .ok r w1) : w1.malloc = w.malloc := by
  unfold reflectSelect at h
  simp only at h
  split at h
  · split at h
    · split at h <;> cases h <;> rfl
    · cases h
  · split at h
    · cases h; rfl
    · cases h

theorem remove_malloc {m i : Nat} {w w1 : World}
    (h : EventSet.remove m i w = .ok () w1) : w1.malloc = w.malloc := by
  unfold EventSet.remove at h
  split at h
  · cases h
  · simp only at h
    split at h
    · split at h
      · cases h; rfl
      · cases h
    · cases h

theorem chooseLoop_malloc {m : Nat} (n : Nat) :
    ∀ {w w1 : World} {e : Option Nat}, chooseLoop m n w = .ok e w1 →
      w1.malloc = w.malloc := by
  induction n with
  | zero =>
    intro w w1 e h
    simp only [chooseLoop] at h
    split at h <;> cases h
    rfl
  | succ n ih =>
    intro w w1 e h
    simp only [chooseLoop] at h
    split at h
    · split at h
      · cases h
      · next chosen recvOK wa ha =>
        have hca := reflectSelect_malloc ha
        split at h
        · cases h; exact hca
        · split at h
          · split at h
            · cases h; exact hca
            · cases h
          · split at h
            · cases h
            · next u wb hb => rw [ih h, remove_malloc hb, hca]
    · cases h; rfl

theorem choose_malloc {m fuel : Nat} {b : Bool} {w w1 : World} {e : Option Nat}
    (h : EventSet.choose fuel m b w = .ok e w1) : w1.malloc = w.malloc := by
  unfold EventSet.choose at h
  simp only at h
  split at h
  · cases h
  · rw [chooseLoop_malloc fuel h]

/-- The snapshot loop returns when every turn of the snapshot returns once the loop comes
to it; it runs the turns of the snapshot, in order. -/
theorem runSnapshot_total (inner : Nat) (n : Nat) :
    ∀ {w : World} {el : Slot → List Nat} {list : Option Nat} {xs : List Nat}, TWF w el →
      Ring w.tnext list xs → (∀ i, ∀ t ∈ xs, t ∉ el i) → xs.length ≤ n →
      (∀ k rest wk h t rest2, runTurns inner k list w = .ok rest wk →
        RemoveHead wk.tnext rest = .ok (h, some t, rest2) →
        ∃ w2, Run inner (some t) { wk with tnext := h } = .ok () w2) →
      ∃ w2, runSnapshot inner n list w = .ok () w2 ∧ w2.ran = w.ran ++ xs := by
  induction n with
  | zero =>
    intro w el list xs _ hr _ hlen _
    have : xs = [] := List.length_eq_zero.1 (Nat.le_zero.1 hlen)
    subst this
    have hl := (Ring_nil_iff _ _).1 hr
    subst hl
    exact ⟨w, by simp [runSnapshot, IsEmpty], by simp⟩
  | succ n ih =>
    intro w el list xs hw hr hun hlen hterm
    cases xs with
    | nil =>
      have hl := (Ring_nil_iff _ _).1 hr
      subst hl
      exact ⟨w, by simp [runSnapshot, IsEmpty], by simp⟩
    | cons x rest =>
      have hne : IsEmpty list = false := Ring_ne_empty hr
      obtain ⟨z, hz⟩ := Ring_linked hr x (by simp)
      obtain ⟨h2, l2, he, hr2, hx, hwf, hfr⟩ := hw.lists.removeHead_local hr hun
      have hwa : TWF { w with tnext := h2 } el := hw.setTnext hwf (fun y hy => by
        rw [hfr y (fun hm => ?_)]
        · exact hy
        · obtain ⟨z, hz⟩ := Ring_linked hr y hm
          rw [hy] at hz; cases hz)
      obtain ⟨wb, hb⟩ := hterm 0 list w h2 x l2 rfl he
      obtain ⟨t, elb, hte, heb, hsb, hrb⟩ := Run_ok hwa hb
      cases hte
      have hlinked : ∀ y ∈ rest, h2 y ≠ none := fun y hy e => by
        obtain ⟨z, hz⟩ := Ring_linked hr2 y hy
        rw [e] at hz; cases hz
      have hr3 : Ring wb.tnext l2 rest :=
        Ring_congr (fun y hy => heb.grow.frame y (hlinked y hy)
          (fun i hm => hun i y (List.mem_cons_of_mem _ hy) hm)) hr2
      have hun3 : ∀ i, ∀ y ∈ rest, y ∉ elb i := by
        intro i y hy hm
        rcases heb.grow.origin i y hm with ⟨j, hj⟩ | hd
        · exact hun j y (List.mem_cons_of_mem _ hy) hj
        · exact hlinked y hy hd
      obtain ⟨w2, hrun, hran⟩ := ih heb.twf hr3 hun3 (by simpa using hlen)
        (fun k r wk h t r2 hk hrem => hterm (k + 1) r wk h t r2 (by
          simp only [runTurns, hne, Bool.false_eq_true, if_false, he, hb]
          exact hk) hrem)
      refine ⟨w2, ?_, by rw [hran, hrb]; simp⟩
      simp only [runSnapshot, hne, Bool.false_eq_true, if_false, he, hb]
      exact hrun

/-- C36 (a cycle is bounded): with no signaled source, `runOneLoop` on a queue of `n`
turns, each of which returns when the loop comes to run it, returns after running exactly
those `n` turns, each once and in order, whatever the turns append to the queue while they
run: the loop takes the turns off the list it had at the start, which no turn touches; so a
turn that re-queues itself runs once in the cycle.  Nothing is asked of what the turns are:
they may be continuations made by the runtime, complete results or queue turns. -/
theorem cycle_bounded (fuel m : Nat) (w : World) (el : Slot → List Nat) (c0 : SelectCase)
    (ms : List SelectCase) (hwf : TWF w el) (hset : SetIs w m c0 ms)
    (hns : ∀ c ∈ ms, ∀ e, c.chan = some e → (w.ev e).signaled = false)
    (hterm : ∀ k rest wk h t rest2,
      runTurns fuel k (w.mgr m).turns (World.atSnapshot fuel m w) = .ok rest wk →
      RemoveHead wk.tnext rest = .ok (h, some t, rest2) →
      ∃ w2, Run fuel (some t) { wk with tnext := h } = .ok () w2)
    (hfuel : (el (.queue m)).length ≤ fuel) (hms : ms.length ≤ fuel) (h1 : 1 ≤ fuel) :
    ∃ w2, Manager.runOneLoop fuel m w = .ok () w2 ∧ w2.ran = w.ran ++ el (.queue m) ∧
      (el (.queue m)).Nodup := by
  obtain ⟨w1, ms1, hsel, -, -, -, -, hcore, -⟩ := Select_poll hset hns hms
  have hing : ingestSources fuel m fuel w = .ok () w1 := by
    obtain ⟨k, rfl⟩ : ∃ k, fuel = k + 1 := ⟨fuel - 1, by omega⟩
    simp only [ingestSources, hsel]
  have hw1 : TWF w1 el := TWF.of_core hcore hwf
  have hc := hcore
  simp only [World.core, Prod.mk.injEq] at hc
  obtain ⟨-, -, -, -, -, -, -, -, -, -, hran, -, hq⟩ := hc
  have hqm : (w1.mgr m).turns = (w.mgr m).turns := congrFun hq m
  have hring : Ring w1.tnext (w1.mgr m).turns (el (.queue m)) :=
    hw1.lists.rings (.queue m) _ rfl
  have hat : World.atSnapshot fuel m w = { w1 with mgr := (Function.update w1.mgr m
      { w1.mgr m with turns := some Empty }) } := by
    simp only [World.atSnapshot, hing, Res.world]
  have hws : TWF { w1 with mgr := (Function.update w1.mgr m
      { w1.mgr m with turns := some Empty }) } (Function.update el (.queue m) []) := by
    refine ⟨?_, hw1.empty, hw1.fresh, hw1.pos⟩
    have := handle_setQueue w1 m (some Empty) w1.tnext w1.enq
    rw [show handle { w1 with mgr := (Function.update w1.mgr m
      { w1.mgr m with turns := some Empty }) } = _ from this]
    exact hw1.lists.release _ _ (Or.inr rfl)
  have hun : ∀ i, ∀ t ∈ el (.queue m), t ∉ Function.update el (.queue m) [] i := by
    intro i t ht
    by_cases hi : i = .queue m
    · subst hi; simp
    · rw [Function.update_noteq hi]
      exact hw1.lists.disj _ _ (Ne.symm hi) t ht
  rw [hat, ← hqm] at hterm
  obtain ⟨w2, hrun, hr2⟩ := runSnapshot_total fuel fuel hws hring hun hfuel hterm
  refine ⟨w2, ?_, by rw [hr2]; show w1.ran ++ _ = _; rw [hran], hring.2.2.1⟩
  unfold Manager.runOneLoop
  rw [hing]
  exact hrun

theorem TWF.at_requeue : TWF World.requeue (fun _ => []) := by
  refine ⟨⟨fun i l h => ?_, fun _ _ => rfl, fun _ _ _ t ht => by cases ht⟩, rfl, fun _ _ => rfl,
    by decide⟩
  rw [Ring_nil_iff]
  cases i with
  | queue m => simpa [handle, World.requeue, World.sample] using h.symm
  | pending s =>
    by_cases hs : s = 0
    · subst hs; simp [handle, World.requeue, World.sample] at h
    · simpa [handle, World.requeue, World.sample, hs] using h.symm
  | source k => simpa [handle, World.requeue, World.sample, World.init] using h.symm

theorem TWF.at_spinning : TWF World.spinning (Function.update (fun _ : Slot => ([] : List Nat))
    (.queue 0) ((fun _ : Slot => ([] : List Nat)) (.queue 0) ++ [1])) := by
  obtain ⟨w2, he, hw2, -⟩ := Manager.Queue_spec TWF.at_requeue 0 (a := 1) (by decide) rfl
    (by decide)
  have : World.spinning = w2 := by
    unfold World.spinning
    rw [he]
    rfl
  rw [this]
  exact hw2

/-- The turn of `World.spinning` returns wherever it is detached: it appends itself to the
queue. -/
theorem requeue_runs (fuel : Nat) (w1 : World) (el1 : Slot → List Nat) (hw : TWF w1 el1)
    (hn : w1.tnext 1 = none) (htf : w1.tf 1 = .user (.queue 0 (some 1) (.ret [])))
    (hm : w1.malloc = 1) (hta : 2 ≤ w1.talloc) :
    ∃ w2, Run fuel (some 1) w1 = .ok () w2 := by
  rw [Run_detached hn (by decide), htf]
  have hg : TWF { w1 with ran := w1.ran ++ [1] } el1 :=
    (Effect.of_ghost hw rfl rfl rfl rfl rfl rfl rfl rfl :
      Effect w1 { w1 with ran := w1.ran ++ [1] } el1 el1).twf
  obtain ⟨w2, he, -⟩ := Manager.Queue_spec hg 0 (a := 1) (by decide) hn (by
    show 1 < w1.talloc
    omega)
  refine ⟨w2, ?_⟩
  have hcond : 0 < w1.malloc ∧ 1 < w1.talloc := ⟨by omega, by omega⟩
  simp [runThunk, exec, bind_apply, guardAlloc, hcond, he, pure_apply]

theorem runTurns_empty (inner : Nat) (k : Nat) (w : World) :
    runTurns inner k (some Empty) w = .ok (some Empty) w := by
  cases k <;> simp [runTurns, IsEmpty]

/-- On a list of one turn that returns, every turn returns when the loop comes to it. -/
theorem runTurns_single {inner t : Nat} {w : World} (ht : t ≠ Empty)
    (hself : w.tnext t = some t)
    (hrun : (Run inner (some t) { w with tnext := Function.update w.tnext t none }).val? =
      some ()) :
    ∀ k rest wk h t2 rest2, runTurns inner k (some t) w = .ok rest wk →
      RemoveHead wk.tnext rest = .ok (h, some t2, rest2) →
      ∃ w2, Run inner (some t2) { wk with tnext := h } = .ok () w2 := by
  have hne : IsEmpty (some t) = false := by simp [IsEmpty, ht]
  have hrem : RemoveHead w.tnext (some t) =
      .ok (Function.update w.tnext t none, some t, some Empty) := by
    simp [RemoveHead, hne, hself]
  have hok := Res.ok_of_val hrun
  intro k rest wk h t2 rest2 hk hr
  cases k with
  | zero =>
    simp only [runTurns] at hk
    cases hk
    rw [hrem] at hr
    cases hr
    exact ⟨_, hok⟩
  | succ k =>
    simp only [runTurns, hne, Bool.false_eq_true, if_false, hrem] at hk
    rw [hok] at hk
    simp only [runTurns_empty] at hk
    cases hk
    simp [RemoveHead, IsEmpty] at hr

theorem cycle_bounded_witness :
    (∃ w2, Manager.runOneLoop 1 0 World.spinning = .ok () w2 ∧
      w2.ran = World.spinning.ran ++ (Function.update (fun _ : Slot => ([] : List Nat))
        (.queue 0) ((fun _ : Slot => ([] : List Nat)) (.queue 0) ++ [1])) (.queue 0) ∧
      ((Function.update (fun _ : Slot => ([] : List Nat))
        (.queue 0) ((fun _ : Slot => ([] : List Nat)) (.queue 0) ++ [1])) (.queue 0)).Nodup) ∧
    (Manager.runOneLoop 1 0 World.spinning).world.ran = [1] ∧
    ((Manager.runOneLoop 1 0 World.spinning).world.mgr 0).turns = some 1 ∧
    (∃ el w2, TWF World.awaited el ∧ el (.queue 0) = [1] ∧
      World.awaited.tf 1 =
        .whenTurn 0 3 .iface true true true (.finallyFn .R 5 (.ret []) (some 0)) ∧
      Manager.runOneLoop 2 0 World.awaited = .ok () w2 ∧
      w2.ran = World.awaited.ran ++ el (.queue 0) ∧ (el (.queue 0)).Nodup) := by
  refine ⟨cycle_bounded 1 0 World.spinning _ ⟨.selectDefault, none⟩ [] TWF.at_spinning
    ⟨by decide!, rfl, fun _ h => (by cases h), by decide!⟩ (fun _ h => by cases h)
    (runTurns_single (by decide) (by decide!) (by decide!))
    (by simp) (by simp) (le_refl _), by decide!, by decide!, ?_⟩
  obtain ⟨outer, w1, el1, hrun, -, -, -, -, hwf1, -, htf, hq, -⟩ :=
    when_defers 2 World.sample (fun _ => []) 0 0 .iface .iface .R
      (.finallyFn .R 5 (.ret []) (some 0)) true true true rfl TWF.sample rfl (by decide)
  have hreg : WhenT 2 0 .iface .iface .R (.finallyFn .R 5 (.ret []) (some 0)) World.sample =
      .ok 3 World.awaited := Res.ok_of_val (by decide!)
  rw [hreg] at hrun
  cases hrun
  have hel : el1 (.queue 0) = [1] := (hq rfl).1
  obtain ⟨w2, h1, h2, h3⟩ := cycle_bounded 2 0 World.awaited el1 ⟨.selectDefault, none⟩ []
    hwf1 ⟨by decide!, rfl, fun _ h => (by cases h), by decide!⟩ (fun _ h => by cases h)
    (runTurns_single (by decide) (by decide!) (by decide!))
    (by rw [hel]; simp) (by simp) (by decide)
  exact ⟨el1, w2, hwf1, hel, htf, h1, h2, h3⟩

/-! ### The snapshot rule -/

theorem RunWith_none {ext : Nat → Option (M Unit)} {fuel t : Nat} (h : ext t = none)
    (w : World) : RunWith ext fuel (some t) w = Run fuel (some t) w := by
  simp only [RunWith, Run, h]

/-- When the functions of the turns of the list are literals of `Thunk`, the loop is
`runSnapshot`. -/
theorem runSnapshotWith_eq (ext : Nat → Option (M Unit)) (inner : Nat) (n : Nat) :
    ∀ {w : World} {el : Slot → List Nat} {list : Option Nat} {xs : List Nat}, TWF w el →
      Ring w.tnext list xs → (∀ i, ∀ t ∈ xs, t ∉ el i) → (∀ t ∈ xs, ext t = none) →
      runSnapshotWith ext inner n list w = runSnapshot inner n list w := by
  induction n with
  | zero =>
    intro w el list xs _ _ _ _
    rfl
  | succ n ih =>
    intro w el list xs hw hr hun hext
    cases xs with
    | nil =>
      have hl := (Ring_nil_iff _ _).1 hr
      subst hl
      simp [runSnapshotWith, runSnapshot, IsEmpty]
    | cons x rest =>
      have hne : IsEmpty list = false := Ring_ne_empty hr
      obtain ⟨h2, l2, he, hr2, hx, hwf, hfr⟩ := hw.lists.removeHead_local hr hun
      have hwa : TWF { w with tnext := h2 } el := hw.setTnext hwf (fun y hy => by
        rw [hfr y (fun hm => ?_)]
        · exact hy
        · obtain ⟨z, hz⟩ := Ring_linked hr y hm
          rw [hy] at hz; cases hz)
      simp only [runSnapshotWith, runSnapshot, hne, Bool.false_eq_true, if_false, he,
        RunWith_none (hext x (by simp))]
      cases hb : Run inner (some x) { w with tnext := h2 } with
      | fault f wb => rfl
      | ok u wb =>
        obtain ⟨t, elb, hte, heb, hsb, hrb⟩ := Run_ok hwa hb
        cases hte
        have hlinked : ∀ y ∈ rest, h2 y ≠ none := fun y hy e => by
          obtain ⟨z, hz⟩ := Ring_linked hr2 y hy
          rw [e] at hz; cases hz
        have hr3 : Ring wb.tnext l2 rest :=
          Ring_congr (fun y hy => heb.grow.frame y (hlinked y hy)
            (fun i hm => hun i y (List.mem_cons_of_mem _ hy) hm)) hr2
        have hun3 : ∀ i, ∀ y ∈ rest, y ∉ elb i := by
          intro i y hy hm
          rcases heb.grow.origin i y hm with ⟨j, hj⟩ | hd
          · exact hun j y (List.mem_cons_of_mem _ hy) hj
          · exact hlinked y hy hd
        exact ih heb.twf hr3 hun3 (fun t ht => hext t (List.mem_cons_of_mem _ ht))

theorem runOneLoopWith_eq {ext : Nat → Option (M Unit)} {fuel m : Nat} {w : World}
    {el : Slot → List Nat} (hwf : TWF w el) (hns : NoSignal w m)
    (hext : ∀ t ∈ el (.queue m), ext t = none) :
    Manager.runOneLoopWith ext fuel m w = Manager.runOneLoop fuel m w := by
  unfold Manager.runOneLoopWith Manager.runOneLoop
  cases h1 : ingestSources fuel m fuel w with
  | fault f w1 => rfl
  | ok u w1 =>
    have hcore := ingestSources_nosignal hns h1
    have hw1 : TWF w1 el := TWF.of_core hcore hwf
    have hring : Ring w1.tnext (w1.mgr m).turns (el (.queue m)) :=
      hw1.lists.rings (.queue m) _ rfl
    have hws : TWF { w1 with mgr := (Function.update w1.mgr m
        { w1.mgr m with turns := some Empty }) } (Function.update el (.queue m) []) := by
      refine ⟨?_, hw1.empty, hw1.fresh, hw1.pos⟩
      have := handle_setQueue w1 m (some Empty) w1.tnext w1.enq
      rw [show handle { w1 with mgr := (Function.update w1.mgr m
        { w1.mgr m with turns := some Empty }) } = _ from this]
      exact hw1.lists.release _ _ (Or.inr rfl)
    have hun : ∀ i, ∀ t ∈ el (.queue m), t ∉ Function.update el (.queue m) [] i := by
      intro i t ht
      by_cases hi : i = .queue m
      · subst hi; simp
      · rw [Function.update_noteq hi]
        exact hw1.lists.disj _ _ (Ne.symm hi) t ht
    exact runSnapshotWith_eq ext fuel fuel hws hring hun hext

/-- C7 (snapshot rule): with no signaled sources, `runOneLoop` on the queue `[t1..tn]`, none
of whose functions calls back into the loop of the manager (they are function literals of
the runtime or client code made of calls on results, resolvers and the queue), runs exactly
`t1..tn`, each once and in that order, and the turns appended to the manager queue while
they run are not run but form the manager queue, in the order of their appends, when
`runOneLoop` returns.  The functions of the turns that are not in the queue at the start
are arbitrary. -/
theorem snapshot_rule (ext : Nat → Option (M Unit)) (fuel m : Nat) (w w2 : World)
    (el : Slot → List Nat) (hwf : TWF w el) (hns : NoSignal w m)
    (hext : ∀ t ∈ el (.queue m), ext t = none)
    (hrun : Manager.runOneLoopWith ext fuel m w = .ok () w2) :
    w2.ran = w.ran ++ el (.queue m) ∧
      ∃ add, w2.enq m = w.enq m ++ add ∧ Ring w2.tnext (w2.mgr m).turns add := by
  rw [runOneLoopWith_eq hwf hns hext] at hrun
  exact runOneLoop_spec hwf hns hrun

theorem snapshot_rule_witness :
    ((Manager.runOneLoopWith (fun t => if t = 1 then none else some (reenter 1 0)) 1 0
        World.spinning).world.ran = World.spinning.ran ++
        (Function.update (fun _ : Slot => ([] : List Nat)) (.queue 0)
          ((fun _ : Slot => ([] : List Nat)) (.queue 0) ++ [1])) (.queue 0) ∧
      ∃ add, (Manager.runOneLoopWith (fun t => if t = 1 then none else some (reenter 1 0)) 1 0
          World.spinning).world.enq 0 = World.spinning.enq 0 ++ add ∧
        Ring (Manager.runOneLoopWith (fun t => if t = 1 then none else some (reenter 1 0)) 1 0
            World.spinning).world.tnext
          ((Manager.runOneLoopWith (fun t => if t = 1 then none else some (reenter 1 0)) 1 0
            World.spinning).world.mgr 0).turns add) ∧
    World.spinning.tf 1 = .user (.queue 0 (some 1) (.ret [])) ∧
    (Manager.runOneLoopWith (fun t => if t = 1 then none else some (reenter 1 0)) 1 0
      World.spinning).world.ran = [1] ∧
    (Manager.runOneLoopWith (fun t => if t = 1 then none else some (reenter 1 0)) 1 0
      World.spinning).world.enq 0 = [1, 1] ∧
    ((Manager.runOneLoopWith (fun t => if t = 1 then none else some (reenter 1 0)) 1 0
      World.spinning).world.mgr 0).turns = some 1 :=
  ⟨snapshot_rule (fun t => if t = 1 then none else some (reenter 1 0)) 1 0 World.spinning _ _
    TWF.at_spinning
    (fun c hc e he => by
      have h : (World.spinning.mgr 0).sources.cases = [⟨.selectDefault, none⟩] := by decide!
      rw [h] at hc
      simp only [List.mem_singleton] at hc
      subst hc
      cases he)
    (fun t ht => by
      simp only [Function.update_same, List.nil_append, List.mem_singleton] at ht
      simp [ht])
    (Res.ok_of_val (by decide!)), rfl, by decide!, by decide!, by decide!⟩

/-- C7 as stated fails for a turn that calls `RunOneTurn`, an exported method of the
manager: the turn at 1, the only one in the queue, creates a turn and calls
`m.RunOneTurn()`, which takes that new turn off the queue and runs it, inside the same call
of `runOneLoop`. -/
theorem snapshot_reentrant :
    World.queued.enq 0 = [1] ∧ World.queued.ran = [] ∧
    (Manager.runOneLoopWith (fun t => if t = 1 then some (reenter 1 0) else none) 1 0
      World.queued).val? = some () ∧
    (Manager.runOneLoopWith (fun t => if t = 1 then some (reenter 1 0) else none) 1 0
      World.queued).world.enq 0 = [1, 2] ∧
    (Manager.runOneLoopWith (fun t => if t = 1 then some (reenter 1 0) else none) 1 0
      World.queued).world.ran = [1, 2] ∧
    ((Manager.runOneLoopWith (fun t => if t = 1 then some (reenter 1 0) else none) 1 0
      World.queued).world.mgr 0).turns = some Empty :=
  ⟨by decide!, by decide!, by decide!, by decide!, by decide!, by decide!⟩

/-! ### The end of `RunUntil` -/

/-- C39 (RunUntil stops without draining): when the variable `mainExited` is set at the
end of a cycle, which the continuation that `RunUntil` attached to the root does when it
runs, the loop of `RunUntil` returns with the world as that cycle left it: no further turn
is run and the queue of the manager is untouched, so the turns enqueued during the cycle
are still in it.  The wait on the event set is entered only when the queue is empty and
`mainExited` is not set: otherwise nothing is done between two cycles. -/
theorem rununtil_stops (inner m cell fuel : Nat) (w w1 : World)
    (hcell : (w.cells cell).isNone = true)
    (hloop : Manager.runOneLoop inner m w = .ok () w1)
    (hexit : (w1.cells cell).isSome = true) :
    runUntilLoop inner m cell (fuel + 1) w = .ok () w1 ∧
    (∀ (a : Iface) (w3 : World), ∃ w4, callFn inner (.runUntilRecord cell) [a] w3 =
      .ok [a] w4 ∧ (w4.cells cell).isSome = true) ∧
    (∀ (el : Slot → List Nat), TWF w el → NoSignal w m →
      w1.ran = w.ran ++ el (.queue m) ∧
      ∃ add, w1.enq m = w.enq m ++ add ∧ Ring w1.tnext (w1.mgr m).turns add) ∧
    (∀ w3 : World, ¬ (IsEmpty (w3.mgr m).turns = true ∧ (w3.cells cell).isNone = true) →
      waitForSources inner m cell w3 = .ok () w3) := by
  have hwait : ∀ w3 : World,
      ¬ (IsEmpty (w3.mgr m).turns = true ∧ (w3.cells cell).isNone = true) →
      waitForSources inner m cell w3 = .ok () w3 := by
    intro w3 h3
    unfold waitForSources
    have : (IsEmpty (w3.mgr m).turns && (w3.cells cell).isNone) = false := by
      cases h1 : IsEmpty (w3.mgr m).turns
      · rfl
      · cases h2 : (w3.cells cell).isNone
        · rfl
        · exact absurd ⟨h1, h2⟩ h3
    simp [this]
  have hnone : (w1.cells cell).isNone = false := by
    cases hc : w1.cells cell with
    | none => rw [hc] at hexit; cases hexit
    | some v => rfl
  refine ⟨?_, fun a w3 => ?_, fun el hwf hns => runOneLoop_spec hwf hns hloop, hwait⟩
  · have hw1 := hwait w1 (fun h => by rw [hnone] at h; cases h.2)
    cases fuel with
    | zero => simp [runUntilLoop, hcell, hloop, hw1, hnone]
    | succ k => simp [runUntilLoop, hcell, hloop, hw1, hnone]
  · exact ⟨_, rfl, by simp⟩

theorem rununtil_stops_witness :
    runUntilLoop 3 0 0 (0 + 1) World.exiting =
      .ok () (Manager.runOneLoop 3 0 World.exiting).world ∧
    (∀ (a : Iface) (w3 : World), ∃ w4, callFn 3 (.runUntilRecord 0) [a] w3 =
      .ok [a] w4 ∧ (w4.cells 0).isSome = true) ∧
    (∀ (el : Slot → List Nat), TWF World.exiting el → NoSignal World.exiting 0 →
      (Manager.runOneLoop 3 0 World.exiting).world.ran = World.exiting.ran ++ el (.queue 0) ∧
      ∃ add, (Manager.runOneLoop 3 0 World.exiting).world.enq 0 =
          World.exiting.enq 0 ++ add ∧
        Ring (Manager.runOneLoop 3 0 World.exiting).world.tnext
          ((Manager.runOneLoop 3 0 World.exiting).world.mgr 0).turns add) ∧
    (∀ w3 : World, ¬ (IsEmpty (w3.mgr 0).turns = true ∧ (w3.cells 0).isNone = true) →
      waitForSources 3 0 0 w3 = .ok () w3) :=
  rununtil_stops 3 0 0 0 World.exiting _ (by decide!) (Res.ok_of_val (by decide!))
    (by decide!)

end Drydock

namespace Drydock

/-! ### Ingestion of completion turns -/

/-- The inner loop of the ingestion returns: it moves the turns of the list to the end of
the queue, in order. -/
theorem ingestList_total (m : Nat) (n : Nat) :
    ∀ {w : World} {el : Slot → List Nat} {list : Option Nat} {xs : List Nat}, TWF w el →
      Ring w.tnext list xs → (∀ i, ∀ t ∈ xs, t ∉ el i) → xs.length ≤ n →
      ∃ w2, ingestList m n list w = .ok () w2 ∧
        TWF w2 (Function.update el (.queue m) (el (.queue m) ++ xs)) ∧ QueueOnly w w2 := by
  induction n with
  | zero =>
    intro w el list xs hw hr _ hlen
    have : xs = [] := List.length_eq_zero.1 (Nat.le_zero.1 hlen)
    subst this
    have hl := (Ring_nil_iff _ _).1 hr
    subst hl
    exact ⟨w, by simp [ingestList, IsEmpty], by simpa using hw, QueueOnly.refl_queueOnly _⟩
  | succ n ih =>
    intro w el list xs hw hr hun hlen
    cases xs with
    | nil =>
      have hl := (Ring_nil_iff _ _).1 hr
      subst hl
      exact ⟨w, by simp [ingestList, IsEmpty], by simpa using hw, QueueOnly.refl_queueOnly _⟩
    | cons x rest =>
      have hne : IsEmpty list = false := Ring_ne_empty hr
      obtain ⟨z, hz⟩ := Ring_linked hr x (by simp)
      have hx0 : x ≠ Empty := fun e => hr.2.2.2 (by simp [e])
      have hxr : x ∉ rest := (List.nodup_cons.1 hr.2.2.1).1
      obtain ⟨h2, l2, he, hr2, hx, hwf, hfr⟩ := hw.lists.removeHead_local hr hun
      have hwa : TWF { w with tnext := h2 } el := hw.setTnext hwf (fun y hy => by
        rw [hfr y (fun hm => ?_)]
        · exact hy
        · obtain ⟨z, hz⟩ := Ring_linked hr y hm
          rw [hy] at hz; cases hz)
      obtain ⟨wb, hqe, hwb, hqo, hfrb, -, -⟩ :=
        Manager.Queue_spec hwa m (a := x) hx0 hx (hw.lt_talloc hz)
      have hr3 : Ring wb.tnext l2 rest :=
        Ring_congr (fun y hy => hfrb y (fun e => hxr (e ▸ hy))
          (hun _ y (List.mem_cons_of_mem _ hy))) hr2
      have hun3 : ∀ i, ∀ t ∈ rest,
          t ∉ Function.update el (.queue m) (el (.queue m) ++ [x]) i := by
        intro i t ht
        by_cases hi : i = .queue m
        · subst hi
          rw [Function.update_same]
          intro hm
          rcases List.mem_append.1 hm with hm | hm
          · exact hun _ t (List.mem_cons_of_mem _ ht) hm
          · simp only [List.mem_singleton] at hm
            exact hxr (hm ▸ ht)
        · rw [Function.update_noteq hi]
          exact hun i t (List.mem_cons_of_mem _ ht)
      obtain ⟨w2, hrun, hw2, hqo2⟩ := ih hwb hr3 hun3 (by simpa using hlen)
      have hq0 : QueueOnly w { w with tnext := h2 } :=
        ⟨rfl, rfl, fun _ => ⟨rfl, rfl, rfl, Iff.rfl⟩⟩
      refine ⟨w2, ?_, ?_, (hq0.trans_queueOnly hqo).trans_queueOnly hqo2⟩
      · simp only [ingestList, hne, Bool.false_eq_true, if_false, he, hqe]
        exact hrun
      · simpa [Function.update_same, List.append_assoc] using hw2

theorem SetIs.of_sources {w w2 : World} {m : Nat} {c0 : SelectCase} {ms : List SelectCase}
    (h : SetIs w m c0 ms) (hm : (w2.mgr m).sources = (w.mgr m).sources) :
    SetIs w2 m c0 ms := by
  unfold SetIs at h ⊢
  rw [hm]; exact h

/-- C37 (I/O ingestion order): at the start of `runOneLoop`, with one signaled source whose
completion list is `d1..dk` and the queue `t1..tn`, the ingestion returns with the queue
`t1..tn, d1..dk` and the list of the source `Empty`, before any turn is run; so the cycle,
if it returns, has run `t1..tn` and then `d1..dk`.  `getAllTurns` returns the whole list of
the source and leaves it `Empty`: a second `getAllTurns` returns `Empty`. -/
theorem io_ingestion_order (fuel m k e : Nat) (w : World) (el : Slot → List Nat)
    (c0 : SelectCase) (ms : List SelectCase) (hwf : TWF w el) (hset : SetIs w m c0 ms)
    (hmem : (⟨.selectRecv, some e⟩ : SelectCase) ∈ ms) (hsig : (w.ev e).signaled = true)
    (hdata : (w.ev e).data = k)
    (hothers : ∀ c ∈ ms, ∀ e2, c.chan = some e2 → e2 ≠ e → (w.ev e2).signaled = false)
    (hms : ms.length ≤ fuel) (hk : (el (.source k)).length ≤ fuel) (h2 : 2 ≤ fuel) :
    (∃ w1, ingestSources fuel m fuel w = .ok () w1 ∧
      TWF w1 (Function.update (Function.update el (.source k) []) (.queue m)
        (el (.queue m) ++ el (.source k))) ∧
      (w1.src k).list = some Empty ∧ w1.ran = w.ran) ∧
    (∀ w2, Manager.runOneLoop fuel m w = .ok () w2 →
      w2.ran = w.ran ++ (el (.queue m) ++ el (.source k))) ∧
    (∀ w3 : World, ∃ wa wb, turnSource.getAllTurns k w3 = .ok (w3.src k).list wa ∧
      (wa.src k).list = some Empty ∧ wa.tnext = w3.tnext ∧
      turnSource.getAllTurns k wa = .ok (some Empty) wb) := by
  obtain ⟨e1, w1, ms1, hsel, hse1, hme1, hev1, hset1, hsub, -, hcore1, hlen1⟩ :=
    Select_pick hset ⟨_, hmem, e, rfl, hsig⟩ hms
  have hee : e1 = e := by
    by_contra hne
    rw [hothers _ hme1 e1 rfl hne] at hse1
    cases hse1
  subst hee
  have hd1 : (w1.ev e1).data = k := by
    rw [hev1]
    simpa using hdata
  have hw1 : TWF w1 el := TWF.of_core hcore1 hwf
  have hc := hcore1
  simp only [World.core, Prod.mk.injEq] at hc
  obtain ⟨-, -, -, -, -, -, hsrc1, -, -, -, hran1, -, -⟩ := hc
  obtain ⟨ws, hws⟩ : ∃ x : World, x = { w1 with src := (Function.update w1.src k
      { w1.src k with list := some Empty }) } := ⟨_, rfl⟩
  have hget : turnSource.getAllTurns (w1.ev e1).data w1 = .ok (w1.src k).list ws := by
    rw [hd1, hws]
    rfl
  have hring : Ring ws.tnext (w1.src k).list (el (.source k)) := by
    subst hws
    exact hw1.lists.rings (.source _) _ rfl
  have hwb : TWF ws (Function.update el (.source k) []) := by
    subst hws
    refine ⟨?_, hw1.empty, hw1.fresh, hw1.pos⟩
    rw [show handle _ = _ from handle_setSource w1 k (some Empty)]
    exact hw1.lists.release _ _ (Or.inr rfl)
  have hun : ∀ i, ∀ t ∈ el (.source k), t ∉ Function.update el (.source k) [] i := by
    intro i t ht
    by_cases hi2 : i = .source k
    · subst hi2; simp
    · rw [Function.update_noteq hi2]
      exact hw1.lists.disj _ _ (Ne.symm hi2) t ht
  obtain ⟨wc, hing, hwc, hqo⟩ := ingestList_total m fuel hwb hring hun hk
  have hq : (Function.update el (.source k) []) (.queue m) = el (.queue m) :=
    Function.update_noteq (by simp) _ _
  rw [hq] at hwc
  have hsetc : SetIs wc m ⟨.selectDefault, none⟩ ms1 := by
    refine hset1.of_sources ?_
    rw [quiet_sources hqo.quiet m, hws]
  have hevc : wc.ev = Function.update w.ev e1 { w.ev e1 with signaled := false } := by
    rw [quiet_ev hqo.quiet, hws]
    exact hev1
  have hnsc : ∀ c ∈ ms1, ∀ e2, c.chan = some e2 → (wc.ev e2).signaled = false := by
    intro c hc e2 he2
    rw [hevc]
    by_cases h : e2 = e1
    · subst h; simp
    · rw [Function.update_noteq h]
      exact hothers c (hsub c hc) e2 he2 h
  obtain ⟨wd, ms2, hseld, -, -, -, -, hcored, -⟩ :=
    Select_poll hsetc hnsc (le_trans hlen1 hms)
  have hwd := TWF.of_core hcored hwc
  have hcd := hcored
  simp only [World.core, Prod.mk.injEq] at hcd
  obtain ⟨-, -, -, -, -, -, hsrcd, -, -, -, hrand, -, -⟩ := hcd
  have hingest : ingestSources fuel m fuel w = .ok () wd := by
    obtain ⟨j, rfl⟩ : ∃ j, fuel = j + 2 := ⟨fuel - 2, by omega⟩
    simp only [ingestSources, hsel, hget, hing, hseld]
  have hrd : wd.ran = w.ran := by
    rw [hrand, quiet_ran hqo.quiet, hws]
    exact hran1
  refine ⟨⟨wd, hingest, hwd, ?_, hrd⟩, fun w2 hrun => ?_, fun w3 =>
    ⟨(turnSource.getAllTurns k w3).world,
      (turnSource.getAllTurns k (turnSource.getAllTurns k w3).world).world, rfl,
      by simp [turnSource.getAllTurns, Res.world], rfl,
      by simp [turnSource.getAllTurns, Res.world]⟩⟩
  · rw [hsrcd, quiet_src hqo.quiet, hws]
    simp
  · unfold Manager.runOneLoop at hrun
    rw [hingest] at hrun
    simp only at hrun
    have hringq := hwd.lists.rings (.queue m) _ rfl
    rw [Function.update_same] at hringq
    have hwsq : TWF { wd with mgr := (Function.update wd.mgr m
        { wd.mgr m with turns := some Empty }) }
        (Function.update (Function.update (Function.update el (.source k) []) (.queue m)
          (el (.queue m) ++ el (.source k))) (.queue m) []) := by
      refine ⟨?_, hwd.empty, hwd.fresh, hwd.pos⟩
      have := handle_setQueue wd m (some Empty) wd.tnext wd.enq
      rw [show handle { wd with mgr := (Function.update wd.mgr m
        { wd.mgr m with turns := some Empty }) } = _ from this]
      exact hwd.lists.release _ _ (Or.inr rfl)
    have hunq : ∀ i, ∀ t ∈ el (.queue m) ++ el (.source k),
        t ∉ Function.update (Function.update (Function.update el (.source k) []) (.queue m)
          (el (.queue m) ++ el (.source k))) (.queue m) [] i := by
      intro i t ht
      by_cases hi : i = .queue m
      · subst hi; simp
      · rw [Function.update_noteq hi]
        have := hwd.lists.disj (.queue m) i (Ne.symm hi) t (by rw [Function.update_same]; exact ht)
        exact this
    obtain ⟨el2, -, hr2, -⟩ := runSnapshot_ok fuel fuel hwsq hringq hunq hrun
    rw [hr2]
    show wd.ran ++ _ = _
    rw [hrd]

theorem TWF.at_delivering : TWF World.delivering deliveringLists := by
  refine ⟨⟨fun i l h => ?_, fun i h => ?_, fun i j hij t ht => ?_⟩, rfl, fun t ht => ?_,
    by decide⟩
  · cases i with
    | queue m =>
      have : l = some Empty := by simpa [handle, World.delivering] using h.symm
      subst this
      exact (Ring_nil_iff _ _).2 rfl
    | pending s =>
      have : l = some Empty := by
        by_cases hs : s = 0
        · subst hs; simp [handle, World.delivering, World.sample] at h
        · simpa [handle, World.delivering, World.sample, hs] using h.symm
      subst this
      exact (Ring_nil_iff _ _).2 rfl
    | source k =>
      by_cases hk : k = 0
      · subst hk
        have : l = some 1 := by simpa [handle, World.delivering] using h.symm
        subst this
        exact ⟨rfl, by simp [Links, deliveringLists, World.delivering],
          by simp [deliveringLists], by simp [deliveringLists, Empty]⟩
      · have : l = some Empty := by simpa [handle, World.delivering, hk] using h.symm
        subst this
        have hn : Slot.source k ≠ Slot.source 0 := fun e => hk (by injection e)
        simp [deliveringLists, Function.update_noteq hn, Ring_nil_iff]
  · cases i with
    | queue m => simp [handle] at h
    | pending s => simp [deliveringLists]
    | source k => simp [handle] at h
  · intro hm
    have hi : i = .source 0 := by
      by_contra hne
      simp [deliveringLists, Function.update_noteq hne] at ht
    have hj : j = .source 0 := by
      by_contra hne
      simp [deliveringLists, Function.update_noteq hne] at hm
    exact hij (hi.trans hj.symm)
  · have : t ≠ 1 := by
      have : World.delivering.talloc = 2 := rfl
      omega
    simp [World.delivering, this]

theorem io_ingestion_order_witness :
    (∃ w1, ingestSources 2 0 2 World.delivering = .ok () w1 ∧
      TWF w1 (Function.update (Function.update deliveringLists (.source 0) []) (.queue 0)
        (deliveringLists (.queue 0) ++ deliveringLists (.source 0))) ∧
      (w1.src 0).list = some Empty ∧ w1.ran = World.delivering.ran) ∧
    (∀ w2, Manager.runOneLoop 2 0 World.delivering = .ok () w2 →
      w2.ran = World.delivering.ran ++
        (deliveringLists (.queue 0) ++ deliveringLists (.source 0))) ∧
    (∀ w3 : World, ∃ wa wb, turnSource.getAllTurns 0 w3 = .ok (w3.src 0).list wa ∧
      (wa.src 0).list = some Empty ∧ wa.tnext = w3.tnext ∧
      turnSource.getAllTurns 0 wa = .ok (some Empty) wb) :=
  io_ingestion_order 2 0 0 0 World.delivering deliveringLists ⟨.selectDefault, none⟩
    [⟨.selectRecv, some 0⟩] TWF.at_delivering ⟨rfl, rfl, (by simp), rfl⟩ (by simp) rfl rfl
    (fun c hc e2 he2 hne => by
      simp only [List.mem_singleton] at hc
      subst hc
      simp only [Option.some.injEq] at he2
      exact absurd he2.symm hne)
    (by decide) (by simp [deliveringLists]) (le_refl _)

end Drydock

namespace Drydock

/-! ### The shape of an event set -/

/-- The members after `remove` are those before it without the member removed, each
once. -/
theorem remove_perm {w : World} {m j : Nat} {c0 c : SelectCase} {ms : List SelectCase}
    (h : SetIs w m c0 ms) (hnd : ms.Nodup) (hj : ms.get? j = some c) :
    ∃ w2 ms2, EventSet.remove m (j + 1) w = .ok () w2 ∧ SetIs w2 m c0 ms2 ∧
      ms2.Perm (ms.erase c) ∧ w2.ev = w.ev := by
  obtain ⟨w2, ms2, hrem, h2, hlen, hsub, hkeep, -, hev⟩ := remove_member h hj
  refine ⟨w2, ms2, hrem, h2, ?_, hev⟩
  have hc : c ∈ ms := List.get?_mem hj
  have hsubset : ms.erase c ⊆ ms2 := by
    intro x hx
    rcases hkeep x (List.mem_of_mem_erase hx) with h1 | h1
    · exact h1
    · subst h1
      exact absurd hx (hnd.not_mem_erase)
  have hsp := List.subperm_of_subset (hnd.erase c) hsubset
  have hl : ms2.length ≤ (ms.erase c).length := by
    rw [List.length_erase_of_mem hc]
    omega
  exact (hsp.perm_of_length_le hl).symm

/-- The loop of `choose` keeps the shape of the set and only takes members out. -/
theorem chooseLoop_keeps {m : Nat} {c0 : SelectCase} (n : Nat) :
    ∀ {w w1 : World} {ms : List SelectCase} {e : Option Nat}, SetIs w m c0 ms →
      chooseLoop m n w = .ok e w1 → ∃ ms1, SetIs w1 m c0 ms1 ∧ ∀ x ∈ ms1, x ∈ ms := by
  induction n with
  | zero =>
    intro w w1 ms e h hrun
    simp only [chooseLoop] at hrun
    split at hrun
    · cases hrun
    · cases hrun
      exact ⟨ms, h, fun _ hx => hx⟩
  | succ n ih =>
    intro w w1 ms e h hrun
    simp only [chooseLoop] at hrun
    split at hrun
    · split at hrun
      · cases hrun
      · next chosen recvOK wa ha =>
        have hma := (reflectSelect_core ha).2
        have hsa : SetIs wa m c0 ms := h.of_mgr hma
        split at hrun
        · cases hrun
          exact ⟨ms, hsa, fun _ hx => hx⟩
        · next hch =>
          split at hrun
          · split at hrun
            · cases hrun
              exact ⟨ms, hsa, fun _ hx => hx⟩
            · cases hrun
          · split at hrun
            · cases hrun
            · next u wb hb =>
              obtain ⟨j, rfl⟩ : ∃ j, chosen = j + 1 := ⟨chosen - 1, by omega⟩
              have hjlt : j < ms.length := by
                have hb2 := hb
                unfold EventSet.remove at hb2
                simp only [Nat.succ_ne_zero, if_false] at hb2
                split at hb2
                · split at hb2
                  · next hlt =>
                    have := hlt.2
                    rw [hsa.1] at this
                    simpa using this
                  · cases hb2
                · cases hb2
              obtain ⟨c, hc⟩ : ∃ c, ms.get? j = some c :=
                ⟨ms.get ⟨j, hjlt⟩, List.get?_eq_get hjlt⟩
              obtain ⟨w2, ms2, hrem, h2, -, hsub, -⟩ := remove_member hsa hc
              rw [hrem] at hb
              cases hb
              obtain ⟨ms1, h3, hsub3⟩ := ih h2 hrun
              exact ⟨ms1, h3, fun x hx => hsub x (hsub3 x hx)⟩
    · cases hrun
      exact ⟨ms, h, fun _ hx => hx⟩

theorem choose_keeps {w w1 : World} {m fuel : Nat} {c0 : SelectCase} {ms : List SelectCase}
    {b : Bool} {e : Option Nat} (h : SetIs w m c0 ms)
    (hrun : EventSet.choose fuel m b w = .ok e w1) :
    ∃ c1 ms1, SetIs w1 m c1 ms1 ∧ ∀ x ∈ ms1, x ∈ ms := by
  obtain ⟨w0, he, h0, -, -⟩ := @choose_eq w m fuel c0 ms h b
  rw [he] at hrun
  obtain ⟨ms1, h1, h3⟩ := chooseLoop_keeps fuel h0 hrun
  exact ⟨_, ms1, h1, h3⟩

theorem chooseLoop_shape {m : Nat} {c0 : SelectCase} (n : Nat) :
    ∀ {w w1 : World} {ms : List SelectCase} {e : Option Nat}, SetIs w m c0 ms → ms.Nodup →
      chooseLoop m n w = .ok e w1 →
      ∃ ms1, SetIs w1 m c0 ms1 ∧ ms1.Nodup ∧ ∀ x ∈ ms1, x ∈ ms := by
  induction n with
  | zero =>
    intro w w1 ms e h hnd hrun
    simp only [chooseLoop] at hrun
    split at hrun
    · cases hrun
    · cases hrun
      exact ⟨ms, h, hnd, fun _ hx => hx⟩
  | succ n ih =>
    intro w w1 ms e h hnd hrun
    simp only [chooseLoop] at hrun
    split at hrun
    · split at hrun
      · cases hrun
      · next chosen recvOK wa ha =>
        have hma := (reflectSelect_core ha).2
        have hsa : SetIs wa m c0 ms := h.of_mgr hma
        split at hrun
        · cases hrun
          exact ⟨ms, hsa, hnd, fun _ hx => hx⟩
        · next hch =>
          split at hrun
          · split at hrun
            · cases hrun
              exact ⟨ms, hsa, hnd, fun _ hx => hx⟩
            · cases hrun
          · split at hrun
            · cases hrun
            · next u wb hb =>
              obtain ⟨j, rfl⟩ : ∃ j, chosen = j + 1 := ⟨chosen - 1, by omega⟩
              have hjlt : j < ms.length := by
                have hb2 := hb
                unfold EventSet.remove at hb2
                simp only [Nat.succ_ne_zero, if_false] at hb2
                split at hb2
                · split at hb2
                  · next hlt =>
                    have := hlt.2
                    rw [hsa.1] at this
                    simpa using this
                  · cases hb2
                · cases hb2
              obtain ⟨c, hc⟩ : ∃ c, ms.get? j = some c :=
                ⟨ms.get ⟨j, hjlt⟩, List.get?_eq_get hjlt⟩
              obtain ⟨w2, ms2, hrem, h2, hperm, -⟩ := remove_perm hsa hnd hc
              rw [hrem] at hb
              cases hb
              obtain ⟨ms1, h3, hnd3, hsub3⟩ :=
                ih h2 (hperm.nodup_iff.2 (hnd.erase c)) hrun
              exact ⟨ms1, h3, hnd3, fun x hx =>
                List.mem_of_mem_erase (hperm.subset (hsub3 x hx))⟩
    · cases hrun
      exact ⟨ms, h, hnd, fun _ hx => hx⟩

theorem choose_shape {w w1 : World} {m fuel : Nat} {c0 : SelectCase} {ms : List SelectCase}
    {b : Bool} {e : Option Nat} (h : SetIs w m c0 ms) (hnd : ms.Nodup)
    (hrun : EventSet.choose fuel m b w = .ok e w1) :
    ∃ c1 ms1, SetIs w1 m c1 ms1 ∧ ms1.Nodup ∧ ∀ x ∈ ms1, x ∈ ms := by
  obtain ⟨w0, he, h0, -, -⟩ := @choose_eq w m fuel c0 ms h b
  rw [he] at hrun
  obtain ⟨ms1, h1, h2, h3⟩ := chooseLoop_shape fuel h0 hnd hrun
  exact ⟨_, ms1, h1, h2, h3⟩

theorem SetIs.of_event {w : World} {m a : Nat} {c0 : SelectCase} {ms : List SelectCase}
    (h : SetIs w m c0 ms) (v : Event) :
    SetIs { w with ev := Function.update w.ev a v } m c0 ms := h

theorem SetIs.add {w : World} {m e : Nat} {c0 : SelectCase} {ms : List SelectCase}
    (h : SetIs w m c0 ms) :
    ∃ w2, EventSet.Add m e w = .ok () w2 ∧ SetIs w2 m c0 (ms ++ [⟨.selectRecv, some e⟩]) := by
  obtain ⟨hcs, hc0, hms, hal⟩ := h
  refine ⟨_, rfl, ?_, hc0, ?_, ?_⟩
  · simp [hcs]
  · intro c hc
    rcases List.mem_append.1 hc with h1 | h1
    · exact hms c h1
    · simp only [List.mem_singleton] at h1
      subst h1
      exact ⟨rfl, rfl⟩
  · simp [hal]

/-- The shape of the event set of manager `m` in every world reached. -/
theorem SetReach.shaped {fuel m : Nat} {w0 w : World} {c0 : SelectCase}
    (h0 : SetIs w0 m c0 []) (hr : SetReach fuel m w0 w) : ∃ c1 ms1, SetIs w m c1 ms1 := by
  induction hr with
  | start => exact ⟨c0, [], h0⟩
  | @call w w2 op _ hrun ih =>
    obtain ⟨c1, ms1, hs⟩ := ih
    cases op with
    | add e =>
      obtain ⟨w3, he, hs3⟩ := hs.add (e := e)
      simp only [SetOp.run] at hrun
      rw [he] at hrun
      cases hrun
      exact ⟨c1, _, hs3⟩
    | select =>
      simp only [SetOp.run] at hrun
      obtain ⟨e, w3, h3, h4⟩ := bind_ok hrun
      cases h4
      obtain ⟨c2, ms2, hs2, -⟩ := choose_keeps hs h3
      exact ⟨c2, ms2, hs2⟩
    | wait =>
      simp only [SetOp.run] at hrun
      obtain ⟨e, w3, h3, h4⟩ := bind_ok hrun
      cases h4
      obtain ⟨c2, ms2, hs2, -⟩ := choose_keeps hs h3
      exact ⟨c2, ms2, hs2⟩
    | signal e =>
      simp only [SetOp.run, Event.Signal] at hrun
      split at hrun
      · cases hrun
      · cases hrun
        exact ⟨c1, ms1, hs.of_event _⟩
    | close e =>
      simp only [SetOp.run, Event.Close] at hrun
      split at hrun
      · cases hrun
      · cases hrun
        exact ⟨c1, ms1, hs.of_event _⟩

/-- The invariant of the event set of manager `m`. -/
theorem SetReachOnce.shape {fuel m : Nat} {w0 w : World} {c0 : SelectCase}
    (h0 : SetIs w0 m c0 []) (hr : SetReachOnce fuel m w0 w) :
    ∃ c1 ms1, SetIs w m c1 ms1 ∧ ms1.Nodup := by
  induction hr with
  | start => exact ⟨c0, [], h0, List.nodup_nil⟩
  | @call w w2 op _ hfresh hrun ih =>
    obtain ⟨c1, ms1, hs, hnd⟩ := ih
    cases op with
    | add e =>
      obtain ⟨w3, he, hs3⟩ := hs.add (e := e)
      simp only [SetOp.run] at hrun
      rw [he] at hrun
      cases hrun
      refine ⟨c1, _, hs3, ?_⟩
      rw [List.nodup_append]
      refine ⟨hnd, by simp, ?_⟩
      intro x hx hx2
      simp only [List.mem_singleton] at hx2
      subst hx2
      apply hfresh e rfl
      rw [hs.1]
      exact List.mem_cons_of_mem _ hx
    | select =>
      simp only [SetOp.run] at hrun
      obtain ⟨e, w3, h3, h4⟩ := bind_ok hrun
      cases h4
      obtain ⟨c2, ms2, hs2, hnd2, -⟩ := choose_shape hs hnd h3
      exact ⟨c2, ms2, hs2, hnd2⟩
    | wait =>
      simp only [SetOp.run] at hrun
      obtain ⟨e, w3, h3, h4⟩ := bind_ok hrun
      cases h4
      obtain ⟨c2, ms2, hs2, hnd2, -⟩ := choose_shape hs hnd h3
      exact ⟨c2, ms2, hs2, hnd2⟩
    | signal e =>
      simp only [SetOp.run, Event.Signal] at hrun
      split at hrun
      · cases hrun
      · cases hrun
        exact ⟨c1, ms1, hs.of_event _, hnd⟩
    | close e =>
      simp only [SetOp.run, Event.Close] at hrun
      split at hrun
      · cases hrun
      · cases hrun
        exact ⟨c1, ms1, hs.of_event _, hnd⟩

/-- C38 (removing closed members keeps the set consistent): in every state reached from a
new event set by `Add`, `Select` and `Wait`, with events signaled and closed in any order in
between, the slices `cases` and `events` have the same length, at least 1; the case at
index 0 has no channel and is never removed; every other case is a receive on the channel
of the event at its index; and `remove` of the member at an index returns, keeps all this
and takes out one registration, of that member.  When no event was added that was
registered already, every member is registered once and the members after `remove` are
the other members, each once. -/
theorem event_set_consistent (fuel m : Nat) (w0 w : World) (c0 : SelectCase)
    (h0 : SetIs w0 m c0 []) :
    NewEventSet.cases = [⟨.selectDefault, none⟩] ∧ NewEventSet.events = [none] ∧
    (SetReach fuel m w0 w →
      (w.mgr m).sources.events.length = (w.mgr m).sources.cases.length ∧
      1 ≤ (w.mgr m).sources.cases.length ∧
      (w.mgr m).sources.events = (w.mgr m).sources.cases.map (·.chan) ∧
      (∃ c1, (w.mgr m).sources.cases.head? = some c1 ∧ c1.chan = none) ∧
      (∀ c ∈ (w.mgr m).sources.cases.tail, c.dir = .selectRecv ∧ c.chan.isSome = true) ∧
      (∃ msg, EventSet.remove m 0 w = .fault (.precondition msg) w) ∧
      (∀ j c, (w.mgr m).sources.cases.tail.get? j = some c →
        ∃ w2, EventSet.remove m (j + 1) w = .ok () w2 ∧ w2.ev = w.ev ∧
          (w2.mgr m).sources.cases.head? = (w.mgr m).sources.cases.head? ∧
          (w2.mgr m).sources.events = (w2.mgr m).sources.cases.map (·.chan) ∧
          (w2.mgr m).sources.cases.tail.length + 1 = (w.mgr m).sources.cases.tail.length ∧
          (∀ x ∈ (w2.mgr m).sources.cases.tail, x ∈ (w.mgr m).sources.cases.tail) ∧
          (∀ x ∈ (w.mgr m).sources.cases.tail,
            x ∈ (w2.mgr m).sources.cases.tail ∨ x = c))) ∧
    (SetReachOnce fuel m w0 w →
      (w.mgr m).sources.cases.tail.Nodup ∧
      (∀ j c, (w.mgr m).sources.cases.tail.get? j = some c →
        ∃ w2, EventSet.remove m (j + 1) w = .ok () w2 ∧
          (w2.mgr m).sources.cases.tail.Perm ((w.mgr m).sources.cases.tail.erase c))) := by
  refine ⟨rfl, rfl, fun hr => ?_, fun hr => ?_⟩
  · obtain ⟨c1, ms1, hs⟩ := hr.shaped h0
    have hcs := hs.1
    refine ⟨by rw [hs.2.2.2, hcs]; simp, by rw [hcs]; simp, by rw [hs.2.2.2, hcs],
      ⟨c1, by rw [hcs]; rfl, hs.2.1⟩, by rw [hcs]; exact hs.2.2.1,
      ⟨_, by simp [EventSet.remove]; rfl⟩, fun j c hj => ?_⟩
    rw [hcs] at hj ⊢
    simp only [List.tail_cons] at hj ⊢
    obtain ⟨w2, ms2, hrem, h2, hlen, hsub, hkeep, -, hev⟩ := remove_member hs hj
    refine ⟨w2, hrem, hev, by rw [h2.1]; rfl, by rw [h2.2.2.2, h2.1], ?_, ?_, ?_⟩
    · rw [h2.1]; exact hlen
    · rw [h2.1]; exact hsub
    · rw [h2.1]; exact hkeep
  · obtain ⟨c1, ms1, hs, hnd⟩ := hr.shape h0
    have hcs := hs.1
    refine ⟨by rw [hcs]; exact hnd, fun j c hj => ?_⟩
    rw [hcs] at hj ⊢
    simp only [List.tail_cons] at hj ⊢
    obtain ⟨w2, ms2, hrem, h2, hperm, hev⟩ := remove_perm hs hnd hj
    refine ⟨w2, hrem, ?_⟩
    rw [h2.1]
    exact hperm

/-- `Add` does not look for the event in the set: after `Add(e); Add(e)` on a new event set
the event is registered twice, and `remove` of one registration leaves it a member. -/
theorem add_twice_registered_twice :
    SetReach 2 0 World.sample World.addedTwice ∧
    (World.addedTwice.mgr 0).sources.cases.tail =
      [⟨.selectRecv, some 0⟩, ⟨.selectRecv, some 0⟩] ∧
    ¬ (World.addedTwice.mgr 0).sources.cases.tail.Nodup ∧
    (World.addedTwice.mgr 0).sources.members = [0, 0] ∧
    (EventSet.remove 0 1 World.addedTwice).val? = some () ∧
    ((EventSet.remove 0 1 World.addedTwice).world.mgr 0).sources.members = [0] :=
  ⟨SetReach.call (.add 0) (SetReach.call (.add 0) SetReach.start rfl) rfl, rfl, by decide, rfl,
    rfl, rfl⟩

theorem event_set_consistent_witness :
    ((World.addedTwice.mgr 0).sources.events.length =
        (World.addedTwice.mgr 0).sources.cases.length ∧
      1 ≤ (World.addedTwice.mgr 0).sources.cases.length ∧
      (World.addedTwice.mgr 0).sources.events =
        (World.addedTwice.mgr 0).sources.cases.map (·.chan) ∧
      (∃ c1, (World.addedTwice.mgr 0).sources.cases.head? = some c1 ∧ c1.chan = none) ∧
      (∀ c ∈ (World.addedTwice.mgr 0).sources.cases.tail,
        c.dir = .selectRecv ∧ c.chan.isSome = true) ∧
      (∃ msg, EventSet.remove 0 0 World.addedTwice = .fault (.precondition msg)
        World.addedTwice) ∧
      (∀ j c, (World.addedTwice.mgr 0).sources.cases.tail.get? j = some c →
        ∃ w2, EventSet.remove 0 (j + 1) World.addedTwice = .ok () w2 ∧
          w2.ev = World.addedTwice.ev ∧
          (w2.mgr 0).sources.cases.head? = (World.addedTwice.mgr 0).sources.cases.head? ∧
          (w2.mgr 0).sources.events = (w2.mgr 0).sources.cases.map (·.chan) ∧
          (w2.mgr 0).sources.cases.tail.length + 1 =
            (World.addedTwice.mgr 0).sources.cases.tail.length ∧
          (∀ x ∈ (w2.mgr 0).sources.cases.tail,
            x ∈ (World.addedTwice.mgr 0).sources.cases.tail) ∧
          (∀ x ∈ (World.addedTwice.mgr 0).sources.cases.tail,
            x ∈ (w2.mgr 0).sources.cases.tail ∨ x = c))) ∧
    ((World.addedTwo.mgr 0).sources.cases.tail.Nodup ∧
      (∀ j c, (World.addedTwo.mgr 0).sources.cases.tail.get? j = some c →
        ∃ w2, EventSet.remove 0 (j + 1) World.addedTwo = .ok () w2 ∧
          (w2.mgr 0).sources.cases.tail.Perm
            ((World.addedTwo.mgr 0).sources.cases.tail.erase c))) :=
  ⟨(event_set_consistent 2 0 World.sample World.addedTwice ⟨.selectDefault, none⟩
      ⟨rfl, rfl, (by simp), rfl⟩).2.2.1
      (SetReach.call (.add 0) (SetReach.call (.add 0) SetReach.start rfl) rfl),
    (event_set_consistent 2 0 World.sample World.addedTwo ⟨.selectDefault, none⟩
      ⟨rfl, rfl, (by simp), rfl⟩).2.2.2
      (SetReachOnce.call (.add 1)
        (SetReachOnce.call (.add 0) SetReachOnce.start
          (fun e he => by
            cases he
            show _ ∉ [(⟨.selectDefault, none⟩ : SelectCase)]
            simp)
          rfl)
        (fun e he => by
          cases he
          show _ ∉ [(⟨.selectDefault, none⟩ : SelectCase), ⟨.selectRecv, some 0⟩]
          simp)
        rfl)⟩

end Drydock


namespace Drydock

/-! ### `turnRunner.New` -/

theorem turnRunner.New_total {w : World} {el : Slot → List Nat} (hw : TWF w el) (t : Runner)
    (fid : Nat) (f : Prog) :
    ∃ w1, turnRunner.New t fid f w = .ok w.ralloc w1 ∧
      TWF w1 (Function.update (Function.update el (.pending w.ralloc) []) (.queue t.manager)
        (el (.queue t.manager) ++ [w.talloc])) ∧
      w1.quiet = w.quiet ∧
      w1.enq = Function.update w.enq t.manager (w.enq t.manager ++ [w.talloc]) ∧
      w1.talloc = w.talloc + 1 ∧ w1.tf w.talloc = .runnerNew w.ralloc fid f ∧
      w1.res = Function.update w.res w.ralloc ⟨t.manager, some Empty, .nil, none⟩ ∧
      w1.ralloc = w.ralloc + 1 := by
  obtain ⟨-, hea, hqa, hra, hrl⟩ := newTurnResolver_ok (m := t.manager) hw rfl
  obtain ⟨heb, hqb, hrb, -⟩ := Manager.NewID_ok (m := t.manager) hea.twf rfl
  obtain ⟨-, hec, hqc, htn, htf, ht0, htl, hrc⟩ := @NewTurn_ok _ _ _ heb.twf
    ("New" ++ UniqueID.String ((Manager.NewID t.manager
      (newTurnResolver t.manager w).world).val?.getD 0))
    (.runnerNew w.ralloc fid f) _ rfl
  obtain ⟨w1, hq, hwf1, hqo, -, henq, hres⟩ := Manager.Queue_spec hec.twf t.manager ht0 htn htl
  simp only [newTurnResolver, Manager.NewID, UniqueIDGenerator.NewID, NewTurn, Res.world,
    Res.val?, Option.getD] at hq hwf1 hqo henq hres htf
  refine ⟨w1, ?_, ?_, ?_, ?_, ?_, ?_, ?_, ?_⟩
  · simp only [turnRunner.New, turnRunner.NewResultT, Manager.NewTurn, bind_apply,
      newTurnResolver, Manager.NewID, UniqueIDGenerator.NewID, NewTurn, pure_apply]
    rw [hq]
  · have hne : Slot.queue t.manager ≠ Slot.pending w.ralloc := by simp
    rw [Function.update_noteq hne] at hwf1
    exact hwf1
  · rw [hqo.quiet]; rfl
  · rw [henq]; rfl
  · rw [allocs_talloc hqo.allocs]
  · rw [allocs_tf hqo.allocs]; simp
  · rw [hres]
  · rw [allocs_ralloc hqo.allocs]

theorem Forward_total {w : World} {el : Slot → List Nat} (hwf : TWF w el) {fuel s nx tail : Nat}
    (hs : (w.res s).turns ≠ none) (hm : (w.res nx).manager = (w.res s).manager)
    (htail : getShortest fuel nx w = .ok tail w)
    (hfuel : (el (.pending s)).length ≤ fuel) :
    ∃ w2, Forward fuel s (some nx) w = .ok () w2 := by
  obtain ⟨l, hl⟩ := Option.ne_none_iff_exists'.1 hs
  have hwm := hwf.releasePending s
    { w.res s with turns := none, outcome := .nil, next := some tail } rfl
  have hring : Ring w.tnext (some l) (el (.pending s)) :=
    hwf.lists.rings (.pending s) (some l) (by simp [handle, hl])
  have hun : ∀ i, ∀ t ∈ el (.pending s), t ∉ Function.update el (.pending s) [] i := by
    intro i t ht
    by_cases hi : i = .pending s
    · subst hi; simp
    · rw [Function.update_noteq hi]
      exact hwf.lists.disj _ _ (Ne.symm hi) t ht
  have hstep : Forward fuel s (some nx) w = queueList tail fuel (some l) { w with res :=
      (Function.update w.res s
        { w.res s with turns := none, outcome := .nil, next := some tail }) } := by
    simp [Forward, isResolved, hl, hm, htail]
  rcases queueList_spec tail fuel hwm hring hun with ⟨w2, he, -⟩ | ⟨hlt, -⟩
  · exact ⟨w2, by rw [hstep, he]⟩
  · omega

theorem Forward_shares {w w1 : World} {el : Slot → List Nat} (hwf : TWF w el) (hc : Closed w)
    {fuel s target : Nat} (hs : s < w.ralloc) (ht : target < w.ralloc)
    (hf : Forward fuel s (some target) w = .ok () w1) :
    ∀ w2 k final, Stable w1 w2 → getShortest k target w2 = .ok final w2 →
      getShortest (k + 1) s w2 = .ok final w2 := by
  obtain ⟨tail, el1, hg, heff, hres, hun, hnext, -⟩ := Forward_spec hwf hf
  have hc1 : Closed w1 := Forward_closed hc hs (fun a ha => by cases ha; exact ht) hf
  have hsn : (w.res s).next = none := by
    cases hn : (w.res s).next with
    | none => rfl
    | some n => exact absurd (hc.next s n hn).2.2 hun
  have hch1 : Chain w1 target tail := by
    refine (getShortest_chain hg).congr_next fun x n hn => ?_
    have hx : x ≠ s := by
      intro e
      rw [e, hsn] at hn
      cases hn
    rw [hnext x hx]; exact hn
  have hs1 : s < w1.ralloc := lt_of_lt_of_le hs heff.stable.ralloc
  have hst1 : (w1.res s).turns = none := by rw [hres]
  have hsn1 : (w1.res s).next = some tail := by rw [hres]
  intro w2 k final hst hfin
  have hsn2 : (w2.res s).next = some tail := by rw [hst.res s hs1 hst1]; exact hsn1
  exact getShortest_step hsn2 (getShortest_of_chain (hch1.keep hc1 hst) hfin)

/-- C22 (Runner.New defers f): `New(f)` returns, without calling `f` or running a turn, the
resolver of a new unresolved result `r`; it allocates one turn, whose function is the literal
`next := f(); s.Forward(next)`, and appends that turn, and nothing else, to the queue of the
manager.  When that turn is run in a well-formed world and `f` returns a result `n` of the
same manager whose forwarding chain ends in `tail`, the run returns, `f` has been called
once, `r` is forwarded to `tail`, and in every later world `r` has the outcome holder of
`n`. -/
theorem runner_new_defers (fuel fid : Nat) (t : Runner) (f : Prog) (w : World)
    (el : Slot → List Nat) (hwf : TWF w el) :
    ∃ w1 el1, turnRunner.New t fid f w = .ok w.ralloc w1 ∧ TWF w1 el1 ∧
      w1.calls = w.calls ∧ w1.ran = w.ran ∧
      el1 (.queue t.manager) = el (.queue t.manager) ++ [w.talloc] ∧
      w1.enq = Function.update w.enq t.manager (w.enq t.manager ++ [w.talloc]) ∧
      w1.talloc = w.talloc + 1 ∧ w1.tf w.talloc = .runnerNew w.ralloc fid f ∧
      w1.res w.ralloc = ⟨t.manager, some Empty, .nil, none⟩ ∧
      ∀ (w3 wf : World) (el3 : Slot → List Nat) (ty : Ty) (n tail : Nat) (rest : List Iface),
        TWF w3 el3 → Closed w3 → w.ralloc < w3.ralloc →
        w3.tf w.talloc = .runnerNew w.ralloc fid f → w3.tnext w.talloc = none →
        exec fuel f { { w3 with ran := w3.ran ++ [w.talloc] } with
          calls := w3.calls ++ [(fid, [])] } =
          .ok (.result ty (some n) :: rest) wf →
        (wf.res w.ralloc).turns ≠ none →
        (wf.res n).manager = (wf.res w.ralloc).manager →
        getShortest fuel n wf = .ok tail wf →
        (∀ elf, TWF wf elf → (elf (.pending w.ralloc)).length ≤ fuel) →
        ∃ w4, Run fuel (some w.talloc) w3 = .ok () w4 ∧
          w4.calls = w3.calls ++ [(fid, [])] ∧ w4.ran = w3.ran ++ [w.talloc] ∧
          (w4.res w.ralloc).turns = none ∧ (w4.res w.ralloc).next = some tail ∧
          ∀ w5 k final, Stable w4 w5 → getShortest k n w5 = .ok final w5 →
            getShortest (k + 1) w.ralloc w5 = .ok final w5 := by
  obtain ⟨w1, hrun, hwf1, hq, henq, hta, htf, hres, -⟩ := turnRunner.New_total hwf t fid f
  refine ⟨w1, _, hrun, hwf1, quiet_calls hq, quiet_ran hq, ?_, henq, hta, htf, ?_, ?_⟩
  · rw [Function.update_same]
  · rw [hres, Function.update_same]
  intro w3 wf el3 ty n tail rest hwf3 hc3 hrl htf3 htn3 hexec hun hm htail hfuel
  have hg : Effect w3 { { w3 with ran := w3.ran ++ [w.talloc] } with
      calls := w3.calls ++ [(fid, [])] } el3 el3 :=
    Effect.of_ghost hwf3 rfl rfl rfl rfl rfl rfl rfl rfl
  have hgc : Client w3 { { w3 with ran := w3.ran ++ [w.talloc] } with
      calls := w3.calls ++ [(fid, [])] } := Client.of_heap rfl rfl rfl rfl rfl rfl
  obtain ⟨elf, hef, hqf⟩ := exec_ok _ hg.twf hexec
  obtain ⟨hcl, hv⟩ := exec_client _ hexec
  have hcf : Closed wf := hcl.closed (hgc.closed hc3)
  have hrf : w.ralloc < wf.ralloc := lt_of_lt_of_le hrl hef.stable.ralloc
  have hn : n < wf.ralloc := by
    simp only [List.all_cons, resultAlloc, Bool.and_eq_true, decide_eq_true_eq] at hv
    exact hv.1
  obtain ⟨w4, hfw⟩ := Forward_total hef.twf hun hm htail (hfuel elf hef.twf)
  obtain ⟨tail2, el4, hg2, heff4, hres4, -, -, -⟩ := Forward_spec hef.twf hfw
  rw [htail] at hg2
  cases hg2
  obtain ⟨-, -, hq4, -⟩ := Forward_ok hef.twf hfw
  have hpos := hwf.pos
  have hne0 : IsEmpty (some w.talloc) = false := by
    simp only [IsEmpty, Empty, beq_eq_false_iff_ne, ne_eq, Option.some.injEq]
    omega
  refine ⟨w4, ?_, ?_, ?_, by rw [hres4], by rw [hres4],
    Forward_shares hef.twf hcf hrf hn hfw⟩
  · simp only [Run, hne0, htn3, htf3, runThunk, bind_apply, logCall]
    simp only [Bool.false_eq_true, if_false, Option.isSome_none]
    rw [hexec]
    exact hfw
  · rw [quiet_calls hq4, quiet_calls hqf]
  · rw [quiet_ran hq4, quiet_ran hqf]

theorem TWF.at_spawned : TWF World.spawned (fun _ => []) := by
  refine ⟨⟨fun i l h => ?_, fun _ _ => rfl, fun _ _ _ t ht => by cases ht⟩, rfl, fun _ _ => rfl,
    by decide⟩
  rw [Ring_nil_iff]
  cases i with
  | queue m => simpa [handle, World.spawned, World.sample] using h.symm
  | pending s =>
    by_cases hs : s = 0
    · subst hs; simp [handle, World.spawned, World.sample] at h
    · simpa [handle, World.spawned, World.sample, hs] using h.symm
  | source k => simpa [handle, World.spawned, World.sample, World.init] using h.symm

theorem Closed.spawned_closed : Closed World.spawned := by
  refine ⟨fun a n h => ?_, fun t _ => ?_⟩
  · by_cases ha : a = 0
    · subst ha; simp [World.spawned, World.sample] at h
    · simp [World.spawned, World.sample, ha] at h
  · show (3 : Nat) < 4
    decide

theorem runner_new_defers_witness :
    (∃ w1, turnRunner.New ⟨0, 0⟩ 5 (.ret [.result .R (some 0)]) World.sample = .ok 3 w1 ∧
      w1.calls = [] ∧ w1.enq 0 = [1] ∧ w1.tf 1 = .runnerNew 3 5 (.ret [.result .R (some 0)]) ∧
      (w1.res 3).turns = some Empty) ∧
    ∃ w4, Run 2 (some 1) World.spawned = .ok () w4 ∧ w4.calls = [(5, [])] ∧
      (w4.res 3).turns = none ∧ (w4.res 3).next = some 0 ∧
      getShortest 1 3 w4 = .ok 0 w4 := by
  obtain ⟨w1, el1, h1, -, h2, -, -, h3, -, h4, h5, h6⟩ :=
    runner_new_defers 2 5 ⟨0, 0⟩ (.ret [.result .R (some 0)]) World.sample (fun _ => [])
      TWF.sample
  refine ⟨⟨w1, h1, h2, by rw [h3]; rfl, h4, congrArg Resolver.turns h5⟩, ?_⟩
  obtain ⟨w4, k1, k2, -, k3, k4, k5⟩ := h6 World.spawned _ (fun _ => []) .R 0 0 []
    TWF.at_spawned Closed.spawned_closed (by decide) rfl rfl rfl (by decide) rfl rfl
    (fun elf h => by
      have hr := h.lists.rings (.pending 3) (some Empty) rfl
      have he := Ring_isEmpty hr rfl
      show (elf (.pending 3)).length ≤ 2
      rw [he]
      exact Nat.zero_le _)
  refine ⟨w4, k1, k2, k3, k4, ?_⟩
  refine k5 w4 0 0 ⟨fun _ _ _ => rfl, le_refl _⟩ ?_
  have hq : (w4.res 0).next = none := by
    obtain ⟨-, el4, -, he, -⟩ := Run_ok TWF.at_spawned k1
    have := he.stable.res 0 (by decide) rfl
    rw [this]
    rfl
  exact getShortest_self hq 0

end Drydock


namespace Drydock

/-! ### Runs that stop: the faults of the runtime

None of the functions below stops at the assertion of the continuation dispatcher. -/

theorem Append_fault {h : TurnHeap} {l add : Option Nat} {f : Fault}
    (he : Append h l add = .error f) : f ≠ whenFault := by
  unfold Append at he
  split at he
  · cases he; decide
  · split at he
    · cases he; decide
    · split at he
      · cases he; decide
      · split at he
        · cases he
        · split at he
          · cases he; decide
          · cases he

theorem RemoveHead_fault {h : TurnHeap} {l : Option Nat} {f : Fault}
    (he : RemoveHead h l = .error f) : f ≠ whenFault := by
  unfold RemoveHead at he
  split at he
  · cases he; decide
  · split at he
    · cases he; decide
    · split at he
      · cases he; decide
      · split at he <;> cases he

theorem bind_fault {α β : Type} {x : M α} {g : α → M β} {w w2 : World} {f : Fault}
    (h : (x >>= g) w = .fault f w2) :
    x w = .fault f w2 ∨ ∃ a w1, x w = .ok a w1 ∧ g a w1 = .fault f w2 := by
  rw [bind_apply] at h
  cases hx : x w with
  | ok a w1 => rw [hx] at h; exact Or.inr ⟨a, w1, rfl, h⟩
  | fault e w1 => rw [hx] at h; cases h; exact Or.inl rfl

theorem assertTrue_fault {c : Bool} {msg : String} {w w2 : World} {f : Fault}
    (h : assertTrue c msg w = .fault f w2) : f = .precondition msg := by
  cases c
  · cases h; rfl
  · cases h

theorem guardAlloc_fault {c : World → Bool} {w w2 : World} {f : Fault}
    (h : guardAlloc c w = .fault f w2) : f ≠ whenFault := by
  unfold guardAlloc at h
  split at h
  · cases h
  · cases h; decide

theorem Manager.Queue_fault {m : Nat} {t : Option Nat} {w w2 : World} {f : Fault}
    (h : Manager.Queue m t w = .fault f w2) : f ≠ whenFault := by
  unfold Manager.Queue at h
  split at h
  · next he => cases h; exact Append_fault he
  · cases h

theorem queue_fault {s : Nat} {t : Option Nat} {w w2 : World} {f : Fault}
    (h : queue s t w = .fault f w2) : f ≠ whenFault := by
  unfold queue at h
  split at h
  · exact Manager.Queue_fault h
  · split at h
    · next he => cases h; exact Append_fault he
    · cases h

theorem queueList_fault (s : Nat) (fuel : Nat) :
    ∀ {list : Option Nat} {w w2 : World} {f : Fault},
      queueList s fuel list w = .fault f w2 → f ≠ whenFault := by
  induction fuel with
  | zero =>
    intro list w w2 f h
    simp only [queueList] at h
    split at h
    · cases h
    · cases h; decide
  | succ n ih =>
    intro list w w2 f h
    simp only [queueList] at h
    split at h
    · cases h
    · split at h
      · next he => cases h; exact RemoveHead_fault he
      · split at h
        · next hq => cases h; exact queue_fault hq
        · exact ih h

theorem resolve_fault {fuel s : Nat} {o : Iface} {w w2 : World} {f : Fault}
    (h : resolve fuel s o w = .fault f w2) : f ≠ whenFault := by
  unfold resolve at h
  split at h
  · cases h; decide
  · exact queueList_fault s fuel h

theorem Complete_fault {fuel s : Nat} {v : Iface} {w w2 : World} {f : Fault}
    (h : Complete fuel s v w = .fault f w2) : f ≠ whenFault := by
  rcases bind_fault h with h1 | ⟨_, w1, -, h2⟩
  · rw [assertTrue_fault h1]; decide
  · exact resolve_fault h2

theorem Fail_fault {fuel s : Nat} {e : Option Err} {w w2 : World} {f : Fault}
    (h : Fail fuel s e w = .fault f w2) : f ≠ whenFault := by
  rcases bind_fault h with h1 | ⟨_, w1, -, h2⟩
  · rw [assertTrue_fault h1]; decide
  · exact resolve_fault h2

theorem Resolve_fault {fuel s : Nat} {v : Iface} {e : Option Err} {w w2 : World} {f : Fault}
    (h : Resolve fuel s v e w = .fault f w2) : f ≠ whenFault := by
  rcases bind_fault h with h1 | ⟨_, w1, -, h2⟩
  · rw [assertTrue_fault h1]; decide
  · split at h2
    · rcases bind_fault h2 with h3 | ⟨_, w3, -, h4⟩
      · rw [assertTrue_fault h3]; decide
      · exact resolve_fault h4
    · exact resolve_fault h2

theorem getShortest_fault (fuel : Nat) :
    ∀ {s : Nat} {w w2 : World} {f : Fault}, getShortest fuel s w = .fault f w2 →
      f = .outOfFuel := by
  induction fuel with
  | zero =>
    intro s w w2 f h
    simp only [getShortest] at h
    split at h
    · cases h
    · cases h; rfl
  | succ n ih =>
    intro s w w2 f h
    simp only [getShortest] at h
    split at h
    · cases h
    · exact ih h

theorem Forward_fault {fuel s : Nat} {n : Option Nat} {w w2 : World} {f : Fault}
    (h : Forward fuel s n w = .fault f w2) : f ≠ whenFault := by
  unfold Forward at h
  split at h
  · cases h; decide
  · split at h
    · cases h; decide
    · split at h
      · cases h; decide
      · split at h
        · next hg => cases h; rw [getShortest_fault fuel hg]; decide
        · exact queueList_fault _ fuel h

theorem validateIns_fault {inTy : Ty} {ins : List Ty} {f : Fault}
    (h : validateIns inTy ins = .error f) : f ≠ whenFault := by
  unfold validateIns at h
  split at h
  · cases h
  · split at h
    · cases h
    · split at h
      · cases h
      · cases h; decide
  · split at h
    · cases h; decide
    · split at h
      · cases h; decide
      · cases h
  · cases h; decide

theorem validateOuts_fault {out outR : Ty} {outs : List Ty} {f : Fault}
    (h : validateOuts out outR outs = .error f) : f ≠ whenFault := by
  unfold validateOuts at h
  split at h
  · split at h
    · cases h; decide
    · cases h
  · split at h
    · split at h
      · cases h; decide
      · cases h
    · split at h
      · split at h
        · cases h; decide
        · cases h
      · split at h
        · cases h; decide
        · cases h
  · split at h
    · cases h; decide
    · split at h
      · cases h; decide
      · cases h
  · cases h; decide

theorem whenValidate_fault {inTy out outR : Ty} {sig : FnSig} {f : Fault}
    (h : whenValidate inTy out outR sig = .error f) : f ≠ whenFault := by
  unfold whenValidate at h
  split at h
  · next he => cases h; exact validateIns_fault he
  · split at h
    · next he => cases h; exact validateOuts_fault he
    · cases h

theorem Manager.NewTurn_fault {m : Nat} {name : String} {th : Thunk} {w w2 : World}
    {f : Fault} (h : Manager.NewTurn m name th w = .fault f w2) : f ≠ whenFault := by
  rcases bind_fault h with h1 | ⟨_, w1, -, h2⟩
  · cases h1
  · exact Manager.Queue_fault h2

theorem WhenT_fault {fuel s : Nat} {inTy out outR : Ty} {fn : Fn} {w w2 : World} {f : Fault}
    (h : WhenT fuel s inTy out outR fn w = .fault f w2) : f ≠ whenFault := by
  unfold WhenT at h
  split at h
  · next he => cases h; exact whenValidate_fault he
  · split at h
    · next hg =>
      cases h
      split at hg
      · rw [getShortest_fault fuel hg]; decide
      · cases hg
    · rcases bind_fault h with h1 | ⟨_, w1, -, h2⟩
      · cases h1
      · rcases bind_fault h2 with h3 | ⟨_, w3, -, h4⟩
        · cases h3
        · rcases bind_fault h4 with h5 | ⟨_, w5, -, h6⟩
          · cases h5
          · rcases bind_fault h6 with h7 | ⟨_, w7, -, h8⟩
            · exact queue_fault h7
            · cases h8

/-! ### A turn list is determined by its handle -/

theorem getLastD_mem_cons (ys : List Nat) : ∀ y, ys.getLastD y ∈ y :: ys := by
  induction ys with
  | nil => intro y; simp
  | cons z zs ih =>
    intro y
    rw [List.getLastD_cons]
    exact List.mem_cons_of_mem _ (ih z)

theorem Links_last {h : TurnHeap} (xs : List Nat) :
    ∀ {x c : Nat}, Links h (x :: xs) c → h (xs.getLastD x) = some c := by
  induction xs with
  | nil => intro x c hl; exact hl.1
  | cons y ys ih =>
    intro x c hl
    rw [List.getLastD_cons]
    exact ih hl.2

theorem Links_unique {h : TurnHeap} (xs : List Nat) :
    ∀ {ys : List Nat} {x c d : Nat}, Links h (x :: xs) c → Links h (x :: ys) d →
      xs.getLastD x = ys.getLastD x → (x :: xs).Nodup → (x :: ys).Nodup → xs = ys := by
  induction xs with
  | nil =>
    intro ys x c d _ _ hl _ hn
    cases ys with
    | nil => rfl
    | cons y ys =>
      exfalso
      simp only [List.getLastD_nil, List.getLastD_cons] at hl
      have := getLastD_mem_cons ys y
      rw [← hl] at this
      exact (List.nodup_cons.1 hn).1 this
  | cons z zs ih =>
    intro ys x c d h1 h2 hl hn1 hn2
    cases ys with
    | nil =>
      exfalso
      simp only [List.getLastD_nil, List.getLastD_cons] at hl
      have := getLastD_mem_cons zs z
      rw [hl] at this
      exact (List.nodup_cons.1 hn1).1 this
    | cons y ys =>
      have hzy : z = y := by
        have e1 := h1.1
        have e2 := h2.1
        simp only [List.headD_cons] at e1 e2
        rw [e1] at e2
        exact Option.some.inj e2
      subst hzy
      simp only [List.getLastD_cons] at hl
      rw [ih h1.2 h2.2 hl (List.nodup_cons.1 hn1).2 (List.nodup_cons.1 hn2).2]

theorem Ring_unique {h : TurnHeap} {l : Option Nat} {xs ys : List Nat} (h1 : Ring h l xs)
    (h2 : Ring h l ys) : xs = ys := by
  obtain ⟨a1, a2, a3, a4⟩ := h1
  obtain ⟨b1, b2, b3, b4⟩ := h2
  rw [a1] at b1
  have hl := Option.some.inj b1
  cases xs with
  | nil =>
    cases ys with
    | nil => rfl
    | cons y ys =>
      exfalso
      simp only [List.getLastD_nil, List.getLastD_cons] at hl
      exact b4 (by rw [hl]; exact getLastD_mem_cons ys y)
  | cons x xs =>
    cases ys with
    | nil =>
      exfalso
      simp only [List.getLastD_nil, List.getLastD_cons] at hl
      exact a4 (by rw [← hl]; exact getLastD_mem_cons xs x)
    | cons y ys =>
      simp only [List.getLastD_cons, List.headD_cons] at hl a2 b2
      have e1 := Links_last xs a2
      have e2 := Links_last ys b2
      have hxy : x = y := by
        rw [hl, e2] at e1
        exact (Option.some.inj e1).symm
      subst hxy
      rw [Links_unique xs a2 b2 hl a3 b3]

theorem TWF.unique {w : World} {el el2 : Slot → List Nat} (h1 : TWF w el) (h2 : TWF w el2) :
    el = el2 := by
  funext i
  cases hi : handle w i with
  | none => rw [h1.lists.inactive i hi, h2.lists.inactive i hi]
  | some l => exact Ring_unique (h1.lists.rings i l hi) (h2.lists.rings i l hi)

theorem Safe.awaiting {w : World} {el : Slot → List Nat} (hs : Safe w) (hw : TWF w el) :
    Awaiting w el := hs.2 el hw

theorem Safe.of_awaiting {w : World} {el : Slot → List Nat} (hc : Closed w) (hw : TWF w el)
    (ha : Awaiting w el) : Safe w :=
  ⟨hc, fun el2 hw2 => by rw [← TWF.unique hw hw2]; exact ha⟩

end Drydock


namespace Drydock

/-! ### Steps that keep the continuations of unresolved results pending -/

theorem Chain.lt_ralloc {w : World} (hc : Closed w) {a b : Nat} (h : Chain w a b)
    (ha : a < w.ralloc) : b < w.ralloc := by
  induction h with
  | refl a => exact ha
  | step hn _ ih => exact ih (hc.next _ _ hn).1

/-- A step that adds no forwarding link, resolves but does not unresolve, keeps the members of
the pending lists of the resolvers that stay unresolved, and whose new continuation turns are
pending where they have to be. -/
theorem Safe.step {w w2 : World} {el el2 : Slot → List Nat} (hw : TWF w el) (hs : Safe w)
    (hw2 : TWF w2 el2) (hc2 : Closed w2)
    (hnext : ∀ k, k < w.ralloc → (w2.res k).next = (w.res k).next)
    (hturns : ∀ k, k < w.ralloc → (w2.res k).turns ≠ none → (w.res k).turns ≠ none)
    (hel : ∀ k, k < w.ralloc → (w2.res k).turns ≠ none →
      ∀ t ∈ el (.pending k), t ∈ el2 (.pending k))
    (htf : ∀ t, t < w2.talloc → (t < w.talloc ∧ w2.tf t = w.tf t) ∨
      ∀ s outer inTy tv te rr f, w2.tf t = .whenTurn s outer inTy tv te rr f →
        ∀ tail, Chain w2 s tail → (w2.res tail).next = none → (w2.res tail).turns ≠ none →
          t ∈ el2 (.pending tail)) : Safe w2 := by
  refine Safe.of_awaiting hc2 hw2 ?_
  intro t s outer inTy tv te rr f ht htf2 tail hch hn hu
  rcases htf t ht with ⟨ht1, e1⟩ | hnew
  · rw [e1] at htf2
    have hcl := hs.1.thunks t ht1
    rw [htf2] at hcl
    have hsr : s < w.ralloc := hcl.1
    have hback : ∀ a b, Chain w2 a b → a < w.ralloc → Chain w a b ∧ b < w.ralloc := by
      intro a b hab
      induction hab with
      | refl a => exact fun ha => ⟨Chain.refl a, ha⟩
      | step hx _ ih =>
        intro ha
        rw [hnext _ ha] at hx
        obtain ⟨h1, h2⟩ := ih (hs.1.next _ _ hx).1
        exact ⟨Chain.step hx h1, h2⟩
    obtain ⟨hch1, htl⟩ := hback s tail hch hsr
    have hn1 : (w.res tail).next = none := by rw [← hnext tail htl]; exact hn
    exact hel tail htl hu t
      (hs.awaiting hw t s outer inTy tv te rr f ht1 htf2 tail hch1 hn1 (hturns tail htl hu))
  · exact hnew s outer inTy tv te rr f htf2 tail hch hn hu

theorem Safe.by_queues {w w2 : World} {el el2 : Slot → List Nat} (hw : TWF w el)
    (hs : Safe w) (hq : QueueOnly w w2) (hw2 : TWF w2 el2)
    (hel : ∀ k, ∀ t ∈ el (.pending k), t ∈ el2 (.pending k)) : Safe w2 :=
  Safe.step hw hs hw2 (Closed.of_queueOnly hq hs.1) (fun k _ => (hq.res k).2.2.1)
    (fun k _ h h2 => h ((hq.res k).2.2.2.2 h2)) (fun k _ _ => hel k)
    (fun t ht => Or.inl ⟨by rw [← allocs_talloc hq.allocs]; exact ht, by rw [allocs_tf hq.allocs]⟩)

theorem Manager.Queue_safe {w w2 : World} {el : Slot → List Nat} (hw : TWF w el) (hs : Safe w)
    {m : Nat} {t : Option Nat} (hal : ∀ a, t = some a → a < w.talloc)
    (h : Manager.Queue m t w = .ok () w2) : Safe w2 := by
  obtain ⟨a, -, he, -⟩ := Manager.Queue_ok hw h hal
  refine Safe.by_queues hw hs (Manager.Queue_queueOnly h) he.twf fun k t ht => ?_
  have hne : Slot.pending k ≠ Slot.queue m := by simp
  rw [Function.update_noteq hne]
  exact ht

theorem queue_safe {w w2 : World} {el : Slot → List Nat} (hw : TWF w el) (hs : Safe w)
    {s : Nat} {t : Option Nat} (hal : ∀ a, t = some a → a < w.talloc)
    (h : queue s t w = .ok () w2) : Safe w2 := by
  obtain ⟨a, -, he, -⟩ := queue_ok hw h hal
  refine Safe.by_queues hw hs (queue_queueOnly h) he.twf fun k t ht => ?_
  by_cases hk : Slot.pending k = queueSlot w s
  · rw [← hk, Function.update_same]
    exact List.mem_append_left _ ht
  · rw [Function.update_noteq hk]
    exact ht

theorem resolve_safe {w w2 : World} {el : Slot → List Nat} (hw : TWF w el) (hs : Safe w)
    {fuel s : Nat} {o : Iface} (h : resolve fuel s o w = .ok () w2) : Safe w2 := by
  have hc2 := resolve_closed hs.1 h
  cases hst : (w.res s).turns with
  | none => simp [resolve, isResolved, hst] at h
  | some l =>
    have h2 : queueList s fuel (some l) { w with res := (Function.update w.res s
        { w.res s with turns := none, outcome := o }) } = .ok () w2 := by
      simpa [resolve, isResolved, hst] using h
    obtain ⟨heff, hq, ha, hres, -⟩ := drain_effect hw hst _ rfl s fuel h2
    have hqo := queueList_queueOnly fuel h2
    have hslot : queueSlot { w with res := (Function.update w.res s
        { w.res s with turns := none, outcome := o }) } s = .queue (w.res s).manager := by
      simp [queueSlot, isResolved]
    rw [hslot] at heff
    refine Safe.step hw hs heff.twf hc2 (fun k _ => ?_) (fun k _ hk hk2 => ?_)
      (fun k _ hk t ht => ?_)
      (fun t ht => Or.inl ⟨by rw [← allocs_talloc ha]; exact ht, by rw [allocs_tf ha]⟩)
    · rw [(hqo.res k).2.2.1]
      by_cases hks : k = s
      · subst hks; simp
      · simp [Function.update_noteq hks]
    · apply hk
      rw [(hqo.res k).2.2.2]
      by_cases hks : k = s
      · subst hks; simp
      · simpa [Function.update_noteq hks] using hk2
    · have hks : k ≠ s := by
        intro e
        subst e
        exact hk (by rw [hres])
      have h1 : Slot.pending k ≠ Slot.queue (w.res s).manager := by simp
      have h2 : Slot.pending k ≠ Slot.pending s := by simp [hks]
      rw [Function.update_noteq h1, Function.update_noteq h2]
      exact ht

theorem Complete_safe {w w2 : World} {el : Slot → List Nat} (hw : TWF w el) (hs : Safe w)
    {fuel s : Nat} {v : Iface} (h : Complete fuel s v w = .ok () w2) : Safe w2 := by
  obtain ⟨_, w1, h1, h2⟩ := bind_ok h
  obtain ⟨-, rfl⟩ := assertTrue_ok h1
  exact resolve_safe hw hs h2

theorem Fail_safe {w w2 : World} {el : Slot → List Nat} (hw : TWF w el) (hs : Safe w)
    {fuel s : Nat} {e : Option Err} (h : Fail fuel s e w = .ok () w2) : Safe w2 := by
  obtain ⟨_, w1, h1, h2⟩ := bind_ok h
  obtain ⟨-, rfl⟩ := assertTrue_ok h1
  exact resolve_safe hw hs h2

theorem Resolve_safe {w w2 : World} {el : Slot → List Nat} (hw : TWF w el) (hs : Safe w)
    {fuel s : Nat} {v : Iface} {e : Option Err} (h : Resolve fuel s v e w = .ok () w2) :
    Safe w2 := by
  obtain ⟨_, w1, h1, h2⟩ := bind_ok h
  obtain ⟨-, rfl⟩ := assertTrue_ok h1
  split at h2
  · obtain ⟨_, w3, h3, h4⟩ := bind_ok h2
    obtain ⟨-, rfl⟩ := assertTrue_ok h3
    exact resolve_safe hw hs h4
  · exact resolve_safe hw hs h2

theorem newTurnResolver_safe {w w2 : World} {el : Slot → List Nat} (hw : TWF w el)
    (hs : Safe w) {m s : Nat} (h : newTurnResolver m w = .ok s w2) : Safe w2 := by
  obtain ⟨-, he, -, hr, -⟩ := newTurnResolver_ok hw h
  have hcl := (newTurnResolver_client h).closed hs.1
  simp only [newTurnResolver] at h
  cases h
  refine Safe.step hw hs he.twf hcl (fun k hk => ?_) (fun k hk h1 => ?_) (fun k hk _ t ht => ?_)
    (fun t ht => Or.inl ⟨ht, rfl⟩)
  · show (Function.update w.res w.ralloc _ k).next = _
    rw [Function.update_noteq (Nat.ne_of_lt hk)]
  · have : (Function.update w.res w.ralloc _ k).turns ≠ none := h1
    rw [Function.update_noteq (Nat.ne_of_lt hk)] at this
    exact this
  · have hne : Slot.pending k ≠ Slot.pending w.ralloc := by
      simp only [ne_eq, Slot.pending.injEq]
      omega
    rw [Function.update_noteq hne]
    exact ht

theorem NewTurnRunner_safe {w w2 : World} {el : Slot → List Nat} (hw : TWF w el)
    (hs : Safe w) {m : Nat} {r : Runner} (h : NewTurnRunner m w = .ok r w2) :
    TWF w2 (Function.update el (.pending w.ralloc) []) ∧ Safe w2 := by
  simp only [NewTurnRunner] at h
  cases h
  have hw2 : TWF { w with
      res := Function.update w.res w.ralloc ⟨m, none, .nil, none⟩
      ralloc := w.ralloc + 1 } (Function.update el (.pending w.ralloc) []) := by
    have := hw.releasePending w.ralloc ⟨m, none, .nil, none⟩ rfl
    exact ⟨this.lists, this.empty, this.fresh, this.pos⟩
  have hcl : Closed { w with
      res := Function.update w.res w.ralloc ⟨m, none, .nil, none⟩
      ralloc := w.ralloc + 1 } := by
    refine hs.1.of_step (Nat.le_succ _) (le_refl _) (fun a n hn => Or.inl ?_)
      (fun t ht => Or.inl ⟨ht, rfl⟩)
    by_cases ha : a = w.ralloc
    · subst ha
      simp only [Function.update_same] at hn
      cases hn
    · simp only [Function.update_noteq ha] at hn ⊢
      exact ⟨hn, fun h => h⟩
  refine ⟨hw2, Safe.step hw hs hw2 hcl (fun k hk => ?_) (fun k hk h1 => ?_)
    (fun k hk _ t ht => ?_) (fun t ht => Or.inl ⟨ht, rfl⟩)⟩
  · show (Function.update w.res w.ralloc _ k).next = _
    rw [Function.update_noteq (Nat.ne_of_lt hk)]
  · have : (Function.update w.res w.ralloc _ k).turns ≠ none := h1
    rw [Function.update_noteq (Nat.ne_of_lt hk)] at this
    exact this
  · have hne : Slot.pending k ≠ Slot.pending w.ralloc := by
      simp only [ne_eq, Slot.pending.injEq]
      omega
    rw [Function.update_noteq hne]
    exact ht

/-- Allocating a turn whose function is not a continuation dispatcher. -/
theorem NewTurn_safe {w w2 : World} {el : Slot → List Nat} (hw : TWF w el) (hs : Safe w)
    {name : String} {th : Thunk} {t : Nat} (hcl : ThunkClosed w th)
    (hth : ∀ s outer inTy tv te rr f, th ≠ .whenTurn s outer inTy tv te rr f)
    (h : NewTurn name th w = .ok t w2) : Safe w2 := by
  obtain ⟨-, he, -, -, -, -, -, -⟩ := NewTurn_ok hw h
  simp only [NewTurn] at h
  cases h
  have hc2 : Closed { w with
      tnext := Function.update w.tnext w.talloc none
      tf := Function.update w.tf w.talloc th
      tname := Function.update w.tname w.talloc name
      talloc := w.talloc + 1 } := by
    refine hs.1.of_step (le_refl _) (le_refl _) (fun a n hn => Or.inl ⟨hn, fun h => h⟩)
      (fun k hk => ?_)
    by_cases hk2 : k = w.talloc
    · subst hk2
      right
      simp only [Function.update_same]
      exact hcl
    · left
      have hk3 : k < w.talloc + 1 := hk
      exact ⟨by omega, by simp [Function.update_noteq hk2]⟩
  refine Safe.step hw hs he.twf hc2 (fun _ _ => rfl) (fun _ _ h => h) (fun _ _ _ _ h => h)
    (fun k hk => ?_)
  by_cases hk2 : k = w.talloc
  · subst hk2
    right
    intro s outer inTy tv te rr f hf
    simp only [Function.update_same] at hf
    exact absurd hf (hth s outer inTy tv te rr f)
  · left
    have hk3 : k < w.talloc + 1 := hk
    exact ⟨by omega, by simp [Function.update_noteq hk2]⟩

theorem Manager.NewTurn_keeps {w w2 : World} {el : Slot → List Nat} (hw : TWF w el)
    (hs : Safe w) {m : Nat} {name : String} {th : Thunk} (hcl : ThunkClosed w th)
    (hth : ∀ s outer inTy tv te rr f, th ≠ .whenTurn s outer inTy tv te rr f)
    (h : Manager.NewTurn m name th w = .ok () w2) : Safe w2 := by
  obtain ⟨t, w1, h1, h2⟩ := bind_ok h
  obtain ⟨-, he1, -, -, -, -, htl, -⟩ := Drydock.NewTurn_ok hw h1
  exact Manager.Queue_safe he1.twf (Drydock.NewTurn_safe hw hs hcl hth h1)
    (fun a ha => by cases ha; exact htl) h2

theorem Chain.eq_of_tail {w : World} {a b : Nat} (h : Chain w a b)
    (ha : (w.res a).next = none) : b = a := by
  cases h with
  | refl => rfl
  | step hn _ => rw [ha] at hn; cases hn

theorem Chain.eq_of_loop {w : World} {a b : Nat} (ha : (w.res a).next = some a) :
    ∀ {x : Nat}, Chain w x b → x = a → b = a := by
  intro x h
  induction h with
  | refl _ => exact fun e => e
  | step hn _ ih =>
    intro e
    subst e
    rw [ha] at hn
    exact ih (Option.some.inj hn).symm

theorem WhenT_safe {w w2 : World} {el : Slot → List Nat} (hw : TWF w el) (hs : Safe w)
    {fuel s o : Nat} {inTy out outR : Ty} {f : Fn} (hsr : s < w.ralloc) (hf : FnClosed w f)
    (h : WhenT fuel s inTy out outR f w = .ok o w2) : Safe w2 := by
  obtain ⟨tv, te, rr, s1, tgt, -, hsrc, -, heff, htgt, -, htf, hta, -, -, -, hall⟩ :=
    WhenT_ok hw h
  obtain ⟨-, -, -, -, -, -, -, -, -, -, -, -, htfs, hcl⟩ := WhenT_inv h
  have hc2 := hcl hs.1 hsr hf
  have hs1 : s1 < w.ralloc ∧ (w.res s1).next = none := by
    split at hsrc
    · exact ⟨getShortest_lt hs.1 hsr hsrc, getShortest_next hsrc⟩
    · next hn =>
      cases hsrc
      refine ⟨hsr, ?_⟩
      cases hx : (w.res s).next with
      | none => rfl
      | some n => rw [hx] at hn; simp at hn
  have hne : s1 ≠ w.ralloc := Nat.ne_of_lt hs1.1
  have htg := htgt hne
  subst htg
  refine Safe.step hw hs heff.twf hc2 (fun k hk => (hall k (Nat.ne_of_lt hk)).2.2.1)
    (fun k hk h1 h2 => h1 ((hall k (Nat.ne_of_lt hk)).2.2.2.2 h2)) (fun k hk _ t ht => ?_)
    (fun t ht => ?_)
  · have hkr : Slot.pending k ≠ Slot.pending w.ralloc := by
      simp only [ne_eq, Slot.pending.injEq]
      omega
    by_cases hk2 : Slot.pending k = queueSlot w s1
    · rw [← hk2, Function.update_same, Function.update_noteq hkr]
      exact List.mem_append_left _ ht
    · rw [Function.update_noteq hk2, Function.update_noteq hkr]
      exact ht
  · by_cases ht2 : t = w.talloc
    · subst ht2
      right
      intro s' outer inTy' tv' te' rr' f' hf' tail hch hn hu
      rw [htf] at hf'
      cases hf'
      have hn2 : (w2.res s1).next = none := by rw [(hall s1 hne).2.2.1]; exact hs1.2
      have ht := hch.eq_of_tail hn2
      subst ht
      have hu1 : (w.res tail).turns ≠ none := fun e => hu ((hall tail hne).2.2.2.2 e)
      have hslot : queueSlot w tail = .pending tail := by
        simp [queueSlot, isResolved, hu1]
      rw [hslot, Function.update_same]
      exact List.mem_append_right _ (List.mem_singleton.2 rfl)
    · left
      have ht3 : t < w.talloc := by omega
      exact ⟨ht3, htfs t ht3⟩

/-- A chain of the world after a write to the resolver `s` is a chain of the world before,
or it is one up to `s`. -/
theorem Chain.split_at {w w2 : World} {s : Nat}
    (hn : ∀ k, k ≠ s → (w2.res k).next = (w.res k).next) {a b : Nat} (h : Chain w2 a b) :
    Chain w a b ∨ (Chain w a s ∧ Chain w2 s b) := by
  induction h with
  | refl a => exact Or.inl (Chain.refl a)
  | @step a n b hx hr ih =>
    by_cases ha : a = s
    · subst ha
      exact Or.inr ⟨Chain.refl _, Chain.step hx hr⟩
    · rw [hn a ha] at hx
      rcases ih with h1 | ⟨h1, h2⟩
      · exact Or.inl (Chain.step hx h1)
      · exact Or.inr ⟨Chain.step hx h1, h2⟩

theorem Forward_safe {w w2 : World} {el : Slot → List Nat} (hw : TWF w el) (hs : Safe w)
    {fuel s : Nat} {n : Option Nat} (hsr : s < w.ralloc) (hn : ∀ a, n = some a → a < w.ralloc)
    (h : Forward fuel s n w = .ok () w2) : Safe w2 := by
  have hc2 := Forward_closed hs.1 hsr hn h
  cases hst : (w.res s).turns with
  | none => simp [Forward, isResolved, hst] at h
  | some l =>
    cases n with
    | none => simp [Forward, isResolved, hst] at h
    | some nx =>
      simp only [Forward, isResolved, hst, Option.isNone_some, Bool.false_eq_true, if_false]
        at h
      split at h
      · cases h
      · cases hg : getShortest fuel nx w with
        | fault f w1 => rw [hg] at h; cases h
        | ok next w1 =>
          have hw1 : w = w1 := (getShortest_world hg).symm
          subst hw1
          rw [hg] at h
          simp only [hst] at h
          have hqo := queueList_queueOnly fuel h
          obtain ⟨heff, -, ha, hres, -⟩ := drain_effect hw hst _ rfl next fuel h
          have hnn : (w.res next).next = none := getShortest_next hg
          have hsn : (w.res s).next = none := by
            cases hx : (w.res s).next with
            | none => rfl
            | some y =>
              have := (hs.1.next s y hx).2.2
              rw [hst] at this
              cases this
          have hnext : ∀ k, k ≠ s → (w2.res k).next = (w.res k).next := by
            intro k hk
            rw [(hqo.res k).2.2.1]
            show (Function.update w.res s _ k).next = _
            rw [Function.update_noteq hk]
          have hturns : ∀ k, k ≠ s → ((w2.res k).turns = none ↔ (w.res k).turns = none) := by
            intro k hk
            rw [(hqo.res k).2.2.2]
            show (Function.update w.res s _ k).turns = none ↔ _
            rw [Function.update_noteq hk]
          have hs2 : (w2.res s).next = some next := by rw [hres]
          refine Safe.of_awaiting hc2 heff.twf ?_
          intro t s0 outer inTy tv te rr f ht htf tail hch htn hu
          have ht1 : t < w.talloc := by rw [← allocs_talloc ha]; exact ht
          have htf1 : w.tf t = .whenTurn s0 outer inTy tv te rr f := by
            rw [← allocs_tf ha]; exact htf
          have hts : tail ≠ s := by
            intro e
            subst e
            rw [hs2] at htn
            cases htn
          have hu1 : (w.res tail).turns ≠ none := fun e => hu ((hturns tail hts).2 e)
          have hkeep : ∀ x, x ∈ el (.pending tail) →
              x ∈ Function.update (Function.update el (.pending s) [])
                (queueSlot { w with res := (Function.update w.res s
                  { w.res s with turns := none, outcome := .nil, next := some next }) } next)
                ((Function.update el (.pending s) [])
                  (queueSlot { w with res := (Function.update w.res s
                    { w.res s with turns := none, outcome := .nil, next := some next }) } next)
                  ++ el (.pending s)) (.pending tail) := by
            intro x hx
            have hps : Slot.pending tail ≠ Slot.pending s := by simp [hts]
            by_cases hk : Slot.pending tail = queueSlot { w with res := (Function.update w.res s
                { w.res s with turns := none, outcome := .nil, next := some next }) } next
            · rw [← hk, Function.update_same, Function.update_noteq hps]
              exact List.mem_append_left _ hx
            · rw [Function.update_noteq hk, Function.update_noteq hps]
              exact hx
          rcases Chain.split_at hnext hch with h1 | ⟨h1, h2⟩
          · have htn1 : (w.res tail).next = none := by rw [← hnext tail hts]; exact htn
            exact hkeep t (hs.awaiting hw t s0 outer inTy tv te rr f ht1 htf1 tail h1 htn1 hu1)
          · have hst0 : (w.res s).turns ≠ none := by rw [hst]; simp
            have hmem := hs.awaiting hw t s0 outer inTy tv te rr f ht1 htf1 s h1 hsn hst0
            have h3 : Chain w2 next tail := by
              cases h2 with
              | refl => exact absurd rfl hts
              | step hx hr =>
                rw [hs2] at hx
                cases hx
                exact hr
            by_cases hns : next = s
            · subst hns
              exact absurd (Chain.eq_of_loop hs2 h3 rfl) hts
            · have hn2 : (w2.res next).next = none := by rw [hnext next hns]; exact hnn
              have he := h3.eq_of_tail hn2
              subst he
              have hslot : queueSlot { w with res := (Function.update w.res s
                  { w.res s with turns := none, outcome := .nil, next := some tail }) } tail =
                  .pending tail := by
                simp [queueSlot, isResolved, Function.update_noteq hns, hu1]
              rw [hslot, Function.update_same]
              exact List.mem_append_right _ hmem

end Drydock


namespace Drydock

/-! ### Client code keeps the continuations of unresolved results pending -/

theorem turnRunner.New_fault {t : Runner} {fid : Nat} {p : Prog} {w w2 : World} {f : Fault}
    (h : turnRunner.New t fid p w = .fault f w2) : f ≠ whenFault := by
  rcases bind_fault h with h1 | ⟨_, w1, -, h2⟩
  · simp [turnRunner.NewResultT, newTurnResolver] at h1
  · rcases bind_fault h2 with h3 | ⟨_, w3, -, h4⟩
    · simp [Manager.NewID, UniqueIDGenerator.NewID] at h3
    · rcases bind_fault h4 with h5 | ⟨_, w5, -, h6⟩
      · exact Manager.NewTurn_fault h5
      · cases h6

theorem turnRunner.New_safe {w w2 : World} {el : Slot → List Nat} (hw : TWF w el) (hs : Safe w)
    {t : Runner} {fid : Nat} {f : Prog} {s : Nat} (h : turnRunner.New t fid f w = .ok s w2) :
    Safe w2 := by
  obtain ⟨w1, id, wi, h1, h2, h3⟩ := turnRunner.New_parts h
  obtain ⟨hs1, he1, -, -, hr1⟩ := newTurnResolver_ok hw h1
  have hsafe1 := newTurnResolver_safe hw hs h1
  obtain ⟨he2, -, -, -⟩ := Manager.NewID_ok he1.twf h2
  have hsafe2 : Safe wi := by
    simp only [Manager.NewID, UniqueIDGenerator.NewID] at h2
    cases h2
    refine Safe.step he1.twf hsafe1 he2.twf ?_ (fun _ _ => rfl) (fun _ _ h => h)
      (fun _ _ _ _ h => h) (fun t ht => Or.inl ⟨ht, rfl⟩)
    exact hsafe1.1.of_step (le_refl _) (le_refl _) (fun a n hn => Or.inl ⟨hn, fun h => h⟩)
      (fun t ht => Or.inl ⟨ht, rfl⟩)
  have hr : wi.ralloc = w1.ralloc := by
    simp only [Manager.NewID, UniqueIDGenerator.NewID] at h2
    cases h2
    rfl
  have htc : ThunkClosed wi (.runnerNew s fid f) := by
    show s < wi.ralloc
    rw [hr, hr1, hs1]
    exact Nat.lt_succ_self _
  exact Manager.NewTurn_keeps he2.twf hsafe2 htc (fun _ _ _ _ _ _ _ e => by cases e) h3

theorem exec_fault {fuel : Nat} (p : Prog) :
    ∀ {w w2 : World} {f : Fault}, exec fuel p w = .fault f w2 → f ≠ whenFault := by
  induction p with
  | ret vals =>
    intro w w2 f h
    simp only [exec] at h
    rcases bind_fault h with h1 | ⟨_, w1, -, h2⟩
    · exact guardAlloc_fault h1
    · cases h2
  | newResult m k ih =>
    intro w w2 f h
    simp only [exec] at h
    split at h
    · next hx =>
      cases h
      rcases bind_fault hx with h1 | ⟨_, w1, -, h2⟩
      · exact guardAlloc_fault h1
      · cases h2
    · exact ih _ h
  | complete s v k ih =>
    intro w w2 f h
    simp only [exec] at h
    rcases bind_fault h with h1 | ⟨_, w1, -, h2⟩
    · exact guardAlloc_fault h1
    · rcases bind_fault h2 with h3 | ⟨_, w3, -, h4⟩
      · exact Complete_fault h3
      · exact ih h4
  | fail s e k ih =>
    intro w w2 f h
    simp only [exec] at h
    rcases bind_fault h with h1 | ⟨_, w1, -, h2⟩
    · exact guardAlloc_fault h1
    · rcases bind_fault h2 with h3 | ⟨_, w3, -, h4⟩
      · exact Fail_fault h3
      · exact ih h4
  | resolve s v e k ih =>
    intro w w2 f h
    simp only [exec] at h
    rcases bind_fault h with h1 | ⟨_, w1, -, h2⟩
    · exact guardAlloc_fault h1
    · rcases bind_fault h2 with h3 | ⟨_, w3, -, h4⟩
      · exact Resolve_fault h3
      · exact ih h4
  | forward s n k ih =>
    intro w w2 f h
    simp only [exec] at h
    rcases bind_fault h with h1 | ⟨_, w1, -, h2⟩
    · exact guardAlloc_fault h1
    · rcases bind_fault h2 with h3 | ⟨_, w3, -, h4⟩
      · exact Forward_fault h3
      · exact ih h4
  | «when» r inTy out outR fid sig fb k _ ih =>
    intro w w2 f h
    simp only [exec] at h
    split at h
    · next hx =>
      cases h
      rcases bind_fault hx with h1 | ⟨_, w1, -, h2⟩
      · exact guardAlloc_fault h1
      · exact WhenT_fault h2
    · exact ih _ h
  | newTurn m name body k _ ih =>
    intro w w2 f h
    simp only [exec] at h
    rcases bind_fault h with h1 | ⟨_, w1, -, h2⟩
    · exact guardAlloc_fault h1
    · rcases bind_fault h2 with h3 | ⟨_, w3, -, h4⟩
      · exact Manager.NewTurn_fault h3
      · exact ih h4
  | allocTurn name body k _ ih =>
    intro w w2 f h
    simp only [exec] at h
    exact ih _ h
  | queue m t k ih =>
    intro w w2 f h
    simp only [exec] at h
    rcases bind_fault h with h1 | ⟨_, w1, -, h2⟩
    · exact guardAlloc_fault h1
    · rcases bind_fault h2 with h3 | ⟨_, w3, -, h4⟩
      · exact Manager.Queue_fault h3
      · exact ih h4
  | spawn runner fid p k _ ih =>
    intro w w2 f h
    simp only [exec] at h
    split at h
    · next hx =>
      cases h
      rcases bind_fault hx with h1 | ⟨_, w1, -, h2⟩
      · exact guardAlloc_fault h1
      · exact turnRunner.New_fault h2
    · exact ih _ h

theorem exec_safe {fuel : Nat} (p : Prog) :
    ∀ {w w2 : World} {el : Slot → List Nat} {vals : List Iface}, TWF w el → Safe w →
      exec fuel p w = .ok vals w2 → Safe w2 := by
  induction p with
  | ret vals =>
    intro w w2 el v hw hs h
    simp only [exec] at h
    obtain ⟨_, w0, h0, h1⟩ := bind_ok h
    obtain ⟨-, rfl⟩ := guardAlloc_ok h0
    cases h1
    exact hs
  | newResult m k ih =>
    intro w w2 el v hw hs h
    simp only [exec] at h
    split at h
    · cases h
    · next s w1 hx =>
      obtain ⟨_, w0, h0, h1⟩ := bind_ok hx
      obtain ⟨-, rfl⟩ := guardAlloc_ok h0
      obtain ⟨-, he, -⟩ := newTurnResolver_ok hw h1
      exact ih s he.twf (newTurnResolver_safe hw hs h1) h
  | complete s v k ih =>
    intro w w2 el vals hw hs h
    simp only [exec] at h
    obtain ⟨_, w0, h0, h⟩ := bind_ok h
    obtain ⟨-, rfl⟩ := guardAlloc_ok h0
    obtain ⟨_, w1, h1, h⟩ := bind_ok h
    obtain ⟨el1, he, -⟩ := Complete_ok hw h1
    exact ih he.twf (Complete_safe hw hs h1) h
  | fail s e k ih =>
    intro w w2 el vals hw hs h
    simp only [exec] at h
    obtain ⟨_, w0, h0, h⟩ := bind_ok h
    obtain ⟨-, rfl⟩ := guardAlloc_ok h0
    obtain ⟨_, w1, h1, h⟩ := bind_ok h
    obtain ⟨el1, he, -⟩ := Fail_ok hw h1
    exact ih he.twf (Fail_safe hw hs h1) h
  | resolve s v e k ih =>
    intro w w2 el vals hw hs h
    simp only [exec] at h
    obtain ⟨_, w0, h0, h⟩ := bind_ok h
    obtain ⟨-, rfl⟩ := guardAlloc_ok h0
    obtain ⟨_, w1, h1, h⟩ := bind_ok h
    obtain ⟨el1, he, -⟩ := Resolve_ok hw h1
    exact ih he.twf (Resolve_safe hw hs h1) h
  | forward s n k ih =>
    intro w w2 el vals hw hs h
    simp only [exec] at h
    obtain ⟨_, w0, h0, h⟩ := bind_ok h
    obtain ⟨hg, rfl⟩ := guardAlloc_ok h0
    obtain ⟨_, w1, h1, h⟩ := bind_ok h
    obtain ⟨el1, he, -⟩ := Forward_ok hw h1
    have hg2 : s < w.ralloc ∧ ∀ a, n = some a → a < w.ralloc := by
      simp only [Bool.and_eq_true, decide_eq_true_eq] at hg
      refine ⟨hg.1, fun a ha => ?_⟩
      subst ha
      simpa using hg.2
    exact ih he.twf (Forward_safe hw hs hg2.1 hg2.2 h1) h
  | «when» r inTy out outR fid sig fb k _ ih =>
    intro w w2 el vals hw hs h
    simp only [exec] at h
    split at h
    · cases h
    · next o w1 hx =>
      obtain ⟨_, w0, h0, h1⟩ := bind_ok hx
      obtain ⟨hg, rfl⟩ := guardAlloc_ok h0
      obtain ⟨_, _, _, _, _, -, -, -, he, -⟩ := WhenT_ok hw h1
      have hr : r < w.ralloc := by simpa using hg
      exact ih o he.twf (WhenT_safe hw hs hr (f := .user fid sig fb) trivial h1) h
  | newTurn m name body k _ ih =>
    intro w w2 el vals hw hs h
    simp only [exec] at h
    obtain ⟨_, w0, h0, h⟩ := bind_ok h
    obtain ⟨-, rfl⟩ := guardAlloc_ok h0
    obtain ⟨_, w1, h1, h⟩ := bind_ok h
    obtain ⟨he, -⟩ := Manager.NewTurn_effect hw h1
    have htc : ThunkClosed w (.user body) := trivial
    exact ih he.twf (Manager.NewTurn_keeps hw hs htc
      (fun _ _ _ _ _ _ _ e => by cases e) h1) h
  | allocTurn name body k _ ih =>
    intro w w2 el vals hw hs h
    simp only [exec] at h
    obtain ⟨-, he, -⟩ :=
      NewTurn_ok hw (rfl : NewTurn name (.user body) w = .ok w.talloc _)
    have htc : ThunkClosed w (.user body) := trivial
    exact ih _ he.twf (NewTurn_safe hw hs htc (fun _ _ _ _ _ _ _ e => by cases e) rfl) h
  | queue m t k ih =>
    intro w w2 el vals hw hs h
    simp only [exec] at h
    obtain ⟨_, w0, h0, h⟩ := bind_ok h
    obtain ⟨hg, rfl⟩ := guardAlloc_ok h0
    obtain ⟨_, w1, h1, h⟩ := bind_ok h
    have hal : ∀ a, t = some a → a < w.talloc := fun a ha => by
      subst ha
      have : m < w.malloc ∧ a < w.talloc := by simpa using hg
      exact this.2
    obtain ⟨a, -, he, -⟩ := Manager.Queue_ok hw h1 hal
    exact ih he.twf (Manager.Queue_safe hw hs hal h1) h
  | spawn runner fid f k _ ih =>
    intro w w2 el vals hw hs h
    simp only [exec] at h
    split at h
    · cases h
    · next s w1 hx =>
      obtain ⟨_, w0, h0, h1⟩ := bind_ok hx
      obtain ⟨-, rfl⟩ := guardAlloc_ok h0
      obtain ⟨el1, he, -⟩ := turnRunner.New_ok hw h1
      exact ih s he.twf (turnRunner.New_safe hw hs h1) h

end Drydock


namespace Drydock

/-! ### Running turns keeps the continuations of unresolved results pending -/

theorem callFn_fault {fuel : Nat} {fn : Fn} {args : List Iface} {w w2 : World} {f : Fault}
    (h : callFn fuel fn args w = .fault f w2) : f ≠ whenFault := by
  cases fn with
  | user fid sig body =>
    simp only [callFn] at h
    split at h
    · rcases bind_fault h with h1 | ⟨_, w1, -, h2⟩
      · cases h1
      · exact exec_fault _ h2
    · cases h; decide
  | runUntilRecord cell =>
    simp only [callFn] at h
    split at h
    · cases h
    · cases h; decide
  | finallyFn outR fid fb r =>
    simp only [callFn] at h
    rcases bind_fault h with h1 | ⟨_, w1, -, h2⟩
    · cases h1
    · rcases bind_fault h2 with h3 | ⟨_, w3, -, h4⟩
      · exact exec_fault _ h3
      · cases h4
  | actorResolve s =>
    simp only [callFn] at h
    split at h
    · split at h
      · next hr => cases h; exact Resolve_fault hr
      · cases h
    · cases h; decide

theorem reflectSelect_fault {m : Nat} {w w2 : World} {f : Fault}
    (h : reflectSelect m w = .fault f w2) : f ≠ whenFault := by
  unfold reflectSelect at h
  simp only at h
  split at h
  · split at h
    · split at h <;> cases h
    · cases h; decide
  · split at h
    · cases h
    · cases h; decide

theorem EventSet.remove_fault {m chosen : Nat} {w w2 : World} {f : Fault}
    (h : EventSet.remove m chosen w = .fault f w2) : f ≠ whenFault := by
  unfold EventSet.remove at h
  split at h
  · cases h; decide
  · simp only at h
    split at h
    · split at h
      · cases h
      · cases h; decide
    · cases h; decide

theorem chooseLoop_fault {m : Nat} (n : Nat) :
    ∀ {w w2 : World} {f : Fault}, chooseLoop m n w = .fault f w2 → f ≠ whenFault := by
  induction n with
  | zero =>
    intro w w2 f h
    simp only [chooseLoop] at h
    split at h
    · cases h; decide
    · cases h
  | succ n ih =>
    intro w w2 f h
    simp only [chooseLoop] at h
    split at h
    · split at h
      · next hr => cases h; exact reflectSelect_fault hr
      · split at h
        · cases h
        · split at h
          · split at h
            · cases h
            · cases h; decide
          · split at h
            · next hr => cases h; exact EventSet.remove_fault hr
            · exact ih h
    · cases h

theorem EventSet.choose_fault {fuel m : Nat} {b : Bool} {w w2 : World} {f : Fault}
    (h : EventSet.choose fuel m b w = .fault f w2) : f ≠ whenFault := by
  unfold EventSet.choose at h
  simp only at h
  split at h
  · cases h; decide
  · exact chooseLoop_fault fuel h

theorem ingestList_fault {m : Nat} (n : Nat) :
    ∀ {list : Option Nat} {w w2 : World} {f : Fault},
      ingestList m n list w = .fault f w2 → f ≠ whenFault := by
  induction n with
  | zero =>
    intro list w w2 f h
    simp only [ingestList] at h
    split at h
    · cases h
    · cases h; decide
  | succ n ih =>
    intro list w w2 f h
    simp only [ingestList] at h
    split at h
    · cases h
    · split at h
      · next he => cases h; exact RemoveHead_fault he
      · split at h
        · next hq => cases h; exact Manager.Queue_fault hq
        · exact ih h

theorem ingestSources_fault {inner m : Nat} (n : Nat) :
    ∀ {w w2 : World} {f : Fault}, ingestSources inner m n w = .fault f w2 →
      f ≠ whenFault := by
  induction n with
  | zero =>
    intro w w2 f h
    cases h
    decide
  | succ n ih =>
    intro w w2 f h
    simp only [ingestSources] at h
    split at h
    · next hs => cases h; exact EventSet.choose_fault hs
    · cases h
    · simp only [turnSource.getAllTurns] at h
      split at h
      · next hi => cases h; exact ingestList_fault inner hi
      · exact ih h

theorem Res.Good.intro {α : Type} {P : α → World → Prop} {r : Res α}
    (hok : ∀ a w2, r = .ok a w2 → P a w2) (hf : ∀ f w2, r = .fault f w2 → f ≠ whenFault) :
    r.Good P := by
  cases r with
  | ok a w2 => exact hok a w2 rfl
  | fault f w2 => exact hf f w2 rfl

/-- A step that writes no resolver and allocates nothing, and keeps the pending lists. -/
theorem Safe.by_frame {w w2 : World} {el el2 : Slot → List Nat} (hw : TWF w el) (hs : Safe w)
    (hw2 : TWF w2 el2) (h1 : w2.res = w.res) (h2 : w2.ralloc = w.ralloc) (h3 : w2.tf = w.tf)
    (h4 : w2.talloc = w.talloc) (h5 : w.calloc ≤ w2.calloc)
    (hel : ∀ k, ∀ t ∈ el (.pending k), t ∈ el2 (.pending k)) : Safe w2 := by
  have hc2 : Closed w2 := by
    refine hs.1.of_step (le_of_eq h2.symm) h5 (fun a n hn => Or.inl ?_)
      (fun t ht => Or.inl ⟨by rw [← h4]; exact ht, by rw [h3]⟩)
    rw [h1] at hn ⊢
    exact ⟨hn, fun h => h⟩
  exact Safe.step hw hs hw2 hc2 (fun k _ => by rw [h1]) (fun k _ h => by rw [h1] at h; exact h)
    (fun k _ _ => hel k) (fun t ht => Or.inl ⟨by rw [← h4]; exact ht, by rw [h3]⟩)

theorem callFn_safe {w w2 : World} {el : Slot → List Nat} (hw : TWF w el) (hs : Safe w)
    {fuel : Nat} {f : Fn} {args rv : List Iface} (h : callFn fuel f args w = .ok rv w2) :
    Safe w2 := by
  cases f with
  | user fid sig body =>
    replace h := (callFn_user_ok h).2
    obtain ⟨_, w1, h1, h2⟩ := bind_ok h
    simp only [logCall] at h1
    cases h1
    have hg : Effect w { w with calls := w.calls ++ [(fid, args)] } el el :=
      Effect.of_ghost hw rfl rfl rfl rfl rfl rfl rfl rfl
    exact exec_safe _ hg.twf
      (Safe.by_frame hw hs hg.twf rfl rfl rfl rfl (le_refl _) (fun _ _ h => h)) h2
  | runUntilRecord cell =>
    simp only [callFn] at h
    split at h
    · cases h
      refine @Safe.by_frame _ _ el el hw hs ?_ rfl rfl rfl rfl (le_refl _) (fun _ _ h => h)
      exact Effect.twf (Effect.of_ghost hw rfl rfl rfl rfl rfl rfl rfl rfl)
    · cases h
  | finallyFn outR fid fb r =>
    simp only [callFn] at h
    obtain ⟨_, w1, h1, h2⟩ := bind_ok h
    simp only [logCall] at h1
    cases h1
    obtain ⟨_, w3, h3, h4⟩ := bind_ok h2
    cases h4
    have hg : Effect w { w with calls := w.calls ++ [(fid, [])] } el el :=
      Effect.of_ghost hw rfl rfl rfl rfl rfl rfl rfl rfl
    exact exec_safe _ hg.twf
      (Safe.by_frame hw hs hg.twf rfl rfl rfl rfl (le_refl _) (fun _ _ h => h)) h3
  | actorResolve s =>
    simp only [callFn] at h
    split at h
    · next a =>
      cases hr : Resolve fuel s .nil a.asError w with
      | fault f w1 => rw [hr] at h; cases h
      | ok u w1 =>
        rw [hr] at h
        cases h
        exact Resolve_safe hw hs hr
    · cases h

theorem runWhen_good {w : World} {el : Slot → List Nat} (hw : TWF w el) (hs : Safe w)
    {fuel s outer : Nat} {inTy : Ty} {tv te rr : Bool} {f : Fn} (ho : outer < w.ralloc)
    (hf : FnClosed w f) (hval : ∃ out outR, whenValidate inTy out outR f.sig = .ok (tv, te, rr))
    (hres : ∀ final, getShortest fuel s w = .ok final w → isResolved w final = true) :
    (runWhen fuel s outer inTy tv te rr f w).Good (fun _ w2 => Safe w2) := by
  refine Res.Good.intro (fun a w2 h => ?_) (fun e w2 h => ?_)
  · unfold runWhen at h
    cases hg : getShortest fuel s w with
    | fault e w1 => rw [hg] at h; cases h
    | ok final w1 =>
      have hw1 : w = w1 := (getShortest_world hg).symm
      subst hw1
      rw [hg] at h
      simp only at h
      split at h
      · cases h
      · split at h
        · exact Fail_safe hw hs h
        · split at h
          · cases h
          · next rv wc hc =>
            obtain ⟨el1, he1, -⟩ := callFn_ok hw hc
            have hs1 := callFn_safe hw hs hc
            split at h
            · next hrr =>
              have hnr : ∀ c, f ≠ .runUntilRecord c := by
                intro c e
                subst e
                obtain ⟨out, outR, hv⟩ := hval
                obtain ⟨-, -, e3⟩ := validate_record hv
                rw [e3] at hrr
                cases hrr
              obtain ⟨hc1, hv⟩ := callFn_client hf hnr hc
              split at h
              · cases h
              · next ty n rest =>
                refine Forward_safe he1.twf hs1 (lt_of_lt_of_le ho hc1.ralloc) ?_ h
                intro x hx
                subst hx
                simp only [List.all_cons, resultAlloc, Bool.and_eq_true, decide_eq_true_eq]
                  at hv
                exact hv.1
              · cases h
            · split at h
              · split at h
                · exact resolve_safe he1.twf hs1 h
                · exact resolve_safe he1.twf hs1 h
              · exact resolve_safe he1.twf hs1 h
              · exact resolve_safe he1.twf hs1 h
  · unfold runWhen at h
    cases hg : getShortest fuel s w with
    | fault e1 w1 =>
      rw [hg] at h
      cases h
      rw [getShortest_fault fuel hg]
      decide
    | ok final w1 =>
      have hw1 : w = w1 := (getShortest_world hg).symm
      subst hw1
      rw [hg] at h
      simp only at h
      split at h
      · next hn =>
        rw [hres final hg] at hn
        simp at hn
      · split at h
        · exact Fail_fault h
        · split at h
          · next hc => cases h; exact callFn_fault hc
          · split at h
            · split at h
              · cases h; decide
              · exact Forward_fault h
              · cases h; decide
            · split at h
              · split at h
                · exact resolve_fault h
                · exact resolve_fault h
              · exact resolve_fault h
              · exact resolve_fault h

end Drydock


namespace Drydock

theorem runClient_safe {w w2 : World} {el : Slot → List Nat} (hw : TWF w el) (hs : Safe w)
    {fuel fid : Nat} {f : Prog} {rv : List Iface}
    (h : (logCall fid [] >>= fun _ => exec fuel f) w = .ok rv w2) : Safe w2 := by
  obtain ⟨_, w1, h1, h2⟩ := bind_ok h
  simp only [logCall] at h1
  cases h1
  have hg : Effect w { w with calls := w.calls ++ [(fid, [])] } el el :=
    Effect.of_ghost hw rfl rfl rfl rfl rfl rfl rfl rfl
  exact exec_safe _ hg.twf
    (Safe.by_frame hw hs hg.twf rfl rfl rfl rfl (le_refl _) (fun _ _ h => h)) h2

theorem runClient_fault {w w2 : World} {fuel fid : Nat} {p : Prog} {f : Fault}
    (h : (logCall fid [] >>= fun _ => exec fuel p) w = .fault f w2) : f ≠ whenFault := by
  rcases bind_fault h with h1 | ⟨_, w1, -, h2⟩
  · cases h1
  · exact exec_fault _ h2

theorem runThunk_good {w : World} {el : Slot → List Nat} (hw : TWF w el) (hs : Safe w)
    {fuel : Nat} {th : Thunk} (hth : ThunkClosed w th)
    (hres : ∀ s outer inTy tv te rr f, th = .whenTurn s outer inTy tv te rr f →
      ∀ final, getShortest fuel s w = .ok final w → isResolved w final = true) :
    (runThunk fuel th w).Good (fun _ w2 => Safe w2) := by
  cases th with
  | user body =>
    refine Res.Good.intro (fun a w2 h => ?_) (fun e w2 h => ?_)
    · simp only [runThunk] at h
      obtain ⟨_, w1, h1, h2⟩ := bind_ok h
      cases h2
      exact exec_safe _ hw hs h1
    · simp only [runThunk] at h
      rcases bind_fault h with h1 | ⟨_, w1, -, h2⟩
      · exact exec_fault _ h1
      · cases h2
  | whenTurn s outer inTy tv te rr f =>
    obtain ⟨-, ho, hf, hval⟩ := hth
    exact runWhen_good hw hs ho hf hval (hres s outer inTy tv te rr f rfl)
  | runUntil main cell =>
    obtain ⟨hm, hcl⟩ := hth
    refine Res.Good.intro (fun a w2 h => ?_) (fun e w2 h => ?_)
    · simp only [runThunk] at h
      obtain ⟨_, w1, h1, h2⟩ := bind_ok h
      cases h2
      exact WhenT_safe hw hs hm (f := .runUntilRecord cell) hcl h1
    · simp only [runThunk] at h
      rcases bind_fault h with h1 | ⟨_, w1, -, h2⟩
      · exact WhenT_fault h1
      · cases h2
  | runnerNew s fid f =>
    have hsr : s < w.ralloc := hth
    refine Res.Good.intro (fun a w2 h => ?_) (fun e w2 h => ?_)
    · simp only [runThunk] at h
      split at h
      · cases h
      · next rv w1 hx =>
        obtain ⟨el1, he1, -⟩ := runClient_ok hw hx
        obtain ⟨hc1, hv⟩ := runClient_client hx
        split at h
        · next ty n rest =>
          refine Forward_safe he1.twf (runClient_safe hw hs hx)
            (lt_of_lt_of_le hsr hc1.ralloc) ?_ h
          intro x hx2
          subst hx2
          simp only [List.all_cons, resultAlloc, Bool.and_eq_true, decide_eq_true_eq] at hv
          exact hv.1
        · cases h
    · simp only [runThunk] at h
      split at h
      · next hx => cases h; exact runClient_fault hx
      · split at h
        · exact Forward_fault h
        · cases h; decide
  | actorMain s fid root =>
    have hsr : s < w.ralloc := hth
    refine Res.Good.intro (fun a w2 h => ?_) (fun e w2 h => ?_)
    · simp only [runThunk] at h
      split at h
      · cases h
      · next rv w1 hx =>
        obtain ⟨el1, he1, -⟩ := runClient_ok hw hx
        obtain ⟨hc1, hv⟩ := runClient_client hx
        split at h
        · next ty x rest =>
          split at h
          · cases h
          · next o w3 hy =>
            cases h
            have hxr : x < w1.ralloc := by
              simp only [List.all_cons, resultAlloc, Bool.and_eq_true, decide_eq_true_eq] at hv
              exact hv.1
            have hfc : FnClosed w1 (.actorResolve s) := lt_of_lt_of_le hsr hc1.ralloc
            exact WhenT_safe he1.twf (runClient_safe hw hs hx) hxr hfc hy
        · cases h
        · cases h
    · simp only [runThunk] at h
      split at h
      · next hx => cases h; exact runClient_fault hx
      · split at h
        · split at h
          · next hy => cases h; exact WhenT_fault hy
          · cases h
        · cases h; decide
        · cases h; decide
  | ioResult s cell =>
    refine Res.Good.intro (fun a w2 h => ?_) (fun e w2 h => ?_)
    · simp only [runThunk] at h
      exact Resolve_safe hw hs h
    · simp only [runThunk] at h
      exact Resolve_fault h

/-- A continuation turn that is in no list has a source whose chain ends in a resolved
resolver. -/
theorem Safe.detached {w : World} {el : Slot → List Nat} (hw : TWF w el) (hs : Safe w)
    {t s outer : Nat} {inTy : Ty} {tv te rr : Bool} {f : Fn} (ht : t < w.talloc)
    (htf : w.tf t = .whenTurn s outer inTy tv te rr f) (hd : w.tnext t = none) {tail : Nat}
    (hch : Chain w s tail) (hn : (w.res tail).next = none) : (w.res tail).turns = none := by
  by_contra hu
  have hm := hs.awaiting hw t s outer inTy tv te rr f ht htf tail hch hn hu
  obtain ⟨z, hz⟩ := hw.lists.linked hm
  rw [hd] at hz
  cases hz

theorem Run_good {w : World} {el : Slot → List Nat} (hw : TWF w el) (hs : Safe w)
    {fuel t : Nat} (ht : t < w.talloc) :
    (Run fuel (some t) w).Good (fun _ w2 => Safe w2) := by
  unfold Run
  split
  · show _ ≠ _
    decide
  · simp only
    split
    · show _ ≠ _
      decide
    · next hd =>
      have hd2 : w.tnext t = none := by
        cases hx : w.tnext t with
        | none => rfl
        | some z => rw [hx] at hd; simp at hd
      have hg : Effect w { w with ran := w.ran ++ [t] } el el :=
        Effect.of_ghost hw rfl rfl rfl rfl rfl rfl rfl rfl
      have hs2 : Safe { w with ran := w.ran ++ [t] } :=
        Safe.by_frame hw hs hg.twf rfl rfl rfl rfl (le_refl _) (fun _ _ h => h)
      refine runThunk_good hg.twf hs2
        ((hs.1.thunks t ht).mono_thunk (le_refl _) (le_refl _)) ?_
      intro s outer inTy tv te rr f htf final hfin
      have hch := getShortest_chain hfin
      have hn := getShortest_next hfin
      have := Safe.detached hg.twf hs2 (t := t) ht htf hd2 hch hn
      simp only [isResolved, Option.isNone_iff_eq_none]
      exact this

theorem runSnapshot_good (inner : Nat) (n : Nat) :
    ∀ {w : World} {el : Slot → List Nat} {list : Option Nat} {xs : List Nat}, TWF w el →
      Safe w → Ring w.tnext list xs → (∀ i, ∀ t ∈ xs, t ∉ el i) →
      (runSnapshot inner n list w).Good (fun _ w2 => Safe w2) := by
  induction n with
  | zero =>
    intro w el list xs hw hs hr _
    simp only [runSnapshot]
    split
    · exact hs
    · show _ ≠ _
      decide
  | succ n ih =>
    intro w el list xs hw hs hr hun
    simp only [runSnapshot]
    split
    · exact hs
    · next hne =>
      cases xs with
      | nil =>
        exfalso; apply hne
        rw [(Ring_nil_iff _ _).1 hr]; rfl
      | cons x rest =>
        obtain ⟨h2, l2, he, hr2, hx, hwf, hfr⟩ := hw.lists.removeHead_local hr hun
        rw [he]
        simp only
        have hwa : TWF { w with tnext := h2 } el := hw.setTnext hwf (fun y hy => by
          rw [hfr y (fun hm => ?_)]
          · exact hy
          · obtain ⟨z, hz⟩ := Ring_linked hr y hm
            rw [hy] at hz; cases hz)
        have hsa : Safe { w with tnext := h2 } :=
          Safe.by_frame hw hs hwa rfl rfl rfl rfl (le_refl _) (fun _ _ h => h)
        have hxt : x < w.talloc := by
          obtain ⟨z, hz⟩ := Ring_linked hr x (List.mem_cons_self _ _)
          exact hw.lt_talloc hz
        have hgood := @Run_good _ _ hwa hsa inner x hxt
        split
        · next e wb hb =>
          rw [hb] at hgood
          exact hgood
        · next u wb hb =>
          rw [hb] at hgood
          obtain ⟨t, elb, hte, heb, -, -⟩ := Run_ok hwa hb
          have hlinked : ∀ y ∈ rest, h2 y ≠ none := fun y hy e => by
            obtain ⟨z, hz⟩ := Ring_linked hr2 y hy
            rw [e] at hz; cases hz
          have hr3 : Ring wb.tnext l2 rest :=
            Ring_congr (fun y hy => heb.grow.frame y (hlinked y hy)
              (fun i hm => hun i y (List.mem_cons_of_mem _ hy) hm)) hr2
          have hun3 : ∀ i, ∀ y ∈ rest, y ∉ elb i := by
            intro i y hy hm
            rcases heb.grow.origin i y hm with ⟨j, hj⟩ | hd
            · exact hun j y (List.mem_cons_of_mem _ hy) hj
            · exact hlinked y hy hd
          exact ih heb.twf hgood hr3 hun3

theorem ingestSources_safe {m inner : Nat} (n : Nat) :
    ∀ {w w2 : World} {el : Slot → List Nat}, TWF w el → Safe w →
      ingestSources inner m n w = .ok () w2 → Safe w2 := by
  induction n with
  | zero => intro w w2 el _ _ h; cases h
  | succ n ih =>
    intro w w2 el hw hs h
    simp only [ingestSources] at h
    split at h
    · cases h
    · next wa ha =>
      cases h
      have hc := choose_core ha
      have hwa : TWF w2 el := TWF.of_core hc hw
      simp only [World.core, Prod.mk.injEq] at hc
      obtain ⟨h1, h2, h3, h4, h5, h6, h7, h8, h9, h10, h11, h12, h13⟩ := hc
      exact Safe.by_frame hw hs hwa h5 h6 h2 h4 (le_of_eq h9.symm) (fun _ _ h => h)
    · next e wa ha =>
      have hc := choose_core ha
      have hwa : TWF wa el := TWF.of_core hc hw
      simp only [World.core, Prod.mk.injEq] at hc
      obtain ⟨h1, h2, h3, h4, h5, h6, h7, h8, h9, h10, h11, h12, h13⟩ := hc
      have hsa : Safe wa :=
        Safe.by_frame hw hs hwa h5 h6 h2 h4 (le_of_eq h9.symm) (fun _ _ h => h)
      simp only [turnSource.getAllTurns] at h
      split at h
      · cases h
      · next u wc hi =>
        obtain ⟨wsrc, hwsrc⟩ : ∃ x : World, x = { wa with src := (Function.update wa.src
            (wa.ev e).data { wa.src (wa.ev e).data with list := some Empty }) } := ⟨_, rfl⟩
        rw [← hwsrc] at hi
        have hring : Ring wa.tnext (wa.src (wa.ev e).data).list
            (el (.source (wa.ev e).data)) := hwa.lists.rings (.source _) _ rfl
        have hwb : TWF wsrc
            (Function.update el (.source (wa.ev e).data) []) := by
          subst hwsrc
          refine ⟨?_, hwa.empty, hwa.fresh, hwa.pos⟩
          rw [show handle _ = _ from handle_setSource wa (wa.ev e).data (some Empty)]
          exact hwa.lists.release _ _ (Or.inr rfl)
        have hun : ∀ i, ∀ t ∈ el (.source (wa.ev e).data),
            t ∉ Function.update el (.source (wa.ev e).data) [] i := by
          intro i t ht
          by_cases hi2 : i = .source (wa.ev e).data
          · subst hi2; simp
          · rw [Function.update_noteq hi2]
            exact hwa.lists.disj _ _ (Ne.symm hi2) t ht
        have hring2 : Ring wsrc.tnext (wa.src (wa.ev e).data).list
            (el (.source (wa.ev e).data)) := by
          subst hwsrc; exact hring
        have hsb : Safe wsrc := by
          subst hwsrc
          refine Safe.by_frame hwa hsa hwb rfl rfl rfl rfl (le_refl _) (fun k t ht => ?_)
          have hne : Slot.pending k ≠ Slot.source (wa.ev e).data := by simp
          rw [Function.update_noteq hne]
          exact ht
        obtain ⟨hwc, hqo⟩ := ingestList_ok m inner hwb hring2 hun hi
        have hsc : Safe wc := by
          refine Safe.by_queues hwb hsb hqo hwc (fun k t ht => ?_)
          have hne : Slot.pending k ≠ Slot.queue m := by simp
          rw [Function.update_noteq hne]
          exact ht
        exact ih hwc hsc h

/-- A cycle of the manager on a well-formed world never stops at the assertion of the
continuation dispatcher, and it keeps the world well formed. -/
theorem runOneLoop_good {fuel m : Nat} {w : World} {el : Slot → List Nat} (hw : TWF w el)
    (hs : Safe w) :
    (Manager.runOneLoop fuel m w).Good (fun _ w2 => (∃ el2, TWF w2 el2) ∧ Safe w2) := by
  have key : (Manager.runOneLoop fuel m w).Good (fun _ w2 => Safe w2) := by
    unfold Manager.runOneLoop
    split
    · next e w1 h1 =>
      show e ≠ whenFault
      exact ingestSources_fault fuel h1
    · next u w1 h1 =>
      obtain ⟨el1, hw1, -, -⟩ := ingestSources_ok fuel hw h1
      have hs1 := ingestSources_safe fuel hw hs h1
      obtain ⟨ws, hws⟩ : ∃ x : World, x = { w1 with mgr := (Function.update w1.mgr m
          { w1.mgr m with turns := some Empty }) } := ⟨_, rfl⟩
      rw [← hws]
      have hring : Ring ws.tnext (w1.mgr m).turns (el1 (.queue m)) := by
        subst hws; exact hw1.lists.rings (.queue m) _ rfl
      have hwts : TWF ws (Function.update el1 (.queue m) []) := by
        subst hws
        refine ⟨?_, hw1.empty, hw1.fresh, hw1.pos⟩
        have := handle_setQueue w1 m (some Empty) w1.tnext w1.enq
        rw [show handle { w1 with mgr := (Function.update w1.mgr m
          { w1.mgr m with turns := some Empty }) } = _ from this]
        exact hw1.lists.release _ _ (Or.inr rfl)
      have hun : ∀ i, ∀ t ∈ el1 (.queue m), t ∉ Function.update el1 (.queue m) [] i := by
        intro i t ht
        by_cases hi2 : i = .queue m
        · subst hi2; simp
        · rw [Function.update_noteq hi2]
          exact hw1.lists.disj _ _ (Ne.symm hi2) t ht
      have hss : Safe ws := by
        subst hws
        refine Safe.by_frame hw1 hs1 hwts rfl rfl rfl rfl (le_refl _) (fun k t ht => ?_)
        have hne : Slot.pending k ≠ Slot.queue m := by simp
        rw [Function.update_noteq hne]
        exact ht
      exact runSnapshot_good fuel fuel hwts hss hring hun
  cases hr : Manager.runOneLoop fuel m w with
  | fault e w2 => rw [hr] at key; exact key
  | ok u w2 =>
    rw [hr] at key
    refine ⟨?_, key⟩
    unfold Manager.runOneLoop at hr
    split at hr
    · cases hr
    · next u1 w1 h1 =>
      obtain ⟨el1, hw1, -, -⟩ := ingestSources_ok fuel hw h1
      obtain ⟨ws, hws⟩ : ∃ x : World, x = { w1 with mgr := (Function.update w1.mgr m
          { w1.mgr m with turns := some Empty }) } := ⟨_, rfl⟩
      rw [← hws] at hr
      have hring : Ring ws.tnext (w1.mgr m).turns (el1 (.queue m)) := by
        subst hws; exact hw1.lists.rings (.queue m) _ rfl
      have hwts : TWF ws (Function.update el1 (.queue m) []) := by
        subst hws
        refine ⟨?_, hw1.empty, hw1.fresh, hw1.pos⟩
        have := handle_setQueue w1 m (some Empty) w1.tnext w1.enq
        rw [show handle { w1 with mgr := (Function.update w1.mgr m
          { w1.mgr m with turns := some Empty }) } = _ from this]
        exact hw1.lists.release _ _ (Or.inr rfl)
      have hun : ∀ i, ∀ t ∈ el1 (.queue m), t ∉ Function.update el1 (.queue m) [] i := by
        intro i t ht
        by_cases hi2 : i = .queue m
        · subst hi2; simp
        · rw [Function.update_noteq hi2]
          exact hw1.lists.disj _ _ (Ne.symm hi2) t ht
      obtain ⟨el2, hw2, -⟩ := runSnapshot_ok fuel fuel hwts hring hun hr
      exact ⟨el2, hw2⟩

end Drydock


namespace Drydock

theorem Event.Signal_fault {e : Option Nat} {w w2 : World} {f : Fault}
    (h : Event.Signal e w = .fault f w2) : f ≠ whenFault := by
  unfold Event.Signal at h
  split at h
  · cases h; decide
  · split at h
    · cases h; decide
    · cases h

theorem waitForSources_fault {fuel m cell : Nat} {w w2 : World} {f : Fault}
    (h : waitForSources fuel m cell w = .fault f w2) : f ≠ whenFault := by
  unfold waitForSources at h
  split at h
  · split at h
    · next hc => cases h; exact EventSet.choose_fault hc
    · split at h
      · cases h; decide
      · split at h
        · cases h; decide
        · split at h
          · cases h; decide
          · exact Event.Signal_fault h
  · cases h

theorem runUntilLoop_good {inner m cell : Nat} (n : Nat) :
    ∀ {w : World} {el : Slot → List Nat}, TWF w el → Safe w →
      (runUntilLoop inner m cell n w).Good (fun _ w2 => (∃ el2, TWF w2 el2) ∧ Safe w2) := by
  induction n with
  | zero =>
    intro w el hw hs
    simp only [runUntilLoop]
    split
    · show _ ≠ _
      decide
    · exact ⟨⟨el, hw⟩, hs⟩
  | succ n ih =>
    intro w el hw hs
    simp only [runUntilLoop]
    split
    · have hg := @runOneLoop_good inner m _ _ hw hs
      split
      · next e w1 h1 =>
        rw [h1] at hg
        exact hg
      · next u w1 h1 =>
        rw [h1] at hg
        obtain ⟨⟨el1, hw1⟩, hs1⟩ := hg
        split
        · next e wb hb =>
          show e ≠ whenFault
          exact waitForSources_fault hb
        · next u2 wb hb =>
          have hcore := waitForSources_core hb
          have hwb : TWF wb el1 := TWF.of_core hcore hw1
          simp only [World.core, Prod.mk.injEq] at hcore
          obtain ⟨h1, h2, h3, h4, h5, h6, h7, h8, h9, h10, h11, h12, h13⟩ := hcore
          exact ih hwb
            (Safe.by_frame hw1 hs1 hwb h5 h6 h2 h4 (le_of_eq h9.symm) (fun _ _ h => h))
    · exact ⟨⟨el, hw⟩, hs⟩

theorem RunUntil_good {fuel m main : Nat} {w : World} {el : Slot → List Nat} (hw : TWF w el)
    (hs : Safe w) (hmain : main < w.ralloc) :
    (Manager.RunUntil fuel m main w).Good (fun _ w2 => (∃ el2, TWF w2 el2) ∧ Safe w2) := by
  unfold Manager.RunUntil
  simp only
  obtain ⟨w0, hw0⟩ : ∃ x : World, x = { w with
      cells := Function.update w.cells w.calloc none, calloc := w.calloc + 1 } := ⟨_, rfl⟩
  rw [← hw0]
  have hwf0 : TWF w0 el := by
    subst hw0
    exact Effect.twf (Effect.of_ghost hw rfl rfl rfl rfl rfl rfl rfl rfl)
  have hs0 : Safe w0 := by
    subst hw0
    exact Safe.by_frame hw hs hwf0 rfl rfl rfl rfl (Nat.le_succ _) (fun _ _ h => h)
  have hcl : ThunkClosed w0 (.runUntil main w.calloc) := by
    subst hw0
    exact ⟨hmain, Nat.lt_succ_self _⟩
  split
  · next e w1 h1 =>
    show e ≠ whenFault
    exact Manager.NewTurn_fault h1
  · next u w1 h1 =>
    obtain ⟨heff, -⟩ := Manager.NewTurn_effect hwf0 h1
    have hs1 := Manager.NewTurn_keeps hwf0 hs0 hcl (fun _ _ _ _ _ _ _ e => by cases e) h1
    have hg := @runUntilLoop_good fuel m w.calloc fuel _ _ heff.twf hs1
    split
    · next e w2 h2 =>
      rw [h2] at hg
      exact hg
    · next u2 w2 h2 =>
      rw [h2] at hg
      split <;> exact hg

theorem Runs.sound {fuel : Nat} {w0 w : World} {el0 : Slot → List Nat} (hwf : TWF w0 el0)
    (hs : Safe w0) (hr : Runs fuel w0 w) : (∃ el, TWF w el) ∧ Safe w := by
  induction hr with
  | start => exact ⟨⟨el0, hwf⟩, hs⟩
  | client p _ hx ih =>
    obtain ⟨⟨el, hw⟩, hs1⟩ := ih
    obtain ⟨el2, he, -⟩ := exec_ok _ hw hx
    exact ⟨⟨el2, he.twf⟩, exec_safe _ hw hs1 hx⟩
  | cycle m _ hx ih =>
    obtain ⟨⟨el, hw⟩, hs1⟩ := ih
    have hg := @runOneLoop_good fuel m _ _ hw hs1
    rw [hx] at hg
    exact hg

/-- C35 (resolution precedes continuation execution): in every world reached from a
well-formed one by client code (calls on results and resolvers, `When` among them) and by
cycles of a manager, every continuation turn whose source has an unresolved tail is in the
pending list of that tail; every continuation turn in a manager queue therefore has a source
whose forwarding chain ends in a resolved resolver, and neither a cycle of the manager nor
`RunUntil` ever stops at the assertion "When's shouldn't run if the target is not
resolved." -/
theorem resolution_precedes_continuation (fuel m main : Nat) (w0 w : World)
    (el0 : Slot → List Nat) (hwf : TWF w0 el0) (hc : Closed w0) (ha : Awaiting w0 el0)
    (hr : Runs fuel w0 w) :
    ∃ el, TWF w el ∧ Closed w ∧ Awaiting w el ∧
      (∀ t ∈ el (.queue m), ∀ s outer inTy tv te rr f,
        w.tf t = .whenTurn s outer inTy tv te rr f →
        ∀ tail, Chain w s tail → (w.res tail).next = none → (w.res tail).turns = none) ∧
      (∀ f w2, Manager.runOneLoop fuel m w = .fault f w2 →
        f ≠ .precondition "When's shouldn't run if the target is not resolved.") ∧
      (main < w.ralloc → ∀ f w2, Manager.RunUntil fuel m main w = .fault f w2 →
        f ≠ .precondition "When's shouldn't run if the target is not resolved.") := by
  obtain ⟨⟨el, hw⟩, hs⟩ := Runs.sound hwf (Safe.of_awaiting hc hwf ha) hr
  refine ⟨el, hw, hs.1, hs.awaiting hw, ?_, ?_, ?_⟩
  · intro t ht s outer inTy tv te rr f htf tail hch hn
    by_contra hu
    obtain ⟨z, hz⟩ := hw.lists.linked ht
    have hm := hs.awaiting hw t s outer inTy tv te rr f (hw.lt_talloc hz) htf tail hch hn hu
    exact hw.lists.disj (.queue m) (.pending tail) (by simp) t ht hm
  · intro f w2 h
    have hg := @runOneLoop_good fuel m _ _ hw hs
    rw [h] at hg
    exact hg
  · intro hmain f w2 h
    have hg := @RunUntil_good fuel m main _ _ hw hs hmain
    rw [h] at hg
    exact hg

theorem Awaiting.sample_awaiting : Awaiting World.sample (fun _ => []) := by
  intro t s outer inTy tv te rr f _ htf
  cases htf

theorem resolution_precedes_continuation_witness :
    (∃ el, TWF World.completed el ∧ Closed World.completed ∧ Awaiting World.completed el ∧
      (∀ t ∈ el (.queue 0), ∀ s outer inTy tv te rr f,
        World.completed.tf t = .whenTurn s outer inTy tv te rr f →
        ∀ tail, Chain World.completed s tail → (World.completed.res tail).next = none →
          (World.completed.res tail).turns = none) ∧
      (∀ f w2, Manager.runOneLoop 3 0 World.completed = .fault f w2 →
        f ≠ .precondition "When's shouldn't run if the target is not resolved.") ∧
      (1 < World.completed.ralloc → ∀ f w2,
        Manager.RunUntil 3 0 1 World.completed = .fault f w2 →
        f ≠ .precondition "When's shouldn't run if the target is not resolved.")) ∧
    (Manager.runOneLoop 3 0 World.completed).val? = some () ∧
    (Manager.runOneLoop 3 0 World.completed).world.calls = [(9, [])] :=
  ⟨resolution_precedes_continuation 3 0 1 World.sample World.completed (fun _ => [])
      TWF.sample Closed.of_sample Awaiting.sample_awaiting
      (Runs.client sampleAwait Runs.start
        (Res.ok_of_val (by decide! : (exec 3 sampleAwait World.sample).val? = some []))),
    by decide!, by decide!⟩

end Drydock


namespace Drydock

/-! ### The invariant of an actor -/

theorem mem_update_nil {el : Slot → List Nat} {p i : Slot} {t : Nat}
    (h : t ∈ Function.update el p [] i) : t ∈ el i := by
  by_cases hi : i = p
  · subst hi
    simp at h
  · rwa [Function.update_noteq hi] at h

/-- A turn of the lists after slot `q` took up the turns `xs`. -/
theorem mem_update_append {el : Slot → List Nat} {q i : Slot} {xs : List Nat} {t : Nat}
    (h : t ∈ Function.update el q (el q ++ xs) i) : t ∈ el i ∨ t ∈ xs := by
  by_cases hi : i = q
  · subst hi
    simp only [Function.update_same, List.mem_append] at h
    exact h
  · rw [Function.update_noteq hi] at h
    exact Or.inl h

theorem ActorInv.by_step {s tm x : Nat} {w w2 : World} (hc : Closed w) (hi : ActorInv s tm x w)
    (hst : Stable w w2) (hta : w.talloc ≤ w2.talloc) (hs1 : (w2.res s).next = none)
    (hs2 : (w2.res s).turns = none → (w.res s).turns = none)
    (hs3 : (w2.res s).outcome = (w.res s).outcome)
    (hout : ∀ a, Iface.Avoids s (w2.res a).outcome)
    (htf : ∀ t, t < w2.talloc → t ≠ tm →
      (t < w.talloc ∧ w2.tf t = w.tf t) ∨ (w2.tf t).Avoids s tm ∨
      ∃ src outer inTy tv te rr,
        w2.tf t = .whenTurn src outer inTy tv te rr (.actorResolve s) ∧ outer ≠ s ∧
          Chain w2 x src)
    (hmain : ∃ el2, TWF w2 el2 ∧ ∀ i, tm ∉ el2 i) : ActorInv s tm x w2 := by
  refine ⟨lt_of_lt_of_le hi.alloc hst.ralloc, lt_of_lt_of_le hi.turn hta, hs1, ?_, hout, ?_, ?_⟩
  · intro t ht hne
    rcases htf t ht hne with ⟨ht1, e1⟩ | h2 | h3
    · rw [e1]
      rcases hi.thunks t ht1 hne with h | ⟨src, outer, inTy, tv, te, rr, h1, h2, h3⟩
      · exact Or.inl h
      · exact Or.inr ⟨src, outer, inTy, tv, te, rr, h1, h2, h3.keep hc hst⟩
    · exact Or.inl h2
    · exact Or.inr h3
  · intro h
    obtain ⟨final, h1, h2, h3, h4, h5⟩ := hi.resolved (hs2 h)
    have he := hst.res final h2 h4
    exact ⟨final, h1.keep hc hst, lt_of_lt_of_le h2 hst.ralloc, by rw [he]; exact h3,
      by rw [he]; exact h4, by rw [he, hs3]; exact h5⟩
  · intro el hw i
    obtain ⟨el2, hw2, hm⟩ := hmain
    rw [TWF.unique hw hw2]
    exact hm i

/-- A step that only moves turns between lists. -/
theorem ActorInv.by_moves {s tm x : Nat} {w w2 : World} (hc : Closed w)
    (hi : ActorInv s tm x w) (hq : QueueOnly w w2)
    (hmain : ∃ el2, TWF w2 el2 ∧ ∀ i, tm ∉ el2 i) : ActorInv s tm x w2 :=
  hi.by_step hc hq.to_stable (le_of_eq (allocs_talloc hq.allocs).symm)
    (by rw [(hq.res s).2.2.1]; exact hi.subject) (fun h => (hq.res s).2.2.2.1 h)
    (hq.res s).2.1 (fun a => by rw [(hq.res a).2.1]; exact hi.outcomes a)
    (fun t ht _ => Or.inl ⟨by rw [← allocs_talloc hq.allocs]; exact ht,
      by rw [allocs_tf hq.allocs]⟩) hmain

theorem resolve_actor {s tm x : Nat} {w w2 : World} {el : Slot → List Nat} (hw : TWF w el)
    (hc : Closed w) (hi : ActorInv s tm x w) {fuel a : Nat} {o : Iface} (ha : a ≠ s)
    (ho : Iface.Avoids s o) (h : resolve fuel a o w = .ok () w2) : ActorInv s tm x w2 := by
  obtain ⟨el0, he0, -⟩ := resolve_ok hw h
  cases hst : (w.res a).turns with
  | none => simp [resolve, isResolved, hst] at h
  | some l =>
    have h2 : queueList a fuel (some l) { w with res := (Function.update w.res a
        { w.res a with turns := none, outcome := o }) } = .ok () w2 := by
      simpa [resolve, isResolved, hst] using h
    obtain ⟨heff, -, hal, -, -⟩ := drain_effect hw hst _ rfl a fuel h2
    have hqo := queueList_queueOnly fuel h2
    refine hi.by_step hc he0.stable (le_of_eq (allocs_talloc hal).symm) ?_ ?_ ?_ ?_
      (fun t ht _ => Or.inl ⟨by rw [← allocs_talloc hal]; exact ht, by rw [allocs_tf hal]⟩)
      ⟨_, heff.twf, fun i hm => ?_⟩
    · rw [(hqo.res s).2.2.1]
      show (Function.update w.res a _ s).next = none
      rw [Function.update_noteq (Ne.symm ha)]
      exact hi.subject
    · intro h3
      have := (hqo.res s).2.2.2.1 h3
      have h4 : (Function.update w.res a _ s).turns = none := this
      rwa [Function.update_noteq (Ne.symm ha)] at h4
    · rw [(hqo.res s).2.1]
      show (Function.update w.res a _ s).outcome = _
      rw [Function.update_noteq (Ne.symm ha)]
    · intro k
      rw [(hqo.res k).2.1]
      show Iface.Avoids s (Function.update w.res a _ k).outcome
      by_cases hk : k = a
      · subst hk
        simp only [Function.update_same]
        exact ho
      · rw [Function.update_noteq hk]
        exact hi.outcomes k
    · rcases mem_update_append hm with h5 | h5
      · exact hi.main el hw _ (mem_update_nil h5)
      · exact hi.main el hw _ h5

theorem Complete_actor {s tm x : Nat} {w w2 : World} {el : Slot → List Nat} (hw : TWF w el)
    (hc : Closed w) (hi : ActorInv s tm x w) {fuel a : Nat} {v : Iface} (ha : a ≠ s)
    (ho : Iface.Avoids s v) (h : Complete fuel a v w = .ok () w2) : ActorInv s tm x w2 := by
  obtain ⟨_, w1, h1, h2⟩ := bind_ok h
  obtain ⟨-, rfl⟩ := assertTrue_ok h1
  exact resolve_actor hw hc hi ha ho h2

theorem Iface.avoids_ofError (s : Nat) (e : Option Err) : Iface.Avoids s (ofError e) := by
  cases e <;> trivial

theorem Fail_actor {s tm x : Nat} {w w2 : World} {el : Slot → List Nat} (hw : TWF w el)
    (hc : Closed w) (hi : ActorInv s tm x w) {fuel a : Nat} {e : Option Err} (ha : a ≠ s)
    (h : Fail fuel a e w = .ok () w2) : ActorInv s tm x w2 := by
  obtain ⟨_, w1, h1, h2⟩ := bind_ok h
  obtain ⟨-, rfl⟩ := assertTrue_ok h1
  exact resolve_actor hw hc hi ha (Iface.avoids_ofError s e) h2

theorem Resolve_actor {s tm x : Nat} {w w2 : World} {el : Slot → List Nat} (hw : TWF w el)
    (hc : Closed w) (hi : ActorInv s tm x w) {fuel a : Nat} {v : Iface} {e : Option Err}
    (ha : a ≠ s) (ho : Iface.Avoids s v) (h : Resolve fuel a v e w = .ok () w2) :
    ActorInv s tm x w2 := by
  obtain ⟨_, w1, h1, h2⟩ := bind_ok h
  obtain ⟨-, rfl⟩ := assertTrue_ok h1
  split at h2
  · obtain ⟨_, w3, h3, h4⟩ := bind_ok h2
    obtain ⟨-, rfl⟩ := assertTrue_ok h3
    exact resolve_actor hw hc hi ha (Iface.avoids_ofError s e) h4
  · exact resolve_actor hw hc hi ha ho h2

theorem Forward_actor {s tm x : Nat} {w w2 : World} {el : Slot → List Nat} (hw : TWF w el)
    (hc : Closed w) (hi : ActorInv s tm x w) {fuel a : Nat} {n : Option Nat} (ha : a ≠ s)
    (h : Forward fuel a n w = .ok () w2) : ActorInv s tm x w2 := by
  obtain ⟨el0, he0, -⟩ := Forward_ok hw h
  cases hst : (w.res a).turns with
  | none => simp [Forward, isResolved, hst] at h
  | some l =>
    cases n with
    | none => simp [Forward, isResolved, hst] at h
    | some nx =>
      simp only [Forward, isResolved, hst, Option.isNone_some, Bool.false_eq_true, if_false]
        at h
      split at h
      · cases h
      · cases hg : getShortest fuel nx w with
        | fault f w1 => rw [hg] at h; cases h
        | ok next w1 =>
          have hw1 : w = w1 := (getShortest_world hg).symm
          subst hw1
          rw [hg] at h
          simp only [hst] at h
          have hqo := queueList_queueOnly fuel h
          obtain ⟨heff, -, hal, -, -⟩ := drain_effect hw hst _ rfl next fuel h
          refine hi.by_step hc he0.stable (le_of_eq (allocs_talloc hal).symm) ?_ ?_ ?_ ?_
            (fun t ht _ => Or.inl ⟨by rw [← allocs_talloc hal]; exact ht,
              by rw [allocs_tf hal]⟩)
            ⟨_, heff.twf, fun i hm => ?_⟩
          · rw [(hqo.res s).2.2.1]
            show (Function.update w.res a _ s).next = none
            rw [Function.update_noteq (Ne.symm ha)]
            exact hi.subject
          · intro h3
            have := (hqo.res s).2.2.2.1 h3
            have h4 : (Function.update w.res a _ s).turns = none := this
            rwa [Function.update_noteq (Ne.symm ha)] at h4
          · rw [(hqo.res s).2.1]
            show (Function.update w.res a _ s).outcome = _
            rw [Function.update_noteq (Ne.symm ha)]
          · intro k
            rw [(hqo.res k).2.1]
            show Iface.Avoids s (Function.update w.res a _ k).outcome
            by_cases hk : k = a
            · subst hk
              simp only [Function.update_same]
              trivial
            · rw [Function.update_noteq hk]
              exact hi.outcomes k
          · rcases mem_update_append hm with h5 | h5
            · exact hi.main el hw _ (mem_update_nil h5)
            · exact hi.main el hw _ h5

theorem newTurnResolver_actor {s tm x : Nat} {w w2 : World} {el : Slot → List Nat}
    (hw : TWF w el) (hc : Closed w) (hi : ActorInv s tm x w) {m a : Nat}
    (h : newTurnResolver m w = .ok a w2) : ActorInv s tm x w2 ∧ a ≠ s := by
  obtain ⟨ha, he, -, hr, -⟩ := newTurnResolver_ok hw h
  have hne : s ≠ w.ralloc := Nat.ne_of_lt hi.alloc
  have hta : w2.talloc = w.talloc := by simp only [newTurnResolver] at h; cases h; rfl
  have htf : w2.tf = w.tf := by simp only [newTurnResolver] at h; cases h; rfl
  refine ⟨hi.by_step hc he.stable (le_of_eq hta.symm) ?_ ?_ ?_ ?_
    (fun t ht _ => Or.inl ⟨by rw [← hta]; exact ht, by rw [htf]⟩)
    ⟨_, he.twf, fun i hm => hi.main el hw i (mem_update_nil hm)⟩, by rw [ha]; exact hne.symm⟩
  · rw [hr, Function.update_noteq hne]; exact hi.subject
  · rw [hr, Function.update_noteq hne]; exact fun h => h
  · rw [hr, Function.update_noteq hne]
  · intro k
    rw [hr]
    by_cases hk : k = w.ralloc
    · subst hk
      simp only [Function.update_same]
      trivial
    · rw [Function.update_noteq hk]
      exact hi.outcomes k

theorem WhenT_actor {s tm x : Nat} {w w2 : World} {el : Slot → List Nat} (hw : TWF w el)
    (hc : Closed w) (hi : ActorInv s tm x w) {fuel r o : Nat} {inTy out outR : Ty} {f : Fn}
    (hr : r < w.ralloc) (hf : f.Avoids s tm ∨ (f = .actorResolve s ∧ Chain w x r))
    (h : WhenT fuel r inTy out outR f w = .ok o w2) : ActorInv s tm x w2 ∧ o ≠ s := by
  obtain ⟨tv, te, rr, s1, tgt, -, hsrc, ho, heff, htgt, -, htf, hta, -, hnew, -, hall⟩ :=
    WhenT_ok hw h
  obtain ⟨-, -, -, -, -, -, -, -, hst, -, -, -, htfs, -⟩ := WhenT_inv h
  have hs1 : s1 < w.ralloc ∧ Chain w r s1 := by
    split at hsrc
    · exact ⟨getShortest_lt hc hr hsrc, getShortest_chain hsrc⟩
    · cases hsrc
      exact ⟨hr, Chain.refl _⟩
  have hne1 : s1 ≠ w.ralloc := Nat.ne_of_lt hs1.1
  have hne : s ≠ w.ralloc := Nat.ne_of_lt hi.alloc
  have htm : tm ≠ w.talloc := Nat.ne_of_lt hi.turn
  refine ⟨hi.by_step hc hst (by omega) ?_ ?_ ?_ ?_ ?_ ⟨_, heff.twf, fun i hm => ?_⟩,
    by rw [ho]; exact hne.symm⟩
  · rw [(hall s hne).2.2.1]; exact hi.subject
  · exact fun h3 => (hall s hne).2.2.2.1 h3
  · exact (hall s hne).2.1
  · intro k
    by_cases hk : k = w.ralloc
    · subst hk
      rw [hnew hne1]
      trivial
    · rw [(hall k hk).2.1]
      exact hi.outcomes k
  · intro t ht _
    by_cases ht2 : t = w.talloc
    · subst ht2
      right
      rw [htf]
      rcases hf with hf | ⟨hf, hch⟩
      · exact Or.inl ⟨hne.symm, hf⟩
      · subst hf
        exact Or.inr ⟨s1, w.ralloc, inTy, tv, te, rr, rfl, hne.symm,
          (hch.trans_chain hs1.2).keep hc hst⟩
    · left
      have ht3 : t < w.talloc := by omega
      exact ⟨ht3, htfs t ht3⟩
  · rcases mem_update_append hm with h5 | h5
    · exact hi.main el hw _ (mem_update_nil h5)
    · exact htm (List.mem_singleton.1 h5)

theorem NewTurn_actor {s tm x : Nat} {w w2 : World} {el : Slot → List Nat} (hw : TWF w el)
    (hc : Closed w) (hi : ActorInv s tm x w) {name : String} {th : Thunk} {t : Nat}
    (hth : th.Avoids s tm) (h : NewTurn name th w = .ok t w2) :
    ActorInv s tm x w2 ∧ t ≠ tm := by
  obtain ⟨ht, he, -, -, htf, -, -, hr⟩ := NewTurn_ok hw h
  have hta : w2.talloc = w.talloc + 1 := by simp only [NewTurn] at h; cases h; rfl
  have htfs : ∀ k, k ≠ w.talloc → w2.tf k = w.tf k := by
    intro k hk
    simp only [NewTurn] at h
    cases h
    exact Function.update_noteq hk _ _
  have hra : w2.ralloc = w.ralloc := by simp only [NewTurn] at h; cases h; rfl
  subst ht
  refine ⟨hi.by_step hc (Stable.of_eq hr hra) (by omega) (by rw [hr]; exact hi.subject)
    (fun h => by rw [hr] at h; exact h) (by rw [hr]) (fun a => by rw [hr]; exact hi.outcomes a)
    (fun k hk _ => ?_) ⟨el, he.twf, hi.main el hw⟩, Ne.symm (Nat.ne_of_lt hi.turn)⟩
  by_cases hk2 : k = w.talloc
  · subst hk2
    exact Or.inr (Or.inl (by rw [htf]; exact hth))
  · exact Or.inl ⟨by omega, htfs k hk2⟩

theorem Manager.Queue_actor {s tm x : Nat} {w w2 : World} {el : Slot → List Nat}
    (hw : TWF w el) (hc : Closed w) (hi : ActorInv s tm x w) {m : Nat} {t : Option Nat}
    (ht : t ≠ some tm) (hal : ∀ a, t = some a → a < w.talloc)
    (h : Manager.Queue m t w = .ok () w2) : ActorInv s tm x w2 := by
  obtain ⟨a, ha, he, -⟩ := Manager.Queue_ok hw h hal
  refine hi.by_moves hc (Manager.Queue_queueOnly h) ⟨_, he.twf, fun i hm => ?_⟩
  rcases mem_update_append hm with h5 | h5
  · exact hi.main el hw _ h5
  · rw [List.mem_singleton.1 h5] at ht
    exact ht ha

theorem Manager.NewTurn_actorInv {s tm x : Nat} {w w2 : World} {el : Slot → List Nat}
    (hw : TWF w el) (hc : Closed w) (hi : ActorInv s tm x w) {m : Nat} {name : String}
    {th : Thunk} (hth : th.Avoids s tm) (hcl : ThunkClosed w th) (hrec : ∀ c, ¬ th.records c)
    (h : Manager.NewTurn m name th w = .ok () w2) : ActorInv s tm x w2 := by
  obtain ⟨t, w1, h1, h2⟩ := bind_ok h
  obtain ⟨ht, he1, -, -, -, -, htl, -⟩ := Drydock.NewTurn_ok hw h1
  obtain ⟨hi1, hne⟩ := Drydock.NewTurn_actor hw hc hi hth h1
  exact Manager.Queue_actor he1.twf ((Drydock.NewTurn_client hrec hcl h1).closed hc) hi1
    (fun e => hne (Option.some.inj e)) (fun a ha => by cases ha; exact htl) h2

theorem turnRunner.New_actor {s tm x : Nat} {w w2 : World} {el : Slot → List Nat}
    (hw : TWF w el) (hc : Closed w) (hi : ActorInv s tm x w) {t : Runner} {fid : Nat}
    {f : Prog} {a : Nat} (hf : f.Avoids s tm) (h : turnRunner.New t fid f w = .ok a w2) :
    ActorInv s tm x w2 ∧ a ≠ s := by
  obtain ⟨w1, id, wi, h1, h2, h3⟩ := turnRunner.New_parts h
  obtain ⟨ha, he1, -, -, hr1⟩ := newTurnResolver_ok hw h1
  obtain ⟨hi1, hne⟩ := newTurnResolver_actor hw hc hi h1
  have hc1 := (newTurnResolver_client h1).closed hc
  obtain ⟨he2, -, -, -⟩ := Manager.NewID_ok he1.twf h2
  have hf5 : wi.res = w1.res ∧ wi.ralloc = w1.ralloc ∧ wi.tf = w1.tf ∧ wi.talloc = w1.talloc ∧
      wi.cells = w1.cells ∧ wi.calloc = w1.calloc := by
    simp only [Manager.NewID, UniqueIDGenerator.NewID] at h2
    cases h2
    exact ⟨rfl, rfl, rfl, rfl, rfl, rfl⟩
  obtain ⟨f1, f2, f3, f4, f5, f6⟩ := hf5
  have hci : Closed wi := (Client.of_heap f1 f2 f3 f4 f5 f6).closed hc1
  have hii : ActorInv s tm x wi :=
    hi1.by_step hc1 (Stable.of_eq f1 f2) (le_of_eq f4.symm) (by rw [f1]; exact hi1.subject)
      (fun h => by rw [f1] at h; exact h) (by rw [f1])
      (fun a => by rw [f1]; exact hi1.outcomes a)
      (fun k hk _ => Or.inl ⟨by rw [← f4]; exact hk, by rw [f3]⟩)
      ⟨_, he2.twf, fun i hm => hi1.main _ he1.twf i hm⟩
  have htc : ThunkClosed wi (.runnerNew a fid f) := by
    show a < wi.ralloc
    rw [f2, hr1, ha]
    exact Nat.lt_succ_self _
  exact ⟨Manager.NewTurn_actorInv he2.twf hci hii
    (show Thunk.Avoids s tm (.runnerNew a fid f) from ⟨hne, hf⟩) htc
    (fun _ h => h) h3, hne⟩

theorem exec_actor {s tm x fuel : Nat} (p : Prog) :
    ∀ {w w2 : World} {el : Slot → List Nat} {vals : List Iface}, TWF w el → Closed w →
      ActorInv s tm x w → p.Avoids s tm → exec fuel p w = .ok vals w2 →
      ActorInv s tm x w2 ∧ ∀ v ∈ vals, Iface.Avoids s v := by
  induction p with
  | ret vals =>
    intro w w2 el v hw hc hi hp h
    simp only [exec] at h
    obtain ⟨_, w0, h0, h1⟩ := bind_ok h
    obtain ⟨-, rfl⟩ := guardAlloc_ok h0
    cases h1
    exact ⟨hi, hp⟩
  | newResult m k ih =>
    intro w w2 el v hw hc hi hp h
    simp only [exec] at h
    split at h
    · cases h
    · next a w1 hx =>
      obtain ⟨_, w0, h0, h1⟩ := bind_ok hx
      obtain ⟨-, rfl⟩ := guardAlloc_ok h0
      obtain ⟨-, he, -⟩ := newTurnResolver_ok hw h1
      obtain ⟨hi1, ha⟩ := newTurnResolver_actor hw hc hi h1
      exact ih a he.twf ((newTurnResolver_client h1).closed hc) hi1 (hp a ha) h
  | complete a v k ih =>
    intro w w2 el vals hw hc hi hp h
    simp only [exec] at h
    obtain ⟨_, w0, h0, h⟩ := bind_ok h
    obtain ⟨-, rfl⟩ := guardAlloc_ok h0
    obtain ⟨_, w1, h1, h⟩ := bind_ok h
    obtain ⟨el1, he, -⟩ := Complete_ok hw h1
    exact ih he.twf ((Complete_client h1).closed hc) (Complete_actor hw hc hi hp.1 hp.2.1 h1)
      hp.2.2 h
  | fail a e k ih =>
    intro w w2 el vals hw hc hi hp h
    simp only [exec] at h
    obtain ⟨_, w0, h0, h⟩ := bind_ok h
    obtain ⟨-, rfl⟩ := guardAlloc_ok h0
    obtain ⟨_, w1, h1, h⟩ := bind_ok h
    obtain ⟨el1, he, -⟩ := Fail_ok hw h1
    exact ih he.twf ((Fail_client h1).closed hc) (Fail_actor hw hc hi hp.1 h1) hp.2 h
  | resolve a v e k ih =>
    intro w w2 el vals hw hc hi hp h
    simp only [exec] at h
    obtain ⟨_, w0, h0, h⟩ := bind_ok h
    obtain ⟨-, rfl⟩ := guardAlloc_ok h0
    obtain ⟨_, w1, h1, h⟩ := bind_ok h
    obtain ⟨el1, he, -⟩ := Resolve_ok hw h1
    exact ih he.twf ((Resolve_client h1).closed hc) (Resolve_actor hw hc hi hp.1 hp.2.1 h1)
      hp.2.2 h
  | forward a n k ih =>
    intro w w2 el vals hw hc hi hp h
    simp only [exec] at h
    obtain ⟨_, w0, h0, h⟩ := bind_ok h
    obtain ⟨hg, rfl⟩ := guardAlloc_ok h0
    obtain ⟨_, w1, h1, h⟩ := bind_ok h
    obtain ⟨el1, he, -⟩ := Forward_ok hw h1
    have hg2 : a < w.ralloc ∧ ∀ b, n = some b → b < w.ralloc := by
      simp only [Bool.and_eq_true, decide_eq_true_eq] at hg
      refine ⟨hg.1, fun b hb => ?_⟩
      subst hb
      simpa using hg.2
    exact ih he.twf (Forward_closed hc hg2.1 hg2.2 h1) (Forward_actor hw hc hi hp.1 h1) hp.2 h
  | «when» r inTy out outR fid sig fb k _ ih =>
    intro w w2 el vals hw hc hi hp h
    simp only [exec] at h
    split at h
    · cases h
    · next o w1 hx =>
      obtain ⟨_, w0, h0, h1⟩ := bind_ok hx
      obtain ⟨hg, rfl⟩ := guardAlloc_ok h0
      obtain ⟨_, _, _, _, _, -, -, -, he, -⟩ := WhenT_ok hw h1
      have hr : r < w.ralloc := by simpa using hg
      obtain ⟨hi1, ho⟩ := WhenT_actor hw hc hi hr (f := .user fid sig fb) (Or.inl hp.1) h1
      have hfc : FnClosed w (.user fid sig fb) := trivial
      exact ih o he.twf ((WhenT_client hr hfc (fun c e => by cases e) h1).closed hc) hi1
        (hp.2 o ho) h
  | newTurn m name body k _ ih =>
    intro w w2 el vals hw hc hi hp h
    simp only [exec] at h
    obtain ⟨_, w0, h0, h⟩ := bind_ok h
    obtain ⟨-, rfl⟩ := guardAlloc_ok h0
    obtain ⟨_, w1, h1, h⟩ := bind_ok h
    obtain ⟨he, -⟩ := Manager.NewTurn_effect hw h1
    have hth : ∀ c, ¬ (Thunk.user body).records c := fun _ h => h
    have htc : ThunkClosed w (.user body) := trivial
    exact ih he.twf ((Manager.NewTurn_step hth htc h1).closed hc)
      (Manager.NewTurn_actorInv hw hc hi (show Thunk.Avoids s tm (.user body) from hp.1)
        htc hth h1) hp.2 h
  | allocTurn name body k _ ih =>
    intro w w2 el vals hw hc hi hp h
    simp only [exec] at h
    have h1 : NewTurn name (.user body) w = .ok w.talloc _ := rfl
    obtain ⟨-, he, -⟩ := NewTurn_ok hw h1
    have hth : ∀ c, ¬ (Thunk.user body).records c := fun _ h => h
    have htc : ThunkClosed w (.user body) := trivial
    obtain ⟨hi1, hne⟩ := NewTurn_actor hw hc hi
      (show Thunk.Avoids s tm (.user body) from hp.1) h1
    exact ih _ he.twf ((NewTurn_client hth htc h1).closed hc) hi1 (hp.2 _ hne) h
  | queue m t k ih =>
    intro w w2 el vals hw hc hi hp h
    simp only [exec] at h
    obtain ⟨_, w0, h0, h⟩ := bind_ok h
    obtain ⟨hg, rfl⟩ := guardAlloc_ok h0
    obtain ⟨_, w1, h1, h⟩ := bind_ok h
    have hal : ∀ a, t = some a → a < w.talloc := fun a ha => by
      subst ha
      have : m < w.malloc ∧ a < w.talloc := by simpa using hg
      exact this.2
    obtain ⟨a, -, he, -⟩ := Manager.Queue_ok hw h1 hal
    exact ih he.twf ((Manager.Queue_client h1).closed hc)
      (Manager.Queue_actor hw hc hi hp.1 hal h1) hp.2 h
  | spawn runner fid f k _ ih =>
    intro w w2 el vals hw hc hi hp h
    simp only [exec] at h
    split at h
    · cases h
    · next a w1 hx =>
      obtain ⟨_, w0, h0, h1⟩ := bind_ok hx
      obtain ⟨-, rfl⟩ := guardAlloc_ok h0
      obtain ⟨el1, he, -⟩ := turnRunner.New_ok hw h1
      obtain ⟨hi1, ha⟩ := turnRunner.New_actor hw hc hi hp.1 h1
      exact ih a he.twf ((turnRunner.New_client h1).closed hc) hi1 (hp.2 a ha) h

end Drydock


namespace Drydock

theorem ActorInv.build {s tm x : Nat} {w w2 : World} (hc : Closed w) (hi : ActorInv s tm x w)
    (hst : Stable w w2) (hta : w.talloc ≤ w2.talloc) (hs1 : (w2.res s).next = none)
    (hres : (w2.res s).turns = none →
      ((w.res s).turns = none ∧ (w2.res s).outcome = (w.res s).outcome) ∨
      ∃ final, Chain w2 x final ∧ final < w2.ralloc ∧ (w2.res final).next = none ∧
        (w2.res final).turns = none ∧
        (w2.res s).outcome.asError = (w2.res final).outcome.asError)
    (hout : ∀ a, Iface.Avoids s (w2.res a).outcome)
    (htf : ∀ t, t < w2.talloc → t ≠ tm →
      (t < w.talloc ∧ w2.tf t = w.tf t) ∨ (w2.tf t).Avoids s tm ∨
      ∃ src outer inTy tv te rr,
        w2.tf t = .whenTurn src outer inTy tv te rr (.actorResolve s) ∧ outer ≠ s ∧
          Chain w2 x src)
    (hmain : ∃ el2, TWF w2 el2 ∧ ∀ i, tm ∉ el2 i) : ActorInv s tm x w2 := by
  refine ⟨lt_of_lt_of_le hi.alloc hst.ralloc, lt_of_lt_of_le hi.turn hta, hs1, ?_, hout, ?_, ?_⟩
  · intro t ht hne
    rcases htf t ht hne with ⟨ht1, e1⟩ | h2 | h3
    · rw [e1]
      rcases hi.thunks t ht1 hne with h | ⟨src, outer, inTy, tv, te, rr, h1, h2, h3⟩
      · exact Or.inl h
      · exact Or.inr ⟨src, outer, inTy, tv, te, rr, h1, h2, h3.keep hc hst⟩
    · exact Or.inl h2
    · exact Or.inr h3
  · intro h
    rcases hres h with ⟨h0, hs3⟩ | hnew
    · obtain ⟨final, h1, h2, h3, h4, h5⟩ := hi.resolved h0
      have he := hst.res final h2 h4
      exact ⟨final, h1.keep hc hst, lt_of_lt_of_le h2 hst.ralloc, by rw [he]; exact h3,
        by rw [he]; exact h4, by rw [he, hs3]; exact h5⟩
    · exact hnew
  · intro el hw i
    obtain ⟨el2, hw2, hm⟩ := hmain
    rw [TWF.unique hw hw2]
    exact hm i

/-- A step that writes no resolver and allocates nothing. -/
theorem ActorInv.by_same {s tm x : Nat} {w w2 : World} (hc : Closed w)
    (hi : ActorInv s tm x w) (h1 : w2.res = w.res) (h2 : w2.ralloc = w.ralloc)
    (h3 : w2.tf = w.tf) (h4 : w2.talloc = w.talloc)
    (hmain : ∃ el2, TWF w2 el2 ∧ ∀ i, tm ∉ el2 i) : ActorInv s tm x w2 :=
  hi.by_step hc (Stable.of_eq h1 h2) (le_of_eq h4.symm) (by rw [h1]; exact hi.subject)
    (fun h => by rw [h1] at h; exact h) (by rw [h1])
    (fun a => by rw [h1]; exact hi.outcomes a)
    (fun t ht _ => Or.inl ⟨by rw [← h4]; exact ht, by rw [h3]⟩) hmain

theorem callFn_actor {s tm x : Nat} {w w2 : World} {el : Slot → List Nat} (hw : TWF w el)
    (hs : Safe w) (hi : ActorInv s tm x w) {fuel : Nat} {f : Fn} {args rv : List Iface}
    (hf : f.Avoids s tm) (ha : ∀ v ∈ args, Iface.Avoids s v)
    (h : callFn fuel f args w = .ok rv w2) :
    ActorInv s tm x w2 ∧ ∀ v ∈ rv, Iface.Avoids s v := by
  cases f with
  | user fid sig body =>
    replace h := (callFn_user_ok h).2
    obtain ⟨_, w1, h1, h2⟩ := bind_ok h
    simp only [logCall] at h1
    cases h1
    have hg : Effect w { w with calls := w.calls ++ [(fid, args)] } el el :=
      Effect.of_ghost hw rfl rfl rfl rfl rfl rfl rfl rfl
    have hs1 : Safe { w with calls := w.calls ++ [(fid, args)] } :=
      Safe.by_frame hw hs hg.twf rfl rfl rfl rfl (le_refl _) (fun _ _ h => h)
    exact exec_actor _ hg.twf hs1.1
      (hi.by_same hs.1 rfl rfl rfl rfl ⟨el, hg.twf, hi.main el hw⟩) (hf args ha) h2
  | runUntilRecord cell =>
    simp only [callFn] at h
    split at h
    · next a =>
      cases h
      refine ⟨hi.by_same hs.1 rfl rfl rfl rfl ⟨el, ?_, hi.main el hw⟩, ha⟩
      exact Effect.twf (Effect.of_ghost hw rfl rfl rfl rfl rfl rfl rfl rfl)
    · cases h
  | finallyFn outR fid fb r =>
    simp only [callFn] at h
    obtain ⟨_, w1, h1, h2⟩ := bind_ok h
    simp only [logCall] at h1
    cases h1
    obtain ⟨_, w3, h3, h4⟩ := bind_ok h2
    cases h4
    have hg : Effect w { w with calls := w.calls ++ [(fid, [])] } el el :=
      Effect.of_ghost hw rfl rfl rfl rfl rfl rfl rfl rfl
    have hs1 : Safe { w with calls := w.calls ++ [(fid, [])] } :=
      Safe.by_frame hw hs hg.twf rfl rfl rfl rfl (le_refl _) (fun _ _ h => h)
    refine ⟨(exec_actor _ hg.twf hs1.1
      (hi.by_same hs.1 rfl rfl rfl rfl ⟨el, hg.twf, hi.main el hw⟩) hf.1 h3).1, ?_⟩
    intro v hv
    simp only [List.mem_singleton] at hv
    subst hv
    cases r with
    | none => trivial
    | some a => exact fun e => hf.2 (by rw [e])
  | actorResolve a => exact absurd hf (fun h => h)

theorem Iface.avoids_zeroValue (s : Nat) (ty : Ty) : Iface.Avoids s (zeroValue ty) := by
  cases ty <;> trivial

theorem whenArgs_avoid (s : Nat) (inTy : Ty) (tv te : Bool) {o : Iface}
    (ho : Iface.Avoids s o) :
    ∀ v ∈ (if tv = true then
        [if (if o.asError.isSome = true then Iface.nil else o) = Iface.nil then zeroValue inTy
          else if o.asError.isSome = true then Iface.nil else o]
      else []) ++ if te = true then [ofError o.asError] else [], Iface.Avoids s v := by
  have key : Iface.Avoids s
      (if (if o.asError.isSome = true then Iface.nil else o) = Iface.nil then zeroValue inTy
        else if o.asError.isSome = true then Iface.nil else o) := by
    by_cases h1 : (if o.asError.isSome = true then Iface.nil else o) = Iface.nil
    · rw [if_pos h1]
      exact Iface.avoids_zeroValue s inTy
    · rw [if_neg h1]
      by_cases h2 : o.asError.isSome = true
      · rw [if_pos h2]
        trivial
      · rw [if_neg h2]
        exact ho
  intro v hv
  simp only [List.mem_append] at hv
  rcases hv with hv | hv
  · by_cases h1 : tv = true
    · rw [if_pos h1, List.mem_singleton] at hv
      rw [hv]
      exact key
    · rw [if_neg h1] at hv
      cases hv
  · by_cases h1 : te = true
    · rw [if_pos h1, List.mem_singleton] at hv
      rw [hv]
      exact Iface.avoids_ofError s _
    · rw [if_neg h1] at hv
      cases hv

/-- The dispatcher of a continuation that holds no reference to `s`. -/
theorem runWhen_actor {s tm x : Nat} {w w2 : World} {el : Slot → List Nat} (hw : TWF w el)
    (hs : Safe w) (hi : ActorInv s tm x w) {fuel src outer : Nat} {inTy : Ty}
    {tv te rr : Bool} {f : Fn} (ho : outer ≠ s) (hf : f.Avoids s tm)
    (h : runWhen fuel src outer inTy tv te rr f w = .ok () w2) : ActorInv s tm x w2 := by
  unfold runWhen at h
  cases hg : getShortest fuel src w with
  | fault e w1 => rw [hg] at h; cases h
  | ok final w1 =>
    have hw1 : w = w1 := (getShortest_world hg).symm
    subst hw1
    rw [hg] at h
    simp only at h
    split at h
    · cases h
    · split at h
      · exact Fail_actor hw hs.1 hi ho h
      · split at h
        · cases h
        · next rv wc hc =>
          obtain ⟨el1, he1, -⟩ := callFn_ok hw hc
          have hs1 := callFn_safe hw hs hc
          have hargs := whenArgs_avoid s inTy tv te (hi.outcomes final)
          obtain ⟨hi1, hrv⟩ := callFn_actor hw hs hi hf hargs hc
          split at h
          · split at h
            · cases h
            · exact Forward_actor he1.twf hs1.1 hi1 ho h
            · cases h
          · split at h
            · next v e =>
              split at h
              · next e1 _ =>
                exact resolve_actor he1.twf hs1.1 hi1 ho
                  (show Iface.Avoids s (Iface.err e1) from trivial) h
              · exact resolve_actor he1.twf hs1.1 hi1 ho (hrv v (by simp)) h
            · next v => exact resolve_actor he1.twf hs1.1 hi1 ho (hrv v (by simp)) h
            · exact resolve_actor he1.twf hs1.1 hi1 ho
                (show Iface.Avoids s Iface.nil from trivial) h

theorem validate_actor {inTy out outR : Ty} {tv te rr : Bool} {a : Nat}
    (h : whenValidate inTy out outR (Fn.sig (.actorResolve a)) = .ok (tv, te, rr)) :
    tv = false ∧ te = true ∧ rr = false := by
  simp only [whenValidate, Fn.sig, validateIns, validateOuts, if_true] at h
  cases out <;> simp at h
  all_goals simp [h]

/-- The resolver of the actor is resolved with the error of the result of the root
function. -/
theorem resolve_subject {s tm x : Nat} {w w2 : World} {el : Slot → List Nat} (hw : TWF w el)
    (hc : Closed w) (hi : ActorInv s tm x w) {fuel final : Nat} {err : Option Err}
    (hch : Chain w x final) (hfl : final < w.ralloc) (hfn : (w.res final).next = none)
    (hft : (w.res final).turns = none) (herr : err = (w.res final).outcome.asError)
    (h : resolve fuel s (ofError err) w = .ok () w2) : ActorInv s tm x w2 := by
  obtain ⟨el0, he0, -, hrs⟩ := resolve_ok hw h
  cases hst : (w.res s).turns with
  | none => simp [resolve, isResolved, hst] at h
  | some l =>
    have h2 : queueList s fuel (some l) { w with res := (Function.update w.res s
        { w.res s with turns := none, outcome := ofError err }) } = .ok () w2 := by
      simpa [resolve, isResolved, hst] using h
    obtain ⟨heff, -, hal, -, -⟩ := drain_effect hw hst _ rfl s fuel h2
    have hqo := queueList_queueOnly fuel h2
    have hfe := he0.stable.res final hfl hft
    refine hi.build hc he0.stable (le_of_eq (allocs_talloc hal).symm) ?_ ?_ ?_
      (fun t ht _ => Or.inl ⟨by rw [← allocs_talloc hal]; exact ht, by rw [allocs_tf hal]⟩)
      ⟨_, heff.twf, fun i hm => ?_⟩
    · rw [hrs]
      exact hi.subject
    · intro _
      right
      refine ⟨final, hch.keep hc he0.stable, lt_of_lt_of_le hfl he0.stable.ralloc,
        by rw [hfe]; exact hfn, by rw [hfe]; exact hft, ?_⟩
      rw [hfe, hrs, ← herr]
      exact asError_ofError err
    · intro k
      rw [(hqo.res k).2.1]
      show Iface.Avoids s (Function.update w.res s _ k).outcome
      by_cases hk : k = s
      · subst hk
        simp only [Function.update_same]
        exact Iface.avoids_ofError _ err
      · rw [Function.update_noteq hk]
        exact hi.outcomes k
    · rcases mem_update_append hm with h5 | h5
      · exact hi.main el hw _ (mem_update_nil h5)
      · exact hi.main el hw _ h5

/-- The dispatcher of the continuation that `RunActor` attaches to the result of the root
function. -/
theorem runWhen_actorCont {s tm x : Nat} {w w2 : World} {el : Slot → List Nat}
    (hw : TWF w el) (hs : Safe w) (hi : ActorInv s tm x w) {fuel src outer : Nat} {inTy : Ty}
    {tv te rr : Bool} (ho : outer ≠ s) (hsrc : src < w.ralloc) (hch : Chain w x src)
    (hval : ∃ out outR, whenValidate inTy out outR (Fn.sig (.actorResolve s)) =
      .ok (tv, te, rr))
    (h : runWhen fuel src outer inTy tv te rr (.actorResolve s) w = .ok () w2) :
    ActorInv s tm x w2 := by
  obtain ⟨out, outR, hv⟩ := hval
  obtain ⟨rfl, rfl, rfl⟩ := validate_actor hv
  unfold runWhen at h
  cases hg : getShortest fuel src w with
  | fault e w1 => rw [hg] at h; cases h
  | ok final w1 =>
    have hw1 : w = w1 := (getShortest_world hg).symm
    subst hw1
    rw [hg] at h
    simp only at h
    split at h
    · cases h
    · next hres =>
      simp only [Bool.not_true, Bool.false_and, Bool.false_eq_true, if_false, if_true,
        List.nil_append, callFn, asError_ofError] at h
      have hturns : (w.res final).turns = none := by
        simpa [isResolved] using hres
      cases hr : Resolve fuel s .nil (w.res final).outcome.asError w with
      | fault e w1 => rw [hr] at h; cases h
      | ok u w1 =>
        rw [hr] at h
        simp only at h
        have hr2 : resolve fuel s (ofError (w.res final).outcome.asError) w = .ok () w1 := by
          obtain ⟨_, wa, h1, h2⟩ := bind_ok hr
          obtain ⟨-, rfl⟩ := assertTrue_ok h1
          split at h2
          · obtain ⟨_, wb, h3, h4⟩ := bind_ok h2
            obtain ⟨-, rfl⟩ := assertTrue_ok h3
            exact h4
          · next hn =>
            have : (w.res final).outcome.asError = none := by
              cases hx : (w.res final).outcome.asError with
              | none => rfl
              | some e => rw [hx] at hn; simp at hn
            rw [this]
            exact h2
        obtain ⟨el1, he1, -⟩ := Resolve_ok hw hr
        have hs1 := Resolve_safe hw hs hr
        have hi1 := resolve_subject hw hs.1 hi (hch.trans_chain (getShortest_chain hg))
          (getShortest_lt hs.1 hsrc hg) (getShortest_next hg) hturns rfl hr2
        exact resolve_actor he1.twf hs1.1 hi1 ho (show Iface.Avoids s Iface.nil from trivial) h

end Drydock


namespace Drydock

theorem runClient_actor {s tm x : Nat} {w w2 : World} {el : Slot → List Nat} (hw : TWF w el)
    (hc : Closed w) (hi : ActorInv s tm x w) {fuel fid : Nat} {p : Prog} {rv : List Iface}
    (hp : p.Avoids s tm) (h : (logCall fid [] >>= fun _ => exec fuel p) w = .ok rv w2) :
    ActorInv s tm x w2 ∧ ∀ v ∈ rv, Iface.Avoids s v := by
  obtain ⟨_, w1, h1, h2⟩ := bind_ok h
  simp only [logCall] at h1
  cases h1
  have hg : Effect w { w with calls := w.calls ++ [(fid, [])] } el el :=
    Effect.of_ghost hw rfl rfl rfl rfl rfl rfl rfl rfl
  have hc2 : Closed { w with calls := w.calls ++ [(fid, [])] } :=
    hc.of_step (le_refl _) (le_refl _) (fun a n hn => Or.inl ⟨hn, fun h => h⟩)
      (fun t ht => Or.inl ⟨ht, rfl⟩)
  have hi2 : ActorInv s tm x { w with calls := w.calls ++ [(fid, [])] } :=
    hi.by_same hc rfl rfl rfl rfl ⟨el, hg.twf, hi.main el hw⟩
  exact exec_actor p hg.twf hc2 hi2 hp h2

/-- Running the function of a turn other than "Main" keeps the invariant of the actor. -/
theorem runThunk_actor {s tm x : Nat} {w w2 : World} {el : Slot → List Nat} (hw : TWF w el)
    (hs : Safe w) (hi : ActorInv s tm x w) {fuel : Nat} {th : Thunk} (hth : ThunkClosed w th)
    (hav : th.Avoids s tm ∨ ∃ src outer inTy tv te rr,
      th = .whenTurn src outer inTy tv te rr (.actorResolve s) ∧ outer ≠ s ∧ Chain w x src)
    (h : runThunk fuel th w = .ok () w2) : ActorInv s tm x w2 := by
  rcases hav with hav | ⟨src, outer, inTy, tv, te, rr, rfl, ho, hch⟩
  · cases th with
    | user body =>
      simp only [runThunk] at h
      obtain ⟨_, w1, h1, h2⟩ := bind_ok h
      cases h2
      exact (exec_actor body hw hs.1 hi hav h1).1
    | whenTurn src outer inTy tv te rr f =>
      exact runWhen_actor hw hs hi hav.1 hav.2 h
    | runUntil main cell =>
      obtain ⟨hm, hcl⟩ := hth
      simp only [runThunk] at h
      obtain ⟨_, w1, h1, h2⟩ := bind_ok h
      cases h2
      have hfa : Fn.Avoids s tm (.runUntilRecord cell) := trivial
      exact (WhenT_actor hw hs.1 hi hm (Or.inl hfa) h1).1
    | runnerNew s2 fid f =>
      simp only [runThunk] at h
      split at h
      · cases h
      · next rv w1 hx =>
        obtain ⟨el1, he1, -⟩ := runClient_ok hw hx
        have hs1 := runClient_safe hw hs hx
        have hi1 := (runClient_actor hw hs.1 hi hav.2 hx).1
        split at h
        · exact Forward_actor he1.twf hs1.1 hi1 hav.1 h
        · cases h
    | actorMain s2 fid root => exact hav.elim
    | ioResult s2 cell =>
      simp only [runThunk] at h
      exact Resolve_actor hw hs.1 hi hav (show Iface.Avoids s Iface.nil from trivial) h
  · obtain ⟨hsrc, -, -, hval⟩ := hth
    exact runWhen_actorCont hw hs hi ho hsrc hch hval h

theorem Run_actor {s tm x : Nat} {w w2 : World} {el : Slot → List Nat} (hw : TWF w el)
    (hs : Safe w) (hi : ActorInv s tm x w) {fuel t : Nat} (ht : t < w.talloc) (hne : t ≠ tm)
    (h : Run fuel (some t) w = .ok () w2) : ActorInv s tm x w2 := by
  unfold Run at h
  split at h
  · cases h
  · simp only at h
    split at h
    · cases h
    · have hg : Effect w { w with ran := w.ran ++ [t] } el el :=
        Effect.of_ghost hw rfl rfl rfl rfl rfl rfl rfl rfl
      have hs2 : Safe { w with ran := w.ran ++ [t] } :=
        Safe.by_frame hw hs hg.twf rfl rfl rfl rfl (le_refl _) (fun _ _ h => h)
      have hi2 : ActorInv s tm x { w with ran := w.ran ++ [t] } :=
        hi.by_same hs.1 rfl rfl rfl rfl ⟨el, hg.twf, hi.main el hw⟩
      exact runThunk_actor hg.twf hs2 hi2
        ((hs.1.thunks t ht).mono_thunk (le_refl _) (le_refl _)) (hi2.thunks t ht hne) h

theorem runSnapshot_actor {s tm x : Nat} (inner : Nat) (n : Nat) :
    ∀ {w w2 : World} {el : Slot → List Nat} {list : Option Nat} {xs : List Nat}, TWF w el →
      Safe w → ActorInv s tm x w → Ring w.tnext list xs → (∀ i, ∀ t ∈ xs, t ∉ el i) →
      tm ∉ xs → runSnapshot inner n list w = .ok () w2 → ActorInv s tm x w2 := by
  induction n with
  | zero =>
    intro w w2 el list xs hw hs hi hr _ _ h
    simp only [runSnapshot] at h
    split at h
    · cases h; exact hi
    · cases h
  | succ n ih =>
    intro w w2 el list xs hw hs hi hr hun hnm h
    simp only [runSnapshot] at h
    split at h
    · cases h; exact hi
    · next hne =>
      cases xs with
      | nil =>
        exfalso; apply hne
        rw [(Ring_nil_iff _ _).1 hr]; rfl
      | cons y rest =>
        obtain ⟨h2, l2, he, hr2, hx, hwf, hfr⟩ := hw.lists.removeHead_local hr hun
        rw [he] at h
        simp only at h
        have hwa : TWF { w with tnext := h2 } el := hw.setTnext hwf (fun z hz => by
          rw [hfr z (fun hm => ?_)]
          · exact hz
          · obtain ⟨q, hq⟩ := Ring_linked hr z hm
            rw [hz] at hq; cases hq)
        have hsa : Safe { w with tnext := h2 } :=
          Safe.by_frame hw hs hwa rfl rfl rfl rfl (le_refl _) (fun _ _ h => h)
        have hia : ActorInv s tm x { w with tnext := h2 } :=
          hi.by_same hs.1 rfl rfl rfl rfl ⟨el, hwa, hi.main el hw⟩
        have hyt : y < w.talloc := by
          obtain ⟨z, hz⟩ := Ring_linked hr y (List.mem_cons_self _ _)
          exact hw.lt_talloc hz
        have hym : y ≠ tm := fun e => hnm (by rw [e]; exact List.mem_cons_self _ _)
        split at h
        · cases h
        · next u wb hb =>
          have hgood := @Run_good _ _ hwa hsa inner y hyt
          rw [hb] at hgood
          have hib := Run_actor hwa hsa hia hyt hym hb
          obtain ⟨t, elb, hte, heb, -, -⟩ := Run_ok hwa hb
          have hlinked : ∀ z ∈ rest, h2 z ≠ none := fun z hz e => by
            obtain ⟨q, hq⟩ := Ring_linked hr2 z hz
            rw [e] at hq; cases hq
          have hr3 : Ring wb.tnext l2 rest :=
            Ring_congr (fun z hz => heb.grow.frame z (hlinked z hz)
              (fun i hm => hun i z (List.mem_cons_of_mem _ hz) hm)) hr2
          have hun3 : ∀ i, ∀ z ∈ rest, z ∉ elb i := by
            intro i z hz hm
            rcases heb.grow.origin i z hm with ⟨j, hj⟩ | hd
            · exact hun j z (List.mem_cons_of_mem _ hz) hj
            · exact hlinked z hz hd
          exact ih heb.twf hgood hib hr3 hun3 (fun hm => hnm (List.mem_cons_of_mem _ hm)) h

end Drydock


namespace Drydock

theorem ActorInv.by_core {s tm x : Nat} {w w2 : World} {el : Slot → List Nat} (hw : TWF w el)
    (hc : Closed w) (hi : ActorInv s tm x w) (hcore : w2.core = w.core) :
    ActorInv s tm x w2 := by
  have hw2 : TWF w2 el := TWF.of_core hcore hw
  simp only [World.core, Prod.mk.injEq] at hcore
  obtain ⟨h1, h2, h3, h4, h5, h6, h7, h8, h9, h10, h11, h12, h13⟩ := hcore
  exact hi.by_same hc h5 h6 h2 h4 ⟨el, hw2, hi.main el hw⟩

theorem Safe.keep_core {w w2 : World} {el : Slot → List Nat} (hw : TWF w el) (hs : Safe w)
    (hcore : w2.core = w.core) : Safe w2 := by
  have hw2 : TWF w2 el := TWF.of_core hcore hw
  simp only [World.core, Prod.mk.injEq] at hcore
  obtain ⟨h1, h2, h3, h4, h5, h6, h7, h8, h9, h10, h11, h12, h13⟩ := hcore
  exact Safe.by_frame hw hs hw2 h5 h6 h2 h4 (le_of_eq h9.symm) (fun _ _ h => h)

theorem ingestSources_actor {s tm x m inner : Nat} (n : Nat) :
    ∀ {w w2 : World} {el : Slot → List Nat}, TWF w el → Safe w → ActorInv s tm x w →
      ingestSources inner m n w = .ok () w2 → ActorInv s tm x w2 := by
  induction n with
  | zero => intro w w2 el _ _ _ h; cases h
  | succ n ih =>
    intro w w2 el hw hs hi h
    simp only [ingestSources] at h
    split at h
    · cases h
    · next wa ha =>
      cases h
      exact hi.by_core hw hs.1 (choose_core ha)
    · next e wa ha =>
      have hc := choose_core ha
      have hwa : TWF wa el := TWF.of_core hc hw
      have hsa : Safe wa := hs.keep_core hw hc
      have hia : ActorInv s tm x wa := hi.by_core hw hs.1 hc
      simp only [turnSource.getAllTurns] at h
      split at h
      · cases h
      · next u wc hl =>
        obtain ⟨wsrc, hwsrc⟩ : ∃ y : World, y = { wa with src := (Function.update wa.src
            (wa.ev e).data { wa.src (wa.ev e).data with list := some Empty }) } := ⟨_, rfl⟩
        rw [← hwsrc] at hl
        have hring : Ring wa.tnext (wa.src (wa.ev e).data).list
            (el (.source (wa.ev e).data)) := hwa.lists.rings (.source _) _ rfl
        have hwb : TWF wsrc
            (Function.update el (.source (wa.ev e).data) []) := by
          subst hwsrc
          refine ⟨?_, hwa.empty, hwa.fresh, hwa.pos⟩
          rw [show handle _ = _ from handle_setSource wa (wa.ev e).data (some Empty)]
          exact hwa.lists.release _ _ (Or.inr rfl)
        have hun : ∀ i, ∀ t ∈ el (.source (wa.ev e).data),
            t ∉ Function.update el (.source (wa.ev e).data) [] i := by
          intro i t ht
          by_cases hi2 : i = .source (wa.ev e).data
          · subst hi2; simp
          · rw [Function.update_noteq hi2]
            exact hwa.lists.disj _ _ (Ne.symm hi2) t ht
        have hring2 : Ring wsrc.tnext (wa.src (wa.ev e).data).list
            (el (.source (wa.ev e).data)) := by
          subst hwsrc; exact hring
        have hsb : Safe wsrc := by
          subst hwsrc
          refine Safe.by_frame hwa hsa hwb rfl rfl rfl rfl (le_refl _) (fun k t ht => ?_)
          have hne : Slot.pending k ≠ Slot.source (wa.ev e).data := by simp
          rw [Function.update_noteq hne]
          exact ht
        have hib : ActorInv s tm x wsrc := by
          subst hwsrc
          exact hia.by_same hsa.1 rfl rfl rfl rfl
            ⟨_, hwb, fun i hm => hia.main el hwa i (mem_update_nil hm)⟩
        obtain ⟨hwc, hqo⟩ := ingestList_ok m inner hwb hring2 hun hl
        have hsc : Safe wc := by
          refine Safe.by_queues hwb hsb hqo hwc (fun k t ht => ?_)
          have hne : Slot.pending k ≠ Slot.queue m := by simp
          rw [Function.update_noteq hne]
          exact ht
        have hic : ActorInv s tm x wc := by
          refine hib.by_moves hsb.1 hqo ⟨_, hwc, fun i hm => ?_⟩
          rcases mem_update_append hm with h5 | h5
          · exact hia.main el hwa i (mem_update_nil h5)
          · exact hia.main el hwa _ h5
        exact ih hwc hsc hic h

/-- Emptying the queue of the manager `m` for the snapshot of a cycle. -/
theorem snapshot_start {w : World} {el : Slot → List Nat} (hw : TWF w el) (m : Nat) :
    TWF { w with mgr := Function.update w.mgr m { w.mgr m with turns := some Empty } }
        (Function.update el (.queue m) []) ∧
      Ring w.tnext (w.mgr m).turns (el (.queue m)) ∧
      ∀ i, ∀ t ∈ el (.queue m), t ∉ Function.update el (.queue m) [] i := by
  refine ⟨⟨?_, hw.empty, hw.fresh, hw.pos⟩, hw.lists.rings (.queue m) _ rfl, ?_⟩
  · have := handle_setQueue w m (some Empty) w.tnext w.enq
    rw [show handle { w with mgr := (Function.update w.mgr m
      { w.mgr m with turns := some Empty }) } = _ from this]
    exact hw.lists.release _ _ (Or.inr rfl)
  · intro i t ht
    by_cases hi2 : i = .queue m
    · subst hi2; simp
    · rw [Function.update_noteq hi2]
      exact hw.lists.disj _ _ (Ne.symm hi2) t ht

theorem runOneLoop_actor {s tm x fuel m : Nat} {w w2 : World} {el : Slot → List Nat}
    (hw : TWF w el) (hs : Safe w) (hi : ActorInv s tm x w)
    (h : Manager.runOneLoop fuel m w = .ok () w2) : ActorInv s tm x w2 := by
  unfold Manager.runOneLoop at h
  split at h
  · cases h
  · next u w1 h1 =>
    obtain ⟨el1, hw1, -, -⟩ := ingestSources_ok fuel hw h1
    have hs1 := ingestSources_safe fuel hw hs h1
    have hi1 := ingestSources_actor fuel hw hs hi h1
    obtain ⟨hwts, hring, hun⟩ := snapshot_start hw1 m
    obtain ⟨ws, hws⟩ : ∃ y : World, y = { w1 with mgr := (Function.update w1.mgr m
        { w1.mgr m with turns := some Empty }) } := ⟨_, rfl⟩
    rw [← hws] at h hwts
    have hring2 : Ring ws.tnext (w1.mgr m).turns (el1 (.queue m)) := by
      subst hws; exact hring
    have hss : Safe ws := by
      subst hws
      refine Safe.by_frame hw1 hs1 hwts rfl rfl rfl rfl (le_refl _) (fun k t ht => ?_)
      have hne : Slot.pending k ≠ Slot.queue m := by simp
      rw [Function.update_noteq hne]
      exact ht
    have his : ActorInv s tm x ws := by
      subst hws
      exact hi1.by_same hs1.1 rfl rfl rfl rfl
        ⟨_, hwts, fun i hm => hi1.main el1 hw1 i (mem_update_nil hm)⟩
    exact runSnapshot_actor fuel fuel hwts hss his hring2 hun (hi1.main el1 hw1 _) h

theorem runUntilLoop_actor {s tm x inner m cell : Nat} (n : Nat) :
    ∀ {w w2 : World} {el : Slot → List Nat}, TWF w el → Safe w → ActorInv s tm x w →
      runUntilLoop inner m cell n w = .ok () w2 → ActorInv s tm x w2 := by
  induction n with
  | zero =>
    intro w w2 el hw hs hi h
    simp only [runUntilLoop] at h
    split at h
    · cases h
    · cases h; exact hi
  | succ n ih =>
    intro w w2 el hw hs hi h
    simp only [runUntilLoop] at h
    split at h
    · split at h
      · cases h
      · next u w1 h1 =>
        have hg := @runOneLoop_good inner m _ _ hw hs
        rw [h1] at hg
        obtain ⟨⟨el1, hw1⟩, hs1⟩ := hg
        have hi1 := runOneLoop_actor hw hs hi h1
        split at h
        · cases h
        · next u2 wb hb =>
          have hcore := waitForSources_core hb
          exact ih (TWF.of_core hcore hw1) (hs1.keep_core hw1 hcore)
            (hi1.by_core hw1 hs1.1 hcore) h
    · cases h; exact hi

end Drydock


namespace Drydock

/-- A call of `RunUntil(main)` that returns: its turn was queued, its loop returned, and the
value returned is the error of the resolved resolver in which the forwarding chain of `main`
ends. -/
theorem RunUntil_exit {fuel m main : Nat} {w w2 : World} {el : Slot → List Nat}
    {ret : Option Err} (hwf : TWF w el) (hc : Closed w) (hmain : main < w.ralloc)
    (hrun : Manager.RunUntil fuel m main w = .ok ret w2) :
    ∃ w1, Manager.NewTurn m "RunUntil" (.runUntil main w.calloc) w.withCell = .ok () w1 ∧
      runUntilLoop fuel m w.calloc fuel w1 = .ok () w2 ∧
      ∃ final, Chain w2 main final ∧ (w2.res final).next = none ∧
        (w2.res final).turns = none ∧ ret = (w2.res final).outcome.asError := by
  have key : Manager.RunUntil fuel m main w =
      (match Manager.NewTurn m "RunUntil" (.runUntil main w.calloc) w.withCell with
      | .fault f w1 => .fault f w1
      | .ok _ w1 =>
        match runUntilLoop fuel m w.calloc fuel w1 with
        | .fault f w2 => .fault f w2
        | .ok _ w2 =>
          match w2.cells w.calloc with
          | some (.err e) => .ok (some e) w2
          | _ => .ok none w2) := rfl
  rw [key] at hrun
  obtain ⟨w0, hw0⟩ : ∃ y : World, y = w.withCell := ⟨_, rfl⟩
  rw [← hw0] at hrun ⊢
  have hwf0 : TWF w0 el := by
    subst hw0
    exact Effect.twf (Effect.of_ghost hwf rfl rfl rfl rfl rfl rfl rfl rfl)
  have hc0 : Closed w0 := by
    subst hw0
    exact hc.of_step (le_refl _) (Nat.le_succ _) (fun a n hn => Or.inl ⟨hn, fun h => h⟩)
      (fun t ht => Or.inl ⟨ht, rfl⟩)
  have e1 : w0.talloc = w.talloc := by subst hw0; rfl
  have e2 : w0.tf = w.tf := by subst hw0; rfl
  have e3 : w0.ralloc = w.ralloc := by subst hw0; rfl
  have e4 : w0.calloc = w.calloc + 1 := by subst hw0; rfl
  have e5 : w0.cells w.calloc = none := by subst hw0; simp [World.withCell]
  split at hrun
  · cases hrun
  · next u w1 h1 =>
    obtain ⟨heff, hq, htf, -, hta⟩ := Manager.NewTurn_effect hwf0 h1
    have hc1 : Closed w1 := by
      obtain ⟨t, wa, ha, hb⟩ := bind_ok h1
      refine Closed.of_queueOnly (Manager.Queue_queueOnly hb) ?_
      simp only [NewTurn] at ha
      cases ha
      refine hc0.of_step (le_refl _) (le_refl _) (fun a n hn => Or.inl ⟨hn, fun h => h⟩)
        (fun k hk => ?_)
      by_cases hk2 : k = w0.talloc
      · subst hk2
        right
        simp only [Function.update_same]
        exact ⟨by rw [e3]; exact hmain, by rw [e4]; exact Nat.lt_succ_self _⟩
      · left
        have hk3 : k < w0.talloc + 1 := hk
        exact ⟨by omega, by simp [Function.update_noteq hk2]⟩
    have hi1 : RunInv w.calloc main w1 := by
      refine ⟨fun v hv => ?_, fun t main2 ht htf2 => ?_,
        fun t src outer inTy tv te rr ht htf2 => ?_,
        lt_of_lt_of_le (by rw [e3]; exact hmain) heff.stable.ralloc⟩
      · rw [quiet_cells hq, e5] at hv
        cases hv
      · by_cases ht2 : t = w0.talloc
        · subst ht2
          rw [htf] at htf2
          cases htf2
          rfl
        · have ht3 : t < w.talloc := by omega
          have := hc.thunks t ht3
          rw [← e2, ← heff.grow.tf t (by omega), htf2] at this
          exact absurd this.2 (lt_irrefl _)
      · by_cases ht2 : t = w0.talloc
        · subst ht2
          rw [htf] at htf2
          cases htf2
        · have ht3 : t < w.talloc := by omega
          have := hc.thunks t ht3
          rw [← e2, ← heff.grow.tf t (by omega), htf2] at this
          exact absurd this.2.2.1 (lt_irrefl _)
    split at hrun
    · cases hrun
    · next u2 w3 h3 =>
      obtain ⟨-, hi3, hsome⟩ := runUntilLoop_inv fuel heff.twf hc1 hi1 h3
      obtain ⟨v, hv⟩ := Option.isSome_iff_exists.1 hsome
      obtain ⟨final, hch, -, hturns, hnext, hve⟩ := hi3.exited v hv
      rw [hv, hve] at hrun
      refine ⟨w1, h1, ?_⟩
      cases herr : (w3.res final).outcome.asError with
      | none =>
        rw [herr] at hrun
        simp only [exitOf] at hrun
        cases hrun
        exact ⟨h3, final, hch, hnext, hturns, herr.symm⟩
      | some e =>
        rw [herr] at hrun
        simp only [exitOf] at hrun
        cases hrun
        exact ⟨h3, final, hch, hnext, hturns, herr.symm⟩

theorem TWF.at_actorBase : TWF World.actorBase (fun _ => []) := by
  refine ⟨⟨fun i l h => ?_, fun _ _ => rfl, fun _ _ _ t ht => by cases ht⟩, rfl, fun _ _ => rfl,
    by decide⟩
  rw [Ring_nil_iff]
  cases i with
  | queue m =>
    by_cases hm : m = 0
    · subst hm; simpa [handle, World.actorBase] using h.symm
    · simpa [handle, World.actorBase, World.init, hm] using h.symm
  | pending s =>
    by_cases hs : s = 1
    · subst hs; simpa [handle, World.actorBase] using h.symm
    · by_cases hs0 : s = 0
      · subst hs0; simp [handle, World.actorBase] at h
      · simp [handle, World.actorBase, World.init, hs, hs0] at h
  | source k => simpa [handle, World.actorBase, World.init] using h.symm

theorem Closed.actorBase_closed : Closed World.actorBase := by
  refine ⟨fun a n h => ?_, fun t _ => trivial⟩
  by_cases ha : a = 1
  · subst ha; simp [World.actorBase] at h
  · by_cases ha0 : a = 0
    · subst ha0; simp [World.actorBase] at h
    · simp [World.actorBase, World.init, ha, ha0] at h

theorem Safe.actorBase_safe : Safe World.actorBase :=
  Safe.of_awaiting Closed.actorBase_closed TWF.at_actorBase
    (fun t s outer inTy tv te rr f _ htf => by cases htf)

theorem actorInit_eq (fid : Nat) (root : Runner → Prog) :
    actorInit fid root World.init =
      (Manager.NewTurn 0 "Main" (.actorMain 1 fid (root ⟨0, 0⟩)) >>= fun _ => pure (0, 1))
        World.actorBase := rfl

theorem ActorInv.start {s tm : Nat} (x : Nat) {w : World} (h1 : s < w.ralloc)
    (h2 : tm < w.talloc) (h3 : (w.res s).next = none) (h4 : (w.res s).turns ≠ none)
    (h5 : ∀ t, t < w.talloc → t ≠ tm → (w.tf t).Avoids s tm)
    (h6 : ∀ a, Iface.Avoids s (w.res a).outcome)
    (h7 : ∃ el, TWF w el ∧ ∀ i, tm ∉ el i) : ActorInv s tm x w := by
  refine ⟨h1, h2, h3, fun t ht hne => Or.inl (h5 t ht hne), h6, fun h => absurd h h4, ?_⟩
  obtain ⟨el, hw, hm⟩ := h7
  intro el2 hw2
  rw [← TWF.unique hw hw2]
  exact hm

theorem Run_thunk {fuel t : Nat} {w w2 : World} (h : Run fuel (some t) w = .ok () w2) :
    runThunk fuel (w.tf t) { w with ran := w.ran ++ [t] } = .ok () w2 := by
  unfold Run at h
  split at h
  · cases h
  · simp only at h
    split at h
    · cases h
    · exact h

theorem runThunk_main {fuel s fid : Nat} {p : Prog} {w w2 : World}
    (h : runThunk fuel (.actorMain s fid p) w = .ok () w2) :
    ∃ ty x vals w1 o, (logCall fid [] >>= fun _ => exec fuel p) w =
        .ok (.result ty (some x) :: vals) w1 ∧
      WhenT fuel x .iface .iface .R (.actorResolve s) w1 = .ok o w2 := by
  simp only [runThunk] at h
  split at h
  · cases h
  · next rv w1 hx =>
    split at h
    · next ty x rest =>
      split at h
      · cases h
      · next o w3 hy =>
        cases h
        exact ⟨ty, x, rest, w1, o, hx, hy⟩
    · cases h
    · cases h

/-- The first cycle of the manager of an actor: the turn "Main" is the first to run, it calls
the root function, and from the end of the cycle on the invariant of the actor holds for the
result `x` that the root function returned. -/
theorem runOneLoop_main {s tm fuel m fid : Nat} {p : Prog} {w w2 : World}
    {el : Slot → List Nat} {rest : List Nat} (hw : TWF w el) (hs : Safe w)
    (hq : el (.queue m) = tm :: rest) (hns : NoSignal w m)
    (htf : w.tf tm = .actorMain s fid p) (hp : p.Avoids s tm) (hsa : s < w.ralloc)
    (hsn : (w.res s).next = none) (hsu : (w.res s).turns ≠ none)
    (hth : ∀ t, t < w.talloc → t ≠ tm → (w.tf t).Avoids s tm)
    (hout : ∀ a, Iface.Avoids s (w.res a).outcome)
    (h : Manager.runOneLoop fuel m w = .ok () w2) :
    ∃ wr wb ty x vals, wr.calls = w.calls ++ [(fid, [])] ∧ wr.ran = w.ran ++ [tm] ∧
      wr.res = w.res ∧ wr.ralloc = w.ralloc ∧
      exec fuel p wr = .ok (.result ty (some x) :: vals) wb ∧ ActorInv s tm x w2 := by
  unfold Manager.runOneLoop at h
  split at h
  · cases h
  · next u w1 h1 =>
    have hcore := ingestSources_nosignal hns h1
    have hw1 : TWF w1 el := TWF.of_core hcore hw
    have hs1 : Safe w1 := hs.keep_core hw hcore
    simp only [World.core, Prod.mk.injEq] at hcore
    obtain ⟨c1, c2, c3, c4, c5, c6, c7, c8, c9, c10, c11, c12, c13⟩ := hcore
    obtain ⟨hwts, hring, hun⟩ := snapshot_start hw1 m
    obtain ⟨ws, hws⟩ : ∃ y : World, y = { w1 with mgr := (Function.update w1.mgr m
        { w1.mgr m with turns := some Empty }) } := ⟨_, rfl⟩
    rw [← hws] at h hwts
    have hring2 : Ring ws.tnext (w1.mgr m).turns (tm :: rest) := by
      subst hws; rw [← hq]; exact hring
    rw [hq] at hun
    have hss : Safe ws := by
      subst hws
      refine Safe.by_frame hw1 hs1 hwts rfl rfl rfl rfl (le_refl _) (fun k t ht => ?_)
      have hne : Slot.pending k ≠ Slot.queue m := by simp
      rw [Function.update_noteq hne]
      exact ht
    have e1 : ws.tf = w.tf := by subst hws; exact c2
    have e2 : ws.talloc = w.talloc := by subst hws; exact c4
    have e3 : ws.res = w.res := by subst hws; exact c5
    have e4 : ws.ralloc = w.ralloc := by subst hws; exact c6
    have e5 : ws.calls = w.calls := by subst hws; exact c10
    have e6 : ws.ran = w.ran := by subst hws; exact c11
    have hne : IsEmpty (w1.mgr m).turns = false := by
      cases hx : IsEmpty (w1.mgr m).turns with
      | false => rfl
      | true => cases Ring_isEmpty hring2 hx
    cases fuel with
    | zero =>
      simp only [runSnapshot, hne, Bool.false_eq_true, if_false] at h
      cases h
    | succ k =>
      simp only [runSnapshot, hne, Bool.false_eq_true, if_false] at h
      obtain ⟨h2, l2, he, hr2, hx, hwf, hfr⟩ := hwts.lists.removeHead_local hring2 hun
      rw [he] at h
      simp only at h
      have hwa0 : TWF { ws with tnext := h2 } (Function.update el (.queue m) []) :=
        hwts.setTnext hwf (fun z hz => by
          rw [hfr z (fun hm => ?_)]
          · exact hz
          · obtain ⟨q, hq⟩ := Ring_linked hring2 z hm
            rw [hz] at hq; cases hq)
      obtain ⟨wa, hwae⟩ : ∃ y : World, y = { ws with tnext := h2 } := ⟨_, rfl⟩
      rw [← hwae] at h hwa0
      have hsa2 : Safe wa := by
        subst hwae
        exact Safe.by_frame hwts hss hwa0 rfl rfl rfl rfl (le_refl _) (fun _ _ h => h)
      have f1 : wa.tf = w.tf := by subst hwae; exact e1
      have f2 : wa.talloc = w.talloc := by subst hwae; exact e2
      have f3 : wa.res = w.res := by subst hwae; exact e3
      have f4 : wa.ralloc = w.ralloc := by subst hwae; exact e4
      have f5 : wa.calls = w.calls := by subst hwae; exact e5
      have f6 : wa.ran = w.ran := by subst hwae; exact e6
      have f7 : wa.tnext = h2 := by subst hwae; rfl
      have htm : tm < wa.talloc := by
        obtain ⟨z, hz⟩ := Ring_linked hring2 tm (List.mem_cons_self _ _)
        rw [f2, ← e2]
        exact hwts.lt_talloc hz
      have hnot : ∀ i, tm ∉ Function.update el (.queue m) [] i :=
        fun i => hun i tm (List.mem_cons_self _ _)
      split at h
      · cases h
      · next u2 wd hb =>
        have hgood := @Run_good _ _ hwa0 hsa2 (k + 1) tm htm
        rw [hb] at hgood
        obtain ⟨t, eld, hte, hed, -, -⟩ := Run_ok hwa0 hb
        have hb2 := Run_thunk hb
        obtain ⟨wm, hwme⟩ : ∃ y : World, y = { wa with ran := wa.ran ++ [tm] } := ⟨_, rfl⟩
        rw [← hwme, f1, htf] at hb2
        obtain ⟨ty, x, vals, wc, o, hx1, hx2⟩ := runThunk_main hb2
        have hwm : TWF wm (Function.update el (.queue m) []) := by
          subst hwme
          exact Effect.twf (Effect.of_ghost hwa0 rfl rfl rfl rfl rfl rfl rfl rfl)
        have hsm : Safe wm := by
          subst hwme
          exact Safe.by_frame hwa0 hsa2 hwm rfl rfl rfl rfl (le_refl _) (fun _ _ h => h)
        have him : ActorInv s tm x wm := by
          subst hwme
          refine ActorInv.start x ?_ htm ?_ ?_ ?_ ?_ ⟨_, hwm, hnot⟩
          · show s < wa.ralloc
            rw [f4]; exact hsa
          · show (wa.res s).next = none
            rw [f3]; exact hsn
          · show (wa.res s).turns ≠ none
            rw [f3]; exact hsu
          · intro t ht hne2
            show (wa.tf t).Avoids s tm
            rw [f1]
            exact hth t (by rw [← f2]; exact ht) hne2
          · intro a
            show Iface.Avoids s (wa.res a).outcome
            rw [f3]; exact hout a
        obtain ⟨elc, hec, -⟩ := runClient_ok hwm hx1
        have hsc := runClient_safe hwm hsm hx1
        obtain ⟨hic, hvc⟩ := runClient_actor hwm hsm.1 him hp hx1
        obtain ⟨-, hvr⟩ := runClient_client hx1
        have hxr : x < wc.ralloc := by
          simp only [List.all_cons, resultAlloc, Bool.and_eq_true, decide_eq_true_eq] at hvr
          exact hvr.1
        obtain ⟨hid, -⟩ := WhenT_actor hec.twf hsc.1 hic hxr (Or.inr ⟨rfl, Chain.refl x⟩) hx2
        obtain ⟨_, wr, hl, hex⟩ := bind_ok hx1
        simp only [logCall] at hl
        cases hl
        have hlinked : ∀ z ∈ rest, h2 z ≠ none := fun z hz e => by
          obtain ⟨q, hq⟩ := Ring_linked hr2 z hz
          rw [e] at hq; cases hq
        have hr3 : Ring wd.tnext l2 rest :=
          Ring_congr (fun z hz => by
            rw [← f7]
            exact hed.grow.frame z (by rw [f7]; exact hlinked z hz)
              (fun i hm => hun i z (List.mem_cons_of_mem _ hz) hm)) hr2
        have hun3 : ∀ i, ∀ z ∈ rest, z ∉ eld i := by
          intro i z hz hm
          rcases hed.grow.origin i z hm with ⟨j, hj⟩ | hd
          · exact hun j z (List.mem_cons_of_mem _ hz) hj
          · rw [f7] at hd
            exact hlinked z hz hd
        have hnm : tm ∉ rest := (List.nodup_cons.1 hring2.2.2.1).1
        refine ⟨_, wc, ty, x, vals, ?_, ?_, ?_, ?_, hex, ?_⟩
        · subst hwme
          show wa.calls ++ [(fid, [])] = w.calls ++ [(fid, [])]
          rw [f5]
        · subst hwme
          show wa.ran ++ [tm] = w.ran ++ [tm]
          rw [f6]
        · subst hwme
          exact f3
        · subst hwme
          exact f4
        · exact runSnapshot_actor (k + 1) k hed.twf hgood hid hr3 hun3 hnm h

end Drydock


namespace Drydock

theorem Manager.NewTurn_ralloc {m : Nat} {name : String} {th : Thunk} {w w2 : World}
    (h : Manager.NewTurn m name th w = .ok () w2) : w2.ralloc = w.ralloc := by
  obtain ⟨t, wx, ha, hb⟩ := bind_ok h
  simp only [Drydock.NewTurn] at ha
  cases ha
  rw [allocs_ralloc (Manager.Queue_queueOnly hb).allocs]

theorem actorBase_outcome (a : Nat) : (World.actorBase.res a).outcome = .nil := by
  by_cases ha : a = 1
  · subst ha; simp [World.actorBase]
  · by_cases ha0 : a = 0
    · subst ha0; simp [World.actorBase]
    · simp [World.actorBase, World.init, ha, ha0]

end Drydock


namespace Drydock

/-! ### Detached turns stay detached unless they are queued -/

theorem Kept.of_frame {n : Nat} {w w2 : World}
    (h : ∀ t, t < n → w.tnext t = none → w2.tnext t = none) : Kept n w w2 :=
  fun _ _ t ht hn => Or.inl (h t ht hn)

theorem Kept.refl_kept (n : Nat) (w : World) : Kept n w w :=
  Kept.of_frame (fun _ _ h => h)

theorem Kept.trans_kept {n : Nat} {w w1 w2 : World} {el1 el2 : Slot → List Nat}
    (h1 : Kept n w w1) (hw1 : TWF w1 el1) (he : Effect w1 w2 el1 el2) (h2 : Kept n w1 w2) :
    Kept n w w2 := by
  intro el3 hw3 t ht hn
  rw [TWF.unique hw3 he.twf]
  rcases h1 el1 hw1 t ht hn with h | ⟨m, hm⟩
  · exact h2 el2 he.twf t ht h
  · right
    obtain ⟨add, e, -⟩ := he.grow.queue m
    exact ⟨m, by rw [e]; exact List.mem_append_left _ hm⟩

theorem newTurnResolver_kept {n m s : Nat} {w w2 : World}
    (h : newTurnResolver m w = .ok s w2) : Kept n w w2 := by
  simp only [newTurnResolver] at h
  cases h
  exact Kept.of_frame (fun _ _ h => h)

theorem Manager.NewID_kept {n m : Nat} {id : Int} {w w2 : World}
    (h : Manager.NewID m w = .ok id w2) : Kept n w w2 := by
  simp only [Manager.NewID, UniqueIDGenerator.NewID] at h
  cases h
  exact Kept.of_frame (fun _ _ h => h)

theorem NewTurn_kept {n t : Nat} {name : String} {th : Thunk} {w w2 : World}
    (h : NewTurn name th w = .ok t w2) : Kept n w w2 := by
  simp only [NewTurn] at h
  cases h
  refine Kept.of_frame (fun t _ h => ?_)
  show Function.update w.tnext w.talloc none t = none
  by_cases ht : t = w.talloc
  · subst ht; simp
  · rw [Function.update_noteq ht]; exact h

theorem Manager.Queue_kept {n m : Nat} {t : Option Nat} {w w2 : World} {el : Slot → List Nat}
    (hw : TWF w el) (hal : ∀ a, t = some a → a < w.talloc)
    (h : Manager.Queue m t w = .ok () w2) : Kept n w w2 := by
  have hinv : ∃ a, t = some a ∧ a ≠ Empty ∧ w.tnext a = none := by
    unfold Manager.Queue at h
    split at h
    · cases h
    · next he => exact Append_ok_inv he
  obtain ⟨a, rfl, ha0, ha⟩ := hinv
  obtain ⟨w3, he, hw3, -, hfr, -, -⟩ := Manager.Queue_spec hw m ha0 ha (hal a rfl)
  rw [h] at he
  cases he
  intro el2 hw2 x _ hxn
  rw [TWF.unique hw2 hw3]
  by_cases hxa : x = a
  · subst hxa
    exact Or.inr ⟨m, by simp⟩
  · left
    rw [hfr x hxa (hw.lists.not_mem_of_detached hxn _)]
    exact hxn

/-- Appending a turn at or above `n` to the list of a resolver. -/
theorem queue_kept {n s a : Nat} {w w2 : World} {el : Slot → List Nat} (hw : TWF w el)
    (hal : a < w.talloc) (hna : n ≤ a) (h : queue s (some a) w = .ok () w2) :
    Kept n w w2 := by
  have hinv : a ≠ Empty ∧ w.tnext a = none := by
    unfold queue at h
    split at h
    · unfold Manager.Queue at h
      split at h
      · cases h
      · next he =>
        obtain ⟨b, hb, h0, h1⟩ := Append_ok_inv he
        cases hb
        exact ⟨h0, h1⟩
    · split at h
      · cases h
      · next he =>
        obtain ⟨b, hb, h0, h1⟩ := Append_ok_inv he
        cases hb
        exact ⟨h0, h1⟩
  obtain ⟨w3, he, -, -, hfr, -, -⟩ := queue_spec hw s hinv.1 hinv.2 hal
  rw [h] at he
  cases he
  refine Kept.of_frame (fun x hx hxn => ?_)
  have hxa : x ≠ a := by omega
  rw [hfr x hxa (hw.lists.not_mem_of_detached hxn _)]
  exact hxn

/-- Moving the pending list of a resolver leaves the detached turns alone. -/
theorem drain_kept {n : Nat} {w w2 : World} {el : Slot → List Nat} (hw : TWF w el) {s l : Nat}
    (hs : (w.res s).turns = some l) (r : Resolver) (hr : r.turns = none) (q fuel : Nat)
    (h : queueList q fuel (some l) { w with res := Function.update w.res s r } = .ok () w2) :
    Kept n w w2 := by
  have hwm := hw.releasePending s r hr
  have hring : Ring w.tnext (some l) (el (.pending s)) :=
    hw.lists.rings (.pending s) (some l) (by simp [handle, hs])
  have hun : ∀ i, ∀ t ∈ el (.pending s), t ∉ Function.update el (.pending s) [] i := by
    intro i t ht
    by_cases hi : i = .pending s
    · subst hi; simp
    · rw [Function.update_noteq hi]
      exact hw.lists.disj _ _ (Ne.symm hi) t ht
  rcases queueList_spec q fuel hwm hring hun with
    ⟨w3, he, -, -, hfr, -, -⟩ | ⟨-, w3, he⟩
  · rw [h] at he
    cases he
    refine Kept.of_frame (fun x _ hxn => ?_)
    have h1 : x ∉ el (.pending s) := hw.lists.not_mem_of_detached hxn _
    have h2 : x ∉ Function.update el (.pending s) []
        (queueSlot { w with res := Function.update w.res s r } q) :=
      hwm.lists.not_mem_of_detached hxn _
    rw [hfr x h1 h2]
    exact hxn
  · rw [h] at he; cases he

theorem resolve_kept {n : Nat} {w w2 : World} {el : Slot → List Nat} (hw : TWF w el)
    {fuel s : Nat} {o : Iface} (h : resolve fuel s o w = .ok () w2) : Kept n w w2 := by
  cases hst : (w.res s).turns with
  | none => simp [resolve, isResolved, hst] at h
  | some l =>
    have h2 : queueList s fuel (some l) { w with res := (Function.update w.res s
        { w.res s with turns := none, outcome := o }) } = .ok () w2 := by
      simpa [resolve, isResolved, hst] using h
    exact drain_kept hw hst _ rfl s fuel h2

theorem Complete_kept {n : Nat} {w w2 : World} {el : Slot → List Nat} (hw : TWF w el)
    {fuel s : Nat} {v : Iface} (h : Complete fuel s v w = .ok () w2) : Kept n w w2 := by
  obtain ⟨_, w1, h1, h2⟩ := bind_ok h
  obtain ⟨-, rfl⟩ := assertTrue_ok h1
  exact resolve_kept hw h2

theorem Fail_kept {n : Nat} {w w2 : World} {el : Slot → List Nat} (hw : TWF w el)
    {fuel s : Nat} {e : Option Err} (h : Fail fuel s e w = .ok () w2) : Kept n w w2 := by
  obtain ⟨_, w1, h1, h2⟩ := bind_ok h
  obtain ⟨-, rfl⟩ := assertTrue_ok h1
  exact resolve_kept hw h2

theorem Resolve_kept {n : Nat} {w w2 : World} {el : Slot → List Nat} (hw : TWF w el)
    {fuel s : Nat} {v : Iface} {e : Option Err} (h : Resolve fuel s v e w = .ok () w2) :
    Kept n w w2 := by
  obtain ⟨_, w1, h1, h2⟩ := bind_ok h
  obtain ⟨-, rfl⟩ := assertTrue_ok h1
  split at h2
  · obtain ⟨_, w3, h3, h4⟩ := bind_ok h2
    obtain ⟨-, rfl⟩ := assertTrue_ok h3
    exact resolve_kept hw h4
  · exact resolve_kept hw h2

theorem Forward_kept {n : Nat} {w w2 : World} {el : Slot → List Nat} (hw : TWF w el)
    {fuel s : Nat} {nx : Option Nat} (h : Forward fuel s nx w = .ok () w2) : Kept n w w2 := by
  cases hst : (w.res s).turns with
  | none => simp [Forward, isResolved, hst] at h
  | some l =>
    cases nx with
    | none => simp [Forward, isResolved, hst] at h
    | some x =>
      simp only [Forward, isResolved, hst, Option.isNone_some, Bool.false_eq_true, if_false]
        at h
      split at h
      · cases h
      · cases hg : getShortest fuel x w with
        | fault f w1 => rw [hg] at h; cases h
        | ok next w1 =>
          have hw1 : w = w1 := (getShortest_world hg).symm
          subst hw1
          rw [hg] at h
          simp only [hst] at h
          exact drain_kept hw hst _ rfl next fuel h

theorem WhenT_kept {n : Nat} {w w2 : World} {el : Slot → List Nat} (hw : TWF w el)
    (hn : n ≤ w.talloc) {fuel s o : Nat} {inTy out outR : Ty} {f : Fn}
    (h : WhenT fuel s inTy out outR f w = .ok o w2) : Kept n w w2 := by
  unfold WhenT at h
  cases hv : whenValidate inTy out outR f.sig with
  | error e => rw [hv] at h; cases h
  | ok p =>
    obtain ⟨tv, te, rr⟩ := p
    rw [hv] at h
    simp only at h
    cases hg : (if (w.res s).next.isSome then getShortest fuel s w else Res.ok s w) with
    | fault e w1 => rw [hg] at h; cases h
    | ok s1 w1 =>
      have hw1 : w = w1 := by
        split at hg
        · exact (getShortest_world hg).symm
        · cases hg; rfl
      subst hw1
      rw [hg] at h
      simp only at h
      obtain ⟨outer, wa, ha, h⟩ := bind_ok h
      obtain ⟨id, wb, hb, h⟩ := bind_ok h
      obtain ⟨t, wc, hc, h⟩ := bind_ok h
      obtain ⟨u, wd, hd, h⟩ := bind_ok h
      cases h
      obtain ⟨rfl, hea, -, -, -⟩ := newTurnResolver_ok hw ha
      obtain ⟨heb, -, -, htb⟩ := Manager.NewID_ok hea.twf hb
      obtain ⟨rfl, hec, -, -, -, -, htl, -⟩ := NewTurn_ok heb.twf hc
      obtain ⟨a, hae, hed, -⟩ := queue_ok hec.twf hd (fun a ha => by cases ha; exact htl)
      cases hae
      have htal : wb.talloc = w.talloc := by
        rw [htb]; simp only [newTurnResolver] at ha; cases ha; rfl
      have k1 : Kept n w wa := newTurnResolver_kept ha
      have k2 : Kept n w wb := k1.trans_kept hea.twf heb (Manager.NewID_kept hb)
      have k3 : Kept n w wc := k2.trans_kept heb.twf hec (NewTurn_kept hc)
      exact k3.trans_kept hec.twf hed (queue_kept hec.twf htl (by omega) hd)

theorem Manager.NewTurn_keptAll {n m : Nat} {name : String} {th : Thunk} {w w2 : World}
    {el : Slot → List Nat} (hw : TWF w el) (h : Manager.NewTurn m name th w = .ok () w2) :
    Kept n w w2 := by
  obtain ⟨t, w1, h1, h2⟩ := bind_ok h
  obtain ⟨-, he1, -, -, -, -, htl, -⟩ := Drydock.NewTurn_ok hw h1
  obtain ⟨a, -, he2, -⟩ := Manager.Queue_ok he1.twf h2 (fun a ha => by cases ha; exact htl)
  exact (Drydock.NewTurn_kept h1).trans_kept he1.twf he2
    (Manager.Queue_kept he1.twf (fun a ha => by cases ha; exact htl) h2)

theorem turnRunner.New_kept {n : Nat} {w w2 : World} {el : Slot → List Nat} (hw : TWF w el)
    {t : Runner} {fid : Nat} {f : Prog} {s : Nat} (h : turnRunner.New t fid f w = .ok s w2) :
    Kept n w w2 := by
  obtain ⟨w1, id, wi, h1, h2, h3⟩ := turnRunner.New_parts h
  obtain ⟨-, he1, -, -, -⟩ := newTurnResolver_ok hw h1
  obtain ⟨he2, -, -, -⟩ := Manager.NewID_ok he1.twf h2
  obtain ⟨he3, -⟩ := Manager.NewTurn_effect he2.twf h3
  have k1 : Kept n w w1 := newTurnResolver_kept h1
  have k2 : Kept n w wi := k1.trans_kept he1.twf he2 (Manager.NewID_kept h2)
  exact k2.trans_kept he2.twf he3 (Manager.NewTurn_keptAll he2.twf h3)

theorem exec_kept {n fuel : Nat} (p : Prog) :
    ∀ {w w2 : World} {el : Slot → List Nat} {vals : List Iface}, TWF w el → n ≤ w.talloc →
      exec fuel p w = .ok vals w2 → Kept n w w2 := by
  induction p with
  | ret vals =>
    intro w w2 el v hw hn h
    simp only [exec] at h
    obtain ⟨_, w0, h0, h1⟩ := bind_ok h
    obtain ⟨-, rfl⟩ := guardAlloc_ok h0
    cases h1
    exact Kept.refl_kept _ _
  | newResult m k ih =>
    intro w w2 el v hw hn h
    simp only [exec] at h
    split at h
    · cases h
    · next s w1 hs =>
      obtain ⟨_, w0, h0, h1⟩ := bind_ok hs
      obtain ⟨-, rfl⟩ := guardAlloc_ok h0
      obtain ⟨-, he, -⟩ := newTurnResolver_ok hw h1
      obtain ⟨el2, he2, -⟩ := exec_ok _ he.twf h
      exact (newTurnResolver_kept h1).trans_kept he.twf he2
        (ih s he.twf (le_trans hn he.grow.talloc) h)
  | complete s v k ih =>
    intro w w2 el vals hw hn h
    simp only [exec] at h
    obtain ⟨_, w0, h0, h⟩ := bind_ok h
    obtain ⟨-, rfl⟩ := guardAlloc_ok h0
    obtain ⟨_, w1, h1, h⟩ := bind_ok h
    obtain ⟨el1, he, -⟩ := Complete_ok hw h1
    obtain ⟨el2, he2, -⟩ := exec_ok _ he.twf h
    exact (Complete_kept hw h1).trans_kept he.twf he2
      (ih he.twf (le_trans hn he.grow.talloc) h)
  | fail s e k ih =>
    intro w w2 el vals hw hn h
    simp only [exec] at h
    obtain ⟨_, w0, h0, h⟩ := bind_ok h
    obtain ⟨-, rfl⟩ := guardAlloc_ok h0
    obtain ⟨_, w1, h1, h⟩ := bind_ok h
    obtain ⟨el1, he, -⟩ := Fail_ok hw h1
    obtain ⟨el2, he2, -⟩ := exec_ok _ he.twf h
    exact (Fail_kept hw h1).trans_kept he.twf he2 (ih he.twf (le_trans hn he.grow.talloc) h)
  | resolve s v e k ih =>
    intro w w2 el vals hw hn h
    simp only [exec] at h
    obtain ⟨_, w0, h0, h⟩ := bind_ok h
    obtain ⟨-, rfl⟩ := guardAlloc_ok h0
    obtain ⟨_, w1, h1, h⟩ := bind_ok h
    obtain ⟨el1, he, -⟩ := Resolve_ok hw h1
    obtain ⟨el2, he2, -⟩ := exec_ok _ he.twf h
    exact (Resolve_kept hw h1).trans_kept he.twf he2
      (ih he.twf (le_trans hn he.grow.talloc) h)
  | forward s nx k ih =>
    intro w w2 el vals hw hn h
    simp only [exec] at h
    obtain ⟨_, w0, h0, h⟩ := bind_ok h
    obtain ⟨-, rfl⟩ := guardAlloc_ok h0
    obtain ⟨_, w1, h1, h⟩ := bind_ok h
    obtain ⟨el1, he, -⟩ := Forward_ok hw h1
    obtain ⟨el2, he2, -⟩ := exec_ok _ he.twf h
    exact (Forward_kept hw h1).trans_kept he.twf he2
      (ih he.twf (le_trans hn he.grow.talloc) h)
  | «when» r inTy out outR fid sig f k _ ih =>
    intro w w2 el vals hw hn h
    simp only [exec] at h
    split at h
    · cases h
    · next o w1 hs =>
      obtain ⟨_, w0, h0, h1⟩ := bind_ok hs
      obtain ⟨-, rfl⟩ := guardAlloc_ok h0
      obtain ⟨_, _, _, _, _, -, -, -, he, -⟩ := WhenT_ok hw h1
      obtain ⟨el2, he2, -⟩ := exec_ok _ he.twf h
      exact (WhenT_kept hw hn h1).trans_kept he.twf he2
        (ih o he.twf (le_trans hn he.grow.talloc) h)
  | newTurn m name body k _ ih =>
    intro w w2 el vals hw hn h
    simp only [exec] at h
    obtain ⟨_, w0, h0, h⟩ := bind_ok h
    obtain ⟨-, rfl⟩ := guardAlloc_ok h0
    obtain ⟨_, w1, h1, h⟩ := bind_ok h
    obtain ⟨he, -⟩ := Manager.NewTurn_effect hw h1
    obtain ⟨el2, he2, -⟩ := exec_ok _ he.twf h
    exact (Manager.NewTurn_keptAll hw h1).trans_kept he.twf he2
      (ih he.twf (le_trans hn he.grow.talloc) h)
  | allocTurn name body k _ ih =>
    intro w w2 el vals hw hn h
    simp only [exec] at h
    have h1 : NewTurn name (.user body) w = .ok w.talloc _ := rfl
    obtain ⟨-, he, -⟩ := NewTurn_ok hw h1
    obtain ⟨el2, he2, -⟩ := exec_ok _ he.twf h
    exact (NewTurn_kept h1).trans_kept he.twf he2
      (ih _ he.twf (le_trans hn he.grow.talloc) h)
  | queue m t k ih =>
    intro w w2 el vals hw hn h
    simp only [exec] at h
    obtain ⟨_, w0, h0, h⟩ := bind_ok h
    obtain ⟨hg, rfl⟩ := guardAlloc_ok h0
    obtain ⟨_, w1, h1, h⟩ := bind_ok h
    have hal : ∀ a, t = some a → a < w.talloc := fun a ha => by
      subst ha
      have : m < w.malloc ∧ a < w.talloc := by simpa using hg
      exact this.2
    obtain ⟨a, -, he, -⟩ := Manager.Queue_ok hw h1 hal
    obtain ⟨el2, he2, -⟩ := exec_ok _ he.twf h
    exact (Manager.Queue_kept hw hal h1).trans_kept he.twf he2
      (ih he.twf (le_trans hn he.grow.talloc) h)
  | spawn runner fid f k _ ih =>
    intro w w2 el vals hw hn h
    simp only [exec] at h
    split at h
    · cases h
    · next s w1 hs =>
      obtain ⟨_, w0, h0, h1⟩ := bind_ok hs
      obtain ⟨-, rfl⟩ := guardAlloc_ok h0
      obtain ⟨el1, he, -⟩ := turnRunner.New_ok hw h1
      obtain ⟨el2, he2, -⟩ := exec_ok _ he.twf h
      exact (turnRunner.New_kept hw h1).trans_kept he.twf he2
        (ih s he.twf (le_trans hn he.grow.talloc) h)

theorem Kept.ghost_kept {n : Nat} {w w1 w2 : World} (h1 : w1.tnext = w.tnext)
    (h : Kept n w1 w2) : Kept n w w2 :=
  fun el2 hw2 t ht hn => h el2 hw2 t ht (by rw [h1]; exact hn)

theorem runClient_kept {n : Nat} {w w2 : World} {el : Slot → List Nat} (hw : TWF w el)
    (hn : n ≤ w.talloc) {fuel fid : Nat} {args : List Iface} {f : Prog} {rv : List Iface}
    (h : (logCall fid args >>= fun _ => exec fuel f) w = .ok rv w2) : Kept n w w2 := by
  obtain ⟨_, w1, h1, h2⟩ := bind_ok h
  simp only [logCall] at h1
  cases h1
  have hg : Effect w { w with calls := w.calls ++ [(fid, args)] } el el :=
    Effect.of_ghost hw rfl rfl rfl rfl rfl rfl rfl rfl
  have k := exec_kept (n := n) _ hg.twf hn h2
  exact Kept.ghost_kept rfl k

theorem callFn_kept {n : Nat} {w w2 : World} {el : Slot → List Nat} (hw : TWF w el)
    (hn : n ≤ w.talloc) {fuel : Nat} {f : Fn} {args rv : List Iface}
    (h : callFn fuel f args w = .ok rv w2) : Kept n w w2 := by
  cases f with
  | user fid sig body => exact runClient_kept hw hn (callFn_user_ok h).2
  | runUntilRecord cell =>
    simp only [callFn] at h
    split at h
    · cases h
      exact Kept.of_frame (fun _ _ h => h)
    · cases h
  | finallyFn outR fid f r =>
    simp only [callFn] at h
    obtain ⟨_, w1, h1, h2⟩ := bind_ok h
    simp only [logCall] at h1
    cases h1
    obtain ⟨_, w3, h3, h4⟩ := bind_ok h2
    cases h4
    have hg : Effect w { w with calls := w.calls ++ [(fid, [])] } el el :=
      Effect.of_ghost hw rfl rfl rfl rfl rfl rfl rfl rfl
    have k := exec_kept (n := n) _ hg.twf hn h3
    exact Kept.ghost_kept rfl k
  | actorResolve s =>
    simp only [callFn] at h
    split at h
    · next a =>
      cases hr : Resolve fuel s .nil a.asError w with
      | fault f w1 => rw [hr] at h; cases h
      | ok u w1 =>
        rw [hr] at h
        cases h
        exact Resolve_kept hw hr
    · cases h

theorem runWhen_kept {n : Nat} {w w2 : World} {el : Slot → List Nat} (hw : TWF w el)
    (hn : n ≤ w.talloc) {fuel s outer : Nat} {inTy : Ty} {tv te rr : Bool} {f : Fn}
    (h : runWhen fuel s outer inTy tv te rr f w = .ok () w2) : Kept n w w2 := by
  unfold runWhen at h
  cases hg : getShortest fuel s w with
  | fault e w1 => rw [hg] at h; cases h
  | ok final w1 =>
    have hw1 : w = w1 := (getShortest_world hg).symm
    subst hw1
    rw [hg] at h
    simp only at h
    split at h
    · cases h
    · split at h
      · exact Fail_kept hw h
      · split at h
        · cases h
        · next rv wc hc =>
          obtain ⟨el1, he1, -⟩ := callFn_ok hw hc
          have k1 := callFn_kept (n := n) hw hn hc
          split at h
          · split at h
            · cases h
            · obtain ⟨el2, he2, -⟩ := Forward_ok he1.twf h
              exact k1.trans_kept he1.twf he2 (Forward_kept he1.twf h)
            · cases h
          · split at h
            · split at h
              · obtain ⟨el2, he2, -⟩ := resolve_ok he1.twf h
                exact k1.trans_kept he1.twf he2 (resolve_kept he1.twf h)
              · obtain ⟨el2, he2, -⟩ := resolve_ok he1.twf h
                exact k1.trans_kept he1.twf he2 (resolve_kept he1.twf h)
            · obtain ⟨el2, he2, -⟩ := resolve_ok he1.twf h
              exact k1.trans_kept he1.twf he2 (resolve_kept he1.twf h)
            · obtain ⟨el2, he2, -⟩ := resolve_ok he1.twf h
              exact k1.trans_kept he1.twf he2 (resolve_kept he1.twf h)

theorem runThunk_kept {n : Nat} {w w2 : World} {el : Slot → List Nat} (hw : TWF w el)
    (hn : n ≤ w.talloc) {fuel : Nat} {th : Thunk} (h : runThunk fuel th w = .ok () w2) :
    Kept n w w2 := by
  cases th with
  | user body =>
    simp only [runThunk] at h
    obtain ⟨_, w1, h1, h2⟩ := bind_ok h
    cases h2
    exact exec_kept _ hw hn h1
  | whenTurn s outer inTy tv te rr f => exact runWhen_kept hw hn h
  | runUntil main cell =>
    simp only [runThunk] at h
    obtain ⟨_, w1, h1, h2⟩ := bind_ok h
    cases h2
    exact WhenT_kept hw hn h1
  | runnerNew s fid f =>
    simp only [runThunk] at h
    cases hx : (logCall fid [] >>= fun _ => exec fuel f) w with
    | fault e w1 => rw [hx] at h; cases h
    | ok rv w1 =>
      rw [hx] at h
      obtain ⟨el1, he1, -⟩ := runClient_ok hw hx
      have k1 := runClient_kept (n := n) hw hn hx
      simp only at h
      split at h
      · obtain ⟨el2, he2, -⟩ := Forward_ok he1.twf h
        exact k1.trans_kept he1.twf he2 (Forward_kept he1.twf h)
      · cases h
  | actorMain s fid root =>
    simp only [runThunk] at h
    cases hx : (logCall fid [] >>= fun _ => exec fuel root) w with
    | fault e w1 => rw [hx] at h; cases h
    | ok rv w1 =>
      rw [hx] at h
      obtain ⟨el1, he1, -⟩ := runClient_ok hw hx
      have k1 := runClient_kept (n := n) hw hn hx
      simp only at h
      split at h
      · next x _ =>
        cases hy : WhenT fuel x .iface .iface .R (.actorResolve s) w1 with
        | fault e w3 => rw [hy] at h; cases h
        | ok o w3 =>
          rw [hy] at h
          cases h
          obtain ⟨_, _, _, _, _, -, -, -, he, -⟩ := WhenT_ok he1.twf hy
          exact k1.trans_kept he1.twf he
            (WhenT_kept he1.twf (le_trans hn he1.grow.talloc) hy)
      · cases h
      · cases h
  | ioResult s cell =>
    simp only [runThunk] at h
    exact Resolve_kept hw h

/-- `Run` of an allocated turn leaves every allocated turn that was detached, the run turn
among them, detached, unless the function run put it on the queue of a manager: then it is
among the turns that the function appended to that queue. -/
theorem Run_kept {w w2 : World} {el : Slot → List Nat} (hw : TWF w el) {fuel t : Nat}
    (h : Run fuel (some t) w = .ok () w2) :
    ∀ x, x < w.talloc → w.tnext x = none →
      w2.tnext x = none ∨ ∃ m add, w2.enq m = w.enq m ++ add ∧ x ∈ add := by
  obtain ⟨_, el2, ht, he, -, -⟩ := Run_ok hw h
  have hk : Kept w.talloc w w2 := by
    unfold Run at h
    split at h
    · cases h
    · simp only at h
      split at h
      · cases h
      · have hg : Effect w { w with ran := w.ran ++ [t] } el el :=
          Effect.of_ghost hw rfl rfl rfl rfl rfl rfl rfl rfl
        have k := runThunk_kept (n := w.talloc) hg.twf (le_refl _) h
        exact Kept.ghost_kept rfl k
  intro x hx hxn
  rcases hk el2 he.twf x hx hxn with h1 | ⟨m, hm⟩
  · exact Or.inl h1
  · right
    obtain ⟨add, e1, e2⟩ := he.grow.queue m
    refine ⟨m, add, e2, ?_⟩
    rw [e1] at hm
    rcases List.mem_append.1 hm with h3 | h3
    · exact absurd h3 (hw.lists.not_mem_of_detached hxn _)
    · exact h3

theorem TWF.at_nesting : TWF World.nesting (fun _ => []) := by
  refine ⟨⟨fun i l h => ?_, fun _ _ => rfl, fun _ _ _ t ht => by cases ht⟩, rfl, fun _ _ => rfl,
    by decide⟩
  rw [Ring_nil_iff]
  cases i with
  | queue m => simpa [handle, World.nesting, World.sample] using h.symm
  | pending s =>
    by_cases hs : s = 0
    · subst hs; simp [handle, World.nesting, World.sample] at h
    · simpa [handle, World.nesting, World.sample, hs] using h.symm
  | source k => simpa [handle, World.nesting, World.sample, World.init] using h.symm

/-- C11 (turn detachment), with `Run` stated as the code has it.  For a well-formed non-empty
list, the turn returned by `RemoveHead` has `next == nil`, and every member `t` has
`next == nil` after `Unlink(t)`.  `Run` aborts on a turn whose `next` is not nil, so the
function of a turn is entered with `next == nil`; `Run` itself never writes `next`, and
`next` is nil on return when the function returns at once.  For every function of the turn,
in every well-formed world: when `Run` returns, `next` of the run turn is nil, unless the
function queued the turn, which is then among the turns appended to the queue of a manager
during the run. -/
theorem turn_detachment (fuel : Nat) (h : TurnHeap) (l : Option Nat) (xs : List Nat)
    (hr : Ring h l xs) (hne : xs ≠ []) (hf : xs.length ≤ fuel) :
    (∃ h2 x l2, RemoveHead h l = .ok (h2, some x, l2) ∧ h2 x = none) ∧
    (∀ t ∈ xs, ∃ h1 l1, Unlink fuel h l (some t) = .ok (h1, l1) ∧ h1 t = none) ∧
    (∀ (w : World) (t k : Nat), w.tnext t ≠ none →
      ∃ msg, Run k (some t) w = .fault (.precondition msg) w) ∧
    (∀ (w : World) (t k : Nat), w.tnext t = none → t ≠ Empty →
      Run k (some t) w = runThunk k (w.tf t) { w with ran := w.ran ++ [t] } ∧
      ({ w with ran := w.ran ++ [t] } : World).tnext t = none) ∧
    (∀ (w : World) (t k : Nat) (vals : List Iface), w.tnext t = none → t ≠ Empty →
      w.tf t = .user (.ret vals) → vals.all (resultAlloc w) = true →
      ∃ w2, Run k (some t) w = .ok () w2 ∧ w2.tnext t = none) ∧
    (∀ (w w2 : World) (el : Slot → List Nat) (t k : Nat), TWF w el → t < w.talloc →
      Run k (some t) w = .ok () w2 →
      w2.tnext t = none ∨ ∃ m add, w2.enq m = w.enq m ++ add ∧ t ∈ add) := by
  refine ⟨?_, fun t ht => Unlink_member_ok hr ht hf, fun w t k h => Run_linked h,
    fun w t k h h0 => ⟨Run_detached h h0, h⟩, fun w t k vals h h0 htf hv => ?_,
    fun w w2 el t k hw ht hrun => ?_⟩
  · cases xs with
    | nil => exact absurd rfl hne
    | cons x rest =>
      obtain ⟨h2, l2, he, -, hx, -⟩ := RemoveHead_ring hr
      exact ⟨h2, x, l2, he, hx⟩
  · refine ⟨{ w with ran := w.ran ++ [t] }, ?_, h⟩
    rw [Run_detached h h0, htf]
    have hv2 : vals.all (resultAlloc { w with ran := w.ran ++ [t] }) = true := hv
    simp [runThunk, exec, bind_apply, guardAlloc, hv2, pure_apply]
  · by_cases hn : w.tnext t = none
    · exact Run_kept hw hrun t ht hn
    · obtain ⟨msg, hm⟩ := @Run_linked k _ _ hn
      rw [hm] at hrun
      cases hrun

theorem turn_detachment_witness :
    ((∃ h2 x l2, RemoveHead (fun a => if a = 1 then some 2 else if a = 2 then some 1 else none)
        (some 2) = .ok (h2, some x, l2) ∧ h2 x = none) ∧
    (∀ t ∈ [1, 2], ∃ h1 l1,
      Unlink 2 (fun a => if a = 1 then some 2 else if a = 2 then some 1 else none) (some 2)
        (some t) = .ok (h1, l1) ∧ h1 t = none) ∧
    (∀ (w : World) (t k : Nat), w.tnext t ≠ none →
      ∃ msg, Run k (some t) w = .fault (.precondition msg) w) ∧
    (∀ (w : World) (t k : Nat), w.tnext t = none → t ≠ Empty →
      Run k (some t) w = runThunk k (w.tf t) { w with ran := w.ran ++ [t] } ∧
      ({ w with ran := w.ran ++ [t] } : World).tnext t = none) ∧
    (∀ (w : World) (t k : Nat) (vals : List Iface), w.tnext t = none → t ≠ Empty →
      w.tf t = .user (.ret vals) → vals.all (resultAlloc w) = true →
      ∃ w2, Run k (some t) w = .ok () w2 ∧ w2.tnext t = none) ∧
    (∀ (w w2 : World) (el : Slot → List Nat) (t k : Nat), TWF w el → t < w.talloc →
      Run k (some t) w = .ok () w2 →
      w2.tnext t = none ∨ ∃ m add, w2.enq m = w.enq m ++ add ∧ t ∈ add)) ∧
    ((Run 2 (some 1) World.requeue).world.tnext 1 = none ∨
      ∃ m add, (Run 2 (some 1) World.requeue).world.enq m = World.requeue.enq m ++ add ∧
        1 ∈ add) ∧
    ((Run 2 (some 1) World.nesting).world.tnext 1 = none ∨
      ∃ m add, (Run 2 (some 1) World.nesting).world.enq m = World.nesting.enq m ++ add ∧
        1 ∈ add) :=
  ⟨turn_detachment 2 _ (some 2) [1, 2] ⟨rfl, by simp [Links], by decide, by decide⟩
    (by decide) (by decide),
   (turn_detachment 2 (fun a => if a = 1 then some 2 else if a = 2 then some 1 else none)
    (some 2) [1, 2] ⟨rfl, by simp [Links], by decide, by decide⟩
    (by decide) (by decide)).2.2.2.2.2 World.requeue _ _ 1 2 TWF.at_requeue (by decide)
      (Res.ok_of_val (by decide!)),
   (turn_detachment 2 (fun a => if a = 1 then some 2 else if a = 2 then some 1 else none)
    (some 2) [1, 2] ⟨rfl, by simp [Links], by decide, by decide⟩
    (by decide) (by decide)).2.2.2.2.2 World.nesting _ _ 1 2 TWF.at_nesting (by decide)
      (Res.ok_of_val (by decide!))⟩

end Drydock


namespace Drydock

/-! ### Continuations of resolved results have been queued -/

theorem Deliv.mem_add {E0 : Nat → List Nat} {w w2 : World} {el el2 : Slot → List Nat}
    (hg : Grow w w2 el el2) (hE : ∀ m, ∃ add, w.enq m = E0 m ++ add) {M t : Nat}
    (h2 : t ∈ el2 (.queue M)) (h1 : t ∉ el (.queue M)) :
    ∃ add, w2.enq M = E0 M ++ add ∧ t ∈ add := by
  obtain ⟨a, ha⟩ := hE M
  obtain ⟨add, e1, e2⟩ := hg.queue M
  rw [e1] at h2
  rcases List.mem_append.1 h2 with h | h
  · exact absurd h h1
  · exact ⟨a ++ add, by rw [e2, ha, List.append_assoc], List.mem_append_right _ h⟩

theorem Deliv.enq_ext {E0 : Nat → List Nat} {w w2 : World} {el el2 : Slot → List Nat}
    (hg : Grow w w2 el el2) (hE : ∀ m, ∃ add, w.enq m = E0 m ++ add) :
    ∀ m, ∃ add, w2.enq m = E0 m ++ add := by
  intro m
  obtain ⟨a, ha⟩ := hE m
  obtain ⟨add, -, e2⟩ := hg.queue m
  exact ⟨a ++ add, by rw [e2, ha, List.append_assoc]⟩

/-- A step that adds no forwarding link, moves the pending list of every resolver that it
resolves to the queue of the manager of the resolver, and queues its new continuation turns
of resolved sources. -/
theorem Deliv.step_deliv {E0 : Nat → List Nat} {t0 : Nat} {w w2 : World} {el el2 : Slot → List Nat}
    (hw : TWF w el) (hs : Safe w) (hd : Deliv E0 t0 w) (he : Effect w w2 el el2)
    (hnext : ∀ k, k < w.ralloc → (w2.res k).next = (w.res k).next)
    (hmove : ∀ k, k < w.ralloc → (w.res k).turns ≠ none → (w2.res k).turns = none →
      ∀ t ∈ el (.pending k), t ∈ el2 (.queue (w2.res k).manager))
    (htf : ∀ t, t < w2.talloc → (t < w.talloc ∧ w2.tf t = w.tf t) ∨
      (w.talloc ≤ t ∧ ∀ s outer inTy tv te rr f, w2.tf t = .whenTurn s outer inTy tv te rr f →
        ∀ tail, Chain w2 s tail → (w2.res tail).next = none → (w2.res tail).turns = none →
          t ∈ el2 (.queue (w2.res tail).manager))) : Deliv E0 t0 w2 := by
  refine ⟨Deliv.enq_ext he.grow hd.1, ?_⟩
  intro t s outer inTy tv te rr f ht0 ht htf2 tail hch hn hres
  rcases htf t ht with ⟨ht1, e1⟩ | ⟨hge, hnew⟩
  · rw [e1] at htf2
    have hcl := hs.1.thunks t ht1
    rw [htf2] at hcl
    have hsr : s < w.ralloc := hcl.1
    have hback : ∀ a b, Chain w2 a b → a < w.ralloc → Chain w a b ∧ b < w.ralloc := by
      intro a b hab
      induction hab with
      | refl a => exact fun ha => ⟨Chain.refl a, ha⟩
      | step hx _ ih =>
        intro ha
        rw [hnext _ ha] at hx
        obtain ⟨h1, h2⟩ := ih (hs.1.next _ _ hx).1
        exact ⟨Chain.step hx h1, h2⟩
    obtain ⟨hch1, htl⟩ := hback s tail hch hsr
    have hn1 : (w.res tail).next = none := by rw [← hnext tail htl]; exact hn
    by_cases hu : (w.res tail).turns = none
    · have e := he.stable.res tail htl hu
      obtain ⟨add, ha, hm⟩ := hd.2 t s outer inTy tv te rr f ht0 ht1 htf2 tail hch1 hn1 hu
      obtain ⟨add2, -, h2⟩ := he.grow.queue (w.res tail).manager
      rw [e]
      exact ⟨add ++ add2, by rw [h2, ha, List.append_assoc], List.mem_append_left _ hm⟩
    · have hm := hs.awaiting hw t s outer inTy tv te rr f ht1 htf2 tail hch1 hn1 hu
      have h2 := hmove tail htl hu hres t hm
      exact Deliv.mem_add he.grow hd.1 h2
        (hw.lists.disj (.pending tail) (.queue _) (by simp) t hm)
  · have h2 := hnew s outer inTy tv te rr f htf2 tail hch hn hres
    refine Deliv.mem_add he.grow hd.1 h2 (fun hm => ?_)
    obtain ⟨z, hz⟩ := hw.lists.linked hm
    have := hw.lt_talloc hz
    omega

theorem Deliv.by_queueing {E0 : Nat → List Nat} {t0 : Nat} {w w2 : World}
    {el el2 : Slot → List Nat} (hw : TWF w el) (hs : Safe w) (hd : Deliv E0 t0 w)
    (he : Effect w w2 el el2) (hq : QueueOnly w w2) : Deliv E0 t0 w2 :=
  Deliv.step_deliv hw hs hd he (fun k _ => (hq.res k).2.2.1)
    (fun k _ hu h2 => absurd ((hq.res k).2.2.2.1 h2) hu)
    (fun t ht => Or.inl ⟨by rw [← allocs_talloc hq.allocs]; exact ht,
      by rw [allocs_tf hq.allocs]⟩)

theorem Deliv.same_deliv {E0 : Nat → List Nat} {t0 : Nat} {w w2 : World}
    {el el2 : Slot → List Nat} (hw : TWF w el) (hs : Safe w) (hd : Deliv E0 t0 w)
    (he : Effect w w2 el el2) (h1 : w2.res = w.res) (h3 : w2.tf = w.tf)
    (h4 : w2.talloc = w.talloc) : Deliv E0 t0 w2 :=
  Deliv.step_deliv hw hs hd he (fun k _ => by rw [h1])
    (fun k _ hu h2 => absurd (by rw [h1] at h2; exact h2) hu)
    (fun t ht => Or.inl ⟨by rw [← h4]; exact ht, by rw [h3]⟩)

theorem Manager.Queue_deliv {E0 : Nat → List Nat} {t0 : Nat} {w w2 : World}
    {el : Slot → List Nat} (hw : TWF w el) (hs : Safe w) (hd : Deliv E0 t0 w) {m : Nat}
    {t : Option Nat} (hal : ∀ a, t = some a → a < w.talloc)
    (h : Manager.Queue m t w = .ok () w2) : Deliv E0 t0 w2 := by
  obtain ⟨a, -, he, -⟩ := Manager.Queue_ok hw h hal
  exact Deliv.by_queueing hw hs hd he (Manager.Queue_queueOnly h)

theorem queue_deliv {E0 : Nat → List Nat} {t0 : Nat} {w w2 : World}
    {el : Slot → List Nat} (hw : TWF w el) (hs : Safe w) (hd : Deliv E0 t0 w) {s : Nat}
    {t : Option Nat} (hal : ∀ a, t = some a → a < w.talloc)
    (h : queue s t w = .ok () w2) : Deliv E0 t0 w2 := by
  obtain ⟨a, -, he, -⟩ := queue_ok hw h hal
  exact Deliv.by_queueing hw hs hd he (queue_queueOnly h)

theorem resolve_deliv {E0 : Nat → List Nat} {t0 : Nat} {w w2 : World}
    {el : Slot → List Nat} (hw : TWF w el) (hs : Safe w) (hd : Deliv E0 t0 w)
    {fuel s : Nat} {o : Iface} (h : resolve fuel s o w = .ok () w2) : Deliv E0 t0 w2 := by
  cases hst : (w.res s).turns with
  | none => simp [resolve, isResolved, hst] at h
  | some l =>
    have h2 : queueList s fuel (some l) { w with res := (Function.update w.res s
        { w.res s with turns := none, outcome := o }) } = .ok () w2 := by
      simpa [resolve, isResolved, hst] using h
    obtain ⟨heff, hq, ha, hres, -⟩ := drain_effect hw hst _ rfl s fuel h2
    have hqo := queueList_queueOnly fuel h2
    have hslot : queueSlot { w with res := (Function.update w.res s
        { w.res s with turns := none, outcome := o }) } s = .queue (w.res s).manager := by
      simp [queueSlot, isResolved]
    rw [hslot] at heff
    refine Deliv.step_deliv hw hs hd heff (fun k _ => ?_) (fun k _ hk hk2 t ht => ?_)
      (fun t ht => Or.inl ⟨by rw [← allocs_talloc ha]; exact ht, by rw [allocs_tf ha]⟩)
    · rw [(hqo.res k).2.2.1]
      by_cases hks : k = s
      · subst hks; simp
      · simp [Function.update_noteq hks]
    · have hks : k = s := by
        by_contra hks
        apply hk
        have := (hqo.res k).2.2.2.1 hk2
        simpa [Function.update_noteq hks] using this
      subst hks
      rw [hres]
      simp only [Function.update_same]
      exact List.mem_append_right _ ht

theorem Complete_deliv {E0 : Nat → List Nat} {t0 : Nat} {w w2 : World}
    {el : Slot → List Nat} (hw : TWF w el) (hs : Safe w) (hd : Deliv E0 t0 w)
    {fuel s : Nat} {v : Iface} (h : Complete fuel s v w = .ok () w2) : Deliv E0 t0 w2 := by
  obtain ⟨_, w1, h1, h2⟩ := bind_ok h
  obtain ⟨-, rfl⟩ := assertTrue_ok h1
  exact resolve_deliv hw hs hd h2

theorem Fail_deliv {E0 : Nat → List Nat} {t0 : Nat} {w w2 : World}
    {el : Slot → List Nat} (hw : TWF w el) (hs : Safe w) (hd : Deliv E0 t0 w)
    {fuel s : Nat} {e : Option Err} (h : Fail fuel s e w = .ok () w2) : Deliv E0 t0 w2 := by
  obtain ⟨_, w1, h1, h2⟩ := bind_ok h
  obtain ⟨-, rfl⟩ := assertTrue_ok h1
  exact resolve_deliv hw hs hd h2

theorem Resolve_deliv {E0 : Nat → List Nat} {t0 : Nat} {w w2 : World}
    {el : Slot → List Nat} (hw : TWF w el) (hs : Safe w) (hd : Deliv E0 t0 w)
    {fuel s : Nat} {v : Iface} {e : Option Err} (h : Resolve fuel s v e w = .ok () w2) :
    Deliv E0 t0 w2 := by
  obtain ⟨_, w1, h1, h2⟩ := bind_ok h
  obtain ⟨-, rfl⟩ := assertTrue_ok h1
  split at h2
  · obtain ⟨_, w3, h3, h4⟩ := bind_ok h2
    obtain ⟨-, rfl⟩ := assertTrue_ok h3
    exact resolve_deliv hw hs hd h4
  · exact resolve_deliv hw hs hd h2

theorem newTurnResolver_deliv {E0 : Nat → List Nat} {t0 : Nat} {w w2 : World}
    {el : Slot → List Nat} (hw : TWF w el) (hs : Safe w) (hd : Deliv E0 t0 w)
    {m s : Nat} (h : newTurnResolver m w = .ok s w2) : Deliv E0 t0 w2 := by
  obtain ⟨-, he, -, hr, -⟩ := newTurnResolver_ok hw h
  simp only [newTurnResolver] at h
  cases h
  refine Deliv.step_deliv hw hs hd he (fun k hk => ?_) (fun k hk h1 h2 => ?_)
    (fun t ht => Or.inl ⟨ht, rfl⟩)
  · show (Function.update w.res w.ralloc _ k).next = _
    rw [Function.update_noteq (Nat.ne_of_lt hk)]
  · have : (Function.update w.res w.ralloc _ k).turns = none := h2
    rw [Function.update_noteq (Nat.ne_of_lt hk)] at this
    exact absurd this h1

/-- Allocating a turn whose function is not a continuation dispatcher. -/
theorem NewTurn_deliv {E0 : Nat → List Nat} {t0 : Nat} {w w2 : World}
    {el : Slot → List Nat} (hw : TWF w el) (hs : Safe w) (hd : Deliv E0 t0 w)
    {name : String} {th : Thunk} {t : Nat}
    (hth : ∀ s outer inTy tv te rr f, th ≠ .whenTurn s outer inTy tv te rr f)
    (h : NewTurn name th w = .ok t w2) : Deliv E0 t0 w2 := by
  obtain ⟨-, he, -, -, -, -, -, -⟩ := NewTurn_ok hw h
  simp only [NewTurn] at h
  cases h
  refine Deliv.step_deliv hw hs hd he (fun _ _ => rfl) (fun _ _ h1 h2 => absurd h2 h1)
    (fun k hk => ?_)
  by_cases hk2 : k = w.talloc
  · subst hk2
    right
    refine ⟨le_refl _, ?_⟩
    intro s outer inTy tv te rr f hf
    simp only [Function.update_same] at hf
    exact absurd hf (hth s outer inTy tv te rr f)
  · left
    have hk3 : k < w.talloc + 1 := hk
    exact ⟨by omega, by simp [Function.update_noteq hk2]⟩

theorem Manager.NewTurn_delivers {E0 : Nat → List Nat} {t0 : Nat} {w w2 : World}
    {el : Slot → List Nat} (hw : TWF w el) (hs : Safe w) (hd : Deliv E0 t0 w) {m : Nat}
    {name : String} {th : Thunk} (hcl : ThunkClosed w th)
    (hth : ∀ s outer inTy tv te rr f, th ≠ .whenTurn s outer inTy tv te rr f)
    (h : Manager.NewTurn m name th w = .ok () w2) : Deliv E0 t0 w2 := by
  obtain ⟨t, w1, h1, h2⟩ := bind_ok h
  obtain ⟨-, he1, -, -, -, -, htl, -⟩ := Drydock.NewTurn_ok hw h1
  exact Manager.Queue_deliv he1.twf (Drydock.NewTurn_safe hw hs hcl hth h1)
    (Drydock.NewTurn_deliv hw hs hd hth h1) (fun a ha => by cases ha; exact htl) h2

theorem WhenT_deliv {E0 : Nat → List Nat} {t0 : Nat} {w w2 : World}
    {el : Slot → List Nat} (hw : TWF w el) (hs : Safe w) (hd : Deliv E0 t0 w)
    {fuel s o : Nat} {inTy out outR : Ty} {f : Fn} (hsr : s < w.ralloc)
    (h : WhenT fuel s inTy out outR f w = .ok o w2) : Deliv E0 t0 w2 := by
  obtain ⟨tv, te, rr, s1, tgt, -, hsrc, -, heff, htgt, -, htf, hta, -, -, -, hall⟩ :=
    WhenT_ok hw h
  obtain ⟨-, -, -, -, -, -, -, -, -, -, -, -, htfs, -⟩ := WhenT_inv h
  have hs1 : s1 < w.ralloc ∧ (w.res s1).next = none := by
    split at hsrc
    · exact ⟨getShortest_lt hs.1 hsr hsrc, getShortest_next hsrc⟩
    · next hn =>
      cases hsrc
      refine ⟨hsr, ?_⟩
      cases hx : (w.res s).next with
      | none => rfl
      | some n => rw [hx] at hn; simp at hn
  have hne : s1 ≠ w.ralloc := Nat.ne_of_lt hs1.1
  have htg := htgt hne
  subst htg
  refine Deliv.step_deliv hw hs hd heff (fun k hk => (hall k (Nat.ne_of_lt hk)).2.2.1)
    (fun k hk h1 h2 => absurd ((hall k (Nat.ne_of_lt hk)).2.2.2.1 h2) h1) (fun t ht => ?_)
  by_cases ht2 : t = w.talloc
  · subst ht2
    right
    refine ⟨le_refl _, ?_⟩
    intro s' outer inTy' tv' te' rr' f' hf' tail hch hn hu
    rw [htf] at hf'
    cases hf'
    have hn2 : (w2.res s1).next = none := by rw [(hall s1 hne).2.2.1]; exact hs1.2
    have ht := hch.eq_of_tail hn2
    subst ht
    have hu1 : (w.res tail).turns = none := (hall tail hne).2.2.2.1 hu
    have hslot : queueSlot w tail = .queue (w.res tail).manager := by
      simp [queueSlot, isResolved, hu1]
    rw [(hall tail hne).1, hslot, Function.update_same]
    exact List.mem_append_right _ (List.mem_singleton.2 rfl)
  · left
    have ht3 : t < w.talloc := by omega
    exact ⟨ht3, htfs t ht3⟩

theorem Forward_deliv {E0 : Nat → List Nat} {t0 : Nat} {w w2 : World}
    {el : Slot → List Nat} (hw : TWF w el) (hs : Safe w) (hd : Deliv E0 t0 w)
    {fuel s : Nat} {n : Option Nat} (h : Forward fuel s n w = .ok () w2) :
    Deliv E0 t0 w2 := by
  cases hst : (w.res s).turns with
  | none => simp [Forward, isResolved, hst] at h
  | some l =>
    cases n with
    | none => simp [Forward, isResolved, hst] at h
    | some nx =>
      simp only [Forward, isResolved, hst, Option.isNone_some, Bool.false_eq_true, if_false]
        at h
      split at h
      · cases h
      · cases hg : getShortest fuel nx w with
        | fault f w1 => rw [hg] at h; cases h
        | ok next w1 =>
          have hw1 : w = w1 := (getShortest_world hg).symm
          subst hw1
          rw [hg] at h
          simp only [hst] at h
          have hqo := queueList_queueOnly fuel h
          obtain ⟨heff, -, ha, hres, -⟩ := drain_effect hw hst _ rfl next fuel h
          have hnn : (w.res next).next = none := getShortest_next hg
          have hsn : (w.res s).next = none := by
            cases hx : (w.res s).next with
            | none => rfl
            | some y =>
              have := (hs.1.next s y hx).2.2
              rw [hst] at this
              cases this
          have hnext : ∀ k, k ≠ s → (w2.res k).next = (w.res k).next := by
            intro k hk
            rw [(hqo.res k).2.2.1]
            show (Function.update w.res s _ k).next = _
            rw [Function.update_noteq hk]
          have hturns : ∀ k, k ≠ s → ((w2.res k).turns = none ↔ (w.res k).turns = none) := by
            intro k hk
            rw [(hqo.res k).2.2.2]
            show (Function.update w.res s _ k).turns = none ↔ _
            rw [Function.update_noteq hk]
          have hmgr : ∀ k, k ≠ s → (w2.res k).manager = (w.res k).manager := by
            intro k hk
            rw [(hqo.res k).1]
            show (Function.update w.res s _ k).manager = _
            rw [Function.update_noteq hk]
          have hs2 : (w2.res s).next = some next := by rw [hres]
          refine ⟨Deliv.enq_ext heff.grow hd.1, ?_⟩
          intro t s0 outer inTy tv te rr f ht0 ht htf tail hch htn hu
          have ht1 : t < w.talloc := by rw [← allocs_talloc ha]; exact ht
          have htf1 : w.tf t = .whenTurn s0 outer inTy tv te rr f := by
            rw [← allocs_tf ha]; exact htf
          have hts : tail ≠ s := by
            intro e
            subst e
            rw [hs2] at htn
            cases htn
          have hu1 : (w.res tail).turns = none := (hturns tail hts).1 hu
          rw [hmgr tail hts]
          rcases Chain.split_at hnext hch with h1 | ⟨h1, h2⟩
          · have htn1 : (w.res tail).next = none := by rw [← hnext tail hts]; exact htn
            obtain ⟨add, e1, hm⟩ :=
              hd.2 t s0 outer inTy tv te rr f ht0 ht1 htf1 tail h1 htn1 hu1
            obtain ⟨add2, -, e2⟩ := heff.grow.queue (w.res tail).manager
            exact ⟨add ++ add2, by rw [e2, e1, List.append_assoc],
              List.mem_append_left _ hm⟩
          · have hst0 : (w.res s).turns ≠ none := by rw [hst]; simp
            have hmem := hs.awaiting hw t s0 outer inTy tv te rr f ht1 htf1 s h1 hsn hst0
            have h3 : Chain w2 next tail := by
              cases h2 with
              | refl => exact absurd rfl hts
              | step hx hr =>
                rw [hs2] at hx
                cases hx
                exact hr
            by_cases hns : next = s
            · subst hns
              exact absurd (Chain.eq_of_loop hs2 h3 rfl) hts
            · have hn2 : (w2.res next).next = none := by rw [hnext next hns]; exact hnn
              have he := h3.eq_of_tail hn2
              subst he
              have hslot : queueSlot { w with res := (Function.update w.res s
                  { w.res s with turns := none, outcome := .nil, next := some tail }) } tail =
                  .queue (w.res tail).manager := by
                simp [queueSlot, isResolved, Function.update_noteq hns, hu1]
              rw [hslot] at heff
              refine Deliv.mem_add heff.grow hd.1 ?_
                (hw.lists.disj (.pending s) (.queue _) (by simp) t hmem)
              rw [Function.update_same]
              exact List.mem_append_right _ hmem

theorem turnRunner.New_deliv {E0 : Nat → List Nat} {t0 : Nat} {w w2 : World}
    {el : Slot → List Nat} (hw : TWF w el) (hs : Safe w) (hd : Deliv E0 t0 w)
    {t : Runner} {fid : Nat} {f : Prog} {s : Nat} (h : turnRunner.New t fid f w = .ok s w2) :
    Deliv E0 t0 w2 := by
  obtain ⟨w1, id, wi, h1, h2, h3⟩ := turnRunner.New_parts h
  obtain ⟨hs1, he1, -, -, hr1⟩ := newTurnResolver_ok hw h1
  have hsafe1 := newTurnResolver_safe hw hs h1
  have hd1 := newTurnResolver_deliv hw hs hd h1
  obtain ⟨he2, -, -, -⟩ := Manager.NewID_ok he1.twf h2
  have hparts : wi.res = w1.res ∧ wi.tf = w1.tf ∧ wi.talloc = w1.talloc ∧
      wi.ralloc = w1.ralloc := by
    simp only [Manager.NewID, UniqueIDGenerator.NewID] at h2
    cases h2
    exact ⟨rfl, rfl, rfl, rfl⟩
  have hsafe2 : Safe wi := by
    simp only [Manager.NewID, UniqueIDGenerator.NewID] at h2
    cases h2
    refine Safe.step he1.twf hsafe1 he2.twf ?_ (fun _ _ => rfl) (fun _ _ h => h)
      (fun _ _ _ _ h => h) (fun t ht => Or.inl ⟨ht, rfl⟩)
    exact hsafe1.1.of_step (le_refl _) (le_refl _) (fun a n hn => Or.inl ⟨hn, fun h => h⟩)
      (fun t ht => Or.inl ⟨ht, rfl⟩)
  have hd2 : Deliv E0 t0 wi :=
    Deliv.same_deliv he1.twf hsafe1 hd1 he2 hparts.1 hparts.2.1 hparts.2.2.1
  have htc : ThunkClosed wi (.runnerNew s fid f) := by
    show s < wi.ralloc
    rw [hparts.2.2.2, hr1, hs1]
    exact Nat.lt_succ_self _
  exact Manager.NewTurn_delivers he2.twf hsafe2 hd2 htc (fun _ _ _ _ _ _ _ e => by cases e) h3

theorem exec_deliv {E0 : Nat → List Nat} {t0 : Nat} {fuel : Nat} (p : Prog) :
    ∀ {w w2 : World} {el : Slot → List Nat} {vals : List Iface}, TWF w el → Safe w →
      Deliv E0 t0 w → exec fuel p w = .ok vals w2 → Deliv E0 t0 w2 := by
  induction p with
  | ret vals =>
    intro w w2 el v hw hs hd h
    simp only [exec] at h
    obtain ⟨_, w0, h0, h1⟩ := bind_ok h
    obtain ⟨-, rfl⟩ := guardAlloc_ok h0
    cases h1
    exact hd
  | newResult m k ih =>
    intro w w2 el v hw hs hd h
    simp only [exec] at h
    split at h
    · cases h
    · next s w1 hx =>
      obtain ⟨_, w0, h0, h1⟩ := bind_ok hx
      obtain ⟨-, rfl⟩ := guardAlloc_ok h0
      obtain ⟨-, he, -⟩ := newTurnResolver_ok hw h1
      exact ih s he.twf (newTurnResolver_safe hw hs h1) (newTurnResolver_deliv hw hs hd h1) h
  | complete s v k ih =>
    intro w w2 el vals hw hs hd h
    simp only [exec] at h
    obtain ⟨_, w0, h0, h⟩ := bind_ok h
    obtain ⟨-, rfl⟩ := guardAlloc_ok h0
    obtain ⟨_, w1, h1, h⟩ := bind_ok h
    obtain ⟨el1, he, -⟩ := Complete_ok hw h1
    exact ih he.twf (Complete_safe hw hs h1) (Complete_deliv hw hs hd h1) h
  | fail s e k ih =>
    intro w w2 el vals hw hs hd h
    simp only [exec] at h
    obtain ⟨_, w0, h0, h⟩ := bind_ok h
    obtain ⟨-, rfl⟩ := guardAlloc_ok h0
    obtain ⟨_, w1, h1, h⟩ := bind_ok h
    obtain ⟨el1, he, -⟩ := Fail_ok hw h1
    exact ih he.twf (Fail_safe hw hs h1) (Fail_deliv hw hs hd h1) h
  | resolve s v e k ih =>
    intro w w2 el vals hw hs hd h
    simp only [exec] at h
    obtain ⟨_, w0, h0, h⟩ := bind_ok h
    obtain ⟨-, rfl⟩ := guardAlloc_ok h0
    obtain ⟨_, w1, h1, h⟩ := bind_ok h
    obtain ⟨el1, he, -⟩ := Resolve_ok hw h1
    exact ih he.twf (Resolve_safe hw hs h1) (Resolve_deliv hw hs hd h1) h
  | forward s n k ih =>
    intro w w2 el vals hw hs hd h
    simp only [exec] at h
    obtain ⟨_, w0, h0, h⟩ := bind_ok h
    obtain ⟨hg, rfl⟩ := guardAlloc_ok h0
    obtain ⟨_, w1, h1, h⟩ := bind_ok h
    obtain ⟨el1, he, -⟩ := Forward_ok hw h1
    have hg2 : s < w.ralloc ∧ ∀ a, n = some a → a < w.ralloc := by
      simp only [Bool.and_eq_true, decide_eq_true_eq] at hg
      refine ⟨hg.1, fun a ha => ?_⟩
      subst ha
      simpa using hg.2
    exact ih he.twf (Forward_safe hw hs hg2.1 hg2.2 h1) (Forward_deliv hw hs hd h1) h
  | «when» r inTy out outR fid sig fb k _ ih =>
    intro w w2 el vals hw hs hd h
    simp only [exec] at h
    split at h
    · cases h
    · next o w1 hx =>
      obtain ⟨_, w0, h0, h1⟩ := bind_ok hx
      obtain ⟨hg, rfl⟩ := guardAlloc_ok h0
      obtain ⟨_, _, _, _, _, -, -, -, he, -⟩ := WhenT_ok hw h1
      have hr : r < w.ralloc := by simpa using hg
      exact ih o he.twf (WhenT_safe hw hs hr (f := .user fid sig fb) trivial h1)
        (WhenT_deliv hw hs hd hr h1) h
  | newTurn m name body k _ ih =>
    intro w w2 el vals hw hs hd h
    simp only [exec] at h
    obtain ⟨_, w0, h0, h⟩ := bind_ok h
    obtain ⟨-, rfl⟩ := guardAlloc_ok h0
    obtain ⟨_, w1, h1, h⟩ := bind_ok h
    obtain ⟨he, -⟩ := Manager.NewTurn_effect hw h1
    have htc : ThunkClosed w (.user body) := trivial
    exact ih he.twf (Manager.NewTurn_keeps hw hs htc
      (fun _ _ _ _ _ _ _ e => by cases e) h1)
      (Manager.NewTurn_delivers hw hs hd htc (fun _ _ _ _ _ _ _ e => by cases e) h1) h
  | allocTurn name body k _ ih =>
    intro w w2 el vals hw hs hd h
    simp only [exec] at h
    obtain ⟨-, he, -⟩ :=
      NewTurn_ok hw (rfl : NewTurn name (.user body) w = .ok w.talloc _)
    have htc : ThunkClosed w (.user body) := trivial
    exact ih _ he.twf (NewTurn_safe hw hs htc (fun _ _ _ _ _ _ _ e => by cases e) rfl)
      (NewTurn_deliv hw hs hd (fun _ _ _ _ _ _ _ e => by cases e) rfl) h
  | queue m t k ih =>
    intro w w2 el vals hw hs hd h
    simp only [exec] at h
    obtain ⟨_, w0, h0, h⟩ := bind_ok h
    obtain ⟨hg, rfl⟩ := guardAlloc_ok h0
    obtain ⟨_, w1, h1, h⟩ := bind_ok h
    have hal : ∀ a, t = some a → a < w.talloc := fun a ha => by
      subst ha
      have : m < w.malloc ∧ a < w.talloc := by simpa using hg
      exact this.2
    obtain ⟨a, -, he, -⟩ := Manager.Queue_ok hw h1 hal
    exact ih he.twf (Manager.Queue_safe hw hs hal h1) (Manager.Queue_deliv hw hs hd hal h1) h
  | spawn runner fid f k _ ih =>
    intro w w2 el vals hw hs hd h
    simp only [exec] at h
    split at h
    · cases h
    · next s w1 hx =>
      obtain ⟨_, w0, h0, h1⟩ := bind_ok hx
      obtain ⟨-, rfl⟩ := guardAlloc_ok h0
      obtain ⟨el1, he, -⟩ := turnRunner.New_ok hw h1
      exact ih s he.twf (turnRunner.New_safe hw hs h1) (turnRunner.New_deliv hw hs hd h1) h

end Drydock


namespace Drydock

/-! ### Running a turn keeps the continuations of resolved results queued -/

theorem callFn_deliv {E0 : Nat → List Nat} {t0 : Nat} {w w2 : World}
    {el : Slot → List Nat} (hw : TWF w el) (hs : Safe w) (hd : Deliv E0 t0 w)
    {fuel : Nat} {f : Fn} {args rv : List Iface} (h : callFn fuel f args w = .ok rv w2) :
    Deliv E0 t0 w2 := by
  cases f with
  | user fid sig body =>
    replace h := (callFn_user_ok h).2
    obtain ⟨_, w1, h1, h2⟩ := bind_ok h
    simp only [logCall] at h1
    cases h1
    have hg : Effect w { w with calls := w.calls ++ [(fid, args)] } el el :=
      Effect.of_ghost hw rfl rfl rfl rfl rfl rfl rfl rfl
    exact exec_deliv _ hg.twf
      (Safe.by_frame hw hs hg.twf rfl rfl rfl rfl (le_refl _) (fun _ _ h => h))
      (Deliv.same_deliv hw hs hd hg rfl rfl rfl) h2
  | runUntilRecord cell =>
    simp only [callFn] at h
    split at h
    · cases h
      exact Deliv.same_deliv hw hs hd
        (@Effect.of_ghost _ _ el hw rfl rfl rfl rfl rfl rfl rfl rfl) rfl rfl rfl
    · cases h
  | finallyFn outR fid fb r =>
    simp only [callFn] at h
    obtain ⟨_, w1, h1, h2⟩ := bind_ok h
    simp only [logCall] at h1
    cases h1
    obtain ⟨_, w3, h3, h4⟩ := bind_ok h2
    cases h4
    have hg : Effect w { w with calls := w.calls ++ [(fid, [])] } el el :=
      Effect.of_ghost hw rfl rfl rfl rfl rfl rfl rfl rfl
    exact exec_deliv _ hg.twf
      (Safe.by_frame hw hs hg.twf rfl rfl rfl rfl (le_refl _) (fun _ _ h => h))
      (Deliv.same_deliv hw hs hd hg rfl rfl rfl) h3
  | actorResolve s =>
    simp only [callFn] at h
    split at h
    · next a =>
      cases hr : Resolve fuel s .nil a.asError w with
      | fault f w1 => rw [hr] at h; cases h
      | ok u w1 =>
        rw [hr] at h
        cases h
        exact Resolve_deliv hw hs hd hr
    · cases h

theorem runWhen_deliv {E0 : Nat → List Nat} {t0 : Nat} {w w2 : World}
    {el : Slot → List Nat} (hw : TWF w el) (hs : Safe w) (hd : Deliv E0 t0 w)
    {fuel s outer : Nat} {inTy : Ty} {tv te rr : Bool} {f : Fn}
    (h : runWhen fuel s outer inTy tv te rr f w = .ok () w2) : Deliv E0 t0 w2 := by
  unfold runWhen at h
  cases hg : getShortest fuel s w with
  | fault e w1 => rw [hg] at h; cases h
  | ok final w1 =>
    have hw1 : w = w1 := (getShortest_world hg).symm
    subst hw1
    rw [hg] at h
    simp only at h
    split at h
    · cases h
    · split at h
      · exact Fail_deliv hw hs hd h
      · split at h
        · cases h
        · next rv wc hc =>
          obtain ⟨el1, he1, -⟩ := callFn_ok hw hc
          have hs1 := callFn_safe hw hs hc
          have hd1 := callFn_deliv hw hs hd hc
          split at h
          · split at h
            · cases h
            · exact Forward_deliv he1.twf hs1 hd1 h
            · cases h
          · split at h
            · split at h
              · exact resolve_deliv he1.twf hs1 hd1 h
              · exact resolve_deliv he1.twf hs1 hd1 h
            · exact resolve_deliv he1.twf hs1 hd1 h
            · exact resolve_deliv he1.twf hs1 hd1 h

theorem runClient_deliv {E0 : Nat → List Nat} {t0 : Nat} {w w2 : World}
    {el : Slot → List Nat} (hw : TWF w el) (hs : Safe w) (hd : Deliv E0 t0 w)
    {fuel fid : Nat} {f : Prog} {rv : List Iface}
    (h : (logCall fid [] >>= fun _ => exec fuel f) w = .ok rv w2) : Deliv E0 t0 w2 := by
  obtain ⟨_, w1, h1, h2⟩ := bind_ok h
  simp only [logCall] at h1
  cases h1
  have hg : Effect w { w with calls := w.calls ++ [(fid, [])] } el el :=
    Effect.of_ghost hw rfl rfl rfl rfl rfl rfl rfl rfl
  exact exec_deliv _ hg.twf
    (Safe.by_frame hw hs hg.twf rfl rfl rfl rfl (le_refl _) (fun _ _ h => h))
    (Deliv.same_deliv hw hs hd hg rfl rfl rfl) h2

theorem runThunk_deliv {E0 : Nat → List Nat} {t0 : Nat} {w w2 : World}
    {el : Slot → List Nat} (hw : TWF w el) (hs : Safe w) (hd : Deliv E0 t0 w)
    {fuel : Nat} {th : Thunk} (hth : ThunkClosed w th)
    (h : runThunk fuel th w = .ok () w2) : Deliv E0 t0 w2 := by
  cases th with
  | user body =>
    simp only [runThunk] at h
    obtain ⟨_, w1, h1, h2⟩ := bind_ok h
    cases h2
    exact exec_deliv _ hw hs hd h1
  | whenTurn s outer inTy tv te rr f => exact runWhen_deliv hw hs hd h
  | runUntil main cell =>
    obtain ⟨hm, -⟩ := hth
    simp only [runThunk] at h
    obtain ⟨_, w1, h1, h2⟩ := bind_ok h
    cases h2
    exact WhenT_deliv hw hs hd hm h1
  | runnerNew s fid f =>
    simp only [runThunk] at h
    split at h
    · cases h
    · next rv w1 hx =>
      obtain ⟨el1, he1, -⟩ := runClient_ok hw hx
      split at h
      · exact Forward_deliv he1.twf (runClient_safe hw hs hx) (runClient_deliv hw hs hd hx) h
      · cases h
  | actorMain s fid root =>
    simp only [runThunk] at h
    split at h
    · cases h
    · next rv w1 hx =>
      obtain ⟨el1, he1, -⟩ := runClient_ok hw hx
      obtain ⟨hc1, hv⟩ := runClient_client hx
      split at h
      · next ty x rest =>
        split at h
        · cases h
        · next o w3 hy =>
          cases h
          have hxr : x < w1.ralloc := by
            simp only [List.all_cons, resultAlloc, Bool.and_eq_true, decide_eq_true_eq] at hv
            exact hv.1
          exact WhenT_deliv he1.twf (runClient_safe hw hs hx) (runClient_deliv hw hs hd hx)
            hxr hy
      · cases h
      · cases h
  | ioResult s cell =>
    simp only [runThunk] at h
    exact Resolve_deliv hw hs hd h

theorem Run_safe {w w2 : World} {el : Slot → List Nat} (hw : TWF w el) (hs : Safe w)
    {fuel t : Nat} (ht : t < w.talloc) (h : Run fuel (some t) w = .ok () w2) : Safe w2 := by
  have hg := @Run_good _ _ hw hs fuel t ht
  rw [h] at hg
  exact hg

theorem Run_deliv {E0 : Nat → List Nat} {t0 : Nat} {w w2 : World}
    {el : Slot → List Nat} (hw : TWF w el) (hs : Safe w) (hd : Deliv E0 t0 w)
    {fuel t : Nat} (ht : t < w.talloc) (h : Run fuel (some t) w = .ok () w2) :
    Deliv E0 t0 w2 := by
  have h2 := Run_thunk h
  have hg : Effect w { w with ran := w.ran ++ [t] } el el :=
    Effect.of_ghost hw rfl rfl rfl rfl rfl rfl rfl rfl
  have hs2 : Safe { w with ran := w.ran ++ [t] } :=
    Safe.by_frame hw hs hg.twf rfl rfl rfl rfl (le_refl _) (fun _ _ h => h)
  exact runThunk_deliv hg.twf hs2 (Deliv.same_deliv hw hs hd hg rfl rfl rfl)
    ((hs.1.thunks t ht).mono_thunk (le_refl _) (le_refl _)) h2

/-! ### The variable `mainExited` -/

theorem cells_of_client {w w2 : World} (hc : Client w w2) (c : Nat)
    (h : (w.cells c).isSome = true) : (w2.cells c).isSome = true := by
  rw [hc.cells]; exact h

/-- What the function of a turn does to the variables `mainExited`: a variable that is set
stays set, a recording continuation sets its variable, and the turn of `RunUntil` allocates
a recording continuation. -/
theorem runThunk_cells {w w2 : World} {fuel : Nat}
    {th : Thunk} (hth : ThunkClosed w th) (h : runThunk fuel th w = .ok () w2) :
    (∀ c, (w.cells c).isSome = true → (w2.cells c).isSome = true) ∧
      (∀ s outer inTy tv te rr c, th = .whenTurn s outer inTy tv te rr (.runUntilRecord c) →
        (w2.cells c).isSome = true) ∧
      (∀ main c, th = .runUntil main c → ∃ s outer inTy tv te rr,
        w2.tf w.talloc = .whenTurn s outer inTy tv te rr (.runUntilRecord c) ∧
          w.talloc < w2.talloc) := by
  cases th with
  | user body =>
    simp only [runThunk] at h
    obtain ⟨_, w1, h1, h2⟩ := bind_ok h
    cases h2
    obtain ⟨hcl, -⟩ := exec_client _ h1
    exact ⟨cells_of_client hcl, fun _ _ _ _ _ _ _ e => (by cases e), fun _ _ e => by cases e⟩
  | whenTurn s outer inTy tv te rr f =>
    obtain ⟨hs1, ho, hf, out, outR, hv⟩ := hth
    by_cases hnr : ∀ c, f ≠ .runUntilRecord c
    · have hcl := runWhen_client ho hf hnr h
      exact ⟨cells_of_client hcl, fun _ _ _ _ _ _ c e => (by
        cases e; exact absurd rfl (hnr c)), fun _ _ e => by cases e⟩
    · push_neg at hnr
      obtain ⟨c, rfl⟩ := hnr
      obtain ⟨rfl, rfl, rfl⟩ := validate_record hv
      simp only [runThunk] at h
      unfold runWhen at h
      cases hg : getShortest fuel s w with
      | fault e w1 => rw [hg] at h; cases h
      | ok final w1 =>
        have hw1 : w = w1 := (getShortest_world hg).symm
        subst hw1
        rw [hg] at h
        simp only at h
        split at h
        · cases h
        · next hres =>
          simp only [Bool.not_true, Bool.false_and, Bool.false_eq_true, if_false, if_true,
            List.nil_append, callFn, asError_ofError] at h
          obtain ⟨X, hX⟩ : ∃ X, X = exitOf (w.res final).outcome.asError := ⟨_, rfl⟩
          have h : resolve fuel outer (ofError (w.res final).outcome.asError)
              { w with cells := Function.update w.cells c (some X) } = .ok () w2 := by
            rw [hX]; exact h
          have hcl := resolve_client h
          have hcells : w2.cells = Function.update w.cells c (some X) := hcl.cells
          refine ⟨fun c2 h2 => ?_, fun _ _ _ _ _ _ c2 e => ?_, fun _ _ e => by cases e⟩
          · rw [hcells]
            by_cases hc2 : c2 = c
            · subst hc2; simp
            · rw [Function.update_noteq hc2]; exact h2
          · cases e
            rw [hcells]
            simp
  | runUntil main2 c =>
    simp only [runThunk] at h
    obtain ⟨o, w1, h1, h2⟩ := bind_ok h
    cases h2
    obtain ⟨tv, te, rr, s1, -, hsrc, -, htf, hst2, hta, -, hq, htfs, hcl⟩ := WhenT_inv h1
    refine ⟨fun c2 h2 => (by rw [quiet_cells hq]; exact h2), fun _ _ _ _ _ _ _ e => (by cases e),
      fun m2 c2 e => ?_⟩
    cases e
    exact ⟨s1, w.ralloc, _, tv, te, rr, htf, by omega⟩
  | runnerNew s fid f =>
    simp only [runThunk] at h
    cases hx : (logCall fid [] >>= fun _ => exec fuel f) w with
    | fault e w1 => rw [hx] at h; cases h
    | ok rv w1 =>
      rw [hx] at h
      obtain ⟨hc1, hv⟩ := runClient_client hx
      simp only at h
      split at h
      · next ty n rest =>
        have hth2 : s < w.ralloc := hth
        have hcl := hc1.trans_client (Forward_client (lt_of_lt_of_le hth2 hc1.ralloc)
          (fun a ha => by
            subst ha
            simp only [List.all_cons, resultAlloc, Bool.and_eq_true, decide_eq_true_eq] at hv
            exact hv.1) h)
        exact ⟨cells_of_client hcl, fun _ _ _ _ _ _ _ e => (by cases e),
          fun _ _ e => by cases e⟩
      · cases h
  | actorMain s fid root =>
    simp only [runThunk] at h
    cases hx : (logCall fid [] >>= fun _ => exec fuel root) w with
    | fault e w1 => rw [hx] at h; cases h
    | ok rv w1 =>
      rw [hx] at h
      obtain ⟨hc1, hv⟩ := runClient_client hx
      simp only at h
      split at h
      · next ty x rest =>
        cases hy : WhenT fuel x .iface .iface .R (.actorResolve s) w1 with
        | fault e w3 => rw [hy] at h; cases h
        | ok o w3 =>
          rw [hy] at h
          cases h
          have hth2 : s < w.ralloc := hth
          have hxr : x < w1.ralloc := by
            simp only [List.all_cons, resultAlloc, Bool.and_eq_true, decide_eq_true_eq] at hv
            exact hv.1
          have hfc : FnClosed w1 (.actorResolve s) := lt_of_lt_of_le hth2 hc1.ralloc
          have hcl := hc1.trans_client (WhenT_client hxr hfc (fun c hcc => by cases hcc) hy)
          exact ⟨cells_of_client hcl, fun _ _ _ _ _ _ _ e => (by cases e),
            fun _ _ e => by cases e⟩
      · cases h
      · cases h
  | ioResult s c =>
    simp only [runThunk] at h
    have hcl := Resolve_client h
    exact ⟨cells_of_client hcl, fun _ _ _ _ _ _ _ e => (by cases e), fun _ _ e => by cases e⟩

theorem Run_track {R0 : List Nat} {t0 cell : Nat} {w w2 : World} {el : Slot → List Nat}
    (hw : TWF w el) (hc : Closed w) (hk : Track R0 t0 cell w) {fuel t : Nat}
    (ht : t < w.talloc) (h : Run fuel (some t) w = .ok () w2) : Track R0 t0 cell w2 := by
  obtain ⟨_, el2, hte, he, -, hran⟩ := Run_ok hw h
  cases hte
  have h2 := Run_thunk h
  have hg : Effect w { w with ran := w.ran ++ [t] } el el :=
    Effect.of_ghost hw rfl rfl rfl rfl rfl rfl rfl rfl
  obtain ⟨hc1, hc2, hc3⟩ := runThunk_cells (w := { w with ran := w.ran ++ [t] })
    ((hc.thunks t ht).mono_thunk (le_refl _) (le_refl _)) h2
  obtain ⟨⟨hs1, main, hs2⟩, r, hr, hal, hk1, hk2⟩ := hk
  have htf := he.grow.tf
  have hta := he.grow.talloc
  refine ⟨⟨lt_of_lt_of_le hs1 hta, main, by rw [htf t0 hs1]; exact hs2⟩, r ++ [t],
    by rw [hran, hr, List.append_assoc], fun x hx => ?_, fun hx => ?_,
    fun x s outer inTy tv te rr hx hxf => ?_⟩
  · rcases List.mem_append.1 hx with h1 | h1
    · exact lt_of_lt_of_le (hal x h1) hta
    · rw [List.mem_singleton.1 h1]
      exact lt_of_lt_of_le ht hta
  · rcases List.mem_append.1 hx with h1 | h1
    · obtain ⟨t1, s, outer, inTy, tv, te, rr, h3, h4, h5⟩ := hk1 h1
      exact ⟨t1, s, outer, inTy, tv, te, rr, h3, lt_of_lt_of_le h4 hta,
        by rw [htf t1 h4]; exact h5⟩
    · have e := List.mem_singleton.1 h1
      subst e
      obtain ⟨s, outer, inTy, tv, te, rr, h3, h4⟩ := hc3 main cell hs2
      exact ⟨w.talloc, s, outer, inTy, tv, te, rr, le_of_lt hs1, h4, h3⟩
  · rcases List.mem_append.1 hx with h1 | h1
    · have hxt := hal x h1
      rw [htf x hxt] at hxf
      exact hc1 cell (hk2 x s outer inTy tv te rr h1 hxf)
    · have e := List.mem_singleton.1 h1
      subst e
      rw [htf x ht] at hxf
      exact hc2 s outer inTy tv te rr cell hxf

theorem Run_going {E0 : Nat → List Nat} {R0 : List Nat} {t0 cell main : Nat} {w w2 : World}
    {el : Slot → List Nat} (hw : TWF w el) (hg : Going E0 R0 t0 cell main w)
    {fuel t : Nat} (ht : t < w.talloc) (h : Run fuel (some t) w = .ok () w2) :
    Going E0 R0 t0 cell main w2 :=
  ⟨Run_safe hw hg.safe ht h, Run_deliv hw hg.safe hg.deliv ht h,
    (Run_inv hw hg.safe.1 hg.inv ht h).2, Run_track hw hg.safe.1 hg.track ht h⟩

end Drydock


namespace Drydock

/-! ### The cycles of `RunUntil` -/

theorem Deliv.frame_deliv {E0 : Nat → List Nat} {t0 : Nat} {w w2 : World} (hd : Deliv E0 t0 w)
    (hres : ∀ k, (w2.res k).manager = (w.res k).manager ∧
      (w2.res k).next = (w.res k).next ∧ ((w2.res k).turns = none ↔ (w.res k).turns = none))
    (h3 : w2.tf = w.tf) (h4 : w2.talloc = w.talloc)
    (henq : ∀ m, ∃ add, w2.enq m = w.enq m ++ add) : Deliv E0 t0 w2 := by
  refine ⟨fun m => ?_, ?_⟩
  · obtain ⟨a, ha⟩ := hd.1 m
    obtain ⟨add, e⟩ := henq m
    exact ⟨a ++ add, by rw [e, ha, List.append_assoc]⟩
  · intro t s outer inTy tv te rr f ht0 ht htf tail hch hn hu
    rw [h3] at htf
    rw [h4] at ht
    have hch1 : Chain w s tail :=
      Chain.congr_next (fun x n hx => by rw [← (hres x).2.1]; exact hx) hch
    obtain ⟨add, e1, hm⟩ := hd.2 t s outer inTy tv te rr f ht0 ht htf tail hch1
      (by rw [← (hres tail).2.1]; exact hn) ((hres tail).2.2.1 hu)
    obtain ⟨add2, e2⟩ := henq (w.res tail).manager
    rw [(hres tail).1]
    exact ⟨add ++ add2, by rw [e2, e1, List.append_assoc], List.mem_append_left _ hm⟩

theorem Track.same_track {R0 : List Nat} {t0 cell : Nat} {w w2 : World}
    (hk : Track R0 t0 cell w) (h3 : w2.tf = w.tf) (h4 : w2.talloc = w.talloc)
    (h5 : w2.cells = w.cells) (h7 : w2.ran = w.ran) : Track R0 t0 cell w2 := by
  obtain ⟨⟨hs1, main2, hs2⟩, r, hr, hal, hk1, hk2⟩ := hk
  refine ⟨⟨by rw [h4]; exact hs1, main2, by rw [h3]; exact hs2⟩, r, by rw [h7]; exact hr,
    fun x hx => by rw [h4]; exact hal x hx, fun hx => ?_,
    fun x s outer inTy tv te rr hx hxf => ?_⟩
  · obtain ⟨t1, s, outer, inTy, tv, te, rr, h8, h9, h10⟩ := hk1 hx
    exact ⟨t1, s, outer, inTy, tv, te, rr, h8, by rw [h4]; exact h9, by rw [h3]; exact h10⟩
  · rw [h5]
    rw [h3] at hxf
    exact hk2 x s outer inTy tv te rr hx hxf

/-- A step that only moves turns between lists keeps the invariant, if it keeps the
continuations of unresolved results pending. -/
theorem Going.frame_going {E0 : Nat → List Nat} {R0 : List Nat} {t0 cell main : Nat}
    {w w2 : World} (hg : Going E0 R0 t0 cell main w) (hs2 : Safe w2) (hcl : Client w w2)
    (hst : Stable w w2)
    (hres : ∀ k, (w2.res k).manager = (w.res k).manager ∧
      (w2.res k).next = (w.res k).next ∧ ((w2.res k).turns = none ↔ (w.res k).turns = none))
    (h3 : w2.tf = w.tf) (h4 : w2.talloc = w.talloc) (h7 : w2.ran = w.ran)
    (henq : ∀ m, ∃ add, w2.enq m = w.enq m ++ add) : Going E0 R0 t0 cell main w2 :=
  ⟨hs2, hg.deliv.frame_deliv hres h3 h4 henq, hg.inv.of_client hg.safe.1 hst hcl,
    hg.track.same_track h3 h4 hcl.cells h7⟩

theorem quiet_malloc {w w2 : World} (h : w2.quiet = w.quiet) : w2.malloc = w.malloc :=
  congrArg (fun q => q.2.2.2.2.2.2.2.2.2.2.1) h

theorem tf_trans {w w1 w2 : World}
    (h1 : w.talloc ≤ w1.talloc ∧ ∀ t, t < w.talloc → w1.tf t = w.tf t)
    (h2 : w1.talloc ≤ w2.talloc ∧ ∀ t, t < w1.talloc → w2.tf t = w1.tf t) :
    w.talloc ≤ w2.talloc ∧ ∀ t, t < w.talloc → w2.tf t = w.tf t :=
  ⟨le_trans h1.1 h2.1, fun t ht => by rw [h2.2 t (lt_of_lt_of_le ht h1.1), h1.2 t ht]⟩

theorem tf_of_eq {w w2 : World} (h1 : w2.talloc = w.talloc) (h2 : w2.tf = w.tf) :
    w.talloc ≤ w2.talloc ∧ ∀ t, t < w.talloc → w2.tf t = w.tf t :=
  ⟨le_of_eq h1.symm, fun t _ => by rw [h2]⟩

theorem enqAdd_cons (m x : Nat) (rest : List Nat) (enq : Nat → List Nat) :
    enqAdd (.queue m) rest (enqAdd (.queue m) [x] enq) = enqAdd (.queue m) (x :: rest) enq := by
  funext k
  by_cases hk : k = m
  · subst hk
    simp [enqAdd]
  · simp [enqAdd, Function.update_noteq hk]

theorem ingestList_enq (m : Nat) (n : Nat) :
    ∀ {w w2 : World} {el : Slot → List Nat} {list : Option Nat} {xs : List Nat}, TWF w el →
      Ring w.tnext list xs → (∀ i, ∀ t ∈ xs, t ∉ el i) →
      ingestList m n list w = .ok () w2 → w2.enq = enqAdd (.queue m) xs w.enq := by
  have hnil : ∀ enq : Nat → List Nat, enqAdd (.queue m) [] enq = enq := by
    intro enq
    funext k
    by_cases hk : k = m
    · subst hk; simp [enqAdd]
    · simp [enqAdd, Function.update_noteq hk]
  induction n with
  | zero =>
    intro w w2 el list xs hw hr _ h
    simp only [ingestList] at h
    split at h
    · next he =>
      cases h
      have := Ring_isEmpty hr he
      subst this
      exact (hnil _).symm
    · cases h
  | succ n ih =>
    intro w w2 el list xs hw hr hun h
    simp only [ingestList] at h
    split at h
    · next he =>
      cases h
      have := Ring_isEmpty hr he
      subst this
      exact (hnil _).symm
    · next hne =>
      cases xs with
      | nil =>
        exfalso; apply hne
        rw [(Ring_nil_iff _ _).1 hr]; rfl
      | cons x rest =>
        obtain ⟨z, hz⟩ := Ring_linked hr x (by simp)
        have hx0 : x ≠ Empty := fun e => hr.2.2.2 (by simp [e])
        have hxr : x ∉ rest := (List.nodup_cons.1 hr.2.2.1).1
        obtain ⟨h2, l2, he, hr2, hx, hwf, hfr⟩ := hw.lists.removeHead_local hr hun
        have hwa : TWF { w with tnext := h2 } el := hw.setTnext hwf (fun y hy => by
          rw [hfr y (fun hm => ?_)]
          · exact hy
          · obtain ⟨z, hz⟩ := Ring_linked hr y hm
            rw [hy] at hz; cases hz)
        obtain ⟨wb, hqe, hwb, hqo, hfrb, henqb, -⟩ :=
          Manager.Queue_spec hwa m (a := x) hx0 hx (hw.lt_talloc hz)
        rw [he] at h
        simp only [hqe] at h
        have hr3 : Ring wb.tnext l2 rest :=
          Ring_congr (fun y hy => hfrb y (fun e => hxr (e ▸ hy))
            (hun _ y (List.mem_cons_of_mem _ hy))) hr2
        have hun3 : ∀ i, ∀ t ∈ rest,
            t ∉ Function.update el (.queue m) (el (.queue m) ++ [x]) i := by
          intro i t ht
          by_cases hi : i = .queue m
          · subst hi
            rw [Function.update_same]
            intro hm
            rcases List.mem_append.1 hm with hm | hm
            · exact hun _ t (List.mem_cons_of_mem _ ht) hm
            · simp only [List.mem_singleton] at hm
              exact hxr (hm ▸ ht)
          · rw [Function.update_noteq hi]
            exact hun i t (List.mem_cons_of_mem _ ht)
        have := ih hwb hr3 hun3 h
        rw [this, henqb]
        exact enqAdd_cons m x rest w.enq

theorem ingestSources_going {E0 : Nat → List Nat} {R0 : List Nat} {t0 cell main m inner : Nat}
    (n : Nat) :
    ∀ {w w2 : World} {el : Slot → List Nat}, TWF w el → Going E0 R0 t0 cell main w →
      ingestSources inner m n w = .ok () w2 →
      ∃ el2 ing, TWF w2 el2 ∧ Going E0 R0 t0 cell main w2 ∧
        el2 (.queue m) = el (.queue m) ++ ing ∧ w2.enq m = w.enq m ++ ing ∧
        w2.ran = w.ran ∧ Stable w w2 ∧ w2.talloc = w.talloc ∧ w2.tf = w.tf ∧
        (∀ k, (w2.res k).manager = (w.res k).manager ∧
          ((w2.res k).turns = none ↔ (w.res k).turns = none)) ∧
        w2.ralloc = w.ralloc ∧ w2.malloc = w.malloc := by
  induction n with
  | zero => intro w w2 el _ _ h; cases h
  | succ n ih =>
    intro w w2 el hw hg h
    simp only [ingestSources] at h
    split at h
    · cases h
    · next wa ha =>
      cases h
      have hc := choose_core ha
      have hwa : TWF w2 el := TWF.of_core hc hw
      simp only [World.core, Prod.mk.injEq] at hc
      obtain ⟨h1, h2, h3, h4, h5, h6, h7, h8, h9, h10, h11, h12, h13⟩ := hc
      have hsa : Safe w2 :=
        Safe.by_frame hw hg.safe hwa h5 h6 h2 h4 (le_of_eq h9.symm) (fun _ _ h => h)
      exact ⟨el, [], hwa, hg.frame_going hsa (Client.of_heap h5 h6 h2 h4 h8 h9)
        (Stable.of_eq h5 h6) (fun k => by rw [h5]; exact ⟨rfl, rfl, Iff.rfl⟩) h2 h4 h11
        (fun k => ⟨[], by rw [h12]; simp⟩), by simp, by rw [h12]; simp, h11,
        Stable.of_eq h5 h6, h4, h2, fun k => by rw [h5]; exact ⟨rfl, Iff.rfl⟩, h6,
        choose_malloc ha⟩
    · next e wa ha =>
      have hc := choose_core ha
      have hwa : TWF wa el := TWF.of_core hc hw
      simp only [World.core, Prod.mk.injEq] at hc
      obtain ⟨h1, h2, h3, h4, h5, h6, h7, h8, h9, h10, h11, h12, h13⟩ := hc
      have hsa : Safe wa :=
        Safe.by_frame hw hg.safe hwa h5 h6 h2 h4 (le_of_eq h9.symm) (fun _ _ h => h)
      have hga : Going E0 R0 t0 cell main wa :=
        hg.frame_going hsa (Client.of_heap h5 h6 h2 h4 h8 h9)
          (Stable.of_eq h5 h6) (fun k => by rw [h5]; exact ⟨rfl, rfl, Iff.rfl⟩) h2 h4 h11
          (fun k => ⟨[], by rw [h12]; simp⟩)
      simp only [turnSource.getAllTurns] at h
      split at h
      · cases h
      · next u wc hi =>
        obtain ⟨wsrc, hwsrc⟩ : ∃ x : World, x = { wa with src := (Function.update wa.src
            (wa.ev e).data { wa.src (wa.ev e).data with list := some Empty }) } := ⟨_, rfl⟩
        rw [← hwsrc] at hi
        have hring : Ring wa.tnext (wa.src (wa.ev e).data).list
            (el (.source (wa.ev e).data)) := hwa.lists.rings (.source _) _ rfl
        have hwb : TWF wsrc
            (Function.update el (.source (wa.ev e).data) []) := by
          subst hwsrc
          refine ⟨?_, hwa.empty, hwa.fresh, hwa.pos⟩
          rw [show handle _ = _ from handle_setSource wa (wa.ev e).data (some Empty)]
          exact hwa.lists.release _ _ (Or.inr rfl)
        have hun : ∀ i, ∀ t ∈ el (.source (wa.ev e).data),
            t ∉ Function.update el (.source (wa.ev e).data) [] i := by
          intro i t ht
          by_cases hi2 : i = .source (wa.ev e).data
          · subst hi2; simp
          · rw [Function.update_noteq hi2]
            exact hwa.lists.disj _ _ (Ne.symm hi2) t ht
        have hring2 : Ring wsrc.tnext (wa.src (wa.ev e).data).list
            (el (.source (wa.ev e).data)) := by
          subst hwsrc; exact hring
        have hsb : Safe wsrc := by
          subst hwsrc
          refine Safe.by_frame hwa hsa hwb rfl rfl rfl rfl (le_refl _) (fun k t ht => ?_)
          have hne : Slot.pending k ≠ Slot.source (wa.ev e).data := by simp
          rw [Function.update_noteq hne]
          exact ht
        have hgb : Going E0 R0 t0 cell main wsrc := by
          subst hwsrc
          exact hga.frame_going hsb (Client.of_heap rfl rfl rfl rfl rfl rfl)
            (Stable.of_eq rfl rfl) (fun k => ⟨rfl, rfl, Iff.rfl⟩) rfl rfl rfl
            (fun k => ⟨[], by simp⟩)
        have heb : wsrc.enq = wa.enq ∧ wsrc.ran = wa.ran ∧ Stable wa wsrc := by
          subst hwsrc
          exact ⟨rfl, rfl, Stable.of_eq rfl rfl⟩
        obtain ⟨hwc, hqo⟩ := ingestList_ok m inner hwb hring2 hun hi
        have henq := ingestList_enq m inner hwb hring2 hun hi
        have hsc : Safe wc := by
          refine Safe.by_queues hwb hsb hqo hwc (fun k t ht => ?_)
          have hne : Slot.pending k ≠ Slot.queue m := by simp
          rw [Function.update_noteq hne]
          exact ht
        have hgc : Going E0 R0 t0 cell main wc := by
          refine hgb.frame_going hsc (Client.from_queueOnly hqo) hqo.to_stable
            (fun k => ⟨(hqo.res k).1, (hqo.res k).2.2.1, (hqo.res k).2.2.2⟩)
            (allocs_tf hqo.allocs) (allocs_talloc hqo.allocs) (quiet_ran hqo.quiet)
            (fun k => ?_)
          rw [henq]
          by_cases hk : k = m
          · subst hk
            exact ⟨el (.source (wa.ev e).data), by simp [enqAdd]⟩
          · exact ⟨[], by simp [enqAdd, Function.update_noteq hk]⟩
        obtain ⟨el2, ing, hw2, hg2, hel2, he2, hr2, hst2, hta2, htf2, hres2, hral2, hmal2⟩ :=
          ih hwc hgc h
        have hab : wsrc.talloc = wa.talloc ∧ wsrc.tf = wa.tf ∧ wsrc.res = wa.res ∧
            wsrc.ralloc = wa.ralloc ∧ wsrc.malloc = wa.malloc := by
          subst hwsrc
          exact ⟨rfl, rfl, rfl, rfl, rfl⟩
        refine ⟨el2, el (.source (wa.ev e).data) ++ ing, hw2, hg2, ?_, ?_, ?_, ?_,
          by rw [hta2, allocs_talloc hqo.allocs, hab.1, h4],
          by rw [htf2, allocs_tf hqo.allocs, hab.2.1, h2], fun k => ?_,
          by rw [hral2, allocs_ralloc hqo.allocs, hab.2.2.2.1, h6],
          by rw [hmal2, quiet_malloc hqo.quiet, hab.2.2.2.2, choose_malloc ha]⟩
        · rw [hel2, Function.update_same]
          have hne : Slot.queue m ≠ Slot.source (wa.ev e).data := by simp
          rw [Function.update_noteq hne, List.append_assoc]
        · rw [he2, henq, heb.1, h12]
          simp [enqAdd, List.append_assoc]
        · rw [hr2, quiet_ran hqo.quiet, heb.2.1, h11]
        · exact (((Stable.of_eq h5 h6).trans_stable heb.2.2).trans_stable
            hqo.to_stable).trans_stable hst2
        · rw [(hres2 k).1, (hqo.res k).1, hab.2.2.1, h5, (hres2 k).2, (hqo.res k).2.2.2,
            hab.2.2.1, h5]
          exact ⟨rfl, Iff.rfl⟩

theorem runSnapshot_going {E0 : Nat → List Nat} {R0 : List Nat} {t0 cell main : Nat}
    (inner : Nat) (n : Nat) :
    ∀ {w w2 : World} {el : Slot → List Nat} {list : Option Nat} {xs : List Nat}, TWF w el →
      Going E0 R0 t0 cell main w → Ring w.tnext list xs → (∀ i, ∀ t ∈ xs, t ∉ el i) →
      runSnapshot inner n list w = .ok () w2 → Going E0 R0 t0 cell main w2 ∧
        w.talloc ≤ w2.talloc ∧ ∀ t, t < w.talloc → w2.tf t = w.tf t := by
  induction n with
  | zero =>
    intro w w2 el list xs hw hg _ _ h
    simp only [runSnapshot] at h
    split at h
    · cases h; exact ⟨hg, tf_of_eq rfl rfl⟩
    · cases h
  | succ n ih =>
    intro w w2 el list xs hw hg hr hun h
    simp only [runSnapshot] at h
    split at h
    · cases h; exact ⟨hg, tf_of_eq rfl rfl⟩
    · next hne =>
      cases xs with
      | nil =>
        exfalso; apply hne
        rw [(Ring_nil_iff _ _).1 hr]; rfl
      | cons x rest =>
        obtain ⟨z, hz⟩ := Ring_linked hr x (by simp)
        obtain ⟨h2, l2, he, hr2, hx, hwf, hfr⟩ := hw.lists.removeHead_local hr hun
        rw [he] at h
        simp only at h
        have hwa : TWF { w with tnext := h2 } el := hw.setTnext hwf (fun y hy => by
          rw [hfr y (fun hm => ?_)]
          · exact hy
          · obtain ⟨z, hz⟩ := Ring_linked hr y hm
            rw [hy] at hz; cases hz)
        have hsa : Safe { w with tnext := h2 } :=
          Safe.by_frame hw hg.safe hwa rfl rfl rfl rfl (le_refl _) (fun _ _ h => h)
        have hga : Going E0 R0 t0 cell main { w with tnext := h2 } :=
          hg.frame_going hsa (Client.of_heap rfl rfl rfl rfl rfl rfl) (Stable.of_eq rfl rfl)
            (fun k => ⟨rfl, rfl, Iff.rfl⟩) rfl rfl rfl (fun k => ⟨[], by simp⟩)
        split at h
        · cases h
        · next u wb hb =>
          obtain ⟨t, elb, hte, heb, -, -⟩ := Run_ok hwa hb
          cases hte
          have hgb := Run_going hwa hga (hw.lt_talloc hz) hb
          have hlinked : ∀ y ∈ rest, h2 y ≠ none := fun y hy e => by
            obtain ⟨z, hz⟩ := Ring_linked hr2 y hy
            rw [e] at hz; cases hz
          have hr3 : Ring wb.tnext l2 rest :=
            Ring_congr (fun y hy => heb.grow.frame y (hlinked y hy)
              (fun i hm => hun i y (List.mem_cons_of_mem _ hy) hm)) hr2
          have hun3 : ∀ i, ∀ y ∈ rest, y ∉ elb i := by
            intro i y hy hm
            rcases heb.grow.origin i y hm with ⟨j, hj⟩ | hd
            · exact hun j y (List.mem_cons_of_mem _ hy) hj
            · exact hlinked y hy hd
          obtain ⟨hg2, htf2⟩ := ih heb.twf hgb hr3 hun3 h
          exact ⟨hg2, @tf_trans _ wb _ ⟨heb.grow.talloc, heb.grow.tf⟩ htf2⟩

/-- A cycle of the manager keeps the invariant; it runs the turns that were in the queue and
those taken from the sources, and leaves in the queue the turns appended while they ran. -/
theorem runOneLoop_going {E0 : Nat → List Nat} {R0 : List Nat} {t0 cell main fuel m : Nat}
    {w w2 : World} {el : Slot → List Nat} (hw : TWF w el) (hg : Going E0 R0 t0 cell main w)
    (h : Manager.runOneLoop fuel m w = .ok () w2) :
    ∃ el2 ing, TWF w2 el2 ∧ Going E0 R0 t0 cell main w2 ∧ Stable w w2 ∧
      w2.ran = w.ran ++ (el (.queue m) ++ ing) ∧
      w2.enq m = w.enq m ++ (ing ++ el2 (.queue m)) ∧
      w.talloc ≤ w2.talloc ∧ ∀ t, t < w.talloc → w2.tf t = w.tf t := by
  unfold Manager.runOneLoop at h
  split at h
  · cases h
  · next u w1 h1 =>
    obtain ⟨el1, ing, hw1, hg1, hel1, he1, hr1, hst1, hta1, htf1, -⟩ :=
      ingestSources_going fuel hw hg h1
    obtain ⟨ws, hws⟩ : ∃ x : World, x = { w1 with mgr := (Function.update w1.mgr m
        { w1.mgr m with turns := some Empty }) } := ⟨_, rfl⟩
    rw [← hws] at h
    have hring : Ring ws.tnext (w1.mgr m).turns (el1 (.queue m)) := by
      subst hws; exact hw1.lists.rings (.queue m) _ rfl
    have hwts : TWF ws (Function.update el1 (.queue m) []) := by
      subst hws
      refine ⟨?_, hw1.empty, hw1.fresh, hw1.pos⟩
      have := handle_setQueue w1 m (some Empty) w1.tnext w1.enq
      rw [show handle { w1 with mgr := (Function.update w1.mgr m
        { w1.mgr m with turns := some Empty }) } = _ from this]
      exact hw1.lists.release _ _ (Or.inr rfl)
    have hun : ∀ i, ∀ t ∈ el1 (.queue m), t ∉ Function.update el1 (.queue m) [] i := by
      intro i t ht
      by_cases hi2 : i = .queue m
      · subst hi2; simp
      · rw [Function.update_noteq hi2]
        exact hw1.lists.disj _ _ (Ne.symm hi2) t ht
    have hss : Safe ws := by
      subst hws
      refine Safe.by_frame hw1 hg1.safe hwts rfl rfl rfl rfl (le_refl _) (fun k t ht => ?_)
      have hne : Slot.pending k ≠ Slot.queue m := by simp
      rw [Function.update_noteq hne]
      exact ht
    have hgs : Going E0 R0 t0 cell main ws := by
      subst hws
      exact hg1.frame_going hss (Client.of_heap rfl rfl rfl rfl rfl rfl) (Stable.of_eq rfl rfl)
        (fun k => ⟨rfl, rfl, Iff.rfl⟩) rfl rfl rfl (fun k => ⟨[], by simp⟩)
    have hes : ws.ran = w1.ran ∧ ws.enq = w1.enq ∧ Stable w1 ws ∧ ws.talloc = w1.talloc ∧
        ws.tf = w1.tf := by
      subst hws
      exact ⟨rfl, rfl, Stable.of_eq rfl rfl, rfl, rfl⟩
    obtain ⟨hg2, htfs⟩ := runSnapshot_going fuel fuel hwts hgs hring hun h
    obtain ⟨el2, hw2, hran2, hq2, hst2, -⟩ := runSnapshot_ok fuel fuel hwts hring hun h
    obtain ⟨add, ha1, ha2⟩ := hq2 m
    rw [Function.update_same, List.nil_append] at ha1
    refine ⟨el2, ing, hw2, hg2, (hst1.trans_stable hes.2.2.1).trans_stable hst2, ?_, ?_,
      tf_trans (tf_trans (tf_of_eq hta1 htf1) (tf_of_eq hes.2.2.2.1 hes.2.2.2.2)) htfs⟩
    · rw [hran2, hes.1, hr1, hel1]
    · rw [ha2, hes.2.1, he1, ha1, List.append_assoc]

theorem cycles_add (inner m cell a : Nat) :
    ∀ (b : Nat) {w w2 : World}, cycles inner m cell (a + b) w = .ok () w2 →
      ∃ w1, cycles inner m cell a w = .ok () w1 ∧ cycles inner m cell b w1 = .ok () w2 := by
  intro b
  induction b with
  | zero => intro w w2 h; exact ⟨w2, h, rfl⟩
  | succ b ih =>
    intro w w2 h
    have h' : cycles inner m cell (a + b + 1) w = .ok () w2 := h
    simp only [cycles] at h'
    split at h'
    · cases h'
    · next u wb hb =>
      obtain ⟨w1, h1, h2⟩ := ih hb
      refine ⟨w1, h1, ?_⟩
      simp only [cycles, h2]
      exact h'

theorem cycles_going {E0 : Nat → List Nat} {R0 : List Nat} {t0 cell main fuel m : Nat}
    {w : World} {el : Slot → List Nat} (hw : TWF w el) (hg : Going E0 R0 t0 cell main w)
    (hq : Queued E0 R0 m w el) :
    ∀ (n : Nat) {wn : World}, cycles fuel m cell n w = .ok () wn →
      ∃ eln xs, TWF wn eln ∧ Going E0 R0 t0 cell main wn ∧ Queued E0 R0 m wn eln ∧
        Stable w wn ∧ wn.ran = w.ran ++ xs ∧ (1 ≤ n → ∀ t ∈ el (.queue m), t ∈ xs) ∧
        w.talloc ≤ wn.talloc ∧ ∀ t, t < w.talloc → wn.tf t = w.tf t := by
  intro n
  induction n with
  | zero =>
    intro wn h
    cases h
    exact ⟨el, [], hw, hg, hq, Stable.of_eq rfl rfl, by simp, fun h => absurd h (by decide),
      tf_of_eq rfl rfl⟩
  | succ n ih =>
    intro wn h
    simp only [cycles] at h
    split at h
    · cases h
    · next u w1 h1 =>
      obtain ⟨el1, xs1, hw1, hg1, hq1, hst1, hr1, hm1, htf1⟩ := ih h1
      split at h
      · cases h
      · next u2 w2 h2 =>
        obtain ⟨el2, ing, hw2, hg2, hst2, hran2, henq2, htf2⟩ := runOneLoop_going hw1 hg1 h2
        have hcore := waitForSources_core h
        have hwn : TWF wn el2 := TWF.of_core hcore hw2
        simp only [World.core, Prod.mk.injEq] at hcore
        obtain ⟨c1, c2, c3, c4, c5, c6, c7, c8, c9, c10, c11, c12, c13⟩ := hcore
        have hsn : Safe wn :=
          Safe.by_frame hw2 hg2.safe hwn c5 c6 c2 c4 (le_of_eq c9.symm) (fun _ _ h => h)
        have hgn : Going E0 R0 t0 cell main wn :=
          hg2.frame_going hsn (Client.of_heap c5 c6 c2 c4 c8 c9) (Stable.of_eq c5 c6)
            (fun k => by rw [c5]; exact ⟨rfl, rfl, Iff.rfl⟩) c2 c4 c11
            (fun k => ⟨[], by rw [c12]; simp⟩)
        obtain ⟨r, a, hr, ha, hmem⟩ := hq1
        refine ⟨el2, xs1 ++ (el1 (.queue m) ++ ing), hwn, hgn,
          ⟨r ++ (el1 (.queue m) ++ ing), a ++ (ing ++ el2 (.queue m)), ?_, ?_, ?_⟩,
          (hst1.trans_stable hst2).trans_stable (Stable.of_eq c5 c6), ?_, ?_,
          tf_trans (tf_trans htf1 htf2) (tf_of_eq c4 c2)⟩
        · rw [c11, hran2, hr, List.append_assoc]
        · rw [c12, henq2, ha, List.append_assoc]
        · intro t ht
          rcases List.mem_append.1 ht with h3 | h3
          · rcases hmem t h3 with h4 | h4
            · exact Or.inl (List.mem_append_left _ h4)
            · exact Or.inl (List.mem_append_right _ (List.mem_append_left _ h4))
          · rcases List.mem_append.1 h3 with h4 | h4
            · exact Or.inl (List.mem_append_right _ (List.mem_append_right _ h4))
            · exact Or.inr h4
        · rw [c11, hran2, hr1, List.append_assoc]
        · intro _ t ht
          cases n with
          | zero =>
            cases h1
            have := TWF.unique hw1 hw
            rw [this]
            exact List.mem_append_right _ (List.mem_append_left _ ht)
          | succ k => exact List.mem_append_left _ (hm1 (Nat.succ_le_succ (Nat.zero_le _)) t ht)

end Drydock


namespace Drydock

/-! ### `RunUntil` returns -/

theorem Chain.tail_unique {w : World} {a b c : Nat} (h1 : Chain w a b) (h2 : Chain w a c)
    (hb : (w.res b).next = none) (hc : (w.res c).next = none) : b = c := by
  induction h1 with
  | refl a => exact (h2.eq_of_tail hb).symm
  | step hn _ ih =>
    cases h2 with
    | refl => rw [hc] at hn; cases hn
    | step hn2 h3 =>
      rw [hn] at hn2
      cases hn2
      exact ih h3 hb

theorem Chain.suffix {w : World} {a s b : Nat} (h1 : Chain w a s) (h2 : Chain w a b)
    (hb : (w.res b).next = none) : Chain w s b := by
  induction h1 with
  | refl a => exact h2
  | step hn _ ih =>
    cases h2 with
    | refl => rw [hb] at hn; cases hn
    | step hn2 h3 =>
      rw [hn] at hn2
      cases hn2
      exact ih h3

theorem cycles_append (inner m cell a : Nat) :
    ∀ (b : Nat) {w w1 w2 : World}, cycles inner m cell a w = .ok () w1 →
      cycles inner m cell b w1 = .ok () w2 → cycles inner m cell (a + b) w = .ok () w2 := by
  intro b
  induction b with
  | zero => intro w w1 w2 h1 h2; cases h2; exact h1
  | succ b ih =>
    intro w w1 w2 h1 h2
    simp only [cycles] at h2
    split at h2
    · cases h2
    · next u wb hb =>
      have := ih h1 hb
      show cycles inner m cell (a + b + 1) w = _
      simp only [cycles, this]
      exact h2

theorem cycles_one {inner m cell : Nat} {w w2 : World}
    (h : cycles inner m cell 1 w = .ok () w2) :
    ∃ wa, Manager.runOneLoop inner m w = .ok () wa ∧
      waitForSources inner m cell wa = .ok () w2 := by
  simp only [cycles] at h
  split at h
  · cases h
  · next u wa ha => exact ⟨wa, ha, h⟩

theorem runUntilLoop_set {inner m cell : Nat} {w : World} (k : Nat)
    (h : (w.cells cell).isSome = true) : runUntilLoop inner m cell k w = .ok () w := by
  have hn : (w.cells cell).isNone = false := by
    cases hc : w.cells cell with
    | none => rw [hc] at h; cases h
    | some v => rfl
  cases k <;> simp [runUntilLoop, hn]

/-- If the variable `mainExited` is set after `N` cycles, the loop of `RunUntil` ends after
at most `N` cycles, in the world that its cycles reach. -/
theorem cycles_exit (inner m cell : Nat) :
    ∀ (N : Nat) {w wN : World} (k : Nat), cycles inner m cell N w = .ok () wN →
      (wN.cells cell).isSome = true → N ≤ k →
      ∃ j w2, j ≤ N ∧ cycles inner m cell j w = .ok () w2 ∧
        runUntilLoop inner m cell k w = .ok () w2 ∧ (w2.cells cell).isSome = true := by
  intro N
  induction N with
  | zero =>
    intro w wN k h hc _
    cases h
    exact ⟨0, w, le_refl _, rfl, runUntilLoop_set k hc, hc⟩
  | succ N ih =>
    intro w wN k h hc hk
    by_cases hw : (w.cells cell).isSome = true
    · exact ⟨0, w, Nat.zero_le _, rfl, runUntilLoop_set k hw, hw⟩
    · have h' : cycles inner m cell (1 + N) w = .ok () wN := by
        rw [Nat.add_comm]; exact h
      obtain ⟨w1, h1, h2⟩ := cycles_add inner m cell 1 N h'
      obtain ⟨wa, ha, hb⟩ := cycles_one h1
      cases k with
      | zero => omega
      | succ k =>
        obtain ⟨j, w2, hj, hcj, hloop, hset⟩ := ih k h2 hc (by omega)
        refine ⟨j + 1, w2, by omega, ?_, ?_, hset⟩
        · have := cycles_append inner m cell 1 j h1 hcj
          rw [Nat.add_comm] at this
          exact this
        · have hn : (w.cells cell).isNone = true := by
            cases hcv : w.cells cell with
            | none => rfl
            | some v => rw [hcv] at hw; simp at hw
          simp only [runUntilLoop, hn, if_true, ha, hb]
          exact hloop

theorem Manager.NewTurn_total {w : World} {el : Slot → List Nat} (hw : TWF w el) (m : Nat)
    (name : String) (th : Thunk) : ∃ w1, Manager.NewTurn m name th w = .ok () w1 := by
  obtain ⟨-, hec, -, htn, -, ht0, htl, -⟩ := @NewTurn_ok _ _ _ hw name th _ rfl
  obtain ⟨w1, hq, -⟩ := Manager.Queue_spec hec.twf m ht0 htn htl
  refine ⟨w1, ?_⟩
  simp only [Manager.NewTurn, bind_apply, NewTurn]
  exact hq

/-- The world in which the loop of `RunUntil(main)` starts. -/
theorem RunUntil_begin {m main : Nat} {w : World} {el : Slot → List Nat} (hwf : TWF w el)
    (hs : Safe w) (hmain : main < w.ralloc) :
    ∃ w1 el1, Manager.NewTurn m "RunUntil" (.runUntil main w.calloc) w.withCell = .ok () w1 ∧
      TWF w1 el1 ∧ Going w.enq w.ran w.talloc w.calloc main w1 ∧
      Queued w.enq w.ran m w1 el1 ∧ w.talloc ∈ el1 (.queue m) ∧ w1.ran = w.ran := by
  have hc := hs.1
  obtain ⟨w0, hw0⟩ : ∃ y : World, y = w.withCell := ⟨_, rfl⟩
  rw [← hw0]
  have hwf0 : TWF w0 el := by
    subst hw0
    exact Effect.twf (Effect.of_ghost hwf rfl rfl rfl rfl rfl rfl rfl rfl)
  have hs0 : Safe w0 := by
    subst hw0
    exact Safe.by_frame hwf hs hwf0 rfl rfl rfl rfl (Nat.le_succ _) (fun _ _ h => h)
  have hc0 : Closed w0 := hs0.1
  have e1 : w0.talloc = w.talloc := by subst hw0; rfl
  have e2 : w0.tf = w.tf := by subst hw0; rfl
  have e3 : w0.ralloc = w.ralloc := by subst hw0; rfl
  have e4 : w0.calloc = w.calloc + 1 := by subst hw0; rfl
  have e5 : w0.cells w.calloc = none := by subst hw0; simp [World.withCell]
  have e6 : w0.enq = w.enq := by subst hw0; rfl
  have e7 : w0.ran = w.ran := by subst hw0; rfl
  obtain ⟨w1, h1⟩ := Manager.NewTurn_total hwf0 m "RunUntil" (.runUntil main w.calloc)
  obtain ⟨heff, hq, htf, -, hta⟩ := Manager.NewTurn_effect hwf0 h1
  have htc : ThunkClosed w0 (.runUntil main w.calloc) :=
    ⟨by rw [e3]; exact hmain, by rw [e4]; exact Nat.lt_succ_self _⟩
  have hs1 : Safe w1 :=
    Manager.NewTurn_keeps hwf0 hs0 htc (fun _ _ _ _ _ _ _ e => by cases e) h1
  have hd0 : Deliv w.enq w.talloc w0 :=
    ⟨fun k => ⟨[], by rw [e6]; simp⟩,
      fun t _ _ _ _ _ _ _ ht0 ht => absurd ht (by rw [e1]; exact not_lt.2 ht0)⟩
  have hd1 : Deliv w.enq w.talloc w1 :=
    Manager.NewTurn_delivers hwf0 hs0 hd0 htc (fun _ _ _ _ _ _ _ e => by cases e) h1
  have hi1 : RunInv w.calloc main w1 := by
    refine ⟨fun v hv => ?_, fun t main2 ht htf2 => ?_,
      fun t src outer inTy tv te rr ht htf2 => ?_,
      lt_of_lt_of_le (by rw [e3]; exact hmain) heff.stable.ralloc⟩
    · rw [quiet_cells hq, e5] at hv
      cases hv
    · by_cases ht2 : t = w0.talloc
      · subst ht2
        rw [htf] at htf2
        cases htf2
        rfl
      · have ht3 : t < w.talloc := by omega
        have := hc.thunks t ht3
        rw [← e2, ← heff.grow.tf t (by omega), htf2] at this
        exact absurd this.2 (lt_irrefl _)
    · by_cases ht2 : t = w0.talloc
      · subst ht2
        rw [htf] at htf2
        cases htf2
      · have ht3 : t < w.talloc := by omega
        have := hc.thunks t ht3
        rw [← e2, ← heff.grow.tf t (by omega), htf2] at this
        exact absurd this.2.2.1 (lt_irrefl _)
  have hran : w1.ran = w.ran := by rw [quiet_ran hq, e7]
  have hk1 : Track w.ran w.talloc w.calloc w1 := by
    refine ⟨⟨by omega, main, by rw [← e1]; exact htf⟩, [], by rw [hran]; simp,
      fun _ h => (by cases h), fun h => (by cases h), fun _ _ _ _ _ _ _ h => (by cases h)⟩
  obtain ⟨add, ha1, ha2⟩ := heff.grow.queue m
  rw [Function.update_same] at ha1
  have hadd : add = [w.talloc] := by
    rw [e1] at ha1
    exact (List.append_cancel_left ha1).symm
  subst hadd
  refine ⟨w1, _, h1, heff.twf, ⟨hs1, hd1, hi1, hk1⟩,
    ⟨[], [w.talloc], by rw [hran]; simp, by rw [ha2, e6], fun t ht => Or.inr ?_⟩, ?_, hran⟩
  · rw [Function.update_same, e1]
    exact List.mem_append_right _ ht
  · rw [Function.update_same, e1]
    exact List.mem_append_right _ (List.mem_singleton.2 rfl)

/-- Once the turn of `RunUntil` has run and the forwarding chain of `main` ends in a resolver
of manager `m` that is resolved, the next cycle of `m` sets the variable `mainExited`. -/
theorem runOneLoop_exits {E0 : Nat → List Nat} {R0 : List Nat} {t0 cell main fuel m : Nat}
    {w w2 : World} {el : Slot → List Nat} (hw : TWF w el) (hg : Going E0 R0 t0 cell main w)
    (hq : Queued E0 R0 m w el) {r : List Nat} (hr : w.ran = R0 ++ r) (ht0 : t0 ∈ r)
    {final : Nat} (hch : Chain w main final) (hnext : (w.res final).next = none)
    (hres : (w.res final).turns = none) (hmgr : (w.res final).manager = m)
    (h : Manager.runOneLoop fuel m w = .ok () w2) : (w2.cells cell).isSome = true := by
  obtain ⟨-, r1, hr1, hal, hk1, -⟩ := hg.track
  have er : r1 = r := List.append_cancel_left (hr1.symm.trans hr)
  subst er
  obtain ⟨t1, s, outer, inTy, tv, te, rr, hge, hlt, htf⟩ := hk1 ht0
  have hcs : Chain w main s := hg.inv.records t1 s outer inTy tv te rr hlt htf
  have hsf : Chain w s final := hcs.suffix hch hnext
  obtain ⟨add, hadd, hmem⟩ := hg.deliv.2 t1 s outer inTy tv te rr _ hge hlt htf final hsf
    hnext hres
  rw [hmgr] at hadd
  obtain ⟨r2, a, hr2, ha, hqa⟩ := hq
  have er2 : r2 = r1 := List.append_cancel_left (hr2.symm.trans hr)
  have ea : a = add := List.append_cancel_left (ha.symm.trans hadd)
  subst er2 ea
  obtain ⟨el2, ing, hw2, hg2, -, hran2, -, -, htfs⟩ := runOneLoop_going hw hg h
  obtain ⟨-, r3, hr3, -, -, hk3⟩ := hg2.track
  have hin : t1 ∈ r3 := by
    have e3 : r3 = r2 ++ (el (.queue m) ++ ing) := by
      apply @List.append_cancel_left _ R0
      rw [← hr3, hran2, hr, List.append_assoc]
    rw [e3]
    rcases hqa t1 hmem with h4 | h4
    · exact List.mem_append_left _ h4
    · exact List.mem_append_right _ (List.mem_append_left _ h4)
  exact hk3 t1 s outer inTy tv te rr hin (by rw [htfs t1 hlt]; exact htf)

/-- The loop of `RunUntil(main)` ends once the queued turns have resolved `main`. -/
theorem RunUntil_returns (fuel m main n final : Nat) (w wn wN : World)
    (el : Slot → List Nat) (hwf : TWF w el) (hs : Safe w) (hmain : main < w.ralloc)
    (hn : 1 ≤ n) (hfuel : n + 1 ≤ fuel)
    (hcyc : cycles fuel m w.calloc n (World.atRunUntil m main w) = .ok () wn)
    (hch : Chain wn main final) (hnext : (wn.res final).next = none)
    (hres : (wn.res final).turns = none) (hmgr : (wn.res final).manager = m)
    (hmore : cycles fuel m w.calloc (n + 1) (World.atRunUntil m main w) = .ok () wN) :
    ∃ ret w2, Manager.RunUntil fuel m main w = .ok ret w2 ∧
      ret = (wn.res final).outcome.asError ∧
      ∃ k, getShortest k main w2 = .ok final w2 ∧ (w2.res final).turns = none ∧
        ret = (w2.res final).outcome.asError := by
  obtain ⟨w1, el1, h1, hw1, hg1, hq1, hmem1, hran1⟩ := RunUntil_begin (m := m) hwf hs hmain
  have hstart : World.atRunUntil m main w = w1 := by
    unfold World.atRunUntil
    rw [h1]
    rfl
  rw [hstart] at hcyc hmore
  -- the cycles up to the one after which `main` is resolved
  obtain ⟨eln, xsn, hwn, hgn, hqn, hstn, hrann, hmemn, -⟩ := cycles_going hw1 hg1 hq1 n hcyc
  obtain ⟨wn2, hc2, hlast⟩ := cycles_add fuel m w.calloc n 1 hmore
  rw [hcyc] at hc2
  cases hc2
  obtain ⟨wa, hloop, hwait⟩ := cycles_one hlast
  have hseta : (wa.cells w.calloc).isSome = true :=
    runOneLoop_exits hwn hgn hqn (r := xsn) (by rw [hrann, hran1]) (hmemn hn _ hmem1) hch hnext
      hres hmgr hloop
  have hsetN : (wN.cells w.calloc).isSome = true := by
    have hcore := waitForSources_core hwait
    simp only [World.core, Prod.mk.injEq] at hcore
    rw [hcore.2.2.2.2.2.2.2.1]
    exact hseta
  -- the loop of `RunUntil` ends
  obtain ⟨j, w2, hj, hcj, hrun, hset2⟩ :=
    cycles_exit fuel m w.calloc (n + 1) fuel hmore hsetN hfuel
  obtain ⟨v, hv⟩ := Option.isSome_iff_exists.1 hset2
  have key : ∀ ret, (match w2.cells w.calloc with
      | some (.err e) => (Res.ok (some e) w2 : Res (Option Err))
      | _ => .ok none w2) = .ok ret w2 → Manager.RunUntil fuel m main w = .ok ret w2 := by
    intro ret hret
    have hdef : Manager.RunUntil fuel m main w =
        (match Manager.NewTurn m "RunUntil" (.runUntil main w.calloc) w.withCell with
        | .fault f w1 => .fault f w1
        | .ok _ w1 =>
          match runUntilLoop fuel m w.calloc fuel w1 with
          | .fault f w2 => .fault f w2
          | .ok _ w2 =>
            match w2.cells w.calloc with
            | some (.err e) => .ok (some e) w2
            | _ => .ok none w2) := rfl
    rw [hdef, h1]
    simp only [hrun]
    exact hret
  have hex : ∃ ret, Manager.RunUntil fuel m main w = .ok ret w2 := by
    cases hvv : w2.cells w.calloc with
    | none => exact ⟨none, key none (by rw [hvv])⟩
    | some x =>
      cases x with
      | err e => exact ⟨some e, key (some e) (by rw [hvv])⟩
      | errSuccess => exact ⟨none, key none (by rw [hvv])⟩
  obtain ⟨ret, hret⟩ := hex
  obtain ⟨-, -, -, f2, hch2, hnext2, hres2, hret2⟩ := RunUntil_exit hwf hs.1 hmain hret
  -- the resolver found by `RunUntil` is the one of the hypothesis
  obtain ⟨elj, -, hwj, hgj, hqj, -, -, -, -⟩ := cycles_going hw1 hg1 hq1 j hcj
  obtain ⟨d, hd⟩ : ∃ d, n + 1 = j + d := ⟨n + 1 - j, by omega⟩
  rw [hd] at hmore
  obtain ⟨wj2, hcj2, hrest⟩ := cycles_add fuel m w.calloc j d hmore
  rw [hcj] at hcj2
  cases hcj2
  obtain ⟨-, -, -, -, -, hstj, -, -, -⟩ := cycles_going hwj hgj hqj d hrest
  obtain ⟨-, -, -, -, -, hstnN, -, -, -⟩ := cycles_going hwn hgn hqn 1 hlast
  have hmainj : main < w2.ralloc := hgj.inv.main
  have hf2 : f2 < w2.ralloc := Chain.lt_ralloc hgj.safe.1 hch2 hmainj
  have hfn : final < wn.ralloc := Chain.lt_ralloc hgn.safe.1 hch hgn.inv.main
  have ej := hstj.res f2 hf2 hres2
  have en := hstnN.res final hfn hres
  have hcN2 : Chain wN main f2 := hch2.keep hgj.safe.1 hstj
  have hcNn : Chain wN main final := hch.keep hgn.safe.1 hstnN
  have heq : f2 = final :=
    hcN2.tail_unique hcNn (by rw [ej]; exact hnext2) (by rw [en]; exact hnext)
  subst heq
  obtain ⟨k, hk⟩ := hch2.getShortest hnext2
  refine ⟨ret, w2, hret, ?_, k, hk, hres2, hret2⟩
  rw [hret2, ← ej, en]

/-- C8 (RunUntil result).  Let the loop of `RunUntil(main)` on manager `m` start in a
well-formed world: if after `n ≥ 1` cycles of the manager the queued turns have resolved
`main`, its forwarding chain ending in a resolved resolver `final` of manager `m`, and one more
cycle returns, then `RunUntil(main)` returns, and what it returns is the error of `final`:
`nil` when `main` completed with a value, and exactly `e` when it failed with `e`. -/
theorem runUntil_result (fuel m main n final : Nat) (w wn wN : World)
    (el : Slot → List Nat) (hwf : TWF w el) (hs : Safe w) (hmain : main < w.ralloc)
    (hn : 1 ≤ n) (hfuel : n + 1 ≤ fuel)
    (hcyc : cycles fuel m w.calloc n (World.atRunUntil m main w) = .ok () wn)
    (hch : Chain wn main final) (hnext : (wn.res final).next = none)
    (hres : (wn.res final).turns = none) (hmgr : (wn.res final).manager = m)
    (hmore : cycles fuel m w.calloc (n + 1) (World.atRunUntil m main w) = .ok () wN) :
    ∃ ret w2, Manager.RunUntil fuel m main w = .ok ret w2 ∧
      ret = (wn.res final).outcome.asError ∧
      ∃ k, getShortest k main w2 = .ok final w2 ∧ (w2.res final).turns = none ∧
        ret = (w2.res final).outcome.asError :=
  RunUntil_returns fuel m main n final w wn wN el hwf hs hmain hn hfuel hcyc hch hnext hres hmgr
    hmore

theorem TWF.at_working : TWF World.working (Function.update (fun _ : Slot => ([] : List Nat))
    (.queue 0) ((fun _ : Slot => ([] : List Nat)) (.queue 0) ++ [World.sample.talloc])) :=
  (Manager.NewTurn_effect TWF.sample (Res.ok_of_val (by decide!) :
    Manager.NewTurn 0 "work" (.user (.fail 1 (some ⟨9⟩) (.ret []))) World.sample =
      .ok () World.working)).1.twf

theorem Safe.working_safe : Safe World.working :=
  Manager.NewTurn_keeps TWF.sample
    (Safe.of_awaiting Closed.of_sample TWF.sample Awaiting.sample_awaiting)
    (show ThunkClosed World.sample (.user (.fail 1 (some ⟨9⟩) (.ret []))) from trivial)
    (fun _ _ _ _ _ _ _ e => by cases e)
    (Res.ok_of_val (by decide!) :
      Manager.NewTurn 0 "work" (.user (.fail 1 (some ⟨9⟩) (.ret []))) World.sample =
        .ok () World.working)

theorem runUntil_result_witness :
    ∃ ret w2, Manager.RunUntil 4 0 1 World.working = .ok ret w2 ∧ ret = some ⟨9⟩ ∧
      ∃ k, getShortest k 1 w2 = .ok 1 w2 ∧ (w2.res 1).turns = none ∧
        ret = (w2.res 1).outcome.asError := by
  obtain ⟨ret, w2, h1, h2, h3⟩ := runUntil_result 4 0 1 1 1 World.working
    (cycles 4 0 World.working.calloc 1 (World.atRunUntil 0 1 World.working)).world
    (cycles 4 0 World.working.calloc 2 (World.atRunUntil 0 1 World.working)).world _
    TWF.at_working Safe.working_safe (by decide) (by decide) (by decide)
    (Res.ok_of_val (by decide!)) (Chain.refl 1) (by decide!) (by decide!) (by decide!)
    (Res.ok_of_val (by decide!))
  refine ⟨ret, w2, h1, ?_, h3⟩
  rw [h2]
  decide!

/-- Fault witness: a run that stopped with the fault `f` is `.fault f` of the world reached. -/
theorem Res.fault_of_val {α : Type} {x : Res α} {f : Fault} (h : x.fault? = some f) :
    x = .fault f x.world := by
  cases x with
  | ok a w => cases h
  | fault g w =>
    simp only [Res.fault?, Option.some.injEq] at h
    subst h
    rfl

theorem TWF.at_twoManagers : TWF World.twoManagers (fun _ => []) := by
  refine ⟨⟨fun i l h => ?_, fun _ _ => rfl, fun _ _ _ t ht => by cases ht⟩, rfl, fun _ _ => rfl,
    by decide⟩
  rw [Ring_nil_iff]
  cases i with
  | queue m => simpa [handle, World.twoManagers, World.sample] using h.symm
  | pending s =>
    by_cases hs : s = 0
    · subst hs; simp [handle, World.twoManagers, World.sample] at h
    · simpa [handle, World.twoManagers, World.sample, hs] using h.symm
  | source k => simpa [handle, World.twoManagers, World.sample, World.init] using h.symm

/-- C8 as stated fails for a result of another manager: in `World.twoManagers` the result 0
has failed with the error 7, so it is resolved before any turn runs, but its resolver was
created for manager 1; `RunUntil` on manager 0 does not return the error 7: its recording
continuation goes to the queue of manager 1, and the loop stops at the assertion
`LIVE LOCK`. -/
theorem runUntil_other_manager :
    TWF World.twoManagers (fun _ => []) ∧
      (World.twoManagers.res 0).turns = none ∧ (World.twoManagers.res 0).next = none ∧
      (World.twoManagers.res 0).outcome.asError = some ⟨7⟩ ∧
      (World.twoManagers.res 0).manager = 1 ∧
      Manager.RunUntil 3 0 0 World.twoManagers =
        .fault (.precondition liveLockMsg) (Manager.RunUntil 3 0 0 World.twoManagers).world ∧
      (Manager.RunUntil 3 0 0 World.twoManagers).world.enq 1 = [2] :=
  ⟨TWF.at_twoManagers, rfl, rfl, rfl, rfl, Res.fault_of_val (by decide!), by decide!⟩

end Drydock


namespace Drydock

/-! ### Resolvers and their managers -/

theorem still_malloc {w w2 : World} (h : w2.still = w.still) : w2.malloc = w.malloc :=
  congrArg (fun q => q.2.2.2.2.2.2.2.1) h

theorem waitForSources_malloc {fuel m cell : Nat} {w w2 : World}
    (h : waitForSources fuel m cell w = .ok () w2) : w2.malloc = w.malloc := by
  unfold waitForSources at h
  split at h
  · split at h
    · cases h
    · next e w1 hwait =>
      have hc := choose_malloc hwait
      split at h
      · cases h
      · split at h
        · cases h
        · split at h
          · cases h
          · unfold Event.Signal at h
            split at h
            · cases h
            · split at h
              · cases h
              · cases h; rw [← hc]
  · cases h; rfl

theorem Managed.of_res {w w2 : World} (hm : Managed w) (hmal : w2.malloc = w.malloc)
    (hral : w2.ralloc = w.ralloc) (hres : ∀ k, (w2.res k).manager = (w.res k).manager) :
    Managed w2 := by
  intro a ha
  rw [hres a, hmal]
  exact hm a (by rw [← hral]; exact ha)

theorem Managed.queueOnly_managed {w w2 : World} (hm : Managed w) (hq : QueueOnly w w2) :
    Managed w2 :=
  hm.of_res (quiet_malloc hq.quiet) (allocs_ralloc hq.allocs) (fun k => (hq.res k).1)

theorem resolve_managed {w w2 : World} (hm : Managed w) {fuel s : Nat} {o : Iface}
    (h : resolve fuel s o w = .ok () w2) : Managed w2 := by
  cases hst : (w.res s).turns with
  | none => simp [resolve, isResolved, hst] at h
  | some l =>
    have h2 : queueList s fuel (some l) { w with res := (Function.update w.res s
        { w.res s with turns := none, outcome := o }) } = .ok () w2 := by
      simpa [resolve, isResolved, hst] using h
    refine Managed.queueOnly_managed ?_ (queueList_queueOnly fuel h2)
    refine hm.of_res rfl rfl (fun k => ?_)
    by_cases hk : k = s
    · subst hk; simp
    · simp [Function.update_noteq hk]

theorem Complete_managed {w w2 : World} (hm : Managed w) {fuel s : Nat} {v : Iface}
    (h : Complete fuel s v w = .ok () w2) : Managed w2 := by
  obtain ⟨_, w1, h1, h2⟩ := bind_ok h
  obtain ⟨-, rfl⟩ := assertTrue_ok h1
  exact resolve_managed hm h2

theorem Fail_managed {w w2 : World} (hm : Managed w) {fuel s : Nat} {e : Option Err}
    (h : Fail fuel s e w = .ok () w2) : Managed w2 := by
  obtain ⟨_, w1, h1, h2⟩ := bind_ok h
  obtain ⟨-, rfl⟩ := assertTrue_ok h1
  exact resolve_managed hm h2

theorem Resolve_managed {w w2 : World} (hm : Managed w) {fuel s : Nat} {v : Iface}
    {e : Option Err} (h : Resolve fuel s v e w = .ok () w2) : Managed w2 := by
  obtain ⟨_, w1, h1, h2⟩ := bind_ok h
  obtain ⟨-, rfl⟩ := assertTrue_ok h1
  split at h2
  · obtain ⟨_, w3, h3, h4⟩ := bind_ok h2
    obtain ⟨-, rfl⟩ := assertTrue_ok h3
    exact resolve_managed hm h4
  · exact resolve_managed hm h2

theorem Forward_managed {w w2 : World} (hm : Managed w) {fuel s : Nat} {n : Option Nat}
    (h : Forward fuel s n w = .ok () w2) : Managed w2 := by
  cases hst : (w.res s).turns with
  | none => simp [Forward, isResolved, hst] at h
  | some l =>
    cases n with
    | none => simp [Forward, isResolved, hst] at h
    | some nx =>
      simp only [Forward, isResolved, hst, Option.isNone_some, Bool.false_eq_true, if_false]
        at h
      split at h
      · cases h
      · cases hg : getShortest fuel nx w with
        | fault f w1 => rw [hg] at h; cases h
        | ok next w1 =>
          have hw1 : w = w1 := (getShortest_world hg).symm
          subst hw1
          rw [hg] at h
          simp only [hst] at h
          refine Managed.queueOnly_managed ?_ (queueList_queueOnly fuel h)
          refine hm.of_res rfl rfl (fun k => ?_)
          by_cases hk : k = s
          · subst hk; simp
          · simp [Function.update_noteq hk]

theorem newTurnResolver_managed {w w2 : World} (hm : Managed w) {m s : Nat}
    (hlt : m < w.malloc) (h : newTurnResolver m w = .ok s w2) : Managed w2 := by
  simp only [newTurnResolver] at h
  cases h
  intro a ha
  have ha2 : a < w.ralloc + 1 := ha
  show (Function.update w.res w.ralloc _ a).manager < w.malloc
  by_cases hk : a = w.ralloc
  · subst hk
    simp only [Function.update_same]
    exact hlt
  · rw [Function.update_noteq hk]
    exact hm a (by omega)

theorem Manager.NewTurn_managed {w w2 : World} {el : Slot → List Nat} (hw : TWF w el)
    (hm : Managed w) {m : Nat} {name : String} {th : Thunk}
    (h : Manager.NewTurn m name th w = .ok () w2) : Managed w2 := by
  obtain ⟨-, hq, -, hres, -⟩ := Manager.NewTurn_effect hw h
  exact hm.of_res (quiet_malloc hq) (Manager.NewTurn_ralloc h) (fun k => by rw [hres])

theorem WhenT_managed {w w2 : World} {el : Slot → List Nat} (hw : TWF w el) (hc : Closed w)
    (hm : Managed w) {fuel s o : Nat} {inTy out outR : Ty} {f : Fn} (hsr : s < w.ralloc)
    (h : WhenT fuel s inTy out outR f w = .ok o w2) : Managed w2 := by
  obtain ⟨tv, te, rr, s1, tgt, -, hsrc, -, heff, htgt, hq, htf, hta, hra, hnew, -, hall⟩ :=
    WhenT_ok hw h
  have hs1 : s1 < w.ralloc := by
    split at hsrc
    · exact getShortest_lt hc hsr hsrc
    · cases hsrc; exact hsr
  have hne : s1 ≠ w.ralloc := Nat.ne_of_lt hs1
  intro a ha
  rw [hra] at ha
  rw [quiet_malloc hq]
  by_cases hk : a = w.ralloc
  · subst hk
    rw [hnew hne]
    exact hm s1 hs1
  · rw [(hall a hk).1]
    exact hm a (by omega)

theorem turnRunner.New_managed {w w2 : World} {el : Slot → List Nat} (hw : TWF w el)
    (hm : Managed w) {t : Runner} {fid : Nat} {f : Prog} {s : Nat} (hlt : t.manager < w.malloc)
    (h : turnRunner.New t fid f w = .ok s w2) : Managed w2 := by
  obtain ⟨w1, id, wi, h1, h2, h3⟩ := turnRunner.New_parts h
  obtain ⟨-, he1, -, -, -⟩ := newTurnResolver_ok hw h1
  have hm1 := newTurnResolver_managed hm hlt h1
  obtain ⟨he2, -, -, -⟩ := Manager.NewID_ok he1.twf h2
  have hm2 : Managed wi := by
    simp only [Manager.NewID, UniqueIDGenerator.NewID] at h2
    cases h2
    exact hm1.of_res rfl rfl (fun _ => rfl)
  exact Manager.NewTurn_managed he2.twf hm2 h3

theorem exec_managed {fuel : Nat} (p : Prog) :
    ∀ {w w2 : World} {el : Slot → List Nat} {vals : List Iface}, TWF w el → Closed w →
      Managed w → exec fuel p w = .ok vals w2 → Managed w2 := by
  induction p with
  | ret vals =>
    intro w w2 el v hw hc hm h
    simp only [exec] at h
    obtain ⟨_, w0, h0, h1⟩ := bind_ok h
    obtain ⟨-, rfl⟩ := guardAlloc_ok h0
    cases h1
    exact hm
  | newResult m k ih =>
    intro w w2 el v hw hc hm h
    simp only [exec] at h
    split at h
    · cases h
    · next s w1 hx =>
      obtain ⟨_, w0, h0, h1⟩ := bind_ok hx
      obtain ⟨hg, rfl⟩ := guardAlloc_ok h0
      obtain ⟨-, he, -⟩ := newTurnResolver_ok hw h1
      exact ih s he.twf ((newTurnResolver_client h1).closed hc)
        (newTurnResolver_managed hm (by simpa using hg) h1) h
  | complete s v k ih =>
    intro w w2 el vals hw hc hm h
    simp only [exec] at h
    obtain ⟨_, w0, h0, h⟩ := bind_ok h
    obtain ⟨-, rfl⟩ := guardAlloc_ok h0
    obtain ⟨_, w1, h1, h⟩ := bind_ok h
    obtain ⟨el1, he, -⟩ := Complete_ok hw h1
    exact ih he.twf ((Complete_client h1).closed hc) (Complete_managed hm h1) h
  | fail s e k ih =>
    intro w w2 el vals hw hc hm h
    simp only [exec] at h
    obtain ⟨_, w0, h0, h⟩ := bind_ok h
    obtain ⟨-, rfl⟩ := guardAlloc_ok h0
    obtain ⟨_, w1, h1, h⟩ := bind_ok h
    obtain ⟨el1, he, -⟩ := Fail_ok hw h1
    exact ih he.twf ((Fail_client h1).closed hc) (Fail_managed hm h1) h
  | resolve s v e k ih =>
    intro w w2 el vals hw hc hm h
    simp only [exec] at h
    obtain ⟨_, w0, h0, h⟩ := bind_ok h
    obtain ⟨-, rfl⟩ := guardAlloc_ok h0
    obtain ⟨_, w1, h1, h⟩ := bind_ok h
    obtain ⟨el1, he, -⟩ := Resolve_ok hw h1
    exact ih he.twf ((Resolve_client h1).closed hc) (Resolve_managed hm h1) h
  | forward s n k ih =>
    intro w w2 el vals hw hc hm h
    simp only [exec] at h
    obtain ⟨_, w0, h0, h⟩ := bind_ok h
    obtain ⟨hg, rfl⟩ := guardAlloc_ok h0
    obtain ⟨_, w1, h1, h⟩ := bind_ok h
    obtain ⟨el1, he, -⟩ := Forward_ok hw h1
    have hg2 : s < w.ralloc ∧ ∀ a, n = some a → a < w.ralloc := by
      simp only [Bool.and_eq_true, decide_eq_true_eq] at hg
      refine ⟨hg.1, fun a ha => ?_⟩
      subst ha
      simpa using hg.2
    exact ih he.twf (Forward_closed hc hg2.1 hg2.2 h1) (Forward_managed hm h1) h
  | «when» r inTy out outR fid sig fb k _ ih =>
    intro w w2 el vals hw hc hm h
    simp only [exec] at h
    split at h
    · cases h
    · next o w1 hx =>
      obtain ⟨_, w0, h0, h1⟩ := bind_ok hx
      obtain ⟨hg, rfl⟩ := guardAlloc_ok h0
      obtain ⟨_, _, _, _, _, -, -, -, he, -⟩ := WhenT_ok hw h1
      obtain ⟨-, -, -, -, -, -, -, -, -, -, -, -, -, hcl⟩ := WhenT_inv h1
      have hr : r < w.ralloc := by simpa using hg
      exact ih o he.twf (hcl hc hr (show FnClosed w (.user fid sig fb) from trivial))
        (WhenT_managed hw hc hm hr h1) h
  | newTurn m name body k _ ih =>
    intro w w2 el vals hw hc hm h
    simp only [exec] at h
    obtain ⟨_, w0, h0, h⟩ := bind_ok h
    obtain ⟨-, rfl⟩ := guardAlloc_ok h0
    obtain ⟨_, w1, h1, h⟩ := bind_ok h
    obtain ⟨he, -⟩ := Manager.NewTurn_effect hw h1
    have hcl : Client w w1 :=
      Manager.NewTurn_step (fun c (hcc : Thunk.records c (.user body)) => hcc)
        (show ThunkClosed w (.user body) from trivial) h1
    exact ih he.twf (hcl.closed hc) (Manager.NewTurn_managed hw hm h1) h
  | allocTurn name body k _ ih =>
    intro w w2 el vals hw hc hm h
    simp only [exec] at h
    obtain ⟨-, he, -⟩ :=
      NewTurn_ok hw (rfl : NewTurn name (.user body) w = .ok w.talloc _)
    have hc2 := (NewTurn_client (fun c (hcc : Thunk.records c (.user body)) => hcc)
      (show ThunkClosed w (.user body) from trivial)
      (rfl : NewTurn name (.user body) w = .ok w.talloc _)).closed hc
    exact ih _ he.twf hc2 (hm.of_res rfl rfl (fun _ => rfl)) h
  | queue m t k ih =>
    intro w w2 el vals hw hc hm h
    simp only [exec] at h
    obtain ⟨_, w0, h0, h⟩ := bind_ok h
    obtain ⟨hg, rfl⟩ := guardAlloc_ok h0
    obtain ⟨_, w1, h1, h⟩ := bind_ok h
    have hal : ∀ a, t = some a → a < w.talloc := fun a ha => by
      subst ha
      have : m < w.malloc ∧ a < w.talloc := by simpa using hg
      exact this.2
    obtain ⟨a, -, he, -⟩ := Manager.Queue_ok hw h1 hal
    exact ih he.twf (Closed.of_queueOnly (Manager.Queue_queueOnly h1) hc)
      (hm.queueOnly_managed (Manager.Queue_queueOnly h1)) h
  | spawn runner fid f k _ ih =>
    intro w w2 el vals hw hc hm h
    simp only [exec] at h
    split at h
    · cases h
    · next s w1 hx =>
      obtain ⟨_, w0, h0, h1⟩ := bind_ok hx
      obtain ⟨hg, rfl⟩ := guardAlloc_ok h0
      obtain ⟨el1, he, -⟩ := turnRunner.New_ok hw h1
      exact ih s he.twf ((turnRunner.New_client h1).closed hc)
        (turnRunner.New_managed hw hm (by simpa using hg) h1) h

end Drydock


namespace Drydock

/-! ### Running a turn keeps every resolver with its manager -/

theorem Closed.ghost_calls {w : World} (hc : Closed w) (x : List (Nat × List Iface)) :
    Closed { w with calls := x } :=
  hc.of_step (le_refl _) (le_refl _) (fun a n hn => Or.inl ⟨hn, fun h => h⟩)
    (fun t ht => Or.inl ⟨ht, rfl⟩)

theorem callFn_managed {w w2 : World} {el : Slot → List Nat} (hw : TWF w el) (hc : Closed w)
    (hm : Managed w) {fuel : Nat} {f : Fn} {args rv : List Iface}
    (h : callFn fuel f args w = .ok rv w2) : Managed w2 := by
  cases f with
  | user fid sig body =>
    replace h := (callFn_user_ok h).2
    obtain ⟨_, w1, h1, h2⟩ := bind_ok h
    simp only [logCall] at h1
    cases h1
    have hg : Effect w { w with calls := w.calls ++ [(fid, args)] } el el :=
      Effect.of_ghost hw rfl rfl rfl rfl rfl rfl rfl rfl
    exact exec_managed _ hg.twf (hc.ghost_calls _) (hm.of_res rfl rfl (fun _ => rfl)) h2
  | runUntilRecord cell =>
    simp only [callFn] at h
    split at h
    · cases h
      exact hm.of_res rfl rfl (fun _ => rfl)
    · cases h
  | finallyFn outR fid fb r =>
    simp only [callFn] at h
    obtain ⟨_, w1, h1, h2⟩ := bind_ok h
    simp only [logCall] at h1
    cases h1
    obtain ⟨_, w3, h3, h4⟩ := bind_ok h2
    cases h4
    have hg : Effect w { w with calls := w.calls ++ [(fid, [])] } el el :=
      Effect.of_ghost hw rfl rfl rfl rfl rfl rfl rfl rfl
    exact exec_managed _ hg.twf (hc.ghost_calls _) (hm.of_res rfl rfl (fun _ => rfl)) h3
  | actorResolve s =>
    simp only [callFn] at h
    split at h
    · next a =>
      cases hr : Resolve fuel s .nil a.asError w with
      | fault f w1 => rw [hr] at h; cases h
      | ok u w1 =>
        rw [hr] at h
        cases h
        exact Resolve_managed hm hr
    · cases h

theorem runWhen_managed {w w2 : World} {el : Slot → List Nat} (hw : TWF w el) (hc : Closed w)
    (hm : Managed w) {fuel s outer : Nat} {inTy : Ty} {tv te rr : Bool} {f : Fn}
    (h : runWhen fuel s outer inTy tv te rr f w = .ok () w2) : Managed w2 := by
  unfold runWhen at h
  cases hg : getShortest fuel s w with
  | fault e w1 => rw [hg] at h; cases h
  | ok final w1 =>
    have hw1 : w = w1 := (getShortest_world hg).symm
    subst hw1
    rw [hg] at h
    simp only at h
    split at h
    · cases h
    · split at h
      · exact Fail_managed hm h
      · split at h
        · cases h
        · next rv wc hcf =>
          have hm1 := callFn_managed hw hc hm hcf
          split at h
          · split at h
            · cases h
            · exact Forward_managed hm1 h
            · cases h
          · split at h
            · split at h
              · exact resolve_managed hm1 h
              · exact resolve_managed hm1 h
            · exact resolve_managed hm1 h
            · exact resolve_managed hm1 h

theorem runClient_managed {w w2 : World} {el : Slot → List Nat} (hw : TWF w el)
    (hc : Closed w) (hm : Managed w) {fuel fid : Nat} {f : Prog} {rv : List Iface}
    (h : (logCall fid [] >>= fun _ => exec fuel f) w = .ok rv w2) : Managed w2 := by
  obtain ⟨_, w1, h1, h2⟩ := bind_ok h
  simp only [logCall] at h1
  cases h1
  have hg : Effect w { w with calls := w.calls ++ [(fid, [])] } el el :=
    Effect.of_ghost hw rfl rfl rfl rfl rfl rfl rfl rfl
  exact exec_managed _ hg.twf (hc.ghost_calls _) (hm.of_res rfl rfl (fun _ => rfl)) h2

theorem runThunk_managed {w w2 : World} {el : Slot → List Nat} (hw : TWF w el)
    (hc : Closed w) (hm : Managed w) {fuel : Nat} {th : Thunk} (hth : ThunkClosed w th)
    (h : runThunk fuel th w = .ok () w2) : Managed w2 := by
  cases th with
  | user body =>
    simp only [runThunk] at h
    obtain ⟨_, w1, h1, h2⟩ := bind_ok h
    cases h2
    exact exec_managed _ hw hc hm h1
  | whenTurn s outer inTy tv te rr f => exact runWhen_managed hw hc hm h
  | runUntil main cell =>
    obtain ⟨hmn, -⟩ := hth
    simp only [runThunk] at h
    obtain ⟨_, w1, h1, h2⟩ := bind_ok h
    cases h2
    exact WhenT_managed hw hc hm hmn h1
  | runnerNew s fid f =>
    simp only [runThunk] at h
    split at h
    · cases h
    · next rv w1 hx =>
      split at h
      · exact Forward_managed (runClient_managed hw hc hm hx) h
      · cases h
  | actorMain s fid root =>
    simp only [runThunk] at h
    split at h
    · cases h
    · next rv w1 hx =>
      obtain ⟨el1, he1, -⟩ := runClient_ok hw hx
      obtain ⟨hc1, hv⟩ := runClient_client hx
      split at h
      · next ty x rest =>
        split at h
        · cases h
        · next o w3 hy =>
          cases h
          have hxr : x < w1.ralloc := by
            simp only [List.all_cons, resultAlloc, Bool.and_eq_true, decide_eq_true_eq] at hv
            exact hv.1
          exact WhenT_managed he1.twf (hc1.closed hc) (runClient_managed hw hc hm hx) hxr hy
      · cases h
      · cases h
  | ioResult s cell =>
    simp only [runThunk] at h
    exact Resolve_managed hm h

theorem Run_managed {w w2 : World} {el : Slot → List Nat} (hw : TWF w el) (hc : Closed w)
    (hm : Managed w) {fuel t : Nat} (ht : t < w.talloc)
    (h : Run fuel (some t) w = .ok () w2) : Managed w2 := by
  have h2 := Run_thunk h
  have hg : Effect w { w with ran := w.ran ++ [t] } el el :=
    Effect.of_ghost hw rfl rfl rfl rfl rfl rfl rfl rfl
  have hc2 : Closed { w with ran := w.ran ++ [t] } :=
    hc.of_step (le_refl _) (le_refl _) (fun a n hn => Or.inl ⟨hn, fun h => h⟩)
      (fun t ht => Or.inl ⟨ht, rfl⟩)
  exact runThunk_managed hg.twf hc2 (hm.of_res rfl rfl (fun _ => rfl))
    ((hc.thunks t ht).mono_thunk (le_refl _) (le_refl _)) h2

/-- The continuation that `RunActor` attaches to the result of the root function resolves
the resolver of the actor. -/
theorem runWhen_resolves {w w2 : World} {el : Slot → List Nat} (hw : TWF w el)
    {fuel src outer s : Nat} {inTy : Ty} {tv te rr : Bool} (hs : s < w.ralloc)
    (hval : ∃ out outR, whenValidate inTy out outR (Fn.sig (.actorResolve s)) =
      .ok (tv, te, rr))
    (h : runWhen fuel src outer inTy tv te rr (.actorResolve s) w = .ok () w2) :
    (w2.res s).turns = none := by
  obtain ⟨out, outR, hv⟩ := hval
  obtain ⟨rfl, rfl, rfl⟩ := validate_actor hv
  unfold runWhen at h
  cases hg : getShortest fuel src w with
  | fault e w1 => rw [hg] at h; cases h
  | ok final w1 =>
    have hw1 : w = w1 := (getShortest_world hg).symm
    subst hw1
    rw [hg] at h
    simp only at h
    split at h
    · cases h
    · next hres =>
      simp only [Bool.not_true, Bool.false_and, Bool.false_eq_true, if_false, if_true,
        List.nil_append, callFn, asError_ofError] at h
      cases hr : Resolve fuel s .nil (w.res final).outcome.asError w with
      | fault e w1 => rw [hr] at h; cases h
      | ok u w1 =>
        rw [hr] at h
        simp only at h
        obtain ⟨el1, he1, -, hturns⟩ := Resolve_ok hw hr
        obtain ⟨el2, he2, -⟩ := resolve_ok he1.twf h
        rw [he2.stable.res s (lt_of_lt_of_le hs he1.stable.ralloc) hturns]
        exact hturns

theorem Run_acts {R0 : List Nat} {s : Nat} {w w2 : World} {el : Slot → List Nat}
    (hw : TWF w el) (hc : Closed w) (ha : Acts R0 s w) {fuel t : Nat} (ht : t < w.talloc)
    (h : Run fuel (some t) w = .ok () w2) : Acts R0 s w2 := by
  obtain ⟨_, el2, hte, he, -, hran⟩ := Run_ok hw h
  cases hte
  have h2 := Run_thunk h
  have hg : Effect w { w with ran := w.ran ++ [t] } el el :=
    Effect.of_ghost hw rfl rfl rfl rfl rfl rfl rfl rfl
  obtain ⟨hal, r, hr, hlt, hk⟩ := ha
  have htf := he.grow.tf
  have hta := he.grow.talloc
  refine ⟨lt_of_lt_of_le hal he.stable.ralloc, r ++ [t], by rw [hran, hr, List.append_assoc],
    fun x hx => ?_, fun x src outer inTy tv te rr hx hxf => ?_⟩
  · rcases List.mem_append.1 hx with h1 | h1
    · exact lt_of_lt_of_le (hlt x h1) hta
    · rw [List.mem_singleton.1 h1]
      exact lt_of_lt_of_le ht hta
  · rcases List.mem_append.1 hx with h1 | h1
    · have hxt := hlt x h1
      rw [htf x hxt] at hxf
      have := hk x src outer inTy tv te rr h1 hxf
      rw [he.stable.res s hal this]
      exact this
    · have e := List.mem_singleton.1 h1
      subst e
      rw [htf x ht] at hxf
      have hth := hc.thunks x ht
      rw [hxf] at hth
      obtain ⟨-, -, -, hval⟩ := hth
      rw [hxf] at h2
      exact runWhen_resolves hg.twf (s := s) hal hval h2

theorem ActorRun.frame_actorRun {R0 : List Nat} {s : Nat} {w w2 : World} (ha : ActorRun R0 s w)
    (hmal : w2.malloc = w.malloc) (hral : w2.ralloc = w.ralloc)
    (hres : ∀ k, (w2.res k).manager = (w.res k).manager ∧
      ((w2.res k).turns = none ↔ (w.res k).turns = none))
    (h3 : w2.tf = w.tf) (h4 : w2.talloc = w.talloc) (h7 : w2.ran = w.ran) :
    ActorRun R0 s w2 := by
  obtain ⟨hone, hm, hal, r, hr, hlt, hk⟩ := ha
  refine ⟨by rw [hmal]; exact hone, hm.of_res hmal hral (fun k => (hres k).1),
    by rw [hral]; exact hal, r,
    by rw [h7]; exact hr, fun x hx => by rw [h4]; exact hlt x hx,
    fun x src outer inTy tv te rr hx hxf => ?_⟩
  rw [h3] at hxf
  exact (hres s).2.2 (hk x src outer inTy tv te rr hx hxf)

theorem Run_actorRun {R0 : List Nat} {s : Nat} {w w2 : World} {el : Slot → List Nat}
    (hw : TWF w el) (hc : Closed w) (ha : ActorRun R0 s w) {fuel t : Nat}
    (ht : t < w.talloc) (h : Run fuel (some t) w = .ok () w2) : ActorRun R0 s w2 := by
  obtain ⟨_, el2, -, -, hst, -⟩ := Run_ok hw h
  exact ⟨by rw [still_malloc hst]; exact ha.one, Run_managed hw hc ha.managed ht h,
    Run_acts hw hc ha.acts ht h⟩

theorem runSnapshot_acting {R0 : List Nat} {s : Nat} (inner : Nat) (n : Nat) :
    ∀ {w w2 : World} {el : Slot → List Nat} {list : Option Nat} {xs : List Nat}, TWF w el →
      Safe w → ActorRun R0 s w → Ring w.tnext list xs → (∀ i, ∀ t ∈ xs, t ∉ el i) →
      runSnapshot inner n list w = .ok () w2 → ActorRun R0 s w2 := by
  induction n with
  | zero =>
    intro w w2 el list xs hw hs ha _ _ h
    simp only [runSnapshot] at h
    split at h
    · cases h; exact ha
    · cases h
  | succ n ih =>
    intro w w2 el list xs hw hs ha hr hun h
    simp only [runSnapshot] at h
    split at h
    · cases h; exact ha
    · next hne =>
      cases xs with
      | nil =>
        exfalso; apply hne
        rw [(Ring_nil_iff _ _).1 hr]; rfl
      | cons x rest =>
        obtain ⟨z, hz⟩ := Ring_linked hr x (by simp)
        obtain ⟨h2, l2, he, hr2, hx, hwf, hfr⟩ := hw.lists.removeHead_local hr hun
        rw [he] at h
        simp only at h
        have hwa : TWF { w with tnext := h2 } el := hw.setTnext hwf (fun y hy => by
          rw [hfr y (fun hm => ?_)]
          · exact hy
          · obtain ⟨z, hz⟩ := Ring_linked hr y hm
            rw [hy] at hz; cases hz)
        have hsa : Safe { w with tnext := h2 } :=
          Safe.by_frame hw hs hwa rfl rfl rfl rfl (le_refl _) (fun _ _ h => h)
        have haa : ActorRun R0 s { w with tnext := h2 } :=
          ha.frame_actorRun rfl rfl (fun k => ⟨rfl, Iff.rfl⟩) rfl rfl rfl
        split at h
        · cases h
        · next u wb hb =>
          obtain ⟨t, elb, hte, heb, -, -⟩ := Run_ok hwa hb
          cases hte
          have hsb := Run_safe hwa hsa (hw.lt_talloc hz) hb
          have hab := Run_actorRun hwa hsa.1 haa (hw.lt_talloc hz) hb
          have hlinked : ∀ y ∈ rest, h2 y ≠ none := fun y hy e => by
            obtain ⟨z, hz⟩ := Ring_linked hr2 y hy
            rw [e] at hz; cases hz
          have hr3 : Ring wb.tnext l2 rest :=
            Ring_congr (fun y hy => heb.grow.frame y (hlinked y hy)
              (fun i hm => hun i y (List.mem_cons_of_mem _ hy) hm)) hr2
          have hun3 : ∀ i, ∀ y ∈ rest, y ∉ elb i := by
            intro i y hy hm
            rcases heb.grow.origin i y hm with ⟨j, hj⟩ | hd
            · exact hun j y (List.mem_cons_of_mem _ hy) hj
            · exact hlinked y hy hd
          exact ih heb.twf hsb hab hr3 hun3 h

theorem runOneLoop_acting {E0 : Nat → List Nat} {R0 : List Nat} {t0 cell main s fuel m : Nat}
    {w w2 : World} {el : Slot → List Nat} (hw : TWF w el) (hg : Going E0 R0 t0 cell main w)
    (ha : ActorRun R0 s w) (h : Manager.runOneLoop fuel m w = .ok () w2) :
    ActorRun R0 s w2 := by
  unfold Manager.runOneLoop at h
  split at h
  · cases h
  · next u w1 h1 =>
    obtain ⟨el1, ing, hw1, hg1, -, -, hr1, -, hta1, htf1, hres1, hral1, hmal1⟩ :=
      ingestSources_going fuel hw hg h1
    have ha1 : ActorRun R0 s w1 := ha.frame_actorRun hmal1 hral1 hres1 htf1 hta1 hr1
    obtain ⟨hwts, hring, hun⟩ := snapshot_start hw1 m
    obtain ⟨ws, hws⟩ : ∃ y : World, y = { w1 with mgr := (Function.update w1.mgr m
        { w1.mgr m with turns := some Empty }) } := ⟨_, rfl⟩
    rw [← hws] at h hwts
    have hring2 : Ring ws.tnext (w1.mgr m).turns (el1 (.queue m)) := by
      subst hws; exact hring
    have hss : Safe ws := by
      subst hws
      refine Safe.by_frame hw1 hg1.safe hwts rfl rfl rfl rfl (le_refl _) (fun k t ht => ?_)
      have hne : Slot.pending k ≠ Slot.queue m := by simp
      rw [Function.update_noteq hne]
      exact ht
    have has : ActorRun R0 s ws := by
      subst hws
      exact ha1.frame_actorRun rfl rfl (fun k => ⟨rfl, Iff.rfl⟩) rfl rfl rfl
    exact runSnapshot_acting fuel fuel hwts hss has hring2 hun h

theorem cycles_acting {E0 : Nat → List Nat} {R0 : List Nat} {t0 cell main s fuel m : Nat}
    {w : World} {el : Slot → List Nat} (hw : TWF w el) (hg : Going E0 R0 t0 cell main w)
    (hq : Queued E0 R0 m w el) (ha : ActorRun R0 s w) :
    ∀ (n : Nat) {wn : World}, cycles fuel m cell n w = .ok () wn → ActorRun R0 s wn := by
  intro n
  induction n with
  | zero => intro wn h; cases h; exact ha
  | succ n ih =>
    intro wn h
    simp only [cycles] at h
    split at h
    · cases h
    · next u w1 h1 =>
      obtain ⟨el1, -, hw1, hg1, -, -, -, -, -⟩ := cycles_going hw hg hq n h1
      have ha1 := ih h1
      split at h
      · cases h
      · next u2 w2 h2 =>
        have ha2 := runOneLoop_acting hw1 hg1 ha1 h2
        have hcore := waitForSources_core h
        simp only [World.core, Prod.mk.injEq] at hcore
        obtain ⟨c1, c2, c3, c4, c5, c6, c7, c8, c9, c10, c11, c12, c13⟩ := hcore
        exact ha2.frame_actorRun (waitForSources_malloc h) c6
          (fun k => by rw [c5]; exact ⟨rfl, Iff.rfl⟩) c2 c4 c11

end Drydock


namespace Drydock

/-! ### `RunActor` returns -/

theorem Thunk.of_actorCont {th : Thunk} {src outer s : Nat} {inTy : Ty} {tv te rr : Bool}
    (h : th.isActorCont src outer inTy tv te rr s = true) :
    th = .whenTurn src outer inTy tv te rr (.actorResolve s) := by
  cases th with
  | whenTurn a b c d e f g =>
    cases g with
    | actorResolve s2 =>
      simp only [Thunk.isActorCont, Bool.and_eq_true, beq_iff_eq] at h
      obtain ⟨⟨⟨⟨⟨⟨rfl, rfl⟩, rfl⟩, rfl⟩, rfl⟩, rfl⟩, rfl⟩ := h
      rfl
    | user _ _ _ => cases h
    | runUntilRecord _ => cases h
    | finallyFn _ _ _ _ => cases h
  | user _ => cases h
  | runUntil _ _ => cases h
  | runnerNew _ _ _ => cases h
  | actorMain _ _ _ => cases h
  | ioResult _ _ => cases h

theorem cycles_actorInv {s tm x fuel m cell : Nat} :
    ∀ (n : Nat) {w wn : World} {el : Slot → List Nat}, TWF w el → Safe w →
      ActorInv s tm x w → cycles fuel m cell n w = .ok () wn →
      ∃ eln, TWF wn eln ∧ Safe wn ∧ ActorInv s tm x wn := by
  intro n
  induction n with
  | zero => intro w wn el hw hs hi h; cases h; exact ⟨el, hw, hs, hi⟩
  | succ n ih =>
    intro w wn el hw hs hi h
    simp only [cycles] at h
    split at h
    · cases h
    · next u w1 h1 =>
      obtain ⟨el1, hw1, hs1, hi1⟩ := ih hw hs hi h1
      split at h
      · cases h
      · next u2 w2 h2 =>
        have hg := @runOneLoop_good fuel m _ _ hw1 hs1
        rw [h2] at hg
        obtain ⟨⟨el2, hw2⟩, hs2⟩ := hg
        have hi2 := runOneLoop_actor hw1 hs1 hi1 h2
        have hcore := waitForSources_core h
        exact ⟨el2, TWF.of_core hcore hw2, hs2.keep_core hw2 hcore,
          hi2.by_core hw2 hs2.1 hcore⟩

theorem Managed.actorBase_managed : Managed World.actorBase := by
  intro a ha
  have h2 : a < 2 := ha
  have : a = 0 ∨ a = 1 := by omega
  rcases this with rfl | rfl
  · show (World.actorBase.res 0).manager < 1
    simp [World.actorBase]
  · show (World.actorBase.res 1).manager < 1
    simp [World.actorBase]

/-- C23 (RunActor end to end).  `RunActor(root)` on the world in which nothing is allocated
yet, for a root function that uses the runner it is given (manager 0, `done` at resolver 0)
and has no access to the resolver 1 and the turn 1 that `RunActor` keeps to itself.  Let the
turn `t` be the continuation that `RunActor` attached to the result of the root function, and
`src` that result as the continuation holds it.  If after `n ≥ 1` cycles of the manager the
queued turns have resolved the result, its forwarding chain ending in a resolved resolver
`final`, and two more cycles return, then `RunActor` returns, and what it returns is the
error of `final`: `nil` when the result completed successfully and the very error `e` when it
failed with `e`.  The turn "Main" was the first to run and made the first call of client
code, the call of `root`, and `final` ends the forwarding chain of the result `x` that the
call returned. -/
theorem run_actor_result (fuel fid n t src outer final : Nat) (inTy : Ty) (tv te rr : Bool)
    (root : Runner → Prog) (wn wN : World) (hroot : (root ⟨0, 0⟩).Avoids 1 1)
    (hn : 1 ≤ n) (hfuel : n + 2 ≤ fuel)
    (hcyc : cycles fuel 0 (World.atActor fid root).calloc n
      (World.atRunUntil 0 1 (World.atActor fid root)) = .ok () wn)
    (ht : t < wn.talloc)
    (hcont : wn.tf t = .whenTurn src outer inTy tv te rr (.actorResolve 1))
    (hch : Chain wn src final) (hnext : (wn.res final).next = none)
    (hres : (wn.res final).turns = none)
    (hmore : cycles fuel 0 (World.atActor fid root).calloc (n + 2)
      (World.atRunUntil 0 1 (World.atActor fid root)) = .ok () wN) :
    ∃ ret w2, RunActor fuel fid root World.init = .ok ret w2 ∧
      ret = (wn.res final).outcome.asError ∧
      ∃ wr wb ty x vals, wr.calls = [(fid, [])] ∧ wr.ran = [1] ∧
        wr.res = World.actorBase.res ∧ wr.ralloc = 2 ∧
        exec fuel (root ⟨0, 0⟩) wr = .ok (.result ty (some x) :: vals) wb ∧
        Chain wn x final := by
  -- the world in which `RunUntil` is called
  obtain ⟨wa, h3⟩ :=
    Manager.NewTurn_total TWF.at_actorBase 0 "Main" (.actorMain 1 fid (root ⟨0, 0⟩))
  have hinit : actorInit fid root World.init = .ok (0, 1) wa := by
    rw [actorInit_eq]
    simp only [bind_apply, h3, pure_apply]
  have hat : World.atActor fid root = wa := by
    unfold World.atActor
    rw [hinit]
    rfl
  rw [hat] at hcyc hmore
  obtain ⟨heff, hq, htf, hresa, hta⟩ := Manager.NewTurn_effect TWF.at_actorBase h3
  have hra := Manager.NewTurn_ralloc h3
  have hsa : Safe wa := Manager.NewTurn_keeps TWF.at_actorBase Safe.actorBase_safe
    (show ThunkClosed World.actorBase (.actorMain 1 fid (root ⟨0, 0⟩)) from
      (by decide : (1 : Nat) < 2))
    (fun _ _ _ _ _ _ _ e => by cases e) h3
  have hmain : 1 < wa.ralloc := by rw [hra]; decide
  have hma : Managed wa := Manager.NewTurn_managed TWF.at_actorBase Managed.actorBase_managed h3
  -- the world in which the loop of `RunUntil` starts
  obtain ⟨w1, el1, hnt, hw1, hg1, hq1, hmem1, hran1⟩ :=
    RunUntil_begin (m := 0) heff.twf hsa hmain
  have hstart : World.atRunUntil 0 1 wa = w1 := by
    unfold World.atRunUntil
    rw [hnt]
    rfl
  rw [hstart] at hcyc hmore
  have hwc : TWF wa.withCell _ :=
    Effect.twf (Effect.of_ghost heff.twf rfl rfl rfl rfl rfl rfl rfl rfl)
  obtain ⟨heff1, hq1q, htf1, hres1, hta1⟩ := Manager.NewTurn_effect hwc hnt
  have hra1 := Manager.NewTurn_ralloc hnt
  have hel1 := TWF.unique hw1 heff1.twf
  subst hel1
  have ta : wa.talloc = 2 := hta
  have ta1 : w1.talloc = 3 := by
    rw [hta1]
    show wa.talloc + 1 = 3
    rw [ta]
  have r1 : w1.res = World.actorBase.res := by
    rw [hres1]
    exact hresa
  have ra1 : w1.ralloc = 2 := by
    rw [hra1]
    exact hra
  have tf1 : w1.tf 1 = .actorMain 1 fid (root ⟨0, 0⟩) := by
    rw [heff1.grow.tf 1 (by show 1 < wa.talloc; rw [ta]; decide)]
    exact htf
  have tf0 : w1.tf 0 = .user (.ret []) := by
    rw [heff1.grow.tf 0 (by show 0 < wa.talloc; rw [ta]; decide)]
    show wa.tf 0 = _
    rw [heff.grow.tf 0 (by decide)]
    rfl
  have tf2 : w1.tf 2 = .runUntil 1 wa.calloc := by
    have := htf1
    rw [show wa.withCell.talloc = 2 from ta] at this
    exact this
  have hel : Function.update (Function.update (fun _ : Slot => ([] : List Nat)) (.queue 0)
      ((fun _ : Slot => ([] : List Nat)) (.queue 0) ++ [World.actorBase.talloc])) (.queue 0)
      (Function.update (fun _ : Slot => ([] : List Nat)) (.queue 0)
      ((fun _ : Slot => ([] : List Nat)) (.queue 0) ++ [World.actorBase.talloc]) (.queue 0) ++
        [wa.withCell.talloc]) (.queue 0) = 1 :: [2] := by
    simp only [Function.update_same, List.nil_append]
    rw [show wa.withCell.talloc = 2 from ta]
    rfl
  have hns : NoSignal w1 0 := by
    intro c hc e he
    rw [quiet_sources hq1q 0] at hc
    have hc2 : c ∈ (wa.mgr 0).sources.cases := hc
    rw [quiet_sources hq 0] at hc2
    have hc3 : c ∈ [(⟨.selectDefault, none⟩ : SelectCase)] := hc2
    simp only [List.mem_singleton] at hc3
    subst hc3
    cases he
  have hth : ∀ t, t < w1.talloc → t ≠ 1 → (w1.tf t).Avoids 1 1 := by
    intro t ht hne
    rw [ta1] at ht
    have h02 : t = 0 ∨ t = 2 := by omega
    rcases h02 with rfl | rfl
    · rw [tf0]
      intro v hv
      cases hv
    · rw [tf2]
      trivial
  have hout : ∀ a, Iface.Avoids 1 (w1.res a).outcome := by
    intro a
    rw [r1, actorBase_outcome]
    trivial
  have hone1 : w1.malloc = 1 := by
    rw [quiet_malloc hq1q]
    show wa.malloc = 1
    rw [quiet_malloc hq]
    rfl
  have ha1 : ActorRun wa.ran 1 w1 :=
    ⟨hone1, Manager.NewTurn_managed hwc (hma.of_res rfl rfl (fun _ => rfl)) hnt,
      by rw [ra1]; decide, [], by rw [hran1]; simp, fun _ h => (by cases h),
      fun _ _ _ _ _ _ _ h => (by cases h)⟩
  -- the cycles up to the one after which the result of the root function is resolved
  obtain ⟨eln, xsn, hwn, hgn, hqn, hstn, hrann, hmemn, htan, htfn⟩ :=
    cycles_going hw1 hg1 hq1 n hcyc
  have han := cycles_acting hw1 hg1 hq1 ha1 n hcyc
  -- the first cycle runs the turn "Main"
  obtain ⟨d, hd⟩ : ∃ d, n = 1 + d := ⟨n - 1, by omega⟩
  have hcyc1 : cycles fuel 0 wa.calloc (1 + d) w1 = .ok () wn := by rw [← hd]; exact hcyc
  obtain ⟨wc1, hc1, hrest⟩ := cycles_add fuel 0 wa.calloc 1 d hcyc1
  obtain ⟨wl, hl, hwait1⟩ := cycles_one hc1
  have hgood := @runOneLoop_good fuel 0 _ _ hw1 hg1.safe
  rw [hl] at hgood
  obtain ⟨⟨ell, hwl⟩, hsl⟩ := hgood
  obtain ⟨wr, wb, ty, x, vals, k1, k2, k3, k4, k5, hil⟩ :=
    runOneLoop_main hw1 hg1.safe hel hns tf1 hroot (by rw [ra1]; decide)
      (by rw [r1]; simp [World.actorBase]) (by rw [r1]; simp [World.actorBase]) hth hout hl
  have hcore1 := waitForSources_core hwait1
  obtain ⟨-, -, -, hin⟩ := cycles_actorInv d (TWF.of_core hcore1 hwl)
    (hsl.keep_core hwl hcore1) (hil.by_core hwl hsl.1 hcore1) hrest
  -- the continuation of `RunActor` awaits the result of the root function
  have ht1 : t ≠ 1 := by
    intro e
    subst e
    rw [htfn 1 (by rw [ta1]; decide), tf1] at hcont
    cases hcont
  have hxs : Chain wn x src := by
    rcases hin.thunks t ht ht1 with hav | ⟨src2, outer2, inTy2, tv2, te2, rr2, e, -, hchx⟩
    · rw [hcont] at hav
      exact hav.2.elim
    · rw [hcont] at e
      cases e
      exact hchx
  have hxf : Chain wn x final := hxs.trans_chain hch
  have ht0 : wa.talloc ≤ t := by
    rw [ta]
    by_contra hlt
    have h01 : t = 0 := by omega
    subst h01
    rw [htfn 0 (by rw [ta1]; decide), tf0] at hcont
    cases hcont
  have hsrc : src < wn.ralloc := by
    have := hgn.safe.1.thunks t ht
    rw [hcont] at this
    exact this.1
  have hfr : final < wn.ralloc := Chain.lt_ralloc hgn.safe.1 hch hsrc
  have hmgr : (wn.res final).manager = 0 := by
    have := han.managed final hfr
    rw [han.one] at this
    omega
  obtain ⟨add, hadd, hmem⟩ :=
    hgn.deliv.2 t src outer inTy tv te rr _ ht0 ht hcont final hch hnext hres
  rw [hmgr] at hadd
  -- one more cycle runs the continuation, which resolves the resolver of the actor
  obtain ⟨wn2, hc2, htwo⟩ := cycles_add fuel 0 wa.calloc n 2 hmore
  rw [hcyc] at hc2
  cases hc2
  obtain ⟨wn1, hone, hlast⟩ := cycles_add fuel 0 wa.calloc 1 1 htwo
  obtain ⟨eln1, xs1, hwn1, hgn1, hqn1, hst1, hran1n, hmem1n, hta1n, htf1n⟩ :=
    cycles_going hwn hgn hqn 1 hone
  have han1 := cycles_acting hwn hgn hqn han 1 hone
  obtain ⟨-, -, hsn1, hin1⟩ := cycles_actorInv 1 hwn hgn.safe hin hone
  have hturns1 : (wn1.res 1).turns = none := by
    obtain ⟨r2, a, hr2, ha2, hqa⟩ := hqn
    have ea : a = add := List.append_cancel_left (ha2.symm.trans hadd)
    subst ea
    obtain ⟨-, r3, hr3, -, hk3⟩ := han1.acts
    have e3 : r3 = r2 ++ xs1 := by
      apply @List.append_cancel_left _ wa.ran
      rw [← hr3, hran1n, hr2, List.append_assoc]
    have hin3 : t ∈ r3 := by
      rw [e3]
      rcases hqa t hmem with h4 | h4
      · exact List.mem_append_left _ h4
      · exact List.mem_append_right _ (hmem1n (le_refl _) t h4)
    exact hk3 t src outer inTy tv te rr hin3 (by rw [htf1n t ht]; exact hcont)
  have hmgr1 : (wn1.res 1).manager = 0 := by
    have := han1.managed 1 han1.acts.alloc
    rw [han1.one] at this
    omega
  -- the loop of `RunUntil` ends
  have hcycA : cycles fuel 0 wa.calloc (n + 1) (World.atRunUntil 0 1 wa) = .ok () wn1 := by
    rw [hstart]
    exact cycles_append fuel 0 wa.calloc n 1 hcyc hone
  have hmoreA : cycles fuel 0 wa.calloc (n + 1 + 1) (World.atRunUntil 0 1 wa) = .ok () wN := by
    rw [hstart]
    exact hmore
  obtain ⟨ret, w2, hrun, hret, -⟩ := RunUntil_returns fuel 0 1 (n + 1) 1 wa wn1 wN _ heff.twf
    hsa hmain (by omega) (by omega) hcycA (Chain.refl 1) hin1.subject hturns1 hmgr1 hmoreA
  have hactor : RunActor fuel fid root World.init = .ok ret w2 := by
    show (actorInit fid root >>= fun ms => Manager.RunUntil fuel ms.1 ms.2) World.init = _
    simp only [bind_apply, hinit]
    exact hrun
  -- the error is the one of the result of the root function
  obtain ⟨f2, g1, -, g2, g3, g4⟩ := hin1.resolved hturns1
  have efin := hst1.res final hfr hres
  have hfin : f2 = final :=
    g1.tail_unique (hxf.keep hgn.safe.1 hst1) g2 (by rw [efin]; exact hnext)
  subst hfin
  refine ⟨ret, w2, hactor, ?_, wr, wb, ty, x, vals, ?_, ?_, ?_, ?_, k5, hxf⟩
  · rw [hret, g4, efin]
  · rw [k1, quiet_calls hq1q]
    show wa.calls ++ _ = _
    rw [quiet_calls hq]
    rfl
  · rw [k2, quiet_ran hq1q]
    show wa.ran ++ _ = _
    rw [quiet_ran hq]
    rfl
  · rw [k3, r1]
  · rw [k4, ra1]

theorem run_actor_result_witness :
    (RunActor 5 9 rootDone World.init).val? = some none ∧
    (RunActor 5 9 (rootError ⟨7⟩) World.init).val? = some (some ⟨7⟩) ∧
    ∃ ret w2, RunActor 5 9 rootLater World.init = .ok ret w2 ∧ ret = some ⟨7⟩ ∧
      ∃ wr wb ty x vals, wr.calls = [(9, [])] ∧ wr.ran = [1] ∧
        wr.res = World.actorBase.res ∧ wr.ralloc = 2 ∧
        exec 5 (rootLater ⟨0, 0⟩) wr = .ok (.result ty (some x) :: vals) wb ∧
        Chain (cycles 5 0 (World.atActor 9 rootLater).calloc 2
          (World.atRunUntil 0 1 (World.atActor 9 rootLater))).world x 2 := by
  refine ⟨by decide!, by decide!, ?_⟩
  obtain ⟨ret, w2, h1, h2, h3⟩ := run_actor_result 5 9 2 4 2 3 2 .iface false true false
    rootLater
    (cycles 5 0 (World.atActor 9 rootLater).calloc 2
      (World.atRunUntil 0 1 (World.atActor 9 rootLater))).world
    (cycles 5 0 (World.atActor 9 rootLater).calloc 4
      (World.atRunUntil 0 1 (World.atActor 9 rootLater))).world
    (fun a ha => ⟨⟨ha, fun v hv => by cases hv⟩, fun v hv => by
      simp only [List.mem_singleton] at hv
      subst hv
      exact ha⟩)
    (by decide) (by decide) (Res.ok_of_val (by decide!)) (by decide!)
    (Thunk.of_actorCont (by decide!)) (Chain.refl 2) (by decide!) (by decide!)
    (Res.ok_of_val (by decide!))
  refine ⟨ret, w2, h1, ?_, h3⟩
  rw [h2]
  decide!

end Drydock


namespace Drydock

/-! ### The I/O bridge: what the steps of the threads keep -/

theorem reflectSelect_io {m : Nat} {w w1 : World} {r : Nat × Bool}
    (h : reflectSelect m w = .ok r w1) : w1.io = w.io := by
  unfold reflectSelect at h
  simp only at h
  split at h
  · split at h
    · split at h <;> cases h <;> rfl
    · cases h
  · split at h
    · cases h; rfl
    · cases h

theorem remove_io {m i : Nat} {w w1 : World}
    (h : EventSet.remove m i w = .ok () w1) : w1.io = w.io := by
  unfold EventSet.remove at h
  split at h
  · cases h
  · simp only at h
    split at h
    · split at h
      · cases h; rfl
      · cases h
    · cases h

theorem chooseLoop_io {m : Nat} (n : Nat) :
    ∀ {w w1 : World} {e : Option Nat}, chooseLoop m n w = .ok e w1 → w1.io = w.io := by
  induction n with
  | zero =>
    intro w w1 e h
    simp only [chooseLoop] at h
    split at h <;> cases h
    rfl
  | succ n ih =>
    intro w w1 e h
    simp only [chooseLoop] at h
    split at h
    · split at h
      · cases h
      · next chosen recvOK wa ha =>
        have hca := reflectSelect_io ha
        split at h
        · cases h; exact hca
        · split at h
          · split at h
            · cases h; exact hca
            · cases h
          · split at h
            · cases h
            · next u wb hb => rw [ih h, remove_io hb, hca]
    · cases h; rfl

theorem choose_io {m fuel : Nat} {b : Bool} {w w1 : World} {e : Option Nat}
    (h : EventSet.choose fuel m b w = .ok e w1) : w1.io = w.io := by
  unfold EventSet.choose at h
  simp only at h
  split at h
  · cases h
  · rw [chooseLoop_io fuel h]
    rfl

/-- The loop that moves a list onto the queue of the manager touches the links of the turns
moved and of the turns in the queue, and nothing of the resolvers and the sources. -/
theorem ingestList_keeps (m : Nat) (n : Nat) :
    ∀ {w w2 : World} {el : Slot → List Nat} {list : Option Nat} {xs : List Nat}, TWF w el →
      Ring w.tnext list xs → (∀ i, ∀ t ∈ xs, t ∉ el i) →
      ingestList m n list w = .ok () w2 →
      w2.res = w.res ∧ w2.io = w.io ∧
        ∀ y, y ∉ xs → y ∉ el (.queue m) → w2.tnext y = w.tnext y := by
  induction n with
  | zero =>
    intro w w2 el list xs hw hr _ h
    simp only [ingestList] at h
    split at h
    · cases h
      exact ⟨rfl, rfl, fun _ _ _ => rfl⟩
    · cases h
  | succ n ih =>
    intro w w2 el list xs hw hr hun h
    simp only [ingestList] at h
    split at h
    · cases h
      exact ⟨rfl, rfl, fun _ _ _ => rfl⟩
    · next hne =>
      cases xs with
      | nil =>
        exfalso; apply hne
        rw [(Ring_nil_iff _ _).1 hr]; rfl
      | cons x rest =>
        obtain ⟨z, hz⟩ := Ring_linked hr x (by simp)
        have hx0 : x ≠ Empty := fun e => hr.2.2.2 (by simp [e])
        have hxr : x ∉ rest := (List.nodup_cons.1 hr.2.2.1).1
        obtain ⟨h2, l2, he, hr2, hx, hwf, hfr⟩ := hw.lists.removeHead_local hr hun
        have hwa : TWF { w with tnext := h2 } el := hw.setTnext hwf (fun y hy => by
          rw [hfr y (fun hm => ?_)]
          · exact hy
          · obtain ⟨z, hz⟩ := Ring_linked hr y hm
            rw [hy] at hz; cases hz)
        obtain ⟨wb, hqe, hwb, hqo, hfrb, -, hresb⟩ :=
          @Manager.Queue_spec _ _ hwa m x hx0 hx (hw.lt_talloc hz)
        rw [he] at h
        simp only [hqe] at h
        have hiob : wb.io = w.io := by
          have hq := hqe
          unfold Manager.Queue at hq
          split at hq
          · cases hq
          · cases hq; rfl
        have hr3 : Ring wb.tnext l2 rest :=
          Ring_congr (fun y hy => hfrb y (fun e => hxr (e ▸ hy))
            (hun _ y (List.mem_cons_of_mem _ hy))) hr2
        have hun3 : ∀ i, ∀ t ∈ rest,
            t ∉ Function.update el (.queue m) (el (.queue m) ++ [x]) i := by
          intro i t ht
          by_cases hi : i = .queue m
          · subst hi
            rw [Function.update_same]
            intro hm
            rcases List.mem_append.1 hm with hm | hm
            · exact hun _ t (List.mem_cons_of_mem _ ht) hm
            · simp only [List.mem_singleton] at hm
              exact hxr (hm ▸ ht)
          · rw [Function.update_noteq hi]
            exact hun i t (List.mem_cons_of_mem _ ht)
        obtain ⟨k1, k2, k3⟩ := ih hwb hr3 hun3 h
        refine ⟨by rw [k1, hresb], by rw [k2, hiob], fun y hy hq => ?_⟩
        have hyx : y ≠ x := fun e => hy (by rw [e]; exact List.mem_cons_self _ _)
        have hyr : y ∉ rest := fun hm => hy (List.mem_cons_of_mem _ hm)
        rw [k3 y hyr (by
          rw [Function.update_same]
          intro hm
          rcases List.mem_append.1 hm with hm | hm
          · exact hq hm
          · simp only [List.mem_singleton] at hm
            exact hyx hm)]
        rw [hfrb y hyx hq]
        exact hfr y hy

/-- The turn lists stay well formed, with the same elements, when the handles of the lists
and the links of their turns stay, except that resolvers without continuations may become
resolved. -/
theorem TWF.frame_twf {w w2 : World} {el : Slot → List Nat} (hw : TWF w el)
    (hmgr : ∀ m, (w2.mgr m).turns = (w.mgr m).turns) (hsrc : w2.src = w.src)
    (hres : ∀ a, (w2.res a).turns = (w.res a).turns ∨
      ((w2.res a).turns = none ∧ el (.pending a) = []))
    (htn : ∀ i, ∀ y ∈ el i, w2.tnext y = w.tnext y) (he : w2.tnext Empty = none)
    (hfresh : ∀ t, w2.talloc ≤ t → w2.tnext t = none) (hpos : 0 < w2.talloc) :
    TWF w2 el := by
  refine ⟨⟨fun i l h => ?_, fun i h => ?_, hw.lists.disj⟩, he, hfresh, hpos⟩
  · have hold : handle w i = some l := by
      cases i with
      | queue m => simpa [handle, hmgr m] using h
      | pending a =>
        rcases hres a with hr | ⟨hr, -⟩
        · simpa [handle, hr] using h
        · simp [handle, hr] at h
      | source j => simpa [handle, hsrc] using h
    exact Ring_congr (fun y hy => htn i y hy) (hw.lists.rings i l hold)
  · cases i with
    | queue m => simp [handle] at h
    | pending a =>
      rcases hres a with hr | ⟨-, hr⟩
      · exact hw.lists.inactive _ (by simpa [handle, hr] using h)
      · exact hr
    | source j => simp [handle] at h

theorem Resolve_fresh {w : World} {s : Nat} (fuel : Nat) (e : Option Err)
    (hs : (w.res s).turns = some Empty) :
    Resolve fuel s .nil e w = .ok () { w with
      res := Function.update w.res s { w.res s with turns := none, outcome := ofError e } } := by
  have hq : ∀ w3 : World, queueList s fuel (some Empty) w3 = .ok () w3 := by
    intro w3
    cases fuel <;> simp [queueList, IsEmpty]
  cases e with
  | none =>
    simp [Resolve, bind_apply, assertTrue, Iface.asError, resolve, isResolved, hs, hq, ofError]
  | some e =>
    simp [Resolve, bind_apply, assertTrue, Iface.asError, resolve, isResolved, hs, hq, ofError]

theorem Run_ioResult {w : World} {t s c : Nat} (fuel : Nat) (ht0 : t ≠ Empty)
    (ht : w.tnext t = none) (htf : w.tf t = .ioResult s c)
    (hs : (w.res s).turns = some Empty) :
    Run fuel (some t) w = .ok () { w with
      ran := w.ran ++ [t]
      res := Function.update w.res s
        { w.res s with turns := none, outcome := ofError (w.errs c) } } := by
  have h1 : IsEmpty (some t) = false := by
    simp only [IsEmpty, beq_eq_false_iff_ne, ne_eq, Option.some.injEq]
    exact ht0
  unfold Run
  simp only [h1, Bool.false_eq_true, if_false, ht, Option.isSome_none, htf, runThunk]
  exact Resolve_fresh fuel _ hs

/-- The snapshot loop on a list of completion turns whose results are unresolved, without
continuations and pairwise different: it runs the turns in order, each resolves its result
with the error in its variable `err`, and nothing else changes. -/
theorem runSnapshot_io (inner : Nat) (n : Nat) :
    ∀ {w w2 : World} {list : Option Nat} {xs : List Nat}, Ring w.tnext list xs →
      (∀ t ∈ xs, ∃ s c, w.tf t = .ioResult s c ∧ (w.res s).turns = some Empty) →
      (∀ t1 ∈ xs, ∀ t2 ∈ xs, ∀ s c1 c2, w.tf t1 = .ioResult s c1 → w.tf t2 = .ioResult s c2 →
        t1 = t2) →
      runSnapshot inner n list w = .ok () w2 →
      w2.ran = w.ran ++ xs ∧ w2.outside = w.outside ∧
        (∀ y, y ∉ xs → w2.tnext y = w.tnext y) ∧ (∀ t ∈ xs, w2.tnext t = none) ∧
        (∀ t ∈ xs, ∀ s c, w.tf t = .ioResult s c →
          (w2.res s).turns = none ∧ (w2.res s).outcome = ofError (w.errs c)) ∧
        ∀ a, (∀ t ∈ xs, ∀ c, w.tf t ≠ .ioResult a c) → w2.res a = w.res a := by
  induction n with
  | zero =>
    intro w w2 list xs hr _ _ h
    simp only [runSnapshot] at h
    split at h
    · next he =>
      cases h
      have := Ring_isEmpty hr he
      subst this
      exact ⟨by simp, rfl, fun _ _ => rfl, fun _ ht => absurd ht (List.not_mem_nil _),
        fun _ ht => absurd ht (List.not_mem_nil _), fun _ _ => rfl⟩
    · cases h
  | succ n ih =>
    intro w w2 list xs hr hio hinj h
    simp only [runSnapshot] at h
    split at h
    · next he =>
      cases h
      have := Ring_isEmpty hr he
      subst this
      exact ⟨by simp, rfl, fun _ _ => rfl, fun _ ht => absurd ht (List.not_mem_nil _),
        fun _ ht => absurd ht (List.not_mem_nil _), fun _ _ => rfl⟩
    · next hne =>
      cases xs with
      | nil =>
        exfalso; apply hne
        rw [(Ring_nil_iff _ _).1 hr]; rfl
      | cons x rest =>
        have hx0 : x ≠ Empty := fun e => hr.2.2.2 (by simp [e])
        have hxr : x ∉ rest := (List.nodup_cons.1 hr.2.2.1).1
        obtain ⟨h2, l2, he, hr2, hx, hfr⟩ := RemoveHead_ring hr
        rw [he] at h
        simp only at h
        obtain ⟨s, c, htf, hs⟩ := hio x (List.mem_cons_self _ _)
        obtain ⟨wa, hwa⟩ : ∃ y : World, y = { w with tnext := h2 } := ⟨_, rfl⟩
        rw [← hwa] at h
        have hrun := @Run_ioResult wa x s c inner hx0 (by subst hwa; exact hx)
          (by subst hwa; exact htf) (by subst hwa; exact hs)
        rw [hrun] at h
        simp only at h
        obtain ⟨wb, hwb⟩ : ∃ y : World, y = { wa with
            ran := wa.ran ++ [x]
            res := (Function.update wa.res s
              { wa.res s with turns := none, outcome := ofError (wa.errs c) }) } := ⟨_, rfl⟩
        rw [← hwb] at h
        have b1 : wb.tnext = h2 := by subst hwb; subst hwa; rfl
        have b2 : wb.tf = w.tf := by subst hwb; subst hwa; rfl
        have b3 : wb.ran = w.ran ++ [x] := by subst hwb; subst hwa; rfl
        have b4 : wb.outside = w.outside := by subst hwb; subst hwa; rfl
        have b5 : wb.errs = w.errs := by subst hwb; subst hwa; rfl
        have b6 : wb.res = Function.update w.res s
            { w.res s with turns := none, outcome := ofError (w.errs c) } := by
          subst hwb; subst hwa; rfl
        have hio2 : ∀ t ∈ rest, ∃ s2 c2, wb.tf t = .ioResult s2 c2 ∧
            (wb.res s2).turns = some Empty := by
          intro t ht
          obtain ⟨s2, c2, h5, h6⟩ := hio t (List.mem_cons_of_mem _ ht)
          refine ⟨s2, c2, by rw [b2]; exact h5, ?_⟩
          have hne2 : s2 ≠ s := by
            intro e
            subst e
            have := hinj t (List.mem_cons_of_mem _ ht) x (List.mem_cons_self _ _) _ _ _ h5 htf
            exact hxr (this ▸ ht)
          rw [b6, Function.update_noteq hne2]
          exact h6
        have hinj2 : ∀ t1 ∈ rest, ∀ t2 ∈ rest, ∀ s2 c1 c2, wb.tf t1 = .ioResult s2 c1 →
            wb.tf t2 = .ioResult s2 c2 → t1 = t2 := by
          intro t1 h1 t2 h2 s2 c1 c2 e1 e2
          rw [b2] at e1 e2
          exact hinj t1 (List.mem_cons_of_mem _ h1) t2 (List.mem_cons_of_mem _ h2) _ _ _ e1 e2
        obtain ⟨k1, k2, k3, k4, k5, k6⟩ := ih (by rw [b1]; exact hr2) hio2 hinj2 h
        refine ⟨by rw [k1, b3]; simp, by rw [k2, b4], fun y hy => ?_, fun t ht => ?_,
          fun t ht s2 c2 h5 => ?_, fun a ha => ?_⟩
        · rw [k3 y (fun hm => hy (List.mem_cons_of_mem _ hm)), b1]
          exact hfr y hy
        · rcases List.mem_cons.1 ht with rfl | ht
          · rw [k3 t hxr, b1]
            exact hx
          · exact k4 t ht
        · rcases List.mem_cons.1 ht with rfl | ht
          · rw [htf] at h5
            cases h5
            have hno : ∀ t2 ∈ rest, ∀ c3, wb.tf t2 ≠ .ioResult s c3 := by
              intro t2 ht2 c3 e
              rw [b2] at e
              have := hinj t2 (List.mem_cons_of_mem _ ht2) t (List.mem_cons_self _ _) _ _ _ e htf
              exact hxr (this ▸ ht2)
            rw [k6 s hno, b6]
            simp
          · have := k5 t ht s2 c2 (by rw [b2]; exact h5)
            rw [b5] at this
            exact this
        · rw [k6 a (fun t ht c3 e => ha t (List.mem_cons_of_mem _ ht) c3 (by rw [← b2]; exact e)), b6]
          have hne2 : a ≠ s := fun e => ha x (List.mem_cons_self _ _) c (by rw [e]; exact htf)
          rw [Function.update_noteq hne2]

end Drydock


namespace Drydock

/-! ### The I/O bridge: the steps of the goroutines keep the invariant -/

theorem Worker.Placed.transport {k : Worker} {m : Nat} {w w2 : World}
    {el el2 : Slot → List Nat} (h : k.Placed m w el)
    (htn : w.tnext k.turn = none → w2.tnext k.turn = none) (hfresh : k.Fresh w → k.Fresh w2)
    (herr : w2.errs k.cell = w.errs k.cell)
    (hsrc : k.turn ∈ el (.source k.src) →
      k.turn ∈ el2 (.source k.src) ∨ k.turn ∈ el2 (.queue m))
    (hq : k.turn ∈ el (.queue m) → k.turn ∈ el2 (.queue m))
    (hdel : k.Delivered w → k.Delivered w2) : k.Placed m w2 el2 := by
  unfold Worker.Placed at h ⊢
  cases hpc : k.pc with
  | calling =>
    rw [hpc] at h
    exact ⟨htn h.1, hfresh h.2⟩
  | locking =>
    rw [hpc] at h
    exact ⟨htn h.1, hfresh h.2.1, by rw [herr]; exact h.2.2⟩
  | signalling =>
    rw [hpc] at h
    refine ⟨by rw [herr]; exact h.1, ?_⟩
    rcases h.2 with ⟨h1, h2⟩ | ⟨h1, h2⟩ | h1
    · rcases hsrc h1 with h3 | h3
      · exact Or.inl ⟨h3, hfresh h2⟩
      · exact Or.inr (Or.inl ⟨h3, hfresh h2⟩)
    · exact Or.inr (Or.inl ⟨hq h1, hfresh h2⟩)
    · exact Or.inr (Or.inr (hdel h1))
  | finished =>
    rw [hpc] at h
    refine ⟨by rw [herr]; exact h.1, ?_⟩
    rcases h.2 with ⟨h1, h2⟩ | ⟨h1, h2⟩ | h1
    · rcases hsrc h1 with h3 | h3
      · exact Or.inl ⟨h3, hfresh h2⟩
      · exact Or.inr (Or.inl ⟨h3, hfresh h2⟩)
    · exact Or.inr (Or.inl ⟨hq h1, hfresh h2⟩)
    · exact Or.inr (Or.inr (hdel h1))

/-- The goroutine at `pc`, with the rest of it unchanged. -/
theorem Worker.Placed.of_pc {k k2 : Worker} {m : Nat} {w : World} {el : Slot → List Nat}
    (h : k.Placed m w el) (h1 : k2.src = k.src) (h2 : k2.s = k.s) (h3 : k2.turn = k.turn)
    (h4 : k2.cell = k.cell) (h5 : k2.ret = k.ret) (h6 : k2.pc = k.pc) : k2.Placed m w el := by
  cases k
  cases k2
  simp only at h1 h2 h3 h4 h5 h6
  subst h1 h2 h3 h4 h5 h6
  exact h

/-- A step of a goroutine at `err = f()`. -/
theorem Bridge.calling {fuel m cell : Nat} {sys : Sys} {el : Slot → List Nat}
    (hb : Bridge fuel m cell sys el) {i : Nat} (hi : i < sys.count)
    (hpc : (sys.workers i).pc = .calling) {k2 : Worker} {w1 : World}
    (h : (sys.workers i).step sys.w = .ok k2 w1) :
    Bridge fuel m cell ⟨w1, Function.update sys.workers i k2, sys.count, sys.mpc⟩ el := by
  unfold Worker.step at h
  rw [hpc] at h
  simp only at h
  cases h
  have hf : ∀ j, (Function.update sys.workers i { sys.workers i with pc := .locking } j).src =
      (sys.workers j).src ∧
      (Function.update sys.workers i { sys.workers i with pc := .locking } j).s =
        (sys.workers j).s ∧
      (Function.update sys.workers i { sys.workers i with pc := .locking } j).turn =
        (sys.workers j).turn ∧
      (Function.update sys.workers i { sys.workers i with pc := .locking } j).cell =
        (sys.workers j).cell ∧
      (Function.update sys.workers i { sys.workers i with pc := .locking } j).ret =
        (sys.workers j).ret := by
    intro j
    by_cases hj : j = i
    · subst hj; simp
    · simp [Function.update_noteq hj]
  obtain ⟨c0, ms, hset, hlen, hopen, hreg⟩ := hb.set
  refine ⟨Effect.twf (Effect.of_ghost hb.twf rfl rfl rfl rfl rfl rfl rfl rfl),
    ⟨c0, ms, hset.of_mgr rfl, hlen, hopen, hreg⟩, hb.paired, hb.cell, hb.place, hb.ran,
    ?_, ?_, ?_, ?_, ?_, ?_, ?_, hb.origin, hb.held⟩
  · intro a b ha hb2 e
    rw [(hf a).2.2.1, (hf b).2.2.1] at e
    exact hb.turns a b ha hb2 e
  · intro a b ha hb2 e
    rw [(hf a).2.1, (hf b).2.1] at e
    exact hb.resolvers a b ha hb2 e
  · intro a b ha hb2 e
    rw [(hf a).2.2.2.1, (hf b).2.2.2.1] at e
    exact hb.cells a b ha hb2 e
  · intro j hj
    obtain ⟨g1, g2, g3, g4, g5, g6, g7⟩ := hb.worker j hj
    by_cases hji : j = i
    · subst hji
      simp only [Function.update_same]
      refine ⟨g1, g2, g3, g4, g5, g6, ?_⟩
      unfold Worker.Placed at g7 ⊢
      rw [hpc] at g7
      simp only
      exact ⟨g7.1, g7.2, by simp⟩
    · simp only [Function.update_noteq hji]
      refine ⟨g1, g2, g3, g4, g5, g6, ?_⟩
      have hc : (sys.workers j).cell ≠ (sys.workers i).cell :=
        fun e => hji (hb.cells j i hj hi e)
      exact g7.transport (fun h => h) (fun h => h)
        (by simp [Function.update_noteq hc]) Or.inl (fun h => h) (fun h => h)
  · intro t ht
    obtain ⟨j, hj, e⟩ := hb.queued t ht
    exact ⟨j, hj, by rw [(hf j).2.2.1]; exact e⟩
  · intro j t ht
    obtain ⟨a, ha, e1, e2⟩ := hb.listed j t ht
    exact ⟨a, ha, by rw [(hf a).2.2.1]; exact e1, by rw [(hf a).1]; exact e2⟩
  · intro j hj
    obtain ⟨e, he, hw⟩ := hb.wake j hj
    refine ⟨e, he, ?_⟩
    rcases hw with hw | ⟨a, ha, e1, e2⟩ | hw
    · exact Or.inl hw
    · refine Or.inr (Or.inl ⟨a, ha, by rw [(hf a).1]; exact e1, ?_⟩)
      have hai : a ≠ i := fun e => by
        rw [e, hpc] at e2
        cases e2
      simp only [Function.update_noteq hai]
      exact e2
    · exact Or.inr (Or.inr hw)

theorem handle_appendSource (w : World) (k : Nat) (l : Option Nat) (h : TurnHeap) :
    handle { w with tnext := h, src := Function.update w.src k { w.src k with list := l } } =
      Function.update (handle w) (.source k) (some l) := by
  funext i
  cases i with
  | queue j => simp [handle]
  | pending j => simp [handle]
  | source j =>
    by_cases hj : j = k
    · subst hj; simp [handle]
    · have : Slot.source j ≠ Slot.source k := fun e => hj (by injection e)
      simp [handle, Function.update_noteq hj, Function.update_noteq this]

/-- A step of a goroutine at the append under the mutex. -/
theorem Bridge.locking {fuel m cell : Nat} {sys : Sys} {el : Slot → List Nat}
    (hb : Bridge fuel m cell sys el) {i : Nat} (hi : i < sys.count)
    (hpc : (sys.workers i).pc = .locking) {k2 : Worker} {w1 : World}
    (h : (sys.workers i).step sys.w = .ok k2 w1) :
    Bridge fuel m cell ⟨w1, Function.update sys.workers i k2, sys.count, sys.mpc⟩
      (Function.update el (.source (sys.workers i).src)
        (el (.source (sys.workers i).src) ++ [(sys.workers i).turn])) := by
  obtain ⟨i1, i2, i3, i4, i5, i6, i7⟩ := hb.worker i hi
  unfold Worker.Placed at i7
  rw [hpc] at i7
  obtain ⟨itn, ifresh, ierr⟩ := i7
  obtain ⟨h2, he, hwf, hfr⟩ := hb.twf.lists.append (i := .source (sys.workers i).src)
    (l := (sys.w.src (sys.workers i).src).list) rfl i2 itn
  unfold Worker.step at h
  rw [hpc] at h
  simp only [he] at h
  cases h
  have hf : ∀ j, (Function.update sys.workers i { sys.workers i with pc := .signalling } j).src =
      (sys.workers j).src ∧
      (Function.update sys.workers i { sys.workers i with pc := .signalling } j).s =
        (sys.workers j).s ∧
      (Function.update sys.workers i { sys.workers i with pc := .signalling } j).turn =
        (sys.workers j).turn ∧
      (Function.update sys.workers i { sys.workers i with pc := .signalling } j).cell =
        (sys.workers j).cell ∧
      (Function.update sys.workers i { sys.workers i with pc := .signalling } j).ret =
        (sys.workers j).ret := by
    intro j
    by_cases hj : j = i
    · subst hj; simp
    · simp [Function.update_noteq hj]
  have hev : ∀ j, ((Function.update sys.w.src (sys.workers i).src
      { sys.w.src (sys.workers i).src with list := some (sys.workers i).turn }) j).event =
      (sys.w.src j).event := by
    intro j
    by_cases hj : j = (sys.workers i).src
    · subst hj; simp
    · simp [Function.update_noteq hj]
  have hqs : Slot.queue m ≠ Slot.source (sys.workers i).src := by simp
  have hdet : ∀ y, sys.w.tnext y = none → y ≠ (sys.workers i).turn → h2 y = none := by
    intro y hy hne
    rw [hfr y hne (hb.twf.lists.not_mem_of_detached hy _)]
    exact hy
  obtain ⟨c0, ms, hset, hlen, hopen, hreg⟩ := hb.set
  refine ⟨⟨?_, ?_, ?_, hb.twf.pos⟩, ⟨c0, ms, hset.of_mgr rfl, hlen, hopen, ?_⟩, ?_, hb.cell,
    ⟨hb.place.1, ?_, hb.place.2.2⟩, hb.ran, ?_, ?_, ?_, ?_, ?_, ?_, ?_,
    fun e he => by
      obtain ⟨j, h1, h2⟩ := hb.origin e he
      exact ⟨j, h1, (hev j).trans h2⟩,
    fun e he => by
      obtain ⟨j, h1, h2⟩ := hb.held e he
      exact ⟨j, h1, (hev j).trans h2⟩⟩
  · rw [show handle _ = _ from handle_appendSource sys.w _ _ h2]
    exact hwf
  · show h2 Empty = none
    exact hdet Empty hb.twf.empty (Ne.symm i2)
  · intro t ht
    show h2 t = none
    have ht2 : sys.w.talloc ≤ t := ht
    exact hdet t (hb.twf.fresh t ht2) (by omega)
  · intro j hj
    obtain ⟨e, he2, hm⟩ := hreg j hj
    exact ⟨e, by rw [← he2]; exact hev j, hm⟩
  · intro j e he2
    exact hb.paired j e (by rw [← he2]; exact (hev j).symm)
  · intro hw
    rw [Function.update_noteq hqs]
    exact hb.place.2.1 hw
  · intro a b ha hb2 e
    rw [(hf a).2.2.1, (hf b).2.2.1] at e
    exact hb.turns a b ha hb2 e
  · intro a b ha hb2 e
    rw [(hf a).2.1, (hf b).2.1] at e
    exact hb.resolvers a b ha hb2 e
  · intro a b ha hb2 e
    rw [(hf a).2.2.2.1, (hf b).2.2.2.1] at e
    exact hb.cells a b ha hb2 e
  · intro j hj
    obtain ⟨g1, g2, g3, g4, g5, g6, g7⟩ := hb.worker j hj
    by_cases hji : j = i
    · subst hji
      simp only [Function.update_same]
      refine ⟨g1, g2, g3, g4, g5, g6, ?_⟩
      unfold Worker.Placed
      simp only
      exact ⟨ierr, Or.inl ⟨by simp, ifresh⟩⟩
    · simp only [Function.update_noteq hji]
      refine ⟨g1, g2, g3, g4, g5, g6, ?_⟩
      have ht : (sys.workers j).turn ≠ (sys.workers i).turn :=
        fun e => hji (hb.turns j i hj hi e)
      refine g7.transport (fun h => hdet _ h ht) (fun h => h) rfl (fun h => Or.inl ?_)
        (fun h => by rw [Function.update_noteq hqs]; exact h)
        (fun h => ⟨hdet _ h.1 ht, h.2⟩)
      by_cases hs : (sys.workers j).src = (sys.workers i).src
      · rw [hs, Function.update_same]
        rw [hs] at h
        exact List.mem_append_left _ h
      · have : Slot.source (sys.workers j).src ≠ Slot.source (sys.workers i).src :=
          fun e => hs (by injection e)
        rw [Function.update_noteq this]
        exact h
  · intro t ht
    rw [Function.update_noteq hqs] at ht
    obtain ⟨j, hj, e⟩ := hb.queued t ht
    exact ⟨j, hj, by rw [(hf j).2.2.1]; exact e⟩
  · intro j t ht
    by_cases hs : j = (sys.workers i).src
    · subst hs
      rw [Function.update_same] at ht
      rcases List.mem_append.1 ht with ht | ht
      · obtain ⟨a, ha, e1, e2⟩ := hb.listed _ t ht
        exact ⟨a, ha, by rw [(hf a).2.2.1]; exact e1, by rw [(hf a).1]; exact e2⟩
      · simp only [List.mem_singleton] at ht
        exact ⟨i, hi, by rw [(hf i).2.2.1]; exact ht.symm, (hf i).1⟩
    · have : Slot.source j ≠ Slot.source (sys.workers i).src := fun e => hs (by injection e)
      rw [Function.update_noteq this] at ht
      obtain ⟨a, ha, e1, e2⟩ := hb.listed j t ht
      exact ⟨a, ha, by rw [(hf a).2.2.1]; exact e1, by rw [(hf a).1]; exact e2⟩
  · intro j hj
    by_cases hs : j = (sys.workers i).src
    · subst hs
      obtain ⟨e, he2, -⟩ := hreg _ i1
      exact ⟨e, by rw [← he2]; exact hev _, Or.inr (Or.inl ⟨i, hi, (hf i).1, by simp⟩)⟩
    · have : Slot.source j ≠ Slot.source (sys.workers i).src := fun e => hs (by injection e)
      rw [Function.update_noteq this] at hj
      obtain ⟨e, he2, hw⟩ := hb.wake j hj
      refine ⟨e, by rw [← he2]; exact hev j, ?_⟩
      rcases hw with hw | ⟨a, ha, e1, e2⟩ | hw
      · exact Or.inl hw
      · refine Or.inr (Or.inl ⟨a, ha, by rw [(hf a).1]; exact e1, ?_⟩)
        have hai : a ≠ i := fun e => by
          rw [e, hpc] at e2
          cases e2
        simp only [Function.update_noteq hai]
        exact e2
      · exact Or.inr (Or.inr hw)

/-- A step of a goroutine at `t.event.Signal()`. -/
theorem Bridge.signalling {fuel m cell : Nat} {sys : Sys} {el : Slot → List Nat}
    (hb : Bridge fuel m cell sys el) {i : Nat} (hi : i < sys.count)
    (hpc : (sys.workers i).pc = .signalling) {k2 : Worker} {w1 : World}
    (h : (sys.workers i).step sys.w = .ok k2 w1) :
    Bridge fuel m cell ⟨w1, Function.update sys.workers i k2, sys.count, sys.mpc⟩ el := by
  obtain ⟨i1, i2, i3, i4, i5, i6, i7⟩ := hb.worker i hi
  obtain ⟨c0, ms, hset, hlen, hopen, hreg⟩ := hb.set
  obtain ⟨e, hev, hmem⟩ := hreg _ i1
  have hop : (sys.w.ev e).closed = false := hopen _ hmem e rfl
  unfold Worker.step at h
  rw [hpc] at h
  simp only [hev, Signal_open hop] at h
  cases h
  have hf : ∀ j, (Function.update sys.workers i { sys.workers i with pc := .finished } j).src =
      (sys.workers j).src ∧
      (Function.update sys.workers i { sys.workers i with pc := .finished } j).s =
        (sys.workers j).s ∧
      (Function.update sys.workers i { sys.workers i with pc := .finished } j).turn =
        (sys.workers j).turn ∧
      (Function.update sys.workers i { sys.workers i with pc := .finished } j).cell =
        (sys.workers j).cell ∧
      (Function.update sys.workers i { sys.workers i with pc := .finished } j).ret =
        (sys.workers j).ret := by
    intro j
    by_cases hj : j = i
    · subst hj; simp
    · simp [Function.update_noteq hj]
  have hcl : ∀ e2, ((Function.update sys.w.ev e { sys.w.ev e with signaled := true }) e2).closed =
      (sys.w.ev e2).closed := by
    intro e2
    by_cases h2 : e2 = e
    · subst h2; simp
    · simp [Function.update_noteq h2]
  have hda : ∀ e2, ((Function.update sys.w.ev e { sys.w.ev e with signaled := true }) e2).data =
      (sys.w.ev e2).data := by
    intro e2
    by_cases h2 : e2 = e
    · subst h2; simp
    · simp [Function.update_noteq h2]
  have hsg : ∀ e2, (sys.w.ev e2).signaled = true →
      ((Function.update sys.w.ev e { sys.w.ev e with signaled := true }) e2).signaled = true := by
    intro e2 h3
    by_cases h2 : e2 = e
    · subst h2; simp
    · simpa [Function.update_noteq h2] using h3
  refine ⟨Effect.twf (Effect.of_ghost hb.twf rfl rfl rfl rfl rfl rfl rfl rfl),
    ⟨c0, ms, hset.of_mgr rfl, hlen, fun c hc e2 he2 => by
      show ((Function.update sys.w.ev e { sys.w.ev e with signaled := true }) e2).closed = false
      rw [hcl]; exact hopen c hc e2 he2, hreg⟩,
    fun j e2 he2 => by
      show ((Function.update sys.w.ev e { sys.w.ev e with signaled := true }) e2).data = j
      rw [hda]; exact hb.paired j e2 he2,
    hb.cell, ⟨hb.place.1, hb.place.2.1, fun e2 he2 => ?_⟩, hb.ran, ?_, ?_, ?_, ?_, ?_, ?_, ?_,
    fun e2 he2 => by
      by_cases h2 : e2 = e
      · subst h2
        exact ⟨_, i1, hev⟩
      · exact hb.origin e2 (by
          have h3 : ((Function.update sys.w.ev e { sys.w.ev e with signaled := true }) e2).signaled
            = true := he2
          rw [Function.update_noteq h2] at h3
          exact h3),
    hb.held⟩
  · obtain ⟨e1, h5, h6⟩ := hb.place.2.2 e2 he2
    refine ⟨e1, h5, ?_⟩
    show ((Function.update sys.w.ev e { sys.w.ev e with signaled := true }) e1).closed = false
    rw [hcl]; exact h6
  · intro a b ha hb2 e
    rw [(hf a).2.2.1, (hf b).2.2.1] at e
    exact hb.turns a b ha hb2 e
  · intro a b ha hb2 e
    rw [(hf a).2.1, (hf b).2.1] at e
    exact hb.resolvers a b ha hb2 e
  · intro a b ha hb2 e
    rw [(hf a).2.2.2.1, (hf b).2.2.2.1] at e
    exact hb.cells a b ha hb2 e
  · intro j hj
    obtain ⟨g1, g2, g3, g4, g5, g6, g7⟩ := hb.worker j hj
    by_cases hji : j = i
    · subst hji
      simp only [Function.update_same]
      refine ⟨g1, g2, g3, g4, g5, g6, ?_⟩
      unfold Worker.Placed at g7 ⊢
      rw [hpc] at g7
      simp only
      exact g7
    · simp only [Function.update_noteq hji]
      exact ⟨g1, g2, g3, g4, g5, g6,
        g7.transport (fun h => h) (fun h => h) rfl Or.inl (fun h => h) (fun h => h)⟩
  · intro t ht
    obtain ⟨j, hj, e⟩ := hb.queued t ht
    exact ⟨j, hj, by rw [(hf j).2.2.1]; exact e⟩
  · intro j t ht
    obtain ⟨a, ha, e1, e2⟩ := hb.listed j t ht
    exact ⟨a, ha, by rw [(hf a).2.2.1]; exact e1, by rw [(hf a).1]; exact e2⟩
  · intro j hj
    obtain ⟨e2, he2, hw⟩ := hb.wake j hj
    refine ⟨e2, he2, ?_⟩
    rcases hw with hw | ⟨a, ha, e3, e4⟩ | hw
    · exact Or.inl (hsg e2 hw)
    · by_cases hai : a = i
      · subst hai
        left
        rw [e3] at hev
        rw [hev] at he2
        cases he2
        show ((Function.update sys.w.ev e { sys.w.ev e with signaled := true }) e).signaled = true
        simp
      · refine Or.inr (Or.inl ⟨a, ha, by rw [(hf a).1]; exact e3, ?_⟩)
        simp only [Function.update_noteq hai]
        exact e4
    · exact Or.inr (Or.inr hw)

/-- A goroutine that has not finished can take its step. -/
theorem Bridge.worker_enabled {fuel m cell : Nat} {sys : Sys} {el : Slot → List Nat}
    (hb : Bridge fuel m cell sys el) {i : Nat} (hi : i < sys.count)
    (hpc : (sys.workers i).pc ≠ .finished) :
    ∃ k2 w1, (sys.workers i).step sys.w = .ok k2 w1 := by
  obtain ⟨i1, i2, i3, i4, i5, i6, i7⟩ := hb.worker i hi
  unfold Worker.Placed at i7
  cases hp : (sys.workers i).pc with
  | calling =>
    unfold Worker.step
    rw [hp]
    exact ⟨_, _, rfl⟩
  | locking =>
    rw [hp] at i7
    obtain ⟨h2, he, -, -⟩ := hb.twf.lists.append (i := .source (sys.workers i).src)
      (l := (sys.w.src (sys.workers i).src).list) rfl i2 i7.1
    unfold Worker.step
    rw [hp]
    simp only [he]
    exact ⟨_, _, rfl⟩
  | signalling =>
    obtain ⟨c0, ms, hset, hlen, hopen, hreg⟩ := hb.set
    obtain ⟨e, hev, hmem⟩ := hreg _ i1
    have hop : (sys.w.ev e).closed = false := hopen _ hmem e rfl
    unfold Worker.step
    rw [hp]
    simp only [hev, Signal_open hop]
    exact ⟨_, _, rfl⟩
  | finished => exact absurd hp hpc

end Drydock


namespace Drydock

/-! ### The I/O bridge: the signals in the events of the sources -/

theorem signals_skip {src : Nat → Source} {ev : Nat → Event} {e : Nat} (x : Event) :
    ∀ n, (∀ j, j < n → (src j).event ≠ some e) →
      signals src (Function.update ev e x) n = signals src ev n := by
  intro n
  induction n with
  | zero => intro _; rfl
  | succ n ih =>
    intro h
    have h1 := ih (fun j hj => h j (Nat.lt_succ_of_lt hj))
    have h2 := h n (Nat.lt_succ_self n)
    simp only [signals, h1]
    cases hn : (src n).event with
    | none => rfl
    | some e2 =>
      have : e2 ≠ e := fun c => h2 (by rw [hn, c])
      simp only [Function.update_noteq this]

/-- Setting the channel of the event of one source changes the number of signals by that
one. -/
theorem signals_flip {src : Nat → Source} {ev : Nat → Event} {e : Nat} (b : Bool) :
    ∀ n j0, j0 < n → (src j0).event = some e →
      (∀ j, j < n → (src j).event = some e → j = j0) →
      signals src (Function.update ev e { ev e with signaled := b }) n +
          (if (ev e).signaled = true then 1 else 0) =
        signals src ev n + (if b = true then 1 else 0) := by
  intro n
  induction n with
  | zero => intro j0 h; omega
  | succ n ih =>
    intro j0 hj0 he hu
    simp only [signals]
    by_cases hn : j0 = n
    · subst hn
      have hs := @signals_skip src ev e { ev e with signaled := b } j0
        (fun j hj c => absurd (hu j (Nat.lt_succ_of_lt hj) c) (Nat.ne_of_lt hj))
      rw [hs, he]
      simp only [Function.update_same]
      omega
    · have hlt : j0 < n := by omega
      have h1 := ih j0 hlt he (fun j hj c => hu j (Nat.lt_succ_of_lt hj) c)
      dsimp only at h1
      have h2 : (src n).event ≠ some e := fun c => hn (hu n (Nat.lt_succ_self n) c).symm
      cases hx : (src n).event with
      | none =>
        simp only
        omega
      | some e2 =>
        have : e2 ≠ e := fun c => h2 (by rw [hx, c])
        simp only [Function.update_noteq this]
        omega

theorem signals_zero {src : Nat → Source} {ev : Nat → Event} :
    ∀ n, (∀ j, j < n → ∀ e, (src j).event = some e → (ev e).signaled = false) →
      signals src ev n = 0 := by
  intro n
  induction n with
  | zero => intro _; rfl
  | succ n ih =>
    intro h
    simp only [signals, ih (fun j hj => h j (Nat.lt_succ_of_lt hj))]
    cases hx : (src n).event with
    | none => rfl
    | some e => simp [h n (Nat.lt_succ_self n) e hx]

theorem signals_pos {src : Nat → Source} {ev : Nat → Event} :
    ∀ n, 0 < signals src ev n →
      ∃ j e, j < n ∧ (src j).event = some e ∧ (ev e).signaled = true := by
  intro n
  induction n with
  | zero => intro h; simp [signals] at h
  | succ n ih =>
    intro h
    by_cases h0 : 0 < signals src ev n
    · obtain ⟨j, e, hj, h1, h2⟩ := ih h0
      exact ⟨j, e, Nat.lt_succ_of_lt hj, h1, h2⟩
    · simp only [signals] at h
      cases hx : (src n).event with
      | none =>
        rw [hx] at h
        simp only at h
        omega
      | some e =>
        rw [hx] at h
        simp only at h
        cases hs : (ev e).signaled with
        | true => exact ⟨n, e, Nat.lt_succ_self n, hx, hs⟩
        | false =>
          rw [hs] at h
          simp at h
          omega

theorem signals_congr {src src2 : Nat → Source} {ev : Nat → Event} :
    ∀ n, (∀ j, j < n → (src2 j).event = (src j).event) →
      signals src2 ev n = signals src ev n := by
  intro n
  induction n with
  | zero => intro _; rfl
  | succ n ih =>
    intro h
    simp only [signals, ih (fun j hj => h j (Nat.lt_succ_of_lt hj)), h n (Nat.lt_succ_self n)]

theorem core_src {w w1 : World} (h : w1.core = w.core) : w1.src = w.src :=
  congrArg (fun p => p.2.2.2.2.2.2.1) h

theorem io_salloc {w w1 : World} (h : w1.io = w.io) : w1.salloc = w.salloc :=
  congrArg (fun p => p.2.2) h

/-- The sources have different events. -/
theorem Bridge.one_source {fuel m cell : Nat} {sys : Sys} {el : Slot → List Nat}
    (hb : Bridge fuel m cell sys el) {j j0 e : Nat} (h : (sys.w.src j).event = some e)
    (h0 : (sys.w.src j0).event = some e) : j = j0 := by
  rw [← hb.paired j e h, ← hb.paired j0 e h0]

/-- The event of every source is open and in the event set. -/
theorem Bridge.registered {fuel m cell : Nat} {sys : Sys} {el : Slot → List Nat}
    (hb : Bridge fuel m cell sys el) {j : Nat} (hj : j < sys.w.salloc) :
    ∃ e c0 ms, (sys.w.src j).event = some e ∧ SetIs sys.w m c0 ms ∧
      (⟨.selectRecv, some e⟩ : SelectCase) ∈ ms ∧ (sys.w.ev e).closed = false := by
  obtain ⟨c0, ms, hset, -, hopen, hreg⟩ := hb.set
  obtain ⟨e, he, hm⟩ := hreg j hj
  exact ⟨e, c0, ms, he, hset, hm, hopen _ hm e rfl⟩

/-! ### The I/O bridge: the steps of the manager keep the invariant -/

/-- A step that touches only the events and the place of the manager. -/
theorem Bridge.of_world {fuel m cell : Nat} {sys : Sys} {el : Slot → List Nat}
    (hb : Bridge fuel m cell sys el) {w1 : World} {pc : ManagerPc}
    (hcore : w1.core = sys.w.core) (hio : w1.io = sys.w.io)
    (hset : ∃ c0 ms, SetIs w1 m c0 ms ∧ ms.length ≤ fuel ∧
      (∀ c ∈ ms, ∀ e, c.chan = some e → (w1.ev e).closed = false) ∧
      ∀ j, j < sys.w.salloc → ∃ e, (sys.w.src j).event = some e ∧
        (⟨.selectRecv, some e⟩ : SelectCase) ∈ ms)
    (hdata : ∀ e, (w1.ev e).data = (sys.w.ev e).data)
    (hplace : pc ≠ .exited ∧ (pc = .wait → el (.queue m) = []) ∧
      ∀ e, pc = .resignal e → ∃ e1, e = some e1 ∧ (w1.ev e1).closed = false)
    (hwake : ∀ j e, (sys.w.src j).event = some e →
      ((sys.w.ev e).signaled = true ∨
        (∃ i, i < sys.count ∧ (sys.workers i).src = j ∧ (sys.workers i).pc = .signalling) ∨
        sys.mpc = .take e ∨ sys.mpc = .resignal (some e)) →
      ((w1.ev e).signaled = true ∨
        (∃ i, i < sys.count ∧ (sys.workers i).src = j ∧ (sys.workers i).pc = .signalling) ∨
        pc = .take e ∨ pc = .resignal (some e)))
    (horigin : ∀ e, (w1.ev e).signaled = true →
      ∃ j, j < sys.w.salloc ∧ (sys.w.src j).event = some e)
    (hheld : ∀ e, pc = .resignal (some e) →
      ∃ j, j < sys.w.salloc ∧ (sys.w.src j).event = some e) :
    Bridge fuel m cell ⟨w1, sys.workers, sys.count, pc⟩ el := by
  have hw1 : TWF w1 el := TWF.of_core hcore hb.twf
  simp only [World.core, Prod.mk.injEq] at hcore
  obtain ⟨c1, c2, c3, c4, c5, c6, c7, c8, c9, c10, c11, c12, c13⟩ := hcore
  simp only [World.io, Prod.mk.injEq] at hio
  obtain ⟨o1, o2, o3⟩ := hio
  obtain ⟨c0, ms, hs1, hs2, hs3, hs4⟩ := hset
  refine ⟨hw1, ⟨c0, ms, hs1, hs2, hs3, fun j hj => ?_⟩, fun j e he => ?_, ?_, hplace, ?_,
    hb.turns, hb.resolvers, hb.cells, fun i hi => ?_, hb.queued, hb.listed,
    fun j hj => ?_, fun e he => ?_, fun e he => ?_⟩
  · obtain ⟨e, he, hm⟩ := hs4 j (by rw [← o3]; exact hj)
    exact ⟨e, by show (w1.src j).event = some e; rw [c7]; exact he, hm⟩
  · show (w1.ev e).data = j
    rw [hdata]
    exact hb.paired j e (by rw [← c7]; exact he)
  · show w1.cells cell = none
    rw [c8]; exact hb.cell
  · intro t ht
    show t < w1.talloc
    rw [c4]
    exact hb.ran t (by rw [← c11]; exact ht)
  · obtain ⟨g1, g2, g3, g4, g5, g6, g7⟩ := hb.worker i hi
    refine ⟨by show _ < w1.salloc; rw [o3]; exact g1, g2,
      by show w1.tf _ = _; rw [c2]; exact g3, by show _ < w1.talloc; rw [c4]; exact g4,
      by show _ < w1.ralloc; rw [c6]; exact g5, by show _ < w1.erralloc; rw [o2]; exact g6, ?_⟩
    exact g7.transport (fun h => by rw [c1]; exact h)
      (fun h => ⟨by rw [c11]; exact h.1, by rw [c5]; exact h.2⟩) (by rw [o1]) Or.inl
      (fun h => h) (fun h => ⟨by rw [c1]; exact h.1, by rw [c11]; exact h.2.1,
        by rw [c5]; exact h.2.2.1, by rw [c5]; exact h.2.2.2⟩)
  · obtain ⟨e, he, hw⟩ := hb.wake j hj
    exact ⟨e, by show (w1.src j).event = some e; rw [c7]; exact he, hwake j e he hw⟩
  · obtain ⟨j, h1, h2⟩ := horigin e he
    exact ⟨j, by show j < w1.salloc; rw [o3]; exact h1,
      by show (w1.src j).event = some e; rw [c7]; exact h2⟩
  · obtain ⟨j, h1, h2⟩ := hheld e he
    exact ⟨j, by show j < w1.salloc; rw [o3]; exact h1,
      by show (w1.src j).event = some e; rw [c7]; exact h2⟩

theorem update_signaled_closed (ev : Nat → Event) (e : Nat) (b : Bool) (e2 : Nat) :
    ((Function.update ev e { ev e with signaled := b }) e2).closed = (ev e2).closed ∧
      ((Function.update ev e { ev e with signaled := b }) e2).data = (ev e2).data := by
  by_cases h2 : e2 = e
  · subst h2; simp
  · simp [Function.update_noteq h2]

/-- The thread of the manager at `Select` takes its step: to the list of the source of a
signaled event, whose signal it consumes, or to the snapshot if no event holds a signal; the
invariant holds afterwards, and the bound on the steps left has decreased. -/
theorem Bridge.select {fuel m cell : Nat} {sys : Sys} {el : Slot → List Nat}
    (hb : Bridge fuel m cell sys el) (hpc : sys.mpc = .select) :
    ∃ pc w1, Manager.threadStep fuel m cell .select sys.w = .ok pc w1 ∧
      Bridge fuel m cell ⟨w1, sys.workers, sys.count, pc⟩ el ∧
      Sys.rest ⟨w1, sys.workers, sys.count, pc⟩ < sys.rest ∧
      w1.res = sys.w.res ∧ w1.ran = sys.w.ran := by
  obtain ⟨c0, ms, hset, hlen, hopen, hreg⟩ := hb.set
  by_cases hsig : ∃ c ∈ ms, ∃ e, c.chan = some e ∧ (sys.w.ev e).signaled = true
  · obtain ⟨e1, wa, ms1, hsel, hs1, hm1, hev1, hset1, hsub, hsup, hcore, hlen1⟩ :=
      Select_pick hset hsig hlen
    have hio := choose_io hsel
    have hcd := update_signaled_closed sys.w.ev e1 false
    refine ⟨.take e1, wa, by simp only [Manager.threadStep, hsel], ?_, ?_,
      congrArg (fun p => p.2.2.2.2.1) hcore, congrArg (fun p => p.2.2.2.2.2.2.2.2.2.2.1) hcore⟩
    · refine hb.of_world hcore hio ⟨_, ms1, hset1, le_trans hlen1 hlen, fun c hc e he => ?_,
        fun j hj => ?_⟩ (fun e => by rw [hev1]; exact (hcd e).2)
        ⟨by simp, by simp, by simp⟩ (fun j e he hw => ?_) (fun e he => ?_) (by simp)
      · rw [hev1, (hcd e).1]
        exact hopen c (hsub c hc) e he
      · obtain ⟨e, he, hm⟩ := hreg j hj
        refine ⟨e, he, ?_⟩
        rcases hsup _ hm with h5 | ⟨e2, h5, -, h6⟩
        · exact h5
        · cases h5
          rw [hopen _ hm e rfl] at h6
          cases h6
      · rcases hw with hw | hw | hw | hw
        · by_cases hee : e = e1
          · subst hee
            exact Or.inr (Or.inr (Or.inl rfl))
          · left
            rw [hev1, Function.update_noteq hee]
            exact hw
        · exact Or.inr (Or.inl hw)
        · rw [hpc] at hw; cases hw
        · rw [hpc] at hw; cases hw
      · by_cases hee : e = e1
        · subst hee
          rw [hev1] at he
          simp at he
        · rw [hev1, Function.update_noteq hee] at he
          exact hb.origin e he
    · obtain ⟨j0, hj0, hej0⟩ := hb.origin e1 hs1
      have hfl := @signals_flip sys.w.src sys.w.ev e1 false sys.w.salloc j0 hj0 hej0
        (fun j _ hj => hb.one_source hj hej0)
      rw [hs1] at hfl
      simp only [if_true, Bool.false_eq_true, if_false, Nat.add_zero] at hfl
      unfold Sys.rest
      simp only [hpc, ManagerPc.rest, ManagerPc.held, core_src hcore, io_salloc hio, hev1]
      omega
  · have hns : ∀ c ∈ ms, ∀ e, c.chan = some e → (sys.w.ev e).signaled = false := by
      intro c hc e he
      cases hx : (sys.w.ev e).signaled with
      | false => rfl
      | true => exact absurd ⟨c, hc, e, he, hx⟩ hsig
    obtain ⟨wa, ms1, hsel, hev1, hset1, hsub, hsup, hcore, hlen1⟩ :=
      Select_poll hset hns hlen
    have hio := choose_io hsel
    refine ⟨.snapshot, wa, by simp only [Manager.threadStep, hsel], ?_, ?_,
      congrArg (fun p => p.2.2.2.2.1) hcore, congrArg (fun p => p.2.2.2.2.2.2.2.2.2.2.1) hcore⟩
    · refine hb.of_world hcore hio ⟨_, ms1, hset1, le_trans hlen1 hlen, fun c hc e he => ?_,
        fun j hj => ?_⟩ (fun e => by rw [hev1]) ⟨by simp, by simp, by simp⟩
        (fun j e he hw => ?_) (fun e he => ?_) (by simp)
      · rw [hev1]
        exact hopen c (hsub c hc) e he
      · obtain ⟨e, he, hm⟩ := hreg j hj
        refine ⟨e, he, ?_⟩
        rcases hsup _ hm with h5 | ⟨e2, h5, h6⟩
        · exact h5
        · cases h5
          rw [hopen _ hm e rfl] at h6
          cases h6
      · rcases hw with hw | hw | hw | hw
        · left
          rw [hev1]
          exact hw
        · exact Or.inr (Or.inl hw)
        · rw [hpc] at hw; cases hw
        · rw [hpc] at hw; cases hw
      · rw [hev1] at he
        exact hb.origin e he
    · have hz : signals sys.w.src sys.w.ev sys.w.salloc = 0 :=
        signals_zero _ (fun j hj e he => by
          obtain ⟨e2, he2, hm⟩ := hreg j hj
          rw [he] at he2
          cases he2
          exact hns _ hm e rfl)
      unfold Sys.rest
      simp only [hpc, ManagerPc.rest, ManagerPc.held, core_src hcore, io_salloc hio, hev1, hz]
      simp

theorem Wait_pick {w : World} {m fuel : Nat} {c0 : SelectCase} {ms : List SelectCase}
    (h : SetIs w m c0 ms)
    (hsig : ∃ c ∈ ms, ∃ e, c.chan = some e ∧ (w.ev e).signaled = true)
    (hlen : ms.length ≤ fuel) :
    ∃ e w1 ms1, EventSet.Wait fuel m w = .ok (some e) w1 ∧ (w.ev e).signaled = true ∧
      (⟨.selectRecv, some e⟩ : SelectCase) ∈ ms ∧
      w1.ev = Function.update w.ev e { w.ev e with signaled := false } ∧
      SetIs w1 m ⟨.selectRecv, none⟩ ms1 ∧ (∀ x ∈ ms1, x ∈ ms) ∧
      (∀ x ∈ ms, x ∈ ms1 ∨ ∃ e2, x.chan = some e2 ∧ (w.ev e2).signaled = false ∧
        (w.ev e2).closed = true) ∧ w1.core = w.core ∧ ms1.length ≤ ms.length := by
  obtain ⟨w0, he, h0, hev, hcore⟩ := @choose_eq w m fuel c0 ms h true
  simp only [if_true] at h0
  obtain ⟨e, w1, ms1, hch, h1, h2, h3, h4, h5, h6, h7, h8⟩ :=
    chooseLoop_pick fuel w0 ms h0 (by rw [hev]; exact hsig) hlen
  rw [hev] at h1 h3 h6
  exact ⟨e, w1, ms1, by unfold EventSet.Wait; rw [he]; exact hch, h1, h2, h3, h4, h5, h6,
    by rw [h7, hcore], h8⟩

/-- `Wait` on open events without a signal does not return an event: it blocks, and without
an event in the set it returns `nil`. -/
theorem Wait_idle {w : World} {m fuel : Nat} {c0 : SelectCase} {ms : List SelectCase}
    (h : SetIs w m c0 ms)
    (hr : ∀ c ∈ ms, ∀ e, c.chan = some e →
      (w.ev e).signaled = false ∧ (w.ev e).closed = false) (e : Nat) (w1 : World) :
    EventSet.Wait fuel m w ≠ .ok (some e) w1 := by
  obtain ⟨w0, he, h0, hev, hcore⟩ := @choose_eq w m fuel c0 ms h true
  simp only [if_true] at h0
  unfold EventSet.Wait
  rw [he]
  cases fuel with
  | zero =>
    simp only [chooseLoop]
    split <;> simp
  | succ n =>
    simp only [chooseLoop]
    split
    · rw [(reflectSelect_idle h0 (by rw [hev]; exact hr)).2 rfl]
      simp
    · simp

/-- The thread of the manager at `Wait`: with a signal in an event it takes the event,
consuming the signal; the invariant holds afterwards, and the bound on the steps left has
decreased.  Without a signal it has no step. -/
theorem Bridge.wait {fuel m cell : Nat} {sys : Sys} {el : Slot → List Nat}
    (hb : Bridge fuel m cell sys el) (hpc : sys.mpc = .wait) :
    (0 < signals sys.w.src sys.w.ev sys.w.salloc →
      ∃ pc w1, Manager.threadStep fuel m cell .wait sys.w = .ok pc w1 ∧
        Bridge fuel m cell ⟨w1, sys.workers, sys.count, pc⟩ el ∧
        Sys.rest ⟨w1, sys.workers, sys.count, pc⟩ < sys.rest ∧
        w1.res = sys.w.res ∧ w1.ran = sys.w.ran) ∧
    (signals sys.w.src sys.w.ev sys.w.salloc = 0 →
      ∀ pc w1, Manager.threadStep fuel m cell .wait sys.w ≠ .ok pc w1) := by
  obtain ⟨c0, ms, hset, hlen, hopen, hreg⟩ := hb.set
  constructor
  · intro hpos
    obtain ⟨j, e, hj, hje, hjs⟩ := signals_pos _ hpos
    have hsig : ∃ c ∈ ms, ∃ e, c.chan = some e ∧ (sys.w.ev e).signaled = true := by
      obtain ⟨e2, he2, hm⟩ := hreg j hj
      rw [hje] at he2
      cases he2
      exact ⟨_, hm, e, rfl, hjs⟩
    obtain ⟨e1, wa, ms1, hsel, hs1, hm1, hev1, hset1, hsub, hsup, hcore, hlen1⟩ :=
      Wait_pick hset hsig hlen
    have hio := choose_io hsel
    have hcd := update_signaled_closed sys.w.ev e1 false
    have hq : (wa.mgr m).turns = some Empty := by
      rw [core_turns hcore]
      have := hb.twf.lists.rings (.queue m) _ rfl
      rw [hb.place.2.1 hpc] at this
      exact (Ring_nil_iff _ _).1 this
    have hc : wa.cells cell = none := by
      rw [core_cells hcore]; exact hb.cell
    have hop1 : (wa.ev e1).closed = false := by
      rw [hev1, (hcd e1).1]
      exact hopen _ hm1 e1 rfl
    refine ⟨.resignal (some e1), wa, ?_, ?_, ?_,
      congrArg (fun p => p.2.2.2.2.1) hcore, congrArg (fun p => p.2.2.2.2.2.2.2.2.2.2.1) hcore⟩
    · simp [Manager.threadStep, hsel, hq, hc, IsEmpty]
    · refine hb.of_world hcore hio ⟨_, ms1, hset1, le_trans hlen1 hlen, fun c hc e he => ?_,
        fun j hj => ?_⟩ (fun e => by rw [hev1]; exact (hcd e).2)
        ⟨by simp, by simp, fun e he => ?_⟩ (fun j e he hw => ?_) (fun e he => ?_)
        (fun e he => ?_)
      · rw [hev1, (hcd e).1]
        exact hopen c (hsub c hc) e he
      · obtain ⟨e, he, hm⟩ := hreg j hj
        refine ⟨e, he, ?_⟩
        rcases hsup _ hm with h5 | ⟨e2, h5, -, h6⟩
        · exact h5
        · cases h5
          rw [hopen _ hm e rfl] at h6
          cases h6
      · cases he
        exact ⟨e1, rfl, hop1⟩
      · rcases hw with hw | hw | hw | hw
        · by_cases hee : e = e1
          · subst hee
            exact Or.inr (Or.inr (Or.inr rfl))
          · left
            rw [hev1, Function.update_noteq hee]
            exact hw
        · exact Or.inr (Or.inl hw)
        · rw [hpc] at hw; cases hw
        · rw [hpc] at hw; cases hw
      · by_cases hee : e = e1
        · subst hee
          rw [hev1] at he
          simp at he
        · rw [hev1, Function.update_noteq hee] at he
          exact hb.origin e he
      · cases he
        exact hb.origin _ hs1
    · obtain ⟨j0, hj0, hej0⟩ := hb.origin e1 hs1
      have hfl := @signals_flip sys.w.src sys.w.ev e1 false sys.w.salloc j0 hj0 hej0
        (fun j _ hj => hb.one_source hj hej0)
      rw [hs1] at hfl
      simp only [if_true, Bool.false_eq_true, if_false, Nat.add_zero] at hfl
      unfold Sys.rest
      simp only [hpc, ManagerPc.rest, ManagerPc.held, core_src hcore, io_salloc hio, hev1]
      have hne : signals sys.w.src sys.w.ev sys.w.salloc + 0 ≠ 0 := by omega
      simp only [hne, if_false]
      omega
  · intro hz pc w1 h
    have hr : ∀ c ∈ ms, ∀ e, c.chan = some e →
        (sys.w.ev e).signaled = false ∧ (sys.w.ev e).closed = false := by
      intro c hc e he
      refine ⟨?_, hopen c hc e he⟩
      cases hx : (sys.w.ev e).signaled with
      | false => rfl
      | true =>
        obtain ⟨j0, hj0, hej0⟩ := hb.origin e hx
        have hfl := @signals_flip sys.w.src sys.w.ev e false sys.w.salloc j0 hj0 hej0
          (fun j _ hj => hb.one_source hj hej0)
        rw [hx] at hfl
        simp only [if_true, Bool.false_eq_true, if_false, Nat.add_zero] at hfl
        omega
    simp only [Manager.threadStep] at h
    cases hW : EventSet.Wait fuel m sys.w with
    | fault f wa =>
      rw [hW] at h
      cases h
    | ok e wa =>
      cases e with
      | some e1 => exact Wait_idle hset hr e1 wa hW
      | none =>
        rw [hW] at h
        simp only at h
        split at h
        · cases h
        · split at h
          · cases h
          · simp at h

/-- The thread of the manager at `e.Signal()` after `Wait` takes its step; the invariant
holds afterwards, and the bound on the steps left has decreased. -/
theorem Bridge.resignal {fuel m cell : Nat} {sys : Sys} {el : Slot → List Nat}
    (hb : Bridge fuel m cell sys el) {e : Option Nat} (hpc : sys.mpc = .resignal e) :
    ∃ pc w1, Manager.threadStep fuel m cell (.resignal e) sys.w = .ok pc w1 ∧
      Bridge fuel m cell ⟨w1, sys.workers, sys.count, pc⟩ el ∧
      Sys.rest ⟨w1, sys.workers, sys.count, pc⟩ < sys.rest ∧
      w1.res = sys.w.res ∧ w1.ran = sys.w.ran := by
  obtain ⟨c0, ms, hset, hlen, hopen, hreg⟩ := hb.set
  obtain ⟨e1, he1, hop⟩ := hb.place.2.2 e hpc
  subst he1
  have hcd := update_signaled_closed sys.w.ev e1 true
  obtain ⟨wa, hwa⟩ : ∃ y : World, y = { sys.w with
      ev := Function.update sys.w.ev e1 { sys.w.ev e1 with signaled := true } } := ⟨_, rfl⟩
  have hev1 : wa.ev = Function.update sys.w.ev e1 { sys.w.ev e1 with signaled := true } := by
    subst hwa; rfl
  have hcore : wa.core = sys.w.core := by subst hwa; rfl
  have hio : wa.io = sys.w.io := by subst hwa; rfl
  have hc : wa.cells cell = none := by
    rw [core_cells hcore]; exact hb.cell
  refine ⟨.select, wa, ?_, ?_, ?_, by subst hwa; rfl, by subst hwa; rfl⟩
  · simp only [Manager.threadStep, Signal_open hop, ← hwa, loopHead, hc, Option.isNone_none,
      if_true]
  · refine hb.of_world hcore hio ⟨c0, ms, hset.of_mgr (by subst hwa; rfl), hlen,
        fun c hc e he => ?_, hreg⟩ (fun e => by rw [hev1]; exact (hcd e).2)
        ⟨by simp, by simp, by simp⟩ (fun j e he hw => ?_) (fun e he => ?_) (by simp)
    · rw [hev1, (hcd e).1]
      exact hopen c hc e he
    · have hsg : ∀ e2, (sys.w.ev e2).signaled = true → (wa.ev e2).signaled = true := by
        intro e2 h3
        rw [hev1]
        by_cases h2 : e2 = e1
        · subst h2; simp
        · simpa [Function.update_noteq h2] using h3
      rcases hw with hw | hw | hw | hw
      · exact Or.inl (hsg e hw)
      · exact Or.inr (Or.inl hw)
      · rw [hpc] at hw; cases hw
      · rw [hpc] at hw
        cases hw
        left
        rw [hev1]
        simp
    · by_cases hee : e = e1
      · subst hee
        exact hb.held e hpc
      · rw [hev1, Function.update_noteq hee] at he
        exact hb.origin e he
  · obtain ⟨j0, hj0, hej0⟩ := hb.held e1 hpc
    have hfl := @signals_flip sys.w.src sys.w.ev e1 true sys.w.salloc j0 hj0 hej0
      (fun j _ hj => hb.one_source hj hej0)
    simp only [if_true] at hfl
    unfold Sys.rest
    simp only [hpc, ManagerPc.rest, ManagerPc.held, core_src hcore, io_salloc hio, hev1]
    have : (if (sys.w.ev e1).signaled = true then 1 else 0) ≤ 1 := by split <;> omega
    omega

end Drydock


namespace Drydock

/-! ### The I/O bridge: the manager takes the list of a source -/

/-- The thread of the manager in the body of the first loop of `runOneLoop`, holding the
event `e`: if the step returns, the turns of the source of `e` have moved to the end of the
queue, the invariant holds, and the bound on the steps left has decreased; and the step
returns when the list of the source is no longer than the fuel. -/
theorem Bridge.take {fuel m cell : Nat} {sys : Sys} {el : Slot → List Nat}
    (hb : Bridge fuel m cell sys el) {e : Nat} (hpc : sys.mpc = .take e) :
    (∀ pc w1, Manager.threadStep fuel m cell (.take e) sys.w = .ok pc w1 →
      ∃ el2, Bridge fuel m cell ⟨w1, sys.workers, sys.count, pc⟩ el2 ∧
        Sys.rest ⟨w1, sys.workers, sys.count, pc⟩ < sys.rest ∧
        w1.res = sys.w.res ∧ w1.ran = sys.w.ran) ∧
    ((el (.source (sys.w.ev e).data)).length ≤ fuel →
      ∃ pc w1, Manager.threadStep fuel m cell (.take e) sys.w = .ok pc w1) := by
  obtain ⟨c0, ms, hset, hlen, hopen, hreg⟩ := hb.set
  obtain ⟨j, hj⟩ : ∃ j, j = (sys.w.ev e).data := ⟨_, rfl⟩
  obtain ⟨wsrc, hwsrc⟩ : ∃ x : World, x = { sys.w with src := (Function.update sys.w.src
      j { sys.w.src j with list := some Empty }) } := ⟨_, rfl⟩
  have hring : Ring sys.w.tnext (sys.w.src j).list (el (.source j)) :=
    hb.twf.lists.rings (.source _) _ rfl
  have hwb : TWF wsrc (Function.update el (.source j) []) := by
    subst hwsrc
    refine ⟨?_, hb.twf.empty, hb.twf.fresh, hb.twf.pos⟩
    rw [show handle _ = _ from handle_setSource sys.w j (some Empty)]
    exact hb.twf.lists.release _ _ (Or.inr rfl)
  have hun : ∀ i, ∀ t ∈ el (.source j), t ∉ Function.update el (.source j) [] i := by
    intro i t ht
    by_cases hi2 : i = .source j
    · subst hi2; simp
    · rw [Function.update_noteq hi2]
      exact hb.twf.lists.disj _ _ (Ne.symm hi2) t ht
  have hring2 : Ring wsrc.tnext (sys.w.src j).list (el (.source j)) := by
    subst hwsrc; exact hring
  have hqs : Slot.queue m ≠ Slot.source j := by simp
  have hstep : Manager.threadStep fuel m cell (.take e) sys.w =
      match ingestList m fuel (sys.w.src j).list wsrc with
      | .fault f w2 => .fault f w2
      | .ok _ w2 => .ok .select w2 := by
    subst hwsrc
    subst hj
    rfl
  rw [hstep]
  constructor
  · intro pc w1 h
    split at h
    · cases h
    · next u w2 hi =>
      cases h
      obtain ⟨hw2, hqo⟩ := ingestList_ok m fuel hwb hring2 hun hi
      obtain ⟨kres, kio, ktn⟩ := ingestList_keeps m fuel hwb hring2 hun hi
      rw [Function.update_noteq hqs] at hw2 ktn
      have hq := hqo.quiet
      simp only [World.quiet, Prod.mk.injEq] at hq
      obtain ⟨q1, q2, q3, q4, q5, q6, q7, q8, q9, q10, q11, q12, q13⟩ := hq
      have ha := hqo.allocs
      simp only [World.allocs, Prod.mk.injEq] at ha
      obtain ⟨a1, a2, a3, a4, a5⟩ := ha
      simp only [World.io, Prod.mk.injEq] at kio
      obtain ⟨o1, o2, o3⟩ := kio
      have s1 : wsrc.ev = sys.w.ev := by subst hwsrc; rfl
      have s2 : wsrc.salloc = sys.w.salloc := by subst hwsrc; rfl
      have s3 : ∀ j2, (wsrc.src j2).event = (sys.w.src j2).event := by
        intro j2
        subst hwsrc
        by_cases h2 : j2 = j
        · rw [h2]; simp
        · simp [Function.update_noteq h2]
      have s4 : wsrc.cells = sys.w.cells := by subst hwsrc; rfl
      have s5 : wsrc.ran = sys.w.ran := by subst hwsrc; rfl
      have s6 : wsrc.talloc = sys.w.talloc := by subst hwsrc; rfl
      have s7 : wsrc.tf = sys.w.tf := by subst hwsrc; rfl
      have s8 : wsrc.ralloc = sys.w.ralloc := by subst hwsrc; rfl
      have s9 : wsrc.erralloc = sys.w.erralloc := by subst hwsrc; rfl
      have s10 : wsrc.errs = sys.w.errs := by subst hwsrc; rfl
      have s11 : wsrc.res = sys.w.res := by subst hwsrc; rfl
      have s12 : wsrc.tnext = sys.w.tnext := by subst hwsrc; rfl
      have s13 : (wsrc.mgr m).sources = (sys.w.mgr m).sources := by subst hwsrc; rfl
      have hsrc : ∀ j2, (w1.src j2).event = (sys.w.src j2).event := by
        intro j2; rw [q3]; exact s3 j2
      have hms : (w1.mgr m).sources = (sys.w.mgr m).sources := by
        have := congrFun q13 m
        simp only [Prod.mk.injEq] at this
        rw [this.1, s13]
      have hdet : ∀ y, sys.w.tnext y = none → w1.tnext y = none := by
        intro y hy
        rw [ktn y (hb.twf.lists.not_mem_of_detached hy _)
          (hb.twf.lists.not_mem_of_detached hy _), s12]
        exact hy
      refine ⟨_, ⟨hw2, ⟨c0, ms, hset.of_sources hms, hlen, fun c hc e2 he2 => ?_,
          fun j2 hj2 => ?_⟩, fun j2 e2 he2 => ?_, ?_, ⟨by simp [loopHead], by simp, by simp⟩,
          fun t ht => ?_, hb.turns, hb.resolvers, hb.cells, fun i hi2 => ?_, fun t ht => ?_,
          fun j2 t ht => ?_, fun j2 hj2 => ?_, fun e2 he2 => ?_, by simp⟩, ?_,
        by rw [kres, s11], by rw [q10, s5]⟩
      · show (w1.ev e2).closed = false
        rw [q1, s1]; exact hopen c hc e2 he2
      · obtain ⟨e2, h1, h2⟩ := hreg j2 (by
          have : j2 < w1.salloc := hj2
          rw [q4, s2] at this; exact this)
        exact ⟨e2, by show (w1.src j2).event = some e2; rw [hsrc]; exact h1, h2⟩
      · show (w1.ev e2).data = j2
        rw [q1, s1]
        exact hb.paired j2 e2 (by rw [← hsrc]; exact he2)
      · show w1.cells cell = none
        rw [q5, s4]; exact hb.cell
      · show t < w1.talloc
        rw [a3, s6]
        exact hb.ran t (by
          have : t ∈ w1.ran := ht
          rw [q10, s5] at this; exact this)
      · obtain ⟨g1, g2, g3, g4, g5, g6, g7⟩ := hb.worker i hi2
        refine ⟨by show _ < w1.salloc; rw [q4, s2]; exact g1, g2,
          by show w1.tf _ = _; rw [a1, s7]; exact g3,
          by show _ < w1.talloc; rw [a3, s6]; exact g4,
          by show _ < w1.ralloc; rw [a4, s8]; exact g5,
          by show _ < w1.erralloc; rw [o2, s9]; exact g6, ?_⟩
        refine g7.transport (hdet _) (fun h => ⟨by rw [q10, s5]; exact h.1,
            by rw [kres, s11]; exact h.2⟩) (by rw [o1, s10]) (fun h => ?_) (fun h => ?_)
          (fun h => ⟨hdet _ h.1, by rw [q10, s5]; exact h.2.1,
            by rw [kres, s11]; exact h.2.2.1, by rw [kres, s11]; exact h.2.2.2⟩)
        · by_cases hk : (sys.workers i).src = j
          · right
            rw [hk] at h
            simp only [Function.update_same]
            exact List.mem_append_right _ h
          · left
            have h1 : Slot.source (sys.workers i).src ≠ Slot.queue m := by simp
            have h2 : Slot.source (sys.workers i).src ≠ Slot.source j :=
              fun c => hk (by injection c)
            rw [Function.update_noteq h1, Function.update_noteq h2]
            exact h
        · simp only [Function.update_same]
          exact List.mem_append_left _ h
      · simp only [Function.update_same] at ht
        rcases List.mem_append.1 ht with h1 | h1
        · exact hb.queued t h1
        · obtain ⟨i, hi2, h2, -⟩ := hb.listed j t h1
          exact ⟨i, hi2, h2⟩
      · have h1 : Slot.source j2 ≠ Slot.queue m := by simp
        rw [Function.update_noteq h1] at ht
        by_cases hk : j2 = j
        · subst hk
          simp at ht
        · have h2 : Slot.source j2 ≠ Slot.source j := fun c => hk (by injection c)
          rw [Function.update_noteq h2] at ht
          exact hb.listed j2 t ht
      · have h1 : Slot.source j2 ≠ Slot.queue m := by simp
        rw [Function.update_noteq h1] at hj2
        have hk : j2 ≠ j := by
          intro c
          subst c
          simp at hj2
        have h2 : Slot.source j2 ≠ Slot.source j := fun c => hk (by injection c)
        rw [Function.update_noteq h2] at hj2
        obtain ⟨e2, he2, hw⟩ := hb.wake j2 hj2
        refine ⟨e2, by show (w1.src j2).event = some e2; rw [hsrc]; exact he2, ?_⟩
        rcases hw with hw | hw | hw | hw
        · left
          show (w1.ev e2).signaled = true
          rw [q1, s1]; exact hw
        · exact Or.inr (Or.inl hw)
        · rw [hpc] at hw
          cases hw
          exact absurd (hb.paired j2 e he2) (by rw [← hj]; exact Ne.symm hk)
        · rw [hpc] at hw; cases hw
      · obtain ⟨j2, h1, h2⟩ := hb.origin e2 (by
          have : (w1.ev e2).signaled = true := he2
          rw [q1, s1] at this; exact this)
        exact ⟨j2, by show j2 < w1.salloc; rw [q4, s2]; exact h1,
          by show (w1.src j2).event = some e2; rw [hsrc]; exact h2⟩
      · unfold Sys.rest
        simp only [hpc, ManagerPc.rest, ManagerPc.held, q1, s1, q4, s2,
          signals_congr sys.w.salloc (fun j2 _ => hsrc j2)]
        omega
  · intro hl
    obtain ⟨w2, hi, -, -⟩ := ingestList_total m fuel hwb hring2 hun (by rw [hj]; exact hl)
    exact ⟨.select, w2, by rw [hi]⟩

end Drydock


namespace Drydock

/-! ### The I/O bridge: the manager runs the turns of its queue -/

/-- The snapshot loop on a list of completion turns whose results are unresolved, without
continuations and pairwise different, returns when the list is no longer than the fuel. -/
theorem runSnapshot_io_total (inner : Nat) (n : Nat) :
    ∀ {w : World} {list : Option Nat} {xs : List Nat}, Ring w.tnext list xs →
      (∀ t ∈ xs, ∃ s c, w.tf t = .ioResult s c ∧ (w.res s).turns = some Empty) →
      (∀ t1 ∈ xs, ∀ t2 ∈ xs, ∀ s c1 c2, w.tf t1 = .ioResult s c1 → w.tf t2 = .ioResult s c2 →
        t1 = t2) → xs.length ≤ n →
      ∃ w2, runSnapshot inner n list w = .ok () w2 := by
  induction n with
  | zero =>
    intro w list xs hr _ _ hlen
    have : xs = [] := List.length_eq_zero.1 (Nat.le_zero.1 hlen)
    subst this
    have hl := (Ring_nil_iff _ _).1 hr
    subst hl
    exact ⟨w, by simp [runSnapshot, IsEmpty]⟩
  | succ n ih =>
    intro w list xs hr hio hinj hlen
    cases xs with
    | nil =>
      have hl := (Ring_nil_iff _ _).1 hr
      subst hl
      exact ⟨w, by simp [runSnapshot, IsEmpty]⟩
    | cons x rest =>
      have hne : IsEmpty list = false := Ring_ne_empty hr
      have hx0 : x ≠ Empty := fun e => hr.2.2.2 (by simp [e])
      have hxr : x ∉ rest := (List.nodup_cons.1 hr.2.2.1).1
      obtain ⟨h2, l2, he, hr2, hx, hfr⟩ := RemoveHead_ring hr
      obtain ⟨s, c, htf, hs⟩ := hio x (List.mem_cons_self _ _)
      obtain ⟨wa, hwa⟩ : ∃ y : World, y = { w with tnext := h2 } := ⟨_, rfl⟩
      have hrun := @Run_ioResult wa x s c inner hx0 (by subst hwa; exact hx)
        (by subst hwa; exact htf) (by subst hwa; exact hs)
      obtain ⟨wb, hwb⟩ : ∃ y : World, y = { wa with
          ran := wa.ran ++ [x]
          res := (Function.update wa.res s
            { wa.res s with turns := none, outcome := ofError (wa.errs c) }) } := ⟨_, rfl⟩
      rw [← hwb] at hrun
      have b1 : wb.tnext = h2 := by subst hwb; subst hwa; rfl
      have b2 : wb.tf = w.tf := by subst hwb; subst hwa; rfl
      have b6 : wb.res = Function.update w.res s
          { w.res s with turns := none, outcome := ofError (w.errs c) } := by
        subst hwb; subst hwa; rfl
      have hio2 : ∀ t ∈ rest, ∃ s2 c2, wb.tf t = .ioResult s2 c2 ∧
          (wb.res s2).turns = some Empty := by
        intro t ht
        obtain ⟨s2, c2, h5, h6⟩ := hio t (List.mem_cons_of_mem _ ht)
        refine ⟨s2, c2, by rw [b2]; exact h5, ?_⟩
        have hne2 : s2 ≠ s := by
          intro e
          subst e
          have := hinj t (List.mem_cons_of_mem _ ht) x (List.mem_cons_self _ _) _ _ _ h5 htf
          exact hxr (this ▸ ht)
        rw [b6, Function.update_noteq hne2]
        exact h6
      have hinj2 : ∀ t1 ∈ rest, ∀ t2 ∈ rest, ∀ s2 c1 c2, wb.tf t1 = .ioResult s2 c1 →
          wb.tf t2 = .ioResult s2 c2 → t1 = t2 := by
        intro t1 h1 t2 h2 s2 c1 c2 e1 e2
        rw [b2] at e1 e2
        exact hinj t1 (List.mem_cons_of_mem _ h1) t2 (List.mem_cons_of_mem _ h2) _ _ _ e1 e2
      obtain ⟨w2, hw2⟩ := ih (by rw [b1]; exact hr2) hio2 hinj2
        (by simp only [List.length_cons] at hlen; omega)
      refine ⟨w2, ?_⟩
      simp only [runSnapshot, hne, Bool.false_eq_true, if_false, he, ← hwa, hrun]
      exact hw2

/-- A turn in the queue of the manager is the completion turn of a goroutine that has set
its variable `err`, and its result is unresolved. -/
theorem Bridge.queue_fresh {fuel m cell : Nat} {sys : Sys} {el : Slot → List Nat}
    (hb : Bridge fuel m cell sys el) {t : Nat} (ht : t ∈ el (.queue m)) :
    ∃ i, i < sys.count ∧ (sys.workers i).turn = t ∧ (sys.workers i).Fresh sys.w ∧
      sys.w.errs (sys.workers i).cell = (sys.workers i).ret ∧
      sys.w.tf t = .ioResult (sys.workers i).s (sys.workers i).cell := by
  obtain ⟨i, hi, hti⟩ := hb.queued t ht
  obtain ⟨g1, g2, g3, g4, g5, g6, g7⟩ := hb.worker i hi
  obtain ⟨z, hz⟩ := hb.twf.lists.linked ht
  have hnd : sys.w.tnext (sys.workers i).turn ≠ none := by
    rw [hti, hz]; simp
  have hns : (sys.workers i).turn ∉ el (.source (sys.workers i).src) := by
    rw [hti]
    exact hb.twf.lists.disj (.queue m) (.source _) (by simp) t ht
  have key : (sys.workers i).Fresh sys.w ∧
      sys.w.errs (sys.workers i).cell = (sys.workers i).ret := by
    unfold Worker.Placed at g7
    cases hp : (sys.workers i).pc with
    | calling =>
      rw [hp] at g7
      exact absurd g7.1 hnd
    | locking =>
      rw [hp] at g7
      exact absurd g7.1 hnd
    | signalling =>
      rw [hp] at g7
      rcases g7.2 with h | h | h
      · exact absurd h.1 hns
      · exact ⟨h.2, g7.1⟩
      · exact absurd h.1 hnd
    | finished =>
      rw [hp] at g7
      rcases g7.2 with h | h | h
      · exact absurd h.1 hns
      · exact ⟨h.2, g7.1⟩
      · exact absurd h.1 hnd
  exact ⟨i, hi, hti, key.1, key.2, by rw [← hti]; exact g3⟩

/-- The thread of the manager at the snapshot of its queue: if the step returns, every turn
of the queue has run, once, and has resolved its result with the error that its goroutine
stored, the manager goes on to `Wait`, the invariant holds, and the bound on the steps left
has decreased; and the step returns when the queue is no longer than the fuel. -/
theorem Bridge.snapshot {fuel m cell : Nat} {sys : Sys} {el : Slot → List Nat}
    (hb : Bridge fuel m cell sys el) (hpc : sys.mpc = .snapshot) :
    (∀ pc w1, Manager.threadStep fuel m cell .snapshot sys.w = .ok pc w1 →
      Bridge fuel m cell ⟨w1, sys.workers, sys.count, pc⟩ (Function.update el (.queue m) []) ∧
        Sys.rest ⟨w1, sys.workers, sys.count, pc⟩ < sys.rest) ∧
    ((el (.queue m)).length ≤ fuel →
      ∃ pc w1, Manager.threadStep fuel m cell .snapshot sys.w = .ok pc w1) := by
  obtain ⟨c0, ms, hset, hlen, hopen, hreg⟩ := hb.set
  obtain ⟨w0, hw0⟩ : ∃ x : World, x = { sys.w with
      mgr := Function.update sys.w.mgr m { sys.w.mgr m with turns := some Empty } } := ⟨_, rfl⟩
  have z1 : w0.tnext = sys.w.tnext := by subst hw0; rfl
  have z2 : w0.tf = sys.w.tf := by subst hw0; rfl
  have z3 : w0.res = sys.w.res := by subst hw0; rfl
  have z4 : w0.ran = sys.w.ran := by subst hw0; rfl
  have z5 : w0.errs = sys.w.errs := by subst hw0; rfl
  have z6 : (w0.mgr m).turns = some Empty := by subst hw0; simp
  have z7 : (w0.mgr m).sources = (sys.w.mgr m).sources := by subst hw0; simp
  have z8 : w0.src = sys.w.src := by subst hw0; rfl
  have z9 : w0.ev = sys.w.ev := by subst hw0; rfl
  have z10 : w0.salloc = sys.w.salloc := by subst hw0; rfl
  have z11 : w0.cells = sys.w.cells := by subst hw0; rfl
  have z12 : w0.talloc = sys.w.talloc := by subst hw0; rfl
  have z13 : w0.ralloc = sys.w.ralloc := by subst hw0; rfl
  have z14 : w0.erralloc = sys.w.erralloc := by subst hw0; rfl
  have hring : Ring sys.w.tnext (sys.w.mgr m).turns (el (.queue m)) :=
    hb.twf.lists.rings (.queue m) _ rfl
  have hring0 : Ring w0.tnext (sys.w.mgr m).turns (el (.queue m)) := by
    rw [z1]; exact hring
  have hio0 : ∀ t ∈ el (.queue m), ∃ s c, w0.tf t = .ioResult s c ∧
      (w0.res s).turns = some Empty := by
    intro t ht
    obtain ⟨i, -, -, hf, -, htf⟩ := hb.queue_fresh ht
    exact ⟨_, _, by rw [z2]; exact htf, by rw [z3]; exact hf.2⟩
  have hinj0 : ∀ t1 ∈ el (.queue m), ∀ t2 ∈ el (.queue m), ∀ s c1 c2,
      w0.tf t1 = .ioResult s c1 → w0.tf t2 = .ioResult s c2 → t1 = t2 := by
    intro t1 h1 t2 h2 s c1 c2 e1 e2
    obtain ⟨i1, hi1, ht1, -, -, hf1⟩ := hb.queue_fresh h1
    obtain ⟨i2, hi2, ht2, -, -, hf2⟩ := hb.queue_fresh h2
    rw [z2] at e1 e2
    rw [hf1] at e1
    rw [hf2] at e2
    cases e1
    have := hb.resolvers i1 i2 hi1 hi2 (by
      injection e2 with e3 _
      exact e3.symm)
    rw [← ht1, ← ht2, this]
  have hstep : Manager.threadStep fuel m cell .snapshot sys.w =
      match runSnapshot fuel fuel (sys.w.mgr m).turns w0 with
      | .fault f w1 => .fault f w1
      | .ok _ w1 =>
        if IsEmpty (w1.mgr m).turns && (w1.cells cell).isNone then .ok .wait w1
        else .ok (loopHead cell w1) w1 := by
    subst hw0
    rfl
  rw [hstep]
  constructor
  · intro pc w1 h
    split at h
    · cases h
    · next u w2 hi =>
      obtain ⟨k1, k2, k3, k4, k5, k6⟩ := runSnapshot_io fuel fuel hring0 hio0 hinj0 hi
      simp only [World.outside, Prod.mk.injEq] at k2
      obtain ⟨u1, u2, u3, u4, u5, u6, u7, u8, u9, u10, u11, u12, u13, u14, u15, u16, u17, u18,
        u19, u20⟩ := k2
      have hq2 : (w2.mgr m).turns = some Empty := by rw [u5]; exact z6
      have hc2 : w2.cells cell = none := by rw [u13, z11]; exact hb.cell
      have hres : pc = .wait ∧ w1 = w2 := by
        simp only [hq2, hc2, IsEmpty, beq_self_eq_true, Option.isNone_none, Bool.and_self,
          if_true, Res.ok.injEq] at h
        exact ⟨h.1.symm, h.2.symm⟩
      obtain ⟨hpw, hww⟩ := hres
      subst hpw
      subst hww
      have hqp : ∀ a, Slot.pending a ≠ Slot.queue m := by simp
      have hqs : ∀ a, Slot.source a ≠ Slot.queue m := by simp
      -- the turns outside the queue
      have hnx : ∀ i, ∀ y ∈ Function.update el (.queue m) [] i, y ∉ el (.queue m) := by
        intro i y hy
        by_cases hiq : i = .queue m
        · subst hiq; simp at hy
        · rw [Function.update_noteq hiq] at hy
          exact hb.twf.lists.disj _ _ hiq y hy
      have hw0t : TWF w0 (Function.update el (.queue m) []) := by
        subst hw0
        refine ⟨?_, hb.twf.empty, hb.twf.fresh, hb.twf.pos⟩
        have := handle_setQueue sys.w m (some Empty) sys.w.tnext sys.w.enq
        rw [show handle _ = _ from this]
        exact hb.twf.lists.release _ _ (Or.inr rfl)
      have hw2 : TWF w1 (Function.update el (.queue m) []) := by
        refine hw0t.frame_twf (fun m2 => by rw [u5]) u11 (fun a => ?_)
          (fun i y hy => k3 y (hnx i y hy)) ?_ (fun t ht => ?_) (by rw [u3, z12]; exact hb.twf.pos)
        · by_cases hx : ∃ t ∈ el (.queue m), ∃ c, w0.tf t = .ioResult a c
          · obtain ⟨t, ht, c, htf⟩ := hx
            right
            refine ⟨(k5 t ht a c htf).1, ?_⟩
            rw [Function.update_noteq (hqp a)]
            obtain ⟨i, -, -, hf, -, htf2⟩ := hb.queue_fresh ht
            rw [z2, htf2] at htf
            injection htf with e1 _
            have hr := hb.twf.lists.rings (.pending a) (some Empty) (by
              simp only [handle]
              rw [← e1, hf.2])
            exact Ring_isEmpty hr (by simp [IsEmpty])
          · left
            rw [k6 a (fun t ht c e => hx ⟨t, ht, c, e⟩)]
        · rw [k3 Empty (hb.twf.lists.empty_not_mem _), z1]
          exact hb.twf.empty
        · have ht2 : sys.w.talloc ≤ t := by
            have : w1.talloc ≤ t := ht
            rw [u3, z12] at this; exact this
          rw [k3 t (hb.twf.lists.not_mem_of_detached (hb.twf.fresh t ht2) _), z1]
          exact hb.twf.fresh t ht2
      -- a goroutine whose turn is not in the queue
      have hout : ∀ i, i < sys.count → (sys.workers i).turn ∉ el (.queue m) →
          w1.res (sys.workers i).s = sys.w.res (sys.workers i).s ∧
            w1.tnext (sys.workers i).turn = sys.w.tnext (sys.workers i).turn ∧
            w1.ran.count (sys.workers i).turn = sys.w.ran.count (sys.workers i).turn ∧
            ((sys.workers i).turn ∈ w1.ran → (sys.workers i).turn ∈ sys.w.ran) := by
        intro i hi2 hni
        refine ⟨?_, by rw [k3 _ hni, z1], ?_, ?_⟩
        · rw [k6 _ (fun t ht c e => ?_), z3]
          obtain ⟨i2, hi3, ht2, -, -, htf2⟩ := hb.queue_fresh ht
          rw [z2, htf2] at e
          injection e with e1 _
          have := hb.resolvers i2 i hi3 hi2 e1
          subst this
          exact hni (ht2 ▸ ht)
        · rw [k1, z4, List.count_append, List.count_eq_zero_of_not_mem hni]
          rfl
        · intro h5
          rw [k1, z4] at h5
          rcases List.mem_append.1 h5 with h6 | h6
          · exact h6
          · exact absurd h6 hni
      have hfr2 : ∀ i, i < sys.count → (sys.workers i).turn ∉ el (.queue m) →
          (sys.workers i).Fresh sys.w → (sys.workers i).Fresh w1 := by
        intro i hi2 hni hf
        obtain ⟨o1, o2, o3, o4⟩ := hout i hi2 hni
        exact ⟨fun h5 => hf.1 (o4 h5), by rw [o1]; exact hf.2⟩
      have hdl2 : ∀ i, i < sys.count → (sys.workers i).Delivered sys.w →
          (sys.workers i).Delivered w1 := by
        intro i hi2 hd
        have hni : (sys.workers i).turn ∉ el (.queue m) :=
          hb.twf.lists.not_mem_of_detached hd.1 _
        obtain ⟨o1, o2, o3, o4⟩ := hout i hi2 hni
        exact ⟨by rw [o2]; exact hd.1, by rw [o3]; exact hd.2.1, by rw [o1]; exact hd.2.2.1,
          by rw [o1]; exact hd.2.2.2⟩
      have hin : ∀ i, i < sys.count → (sys.workers i).turn ∈ el (.queue m) →
          (sys.workers i).Delivered w1 := by
        intro i hi2 hmi
        obtain ⟨i2, hi3, ht2, hf, herr, htf2⟩ := hb.queue_fresh hmi
        have := hb.turns i2 i hi3 hi2 ht2
        subst this
        obtain ⟨r1, r2⟩ := k5 _ hmi _ _ (by rw [z2]; exact htf2)
        refine ⟨k4 _ hmi, ?_, r1, by rw [r2, z5, herr]⟩
        rw [k1, z4, List.count_append, List.count_eq_zero_of_not_mem hf.1,
          List.count_eq_one_of_mem hring.2.2.1 hmi]
      refine ⟨⟨hw2, ⟨c0, ms, hset.of_sources (by rw [u5]; exact z7), hlen,
          fun c hc e2 he2 => ?_, fun j2 hj2 => ?_⟩, fun j2 e2 he2 => ?_, hc2,
          ⟨by simp, by simp, by simp⟩, fun t ht => ?_, hb.turns, hb.resolvers, hb.cells,
          fun i hi2 => ?_, fun t ht => ?_, fun j2 t ht => ?_, fun j2 hj2 => ?_,
          fun e2 he2 => ?_, by simp⟩, ?_⟩
      · show (w1.ev e2).closed = false
        rw [u9, z9]; exact hopen c hc e2 he2
      · obtain ⟨e2, h1, h2⟩ := hreg j2 (by
          have : j2 < w1.salloc := hj2
          rw [u12, z10] at this; exact this)
        exact ⟨e2, by show (w1.src j2).event = some e2; rw [u11, z8]; exact h1, h2⟩
      · show (w1.ev e2).data = j2
        rw [u9, z9]
        exact hb.paired j2 e2 (by
          have : (w1.src j2).event = some e2 := he2
          rw [u11, z8] at this; exact this)
      · show t < w1.talloc
        rw [u3, z12]
        have : t ∈ w1.ran := ht
        rw [k1, z4] at this
        rcases List.mem_append.1 this with h6 | h6
        · exact hb.ran t h6
        · obtain ⟨z, hz⟩ := hb.twf.lists.linked h6
          exact hb.twf.lt_talloc hz
      · obtain ⟨g1, g2, g3, g4, g5, g6, g7⟩ := hb.worker i hi2
        refine ⟨by show _ < w1.salloc; rw [u12, z10]; exact g1, g2,
          by show w1.tf _ = _; rw [u1, z2]; exact g3,
          by show _ < w1.talloc; rw [u3, z12]; exact g4,
          by show _ < w1.ralloc; rw [u4, z13]; exact g5,
          by show _ < w1.erralloc; rw [u16, z14]; exact g6, ?_⟩
        have herr : w1.errs = sys.w.errs := by rw [u15, z5]
        unfold Worker.Placed at g7 ⊢
        cases hp : (sys.workers i).pc with
        | calling =>
          rw [hp] at g7
          have hni := hb.twf.lists.not_mem_of_detached g7.1 (.queue m)
          exact ⟨by rw [(hout i hi2 hni).2.1]; exact g7.1, hfr2 i hi2 hni g7.2⟩
        | locking =>
          rw [hp] at g7
          have hni := hb.twf.lists.not_mem_of_detached g7.1 (.queue m)
          exact ⟨by rw [(hout i hi2 hni).2.1]; exact g7.1, hfr2 i hi2 hni g7.2.1,
            by rw [herr]; exact g7.2.2⟩
        | signalling =>
          rw [hp] at g7
          refine ⟨by rw [herr]; exact g7.1, ?_⟩
          rcases g7.2 with h | h | h
          · left
            rw [Function.update_noteq (hqs _)]
            exact ⟨h.1, hfr2 i hi2
              (hb.twf.lists.disj (.source _) (.queue m) (hqs _) _ h.1) h.2⟩
          · exact Or.inr (Or.inr (hin i hi2 h.1))
          · exact Or.inr (Or.inr (hdl2 i hi2 h))
        | finished =>
          rw [hp] at g7
          refine ⟨by rw [herr]; exact g7.1, ?_⟩
          rcases g7.2 with h | h | h
          · left
            rw [Function.update_noteq (hqs _)]
            exact ⟨h.1, hfr2 i hi2
              (hb.twf.lists.disj (.source _) (.queue m) (hqs _) _ h.1) h.2⟩
          · exact Or.inr (Or.inr (hin i hi2 h.1))
          · exact Or.inr (Or.inr (hdl2 i hi2 h))
      · simp at ht
      · rw [Function.update_noteq (hqs _)] at ht
        exact hb.listed j2 t ht
      · rw [Function.update_noteq (hqs _)] at hj2
        obtain ⟨e2, he2, hw⟩ := hb.wake j2 hj2
        refine ⟨e2, by show (w1.src j2).event = some e2; rw [u11, z8]; exact he2, ?_⟩
        rcases hw with hw | hw | hw | hw
        · left
          show (w1.ev e2).signaled = true
          rw [u9, z9]; exact hw
        · exact Or.inr (Or.inl hw)
        · rw [hpc] at hw; cases hw
        · rw [hpc] at hw; cases hw
      · obtain ⟨j2, h1, h2⟩ := hb.origin e2 (by
          have : (w1.ev e2).signaled = true := he2
          rw [u9, z9] at this; exact this)
        exact ⟨j2, by show j2 < w1.salloc; rw [u12, z10]; exact h1,
          by show (w1.src j2).event = some e2; rw [u11, z8]; exact h2⟩
      · unfold Sys.rest
        simp only [hpc, ManagerPc.rest, ManagerPc.held, u9, z9, u12, z10, u11, z8]
        split <;> omega
  · intro hl
    obtain ⟨w2, hi⟩ := runSnapshot_io_total fuel fuel hring0 hio0 hinj0 hl
    rw [hi]
    simp only
    split
    · exact ⟨_, _, rfl⟩
    · exact ⟨_, _, rfl⟩

end Drydock


namespace Drydock

/-! ### The I/O bridge: a call of `New` -/

/-- The call `t.New(f)` on a source returns; it allocates the resolver, the variable `err` and
the completion turn of a new goroutine, which stands before `err = f()`. -/
theorem turnSource.New_eq {t : Nat} (ret : Option Err) {w : World} (ht : t < w.salloc) :
    turnSource.New t ret w = .ok ⟨t, w.ralloc, w.talloc, w.erralloc, ret, .calling⟩
      { w with
        res := Function.update w.res w.ralloc ⟨(w.src t).manager, some Empty, .nil, none⟩
        ralloc := w.ralloc + 1
        errs := Function.update w.errs w.erralloc none
        erralloc := w.erralloc + 1
        gen := Function.update w.gen (w.mgr (w.src t).manager).idgen
          (wrap64 (w.gen (w.mgr (w.src t).manager).idgen + 1))
        tnext := Function.update w.tnext w.talloc none
        tf := Function.update w.tf w.talloc (.ioResult w.ralloc w.erralloc)
        tname := Function.update w.tname w.talloc
          ("IOResult" ++ UniqueID.String (w.gen (w.mgr (w.src t).manager).idgen))
        talloc := w.talloc + 1 } := by
  have : ¬ w.salloc ≤ t := by omega
  simp only [turnSource.New, this, if_false, newTurnResolver, Manager.NewID,
    UniqueIDGenerator.NewID, NewTurn]

theorem turnSource.New_wild {t : Nat} (ret : Option Err) {w : World} (ht : w.salloc ≤ t) :
    turnSource.New t ret w = .fault .wildPointer w := by
  simp only [turnSource.New, ht, if_true]

/-- A call of `New` on a source keeps the invariant: the goroutines there were stay as they
are, and the new one has its own turn, resolver and variable. -/
theorem Bridge.started {fuel m cell : Nat} {sys : Sys} {el : Slot → List Nat}
    (hb : Bridge fuel m cell sys el) {t : Nat} (ret : Option Err) {k : Worker} {w1 : World}
    (h : turnSource.New t ret sys.w = .ok k w1) :
    Bridge fuel m cell ⟨w1, Function.update sys.workers sys.count k, sys.count + 1, sys.mpc⟩
        (Function.update el (.pending sys.w.ralloc) []) ∧
      k = ⟨t, sys.w.ralloc, sys.w.talloc, sys.w.erralloc, ret, .calling⟩ ∧
      w1.ran = sys.w.ran ∧ (∀ a, a ≠ sys.w.ralloc → w1.res a = sys.w.res a) := by
  by_cases ht : sys.w.salloc ≤ t
  · rw [turnSource.New_wild ret ht] at h
    cases h
  have ht2 : t < sys.w.salloc := by omega
  rw [turnSource.New_eq ret ht2] at h
  simp only [Res.ok.injEq] at h
  obtain ⟨hk, hw⟩ := h
  subst hk
  obtain ⟨c0, ms, hset, hlen, hopen, hreg⟩ := hb.set
  have e1 : w1.tnext = Function.update sys.w.tnext sys.w.talloc none := by subst hw; rfl
  have e2 : w1.tf = Function.update sys.w.tf sys.w.talloc
      (.ioResult sys.w.ralloc sys.w.erralloc) := by subst hw; rfl
  have e3 : w1.talloc = sys.w.talloc + 1 := by subst hw; rfl
  have e4 : w1.res = Function.update sys.w.res sys.w.ralloc
      ⟨(sys.w.src t).manager, some Empty, .nil, none⟩ := by subst hw; rfl
  have e5 : w1.ralloc = sys.w.ralloc + 1 := by subst hw; rfl
  have e6 : w1.errs = Function.update sys.w.errs sys.w.erralloc none := by subst hw; rfl
  have e7 : w1.erralloc = sys.w.erralloc + 1 := by subst hw; rfl
  have e8 : w1.mgr = sys.w.mgr := by subst hw; rfl
  have e9 : w1.src = sys.w.src := by subst hw; rfl
  have e10 : w1.ev = sys.w.ev := by subst hw; rfl
  have e11 : w1.salloc = sys.w.salloc := by subst hw; rfl
  have e12 : w1.cells = sys.w.cells := by subst hw; rfl
  have e13 : w1.ran = sys.w.ran := by subst hw; rfl
  have hwf : TWF w1 (Function.update el (.pending sys.w.ralloc) []) := by
    have hA := (newTurnResolver_ok hb.twf (m := (sys.w.src t).manager) rfl).2.1.twf
    have hB : TWF { sys.w with
        res := Function.update sys.w.res sys.w.ralloc
          ⟨(sys.w.src t).manager, some Empty, .nil, none⟩
        ralloc := sys.w.ralloc + 1
        errs := Function.update sys.w.errs sys.w.erralloc none
        erralloc := sys.w.erralloc + 1
        gen := Function.update sys.w.gen (sys.w.mgr (sys.w.src t).manager).idgen
          (wrap64 (sys.w.gen (sys.w.mgr (sys.w.src t).manager).idgen + 1)) }
        (Function.update el (.pending sys.w.ralloc) []) := by
      refine TWF.of_core ?_ hA
      rfl
    have hC := (NewTurn_ok hB (t := sys.w.talloc)
      (show NewTurn ("IOResult" ++ UniqueID.String (sys.w.gen
        (sys.w.mgr (sys.w.src t).manager).idgen)) (.ioResult sys.w.ralloc sys.w.erralloc) _ =
          .ok _ _ from rfl)).2.1.twf
    subst hw
    exact hC
  have hpq : ∀ a, Slot.queue a ≠ Slot.pending sys.w.ralloc := by simp
  have hps : ∀ a, Slot.source a ≠ Slot.pending sys.w.ralloc := by simp
  have hold : ∀ i, i < sys.count →
      Function.update sys.workers sys.count
        (⟨t, sys.w.ralloc, sys.w.talloc, sys.w.erralloc, ret, .calling⟩ : Worker) i =
        sys.workers i := by
    intro i hi
    have : i ≠ sys.count := by omega
    exact Function.update_noteq this _ _
  have hlt : ∀ i, i < sys.count + 1 → i < sys.count ∨ i = sys.count := by
    intro i hi; omega
  refine ⟨⟨hwf, ⟨c0, ms, hset.of_mgr e8, hlen, fun c hc e he => ?_, fun j hj => ?_⟩,
      fun j e he => ?_, ?_, ⟨hb.place.1, fun hp => ?_, fun e he => ?_⟩, fun x hx => ?_,
      fun i j hi hj hij => ?_, fun i j hi hj hij => ?_, fun i j hi hj hij => ?_,
      fun i hi => ?_, fun x hx => ?_, fun j x hx => ?_, fun j hj => ?_, fun e he => ?_,
      fun e he => ?_⟩, rfl, e13, fun a ha => by rw [e4, Function.update_noteq ha]⟩
  · show (w1.ev e).closed = false
    rw [e10]; exact hopen c hc e he
  · obtain ⟨e, h1, h2⟩ := hreg j (by
      have : j < w1.salloc := hj
      rw [e11] at this; exact this)
    exact ⟨e, by show (w1.src j).event = some e; rw [e9]; exact h1, h2⟩
  · show (w1.ev e).data = j
    rw [e10]
    exact hb.paired j e (by
      have : (w1.src j).event = some e := he
      rw [e9] at this; exact this)
  · show w1.cells cell = none
    rw [e12]; exact hb.cell
  · rw [Function.update_noteq (hpq m)]
    exact hb.place.2.1 hp
  · obtain ⟨e2, h1, h2⟩ := hb.place.2.2 e he
    exact ⟨e2, h1, by show (w1.ev e2).closed = false; rw [e10]; exact h2⟩
  · show x < w1.talloc
    have : x ∈ w1.ran := hx
    rw [e13] at this
    have := hb.ran x this
    rw [e3]; omega
  · show i = j
    have hij2 : (Function.update sys.workers sys.count _ i).turn =
        (Function.update sys.workers sys.count _ j).turn := hij
    rcases hlt i hi with h1 | h1 <;> rcases hlt j hj with h2 | h2
    · rw [hold i h1, hold j h2] at hij2
      exact hb.turns i j h1 h2 hij2
    · subst h2
      rw [hold i h1, Function.update_same] at hij2
      have := (hb.worker i h1).2.2.2.1
      simp only at hij2
      omega
    · subst h1
      rw [hold j h2, Function.update_same] at hij2
      have := (hb.worker j h2).2.2.2.1
      simp only at hij2
      omega
    · rw [h1, h2]
  · show i = j
    have hij2 : (Function.update sys.workers sys.count _ i).s =
        (Function.update sys.workers sys.count _ j).s := hij
    rcases hlt i hi with h1 | h1 <;> rcases hlt j hj with h2 | h2
    · rw [hold i h1, hold j h2] at hij2
      exact hb.resolvers i j h1 h2 hij2
    · subst h2
      rw [hold i h1, Function.update_same] at hij2
      have := (hb.worker i h1).2.2.2.2.1
      simp only at hij2
      omega
    · subst h1
      rw [hold j h2, Function.update_same] at hij2
      have := (hb.worker j h2).2.2.2.2.1
      simp only at hij2
      omega
    · rw [h1, h2]
  · show i = j
    have hij2 : (Function.update sys.workers sys.count _ i).cell =
        (Function.update sys.workers sys.count _ j).cell := hij
    rcases hlt i hi with h1 | h1 <;> rcases hlt j hj with h2 | h2
    · rw [hold i h1, hold j h2] at hij2
      exact hb.cells i j h1 h2 hij2
    · subst h2
      rw [hold i h1, Function.update_same] at hij2
      have := (hb.worker i h1).2.2.2.2.2.1
      simp only at hij2
      omega
    · subst h1
      rw [hold j h2, Function.update_same] at hij2
      have := (hb.worker j h2).2.2.2.2.2.1
      simp only at hij2
      omega
    · rw [h1, h2]
  · show (Function.update sys.workers sys.count _ i).src < w1.salloc ∧
      (Function.update sys.workers sys.count _ i).turn ≠ Empty ∧
      w1.tf (Function.update sys.workers sys.count _ i).turn =
        .ioResult (Function.update sys.workers sys.count _ i).s
          (Function.update sys.workers sys.count _ i).cell ∧
      (Function.update sys.workers sys.count _ i).turn < w1.talloc ∧
      (Function.update sys.workers sys.count _ i).s < w1.ralloc ∧
      (Function.update sys.workers sys.count _ i).cell < w1.erralloc ∧
      (Function.update sys.workers sys.count _ i).Placed m w1 _
    rcases hlt i hi with h1 | h1
    · rw [hold i h1]
      obtain ⟨g1, g2, g3, g4, g5, g6, g7⟩ := hb.worker i h1
      have n1 : (sys.workers i).turn ≠ sys.w.talloc := by omega
      have n2 : (sys.workers i).s ≠ sys.w.ralloc := by omega
      have n3 : (sys.workers i).cell ≠ sys.w.erralloc := by omega
      refine ⟨by rw [e11]; exact g1, g2, by rw [e2, Function.update_noteq n1]; exact g3,
        by rw [e3]; omega, by rw [e5]; omega, by rw [e7]; omega, ?_⟩
      refine g7.transport (fun h => by rw [e1, Function.update_noteq n1]; exact h)
        (fun h => ⟨by rw [e13]; exact h.1, by rw [e4, Function.update_noteq n2]; exact h.2⟩)
        (by rw [e6, Function.update_noteq n3]) (fun h => Or.inl ?_) (fun h => ?_)
        (fun h => ⟨by rw [e1, Function.update_noteq n1]; exact h.1, by rw [e13]; exact h.2.1,
          by rw [e4, Function.update_noteq n2]; exact h.2.2.1,
          by rw [e4, Function.update_noteq n2]; exact h.2.2.2⟩)
      · rw [Function.update_noteq (hps _)]; exact h
      · rw [Function.update_noteq (hpq _)]; exact h
    · subst h1
      rw [Function.update_same]
      have hp := hb.twf.pos
      refine ⟨by rw [e11]; exact ht2, by simp only [Empty]; omega,
        by rw [e2]; simp, by rw [e3]; simp, by rw [e5]; simp, by rw [e7]; simp, ?_⟩
      unfold Worker.Placed
      simp only
      refine ⟨by rw [e1]; simp, fun hr => ?_, by rw [e4]; simp⟩
      have : sys.w.talloc ∈ w1.ran := hr
      rw [e13] at this
      have := hb.ran _ this
      omega
  · rw [Function.update_noteq (hpq m)] at hx
    obtain ⟨i, hi, h1⟩ := hb.queued x hx
    exact ⟨i, by show i < sys.count + 1; omega, by
      show (Function.update sys.workers sys.count _ i).turn = x
      rw [hold i hi]; exact h1⟩
  · rw [Function.update_noteq (hps j)] at hx
    obtain ⟨i, hi, h1, h2⟩ := hb.listed j x hx
    exact ⟨i, by show i < sys.count + 1; omega, by
      show (Function.update sys.workers sys.count _ i).turn = x
      rw [hold i hi]; exact h1, by
      show (Function.update sys.workers sys.count _ i).src = j
      rw [hold i hi]; exact h2⟩
  · rw [Function.update_noteq (hps j)] at hj
    obtain ⟨e, he, hw2⟩ := hb.wake j hj
    refine ⟨e, by show (w1.src j).event = some e; rw [e9]; exact he, ?_⟩
    rcases hw2 with h1 | ⟨i, hi, h1, h2⟩ | h1 | h1
    · left
      show (w1.ev e).signaled = true
      rw [e10]; exact h1
    · right; left
      exact ⟨i, by show i < sys.count + 1; omega, by
        show (Function.update sys.workers sys.count _ i).src = j
        rw [hold i hi]; exact h1, by
        show (Function.update sys.workers sys.count _ i).pc = .signalling
        rw [hold i hi]; exact h2⟩
    · exact Or.inr (Or.inr (Or.inl h1))
    · exact Or.inr (Or.inr (Or.inr h1))
  · obtain ⟨j, h1, h2⟩ := hb.origin e (by
      have : (w1.ev e).signaled = true := he
      rw [e10] at this; exact this)
    exact ⟨j, by show j < w1.salloc; rw [e11]; exact h1,
      by show (w1.src j).event = some e; rw [e9]; exact h2⟩
  · obtain ⟨j, h1, h2⟩ := hb.held e he
    exact ⟨j, by show j < w1.salloc; rw [e11]; exact h1,
      by show (w1.src j).event = some e; rw [e9]; exact h2⟩

end Drydock


namespace Drydock

/-! ### The I/O bridge: every step keeps the invariant and uses up the bound -/

theorem work_skip {ws : Nat → Worker} {i : Nat} (k2 : Worker) :
    ∀ n, n ≤ i → work (Function.update ws i k2) n = work ws n := by
  intro n
  induction n with
  | zero => intro _; rfl
  | succ n ih =>
    intro h
    have hn : n ≠ i := by omega
    simp only [work, ih (by omega), Function.update_noteq hn]

theorem work_update {ws : Nat → Worker} {i : Nat} (k2 : Worker) :
    ∀ n, i < n → work (Function.update ws i k2) n + (ws i).rest = work ws n + k2.rest := by
  intro n
  induction n with
  | zero => intro h; omega
  | succ n ih =>
    intro h
    simp only [work]
    by_cases hn : i = n
    · subst hn
      rw [work_skip k2 i (le_refl _), Function.update_same]
      omega
    · have := ih (by omega)
      rw [Function.update_noteq (Ne.symm hn)]
      omega

theorem ManagerPc.rest_succ (pc : ManagerPc) (s : Nat) : pc.rest (s + 1) ≤ pc.rest s + 6 := by
  cases pc <;> simp only [ManagerPc.rest] <;> (try split) <;> (try split) <;> omega

theorem ManagerPc.rest_mono (pc : ManagerPc) {s s2 : Nat} (h : s ≤ s2) :
    pc.rest s ≤ pc.rest s2 := by
  cases pc <;> simp only [ManagerPc.rest] <;> (try split) <;> (try split) <;> omega

theorem signals_zero_inv {src : Nat → Source} {ev : Nat → Event} :
    ∀ n, signals src ev n = 0 →
      ∀ j, j < n → ∀ e, (src j).event = some e → (ev e).signaled = false := by
  intro n h j hj e he
  cases hs : (ev e).signaled with
  | false => rfl
  | true =>
    exfalso
    induction n with
    | zero => omega
    | succ n ih =>
      simp only [signals] at h
      by_cases hn : j = n
      · subst hn
        rw [he] at h
        simp only [hs, if_true] at h
        omega
      · exact ih (by omega) (by omega)

/-- A step of a goroutine leaves the goroutine what it is. -/
theorem Worker.step_same {k k2 : Worker} {w w1 : World} (h : k.step w = .ok k2 w1) :
    k2.src = k.src ∧ k2.s = k.s ∧ k2.turn = k.turn ∧ k2.cell = k.cell ∧ k2.ret = k.ret := by
  unfold Worker.step at h
  split at h
  · cases h; exact ⟨rfl, rfl, rfl, rfl, rfl⟩
  · split at h
    · cases h
    · cases h; exact ⟨rfl, rfl, rfl, rfl, rfl⟩
  · split at h
    · cases h
    · cases h; exact ⟨rfl, rfl, rfl, rfl, rfl⟩
  · cases h

/-- A step of a goroutine uses up the bound on the steps left. -/
theorem Bridge.worker_rest {fuel m cell : Nat} {sys : Sys} {el : Slot → List Nat}
    (hb : Bridge fuel m cell sys el) {i : Nat} (hi : i < sys.count) {k2 : Worker} {w1 : World}
    (h : (sys.workers i).step sys.w = .ok k2 w1) :
    Sys.rest ⟨w1, Function.update sys.workers i k2, sys.count, sys.mpc⟩ < sys.rest := by
  obtain ⟨i1, i2, i3, i4, i5, i6, i7⟩ := hb.worker i hi
  have hwk := @work_update sys.workers i k2 sys.count hi
  unfold Sys.rest
  simp only
  unfold Worker.step at h
  cases hp : (sys.workers i).pc with
  | calling =>
    rw [hp] at h
    simp only [Res.ok.injEq] at h
    obtain ⟨h1, h2⟩ := h
    subst h1
    subst h2
    simp only [Worker.rest, hp] at hwk ⊢
    omega
  | locking =>
    rw [hp] at h
    simp only at h
    split at h
    · cases h
    · next hh l ha =>
      simp only [Res.ok.injEq] at h
      obtain ⟨h1, h2⟩ := h
      subst h1
      subst h2
      simp only [Worker.rest, hp] at hwk ⊢
      have hc : signals (Function.update sys.w.src (sys.workers i).src
          { sys.w.src (sys.workers i).src with list := l }) sys.w.ev sys.w.salloc =
          signals sys.w.src sys.w.ev sys.w.salloc :=
        signals_congr _ (fun j _ => by
          by_cases hj : j = (sys.workers i).src
          · rw [hj]; simp
          · simp [Function.update_noteq hj])
      rw [hc]
      omega
  | signalling =>
    rw [hp] at h
    obtain ⟨e, c0, ms, hev, -, -, hop⟩ := hb.registered i1
    simp only [hev, Signal_open hop, Res.ok.injEq] at h
    obtain ⟨h1, h2⟩ := h
    subst h1
    subst h2
    simp only [Worker.rest, hp] at hwk ⊢
    have hfl := @signals_flip sys.w.src sys.w.ev e true sys.w.salloc _ i1 hev
      (fun j _ hj => hb.one_source hj hev)
    simp only [if_true] at hfl
    have h3 : ∀ x, x + (if (sys.w.ev e).signaled = true then 1 else 0) =
        signals sys.w.src sys.w.ev sys.w.salloc + 1 →
        x + sys.mpc.held ≤ (signals sys.w.src sys.w.ev sys.w.salloc + sys.mpc.held) + 1 := by
      intro x hx
      omega
    have h4 := ManagerPc.rest_mono sys.mpc (h3 _ hfl)
    have h5 := ManagerPc.rest_succ sys.mpc (signals sys.w.src sys.w.ev sys.w.salloc +
      sys.mpc.held)
    omega
  | finished =>
    rw [hp] at h
    cases h

/-- Every step of the program keeps the invariant; the goroutines there were stay what they
are; and a step other than a call of `New` uses up the bound on the steps left. -/
theorem Bridge.stepped {fuel m cell : Nat} {sys sys2 : Sys} {el : Slot → List Nat}
    (hb : Bridge fuel m cell sys el) {p : Pick} (h : sys.step fuel m cell p = some sys2) :
    ∃ el2, Bridge fuel m cell sys2 el2 ∧ (p.isStart = false → sys2.rest < sys.rest) ∧
      sys.count ≤ sys2.count ∧
      ∀ i, i < sys.count → (sys2.workers i).src = (sys.workers i).src ∧
        (sys2.workers i).s = (sys.workers i).s ∧ (sys2.workers i).turn = (sys.workers i).turn ∧
        (sys2.workers i).cell = (sys.workers i).cell ∧
        (sys2.workers i).ret = (sys.workers i).ret := by
  cases p with
  | manager =>
    simp only [Sys.step] at h
    split at h
    · next pc w1 hs =>
      simp only [Option.some.injEq] at h
      subst h
      have key : ∃ el2, Bridge fuel m cell ⟨w1, sys.workers, sys.count, pc⟩ el2 ∧
          Sys.rest ⟨w1, sys.workers, sys.count, pc⟩ < sys.rest := by
        cases hm : sys.mpc with
        | select =>
          rw [hm] at hs
          obtain ⟨pc2, w2, h2, hB, hR, -, -⟩ := hb.select hm
          rw [h2] at hs
          cases hs
          exact ⟨el, hB, hR⟩
        | take e =>
          rw [hm] at hs
          obtain ⟨el2, hB, hR, -, -⟩ := (hb.take hm).1 pc w1 hs
          exact ⟨el2, hB, hR⟩
        | snapshot =>
          rw [hm] at hs
          obtain ⟨hB, hR⟩ := (hb.snapshot hm).1 pc w1 hs
          exact ⟨_, hB, hR⟩
        | wait =>
          rw [hm] at hs
          by_cases hz : signals sys.w.src sys.w.ev sys.w.salloc = 0
          · exact absurd hs ((hb.wait hm).2 hz pc w1)
          · obtain ⟨pc2, w2, h2, hB, hR, -, -⟩ := (hb.wait hm).1 (by omega)
            rw [h2] at hs
            cases hs
            exact ⟨el, hB, hR⟩
        | resignal e =>
          rw [hm] at hs
          obtain ⟨pc2, w2, h2, hB, hR, -, -⟩ := hb.resignal hm
          rw [h2] at hs
          cases hs
          exact ⟨el, hB, hR⟩
        | exited => exact absurd hm hb.place.1
      obtain ⟨el2, hB, hR⟩ := key
      exact ⟨el2, hB, fun _ => hR, le_refl _, fun i _ => ⟨rfl, rfl, rfl, rfl, rfl⟩⟩
    · cases h
  | worker i =>
    simp only [Sys.step] at h
    split at h
    · next hi =>
      split at h
      · next k2 w1 hs =>
        simp only [Option.some.injEq] at h
        subst h
        have hR := hb.worker_rest hi hs
        have hsame : ∀ j, j < sys.count →
            (Function.update sys.workers i k2 j).src = (sys.workers j).src ∧
            (Function.update sys.workers i k2 j).s = (sys.workers j).s ∧
            (Function.update sys.workers i k2 j).turn = (sys.workers j).turn ∧
            (Function.update sys.workers i k2 j).cell = (sys.workers j).cell ∧
            (Function.update sys.workers i k2 j).ret = (sys.workers j).ret := by
          intro j _
          by_cases hj : j = i
          · subst hj
            rw [Function.update_same]
            exact Worker.step_same hs
          · rw [Function.update_noteq hj]
            exact ⟨rfl, rfl, rfl, rfl, rfl⟩
        cases hp : (sys.workers i).pc with
        | calling => exact ⟨_, hb.calling hi hp hs, fun _ => hR, le_refl _, hsame⟩
        | locking => exact ⟨_, hb.locking hi hp hs, fun _ => hR, le_refl _, hsame⟩
        | signalling => exact ⟨_, hb.signalling hi hp hs, fun _ => hR, le_refl _, hsame⟩
        | finished =>
          unfold Worker.step at hs
          rw [hp] at hs
          cases hs
      · cases h
    · cases h
  | start t ret =>
    simp only [Sys.step] at h
    split at h
    · next k w1 hs =>
      simp only [Option.some.injEq] at h
      subst h
      obtain ⟨hB, -, -, -⟩ := hb.started ret hs
      refine ⟨_, hB, fun hc => by simp [Pick.isStart] at hc, Nat.le_succ _, fun i hi => ?_⟩
      have : i ≠ sys.count := by omega
      show (Function.update sys.workers sys.count k i).src = _ ∧
        (Function.update sys.workers sys.count k i).s = _ ∧
        (Function.update sys.workers sys.count k i).turn = _ ∧
        (Function.update sys.workers sys.count k i).cell = _ ∧
        (Function.update sys.workers sys.count k i).ret = _
      rw [Function.update_noteq this]
      exact ⟨rfl, rfl, rfl, rfl, rfl⟩
    · cases h

/-- Along every schedule the invariant holds, the goroutines stay what they are, and a
schedule without a call of `New` is no longer than the bound on the steps left. -/
theorem Bridge.run {fuel m cell : Nat} :
    ∀ (sched : List Pick) {sys sys2 : Sys} {el : Slot → List Nat},
      Bridge fuel m cell sys el → Sys.run fuel m cell sched sys = some sys2 →
      ∃ el2, Bridge fuel m cell sys2 el2 ∧
        ((∀ p ∈ sched, p.isStart = false) → sched.length + sys2.rest ≤ sys.rest) ∧
        sys.count ≤ sys2.count ∧
        ∀ i, i < sys.count → (sys2.workers i).src = (sys.workers i).src ∧
          (sys2.workers i).s = (sys.workers i).s ∧
          (sys2.workers i).turn = (sys.workers i).turn ∧
          (sys2.workers i).cell = (sys.workers i).cell ∧
          (sys2.workers i).ret = (sys.workers i).ret := by
  intro sched
  induction sched with
  | nil =>
    intro sys sys2 el hb h
    simp only [Sys.run, Option.some.injEq] at h
    subst h
    exact ⟨el, hb, fun _ => by simp, le_refl _, fun i _ => ⟨rfl, rfl, rfl, rfl, rfl⟩⟩
  | cons p rest ih =>
    intro sys sys2 el hb h
    simp only [Sys.run] at h
    split at h
    · next sys1 hs =>
      obtain ⟨el1, hB1, hR1, hC1, hS1⟩ := hb.stepped hs
      obtain ⟨el2, hB2, hR2, hC2, hS2⟩ := ih hB1 h
      refine ⟨el2, hB2, fun hall => ?_, le_trans hC1 hC2, fun i hi => ?_⟩
      · have h1 := hR1 (hall p (List.mem_cons_self _ _))
        have h2 := hR2 (fun q hq => hall q (List.mem_cons_of_mem _ hq))
        simp only [List.length_cons]
        omega
      · obtain ⟨a1, a2, a3, a4, a5⟩ := hS1 i hi
        obtain ⟨b1, b2, b3, b4, b5⟩ := hS2 i (by omega)
        exact ⟨b1.trans a1, b2.trans a2, b3.trans a3, b4.trans a4, b5.trans a5⟩
    · cases h

theorem length_le_of_index {xs : List Nat} (hnd : xs.Nodup) (f : Nat → Nat) (n : Nat)
    (h : ∀ t ∈ xs, ∃ i, i < n ∧ f i = t) : xs.length ≤ n := by
  have hsub : xs ⊆ (List.range n).map f := fun t ht => by
    obtain ⟨i, hi, e⟩ := h t ht
    exact List.mem_map.2 ⟨i, List.mem_range.2 hi, e⟩
  have := (List.subperm_of_subset hnd hsub).length_le
  simpa using this

/-- The queue of the manager and the list of a source hold no more turns than there are
goroutines. -/
theorem Bridge.length_le {fuel m cell : Nat} {sys : Sys} {el : Slot → List Nat}
    (hb : Bridge fuel m cell sys el) :
    (el (.queue m)).length ≤ sys.count ∧ ∀ j, (el (.source j)).length ≤ sys.count := by
  constructor
  · exact length_le_of_index (hb.twf.lists.rings (.queue m) _ rfl).2.2.1
      (fun i => (sys.workers i).turn) _ (fun t ht => hb.queued t ht)
  · intro j
    exact length_le_of_index (hb.twf.lists.rings (.source j) _ rfl).2.2.1
      (fun i => (sys.workers i).turn) _ (fun t ht => by
        obtain ⟨i, hi, h1, -⟩ := hb.listed j t ht
        exact ⟨i, hi, h1⟩)

/-- The thread of the manager has a step, unless it stands at `Wait` and no event holds a
signal; the fuel covers the goroutines. -/
theorem Bridge.manager_step {fuel m cell : Nat} {sys : Sys} {el : Slot → List Nat}
    (hb : Bridge fuel m cell sys el) (hfuel : sys.count ≤ fuel) :
    (∃ sys2, sys.step fuel m cell .manager = some sys2) ∨
      (sys.mpc = .wait ∧ signals sys.w.src sys.w.ev sys.w.salloc = 0) := by
  have hok : ∀ pc w1, Manager.threadStep fuel m cell sys.mpc sys.w = .ok pc w1 →
      ∃ sys2, sys.step fuel m cell .manager = some sys2 := by
    intro pc w1 h
    simp only [Sys.step, h]
    exact ⟨_, rfl⟩
  cases hm : sys.mpc with
  | select =>
    obtain ⟨pc2, w2, h2, -⟩ := hb.select hm
    exact Or.inl (hok pc2 w2 (by rw [hm]; exact h2))
  | take e =>
    obtain ⟨pc2, w2, h2⟩ := (hb.take hm).2 (le_trans (hb.length_le.2 _) hfuel)
    exact Or.inl (hok pc2 w2 (by rw [hm]; exact h2))
  | snapshot =>
    obtain ⟨pc2, w2, h2⟩ := (hb.snapshot hm).2 (le_trans hb.length_le.1 hfuel)
    exact Or.inl (hok pc2 w2 (by rw [hm]; exact h2))
  | wait =>
    by_cases hz : signals sys.w.src sys.w.ev sys.w.salloc = 0
    · exact Or.inr ⟨rfl, hz⟩
    · obtain ⟨pc2, w2, h2, -⟩ := (hb.wait hm).1 (by omega)
      exact Or.inl (hok pc2 w2 (by rw [hm]; exact h2))
  | resignal e =>
    obtain ⟨pc2, w2, h2, -⟩ := hb.resignal hm
    exact Or.inl (hok pc2 w2 (by rw [hm]; exact h2))
  | exited => exact absurd hm hb.place.1

/-- No wake-up is lost: when the thread of the manager stands at `Wait` and no event holds
a signal, the result of every goroutine that has signalled is resolved, unless a goroutine of
the same source has yet to signal. -/
theorem Bridge.blocked {fuel m cell : Nat} {sys : Sys} {el : Slot → List Nat}
    (hb : Bridge fuel m cell sys el) (hpc : sys.mpc = .wait)
    (hz : signals sys.w.src sys.w.ev sys.w.salloc = 0) {i : Nat} (hi : i < sys.count)
    (hfin : (sys.workers i).pc = .finished) :
    (sys.workers i).Delivered sys.w ∨
      ∃ i2, i2 < sys.count ∧ (sys.workers i2).src = (sys.workers i).src ∧
        (sys.workers i2).pc = .signalling := by
  obtain ⟨g1, g2, g3, g4, g5, g6, g7⟩ := hb.worker i hi
  unfold Worker.Placed at g7
  rw [hfin] at g7
  rcases g7.2 with h | h | h
  · obtain ⟨e, he, hw⟩ := hb.wake (sys.workers i).src (List.ne_nil_of_mem h.1)
    rcases hw with hw | hw | hw | hw
    · have := signals_zero_inv _ hz _ g1 e he
      rw [this] at hw
      cases hw
    · exact Or.inr hw
    · rw [hpc] at hw; cases hw
    · rw [hpc] at hw; cases hw
  · rw [hb.place.2.1 hpc] at h
    simp at h
  · exact Or.inl h

end Drydock


namespace Drydock

/-! ### The I/O bridge: delivery -/

/-- When no thread has a step, the result of every goroutine is resolved. -/
theorem Bridge.idle {fuel m cell : Nat} {sys : Sys} {el : Slot → List Nat}
    (hb : Bridge fuel m cell sys el) (hfuel : sys.count ≤ fuel)
    (hidle : ∀ p, p.isStart = false → sys.step fuel m cell p = none) {i : Nat}
    (hi : i < sys.count) : (sys.workers i).Delivered sys.w := by
  have hfin : ∀ j, j < sys.count → (sys.workers j).pc = .finished := by
    intro j hj
    by_contra hne
    obtain ⟨k2, w1, hs⟩ := hb.worker_enabled hj hne
    have := hidle (.worker j) rfl
    simp only [Sys.step, hj, if_true, hs] at this
    cases this
  rcases hb.manager_step hfuel with ⟨sys2, h2⟩ | ⟨hw, hz⟩
  · rw [hidle .manager rfl] at h2
    cases h2
  · rcases hb.blocked hw hz hi (hfin i hi) with h | ⟨i2, hi2, -, hp⟩
    · exact h
    · rw [hfin i2 hi2] at hp
      cases hp

end Drydock
